import Mathlib

/-! s21 containers: the red-black tree engine of `s21_redblack_tree.h`, the list of
`s21_list.h` and the vector of `s21_vector.h`

The tree of the source is a pointer structure: every node carries a colour and
`parent`, `left`, `right` links, and one header node per tree anchors the root
(`header_->parent`) and caches the extreme nodes (`header_->left`,
`header_->right`).  The embedding keeps that shape: memory is a map from
addresses to nodes, a pointer is an optional address (`none` is `nullptr`),
and every member function is a function on memory and on the four fields of the
tree object.  Dereferencing a null or freed pointer is a `Fault`, and every
`while` loop of the source is a recursion on an explicit iteration budget.
-/

namespace s21

/-- Colour tag of a node (`enum class Color`). -/
inductive Color where
  | RED
  | BLACK
  deriving DecidableEq, Repr

/-- A pointer to a node: `none` is `nullptr`, `some a` is the address `a`. -/
abbrev Ptr := Option Nat

/-- The node record `struct Node`: the key/payload pair, the colour and the three links. -/
structure Node (K V : Type) where
  data : K × V
  color : Color
  parent : Ptr
  left : Ptr
  right : Ptr

/-- What stops a run early: a null or freed pointer was dereferenced, a loop used up its
iteration budget, an array element outside the allocated storage was accessed, or a
condition that a checked run asserts did not hold. -/
inductive Fault where
  | nullDeref
  | outOfFuel
  | outOfBounds
  | checkFailed
  deriving DecidableEq, Repr

/-- Memory: the allocated cells and the next address `new` hands out. -/
structure Mem (K V : Type) where
  cells : Nat → Option (Node K V)
  next : Nat

/-- The fields of a `RedBlackTree` object.  `size_` is a `std::size_t`: `++size_` counts
nodes that each occupy storage of their own, so it cannot reach `2 ^ 64` and is modelled
without a bound; `--size_` on zero wraps to `2 ^ 64 - 1`. -/
structure RedBlackTree where
  header_ : Nat
  size_ : Nat
  min_node_ : Ptr
  max_node_ : Ptr
  deriving DecidableEq, Repr

/-- Iterator of the tree (`MapIterator`): the current node and the header. -/
structure MapIterator where
  current_ : Ptr
  header_ptr_ : Ptr
  deriving DecidableEq, Repr

section Memory

variable {K V : Type}

/-- Memory with nothing allocated. -/
def Mem.empty : Mem K V := ⟨fun _ => none, 0⟩

/-- Read the node a pointer refers to (`*p`). -/
def Mem.read (m : Mem K V) (p : Ptr) : Except Fault (Node K V) :=
  match p with
  | none => .error .nullDeref
  | some a =>
    match m.cells a with
    | none => .error .nullDeref
    | some n => .ok n

/-- Overwrite the cell at address `a`. -/
def Mem.put (m : Mem K V) (a : Nat) (n : Node K V) : Mem K V :=
  ⟨fun b => if b = a then some n else m.cells b, m.next⟩

/-- Apply a field update to the node a pointer refers to. -/
def Mem.modify (m : Mem K V) (p : Ptr) (f : Node K V → Node K V) : Except Fault (Mem K V) :=
  match p with
  | none => .error .nullDeref
  | some a =>
    match m.cells a with
    | none => .error .nullDeref
    | some n => .ok (m.put a (f n))

/-- The assignment `p->color = c`. -/
def Mem.setColor (m : Mem K V) (p : Ptr) (c : Color) : Except Fault (Mem K V) :=
  m.modify p (fun n => { n with color := c })

/-- The assignment `p->parent = v`. -/
def Mem.setParent (m : Mem K V) (p : Ptr) (v : Ptr) : Except Fault (Mem K V) :=
  m.modify p (fun n => { n with parent := v })

/-- The assignment `p->left = v`. -/
def Mem.setLeft (m : Mem K V) (p : Ptr) (v : Ptr) : Except Fault (Mem K V) :=
  m.modify p (fun n => { n with left := v })

/-- The assignment `p->right = v`. -/
def Mem.setRight (m : Mem K V) (p : Ptr) (v : Ptr) : Except Fault (Mem K V) :=
  m.modify p (fun n => { n with right := v })

/-- Allocation `new Node_t(val)`: a RED node with null links at a fresh address. -/
def Mem.alloc (m : Mem K V) (val : K × V) : Nat × Mem K V :=
  (m.next, ⟨fun b => if b = m.next then some ⟨val, .RED, none, none, none⟩ else m.cells b,
            m.next + 1⟩)

/-- Deallocation `delete p` of a node. -/
def Mem.free (m : Mem K V) (p : Ptr) : Except Fault (Mem K V) :=
  match p with
  | none => .ok m
  | some a =>
    match m.cells a with
    | none => .error .nullDeref
    | some _ => .ok ⟨fun b => if b = a then none else m.cells b, m.next⟩

/-- The field read `p->parent`. -/
def Mem.parent (m : Mem K V) (p : Ptr) : Except Fault Ptr :=
  (m.read p).map (fun n => n.parent)

/-- The field read `p->left`. -/
def Mem.left (m : Mem K V) (p : Ptr) : Except Fault Ptr :=
  (m.read p).map (fun n => n.left)

/-- The field read `p->right`. -/
def Mem.right (m : Mem K V) (p : Ptr) : Except Fault Ptr :=
  (m.read p).map (fun n => n.right)

/-- The field read `p->color`. -/
def Mem.color (m : Mem K V) (p : Ptr) : Except Fault Color :=
  (m.read p).map (fun n => n.color)

/-- The field read `p->data.first`. -/
def Mem.key (m : Mem K V) (p : Ptr) : Except Fault K :=
  (m.read p).map (fun n => n.data.1)

/-- The test `p && p->color == Color::RED`. -/
def Mem.isRed (m : Mem K V) (p : Ptr) : Except Fault Bool :=
  match p with
  | none => .ok false
  | some _ => (m.color p).map (fun c => decide (c = Color.RED))

/-- The test `!p || p->color == Color::BLACK`. -/
def Mem.isBlack (m : Mem K V) (p : Ptr) : Except Fault Bool :=
  match p with
  | none => .ok true
  | some _ => (m.color p).map (fun c => decide (c = Color.BLACK))

/-- The statement `if (p) p->color = c;`. -/
def Mem.setColorIf (m : Mem K V) (p : Ptr) (c : Color) : Except Fault (Mem K V) :=
  match p with
  | none => .ok m
  | some _ => m.setColor p c

/-- The field read `p->data.second`. -/
def Mem.payload (m : Mem K V) (p : Ptr) : Except Fault V :=
  (m.read p).map (fun n => n.data.2)

/-- The assignment `p->data.second = v`. -/
def Mem.setPayload (m : Mem K V) (p : Ptr) (v : V) : Except Fault (Mem K V) :=
  m.modify p (fun n => { n with data := (n.data.1, v) })

end Memory

section Engine

variable {K V : Type} [LinearOrder K]

/-- The constructor `RedBlackTree()`: a BLACK header whose cache links point at itself;
`min_node_` and `max_node_` keep their null initialisers. -/
def RedBlackTree.create [Inhabited K] [Inhabited V] (m : Mem K V) : Mem K V × RedBlackTree :=
  let r := m.alloc (default : K × V)
  (r.2.put r.1 ⟨default, .BLACK, none, some r.1, some r.1⟩, ⟨r.1, 0, none, none⟩)

/-- Source function `rotate_left(x)`. -/
def rotate_left (header_ : Nat) (m : Mem K V) (x : Ptr) : Except Fault (Mem K V) := do
  let y ← m.right x
  let yl ← m.left y
  let m ← m.setRight x yl
  let yl ← m.left y
  let m ← if yl ≠ none then m.setParent yl x else pure m
  let xp ← m.parent x
  let m ← m.setParent y xp
  let xp ← m.parent x
  let m ←
    if xp = some header_ then m.setParent (some header_) y
    else do
      let xpl ← m.left xp
      if x = xpl then m.setLeft xp y else m.setRight xp y
  let m ← m.setLeft y x
  m.setParent x y

/-- Source function `rotate_right(y)`. -/
def rotate_right (header_ : Nat) (m : Mem K V) (y : Ptr) : Except Fault (Mem K V) := do
  let x ← m.left y
  let xr ← m.right x
  let m ← m.setLeft y xr
  let xr ← m.right x
  let m ← if xr ≠ none then m.setParent xr y else pure m
  let yp ← m.parent y
  let m ← m.setParent x yp
  let yp ← m.parent y
  let m ←
    if yp = some header_ then m.setParent (some header_) x
    else do
      let ypr ← m.right yp
      if y = ypr then m.setRight yp x else m.setLeft yp x
  let m ← m.setRight x y
  m.setParent y x

/-- The `while` loop of `insert_rebalance(z)`; one unit of the budget per test of the
loop condition. -/
def insert_rebalance_loop (header_ : Nat) : Nat → Mem K V → Ptr → Except Fault (Mem K V)
  | 0, _, _ => .error .outOfFuel
  | fuel + 1, m, z => do
    let root ← m.parent (some header_)
    if z = root then pure m else
    let p ← m.parent z
    let pc ← m.color p
    if pc ≠ Color.RED then pure m else
    let g ← m.parent p
    let gl ← m.left g
    if p = gl then do
      let u ← m.right g
      let uRed ← m.isRed u
      if uRed then do
        let m ← m.setColor p .BLACK
        let m ← m.setColor u .BLACK
        let root ← m.parent (some header_)
        let m ← if g ≠ root then m.setColor g .RED else pure m
        insert_rebalance_loop header_ fuel m g
      else do
        let pr ← m.right p
        if z = pr then do
          let m ← rotate_left header_ m p
          let z ← m.left z
          let p ← m.parent z
          let m ← m.setColor p .BLACK
          let m ← m.setColor g .RED
          rotate_right header_ m g
        else do
          let m ← m.setColor p .BLACK
          let m ← m.setColor g .RED
          rotate_right header_ m g
    else do
      let u ← m.left g
      let uRed ← m.isRed u
      if uRed then do
        let m ← m.setColor p .BLACK
        let m ← m.setColor u .BLACK
        let root ← m.parent (some header_)
        let m ← if g ≠ root then m.setColor g .RED else pure m
        insert_rebalance_loop header_ fuel m g
      else do
        let pl ← m.left p
        if z = pl then do
          let m ← rotate_right header_ m p
          let z ← m.right z
          let p ← m.parent z
          let m ← m.setColor p .BLACK
          let m ← m.setColor g .RED
          rotate_left header_ m g
        else do
          let m ← m.setColor p .BLACK
          let m ← m.setColor g .RED
          rotate_left header_ m g

/-- Source function `insert_rebalance(z)`: the loop, then the root is forced BLACK. -/
def insert_rebalance (fuel : Nat) (header_ : Nat) (m : Mem K V) (z : Ptr) :
    Except Fault (Mem K V) := do
  let m ← insert_rebalance_loop header_ fuel m z
  let root ← m.parent (some header_)
  m.setColorIf root .BLACK

/-- Source function `transplant(u, v)`. -/
def transplant (header_ : Nat) (m : Mem K V) (u v : Ptr) : Except Fault (Mem K V) := do
  let up ← m.parent u
  let m ←
    if up = some header_ then m.setParent (some header_) v
    else do
      let upl ← m.left up
      if u = upl then m.setLeft up v else m.setRight up v
  if v ≠ none then do
    let up ← m.parent u
    m.setParent v up
  else pure m

/-- Source function `attach_node(new_node, parent)`. -/
def attach_node (header_ : Nat) (m : Mem K V) (new_node parent : Ptr) :
    Except Fault (Mem K V × Ptr) := do
  let key ← m.key new_node
  let m ← m.setParent new_node parent
  if parent = some header_ then do
    let m ← m.setParent (some header_) new_node
    pure (m, new_node)
  else do
    let pk ← m.key parent
    if key < pk then do
      let m ← m.setLeft parent new_node
      pure (m, new_node)
    else do
      let m ← m.setRight parent new_node
      pure (m, new_node)

/-- Source function `update_min_max_nodes(n)`. -/
def update_min_max_nodes (m : Mem K V) (t : RedBlackTree) (n : Ptr) :
    Except Fault (Mem K V × RedBlackTree) := do
  let lower ← (match t.min_node_ with
    | none => pure true
    | some _ => do
      let nk ← m.key n
      let mk ← m.key t.min_node_
      pure (decide (nk < mk)))
  let (m, t) ← (if lower then do
      let m ← m.setLeft (some t.header_) n
      pure (m, { t with min_node_ := n })
    else pure (m, t))
  let higher ← (match t.max_node_ with
    | none => pure true
    | some _ => do
      let xk ← m.key t.max_node_
      let nk ← m.key n
      pure (decide (xk < nk)))
  if higher then do
    let m ← m.setRight (some t.header_) n
    pure (m, { t with max_node_ := n })
  else pure (m, t)

/-- The descent loop of `insert_unique`: the node holding an equivalent key
(`Sum.inl`), or the node under which the key is to be attached (`Sum.inr`). -/
def insert_unique_descend (key : K) : Nat → Mem K V → Ptr → Ptr → Except Fault (Ptr ⊕ Ptr)
  | 0, _, _, _ => .error .outOfFuel
  | fuel + 1, m, cur, par =>
    match cur with
    | none => .ok (.inr par)
    | some _ => do
      let ck ← m.key cur
      if key < ck then do
        let l ← m.left cur
        insert_unique_descend key fuel m l cur
      else if ck < key then do
        let r ← m.right cur
        insert_unique_descend key fuel m r cur
      else pure (.inl cur)

/-- Source function `insert_unique(val)`; the result is the returned pair with the
memory and the tree object after the call. -/
def insert_unique (fuel : Nat) (m : Mem K V) (t : RedBlackTree) (val : K × V) :
    Except Fault ((Ptr × Bool) × Mem K V × RedBlackTree) := do
  let cur ← m.parent (some t.header_)
  let d ← insert_unique_descend val.1 fuel m cur (some t.header_)
  match d with
  | .inl found => pure ((found, false), m, t)
  | .inr par => do
    let (a, m) := m.alloc val
    let (m, result) ← attach_node t.header_ m (some a) par
    let t := { t with size_ := t.size_ + 1 }
    let m ← insert_rebalance fuel t.header_ m result
    let (m, t) ← update_min_max_nodes m t result
    pure ((result, true), m, t)

/-- Source function `find_insertion_point_equal(key)`. -/
def find_insertion_point_equal (key : K) : Nat → Mem K V → Ptr → Ptr → Except Fault Ptr
  | 0, _, _, _ => .error .outOfFuel
  | fuel + 1, m, current, parent =>
    match current with
    | none => .ok parent
    | some _ => do
      let ck ← m.key current
      if key < ck then do
        let l ← m.left current
        find_insertion_point_equal key fuel m l current
      else do
        let r ← m.right current
        find_insertion_point_equal key fuel m r current

/-- Source function `insert_equal(value)`. -/
def insert_equal (fuel : Nat) (m : Mem K V) (t : RedBlackTree) (value : K × V) :
    Except Fault (Ptr × Mem K V × RedBlackTree) := do
  let root ← m.parent (some t.header_)
  let parent ← find_insertion_point_equal value.1 fuel m root (some t.header_)
  let (a, m) := m.alloc value
  let (m, result) ← attach_node t.header_ m (some a) parent
  let m ← insert_rebalance fuel t.header_ m result
  let (m, t) ← update_min_max_nodes m t result
  let t := { t with size_ := t.size_ + 1 }
  pure (result, m, t)

/-- Source function `find_min(n)`: `while (n && n->left) n = n->left`. -/
def find_min : Nat → Mem K V → Ptr → Except Fault Ptr
  | 0, _, _ => .error .outOfFuel
  | fuel + 1, m, n =>
    match n with
    | none => .ok none
    | some _ => do
      let l ← m.left n
      if l ≠ none then find_min fuel m l else pure n

/-- Source function `find_max(n)`: `while (n && n->right) n = n->right`. -/
def find_max : Nat → Mem K V → Ptr → Except Fault Ptr
  | 0, _, _ => .error .outOfFuel
  | fuel + 1, m, n =>
    match n with
    | none => .ok none
    | some _ => do
      let r ← m.right n
      if r ≠ none then find_max fuel m r else pure n

/-- Source function `update_min_max_nodes_after_erase()`. -/
def update_min_max_nodes_after_erase (fuel : Nat) (m : Mem K V) (t : RedBlackTree) :
    Except Fault (Mem K V × RedBlackTree) := do
  let root ← m.parent (some t.header_)
  if root = none then do
    let t := { t with min_node_ := none, max_node_ := none }
    let m ← m.setLeft (some t.header_) (some t.header_)
    let m ← m.setRight (some t.header_) (some t.header_)
    pure (m, t)
  else do
    let mn ← find_min fuel m root
    let mx ← find_max fuel m root
    let t := { t with min_node_ := mn, max_node_ := mx }
    let m ← m.setLeft (some t.header_) t.min_node_
    let m ← m.setRight (some t.header_) t.max_node_
    pure (m, t)

/-- The `while` loop of `erase_rebalance(x, parent)`; the result carries the final `x`. -/
def erase_rebalance_loop (header_ : Nat) :
    Nat → Mem K V → Ptr → Ptr → Except Fault (Mem K V × Ptr)
  | 0, _, _, _ => .error .outOfFuel
  | fuel + 1, m, x, parent => do
    let root ← m.parent (some header_)
    if x = root then pure (m, x) else
    let xb ← m.isBlack x
    if !xb then pure (m, x) else
    let p ← (match x with
      | none => pure parent
      | some _ => m.parent x)
    if p = none then pure (m, x) else
    let pl ← m.left p
    let x_is_left := decide (x = pl)
    let pl ← m.left p
    let x_is_left := if x = none then decide (pl = none) else x_is_left
    let w ← (if x_is_left then m.right p else m.left p)
    let wRed ← m.isRed w
    let (m, w) ← (if wRed then do
        let m ← m.setColor w .BLACK
        let m ← m.setColor p .RED
        let m ← (if x_is_left then rotate_left header_ m p else rotate_right header_ m p)
        let w ← (if x_is_left then m.right p else m.left p)
        pure (m, w)
      else pure (m, w))
    let wl ← (match w with
      | none => pure none
      | some _ => m.left w)
    let wr ← (match w with
      | none => pure none
      | some _ => m.right w)
    let wl_black ← m.isBlack wl
    let wr_black ← m.isBlack wr
    if wl_black && wr_black then do
      let m ← m.setColorIf w .RED
      let x := p
      let parent ← m.parent x
      erase_rebalance_loop header_ fuel m x parent
    else do
      let m ← (if x_is_left then do
          let (m, w, wr) ← (if wr_black then do
              let m ← m.setColorIf wl .BLACK
              let m ← m.setColorIf w .RED
              let m ← rotate_right header_ m w
              let w ← m.right p
              let wr ← (match w with
                | none => pure none
                | some _ => m.right w)
              pure (m, w, wr)
            else pure (m, w, wr))
          let m ← (match w with
            | none => pure m
            | some _ => do
              let pc ← m.color p
              m.setColor w pc)
          let m ← m.setColor p .BLACK
          let m ← m.setColorIf wr .BLACK
          rotate_left header_ m p
        else do
          let (m, w, wl) ← (if wl_black then do
              let m ← m.setColorIf wr .BLACK
              let m ← m.setColorIf w .RED
              let m ← rotate_left header_ m w
              let w ← m.left p
              let wl ← (match w with
                | none => pure none
                | some _ => m.left w)
              pure (m, w, wl)
            else pure (m, w, wl))
          let m ← (match w with
            | none => pure m
            | some _ => do
              let pc ← m.color p
              m.setColor w pc)
          let m ← m.setColor p .BLACK
          let m ← m.setColorIf wl .BLACK
          rotate_right header_ m p)
      let x ← m.parent (some header_)
      erase_rebalance_loop header_ fuel m x parent

/-- Source function `erase_rebalance(x, parent)`. -/
def erase_rebalance (fuel : Nat) (header_ : Nat) (m : Mem K V) (x parent : Ptr) :
    Except Fault (Mem K V) := do
  let (m, x) ← erase_rebalance_loop header_ fuel m x parent
  m.setColorIf x .BLACK

/-- The loop `while (y->left) y = y->left` of `erase`. -/
def erase_leftmost : Nat → Mem K V → Ptr → Except Fault Ptr
  | 0, _, _ => .error .outOfFuel
  | fuel + 1, m, y => do
    let l ← m.left y
    if l ≠ none then erase_leftmost fuel m l else pure y

/-- Source function `erase(Node_t* z)`. -/
def erase (fuel : Nat) (m : Mem K V) (t : RedBlackTree) (z : Ptr) :
    Except Fault (Mem K V × RedBlackTree) := do
  if z = none ∨ z = some t.header_ then pure (m, t) else
  let y_color ← m.color z
  let zl ← m.left z
  let (m, x, x_parent, y_color) ← (if zl = none then do
      let x ← m.right z
      let x_parent ← m.parent z
      let zr ← m.right z
      let m ← transplant t.header_ m z zr
      let x_parent ← (if x ≠ none then m.parent x else pure x_parent)
      pure (m, x, x_parent, y_color)
    else do
      let zr ← m.right z
      if zr = none then do
        let x ← m.left z
        let x_parent ← m.parent z
        let zl ← m.left z
        let m ← transplant t.header_ m z zl
        let x_parent ← (if x ≠ none then m.parent x else pure x_parent)
        pure (m, x, x_parent, y_color)
      else do
        let y ← m.right z
        let y ← erase_leftmost fuel m y
        let y_color ← m.color y
        let x ← m.right y
        let yp ← m.parent y
        let (m, x_parent) ← (if yp ≠ z then do
            let x_parent ← m.parent y
            let yr ← m.right y
            let m ← transplant t.header_ m y yr
            let yr ← m.right y
            let m ← (if yr ≠ none then m.setParent yr y else pure m)
            let zr ← m.right z
            let m ← m.setRight y zr
            let yr ← m.right y
            let m ← m.setParent yr y
            pure (m, x_parent)
          else do
            let m ← (if x ≠ none then m.setParent x y else pure m)
            pure (m, y))
        let m ← transplant t.header_ m z y
        let zl ← m.left z
        let m ← m.setLeft y zl
        let yl ← m.left y
        let m ← m.setParent yl y
        let zc ← m.color z
        let m ← m.setColor y zc
        pure (m, x, x_parent, y_color))
  let m ← m.free z
  let t := { t with size_ := if t.size_ = 0 then 2 ^ 64 - 1 else t.size_ - 1 }
  let m ← (if y_color = Color.BLACK then erase_rebalance fuel t.header_ m x x_parent else pure m)
  update_min_max_nodes_after_erase fuel m t

/-- Source function `size()`. -/
def RedBlackTree.size (t : RedBlackTree) : Nat := t.size_

/-- Source function `empty()`. -/
def RedBlackTree.empty (t : RedBlackTree) : Bool := decide (t.size_ = 0)

/-- Source function `begin()`. -/
def RedBlackTree.begin (t : RedBlackTree) : MapIterator :=
  if t.size_ = 0 then ⟨some t.header_, some t.header_⟩ else ⟨t.min_node_, some t.header_⟩

/-- Source function `end()`. -/
def RedBlackTree.end (t : RedBlackTree) : MapIterator :=
  ⟨some t.header_, some t.header_⟩

/-- Iterator comparison `operator==`: only the current nodes are compared. -/
def MapIterator.eq (a b : MapIterator) : Bool := decide (a.current_ = b.current_)

/-- Source function `find_node(key)`. -/
def find_node (key : K) : Nat → Mem K V → Ptr → Except Fault Ptr
  | 0, _, _ => .error .outOfFuel
  | fuel + 1, m, cur =>
    match cur with
    | none => .ok none
    | some _ => do
      let ck ← m.key cur
      if key < ck then do
        let l ← m.left cur
        find_node key fuel m l
      else if ck < key then do
        let r ← m.right cur
        find_node key fuel m r
      else pure cur

/-- Source function `find(key)`. -/
def find (fuel : Nat) (m : Mem K V) (t : RedBlackTree) (key : K) : Except Fault MapIterator := do
  let root ← m.parent (some t.header_)
  let n ← find_node key fuel m root
  if n ≠ none then pure ⟨n, some t.header_⟩ else pure t.end

/-- The loop `while (current_->left) current_ = current_->left` of `operator++`. -/
def increment_descend : Nat → Mem K V → Ptr → Except Fault Ptr
  | 0, _, _ => .error .outOfFuel
  | fuel + 1, m, c => do
    let l ← m.left c
    if l ≠ none then increment_descend fuel m l else pure c

/-- The loop `while (p && current_ == p->right)` of `operator++`; the result is the
final `p`. -/
def increment_ascend : Nat → Mem K V → Ptr → Ptr → Except Fault Ptr
  | 0, _, _, _ => .error .outOfFuel
  | fuel + 1, m, c, p =>
    match p with
    | none => .ok none
    | some _ => do
      let pr ← m.right p
      if c = pr then do
        let pp ← m.parent p
        increment_ascend fuel m p pp
      else pure p

/-- Source function `MapIterator::operator++()`. -/
def MapIterator.increment (fuel : Nat) (m : Mem K V) (it : MapIterator) :
    Except Fault MapIterator := do
  if it.current_ = none then pure it else
  let r ← m.right it.current_
  if r ≠ none then do
    let c ← increment_descend fuel m r
    pure { it with current_ := c }
  else do
    let p ← m.parent it.current_
    let c ← increment_ascend fuel m it.current_ p
    pure { it with current_ := c }

/-- Source function `erase(iterator pos)`. -/
def erase_iterator (fuel : Nat) (m : Mem K V) (t : RedBlackTree) (pos : MapIterator) :
    Except Fault (MapIterator × Mem K V × RedBlackTree) := do
  if pos.eq t.end then pure (t.end, m, t) else
  let next_it ← pos.increment fuel m
  let (m, t) ← erase fuel m t pos.current_
  pure (next_it, m, t)

/-- The loop of `lower_bound(key)`; the result is the final `result`. -/
def lower_bound_loop (key : K) : Nat → Mem K V → Ptr → Ptr → Except Fault Ptr
  | 0, _, _, _ => .error .outOfFuel
  | fuel + 1, m, current, result =>
    match current with
    | none => .ok result
    | some _ => do
      let ck ← m.key current
      if ¬ (ck < key) then do
        let l ← m.left current
        lower_bound_loop key fuel m l current
      else do
        let r ← m.right current
        lower_bound_loop key fuel m r result

/-- Source function `lower_bound(key)`. -/
def lower_bound (fuel : Nat) (m : Mem K V) (t : RedBlackTree) (key : K) :
    Except Fault MapIterator := do
  let current ← m.parent (some t.header_)
  let result ← lower_bound_loop key fuel m current (some t.header_)
  pure ⟨result, some t.header_⟩

/-- The loop of `upper_bound(key)`; the result is the final `result`. -/
def upper_bound_loop (key : K) : Nat → Mem K V → Ptr → Ptr → Except Fault Ptr
  | 0, _, _, _ => .error .outOfFuel
  | fuel + 1, m, current, result =>
    match current with
    | none => .ok result
    | some _ => do
      let ck ← m.key current
      if key < ck then do
        let l ← m.left current
        upper_bound_loop key fuel m l current
      else do
        let r ← m.right current
        upper_bound_loop key fuel m r result

/-- Source function `upper_bound(key)`. -/
def upper_bound (fuel : Nat) (m : Mem K V) (t : RedBlackTree) (key : K) :
    Except Fault MapIterator := do
  let current ← m.parent (some t.header_)
  let result ← upper_bound_loop key fuel m current (some t.header_)
  pure ⟨result, some t.header_⟩

/-- The loop `while (current_->right) current_ = current_->right` of `operator--`. -/
def decrement_descend : Nat → Mem K V → Ptr → Except Fault Ptr
  | 0, _, _ => .error .outOfFuel
  | fuel + 1, m, c => do
    let r ← m.right c
    if r ≠ none then decrement_descend fuel m r else pure c

/-- The loop `while (p && current_ == p->left)` of `operator--`; the result is the
final `p`. -/
def decrement_ascend : Nat → Mem K V → Ptr → Ptr → Except Fault Ptr
  | 0, _, _, _ => .error .outOfFuel
  | fuel + 1, m, c, p =>
    match p with
    | none => .ok none
    | some _ => do
      let pl ← m.left p
      if c = pl then do
        let pp ← m.parent p
        decrement_ascend fuel m p pp
      else pure p

/-- Source function `MapIterator::operator--()`. -/
def MapIterator.decrement (fuel : Nat) (m : Mem K V) (it : MapIterator) :
    Except Fault MapIterator := do
  if it.current_ = it.header_ptr_ then do
    let r ← m.right it.header_ptr_
    pure { it with current_ := r }
  else
  let l ← m.left it.current_
  if l ≠ none then do
    let c ← decrement_descend fuel m l
    pure { it with current_ := c }
  else do
    let p ← m.parent it.current_
    let c ← decrement_ascend fuel m it.current_ p
    pure { it with current_ := c }

/-- Source function `copy_helper(other, parent)`; the budget bounds the recursion
depth. -/
def copy_helper : Nat → Mem K V → Ptr → Ptr → Except Fault (Mem K V × Ptr)
  | 0, _, _, _ => .error .outOfFuel
  | fuel + 1, m, other, parent =>
    match other with
    | none => .ok (m, none)
    | some _ => do
      let o ← m.read other
      let (n, m) := m.alloc o.data
      let oc ← m.color other
      let m ← m.setColor (some n) oc
      let m ← m.setParent (some n) parent
      let ol ← m.left other
      let (m, l) ← copy_helper fuel m ol (some n)
      let m ← m.setLeft (some n) l
      let orr ← m.right other
      let (m, r) ← copy_helper fuel m orr (some n)
      let m ← m.setRight (some n) r
      pure (m, some n)

/-- The copy constructor `RedBlackTree(const RedBlackTree& other)`. -/
def RedBlackTree.copy [Inhabited K] [Inhabited V] (fuel : Nat) (m : Mem K V)
    (other : RedBlackTree) : Except Fault (Mem K V × RedBlackTree) := do
  let (m, t) := RedBlackTree.create m
  let (m, new_root) ← (if other.size_ > 0 then do
      let oroot ← m.parent (some other.header_)
      copy_helper fuel m oroot (some t.header_)
    else pure (m, none))
  let m ← m.setParent (some t.header_) new_root
  let t := { t with size_ := other.size_ }
  if t.size_ > 0 then do
    let mn ← find_min fuel m new_root
    let mx ← find_max fuel m new_root
    let t := { t with min_node_ := mn, max_node_ := mx }
    let m ← m.setLeft (some t.header_) t.min_node_
    let m ← m.setRight (some t.header_) t.max_node_
    pure (m, t)
  else pure (m, t)

/-- The library function `std::distance(first, last)` on bidirectional iterators: the
number of `++` steps that take `first` to `last`; `inner` is the budget of each `++`. -/
def distance (inner : Nat) : Nat → Mem K V → MapIterator → MapIterator → Except Fault Nat
  | 0, _, _, _ => .error .outOfFuel
  | fuel + 1, m, first, last =>
    if first.eq last then .ok 0 else do
      let next ← first.increment inner m
      let n ← distance inner fuel m next last
      pure (n + 1)

/-- The move constructor `RedBlackTree(RedBlackTree&& other)`: the result is the memory,
the constructed tree object and the moved-from object `other`. -/
def RedBlackTree.move [Inhabited K] [Inhabited V] (m : Mem K V) (other : RedBlackTree) :
    Except Fault (Mem K V × RedBlackTree × RedBlackTree) := do
  let this : RedBlackTree := ⟨other.header_, other.size_, other.min_node_, other.max_node_⟩
  let (h, m) := m.alloc (default : K × V)
  let m ← m.setColor (some h) .BLACK
  let m ← m.setParent (some h) none
  let m ← m.setLeft (some h) (some h)
  let m ← m.setRight (some h) (some h)
  let other : RedBlackTree := ⟨h, 0, some h, some h⟩
  let root ← m.parent (some this.header_)
  let m ← if root ≠ none then m.setParent root (some this.header_) else pure m
  pure (m, this, other)

/-- Source function `swap(other)`: the four fields are exchanged, then each root is
pointed back at the header it now hangs from.  The result is the memory, `*this` and
`other` after the call. -/
def swap (m : Mem K V) (this other : RedBlackTree) :
    Except Fault (Mem K V × RedBlackTree × RedBlackTree) := do
  let this' : RedBlackTree := ⟨other.header_, other.size_, other.min_node_, other.max_node_⟩
  let other' : RedBlackTree := ⟨this.header_, this.size_, this.min_node_, this.max_node_⟩
  let root ← m.parent (some this'.header_)
  let m ← if root ≠ none then m.setParent root (some this'.header_) else pure m
  let root ← m.parent (some other'.header_)
  let m ← if root ≠ none then m.setParent root (some other'.header_) else pure m
  pure (m, this', other')

/-- Source function `clear_helper(node)`: the subtree is deleted in post-order; the budget
bounds the depth of the recursion. -/
def clear_helper : Nat → Mem K V → Ptr → Except Fault (Mem K V)
  | 0, _, _ => .error .outOfFuel
  | fuel + 1, m, node =>
    match node with
    | none => .ok m
    | some _ => do
      let l ← m.left node
      let m ← clear_helper fuel m l
      let r ← m.right node
      let m ← clear_helper fuel m r
      m.free node

/-- Source function `clear()`. -/
def clear (fuel : Nat) (m : Mem K V) (t : RedBlackTree) :
    Except Fault (Mem K V × RedBlackTree) := do
  let root ← m.parent (some t.header_)
  let m ← clear_helper fuel m root
  let m ← m.setParent (some t.header_) none
  let t := { t with min_node_ := none, max_node_ := none, size_ := 0 }
  let m ← m.setLeft (some t.header_) (some t.header_)
  let m ← m.setRight (some t.header_) (some t.header_)
  pure (m, t)

/-- One insertion call: `insert_unique(value)` or `insert_equal(value)`. -/
inductive InsertCall (K V : Type) where
  | unique (value : K × V)
  | equal (value : K × V)

/-- A sequence of insertion calls run in order on one tree object. -/
def insert_calls (fuel : Nat) : List (InsertCall K V) → Mem K V × RedBlackTree →
    Except Fault (Mem K V × RedBlackTree)
  | [], s => .ok s
  | .unique value :: calls, s => do
    let (_, m, t) ← insert_unique fuel s.1 s.2 value
    insert_calls fuel calls (m, t)
  | .equal value :: calls, s => do
    let (_, m, t) ← insert_equal fuel s.1 s.2 value
    insert_calls fuel calls (m, t)

/-- Source function `MapIterator::operator*()`: the key/payload pair of the current node. -/
def MapIterator.deref (m : Mem K V) (it : MapIterator) : Except Fault (K × V) :=
  (m.read it.current_).map (fun n => n.data)

end Engine

/-! ## The parts of `erase`, and `erase_rebalance` with assertions -/

section EraseParts

variable {K V : Type} [LinearOrder K]

/-- The first part of source function `erase(Node_t* z)`, up to and excluding `delete z`:
the node `z` is unlinked, its in-order successor `y` taking its place when `z` has two
children.  The result is the memory and the values of `x`, `x_parent` and `y_color` that
the rest of `erase` works with. -/
def erase_detach (fuel : Nat) (header_ : Nat) (m : Mem K V) (z : Ptr) :
    Except Fault (Mem K V × Ptr × Ptr × Color) := do
  let y_color ← m.color z
  let zl ← m.left z
  if zl = none then do
    let x ← m.right z
    let x_parent ← m.parent z
    let zr ← m.right z
    let m ← transplant header_ m z zr
    let x_parent ← (if x ≠ none then m.parent x else pure x_parent)
    pure (m, x, x_parent, y_color)
  else do
    let zr ← m.right z
    if zr = none then do
      let x ← m.left z
      let x_parent ← m.parent z
      let zl ← m.left z
      let m ← transplant header_ m z zl
      let x_parent ← (if x ≠ none then m.parent x else pure x_parent)
      pure (m, x, x_parent, y_color)
    else do
      let y ← m.right z
      let y ← erase_leftmost fuel m y
      let y_color ← m.color y
      let x ← m.right y
      let yp ← m.parent y
      let (m, x_parent) ← (if yp ≠ z then do
          let x_parent ← m.parent y
          let yr ← m.right y
          let m ← transplant header_ m y yr
          let yr ← m.right y
          let m ← (if yr ≠ none then m.setParent yr y else pure m)
          let zr ← m.right z
          let m ← m.setRight y zr
          let yr ← m.right y
          let m ← m.setParent yr y
          pure (m, x_parent)
        else do
          let m ← (if x ≠ none then m.setParent x y else pure m)
          pure (m, y))
      let m ← transplant header_ m z y
      let zl ← m.left z
      let m ← m.setLeft y zl
      let yl ← m.left y
      let m ← m.setParent yl y
      let zc ← m.color z
      let m ← m.setColor y zc
      pure (m, x, x_parent, y_color)

/-- The function `rotate_left(x)` with an assertion in front: when `chk` is set, the run
stops with `checkFailed` unless `x` has a right child. -/
def rotate_left_checked (chk : Bool) (header_ : Nat) (m : Mem K V) (x : Ptr) :
    Except Fault (Mem K V) := do
  let y ← m.right x
  if chk = true ∧ y = none then .error .checkFailed else
  rotate_left header_ m x

/-- The function `rotate_right(y)` with an assertion in front: when `chk` is set, the run
stops with `checkFailed` unless `y` has a left child. -/
def rotate_right_checked (chk : Bool) (header_ : Nat) (m : Mem K V) (y : Ptr) :
    Except Fault (Mem K V) := do
  let x ← m.left y
  if chk = true ∧ x = none then .error .checkFailed else
  rotate_right header_ m y

/-- The loop of `erase_rebalance(x, parent)` with assertions added to the source text.
When `chk` is set, the run stops with `checkFailed` if `p` is the header, if the sibling
`w` is null after any of the three places that assign it, or if a rotation is called on a
node without the child it needs.  Without `chk` the assertions do nothing. -/
def erase_rebalance_loop_checked (chk : Bool) (header_ : Nat) :
    Nat → Mem K V → Ptr → Ptr → Except Fault (Mem K V × Ptr)
  | 0, _, _, _ => .error .outOfFuel
  | fuel + 1, m, x, parent => do
    let root ← m.parent (some header_)
    if x = root then pure (m, x) else
    let xb ← m.isBlack x
    if !xb then pure (m, x) else
    let p ← (match x with
      | none => pure parent
      | some _ => m.parent x)
    if p = none then pure (m, x) else
    if chk = true ∧ p = some header_ then .error .checkFailed else
    let pl ← m.left p
    let x_is_left := decide (x = pl)
    let pl ← m.left p
    let x_is_left := if x = none then decide (pl = none) else x_is_left
    let w ← (if x_is_left then m.right p else m.left p)
    if chk = true ∧ w = none then .error .checkFailed else
    let wRed ← m.isRed w
    let (m, w) ← (if wRed then do
        let m ← m.setColor w .BLACK
        let m ← m.setColor p .RED
        let m ← (if x_is_left then rotate_left_checked chk header_ m p
          else rotate_right_checked chk header_ m p)
        let w ← (if x_is_left then m.right p else m.left p)
        if chk = true ∧ w = none then .error .checkFailed else
        pure (m, w)
      else pure (m, w))
    let wl ← (match w with
      | none => pure none
      | some _ => m.left w)
    let wr ← (match w with
      | none => pure none
      | some _ => m.right w)
    let wl_black ← m.isBlack wl
    let wr_black ← m.isBlack wr
    if wl_black && wr_black then do
      let m ← m.setColorIf w .RED
      let x := p
      let parent ← m.parent x
      erase_rebalance_loop_checked chk header_ fuel m x parent
    else do
      let m ← (if x_is_left then do
          let (m, w, wr) ← (if wr_black then do
              let m ← m.setColorIf wl .BLACK
              let m ← m.setColorIf w .RED
              let m ← rotate_right_checked chk header_ m w
              let w ← m.right p
              if chk = true ∧ w = none then .error .checkFailed else
              let wr ← (match w with
                | none => pure none
                | some _ => m.right w)
              pure (m, w, wr)
            else pure (m, w, wr))
          let m ← (match w with
            | none => pure m
            | some _ => do
              let pc ← m.color p
              m.setColor w pc)
          let m ← m.setColor p .BLACK
          let m ← m.setColorIf wr .BLACK
          rotate_left_checked chk header_ m p
        else do
          let (m, w, wl) ← (if wl_black then do
              let m ← m.setColorIf wr .BLACK
              let m ← m.setColorIf w .RED
              let m ← rotate_left_checked chk header_ m w
              let w ← m.left p
              if chk = true ∧ w = none then .error .checkFailed else
              let wl ← (match w with
                | none => pure none
                | some _ => m.left w)
              pure (m, w, wl)
            else pure (m, w, wl))
          let m ← (match w with
            | none => pure m
            | some _ => do
              let pc ← m.color p
              m.setColor w pc)
          let m ← m.setColor p .BLACK
          let m ← m.setColorIf wl .BLACK
          rotate_right_checked chk header_ m p)
      let x ← m.parent (some header_)
      erase_rebalance_loop_checked chk header_ fuel m x parent

/-- The function `erase_rebalance(x, parent)` over the loop with assertions. -/
def erase_rebalance_checked (chk : Bool) (fuel : Nat) (header_ : Nat) (m : Mem K V)
    (x parent : Ptr) : Except Fault (Mem K V) := do
  let (m, x) ← erase_rebalance_loop_checked chk header_ fuel m x parent
  m.setColorIf x .BLACK

/-- The function `erase(Node_t* z)` with `erase_rebalance` replaced by the variant with
assertions. -/
def erase_checked (chk : Bool) (fuel : Nat) (m : Mem K V) (t : RedBlackTree) (z : Ptr) :
    Except Fault (Mem K V × RedBlackTree) := do
  if z = none ∨ z = some t.header_ then pure (m, t) else
  let (m, x, x_parent, y_color) ← erase_detach fuel t.header_ m z
  let m ← m.free z
  let t := { t with size_ := if t.size_ = 0 then 2 ^ 64 - 1 else t.size_ - 1 }
  let m ← (if y_color = Color.BLACK then
      erase_rebalance_checked chk fuel t.header_ m x x_parent else pure m)
  update_min_max_nodes_after_erase fuel m t

end EraseParts

/-! ## The `set` and `multiset` adapters (`s21_set.h`, `s21_multiset.h`)

A `set<Key>` is a `RedBlackTree<Key, Key>` whose payload repeats the key. -/

section SetAdapter

variable {K : Type} [LinearOrder K]

/-- Source function `set::insert(value)`: `tree_.insert_unique({value, value})`, the node
wrapped as an iterator. -/
def set_insert (fuel : Nat) (m : Mem K K) (t : RedBlackTree) (value : K) :
    Except Fault ((MapIterator × Bool) × Mem K K × RedBlackTree) := do
  let ((node, inserted), m, t) ← insert_unique fuel m t (value, value)
  pure ((⟨node, some t.header_⟩, inserted), m, t)

/-- Source function `set::erase(pos)`. -/
def set_erase (fuel : Nat) (m : Mem K K) (t : RedBlackTree) (pos : MapIterator) :
    Except Fault (Mem K K × RedBlackTree) := do
  if pos.eq t.end then pure (m, t) else
  let (_, m, t) ← erase_iterator fuel m t pos
  pure (m, t)

/-- Source function `set::contains(key)`: `tree_.find(key) != tree_.end()`. -/
def set_contains (fuel : Nat) (m : Mem K K) (t : RedBlackTree) (key : K) : Except Fault Bool := do
  let it ← find fuel m t key
  pure (!(it.eq t.end))

/-- The loop `for (const auto& key : items) insert(key)` of the initializer-list
constructor of `set`. -/
def set_insert_all (fuel : Nat) : List K → Mem K K × RedBlackTree →
    Except Fault (Mem K K × RedBlackTree)
  | [], s => .ok s
  | key :: items, s => do
    let (_, m, t) ← set_insert fuel s.1 s.2 key
    set_insert_all fuel items (m, t)

/-- The call `s.erase(s.find(key))` for each key of a list in turn. -/
def set_erase_keys (fuel : Nat) : List K → Mem K K × RedBlackTree →
    Except Fault (Mem K K × RedBlackTree)
  | [], s => .ok s
  | key :: keys, s => do
    let pos ← find fuel s.1 s.2 key
    let s ← set_erase fuel s.1 s.2 pos
    set_erase_keys fuel keys s

/-- The loop `for (const auto& key : items) insert(key)` of the initializer-list
constructor of `multiset`, whose `insert` is `tree_.insert_equal({value, value})`. -/
def multiset_insert_all (fuel : Nat) : List K → Mem K K × RedBlackTree →
    Except Fault (Mem K K × RedBlackTree)
  | [], s => .ok s
  | key :: items, s => do
    let (_, m, t) ← insert_equal fuel s.1 s.2 (key, key)
    multiset_insert_all fuel items (m, t)

/-- Source function `multiset::count(key)`: `std::distance` over
`equal_range(key) = {lower_bound(key), upper_bound(key)}`. -/
def multiset_count (fuel : Nat) (m : Mem K K) (t : RedBlackTree) (key : K) :
    Except Fault Nat := do
  let first ← lower_bound fuel m t key
  let last ← upper_bound fuel m t key
  distance fuel fuel m first last

/-- Source function `multiset::insert(value)`: `tree_.insert_equal({value, value})`, the
node wrapped as an iterator. -/
def multiset_insert (fuel : Nat) (m : Mem K K) (t : RedBlackTree) (value : K) :
    Except Fault (MapIterator × Mem K K × RedBlackTree) := do
  let (node, m, t) ← insert_equal fuel m t (value, value)
  pure (⟨node, some t.header_⟩, m, t)

/-- Source function `multiset::find(key)`. -/
def multiset_find (fuel : Nat) (m : Mem K K) (t : RedBlackTree) (key : K) :
    Except Fault MapIterator := do
  let it ← lower_bound fuel m t key
  if it.eq t.end then pure t.end else do
    let k ← m.key it.current_
    if ¬ (k < key) ∧ ¬ (key < k) then pure it else pure t.end

/-- The loop `for (auto it = other.begin(); it != other.end(); ++it)
keys_to_move.push_back((*it).first)` of `multiset::merge`. -/
def collect_keys (inner : Nat) : Nat → Mem K K → RedBlackTree → MapIterator → List K →
    Except Fault (List K)
  | 0, _, _, _, _ => .error .outOfFuel
  | fuel + 1, m, other, it, keys =>
    if it.eq other.end then .ok keys else do
      let k ← m.key it.current_
      let next ← it.increment inner m
      collect_keys inner fuel m other next (keys ++ [k])

/-- Source function `multiset::merge(other)`.  Two multiset objects are the same object
exactly when they own the same header.  The result is the memory, `*this` and `other`
after the call. -/
def multiset_merge (fuel : Nat) (m : Mem K K) (this other : RedBlackTree) :
    Except Fault (Mem K K × RedBlackTree × RedBlackTree) := do
  if this.header_ = other.header_ then pure (m, this, other) else
  let keys_to_move ← collect_keys fuel fuel m other other.begin []
  let (m, this) ← multiset_insert_all fuel keys_to_move (m, this)
  let (m, other) ← clear fuel m other
  pure (m, this, other)

end SetAdapter

/-! ## The map adapter

A `map<Key, T>` is a `RedBlackTree<Key, T>` used through `insert_unique`; `at` is the one
member that raises an exception. -/

section MapAdapter

variable {K V : Type} [LinearOrder K]

/-- The exception `std::out_of_range` thrown by `map::at`. -/
inductive MapError where
  | out_of_range
  deriving DecidableEq, Repr

/-- Source function `map::insert(value)`: `tree_.insert_unique(value)`, the node wrapped
as an iterator. -/
def map_insert (fuel : Nat) (m : Mem K V) (t : RedBlackTree) (value : K × V) :
    Except Fault ((MapIterator × Bool) × Mem K V × RedBlackTree) := do
  let ((node, inserted), m, t) ← insert_unique fuel m t value
  pure ((⟨node, some t.header_⟩, inserted), m, t)

/-- Source function `map::at(key)`: the payload found, or the exception thrown. -/
def map_at (fuel : Nat) (m : Mem K V) (t : RedBlackTree) (key : K) :
    Except Fault (Except MapError V) := do
  let it ← find fuel m t key
  if it.eq t.end then pure (.error .out_of_range) else do
    let v ← m.payload it.current_
    pure (.ok v)

/-- Source function `map::insert_or_assign(key, obj)`. -/
def map_insert_or_assign (fuel : Nat) (m : Mem K V) (t : RedBlackTree) (key : K) (obj : V) :
    Except Fault ((MapIterator × Bool) × Mem K V × RedBlackTree) := do
  let it ← find fuel m t key
  if !(it.eq t.end) then do
    let m ← m.setPayload it.current_ obj
    pure ((it, false), m, t)
  else map_insert fuel m t (key, obj)

/-- Source function `map::operator[](key)`: the result is the node whose payload slot the
returned reference designates. -/
def map_subscript [Inhabited V] (fuel : Nat) (m : Mem K V) (t : RedBlackTree) (key : K) :
    Except Fault (Ptr × Mem K V × RedBlackTree) := do
  let it ← find fuel m t key
  if !(it.eq t.end) then pure (it.current_, m, t) else do
    let ((it2, _), m, t) ← map_insert fuel m t (key, default)
    pure (it2.current_, m, t)

/-- Source function `map::erase(pos)`. -/
def map_erase (fuel : Nat) (m : Mem K V) (t : RedBlackTree) (pos : MapIterator) :
    Except Fault (Mem K V × RedBlackTree) := do
  if pos.eq t.end then pure (m, t) else
  let (_, m, t) ← erase_iterator fuel m t pos
  pure (m, t)

/-- The loop `for (const auto& kv : items) insert(kv)` of the initializer-list constructor
of `map`. -/
def map_insert_all (fuel : Nat) : List (K × V) → Mem K V × RedBlackTree →
    Except Fault (Mem K V × RedBlackTree)
  | [], s => .ok s
  | kv :: items, s => do
    let (_, m, t) ← map_insert fuel s.1 s.2 kv
    map_insert_all fuel items (m, t)

end MapAdapter

/-! ## Abstract trees and the representation relation

An abstract tree records, next to colour and data, the address of every node, so the
pointer to a subtree is read off its root and the cell a well-formed memory holds at each
address is determined.  A `Path` is the context of a subtree (a zipper): the ancestors of
the hole with their other subtrees. -/

section Abstract

variable {K V : Type}

/-- A binary tree of nodes, each with its address, colour and key/payload pair. -/
inductive Tree (K V : Type) where
  | nil
  | node (l : Tree K V) (a : Nat) (c : Color) (kv : K × V) (r : Tree K V)

/-- The pointer to (the root of) a tree. -/
def Tree.ptr : Tree K V → Ptr
  | .nil => none
  | .node _ a _ _ _ => some a

/-- The addresses of a tree in in-order. -/
def Tree.addrs : Tree K V → List Nat
  | .nil => []
  | .node l a _ _ r => l.addrs ++ a :: r.addrs

/-- The in-order sequence of key/payload pairs. -/
def Tree.toList : Tree K V → List (K × V)
  | .nil => []
  | .node l _ _ kv r => l.toList ++ kv :: r.toList

/-- The in-order sequence of keys. -/
def Tree.keys (t : Tree K V) : List K := t.toList.map (fun kv => kv.1)

/-- Number of nodes. -/
def Tree.size : Tree K V → Nat
  | .nil => 0
  | .node l _ _ _ r => l.size + 1 + r.size

/-- Number of nodes on the longest path from the root to a missing child. -/
def Tree.height : Tree K V → Nat
  | .nil => 0
  | .node l _ _ _ r => max l.height r.height + 1

/-- Colour of the root; a missing node counts as BLACK. -/
def Tree.color : Tree K V → Color
  | .nil => .BLACK
  | .node _ _ c _ _ => c

/-- The tree with its root recoloured. -/
def Tree.setColor (c : Color) : Tree K V → Tree K V
  | .nil => .nil
  | .node l a _ kv r => .node l a c kv r

/-- Memory `m` holds tree `t` below the parent pointer `par`: the cell of every node has
the node's data and colour, its `parent` link is the node above it, and its `left` and
`right` links are the roots of its subtrees. -/
def Shape (m : Mem K V) : Ptr → Tree K V → Prop
  | _, .nil => True
  | par, .node l a c kv r =>
    m.cells a = some ⟨kv, c, par, l.ptr, r.ptr⟩ ∧ Shape m (some a) l ∧ Shape m (some a) r

/-- The context of a subtree: `left up a c kv r` says the hole is the left child of node
`a`, whose right subtree is `r` and whose own context is `up`; `right` is the mirror. -/
inductive Path (K V : Type) where
  | top
  | left (up : Path K V) (a : Nat) (c : Color) (kv : K × V) (r : Tree K V)
  | right (l : Tree K V) (a : Nat) (c : Color) (kv : K × V) (up : Path K V)

/-- The parent pointer of the hole: the header at the top, else the node above. -/
def Path.par (hdr : Nat) : Path K V → Ptr
  | .top => some hdr
  | .left _ a _ _ _ => some a
  | .right _ a _ _ _ => some a

/-- The whole tree obtained by putting `t` into the hole. -/
def Path.plug : Path K V → Tree K V → Tree K V
  | .top, t => t
  | .left up a c kv r, t => up.plug (.node t a c kv r)
  | .right l a c kv up, t => up.plug (.node l a c kv t)

/-- The addresses of a context (ancestors and their other subtrees). -/
def Path.addrs : Path K V → List Nat
  | .top => []
  | .left up a _ _ r => a :: r.addrs ++ up.addrs
  | .right l a _ _ up => a :: l.addrs ++ up.addrs

/-- Number of ancestors of the hole. -/
def Path.depth : Path K V → Nat
  | .top => 0
  | .left up _ _ _ _ => up.depth + 1
  | .right _ _ _ _ up => up.depth + 1

/-- The in-order data before the hole. -/
def Path.before : Path K V → List (K × V)
  | .top => []
  | .left up _ _ _ _ => up.before
  | .right l _ _ kv up => up.before ++ l.toList ++ [kv]

/-- The in-order data after the hole. -/
def Path.after : Path K V → List (K × V)
  | .top => []
  | .left up _ _ kv r => kv :: r.toList ++ up.after
  | .right _ _ _ _ up => up.after

/-- Memory `m` holds the context `p` around a hole that contains the pointer `hole`:
the root slot is `header_->parent`. -/
def PShape (m : Mem K V) (hdr : Nat) : Path K V → Ptr → Prop
  | .top, hole => ∃ hn, m.cells hdr = some hn ∧ hn.parent = hole
  | .left up a c kv r, hole =>
    m.cells a = some ⟨kv, c, up.par hdr, hole, r.ptr⟩ ∧ Shape m (some a) r ∧
      PShape m hdr up (some a)
  | .right l a c kv up, hole =>
    m.cells a = some ⟨kv, c, up.par hdr, l.ptr, hole⟩ ∧ Shape m (some a) l ∧
      PShape m hdr up (some a)

/-- Memory `m` holds the tree `p.plug t` under the header `hdr`, seen as the subtree `t`
in its context `p`; all addresses, the header included, are distinct. -/
def ZRep (m : Mem K V) (hdr : Nat) (p : Path K V) (t : Tree K V) : Prop :=
  PShape m hdr p t.ptr ∧ Shape m (p.par hdr) t ∧ (hdr :: (p.addrs ++ t.addrs)).Nodup

/-- Memory `m` holds the tree `t` under the header `hdr`: child links, parent links
(the root's parent link is the header), colours and data all agree with `t`. -/
def Holds (m : Mem K V) (hdr : Nat) (t : Tree K V) : Prop := ZRep m hdr .top t

/-- Two memories hold the same cells outside the addresses in `S`. -/
def AgreeOff (m' m : Mem K V) (S : List Nat) : Prop :=
  ∀ c, c ∉ S → m'.cells c = m.cells c

/-- Whether a path is the empty context. -/
def Path.isTop : Path K V → Bool
  | .top => true
  | _ => false

/-- The colour of the root of `p.plug t` is BLACK whenever the hole is not the root. -/
def Path.rootBlack : Path K V → Prop
  | .top => True
  | .left .top _ c _ _ => c = .BLACK
  | .right _ _ c _ .top => c = .BLACK
  | .left up _ _ _ _ => up.rootBlack
  | .right _ _ _ _ up => up.rootBlack

/-- What the loop of `insert_rebalance` computes, on abstract trees: `t` is the subtree
at `z` and the path is its context. -/
def insFix : Path K V → Tree K V → Tree K V
  | .top, t => t
  | .left .top p pc pkv s, t => (Path.left .top p pc pkv s).plug t
  | .right s p pc pkv .top, t => (Path.right s p pc pkv .top).plug t
  | .left (.left up g gc gkv u) p pc pkv s, t =>
    if pc = .RED then
      if u.color = .RED then
        insFix up (.node (.node t p .BLACK pkv s) g (if up.isTop then gc else .RED) gkv
          (u.setColor .BLACK))
      else up.plug (.node t p .BLACK pkv (.node s g .RED gkv u))
    else (Path.left (.left up g gc gkv u) p pc pkv s).plug t
  | .right s p pc pkv (.left up g gc gkv u), t =>
    if pc = .RED then
      if u.color = .RED then
        insFix up (.node (.node s p .BLACK pkv t) g (if up.isTop then gc else .RED) gkv
          (u.setColor .BLACK))
      else
        match t with
        | .nil => (Path.right s p pc pkv (.left up g gc gkv u)).plug t
        | .node tl z _ zkv tr =>
          up.plug (.node (.node s p pc pkv tl) z .BLACK zkv (.node tr g .RED gkv u))
    else (Path.right s p pc pkv (.left up g gc gkv u)).plug t
  | .left (.right u g gc gkv up) p pc pkv s, t =>
    if pc = .RED then
      if u.color = .RED then
        insFix up (.node (u.setColor .BLACK) g (if up.isTop then gc else .RED) gkv
          (.node t p .BLACK pkv s))
      else
        match t with
        | .nil => (Path.left (.right u g gc gkv up) p pc pkv s).plug t
        | .node tl z _ zkv tr =>
          up.plug (.node (.node u g .RED gkv tl) z .BLACK zkv (.node tr p pc pkv s))
    else (Path.left (.right u g gc gkv up) p pc pkv s).plug t
  | .right s p pc pkv (.right u g gc gkv up), t =>
    if pc = .RED then
      if u.color = .RED then
        insFix up (.node (u.setColor .BLACK) g (if up.isTop then gc else .RED) gkv
          (.node s p .BLACK pkv t))
      else up.plug (.node (.node u g .RED gkv s) p .BLACK pkv t)
    else (Path.right s p pc pkv (.right u g gc gkv up)).plug t

/-- The refinement statement for the loop of `insert_rebalance` at context `p`: started
at the root `z` of any subtree in that context, with a budget above the depth, the loop
returns a memory that holds the tree `insFix p _`. -/
def LoopOK [LinearOrder K] (hdr : Nat) (p : Path K V) : Prop :=
  ∀ (m : Mem K V) (zl zr : Tree K V) (z : Nat) (zc : Color) (zkv : K × V),
    ZRep m hdr p (.node zl z zc zkv zr) →
    ∃ m', (∀ fuel, p.depth < fuel → insert_rebalance_loop hdr fuel m (some z) = .ok m') ∧
      Holds m' hdr (insFix p (.node zl z zc zkv zr)) ∧ m'.next = m.next ∧
      AgreeOff m' m (hdr :: (p.addrs ++ (Tree.node zl z zc zkv zr).addrs))

/-- The descent of `insert_unique` on abstract trees: the subtree where it stops (a node
with an equivalent key, or a missing child) and its context. -/
def descendU [LinearOrder K] (k : K) : Tree K V → Path K V → Path K V × Tree K V
  | .nil, p => (p, .nil)
  | .node l a c kv r, p =>
    if k < kv.1 then descendU k l (.left p a c kv r)
    else if kv.1 < k then descendU k r (.right l a c kv p)
    else (p, .node l a c kv r)

/-- The descent of `find_insertion_point_equal` on abstract trees: the context of the
missing child where it stops. -/
def descendE [LinearOrder K] (k : K) : Tree K V → Path K V → Path K V
  | .nil, p => p
  | .node l a c kv r, p =>
    if k < kv.1 then descendE k l (.left p a c kv r)
    else descendE k r (.right l a c kv p)

/-- The key comparison of `attach_node` picks the slot the context describes. -/
def Path.slotOK [LinearOrder K] (k : K) : Path K V → Prop
  | .top => True
  | .left _ _ _ kv _ => k < kv.1
  | .right _ _ _ kv _ => ¬ k < kv.1

/-- The result of the descent loop of `insert_unique`, read off the abstract descent. -/
def descendResult (hdr : Nat) (r : Path K V × Tree K V) : Ptr ⊕ Ptr :=
  match r.2 with
  | .nil => .inr (r.1.par hdr)
  | .node _ a _ _ _ => .inl (some a)

/-- The cached extreme nodes are null, the header, or nodes of the tree. -/
def CacheOK (t : RedBlackTree) (tr : Tree K V) : Prop :=
  (∀ a, t.min_node_ = some a → a = t.header_ ∨ a ∈ tr.addrs) ∧
  (∀ a, t.max_node_ = some a → a = t.header_ ∨ a ∈ tr.addrs)

/-- The tree `insert_rebalance` leaves when started at a fresh RED leaf at address `a`
in context `p`: the loop result with the root forced BLACK. -/
def insTree (p : Path K V) (a : Nat) (kv : K × V) : Tree K V :=
  (insFix p (.node .nil a .RED kv .nil)).setColor .BLACK

/-- The number of BLACK nodes on each path from the root to a missing child. -/
def Tree.blackCounts : Tree K V → List Nat
  | .nil => [0]
  | .node l _ c _ r =>
    (l.blackCounts ++ r.blackCounts).map (fun n => n + if c = .BLACK then 1 else 0)

/-- Every path from the root to a missing child carries the same number of BLACK nodes. -/
def Tree.uniformBlack (t : Tree K V) : Prop :=
  ∀ x ∈ t.blackCounts, ∀ y ∈ t.blackCounts, x = y

/-- No RED node has a RED child. -/
def Tree.noRedRed : Tree K V → Prop
  | .nil => True
  | .node l _ c _ r => (c = .RED → l.color = .BLACK ∧ r.color = .BLACK) ∧ l.noRedRed ∧ r.noRedRed

/-- The three colour invariants of a red-black tree: the root is BLACK, no RED node has a
RED child, and all paths to a missing child carry the same number of BLACK nodes. -/
def Tree.RedBlack (t : Tree K V) : Prop :=
  t.color = .BLACK ∧ t.noRedRed ∧ t.uniformBlack

/-- Number of BLACK nodes on the leftmost path. -/
def Tree.bh : Tree K V → Nat
  | .nil => 0
  | .node l _ c _ _ => l.bh + if c = .BLACK then 1 else 0

/-- At every node the two subtrees have the same black height. -/
def Tree.balanced : Tree K V → Prop
  | .nil => True
  | .node l _ _ _ r => l.bh = r.bh ∧ l.balanced ∧ r.balanced

/-- Colour of the node above the hole; BLACK at the top. -/
def Path.color : Path K V → Color
  | .top => .BLACK
  | .left _ _ c _ _ => c
  | .right _ _ c _ _ => c

/-- The context is balanced around a hole of black height `n`. -/
def Path.okBH : Path K V → Nat → Prop
  | .top, _ => True
  | .left up _ c _ r, n => r.bh = n ∧ r.balanced ∧ up.okBH (n + if c = .BLACK then 1 else 0)
  | .right l _ c _ up, n => l.bh = n ∧ l.balanced ∧ up.okBH (n + if c = .BLACK then 1 else 0)

/-- No RED node of the context has a RED child, the hole left aside. -/
def Path.noRR : Path K V → Prop
  | .top => True
  | .left up _ c _ r => r.noRedRed ∧ (c = .RED → r.color = .BLACK ∧ up.color = .BLACK) ∧ up.noRR
  | .right l _ c _ up => l.noRedRed ∧ (c = .RED → l.color = .BLACK ∧ up.color = .BLACK) ∧ up.noRR

/-- The tree found in memory by following the `left` and `right` links from a pointer;
parent links are not looked at. -/
def readTree : Nat → Mem K V → Ptr → Except Fault (Tree K V)
  | 0, _, _ => .error .outOfFuel
  | _ + 1, _, none => .ok .nil
  | fuel + 1, m, some a => do
    let n ← m.read (some a)
    let l ← readTree fuel m n.left
    let r ← readTree fuel m n.right
    pure (.node l a n.color n.data r)

/-- The tree found below the root `header_->parent` of a tree object. -/
def treeOf (fuel : Nat) (m : Mem K V) (t : RedBlackTree) : Except Fault (Tree K V) := do
  let root ← m.parent (some t.header_)
  readTree fuel m root

/-- Allocator discipline: nothing is allocated at or above the next fresh address. -/
def Mem.Valid (m : Mem K V) : Prop := ∀ a, m.next ≤ a → m.cells a = none

/-- The tree object `t` in memory `m` is well formed and holds the tree `tr`: links,
colours and data agree with `tr` (parent links included), the allocator is sound, and
the cached extreme pointers can be dereferenced. -/
def WellFormed (m : Mem K V) (t : RedBlackTree) (tr : Tree K V) : Prop :=
  Holds m t.header_ tr ∧ m.Valid ∧ CacheOK t tr

/-- A call returns `r`: with every sufficiently large iteration budget the run ends
normally with result `r`. -/
def Returns {α : Type} (f : Nat → Except Fault α) (r : α) : Prop :=
  ∃ N, ∀ fuel, N ≤ fuel → f fuel = .ok r

/-- Memory `m` holds tree `t` as far as data, colours and child links go; the parent
links are left unconstrained. -/
def LinkShape (m : Mem K V) : Tree K V → Prop
  | .nil => True
  | .node l a c kv r =>
    (∃ par, m.cells a = some ⟨kv, c, par, l.ptr, r.ptr⟩) ∧ LinkShape m l ∧ LinkShape m r

/-- The tree object with header `hdr` holds tree `t` when read through `header_->parent`
and the child links. -/
def LinkHolds (m : Mem K V) (hdr : Nat) (t : Tree K V) : Prop :=
  (∃ hn, m.cells hdr = some hn ∧ hn.parent = t.ptr) ∧ LinkShape m t

/-- The in-order sequence of nodes: the address of each node with its key/payload pair. -/
def Tree.entries : Tree K V → List (Nat × (K × V))
  | .nil => []
  | .node l a _ kv r => l.entries ++ (a, kv) :: r.entries

/-- The in-order nodes before the hole. -/
def Path.entriesBefore : Path K V → List (Nat × (K × V))
  | .top => []
  | .left up _ _ _ _ => up.entriesBefore
  | .right l a _ kv up => up.entriesBefore ++ l.entries ++ [(a, kv)]

/-- The in-order nodes after the hole. -/
def Path.entriesAfter : Path K V → List (Nat × (K × V))
  | .top => []
  | .left up a _ kv r => (a, kv) :: r.entries ++ up.entriesAfter
  | .right _ _ _ _ up => up.entriesAfter

/-- The tree objects built from a freshly constructed tree by `insert_unique` calls. -/
inductive BuiltUnique [LinearOrder K] [Inhabited K] [Inhabited V] :
    Mem K V → RedBlackTree → Prop where
  | create (m0 : Mem K V) (h : m0.Valid) :
      BuiltUnique (RedBlackTree.create m0).1 (RedBlackTree.create m0).2
  | insert {m : Mem K V} {t : RedBlackTree} (kv : K × V) {r : Ptr × Bool} {m' : Mem K V}
      {t' : RedBlackTree} (h : BuiltUnique m t)
      (hr : Returns (fun fuel => insert_unique fuel m t kv) (r, m', t')) : BuiltUnique m' t'

/-- The tree objects built from a freshly constructed tree by `insert_equal` calls. -/
inductive BuiltEqual [LinearOrder K] [Inhabited K] [Inhabited V] :
    Mem K V → RedBlackTree → Prop where
  | create (m0 : Mem K V) (h : m0.Valid) :
      BuiltEqual (RedBlackTree.create m0).1 (RedBlackTree.create m0).2
  | insert {m : Mem K V} {t : RedBlackTree} (kv : K × V) {r : Ptr} {m' : Mem K V}
      {t' : RedBlackTree} (h : BuiltEqual m t)
      (hr : Returns (fun fuel => insert_equal fuel m t kv) (r, m', t')) : BuiltEqual m' t'

/-- The pointer to the first node of an in-order list of nodes, or `dflt` when the list
is empty. -/
def firstPtr (l : List (Nat × (K × V))) (dflt : Ptr) : Ptr :=
  match l with
  | [] => dflt
  | y :: _ => some y.1

/-- The tree with its nodes renumbered in pre-order from `base` on, which are the
addresses `copy_helper` hands out; shape, colours and data are kept. -/
def Tree.relabel : Nat → Tree K V → Tree K V
  | _, .nil => .nil
  | base, .node l _ c kv r =>
    .node (l.relabel (base + 1)) base c kv (r.relabel (base + 1 + l.size))

/-- The pointer to the last node of an in-order list of nodes, or `dflt` when the list
is empty. -/
def lastPtr (l : List (Nat × (K × V))) (dflt : Ptr) : Ptr :=
  match l.getLast? with
  | none => dflt
  | some y => some y.1

/-- The tree objects built from a freshly constructed tree by `insert_unique` and
`insert_equal` calls in any order. -/
inductive BuiltInsert [LinearOrder K] [Inhabited K] [Inhabited V] :
    Mem K V → RedBlackTree → Prop where
  | create (m0 : Mem K V) (h : m0.Valid) :
      BuiltInsert (RedBlackTree.create m0).1 (RedBlackTree.create m0).2
  | unique {m : Mem K V} {t : RedBlackTree} (kv : K × V) {r : Ptr × Bool} {m' : Mem K V}
      {t' : RedBlackTree} (h : BuiltInsert m t)
      (hr : Returns (fun fuel => insert_unique fuel m t kv) (r, m', t')) : BuiltInsert m' t'
  | equal {m : Mem K V} {t : RedBlackTree} (kv : K × V) {r : Ptr} {m' : Mem K V}
      {t' : RedBlackTree} (h : BuiltInsert m t)
      (hr : Returns (fun fuel => insert_equal fuel m t kv) (r, m', t')) : BuiltInsert m' t'

/-- The tree with the payload of the node at address `a` replaced by `v`. -/
def Tree.assign (a : Nat) (v : V) : Tree K V → Tree K V
  | .nil => .nil
  | .node l b c kv r =>
    .node (l.assign a v) b c (if b = a then (kv.1, v) else kv) (r.assign a v)

/-- The in-order sequence after one insertion call, told on sequences: the new pair goes
behind the last pair whose key is not greater than its key, and `insert_unique` of a
stored key changes nothing. -/
def InsertCall.apply [LinearOrder K] : InsertCall K V → List (K × V) → List (K × V)
  | .unique value, l =>
    if value.1 ∈ l.map (fun e => e.1) then l
    else l.takeWhile (fun e => decide (e.1 ≤ value.1)) ++
      value :: l.dropWhile (fun e => decide (e.1 ≤ value.1))
  | .equal value, l =>
    l.takeWhile (fun e => decide (e.1 ≤ value.1)) ++
      value :: l.dropWhile (fun e => decide (e.1 ≤ value.1))

/-- The state insertions keep: a well-formed red-black search tree counted by `size_`
whose `min_node_` is the first node in in-order (null when there is none). -/
def InsertInv [LinearOrder K] (m : Mem K V) (t : RedBlackTree) (tr : Tree K V) : Prop :=
  WellFormed m t tr ∧ tr.RedBlack ∧ tr.keys.Sorted (· ≤ ·) ∧ t.size_ = tr.size ∧
    t.min_node_ = firstPtr tr.entries none

end Abstract

section DetachedState

variable {K V : Type}

/-- The context of the first node in in-order of a tree that sits in context `p`: the
node `erase` calls `y` when the tree is the right subtree of `z`. -/
def Tree.minCtx : Tree K V → Path K V → Path K V
  | .nil, p => p
  | .node .nil _ _ _ _, p => p
  | .node (.node ll b cb kb lr) a c kv r, p =>
    Tree.minCtx (.node ll b cb kb lr) (.left p a c kv r)

/-- The subtree at the first node in in-order. -/
def Tree.minNode : Tree K V → Tree K V
  | .nil => .nil
  | .node .nil a c kv r => .node .nil a c kv r
  | .node (.node ll b cb kb lr) _ _ _ _ => Tree.minNode (.node ll b cb kb lr)

/-- The tree without its first node in in-order, whose right subtree takes its place. -/
def Tree.delMin : Tree K V → Tree K V
  | .nil => .nil
  | .node .nil _ _ _ r => r
  | .node (.node ll b cb kb lr) a c kv r => .node (Tree.delMin (.node ll b cb kb lr)) a c kv r

/-- Memory `m1` is `m0`, except possibly for the parent link of the RED node `x`. -/
def StaleAt (m1 m0 : Mem K V) (x : Ptr) : Prop :=
  m1 = m0 ∨ ∃ x0 n v, x = some x0 ∧ m0.cells x0 = some n ∧ n.color = .RED ∧
    m1.next = m0.next ∧
    ∀ b, m1.cells b = if b = x0 then some { n with parent := v } else m0.cells b

/-- The state in which `erase` reaches `delete z`: up to the parent link of a RED `x`,
the memory holds a tree with the subtree `t'` at `x` in the context `p'`; the node `z` is
no longer part of it but still allocated, and the tree is balanced and free of RED nodes
with RED children except that, when the removed colour `yc` is BLACK, the context expects
one more BLACK node than `t'` has. -/
def Detached (hdr : Nat) (m1 : Mem K V) (z : Nat) (p' : Path K V) (t' : Tree K V)
    (yc : Color) : Prop :=
  ∃ m0, ZRep m0 hdr p' t' ∧ StaleAt m1 m0 t'.ptr ∧ (∃ nz, m1.cells z = some nz) ∧
    z ∉ hdr :: (p'.addrs ++ t'.addrs) ∧ t'.balanced ∧
    (yc = .BLACK → p'.okBH (t'.bh + 1)) ∧ p'.noRR

end DetachedState

/-! ## The doubly linked list of `s21_list.h`

A `list<T>` is a ring of nodes closed by a sentinel node: `sentinel_->next` is the first
element, `sentinel_->prev` the last, and an empty list is a sentinel linked to itself.
List nodes live in a memory of their own kind.  `size_` is a `std::size_t`; its
arithmetic is taken modulo `2 ^ 64`. -/

/-- The node record `struct Node` of `list`: the value and the two links. -/
structure LNode (T : Type) where
  value : T
  prev : Ptr
  next : Ptr

/-- Memory of list nodes: the allocated cells and the next address `new` hands out. -/
structure LMem (T : Type) where
  cells : Nat → Option (LNode T)
  fresh : Nat

/-- The fields of a `list` object. -/
structure list where
  sentinel_ : Nat
  size_ : Nat
  deriving DecidableEq, Repr

section ListEngine

variable {T : Type}

/-- List memory with nothing allocated. -/
def LMem.empty : LMem T := ⟨fun _ => none, 0⟩

/-- Read the node a pointer refers to (`*p`). -/
def LMem.read (m : LMem T) (p : Ptr) : Except Fault (LNode T) :=
  match p with
  | none => .error .nullDeref
  | some a =>
    match m.cells a with
    | none => .error .nullDeref
    | some n => .ok n

/-- Overwrite the cell at address `a`. -/
def LMem.put (m : LMem T) (a : Nat) (n : LNode T) : LMem T :=
  ⟨fun b => if b = a then some n else m.cells b, m.fresh⟩

/-- Apply a field update to the node a pointer refers to. -/
def LMem.modify (m : LMem T) (p : Ptr) (f : LNode T → LNode T) : Except Fault (LMem T) :=
  match p with
  | none => .error .nullDeref
  | some a =>
    match m.cells a with
    | none => .error .nullDeref
    | some n => .ok (m.put a (f n))

/-- The assignment `p->prev = v`. -/
def LMem.setPrev (m : LMem T) (p : Ptr) (v : Ptr) : Except Fault (LMem T) :=
  m.modify p (fun n => { n with prev := v })

/-- The assignment `p->next = v`. -/
def LMem.setNext (m : LMem T) (p : Ptr) (v : Ptr) : Except Fault (LMem T) :=
  m.modify p (fun n => { n with next := v })

/-- The assignment `p->value = v`. -/
def LMem.setValue (m : LMem T) (p : Ptr) (v : T) : Except Fault (LMem T) :=
  m.modify p (fun n => { n with value := v })

/-- The field read `p->prev`. -/
def LMem.getPrev (m : LMem T) (p : Ptr) : Except Fault Ptr :=
  (m.read p).map (fun n => n.prev)

/-- The field read `p->next`. -/
def LMem.getNext (m : LMem T) (p : Ptr) : Except Fault Ptr :=
  (m.read p).map (fun n => n.next)

/-- The field read `p->value`. -/
def LMem.getValue (m : LMem T) (p : Ptr) : Except Fault T :=
  (m.read p).map (fun n => n.value)

/-- A value-initialised node `Node{}` at a fresh address: `new Node{}`, or a local
`Node dummy{}`, whose storage is released with `LMem.free` when its scope ends. -/
def LMem.alloc [Inhabited T] (m : LMem T) : Nat × LMem T :=
  (m.fresh, ⟨fun b => if b = m.fresh then some ⟨default, none, none⟩ else m.cells b,
            m.fresh + 1⟩)

/-- Release of a node: `delete p`, or the end of the scope of a local node. -/
def LMem.free (m : LMem T) (p : Ptr) : Except Fault (LMem T) :=
  match p with
  | none => .ok m
  | some a =>
    match m.cells a with
    | none => .error .nullDeref
    | some _ => .ok ⟨fun b => if b = a then none else m.cells b, m.fresh⟩

/-- The increment `++size_` of a `std::size_t`. -/
def size_inc (n : Nat) : Nat := (n + 1) % 2 ^ 64

/-- The decrement `--size_` of a `std::size_t`. -/
def size_dec (n : Nat) : Nat := (n + (2 ^ 64 - 1)) % 2 ^ 64

/-- The sum `size_ += count` of two `std::size_t`. -/
def size_add (n count : Nat) : Nat := (n + count) % 2 ^ 64

/-- The difference `size_ -= count` of two `std::size_t`. -/
def size_sub (n count : Nat) : Nat := (n + (2 ^ 64 - count % 2 ^ 64)) % 2 ^ 64

/-- The constructor `list()`: a sentinel linked to itself. -/
def list.create [Inhabited T] (m : LMem T) : Except Fault (LMem T × list) := do
  let (s, m) := m.alloc
  let m ← m.setNext (some s) (some s)
  let m ← m.setPrev (some s) (some s)
  pure (m, ⟨s, 0⟩)

/-- Source function `begin()`: the iterator at `sentinel_->next`. -/
def list.begin (m : LMem T) (l : list) : Except Fault Ptr := m.getNext (some l.sentinel_)

/-- Source function `end()`: the iterator at the sentinel. -/
def list.end (l : list) : Ptr := some l.sentinel_

/-- Source function `size()`. -/
def list.size (l : list) : Nat := l.size_

/-- Source function `empty()`. -/
def list.empty (l : list) : Bool := decide (l.size_ = 0)

/-- Source function `create_node_(v)`. -/
def create_node_ [Inhabited T] (m : LMem T) (v : T) : Except Fault (LMem T × Ptr) := do
  let (n, m) := m.alloc
  let m ← m.setValue (some n) v
  let m ← m.setPrev (some n) none
  let m ← m.setNext (some n) none
  pure (m, some n)

/-- Source function `link_between_(left, node, right)`. -/
def link_between_ (m : LMem T) (left node right : Ptr) : Except Fault (LMem T) := do
  let m ← m.setPrev node left
  let m ← m.setNext node right
  let m ← m.setNext left node
  m.setPrev right node

/-- Source function `unlink_node_(node)`. -/
def unlink_node_ (m : LMem T) (node : Ptr) : Except Fault (LMem T) := do
  let p ← m.getPrev node
  let n ← m.getNext node
  let m ← m.setNext p n
  let n ← m.getNext node
  let p ← m.getPrev node
  m.setPrev n p

/-- Source function `push_back(value)`. -/
def list_push_back [Inhabited T] (m : LMem T) (l : list) (value : T) :
    Except Fault (LMem T × list) := do
  let (m, n) ← create_node_ m value
  let last ← m.getPrev (some l.sentinel_)
  let m ← link_between_ m last n (some l.sentinel_)
  pure (m, { l with size_ := size_inc l.size_ })

/-- The loop `for (const auto& x : items) push_back(x)` of the initializer-list
constructor. -/
def list_push_back_all [Inhabited T] : List T → LMem T × list → Except Fault (LMem T × list)
  | [], s => .ok s
  | x :: items, s => do
    let s ← list_push_back s.1 s.2 x
    list_push_back_all items s

/-- The constructor `list(std::initializer_list<value_type> items)`. -/
def list.ofItems [Inhabited T] (m : LMem T) (items : List T) : Except Fault (LMem T × list) := do
  let s ← list.create m
  list_push_back_all items s

/-- Source function `splice(pos, other, it)`, the single-element overload, for two
different list objects `*this` and `other`.  The result is the memory, `*this` and `other`
after the call. -/
def list_splice_one (m : LMem T) (this other : list) (pos it : Ptr) :
    Except Fault (LMem T × list × list) := do
  if it = some other.sentinel_ then pure (m, this, other) else
  let m ← unlink_node_ m it
  let other := { other with size_ := size_dec other.size_ }
  let left ← m.getPrev pos
  let m ← link_between_ m left it pos
  let this := { this with size_ := size_inc this.size_ }
  pure (m, this, other)

/-- The loop `while (temp != l) { ++count; temp = temp->next; }` of the range overload of
`splice`. -/
def splice_count : Nat → LMem T → Ptr → Ptr → Nat → Except Fault Nat
  | 0, _, _, _, _ => .error .outOfFuel
  | fuel + 1, m, temp, l, count =>
    if temp ≠ l then do
      let next ← m.getNext temp
      splice_count fuel m next l (size_inc count)
    else .ok count

/-- Source function `splice(pos, other, first, last)`, the range overload, for two
different list objects `*this` and `other`. -/
def list_splice_range (fuel : Nat) (m : LMem T) (this other : list) (pos first last : Ptr) :
    Except Fault (LMem T × list × list) := do
  if first = last then pure (m, this, other) else
  let count ← splice_count fuel m first last 0
  let tail ← m.getPrev last
  let fp ← m.getPrev first
  let m ← m.setNext fp last
  let fp ← m.getPrev first
  let m ← m.setPrev last fp
  let other := { other with size_ := size_sub other.size_ count }
  let prev ← m.getPrev pos
  let m ← m.setNext prev first
  let m ← m.setPrev first prev
  let m ← m.setNext tail pos
  let m ← m.setPrev pos tail
  let this := { this with size_ := size_add this.size_ count }
  pure (m, this, other)

/-- The `while` loop of `merge(other)`; the result is the memory, `*this`, `other` and the
final `it2`. -/
def merge_loop [LinearOrder T] :
    Nat → LMem T → list → list → Ptr → Ptr → Except Fault (LMem T × list × list × Ptr)
  | 0, _, _, _, _, _ => .error .outOfFuel
  | fuel + 1, m, this, other, it1, it2 =>
    if it1 ≠ this.end ∧ it2 ≠ other.end then do
      let v2 ← m.getValue it2
      let v1 ← m.getValue it1
      if v2 < v1 then do
        let next ← m.getNext it2
        let (m, this, other) ← list_splice_one m this other it1 it2
        merge_loop fuel m this other it1 next
      else do
        let it1 ← m.getNext it1
        merge_loop fuel m this other it1 it2
    else .ok (m, this, other, it2)

/-- Source function `merge(other)`.  Two list objects are the same object exactly when
they own the same sentinel.  The result is the memory, `*this` and `other` after the
call. -/
def list_merge [LinearOrder T] (fuel : Nat) (m : LMem T)
    (this other : list) : Except Fault (LMem T × list × list) := do
  if this.sentinel_ = other.sentinel_ then pure (m, this, other) else
  let it1 ← this.begin m
  let it2 ← other.begin m
  let (m, this, other, it2) ← merge_loop fuel m this other it1 it2
  if it2 ≠ other.end then
    list_splice_range fuel m this other (some this.sentinel_) it2 other.end
  else pure (m, this, other)

/-- The `while (a && b)` loop of `merge_two_sorted_`; the result is the memory and the
final `a`, `b` and `tail`. -/
def merge_two_sorted_loop [LinearOrder T] :
    Nat → LMem T → Ptr → Ptr → Ptr → Except Fault (LMem T × Ptr × Ptr × Ptr)
  | 0, _, _, _, _ => .error .outOfFuel
  | fuel + 1, m, a, b, tail =>
    if a ≠ none ∧ b ≠ none then do
      let bv ← m.getValue b
      let av ← m.getValue a
      if ¬ (bv < av) then do
        let m ← m.setNext tail a
        let m ← m.setPrev a tail
        let a ← m.getNext a
        let tail ← m.getNext tail
        merge_two_sorted_loop fuel m a b tail
      else do
        let m ← m.setNext tail b
        let m ← m.setPrev b tail
        let b ← m.getNext b
        let tail ← m.getNext tail
        merge_two_sorted_loop fuel m a b tail
    else .ok (m, a, b, tail)

/-- Source function `merge_two_sorted_(a, b)`.  The local `Node dummy{}` is a node at a
fresh address that is released on return. -/
def merge_two_sorted_ [LinearOrder T] [Inhabited T] (fuel : Nat)
    (m : LMem T) (a b : Ptr) : Except Fault (LMem T × Ptr) := do
  let (dummy, m) := m.alloc
  let tail : Ptr := some dummy
  let m ← m.setNext (some dummy) none
  let (m, a, b, tail) ← merge_two_sorted_loop fuel m a b tail
  let rest := if a ≠ none then a else b
  let m ← if rest ≠ none then do
      let m ← m.setNext tail rest
      m.setPrev rest tail
    else pure m
  let new_head ← m.getNext (some dummy)
  let m ← if new_head ≠ none then m.setPrev new_head none else pure m
  let m ← m.free (some dummy)
  pure (m, new_head)

/-- The loop `while (fast && fast->next)` of `merge_sort_nodes_`; the result is the final
`slow`. -/
def merge_sort_split : Nat → LMem T → Ptr → Ptr → Except Fault Ptr
  | 0, _, _, _ => .error .outOfFuel
  | fuel + 1, m, slow, fast =>
    match fast with
    | none => .ok slow
    | some _ => do
      let fn ← m.getNext fast
      if fn ≠ none then do
        let slow ← m.getNext slow
        let fast ← m.getNext fn
        merge_sort_split fuel m slow fast
      else pure slow

/-- Source function `merge_sort_nodes_(head)`; the budget bounds the depth of the
recursion and the iterations of each loop. -/
def merge_sort_nodes_ [LinearOrder T] [Inhabited T] :
    Nat → LMem T → Ptr → Except Fault (LMem T × Ptr)
  | 0, _, _ => .error .outOfFuel
  | fuel + 1, m, head =>
    match head with
    | none => .ok (m, head)
    | some _ => do
      let hn ← m.getNext head
      if hn = none then pure (m, head) else
      let slow ← merge_sort_split fuel m head hn
      let mid ← m.getNext slow
      let m ← m.setNext slow none
      let m ← if mid ≠ none then m.setPrev mid none else pure m
      let (m, left) ← merge_sort_nodes_ fuel m head
      let (m, right) ← merge_sort_nodes_ fuel m mid
      merge_two_sorted_ fuel m left right

/-- The loop `while (new_tail && new_tail->next) new_tail = new_tail->next` of `sort`. -/
def sort_last : Nat → LMem T → Ptr → Except Fault Ptr
  | 0, _, _ => .error .outOfFuel
  | fuel + 1, m, new_tail =>
    match new_tail with
    | none => .ok none
    | some _ => do
      let n ← m.getNext new_tail
      if n ≠ none then sort_last fuel m n else pure new_tail

/-- Source function `sort()`. -/
def list_sort [LinearOrder T] [Inhabited T] (fuel : Nat)
    (m : LMem T) (l : list) : Except Fault (LMem T × list) := do
  if l.size_ ≤ 1 then pure (m, l) else
  let head ← m.getNext (some l.sentinel_)
  let tail ← m.getPrev (some l.sentinel_)
  let m ← m.setNext tail none
  let m ← m.setPrev head none
  let (m, head) ← merge_sort_nodes_ fuel m head
  let new_tail ← sort_last fuel m head
  let m ← m.setNext (some l.sentinel_) (if head ≠ none then head else some l.sentinel_)
  let m ← m.setPrev (some l.sentinel_) (if new_tail ≠ none then new_tail else some l.sentinel_)
  let m ← if head ≠ none then m.setPrev head (some l.sentinel_) else pure m
  let m ← if new_tail ≠ none then m.setNext new_tail (some l.sentinel_) else pure m
  pure (m, l)

/-- The values met from `p` on by following `next` until the pointer `stop`: the element
sequence a range-`for` over the list reads. -/
def readValues : Nat → LMem T → Ptr → Ptr → Except Fault (List T)
  | 0, _, _, _ => .error .outOfFuel
  | fuel + 1, m, p, stop =>
    if p = stop then .ok [] else do
      let v ← m.getValue p
      let n ← m.getNext p
      let rest ← readValues fuel m n stop
      pure (v :: rest)

/-- The values met from `p` on by following `prev` until the pointer `stop`. -/
def readValuesBack : Nat → LMem T → Ptr → Ptr → Except Fault (List T)
  | 0, _, _, _ => .error .outOfFuel
  | fuel + 1, m, p, stop =>
    if p = stop then .ok [] else do
      let v ← m.getValue p
      let n ← m.getPrev p
      let rest ← readValuesBack fuel m n stop
      pure (v :: rest)

/-- The element sequence of a list, read forwards from `begin()` to `end()`. -/
def list.toList (fuel : Nat) (m : LMem T) (l : list) : Except Fault (List T) := do
  let b ← l.begin m
  readValues fuel m b l.end

/-- The element sequence of a list read backwards, from `--end()` down to the sentinel. -/
def list.toListBack (fuel : Nat) (m : LMem T) (l : list) : Except Fault (List T) := do
  let b ← m.getPrev (some l.sentinel_)
  readValuesBack fuel m b l.end

end ListEngine

section ListUnique

variable {T : Type}

/-- Source function `erase(pos)` of `list`. -/
def list_erase (m : LMem T) (l : list) (pos : Ptr) : Except Fault (LMem T × list) := do
  if pos = some l.sentinel_ then pure (m, l) else
  let m ← unlink_node_ m pos
  let m ← m.free pos
  pure (m, { l with size_ := size_dec l.size_ })

/-- The `while (next != end())` loop of `unique()`. -/
def unique_loop [DecidableEq T] : Nat → LMem T → list → Ptr → Ptr → Except Fault (LMem T × list)
  | 0, _, _, _, _ => .error .outOfFuel
  | fuel + 1, m, l, it, next =>
    if next ≠ l.end then do
      let a ← m.getValue it
      let b ← m.getValue next
      if a = b then do
        let (m, l) ← list_erase m l next
        let next ← m.getNext it
        unique_loop fuel m l it next
      else do
        let it ← m.getNext it
        let next ← m.getNext next
        unique_loop fuel m l it next
    else .ok (m, l)

/-- Source function `unique()`. -/
def list_unique [DecidableEq T] (fuel : Nat) (m : LMem T) (l : list) :
    Except Fault (LMem T × list) := do
  if l.size_ ≤ 1 then pure (m, l) else
  let it ← l.begin m
  let next ← m.getNext it
  unique_loop fuel m l it next

end ListUnique

/-! ## Rings and chains

What a list memory holds is read off the `prev`, `next` and `value` fields: a list is a
ring of nodes through its sentinel, and `sort` works on a null-terminated chain. -/

section ListAbstract

variable {T : Type}

/-- The `next` field of the cell at an address, when the cell is allocated. -/
def LMem.nextOf (m : LMem T) (a : Nat) : Option Ptr := (m.cells a).map (fun c => c.next)

/-- The `prev` field of the cell at an address, when the cell is allocated. -/
def LMem.prevOf (m : LMem T) (a : Nat) : Option Ptr := (m.cells a).map (fun c => c.prev)

/-- The `value` field of the cell at an address, when the cell is allocated. -/
def LMem.valueOf (m : LMem T) (a : Nat) : Option T := (m.cells a).map (fun c => c.value)

/-- Two nodes are neighbours: `u->next` is `v` and `v->prev` is `u`. -/
def Link (m : LMem T) (u v : Nat) : Prop :=
  m.nextOf u = some (some v) ∧ m.prevOf v = some (some u)

/-- Every node of a sequence of addresses is the neighbour of the one after it. -/
def Links (m : LMem T) (L : List Nat) : Prop := List.Chain' (Link m) L

/-- Every node of a sequence holds the value listed with its address. -/
def Vals (m : LMem T) (xs : List (Nat × T)) : Prop := ∀ x ∈ xs, m.valueOf x.1 = some x.2

/-- The list with sentinel `s` holds the nodes `xs` (address and value, first to last):
from the sentinel through the nodes and back to the sentinel every node is the neighbour
of the next one (so the `prev` and `next` links form one consistent ring), the values
are as listed, and sentinel and nodes are distinct. -/
def Ring (m : LMem T) (s : Nat) (xs : List (Nat × T)) : Prop :=
  Links m (s :: (xs.map (fun x => x.1) ++ [s])) ∧ Vals m xs ∧ (s :: xs.map (fun x => x.1)).Nodup

/-- The pointer to the first node of a sequence, or `d` when there is none. -/
def headPtr (xs : List (Nat × T)) (d : Ptr) : Ptr :=
  match xs with
  | [] => d
  | x :: _ => some x.1

/-- The pointer to the last node of a sequence, or `d` when there is none. -/
def tailPtr : List (Nat × T) → Ptr → Ptr
  | [], d => d
  | x :: xs, _ => tailPtr xs (some x.1)

/-- A run of nodes that ends the chain it is part of: every node is the neighbour of the
one after it, the values are as listed, and the `next` of the last node is null. -/
def Seg (m : LMem T) (xs : List (Nat × T)) : Prop :=
  Links m (xs.map (fun x => x.1)) ∧ Vals m xs ∧
  (∀ x, xs.getLast? = some x → m.nextOf x.1 = some none)

/-- A null-terminated doubly linked chain of distinct nodes: neighbours are linked both
ways, the first node has a null `prev`, the last a null `next`. -/
def Chain (m : LMem T) (xs : List (Nat × T)) : Prop :=
  Seg m xs ∧ (xs.map (fun x => x.1)).Nodup ∧
  (∀ x, xs.head? = some x → m.prevOf x.1 = some none)

/-- Allocator discipline of list memory: nothing is allocated at or above the next fresh
address. -/
def LMem.Valid (m : LMem T) : Prop := ∀ a, m.fresh ≤ a → m.cells a = none

/-- The comparison `!(b->value < a->value)` by which both merges take the left element. -/
def takeLeft [LinearOrder T] (a b : Nat × T) : Bool := decide (¬ b.2 < a.2)

/-- The addresses of the two rings are apart. -/
def Apart (sa : Nat) (xs : List (Nat × T)) (sb : Nat) (ys : List (Nat × T)) : Prop :=
  ∀ b, b ∈ sa :: xs.map (fun x => x.1) → b ∉ sb :: ys.map (fun x => x.1)

end ListAbstract

/-! ## The vector of `s21_vector.h`

A `vector<T>` owns one array `data_` of `cap_` elements of which the first `size_` are
its content.  Arrays live in a memory of their own kind; an iterator is a `T*`, that is an
array and an offset.  `size_` and `cap_` are `std::size_t`: their arithmetic is taken
modulo `2 ^ 64`.  An argument that the source takes by reference (`const_reference`,
`Args&&`) is a reference here too, read at the moment the source reads it; `std::move` of
an element is read as a copy: the source only ever moves from slots it overwrites or
abandons. -/

/-- An array made by `new T[n]`: its number of elements and the element at each index. -/
structure VBlock (T : Type) where
  cap : Nat
  elem : Nat → T

/-- Memory of arrays: the allocated arrays and the next address `new[]` hands out. -/
structure VMem (T : Type) where
  blocks : Nat → Option (VBlock T)
  fresh : Nat

/-- The fields of a `vector` object. -/
structure vector where
  data_ : Ptr
  size_ : Nat
  cap_ : Nat
  deriving DecidableEq, Repr

/-- An iterator of `vector` (`T*`): the array it points into and the offset. -/
structure VPtr where
  base : Ptr
  off : Nat
  deriving DecidableEq, Repr

/-- An argument passed by reference (`const T&`, or `Args&&` as forwarded): it refers
either to an object outside every array, given by the value that object holds, or to the
element `base[off]` of an array. -/
inductive VRef (T : Type) where
  | obj (x : T)
  | elem (base : Ptr) (off : Nat)

section VectorEngine

variable {T : Type}

/-- Array memory with nothing allocated. -/
def VMem.empty : VMem T := ⟨fun _ => none, 0⟩

/-- The element read `p[i]`. -/
def VMem.get (m : VMem T) (p : Ptr) (i : Nat) : Except Fault T :=
  match p with
  | none => .error .nullDeref
  | some a =>
    match m.blocks a with
    | none => .error .nullDeref
    | some b => if i < b.cap then .ok (b.elem i) else .error .outOfBounds

/-- The element assignment `p[i] = v`. -/
def VMem.set (m : VMem T) (p : Ptr) (i : Nat) (v : T) : Except Fault (VMem T) :=
  match p with
  | none => .error .nullDeref
  | some a =>
    match m.blocks a with
    | none => .error .nullDeref
    | some b =>
      if i < b.cap then
        .ok ⟨fun c => if c = a then some ⟨b.cap, fun j => if j = i then v else b.elem j⟩
          else m.blocks c, m.fresh⟩
      else .error .outOfBounds

/-- The allocation `new T[n]`: an array of `n` default elements at a fresh address. -/
def VMem.newArray [Inhabited T] (m : VMem T) (n : Nat) : Nat × VMem T :=
  (m.fresh, ⟨fun c => if c = m.fresh then some ⟨n, fun _ => default⟩ else m.blocks c,
            m.fresh + 1⟩)

/-- The release `delete[] p`; releasing `nullptr` does nothing. -/
def VMem.deleteArray (m : VMem T) (p : Ptr) : Except Fault (VMem T) :=
  match p with
  | none => .ok m
  | some a =>
    match m.blocks a with
    | none => .error .nullDeref
    | some _ => .ok ⟨fun c => if c = a then none else m.blocks c, m.fresh⟩

/-- The value read through a reference. -/
def VRef.read (m : VMem T) : VRef T → Except Fault T
  | .obj x => .ok x
  | .elem base off => m.get base off

/-- Source function `operator[](pos)`: a reference to `data_[pos]`. -/
def vector.subscript (v : vector) (pos : Nat) : VRef T := .elem v.data_ pos

/-- Source function `begin()`. -/
def vector.begin (v : vector) : VPtr := ⟨v.data_, 0⟩

/-- Source function `end()`. -/
def vector.end (v : vector) : VPtr := ⟨v.data_, v.size_⟩

/-- Source function `size()`. -/
def vector.size (v : vector) : Nat := v.size_

/-- Source function `capacity()`. -/
def vector.capacity (v : vector) : Nat := v.cap_

/-- The iterator `p + n`. -/
def VPtr.add (p : VPtr) (n : Nat) : VPtr := ⟨p.base, p.off + n⟩

/-- The difference `static_cast<size_type>(p - q)` of two iterators into one array. -/
def VPtr.diff (p q : VPtr) : Nat := size_sub p.off q.off

/-- The loop `for (i = 0; i < size_; ++i) new_data[i] = std::move(data_[i])` of
`reallocate`. -/
def reallocate_copy : Nat → VMem T → Ptr → Ptr → Nat → Nat → Except Fault (VMem T)
  | 0, _, _, _, _, _ => .error .outOfFuel
  | fuel + 1, m, data, new_data, size, i =>
    if i < size then do
      let x ← m.get data i
      let m ← m.set new_data i x
      reallocate_copy fuel m data new_data size (size_inc i)
    else .ok m

/-- Source function `reallocate(new_cap)`. -/
def reallocate [Inhabited T] (fuel : Nat) (m : VMem T) (v : vector) (new_cap : Nat) :
    Except Fault (VMem T × vector) := do
  if new_cap = v.cap_ then pure (m, v) else
  let (new_data, m) : Ptr × VMem T :=
    if new_cap ≠ 0 then (some (m.newArray new_cap).1, (m.newArray new_cap).2) else (none, m)
  let m ← reallocate_copy fuel m v.data_ new_data v.size_ 0
  let m ← m.deleteArray v.data_
  pure (m, { v with data_ := new_data, cap_ := new_cap })

/-- Source function `reserve(new_cap)`. -/
def vector_reserve [Inhabited T] (fuel : Nat) (m : VMem T) (v : vector) (new_cap : Nat) :
    Except Fault (VMem T × vector) :=
  if ¬ (new_cap ≤ v.cap_) then reallocate fuel m v new_cap else pure (m, v)

/-- The loop `for (i = size_; i > idx; --i) data_[i] = std::move(data_[i - 1])` of
`insert`. -/
def insert_shift : Nat → VMem T → Ptr → Nat → Nat → Except Fault (VMem T)
  | 0, _, _, _, _ => .error .outOfFuel
  | fuel + 1, m, data, idx, i =>
    if i > idx then do
      let x ← m.get data (i - 1)
      let m ← m.set data i x
      insert_shift fuel m data idx (i - 1)
    else .ok m

/-- Source function `insert(pos, value)`: the result is the returned iterator, the memory
and the vector. -/
def vector_insert [Inhabited T] (fuel : Nat) (m : VMem T) (v : vector) (pos : VPtr)
    (value : VRef T) : Except Fault (VPtr × VMem T × vector) := do
  let idx := pos.diff v.begin
  let (m, v) ← (if v.size_ = v.cap_ then
      reallocate fuel m v (if v.cap_ = 0 then 1 else v.cap_ * 2 % 2 ^ 64)
    else pure (m, v))
  let m ← insert_shift fuel m v.data_ idx v.size_
  let x ← value.read m
  let m ← m.set v.data_ idx x
  let v := { v with size_ := size_inc v.size_ }
  pure (v.begin.add idx, m, v)

/-- The loop `for (i = idx; i + 1 < size_; ++i) data_[i] = std::move(data_[i + 1])` of
`erase`. -/
def erase_shift : Nat → VMem T → Ptr → Nat → Nat → Except Fault (VMem T)
  | 0, _, _, _, _ => .error .outOfFuel
  | fuel + 1, m, data, size, i =>
    if size_inc i < size then do
      let x ← m.get data (size_inc i)
      let m ← m.set data i x
      erase_shift fuel m data size (size_inc i)
    else .ok m

/-- Source function `erase(pos)` of `vector`. -/
def vector_erase (fuel : Nat) (m : VMem T) (v : vector) (pos : VPtr) :
    Except Fault (VMem T × vector) := do
  let idx := pos.diff v.begin
  let m ← erase_shift fuel m v.data_ v.size_ idx
  let v := if v.size_ > 0 then { v with size_ := v.size_ - 1 } else v
  pure (m, v)

/-- The loop `while (new_cap < size_ + count) new_cap *= 2` of `insert_many`. -/
def grow_cap : Nat → Nat → Nat → Except Fault Nat
  | 0, _, _ => .error .outOfFuel
  | fuel + 1, new_cap, need =>
    if new_cap < need then grow_cap fuel (new_cap * 2 % 2 ^ 64) need else .ok new_cap

/-- The loop `for (i = size_; i > idx; --i) data_[i + count - 1] = std::move(data_[i - 1])`
of `insert_many`. -/
def insert_many_shift : Nat → VMem T → Ptr → Nat → Nat → Nat → Except Fault (VMem T)
  | 0, _, _, _, _, _ => .error .outOfFuel
  | fuel + 1, m, data, idx, count, i =>
    if i > idx then do
      let x ← m.get data (i - 1)
      let m ← m.set data (size_dec (size_add i count)) x
      insert_many_shift fuel m data idx count (i - 1)
    else .ok m

/-- The fold `((data_[idx + j++] = std::forward<Args>(args)), ...)` of `insert_many`. -/
def assign_args : List (VRef T) → VMem T → Ptr → Nat → Nat → Except Fault (VMem T)
  | [], m, _, _, _ => .ok m
  | a :: args, m, data, idx, j => do
    let x ← a.read m
    let m ← m.set data (size_add idx j) x
    assign_args args m data idx (size_inc j)

/-- Source function `insert_many(pos, args...)`: the result is the returned iterator, the
memory and the vector. -/
def vector_insert_many [Inhabited T] (fuel : Nat) (m : VMem T) (v : vector) (pos : VPtr)
    (args : List (VRef T)) : Except Fault (VPtr × VMem T × vector) := do
  let idx := pos.diff ⟨v.data_, 0⟩
  let count := args.length
  if count = 0 then pure (v.begin.add idx, m, v) else
  let new_cap ← grow_cap fuel (if v.cap_ = 0 then 1 else v.cap_) (size_add v.size_ count)
  let (m, v) ← (if new_cap ≠ v.cap_ then reallocate fuel m v new_cap else pure (m, v))
  let m ← insert_many_shift fuel m v.data_ idx count v.size_
  let m ← assign_args args m v.data_ idx 0
  let v := { v with size_ := size_add v.size_ count }
  pure (v.begin.add idx, m, v)

/-- The loop `for (const auto& x : items) data_[i++] = x` of the initializer-list
constructor. -/
def fill_items : List T → VMem T → Ptr → Nat → Except Fault (VMem T)
  | [], m, _, _ => .ok m
  | x :: items, m, data, i => do
    let m ← m.set data i x
    fill_items items m data (size_inc i)

/-- The constructor `vector(std::initializer_list<value_type> items)`. -/
def vector.ofItems [Inhabited T] (m : VMem T) (items : List T) :
    Except Fault (VMem T × vector) := do
  let n := items.length
  if n = 0 then pure (m, ⟨none, 0, 0⟩) else
  let r := m.newArray n
  let m ← fill_items items r.2 (some r.1) 0
  pure (m, ⟨some r.1, n, n⟩)

/-- The elements `p[i], p[i + 1], ...` read one after the other, `n` of them. -/
def readElems (m : VMem T) (p : Ptr) : Nat → Nat → Except Fault (List T)
  | 0, _ => .ok []
  | n + 1, i => do
    let x ← m.get p i
    let rest ← readElems m p n (i + 1)
    pure (x :: rest)

/-- The content of a vector: `v[0], ..., v[size() - 1]`. -/
def vector.toList (m : VMem T) (v : vector) : Except Fault (List T) :=
  readElems m v.data_ v.size_ 0

/-- The element `*it` an iterator points at. -/
def VPtr.deref (m : VMem T) (it : VPtr) : Except Fault T := m.get it.base it.off

end VectorEngine

section VectorAbstract

variable {T : Type}

/-- The vector `v` in memory `m` holds the elements `es`: `size_` is their number and does
not exceed `cap_` (a `size_t` value), a null `data_` goes with capacity 0, and otherwise
`data_` is an allocated array of `cap_` elements whose first `size_` are `es`. -/
def VRep (m : VMem T) (v : vector) (es : List T) : Prop :=
  es.length = v.size_ ∧ v.size_ ≤ v.cap_ ∧ v.cap_ < 2 ^ 64 ∧
  match v.data_ with
  | none => v.cap_ = 0
  | some a => ∃ b, m.blocks a = some b ∧ b.cap = v.cap_ ∧
      ∀ i, i < v.size_ → es[i]? = some (b.elem i)

/-- Allocator discipline of array memory: nothing is allocated at or above the next fresh
address. -/
def VMem.Valid (m : VMem T) : Prop := ∀ a, m.fresh ≤ a → m.blocks a = none

end VectorAbstract

section VectorScenarios

/-- The run of the test `InsertEraseMiddle`: `vector<int> v{1, 2, 5, 6}`, `insert` of 3 at
index 2 and of 4 at index 3, then two `erase` at index 2; the result is the size and
content after the insertions and after the erasures. -/
def insertEraseRun (fuel : Nat) : Except Fault ((Nat × List Int) × (Nat × List Int)) := do
  let (m, v) ← vector.ofItems (VMem.empty : VMem Int) [1, 2, 5, 6]
  let (_, m, v) ← vector_insert fuel m v (v.begin.add 2) (.obj 3)
  let (_, m, v) ← vector_insert fuel m v (v.begin.add 3) (.obj 4)
  let mid ← v.toList m
  let size_mid := v.size
  let (m, v) ← vector_erase fuel m v (v.begin.add 2)
  let (m, v) ← vector_erase fuel m v (v.begin.add 2)
  let fin ← v.toList m
  pure ((size_mid, mid), (v.size, fin))

/-- The run of the test `Middle_Normal`: `vector<int> v{10, 50, 60}` and
`insert_many(v.begin() + 1, 20, 30, 40)`; the result is the size, the capacity, the content
and the element the returned iterator points at. -/
def insertManyRun (fuel : Nat) : Except Fault (Nat × Nat × List Int × Int) := do
  let (m, v) ← vector.ofItems (VMem.empty : VMem Int) [10, 50, 60]
  let (it, m, v) ← vector_insert_many fuel m v (v.begin.add 1) [.obj 20, .obj 30, .obj 40]
  let content ← v.toList m
  let x ← it.deref m
  pure (v.size, v.capacity, content, x)

/-- The run `vector<int> v{1, 2, 5, 6}; v.reserve(8); v.insert(v.begin(), v[1]);`: the
argument is a reference to the element at index 1, whose value at the call is 2.  The
result is the value of `v[1]` before the call, the capacity before the call, and the size
and content after it. -/
def insertAliasRun (fuel : Nat) : Except Fault (Int × Nat × Nat × List Int) := do
  let (m, v) ← vector.ofItems (VMem.empty : VMem Int) [1, 2, 5, 6]
  let (m, v) ← vector_reserve fuel m v 8
  let arg ← (v.subscript 1 : VRef Int).read m
  let cap := v.capacity
  let (_, m, v) ← vector_insert fuel m v v.begin (v.subscript 1)
  let content ← v.toList m
  pure (arg, cap, v.size, content)

/-- The run `vector<int> v{1, 2, 5, 6}; v.insert(v.begin(), v[1]);` without a `reserve`:
`size() == capacity()`, so `insert` reallocates before it reads its argument.  The result
is what stops the call, if anything does. -/
def insertAliasReallocRun (fuel : Nat) : Except Fault (Option Fault) := do
  let (m, v) ← vector.ofItems (VMem.empty : VMem Int) [1, 2, 5, 6]
  match vector_insert fuel m v v.begin (v.subscript 1) with
  | .ok _ => pure none
  | .error e => pure (some e)

/-- The run `vector<int> v{1, 2, 5, 6}; v.reserve(8); v.insert_many(v.begin(), v[1],
v[3]);`: the arguments are references to the elements at index 1 and 3, whose values at
the call are 2 and 6.  The result is those two values, the capacity before the call, and
the size and content after it. -/
def insertManyAliasRun (fuel : Nat) : Except Fault ((Int × Int) × Nat × Nat × List Int) := do
  let (m, v) ← vector.ofItems (VMem.empty : VMem Int) [1, 2, 5, 6]
  let (m, v) ← vector_reserve fuel m v 8
  let arg1 ← (v.subscript 1 : VRef Int).read m
  let arg2 ← (v.subscript 3 : VRef Int).read m
  let cap := v.capacity
  let (_, m, v) ← vector_insert_many fuel m v v.begin [v.subscript 1, v.subscript 3]
  let content ← v.toList m
  pure ((arg1, arg2), cap, v.size, content)

end VectorScenarios

/-! ## Concrete runs

Operation sequences on a `set<Nat>` (payload = key) and a `multiset<Nat>`, run from a
fresh tree in empty memory: the header is allocated at address 0 and the nodes at
1, 2, 3, ... in insertion order. -/

section Scenarios

/-- A freshly constructed `set<Nat>` in empty memory. -/
def freshSet : Mem Nat Nat × RedBlackTree := RedBlackTree.create Mem.empty

/-- The set `{10}`: the state after `insert(10)` on a fresh set. -/
def oneElementSet : Mem Nat Nat × RedBlackTree :=
  match set_insert_all 2 [10] freshSet with
  | .ok s => s
  | .error _ => freshSet

/-- The set built by inserting the keys `ins`, erasing the keys `del` through
`erase(find(key))`, and inserting the keys `ins2`. -/
def buildSet (fuel : Nat) (ins del ins2 : List Nat) : Except Fault (Mem Nat Nat × RedBlackTree) := do
  let s ← set_insert_all fuel ins freshSet
  let s ← set_erase_keys fuel del s
  set_insert_all fuel ins2 s

/-- Scenario for the colour invariants under `erase`: the paths' black counts and the keys
before and after erasing 5 from the set built by inserting 2, 0, 7, 8, 3, 5 and erasing
2 and 8. -/
def eraseColourRun (fuel : Nat) :
    Except Fault ((List Nat × List Nat) × (List Nat × List Nat)) := do
  let s ← buildSet fuel [2, 0, 7, 8, 3, 5] [2, 8] []
  let before ← treeOf fuel s.1 s.2
  let s ← set_erase_keys fuel [5] s
  let after ← treeOf fuel s.1 s.2
  pure ((before.keys, before.blackCounts), (after.keys, after.blackCounts))

/-- Scenario for the search order: the in-order keys after inserting 10, 5, 30, 20, 40, 25,
erasing 10 and inserting 22 and 23. -/
def searchOrderRun (fuel : Nat) : Except Fault (List Nat) := do
  let s ← buildSet fuel [10, 5, 30, 20, 40, 25] [10] [22, 23]
  let tr ← treeOf fuel s.1 s.2
  pure tr.keys

/-- Scenario for `erase(find(k))`: `contains(30)`, `contains(40)` and `size()` before, then
`contains(25)`, `contains(30)`, `contains(40)` and `size()` after erasing 25 from the set
built by inserting 10, 5, 30, 20, 40, 25 and erasing 10. -/
def eraseFindRun (fuel : Nat) :
    Except Fault ((Bool × Bool × Nat) × (Bool × Bool × Bool × Nat)) := do
  let s ← buildSet fuel [10, 5, 30, 20, 40, 25] [10] []
  let before30 ← set_contains fuel s.1 s.2 30
  let before40 ← set_contains fuel s.1 s.2 40
  let pos ← find fuel s.1 s.2 25
  let s' ← set_erase fuel s.1 s.2 pos
  let after25 ← set_contains fuel s'.1 s'.2 25
  let after30 ← set_contains fuel s'.1 s'.2 30
  let after40 ← set_contains fuel s'.1 s'.2 40
  pure ((before30, before40, s.2.size), (after25, after30, after40, s'.2.size))

/-- Scenario for the insert/erase round trip: content and `size()` before, and after
`insert_unique((23, 23))` followed by `erase` of the returned node, on the set built by
inserting 10, 5, 30, 20, 40, 25, erasing 10 and inserting 22. -/
def roundTripRun (fuel : Nat) :
    Except Fault ((List (Nat × Nat) × Nat) × Bool × (List (Nat × Nat) × Nat)) := do
  let s ← buildSet fuel [10, 5, 30, 20, 40, 25] [10] [22]
  let before ← treeOf fuel s.1 s.2
  let ((node, inserted), m, t) ← insert_unique fuel s.1 s.2 (23, 23)
  let s' ← erase fuel m t node
  let after ← treeOf fuel s'.1 s'.2
  pure ((before.toList, s.2.size), inserted, (after.toList, s'.2.size))

/-- Scenario for insertion into a tree left by `erase`: the tree before, and the trees
after `insert_unique((6, 6))` and after `insert_equal((6, 6))`, on the set built by
inserting 2, 0, 7, 8, 3, 5 and erasing 2 and 8. -/
def insertAfterEraseRun (fuel : Nat) :
    Except Fault (Tree Nat Nat × Tree Nat Nat × Tree Nat Nat) := do
  let s ← buildSet fuel [2, 0, 7, 8, 3, 5] [2, 8] []
  let before ← treeOf fuel s.1 s.2
  let (_, m1, t1) ← insert_unique fuel s.1 s.2 (6, 6)
  let afterUnique ← treeOf fuel m1 t1
  let (_, m2, t2) ← insert_equal fuel s.1 s.2 (6, 6)
  let afterEqual ← treeOf fuel m2 t2
  pure (before, afterUnique, afterEqual)

/-- Scenario for `insert_unique` of a stored key: the in-order keys and `size()` before,
the returned flag and `size()` after `insert_unique((22, 22))` on the set built by
inserting 10, 5, 30, 20, 40, 25, erasing 10 and inserting 22 and 23. -/
def insertStoredRun (fuel : Nat) : Except Fault ((List Nat × Nat) × (Bool × Nat)) := do
  let s ← buildSet fuel [10, 5, 30, 20, 40, 25] [10] [22, 23]
  let before ← treeOf fuel s.1 s.2
  let ((_, inserted), _, t) ← insert_unique fuel s.1 s.2 (22, 22)
  pure ((before.keys, s.2.size), (inserted, t.size))

/-- Scenario A: keys and `size()` after inserting 20, 10, 30, 35, 5 into a fresh set. -/
def scenarioA (fuel : Nat) : Except Fault (List Nat × Nat × Bool) := do
  let s ← set_insert_all fuel [20, 10, 30, 35, 5] freshSet
  let tr ← treeOf fuel s.1 s.2
  pure (tr.keys, s.2.size, decide (tr.color = .BLACK))

/-- Scenario B: the in-order nodes (address, key) after inserting 10, 20, 10, 30, 10 into
a fresh multiset; addresses are handed out in insertion order, the header taking 0. -/
def scenarioB (fuel : Nat) : Except Fault (List (Nat × Nat) × Nat) := do
  let s ← multiset_insert_all fuel [10, 20, 10, 30, 10] freshSet
  let tr ← treeOf fuel s.1 s.2
  pure (tr.entries.map (fun e => (e.1, e.2.1)), s.2.size)

/-- The set `{10, 20}`: the state after `insert(10)` and `insert(20)` on a fresh set. -/
def twoElementSet : Mem Nat Nat × RedBlackTree :=
  match set_insert_all 3 [10, 20] freshSet with
  | .ok s => s
  | .error _ => freshSet

/-- Scenario for `count`: `count(10)` on the multiset built by `insert(10)`. -/
def countRun (fuel : Nat) : Except Fault Nat := do
  let s ← multiset_insert_all fuel [10] freshSet
  multiset_count fuel s.1 s.2 10

/-- Scenario D: `lower_bound(20)`, `upper_bound(20)` and `count(20)` on the multiset built
from 10, 20, 30, 20, 20; the nodes are given by their addresses. -/
def scenarioD (fuel : Nat) : Except Fault (List (Nat × Nat) × Ptr × Ptr × Nat) := do
  let s ← multiset_insert_all fuel [10, 20, 30, 20, 20] freshSet
  let tr ← treeOf fuel s.1 s.2
  let lb ← lower_bound fuel s.1 s.2 20
  let ub ← upper_bound fuel s.1 s.2 20
  let n ← multiset_count fuel s.1 s.2 20
  pure (tr.entries.map (fun e => (e.1, e.2.1)), lb.current_, ub.current_, n)

/-- Scenario for `++` at the last node: `begin()`, the iterator after `++begin()`,
`end()` and `size()` of the set built by `insert(10)`. -/
def incrementLastRun (fuel : Nat) : Except Fault (Ptr × Ptr × Ptr × Nat) := do
  let s ← set_insert_all fuel [10] freshSet
  let it ← s.2.begin.increment fuel s.1
  pure (s.2.begin.current_, it.current_, s.2.end.current_, s.2.size)

/-- Scenario for `--end()`: the in-order nodes (address, key), the iterator after
`--end()` and `begin()` of the multiset built by `insert(10)`, `insert(10)`. -/
def decrementEndRun (fuel : Nat) : Except Fault (List (Nat × Nat) × Ptr × Ptr) := do
  let s ← multiset_insert_all fuel [10, 10] freshSet
  let tr ← treeOf fuel s.1 s.2
  let it ← s.2.end.decrement fuel s.1
  pure (tr.entries.map (fun e => (e.1, e.2.1)), it.current_, s.2.begin.current_)

/-- Scenario for the maximum cache: the rightmost node reachable from the root,
`max_node_` and `header_->right` of the multiset built by `insert(10)`, `insert(10)`. -/
def maxCacheRun (fuel : Nat) : Except Fault (Ptr × Ptr × Ptr) := do
  let s ← multiset_insert_all fuel [10, 10] freshSet
  let root ← s.1.parent (some s.2.header_)
  let rightmost ← find_max fuel s.1 root
  let hr ← s.1.right (some s.2.header_)
  pure (rightmost, s.2.max_node_, hr)

/-- Scenario for iterators after `erase`: the in-order keys after inserting
10, 5, 30, 20, 40, 25 and erasing 10, the key at `find(25)`, and the key at the iterator
after `++find(25)`. -/
def incrementAfterEraseRun (fuel : Nat) : Except Fault (List Nat × Nat × Nat) := do
  let s ← buildSet fuel [10, 5, 30, 20, 40, 25] [10] []
  let tr ← treeOf fuel s.1 s.2
  let pos ← find fuel s.1 s.2 25
  let k0 ← s.1.key pos.current_
  let it ← pos.increment fuel s.1
  let k1 ← s.1.key it.current_
  pure (tr.keys, k0, k1)

/-- Scenario E: size and content of a set built from 10, 20, 30 before anything else,
then size and content of its copy after `insert(40)` into the copy, and size and content
of the original read again afterwards. -/
def scenarioE (fuel : Nat) :
    Except Fault ((Nat × List Nat) × (Nat × List Nat) × (Nat × List Nat)) := do
  let s ← set_insert_all fuel [10, 20, 30] freshSet
  let before ← treeOf fuel s.1 s.2
  let (m, c) ← RedBlackTree.copy fuel s.1 s.2
  let (_, m, c) ← set_insert fuel m c 40
  let copy ← treeOf fuel m c
  let after ← treeOf fuel m s.2
  pure ((s.2.size, before.keys), (c.size, copy.keys), (s.2.size, after.keys))

/-- The set `{10}` next to a freshly constructed empty set in the same memory: the
memory, the set `{10}` (header 0, node 1) and the empty set (header 2). -/
def twoTrees : Mem Nat Nat × RedBlackTree × RedBlackTree :=
  ((RedBlackTree.create oneElementSet.1).1, oneElementSet.2, (RedBlackTree.create oneElementSet.1).2)

/-- The `map<Nat, Nat>` built by inserting the keys 10, 5, 30, 20, 40, 25 with payload ten
times the key, erasing the key 10 through `erase(find(10))`, and inserting the keys 22
and 23. -/
def erasedMap (fuel : Nat) : Except Fault (Mem Nat Nat × RedBlackTree) := do
  let s ← map_insert_all fuel [(10, 100), (5, 50), (30, 300), (20, 200), (40, 400), (25, 250)]
    (RedBlackTree.create Mem.empty)
  let pos ← find fuel s.1 s.2 10
  let s ← map_erase fuel s.1 s.2 pos
  map_insert_all fuel [(22, 220), (23, 230)] s

/-- Scenario for `at` after an erasure: the in-order content of `erasedMap` and the result
of `at(22)`. -/
def atAfterEraseRun (fuel : Nat) : Except Fault (List (Nat × Nat) × Except MapError Nat) := do
  let s ← erasedMap fuel
  let tr ← treeOf fuel s.1 s.2
  let r ← map_at fuel s.1 s.2 22
  pure (tr.toList, r)

/-- Scenario for `insert_or_assign` after an erasure: the in-order content and `size()` of
`erasedMap`, then the flag returned by `insert_or_assign(22, 7)`, `size()` and the
in-order content afterwards. -/
def insertOrAssignAfterEraseRun (fuel : Nat) :
    Except Fault ((List (Nat × Nat) × Nat) × Bool × Nat × List (Nat × Nat)) := do
  let s ← erasedMap fuel
  let before ← treeOf fuel s.1 s.2
  let ((_, inserted), m, t) ← map_insert_or_assign fuel s.1 s.2 22 7
  let after ← treeOf fuel m t
  pure ((before.toList, s.2.size), inserted, t.size, after.toList)

/-- Scenario for `operator[]` after an erasure: the in-order content and `size()` of
`erasedMap`, then the payload in the slot returned by `m[22]` and `size()` afterwards. -/
def subscriptAfterEraseRun (fuel : Nat) :
    Except Fault ((List (Nat × Nat) × Nat) × Nat × Nat) := do
  let s ← erasedMap fuel
  let before ← treeOf fuel s.1 s.2
  let (slot, m, t) ← map_subscript fuel s.1 s.2 22
  let v ← m.payload slot
  pure ((before.toList, s.2.size), v, t.size)

/-- Scenario for `multiset::find` after an erasure: the in-order nodes (address, key) of
the multiset built by inserting 10, 5, 30, 20, 40, 25, erasing 10 through
`erase(find(10))` and inserting 22, then the nodes of `find(22)`, `lower_bound(22)` and
`end()`. -/
def multisetFindAfterEraseRun (fuel : Nat) :
    Except Fault (List (Nat × Nat) × Ptr × Ptr × Ptr) := do
  let s ← multiset_insert_all fuel [10, 5, 30, 20, 40, 25] freshSet
  let pos ← multiset_find fuel s.1 s.2 10
  let (_, m, t) ← erase_iterator fuel s.1 s.2 pos
  let s ← multiset_insert_all fuel [22, 23] (m, t)
  let tr ← treeOf fuel s.1 s.2
  let f ← multiset_find fuel s.1 s.2 22
  let lb ← lower_bound fuel s.1 s.2 22
  pure (tr.entries.map (fun e => (e.1, e.2.1)), f.current_, lb.current_, s.2.end.current_)

/-- The multisets `b = {10}` (header 0, node 1) and `a = {5}` (header 2, node 3) in one
memory: the memory and the tree object of `a`; the tree object of `b` is that of
`oneElementSet`. -/
def mergeOneState : Mem Nat Nat × RedBlackTree :=
  match multiset_insert_all 2 [5] (RedBlackTree.create oneElementSet.1) with
  | .ok s => s
  | .error _ => freshSet

/-- Scenario for `merge` with a one-element argument: `a.merge(b)` for the multisets
`a = {5}` and `b = {10}`; the result is `a.size()` and `b.size()`. -/
def mergeOneRun (fuel : Nat) : Except Fault (Nat × Nat) := do
  let b ← multiset_insert_all fuel [10] freshSet
  let a ← multiset_insert_all fuel [5] (RedBlackTree.create b.1)
  let (_, a', b') ← multiset_merge fuel a.1 a.2 b.2
  pure (a'.size, b'.size)

/-- The multiset `b = {10, 10}` (header 0, nodes 1 and 2). -/
def mergeDuplicatesArg : Mem Nat Nat × RedBlackTree :=
  match multiset_insert_all 3 [10, 10] freshSet with
  | .ok s => s
  | .error _ => freshSet

/-- The multisets `b = {10, 10}` and `a = {5}` (header 3, node 4) in one memory: the
memory and the tree object of `a`. -/
def mergeDuplicatesState : Mem Nat Nat × RedBlackTree :=
  match multiset_insert_all 3 [5] (RedBlackTree.create mergeDuplicatesArg.1) with
  | .ok s => s
  | .error _ => freshSet

/-- Scenario for `merge` with an argument holding duplicates of one key: `a.merge(b)` for
the multisets `a = {5}` and `b = {10, 10}`. -/
def mergeDuplicatesRun (fuel : Nat) : Except Fault (Nat × Nat) := do
  let b ← multiset_insert_all fuel [10, 10] freshSet
  let a ← multiset_insert_all fuel [5] (RedBlackTree.create b.1)
  let (_, a', b') ← multiset_merge fuel a.1 a.2 b.2
  pure (a'.size, b'.size)

/-- Scenario F: the multiset test `ModifiersMerge`, `a.merge(b)` for `a = {10, 30, 10}` and
`b = {5, 20, 30, 5}`: the in-order keys of `a`, `a.size()` and `b.size()` afterwards. -/
def scenarioF (fuel : Nat) : Except Fault (List Nat × Nat × Nat) := do
  let a ← multiset_insert_all fuel [10, 30, 10] freshSet
  let b ← multiset_insert_all fuel [5, 20, 30, 5] (RedBlackTree.create a.1)
  let (m, a', b') ← multiset_merge fuel b.1 a.2 b.2
  let tr ← treeOf fuel m a'
  pure (tr.keys, a'.size, b'.size)

end Scenarios

section EraseScenarios

/-- Whether the parent links below a node are consistent: the node's parent link is
`par`, and the same holds for its children with the node as parent. -/
def parentsOK : Nat → Mem Nat Nat → Ptr → Ptr → Except Fault Bool
  | 0, _, _, _ => .error .outOfFuel
  | _ + 1, _, _, none => .ok true
  | fuel + 1, m, par, some a => do
    let n ← m.read (some a)
    let l ← parentsOK fuel m (some a) n.left
    let r ← parentsOK fuel m (some a) n.right
    pure (decide (n.parent = par) && l && r)

/-- Scenario C: the set built by inserting 10, 20, 30, 40, 25, 35, then `erase(find(30))`;
the result is the in-order keys, `size()`, the black counts of the paths and whether the
parent links are consistent. -/
def scenarioC (fuel : Nat) : Except Fault (List Nat × Nat × List Nat × Bool) := do
  let s ← buildSet fuel [10, 20, 30, 40, 25, 35] [30] []
  let tr ← treeOf fuel s.1 s.2
  let root ← s.1.parent (some s.2.header_)
  let ok ← parentsOK fuel s.1 (some s.2.header_) root
  pure (tr.keys, s.2.size, tr.blackCounts, ok)

/-- Scenario for the two-child branch of `erase`: in the set built by inserting 10, 5, 30,
20, 40, 25 the node `z` holding 10 is erased.  The result is, before the call, `z`, its
successor `y`, `x = y->right` and `y->parent`; and after the call, the left child of `y`'s
former parent (the occupant of `y`'s former slot), the parent link of `x`, and the
`parent`, `left` and `right` links of `y`. -/
def twoChildEraseRun (fuel : Nat) :
    Except Fault ((Ptr × Ptr × Ptr × Ptr) × (Ptr × Ptr × Ptr × Ptr × Ptr)) := do
  let s ← buildSet fuel [10, 5, 30, 20, 40, 25] [] []
  let root ← s.1.parent (some s.2.header_)
  let z ← find_node 10 fuel s.1 root
  let zr ← s.1.right z
  let y ← erase_leftmost fuel s.1 zr
  let x ← s.1.right y
  let yp ← s.1.parent y
  let (m, _) ← erase fuel s.1 s.2 z
  let slot ← m.left yp
  let xp ← m.parent x
  let ypar ← m.parent y
  let yl ← m.left y
  let yr ← m.right y
  pure ((z, y, x, yp), (slot, xp, ypar, yl, yr))

/-- Scenario for the parent links: whether they are consistent in the set built by
inserting 10, 5, 30, 20, 40, 25, before and after `erase(find(10))`. -/
def parentLinksRun (fuel : Nat) : Except Fault (Bool × Bool) := do
  let s ← buildSet fuel [10, 5, 30, 20, 40, 25] [] []
  let root ← s.1.parent (some s.2.header_)
  let before ← parentsOK fuel s.1 (some s.2.header_) root
  let s ← set_erase_keys fuel [10] s
  let root ← s.1.parent (some s.2.header_)
  let after ← parentsOK fuel s.1 (some s.2.header_) root
  pure (before, after)

/-- Scenario for the size counter: `size()` and the number of nodes reachable from the
root in the set built by inserting 10, 5, 30, 20, 40, 25 and erasing 10, and then `size()`,
the number of reachable nodes, their keys and `empty()` after `erase(find(25))`. -/
def sizeCounterRun (fuel : Nat) :
    Except Fault ((Nat × Nat) × (Nat × Nat × List Nat × Bool)) := do
  let s ← buildSet fuel [10, 5, 30, 20, 40, 25] [10] []
  let tr ← treeOf fuel s.1 s.2
  let s' ← set_erase_keys fuel [25] s
  let tr' ← treeOf fuel s'.1 s'.2
  pure ((s.2.size, tr.size), (s'.2.size, tr'.size, tr'.keys, s'.2.empty))

/-- Scenario for a moved-from tree: a fresh set `t` is moved from, then 5 is inserted into
`t`, once with `insert_unique` and once with `insert_equal`; for comparison 5 is inserted
into a fresh set.  Each result is `size()`, whether `begin() == end()`, the node
`begin()` is at, and the node that holds 5. -/
def movedFromRun (fuel : Nat) :
    Except Fault ((Nat × Bool × Ptr × Ptr) × (Nat × Bool × Ptr × Ptr) ×
      (Nat × Bool × Ptr × Ptr)) := do
  let (m, _, t) ← RedBlackTree.move freshSet.1 freshSet.2
  let ((n1, _), _, t1) ← insert_unique fuel m t (5, 5)
  let (n2, _, t2) ← insert_equal fuel m t (5, 5)
  let ((n3, _), _, t3) ← insert_unique fuel freshSet.1 freshSet.2 (5, 5)
  pure ((t1.size, t1.begin.eq t1.end, t1.begin.current_, n1),
    (t2.size, t2.begin.eq t2.end, t2.begin.current_, n2),
    (t3.size, t3.begin.eq t3.end, t3.begin.current_, n3))

/-- Scenario for `erase(iterator)` at the only element: `erase(begin())` on the set
`{10}`; the result is the node the returned iterator is at, the node of `end()`, whether
the two iterators are equal, and `size()`. -/
def eraseIteratorSoleRun (fuel : Nat) : Except Fault (Ptr × Ptr × Bool × Nat) := do
  let (next, _, t) ← erase_iterator fuel oneElementSet.1 oneElementSet.2 oneElementSet.2.begin
  pure (next.current_, t.end.current_, next.eq t.end, t.size)

/-- Scenario for `erase(iterator)` at the last element: `erase(find(20))` on the set built
by inserting 20 and 10; the result is the erased node, the node the returned iterator is
at, the node of `end()`, whether the returned iterator equals `end()`, and the keys
left. -/
def eraseIteratorLastRun (fuel : Nat) : Except Fault (Ptr × Ptr × Ptr × Bool × List Nat) := do
  let s ← buildSet fuel [20, 10] [] []
  let pos ← find fuel s.1 s.2 20
  let (next, m, t) ← erase_iterator fuel s.1 s.2 pos
  let tr ← treeOf fuel m t
  pure (pos.current_, next.current_, t.end.current_, next.eq t.end, tr.keys)

/-- A memory holding a tree that is not balanced: the set built by inserting 10 and 5,
with the node holding 5 (address 2) then painted BLACK, so that the BLACK root has a
BLACK left child and no right child. -/
def lopsidedSet : Mem Nat Nat × RedBlackTree :=
  match (do
    let s ← set_insert_all 3 [10, 5] freshSet
    let m ← s.1.setColor (some 2) .BLACK
    pure (m, s.2) : Except Fault (Mem Nat Nat × RedBlackTree)) with
  | .ok s => s
  | .error _ => freshSet

end EraseScenarios

section FixupScenarios

/-- The set built by inserting the keys 1, 2, ..., `n` in this order into a fresh set:
header at address 0, the node holding `k` at address `k`. -/
def ascendingSet (n : Nat) : Mem Nat Nat × RedBlackTree :=
  match set_insert_all 12 ((List.range n).map (· + 1)) freshSet with
  | .ok s => s
  | .error _ => freshSet

/-- The tree that the set built from 1, 2, ..., 11 holds. -/
def ascendingTree : Tree Nat Nat :=
  .node (.node (.node .nil 1 .BLACK (1, 1) .nil) 2 .BLACK (2, 2) (.node .nil 3 .BLACK (3, 3) .nil))
    4 .BLACK (4, 4)
    (.node (.node .nil 5 .BLACK (5, 5) .nil) 6 .BLACK (6, 6)
      (.node (.node .nil 7 .BLACK (7, 7) .nil) 8 .RED (8, 8)
        (.node (.node .nil 9 .RED (9, 9) .nil) 10 .BLACK (10, 10)
          (.node .nil 11 .RED (11, 11) .nil))))

/-- The position of the missing right child of the node holding 11 in `ascendingTree`,
where the key 12 is inserted. -/
def ascendingSlot : Path Nat Nat :=
  .right .nil 11 .RED (11, 11)
    (.right (.node .nil 9 .RED (9, 9) .nil) 10 .BLACK (10, 10)
      (.right (.node .nil 7 .BLACK (7, 7) .nil) 8 .RED (8, 8)
        (.right (.node .nil 5 .BLACK (5, 5) .nil) 6 .BLACK (6, 6)
          (.right (.node (.node .nil 1 .BLACK (1, 1) .nil) 2 .BLACK (2, 2)
              (.node .nil 3 .BLACK (3, 3) .nil)) 4 .BLACK (4, 4) .top))))

/-- The fixup of `erase(z)` run with the iteration budget `budget`, for the node `z` of the
set built from 1, 2, ..., 11: the part of `erase` up to `delete z`, then `delete z`, then
the loop of `erase_rebalance` with its assertions. -/
def ascendingEraseFixup (budget : Nat) (z : Nat) : Except Fault (Mem Nat Nat × Ptr) := do
  let (m1, x, x_parent, _) ← erase_detach 12 (ascendingSet 11).2.header_ (ascendingSet 11).1 (some z)
  let m2 ← m1.free (some z)
  erase_rebalance_loop_checked true (ascendingSet 11).2.header_ budget m2 x x_parent

/-- The fixup of an insertion run with the iteration budget `budget`: a fresh RED leaf
with key `k` is attached below the node at `parent` in the set built from 1, 2, ..., 11,
then `insert_rebalance` runs. -/
def ascendingInsertFixup (budget : Nat) (k : Nat) (parent : Ptr) : Except Fault (Mem Nat Nat) := do
  let (m1, z) ← attach_node (ascendingSet 11).2.header_ ((ascendingSet 11).1.alloc (k, k)).2
    (some (ascendingSet 11).1.next) parent
  insert_rebalance budget (ascendingSet 11).2.header_ m1 z

end FixupScenarios

section CopyClearScenarios

/-- The call `erase(begin())` made `n` times in a row. -/
def erase_front_times (fuel : Nat) :
    Nat → Mem Nat Nat × RedBlackTree → Except Fault (Mem Nat Nat × RedBlackTree)
  | 0, s => pure s
  | n + 1, (m, t) => do
    let (_, m, t) ← erase_iterator fuel m t t.begin
    erase_front_times fuel n (m, t)

/-- Scenario for the copy constructor on a tree whose `size_` is 0 although a node is
stored.  The set built by inserting 10, 5, 30, 20, 40, 25, erasing 10 and inserting 22
gets `insert_unique((23, 23))` and `erase` of the returned node; the tree `t` so reached is
copied to `c`; `erase(begin())` is called six times on `c`; then `c` is copied to `d`.
The result is the in-order keys and `size()` of `c` right after it was made, of `c` after
the six erasures, and of `d`. -/
def copyUndercountedRun (fuel : Nat) :
    Except Fault ((List Nat × Nat) × (List Nat × Nat) × (List Nat × Nat)) := do
  let s ← buildSet fuel [10, 5, 30, 20, 40, 25] [10] [22]
  let ((node, _), m, t) ← insert_unique fuel s.1 s.2 (23, 23)
  let (m, t) ← erase fuel m t node
  let (m, c) ← RedBlackTree.copy fuel m t
  let trc ← treeOf fuel m c
  let (m, c') ← erase_front_times fuel 6 (m, c)
  let tr1 ← treeOf fuel m c'
  let (m, d) ← RedBlackTree.copy fuel m c'
  let trd ← treeOf fuel m d
  pure ((trc.keys, c.size), (tr1.keys, c'.size), (trd.keys, d.size))

/-- Scenario for `clear()` on a tree in which a node is reached twice: the set built by
inserting 10, 5, 30, 20, 40, 25, erasing 10 and inserting 22 and 23.  The result is the
keys read in order through the child links before the call, and what stops `clear()`, if
anything does. -/
def clearAfterEraseRun (fuel : Nat) : Except Fault (List Nat × Option Fault) := do
  let s ← buildSet fuel [10, 5, 30, 20, 40, 25] [10] [22, 23]
  let tr ← treeOf fuel s.1 s.2
  match clear fuel s.1 s.2 with
  | .ok _ => pure (tr.keys, none)
  | .error e => pure (tr.keys, some e)

end CopyClearScenarios

/-! ## Concrete lists -/

section ListScenarios

/-- The list `{2, 1, 2}` built in empty memory: sentinel at address 0, nodes at 1, 2, 3. -/
def sortInput : LMem Int × list :=
  match list.ofItems LMem.empty [2, 1, 2] with
  | .ok r => r
  | .error _ => (LMem.empty, ⟨0, 0⟩)

/-- The run `list<int> l{2, 1, 2}; l.sort();` followed by a walk over `l` in both
directions: the result is `size()`, the sequence read forwards and the one read
backwards. -/
def sortRun (fuel : Nat) : Except Fault (Nat × List Int × List Int) := do
  let (m, l) ← list_sort fuel sortInput.1 sortInput.2
  let fwd ← l.toList fuel m
  let bwd ← l.toListBack fuel m
  pure (l.size, fwd, bwd)

/-- The lists `a{1, 3}` and `b{2, 3}` built one after the other in empty memory: the
sentinel of `a` at address 0 and its nodes at 1, 2, the sentinel of `b` at 3 and its nodes
at 4, 5. -/
def mergeInput : LMem Int × list × list :=
  match list.ofItems LMem.empty [1, 3] with
  | .ok (m, a) =>
    match list.ofItems m [2, 3] with
    | .ok (m, b) => (m, a, b)
    | .error _ => (LMem.empty, ⟨0, 0⟩, ⟨0, 0⟩)
  | .error _ => (LMem.empty, ⟨0, 0⟩, ⟨0, 0⟩)

/-- The run `list<int> a{1, 3}, b{2, 3}; a.merge(b);` followed by a walk over both lists:
the result is `a.size()`, `b.size()`, `b.empty()` and the two sequences. -/
def mergeRun (fuel : Nat) : Except Fault (Nat × Nat × Bool × List Int × List Int) := do
  let (m, a, b) ← list_merge fuel mergeInput.1 mergeInput.2.1 mergeInput.2.2
  let as ← a.toList fuel m
  let bs ← b.toList fuel m
  pure (a.size, b.size, b.empty, as, bs)

end ListScenarios

section UniqueScenario

/-- The list `{1, 1, 2, 2, 2, 3, 1, 1}` built in empty memory: sentinel at address 0,
nodes at 1 to 8. -/
def uniqueInput : LMem Int × list :=
  match list.ofItems LMem.empty [1, 1, 2, 2, 2, 3, 1, 1] with
  | .ok r => r
  | .error _ => (LMem.empty, ⟨0, 0⟩)

/-- The run `list<int> a{1, 1, 2, 2, 2, 3, 1, 1}; a.unique();` followed by a walk over
`a` in both directions: the result is `size()` and the two sequences read. -/
def uniqueRun (fuel : Nat) : Except Fault (Nat × List Int × List Int) := do
  let (m, l) ← list_unique fuel uniqueInput.1 uniqueInput.2
  let fwd ← l.toList fuel m
  let bwd ← l.toListBack fuel m
  pure (l.size, fwd, bwd)

end UniqueScenario

section VectorInput

/-- The vector `{1, 2, 5, 6}` built in empty memory: its array is at address 0. -/
def vectorInput : VMem Int × vector :=
  match vector.ofItems VMem.empty [1, 2, 5, 6] with
  | .ok r => r
  | .error _ => (VMem.empty, ⟨none, 0, 0⟩)

end VectorInput

/-! ## Lemmas -/

section BasicLemmas

variable {K V : Type}

@[simp] theorem Tree.ptr_nil : (Tree.nil : Tree K V).ptr = none := rfl
@[simp] theorem Tree.ptr_node (l : Tree K V) (a c kv r) : (Tree.node l a c kv r).ptr = some a := rfl
@[simp] theorem Tree.addrs_nil : (Tree.nil : Tree K V).addrs = [] := rfl
@[simp] theorem Tree.addrs_node (l : Tree K V) (a c kv r) :
    (Tree.node l a c kv r).addrs = l.addrs ++ a :: r.addrs := rfl
@[simp] theorem Tree.toList_nil : (Tree.nil : Tree K V).toList = [] := rfl
@[simp] theorem Tree.toList_node (l : Tree K V) (a c kv r) :
    (Tree.node l a c kv r).toList = l.toList ++ kv :: r.toList := rfl
@[simp] theorem Tree.color_nil : (Tree.nil : Tree K V).color = .BLACK := rfl
@[simp] theorem Tree.color_node (l : Tree K V) (a c kv r) : (Tree.node l a c kv r).color = c := rfl
@[simp] theorem Tree.setColor_nil (c : Color) : (Tree.nil : Tree K V).setColor c = .nil := rfl
@[simp] theorem Tree.setColor_node (c' : Color) (l : Tree K V) (a c kv r) :
    (Tree.node l a c kv r).setColor c' = .node l a c' kv r := rfl
@[simp] theorem Path.par_top (hdr : Nat) : (Path.top : Path K V).par hdr = some hdr := rfl
@[simp] theorem Path.par_left (hdr : Nat) (up : Path K V) (a c kv r) :
    (Path.left up a c kv r).par hdr = some a := rfl
@[simp] theorem Path.par_right (hdr : Nat) (up : Path K V) (a c kv l) :
    (Path.right l a c kv up).par hdr = some a := rfl
@[simp] theorem Path.addrs_top : (Path.top : Path K V).addrs = [] := rfl
@[simp] theorem Path.addrs_left (up : Path K V) (a c kv r) :
    (Path.left up a c kv r).addrs = a :: r.addrs ++ up.addrs := rfl
@[simp] theorem Path.addrs_right (up : Path K V) (a c kv l) :
    (Path.right l a c kv up).addrs = a :: l.addrs ++ up.addrs := rfl
@[simp] theorem Path.plug_top (t : Tree K V) : Path.top.plug t = t := rfl
@[simp] theorem Path.plug_left (up : Path K V) (a c kv r) (t : Tree K V) :
    (Path.left up a c kv r).plug t = up.plug (.node t a c kv r) := rfl
@[simp] theorem Path.plug_right (up : Path K V) (a c kv l) (t : Tree K V) :
    (Path.right l a c kv up).plug t = up.plug (.node l a c kv t) := rfl
@[simp] theorem Shape_nil (m : Mem K V) (par : Ptr) : Shape m par .nil ↔ True := Iff.rfl
@[simp] theorem Shape_node (m : Mem K V) (par : Ptr) (l : Tree K V) (a c kv r) :
    Shape m par (.node l a c kv r) ↔
      m.cells a = some ⟨kv, c, par, l.ptr, r.ptr⟩ ∧ Shape m (some a) l ∧ Shape m (some a) r :=
  Iff.rfl
@[simp] theorem PShape_top (m : Mem K V) (hdr : Nat) (hole : Ptr) :
    PShape m hdr .top hole ↔ ∃ hn, m.cells hdr = some hn ∧ hn.parent = hole := Iff.rfl
@[simp] theorem PShape_left (m : Mem K V) (hdr : Nat) (hole : Ptr) (up : Path K V) (a c kv r) :
    PShape m hdr (.left up a c kv r) hole ↔
      m.cells a = some ⟨kv, c, up.par hdr, hole, r.ptr⟩ ∧ Shape m (some a) r ∧
        PShape m hdr up (some a) := Iff.rfl
@[simp] theorem PShape_right (m : Mem K V) (hdr : Nat) (hole : Ptr) (up : Path K V) (a c kv l) :
    PShape m hdr (.right l a c kv up) hole ↔
      m.cells a = some ⟨kv, c, up.par hdr, l.ptr, hole⟩ ∧ Shape m (some a) l ∧
        PShape m hdr up (some a) := Iff.rfl

@[simp] theorem ok_bind {ε α β : Type} (v : α) (f : α → Except ε β) :
    (Except.ok v >>= f) = f v := rfl

@[simp] theorem Mem.put_cells (m : Mem K V) (a b : Nat) (n : Node K V) :
    (m.put a n).cells b = if b = a then some n else m.cells b := rfl

@[simp] theorem Mem.put_next (m : Mem K V) (a : Nat) (n : Node K V) :
    (m.put a n).next = m.next := rfl

theorem Shape.shape_frame {m m' : Mem K V} {par : Ptr} {t : Tree K V}
    (h : Shape m par t) (hf : ∀ a ∈ t.addrs, m'.cells a = m.cells a) : Shape m' par t := by
  induction t generalizing par with
  | nil => trivial
  | node l a c kv r ihl ihr =>
    obtain ⟨h1, h2, h3⟩ := h
    refine ⟨?_, ihl h2 ?_, ihr h3 ?_⟩
    · rw [hf a (by simp)]; exact h1
    · intro b hb; exact hf b (by simp [hb])
    · intro b hb; exact hf b (by simp [hb])

theorem PShape.pshape_frame {m m' : Mem K V} {hdr : Nat} {p : Path K V} {hole : Ptr}
    (h : PShape m hdr p hole) (hf : ∀ a ∈ hdr :: p.addrs, m'.cells a = m.cells a) :
    PShape m' hdr p hole := by
  induction p generalizing hole with
  | top =>
    obtain ⟨hn, h1, h2⟩ := h
    exact ⟨hn, by rw [hf hdr (by simp)]; exact h1, h2⟩
  | left up a c kv r ih =>
    obtain ⟨h1, h2, h3⟩ := h
    refine ⟨?_, h2.shape_frame ?_, ih h3 ?_⟩
    · rw [hf a (by simp)]; exact h1
    · intro b hb; exact hf b (by simp [hb])
    · intro b hb
      simp only [List.mem_cons] at hb
      rcases hb with hb | hb
      · exact hf b (by simp [hb])
      · exact hf b (by simp [hb])
  | right l a c kv up ih =>
    obtain ⟨h1, h2, h3⟩ := h
    refine ⟨?_, h2.shape_frame ?_, ih h3 ?_⟩
    · rw [hf a (by simp)]; exact h1
    · intro b hb; exact hf b (by simp [hb])
    · intro b hb
      simp only [List.mem_cons] at hb
      rcases hb with hb | hb
      · exact hf b (by simp [hb])
      · exact hf b (by simp [hb])

theorem Shape.shape_put_iff {m : Mem K V} {par : Ptr} {t : Tree K V} {a : Nat} {n : Node K V}
    (h : a ∉ t.addrs) : Shape (m.put a n) par t ↔ Shape m par t := by
  constructor
  · intro hs
    exact hs.shape_frame (fun b hb => by
      have : b ≠ a := by rintro rfl; exact h hb
      simp [this])
  · intro hs
    exact hs.shape_frame (fun b hb => by
      have : b ≠ a := by rintro rfl; exact h hb
      simp [this])

theorem PShape.pshape_put_iff {m : Mem K V} {hdr : Nat} {p : Path K V} {hole : Ptr} {a : Nat}
    {n : Node K V} (h : a ∉ p.addrs) (h' : a ≠ hdr) :
    PShape (m.put a n) hdr p hole ↔ PShape m hdr p hole := by
  constructor
  · intro hs
    exact hs.pshape_frame (fun b hb => by
      have : b ≠ a := by
        rintro rfl
        simp only [List.mem_cons] at hb
        rcases hb with hb | hb
        · exact h' hb
        · exact h hb
      simp [this])
  · intro hs
    exact hs.pshape_frame (fun b hb => by
      have : b ≠ a := by
        rintro rfl
        simp only [List.mem_cons] at hb
        rcases hb with hb | hb
        · exact h' hb
        · exact h hb
      simp [this])

theorem AgreeOff.refl (m : Mem K V) (S : List Nat) : AgreeOff m m S := fun _ _ => rfl

theorem AgreeOff.agree_put_iff {m m' : Mem K V} {S : List Nat} {a : Nat} {n : Node K V} (h : a ∈ S) :
    AgreeOff (m'.put a n) m S ↔ AgreeOff m' m S := by
  constructor
  · intro hs c hc
    have : c ≠ a := by rintro rfl; exact hc h
    have := hs c hc
    simpa [*] using this
  · intro hs c hc
    have : c ≠ a := by rintro rfl; exact hc h
    simp [this, hs c hc]

theorem AgreeOff.trans {m1 m2 m3 : Mem K V} {S : List Nat}
    (h1 : AgreeOff m3 m2 S) (h2 : AgreeOff m2 m1 S) : AgreeOff m3 m1 S :=
  fun c hc => (h1 c hc).trans (h2 c hc)

theorem AgreeOff.mono {m' m : Mem K V} {S T : List Nat}
    (h : AgreeOff m' m S) (hs : ∀ a ∈ S, a ∈ T) : AgreeOff m' m T :=
  fun c hc => h c (fun hcs => hc (hs c hcs))

theorem Tree.ptr_mem {t : Tree K V} {a : Nat} (h : t.ptr = some a) : a ∈ t.addrs := by
  cases t with
  | nil => simp at h
  | node l b c kv r => simp at h; simp [h]

theorem Tree.ptr_ne_of_not_mem {t : Tree K V} {a : Nat} (h : a ∉ t.addrs) : some a ≠ t.ptr :=
  fun e => h (Tree.ptr_mem e.symm)

theorem rotate_left_spec [LinearOrder K] {m : Mem K V} {hdr : Nat} {p : Path K V}
    {α β γ : Tree K V} {x y : Nat} {cx cy : Color} {kx ky : K × V}
    (h : ZRep m hdr p (.node α x cx kx (.node β y cy ky γ))) :
    ∃ m', rotate_left hdr m (some x) = .ok m' ∧
      ZRep m' hdr p (.node (.node α x cx kx β) y cy ky γ) ∧ m'.next = m.next ∧
      AgreeOff m' m (hdr :: (p.addrs ++ (Tree.node α x cx kx (.node β y cy ky γ)).addrs)) := by
  obtain ⟨hp, hs, hn⟩ := h
  obtain ⟨hx, hα, hy, hβ, hγ⟩ := hs
  cases β with
  | nil =>
    cases p with
    | top =>
      obtain ⟨hh, hhc, hhp⟩ := hp
      simp [List.nodup_append, List.nodup_cons] at hn
      have hne0 : hdr ≠ x := by rintro rfl; simp at hn
      have hne1 : hdr ≠ y := by rintro rfl; simp at hn
      have hne2 : x ≠ y := by rintro rfl; simp at hn
      simp at hx hy
      simp [rotate_left, Mem.right, Mem.left, Mem.parent, Mem.color, Mem.setRight, Mem.setLeft, Mem.setParent, Mem.setColor, Mem.modify, Mem.read, Except.map, ZRep, Shape.shape_put_iff, PShape.pshape_put_iff, AgreeOff.agree_put_iff, AgreeOff.refl, List.nodup_append, List.nodup_cons, hx, hy, hα, hγ, hhc, hhp, hne0, hne0.symm, hne1, hne1.symm, hne2, hne2.symm, hn]
    | left up a c kv r =>
      obtain ⟨ha, hr, hup⟩ := hp
      simp [List.nodup_append, List.nodup_cons] at hn
      have hne0 : hdr ≠ x := by rintro rfl; simp at hn
      have hne1 : hdr ≠ y := by rintro rfl; simp at hn
      have hne2 : hdr ≠ a := by rintro rfl; simp at hn
      have hne3 : x ≠ y := by rintro rfl; simp at hn
      have hne4 : x ≠ a := by rintro rfl; simp at hn
      have hne5 : y ≠ a := by rintro rfl; simp at hn
      have hsib : some x ≠ r.ptr := Tree.ptr_ne_of_not_mem (by simp [hn])
      simp at hx hy ha
      simp [rotate_left, Mem.right, Mem.left, Mem.parent, Mem.color, Mem.setRight, Mem.setLeft, Mem.setParent, Mem.setColor, Mem.modify, Mem.read, Except.map, ZRep, Shape.shape_put_iff, PShape.pshape_put_iff, AgreeOff.agree_put_iff, AgreeOff.refl, List.nodup_append, List.nodup_cons, hx, hy, hα, hγ, ha, hr, hup, hne0, hne0.symm, hne1, hne1.symm, hne2, hne2.symm, hne3, hne3.symm, hne4, hne4.symm, hne5, hne5.symm, hsib, hsib.symm, hn]
    | right l a c kv up =>
      obtain ⟨ha, hl, hup⟩ := hp
      simp [List.nodup_append, List.nodup_cons] at hn
      have hne0 : hdr ≠ x := by rintro rfl; simp at hn
      have hne1 : hdr ≠ y := by rintro rfl; simp at hn
      have hne2 : hdr ≠ a := by rintro rfl; simp at hn
      have hne3 : x ≠ y := by rintro rfl; simp at hn
      have hne4 : x ≠ a := by rintro rfl; simp at hn
      have hne5 : y ≠ a := by rintro rfl; simp at hn
      have hsib : some x ≠ l.ptr := Tree.ptr_ne_of_not_mem (by simp [hn])
      simp at hx hy ha
      simp [rotate_left, Mem.right, Mem.left, Mem.parent, Mem.color, Mem.setRight, Mem.setLeft, Mem.setParent, Mem.setColor, Mem.modify, Mem.read, Except.map, ZRep, Shape.shape_put_iff, PShape.pshape_put_iff, AgreeOff.agree_put_iff, AgreeOff.refl, List.nodup_append, List.nodup_cons, hx, hy, hα, hγ, ha, hl, hup, hne0, hne0.symm, hne1, hne1.symm, hne2, hne2.symm, hne3, hne3.symm, hne4, hne4.symm, hne5, hne5.symm, hsib, hsib.symm, hn]
  | node β1 b cb kb β2 =>
    cases p with
    | top =>
      obtain ⟨hb, hβ1, hβ2⟩ := hβ
      obtain ⟨hh, hhc, hhp⟩ := hp
      simp [List.nodup_append, List.nodup_cons] at hn
      have hne0 : hdr ≠ x := by rintro rfl; simp at hn
      have hne1 : hdr ≠ y := by rintro rfl; simp at hn
      have hne2 : hdr ≠ b := by rintro rfl; simp at hn
      have hne3 : x ≠ y := by rintro rfl; simp at hn
      have hne4 : x ≠ b := by rintro rfl; simp at hn
      have hne5 : y ≠ b := by rintro rfl; simp at hn
      simp at hx hy
      simp [rotate_left, Mem.right, Mem.left, Mem.parent, Mem.color, Mem.setRight, Mem.setLeft, Mem.setParent, Mem.setColor, Mem.modify, Mem.read, Except.map, ZRep, Shape.shape_put_iff, PShape.pshape_put_iff, AgreeOff.agree_put_iff, AgreeOff.refl, List.nodup_append, List.nodup_cons, hx, hy, hα, hγ, hb, hβ1, hβ2, hhc, hhp, hne0, hne0.symm, hne1, hne1.symm, hne2, hne2.symm, hne3, hne3.symm, hne4, hne4.symm, hne5, hne5.symm, hn]
    | left up a c kv r =>
      obtain ⟨hb, hβ1, hβ2⟩ := hβ
      obtain ⟨ha, hr, hup⟩ := hp
      simp [List.nodup_append, List.nodup_cons] at hn
      have hne0 : hdr ≠ x := by rintro rfl; simp at hn
      have hne1 : hdr ≠ y := by rintro rfl; simp at hn
      have hne2 : hdr ≠ b := by rintro rfl; simp at hn
      have hne3 : hdr ≠ a := by rintro rfl; simp at hn
      have hne4 : x ≠ y := by rintro rfl; simp at hn
      have hne5 : x ≠ b := by rintro rfl; simp at hn
      have hne6 : x ≠ a := by rintro rfl; simp at hn
      have hne7 : y ≠ b := by rintro rfl; simp at hn
      have hne8 : y ≠ a := by rintro rfl; simp at hn
      have hne9 : b ≠ a := by rintro rfl; simp at hn
      have hsib : some x ≠ r.ptr := Tree.ptr_ne_of_not_mem (by simp [hn])
      simp at hx hy ha
      simp [rotate_left, Mem.right, Mem.left, Mem.parent, Mem.color, Mem.setRight, Mem.setLeft, Mem.setParent, Mem.setColor, Mem.modify, Mem.read, Except.map, ZRep, Shape.shape_put_iff, PShape.pshape_put_iff, AgreeOff.agree_put_iff, AgreeOff.refl, List.nodup_append, List.nodup_cons, hx, hy, hα, hγ, hb, hβ1, hβ2, ha, hr, hup, hne0, hne0.symm, hne1, hne1.symm, hne2, hne2.symm, hne3, hne3.symm, hne4, hne4.symm, hne5, hne5.symm, hne6, hne6.symm, hne7, hne7.symm, hne8, hne8.symm, hne9, hne9.symm, hsib, hsib.symm, hn]
    | right l a c kv up =>
      obtain ⟨hb, hβ1, hβ2⟩ := hβ
      obtain ⟨ha, hl, hup⟩ := hp
      simp [List.nodup_append, List.nodup_cons] at hn
      have hne0 : hdr ≠ x := by rintro rfl; simp at hn
      have hne1 : hdr ≠ y := by rintro rfl; simp at hn
      have hne2 : hdr ≠ b := by rintro rfl; simp at hn
      have hne3 : hdr ≠ a := by rintro rfl; simp at hn
      have hne4 : x ≠ y := by rintro rfl; simp at hn
      have hne5 : x ≠ b := by rintro rfl; simp at hn
      have hne6 : x ≠ a := by rintro rfl; simp at hn
      have hne7 : y ≠ b := by rintro rfl; simp at hn
      have hne8 : y ≠ a := by rintro rfl; simp at hn
      have hne9 : b ≠ a := by rintro rfl; simp at hn
      have hsib : some x ≠ l.ptr := Tree.ptr_ne_of_not_mem (by simp [hn])
      simp at hx hy ha
      simp [rotate_left, Mem.right, Mem.left, Mem.parent, Mem.color, Mem.setRight, Mem.setLeft, Mem.setParent, Mem.setColor, Mem.modify, Mem.read, Except.map, ZRep, Shape.shape_put_iff, PShape.pshape_put_iff, AgreeOff.agree_put_iff, AgreeOff.refl, List.nodup_append, List.nodup_cons, hx, hy, hα, hγ, hb, hβ1, hβ2, ha, hl, hup, hne0, hne0.symm, hne1, hne1.symm, hne2, hne2.symm, hne3, hne3.symm, hne4, hne4.symm, hne5, hne5.symm, hne6, hne6.symm, hne7, hne7.symm, hne8, hne8.symm, hne9, hne9.symm, hsib, hsib.symm, hn]

theorem rotate_right_spec [LinearOrder K] {m : Mem K V} {hdr : Nat} {p : Path K V}
    {α β γ : Tree K V} {x y : Nat} {cx cy : Color} {kx ky : K × V}
    (h : ZRep m hdr p (.node (.node α y cy ky β) x cx kx γ)) :
    ∃ m', rotate_right hdr m (some x) = .ok m' ∧
      ZRep m' hdr p (.node α y cy ky (.node β x cx kx γ)) ∧ m'.next = m.next ∧
      AgreeOff m' m (hdr :: (p.addrs ++ (Tree.node (.node α y cy ky β) x cx kx γ).addrs)) := by
  obtain ⟨hp, hs, hn⟩ := h
  obtain ⟨hx, ⟨hy, hα, hβ⟩, hγ⟩ := hs
  cases β with
  | nil =>
    cases p with
    | top =>
      obtain ⟨hh, hhc, hhp⟩ := hp
      simp [List.nodup_append, List.nodup_cons] at hn
      have hne0 : hdr ≠ x := by rintro rfl; simp at hn
      have hne1 : hdr ≠ y := by rintro rfl; simp at hn
      have hne2 : x ≠ y := by rintro rfl; simp at hn
      simp at hx hy
      simp [rotate_right, Mem.right, Mem.left, Mem.parent, Mem.color, Mem.setRight, Mem.setLeft, Mem.setParent, Mem.setColor, Mem.modify, Mem.read, Except.map, ZRep, Shape.shape_put_iff, PShape.pshape_put_iff, AgreeOff.agree_put_iff, AgreeOff.refl, List.nodup_append, List.nodup_cons, hx, hy, hα, hγ, hhc, hhp, hne0, hne0.symm, hne1, hne1.symm, hne2, hne2.symm, hn]
    | left up a c kv r =>
      obtain ⟨ha, hr, hup⟩ := hp
      simp [List.nodup_append, List.nodup_cons] at hn
      have hne0 : hdr ≠ x := by rintro rfl; simp at hn
      have hne1 : hdr ≠ y := by rintro rfl; simp at hn
      have hne2 : hdr ≠ a := by rintro rfl; simp at hn
      have hne3 : x ≠ y := by rintro rfl; simp at hn
      have hne4 : x ≠ a := by rintro rfl; simp at hn
      have hne5 : y ≠ a := by rintro rfl; simp at hn
      have hsib : some x ≠ r.ptr := Tree.ptr_ne_of_not_mem (by simp [hn])
      simp at hx hy ha
      simp [rotate_right, Mem.right, Mem.left, Mem.parent, Mem.color, Mem.setRight, Mem.setLeft, Mem.setParent, Mem.setColor, Mem.modify, Mem.read, Except.map, ZRep, Shape.shape_put_iff, PShape.pshape_put_iff, AgreeOff.agree_put_iff, AgreeOff.refl, List.nodup_append, List.nodup_cons, hx, hy, hα, hγ, ha, hr, hup, hne0, hne0.symm, hne1, hne1.symm, hne2, hne2.symm, hne3, hne3.symm, hne4, hne4.symm, hne5, hne5.symm, hsib, hsib.symm, hn]
    | right l a c kv up =>
      obtain ⟨ha, hl, hup⟩ := hp
      simp [List.nodup_append, List.nodup_cons] at hn
      have hne0 : hdr ≠ x := by rintro rfl; simp at hn
      have hne1 : hdr ≠ y := by rintro rfl; simp at hn
      have hne2 : hdr ≠ a := by rintro rfl; simp at hn
      have hne3 : x ≠ y := by rintro rfl; simp at hn
      have hne4 : x ≠ a := by rintro rfl; simp at hn
      have hne5 : y ≠ a := by rintro rfl; simp at hn
      have hsib : some x ≠ l.ptr := Tree.ptr_ne_of_not_mem (by simp [hn])
      simp at hx hy ha
      simp [rotate_right, Mem.right, Mem.left, Mem.parent, Mem.color, Mem.setRight, Mem.setLeft, Mem.setParent, Mem.setColor, Mem.modify, Mem.read, Except.map, ZRep, Shape.shape_put_iff, PShape.pshape_put_iff, AgreeOff.agree_put_iff, AgreeOff.refl, List.nodup_append, List.nodup_cons, hx, hy, hα, hγ, ha, hl, hup, hne0, hne0.symm, hne1, hne1.symm, hne2, hne2.symm, hne3, hne3.symm, hne4, hne4.symm, hne5, hne5.symm, hsib, hsib.symm, hn]
  | node β1 b cb kb β2 =>
    cases p with
    | top =>
      obtain ⟨hb, hβ1, hβ2⟩ := hβ
      obtain ⟨hh, hhc, hhp⟩ := hp
      simp [List.nodup_append, List.nodup_cons] at hn
      have hne0 : hdr ≠ x := by rintro rfl; simp at hn
      have hne1 : hdr ≠ y := by rintro rfl; simp at hn
      have hne2 : hdr ≠ b := by rintro rfl; simp at hn
      have hne3 : x ≠ y := by rintro rfl; simp at hn
      have hne4 : x ≠ b := by rintro rfl; simp at hn
      have hne5 : y ≠ b := by rintro rfl; simp at hn
      simp at hx hy
      simp [rotate_right, Mem.right, Mem.left, Mem.parent, Mem.color, Mem.setRight, Mem.setLeft, Mem.setParent, Mem.setColor, Mem.modify, Mem.read, Except.map, ZRep, Shape.shape_put_iff, PShape.pshape_put_iff, AgreeOff.agree_put_iff, AgreeOff.refl, List.nodup_append, List.nodup_cons, hx, hy, hα, hγ, hb, hβ1, hβ2, hhc, hhp, hne0, hne0.symm, hne1, hne1.symm, hne2, hne2.symm, hne3, hne3.symm, hne4, hne4.symm, hne5, hne5.symm, hn]
    | left up a c kv r =>
      obtain ⟨hb, hβ1, hβ2⟩ := hβ
      obtain ⟨ha, hr, hup⟩ := hp
      simp [List.nodup_append, List.nodup_cons] at hn
      have hne0 : hdr ≠ x := by rintro rfl; simp at hn
      have hne1 : hdr ≠ y := by rintro rfl; simp at hn
      have hne2 : hdr ≠ b := by rintro rfl; simp at hn
      have hne3 : hdr ≠ a := by rintro rfl; simp at hn
      have hne4 : x ≠ y := by rintro rfl; simp at hn
      have hne5 : x ≠ b := by rintro rfl; simp at hn
      have hne6 : x ≠ a := by rintro rfl; simp at hn
      have hne7 : y ≠ b := by rintro rfl; simp at hn
      have hne8 : y ≠ a := by rintro rfl; simp at hn
      have hne9 : b ≠ a := by rintro rfl; simp at hn
      have hsib : some x ≠ r.ptr := Tree.ptr_ne_of_not_mem (by simp [hn])
      simp at hx hy ha
      simp [rotate_right, Mem.right, Mem.left, Mem.parent, Mem.color, Mem.setRight, Mem.setLeft, Mem.setParent, Mem.setColor, Mem.modify, Mem.read, Except.map, ZRep, Shape.shape_put_iff, PShape.pshape_put_iff, AgreeOff.agree_put_iff, AgreeOff.refl, List.nodup_append, List.nodup_cons, hx, hy, hα, hγ, hb, hβ1, hβ2, ha, hr, hup, hne0, hne0.symm, hne1, hne1.symm, hne2, hne2.symm, hne3, hne3.symm, hne4, hne4.symm, hne5, hne5.symm, hne6, hne6.symm, hne7, hne7.symm, hne8, hne8.symm, hne9, hne9.symm, hsib, hsib.symm, hn]
    | right l a c kv up =>
      obtain ⟨hb, hβ1, hβ2⟩ := hβ
      obtain ⟨ha, hl, hup⟩ := hp
      simp [List.nodup_append, List.nodup_cons] at hn
      have hne0 : hdr ≠ x := by rintro rfl; simp at hn
      have hne1 : hdr ≠ y := by rintro rfl; simp at hn
      have hne2 : hdr ≠ b := by rintro rfl; simp at hn
      have hne3 : hdr ≠ a := by rintro rfl; simp at hn
      have hne4 : x ≠ y := by rintro rfl; simp at hn
      have hne5 : x ≠ b := by rintro rfl; simp at hn
      have hne6 : x ≠ a := by rintro rfl; simp at hn
      have hne7 : y ≠ b := by rintro rfl; simp at hn
      have hne8 : y ≠ a := by rintro rfl; simp at hn
      have hne9 : b ≠ a := by rintro rfl; simp at hn
      have hsib : some x ≠ l.ptr := Tree.ptr_ne_of_not_mem (by simp [hn])
      simp at hx hy ha
      simp [rotate_right, Mem.right, Mem.left, Mem.parent, Mem.color, Mem.setRight, Mem.setLeft, Mem.setParent, Mem.setColor, Mem.modify, Mem.read, Except.map, ZRep, Shape.shape_put_iff, PShape.pshape_put_iff, AgreeOff.agree_put_iff, AgreeOff.refl, List.nodup_append, List.nodup_cons, hx, hy, hα, hγ, hb, hβ1, hβ2, ha, hl, hup, hne0, hne0.symm, hne1, hne1.symm, hne2, hne2.symm, hne3, hne3.symm, hne4, hne4.symm, hne5, hne5.symm, hne6, hne6.symm, hne7, hne7.symm, hne8, hne8.symm, hne9, hne9.symm, hsib, hsib.symm, hn]

@[simp] theorem pure_eq_ok {ε α : Type} (a : α) : (pure a : Except ε α) = .ok a := rfl

theorem ZRep.up_left {m : Mem K V} {hdr : Nat} {up : Path K V} {a : Nat} {c : Color}
    {kv : K × V} {r t : Tree K V} :
    ZRep m hdr (.left up a c kv r) t ↔ ZRep m hdr up (.node t a c kv r) := by
  simp only [ZRep, PShape_left, Shape_node, Path.par_left, Tree.ptr_node, Path.addrs_left,
    Tree.addrs_node]
  have hperm : (hdr :: ((a :: r.addrs ++ up.addrs) ++ t.addrs)).Perm
      (hdr :: (up.addrs ++ (t.addrs ++ a :: r.addrs))) := by
    rw [List.perm_iff_count]
    intro b
    simp only [List.count_cons, List.count_append]
    omega
  rw [hperm.nodup_iff]
  tauto

theorem ZRep.up_right {m : Mem K V} {hdr : Nat} {up : Path K V} {a : Nat} {c : Color}
    {kv : K × V} {l t : Tree K V} :
    ZRep m hdr (.right l a c kv up) t ↔ ZRep m hdr up (.node l a c kv t) := by
  simp only [ZRep, PShape_right, Shape_node, Path.par_right, Tree.ptr_node, Path.addrs_right,
    Tree.addrs_node]
  have hperm : (hdr :: ((a :: l.addrs ++ up.addrs) ++ t.addrs)).Perm
      (hdr :: (up.addrs ++ (l.addrs ++ a :: t.addrs))) := by
    rw [List.perm_iff_count]
    intro b
    simp only [List.count_cons, List.count_append]
    omega
  rw [hperm.nodup_iff]
  tauto

theorem ZRep.toHolds {m : Mem K V} {hdr : Nat} {p : Path K V} {t : Tree K V}
    (h : ZRep m hdr p t) : Holds m hdr (p.plug t) := by
  induction p generalizing t with
  | top => exact h
  | left up a c kv r ih => exact ih (ZRep.up_left.1 h)
  | right l a c kv up ih => exact ih (ZRep.up_right.1 h)

theorem Holds.toZRep {m : Mem K V} {hdr : Nat} {p : Path K V} {t : Tree K V}
    (h : Holds m hdr (p.plug t)) : ZRep m hdr p t := by
  induction p generalizing t with
  | top => exact h
  | left up a c kv r ih => exact ZRep.up_left.2 (ih h)
  | right l a c kv up ih => exact ZRep.up_right.2 (ih h)

theorem Path.plug_addrs_perm (p : Path K V) (t : Tree K V) :
    (p.plug t).addrs.Perm (p.addrs ++ t.addrs) := by
  induction p generalizing t with
  | top => simp
  | left up a c kv r ih =>
    refine (ih _).trans ?_
    rw [List.perm_iff_count]
    intro b
    simp only [List.count_cons, List.count_append, Tree.addrs_node, Path.addrs_left]
    omega
  | right l a c kv up ih =>
    refine (ih _).trans ?_
    rw [List.perm_iff_count]
    intro b
    simp only [List.count_cons, List.count_append, Tree.addrs_node, Path.addrs_right]
    omega

theorem Path.mem_plug_addrs {p : Path K V} {t : Tree K V} {a : Nat} :
    a ∈ (p.plug t).addrs ↔ a ∈ p.addrs ∨ a ∈ t.addrs := by
  rw [(p.plug_addrs_perm t).mem_iff, List.mem_append]

theorem Path.plug_toList (p : Path K V) (t : Tree K V) :
    (p.plug t).toList = p.before ++ t.toList ++ p.after := by
  induction p generalizing t with
  | top => simp [Path.before, Path.after]
  | left up a c kv r ih => simp [ih, Path.before, Path.after]
  | right l a c kv up ih => simp [ih, Path.before, Path.after]

/-- The header cell and the root pointer it holds. -/
theorem ZRep.header {m : Mem K V} {hdr : Nat} {p : Path K V} {t : Tree K V}
    (h : ZRep m hdr p t) : ∃ hn, m.cells hdr = some hn ∧ hn.parent = (p.plug t).ptr :=
  (ZRep.toHolds h).1

theorem ZRep.read_root {m : Mem K V} {hdr : Nat} {p : Path K V} {t : Tree K V}
    (h : ZRep m hdr p t) : m.parent (some hdr) = .ok (p.plug t).ptr := by
  obtain ⟨hn, h1, h2⟩ := h.header
  simp [Mem.parent, Mem.read, h1, Except.map, h2]

theorem Path.plug_ptr_mem {p : Path K V} (t : Tree K V) (hp : p.isTop = false) :
    ∃ a ∈ p.addrs, (p.plug t).ptr = some a := by
  induction p generalizing t with
  | top => simp [Path.isTop] at hp
  | left up a c kv r ih =>
    cases up with
    | top => exact ⟨a, by simp, rfl⟩
    | left up2 b cb kb r2 =>
      obtain ⟨x, hx, hx'⟩ := ih (.node t a c kv r) rfl
      exact ⟨x, by simp at hx ⊢; tauto, hx'⟩
    | right l2 b cb kb up2 =>
      obtain ⟨x, hx, hx'⟩ := ih (.node t a c kv r) rfl
      exact ⟨x, by simp at hx ⊢; tauto, hx'⟩
  | right l a c kv up ih =>
    cases up with
    | top => exact ⟨a, by simp, rfl⟩
    | left up2 b cb kb r2 =>
      obtain ⟨x, hx, hx'⟩ := ih (.node l a c kv t) rfl
      exact ⟨x, by simp at hx ⊢; tauto, hx'⟩
    | right l2 b cb kb up2 =>
      obtain ⟨x, hx, hx'⟩ := ih (.node l a c kv t) rfl
      exact ⟨x, by simp at hx ⊢; tauto, hx'⟩

/-- The focus is the root exactly at the top. -/
theorem ZRep.root_ne {m : Mem K V} {hdr : Nat} {p : Path K V} {l r : Tree K V} {z : Nat}
    {c : Color} {kv : K × V} (h : ZRep m hdr p (.node l z c kv r)) (hp : p.isTop = false) :
    some z ≠ (p.plug (.node l z c kv r)).ptr := by
  obtain ⟨a, ha, ha'⟩ := Path.plug_ptr_mem (.node l z c kv r) hp
  rw [ha']
  intro e
  injection e with e
  subst e
  have hn := h.2.2
  simp [List.nodup_append, List.nodup_cons] at hn
  have := hn.2.2.2
  simp [List.disjoint_left] at this
  rcases this with ⟨-, h2, -⟩
  exact h2 ha

theorem ZRep.reads {m : Mem K V} {hdr : Nat} {p : Path K V} {l r : Tree K V} {z : Nat}
    {c : Color} {kv : K × V} (h : ZRep m hdr p (.node l z c kv r)) :
    m.parent (some z) = .ok (p.par hdr) ∧ m.color (some z) = .ok c ∧
    m.left (some z) = .ok l.ptr ∧ m.right (some z) = .ok r.ptr ∧ m.key (some z) = .ok kv.1 := by
  have := h.2.1.1
  simp [Mem.parent, Mem.color, Mem.left, Mem.right, Mem.key, Mem.read, this, Except.map]

theorem Shape.isRed {m : Mem K V} {par : Ptr} {t : Tree K V} (h : Shape m par t) :
    m.isRed t.ptr = .ok (decide (t.color = .RED)) := by
  cases t with
  | nil => simp [Mem.isRed]
  | node l a c kv r => simp [Mem.isRed, Mem.color, Mem.read, h.1, Except.map]

theorem setColor_spec {m : Mem K V} {hdr : Nat} {p : Path K V} {l r : Tree K V} {x : Nat}
    {c : Color} {kv : K × V} (h : ZRep m hdr p (.node l x c kv r)) (c' : Color) :
    ∃ m', m.setColor (some x) c' = .ok m' ∧ ZRep m' hdr p (.node l x c' kv r) ∧
      m'.next = m.next ∧ AgreeOff m' m [x] := by
  obtain ⟨hp, ⟨hx, hl, hr⟩, hn⟩ := h
  have hn' := hn
  simp [List.nodup_append, List.nodup_cons] at hn
  have hhx : x ≠ hdr := by rintro rfl; simp at hn
  simp [Mem.setColor, Mem.modify, hx, ZRep, Shape.shape_put_iff, PShape.pshape_put_iff, AgreeOff.agree_put_iff,
    AgreeOff.refl, hn, hl, hr, hhx, List.nodup_append, List.nodup_cons]
  simpa using hp

theorem Path.rootBlack_up_left {up : Path K V} {a : Nat} {c : Color} {kv : K × V}
    {r : Tree K V} (h : (Path.left up a c kv r).rootBlack) : up.rootBlack := by
  cases up <;> simp_all [Path.rootBlack]

theorem Path.rootBlack_up_right {up : Path K V} {a : Nat} {c : Color} {kv : K × V}
    {l : Tree K V} (h : (Path.right l a c kv up).rootBlack) : up.rootBlack := by
  cases up <;> simp_all [Path.rootBlack]

theorem insFix_top (t : Tree K V) : insFix .top t = t := by
  rw [insFix]

theorem insFix_LL (up : Path K V) (g : Nat) (gc : Color) (gkv : K × V) (u : Tree K V)
    (p : Nat) (pc : Color) (pkv : K × V) (s t : Tree K V) :
    insFix (.left (.left up g gc gkv u) p pc pkv s) t =
    if pc = .RED then
      if u.color = .RED then
        insFix up (.node (.node t p .BLACK pkv s) g (if up.isTop then gc else .RED) gkv
          (u.setColor .BLACK))
      else up.plug (.node t p .BLACK pkv (.node s g .RED gkv u))
    else (Path.left (.left up g gc gkv u) p pc pkv s).plug t := by
  rw [insFix]

theorem insFix_RL (up : Path K V) (g : Nat) (gc : Color) (gkv : K × V) (u : Tree K V)
    (p : Nat) (pc : Color) (pkv : K × V) (s t : Tree K V) :
    insFix (.right s p pc pkv (.left up g gc gkv u)) t =
    if pc = .RED then
      if u.color = .RED then
        insFix up (.node (.node s p .BLACK pkv t) g (if up.isTop then gc else .RED) gkv
          (u.setColor .BLACK))
      else
        match t with
        | .nil => (Path.right s p pc pkv (.left up g gc gkv u)).plug t
        | .node tl z _ zkv tr =>
          up.plug (.node (.node s p pc pkv tl) z .BLACK zkv (.node tr g .RED gkv u))
    else (Path.right s p pc pkv (.left up g gc gkv u)).plug t := by
  cases t <;> rw [insFix]

theorem insFix_LR (up : Path K V) (g : Nat) (gc : Color) (gkv : K × V) (u : Tree K V)
    (p : Nat) (pc : Color) (pkv : K × V) (s t : Tree K V) :
    insFix (.left (.right u g gc gkv up) p pc pkv s) t =
    if pc = .RED then
      if u.color = .RED then
        insFix up (.node (u.setColor .BLACK) g (if up.isTop then gc else .RED) gkv
          (.node t p .BLACK pkv s))
      else
        match t with
        | .nil => (Path.left (.right u g gc gkv up) p pc pkv s).plug t
        | .node tl z _ zkv tr =>
          up.plug (.node (.node u g .RED gkv tl) z .BLACK zkv (.node tr p pc pkv s))
    else (Path.left (.right u g gc gkv up) p pc pkv s).plug t := by
  cases t <;> rw [insFix]

theorem insFix_RR (up : Path K V) (g : Nat) (gc : Color) (gkv : K × V) (u : Tree K V)
    (p : Nat) (pc : Color) (pkv : K × V) (s t : Tree K V) :
    insFix (.right s p pc pkv (.right u g gc gkv up)) t =
    if pc = .RED then
      if u.color = .RED then
        insFix up (.node (u.setColor .BLACK) g (if up.isTop then gc else .RED) gkv
          (.node s p .BLACK pkv t))
      else up.plug (.node (.node u g .RED gkv s) p .BLACK pkv t)
    else (Path.right s p pc pkv (.right u g gc gkv up)).plug t := by
  rw [insFix]

theorem insFix_black_left (up : Path K V) (p : Nat) (pc : Color) (pkv : K × V) (s t : Tree K V)
    (h : pc ≠ .RED) : insFix (.left up p pc pkv s) t = (Path.left up p pc pkv s).plug t := by
  cases up with
  | top => rw [insFix]
  | left _ _ _ _ _ => rw [insFix_LL, if_neg h]
  | right _ _ _ _ _ => rw [insFix_LR, if_neg h]

theorem insFix_black_right (up : Path K V) (p : Nat) (pc : Color) (pkv : K × V) (s t : Tree K V)
    (h : pc ≠ .RED) : insFix (.right s p pc pkv up) t = (Path.right s p pc pkv up).plug t := by
  cases up with
  | top => rw [insFix]
  | left _ _ _ _ _ => rw [insFix_RL, if_neg h]
  | right _ _ _ _ _ => rw [insFix_RR, if_neg h]

theorem loopOK_top [LinearOrder K] (hdr : Nat) : LoopOK hdr (Path.top : Path K V) := by
  intro m zl zr z zc zkv hz
  have hroot := hz.read_root
  simp only [Path.plug_top, Tree.ptr_node] at hroot
  refine ⟨m, fun fuel hf => ?_, ?_, rfl, AgreeOff.refl _ _⟩
  · obtain ⟨fuel, rfl⟩ : ∃ f, fuel = f + 1 := ⟨fuel - 1, by omega⟩
    simp [insert_rebalance_loop, hroot]
  · rw [insFix_top]; exact hz.toHolds

theorem loopOK_black_left [LinearOrder K] (hdr : Nat) (up : Path K V) (a : Nat) (pc : Color)
    (pkv : K × V) (s : Tree K V) (hpc : pc ≠ .RED) : LoopOK hdr (.left up a pc pkv s) := by
  intro m zl zr z zc zkv hz
  have hroot := hz.read_root
  have hzroot := hz.root_ne rfl
  obtain ⟨hzpar, -⟩ := hz.reads
  obtain ⟨-, hacol, -⟩ := (ZRep.up_left.1 hz).reads
  refine ⟨m, fun fuel hf => ?_, ?_, rfl, AgreeOff.refl _ _⟩
  · obtain ⟨fuel, rfl⟩ : ∃ f, fuel = f + 1 := ⟨fuel - 1, by omega⟩
    simp [insert_rebalance_loop, hroot, hzroot, hzpar, hacol, hpc]
  · rw [insFix_black_left _ _ _ _ _ _ hpc]; exact hz.toHolds

theorem loopOK_black_right [LinearOrder K] (hdr : Nat) (up : Path K V) (a : Nat) (pc : Color)
    (pkv : K × V) (s : Tree K V) (hpc : pc ≠ .RED) : LoopOK hdr (.right s a pc pkv up) := by
  intro m zl zr z zc zkv hz
  have hroot := hz.read_root
  have hzroot := hz.root_ne rfl
  obtain ⟨hzpar, -⟩ := hz.reads
  obtain ⟨-, hacol, -⟩ := (ZRep.up_right.1 hz).reads
  refine ⟨m, fun fuel hf => ?_, ?_, rfl, AgreeOff.refl _ _⟩
  · obtain ⟨fuel, rfl⟩ : ∃ f, fuel = f + 1 := ⟨fuel - 1, by omega⟩
    simp [insert_rebalance_loop, hroot, hzroot, hzpar, hacol, hpc]
  · rw [insFix_black_right _ _ _ _ _ _ hpc]; exact hz.toHolds

theorem ZRep.ne_sibling_left {m : Mem K V} {hdr : Nat} {up : Path K V} {a : Nat} {c : Color}
    {kv : K × V} {r l' r' : Tree K V} {z : Nat} {zc : Color} {zkv : K × V}
    (h : ZRep m hdr (.left up a c kv r) (.node l' z zc zkv r')) : some z ≠ r.ptr := by
  apply Tree.ptr_ne_of_not_mem
  have hn := h.2.2
  simp [List.nodup_append, List.nodup_cons] at hn
  have := hn.2.2.2.2.2.2
  tauto

theorem ZRep.ne_sibling_right {m : Mem K V} {hdr : Nat} {up : Path K V} {a : Nat} {c : Color}
    {kv : K × V} {l l' r' : Tree K V} {z : Nat} {zc : Color} {zkv : K × V}
    (h : ZRep m hdr (.right l a c kv up) (.node l' z zc zkv r')) : some z ≠ l.ptr := by
  apply Tree.ptr_ne_of_not_mem
  have hn := h.2.2
  simp [List.nodup_append, List.nodup_cons] at hn
  have := hn.2.2.2.2.2.2
  tauto

set_option maxHeartbeats 1000000 in
theorem loopOK_LL [LinearOrder K] (hdr : Nat) (up : Path K V) (g : Nat) (gc : Color)
    (gkv : K × V) (u : Tree K V) (a : Nat) (pkv : K × V) (s : Tree K V)
    (ih : LoopOK hdr up) : LoopOK hdr (.left (.left up g gc gkv u) a .RED pkv s) := by
  intro m zl zr z zc zkv hz
  have hroot := hz.read_root
  have hzroot := hz.root_ne rfl
  obtain ⟨hzpar, -⟩ := hz.reads
  have hp' := ZRep.up_left.1 hz
  obtain ⟨hapar, hacol, hal, har, -⟩ := hp'.reads
  have hg := ZRep.up_left.1 hp'
  obtain ⟨hgpar, hgcol, hgl, hgr, -⟩ := hg.reads
  have hured := (hg.2.1.2.2 : Shape m (some g) u).isRed
  have hzs := hz.ne_sibling_left
  simp only [Tree.ptr_node, Path.par_left] at hgl hapar hzpar hal
  simp only [Path.plug_left] at hroot hzroot
  by_cases hu : u.color = .RED
  · -- uncle RED: recolour and continue from the grandparent
    cases u with
    | nil => simp at hu
    | node ul ua uc ukv ur =>
      simp only [Tree.color_node] at hu
      subst hu
      obtain ⟨m1, e1, hz1, hn1, ha1⟩ := setColor_spec hp' .BLACK
      have hg1 := ZRep.up_left.1 hz1
      have hu1 := ZRep.up_right.2 hg1
      obtain ⟨m2, e2, hz2, hn2, ha2⟩ := setColor_spec hu1 .BLACK
      have hg2 := ZRep.up_right.1 hz2
      have hroot2 := hg2.read_root
      simp only [Tree.ptr_node, Tree.color_node, decide_True] at hured hgr
      cases hup : up.isTop with
      | true =>
        cases up with
        | top =>
          obtain ⟨m', e', hr', hn', ha'⟩ := ih m2 _ _ g gc gkv hg2
          simp only [Path.plug_top, Tree.ptr_node, ne_eq, Option.some.injEq] at hroot hzroot hroot2
          refine ⟨m', fun fuel hf => ?_, ?_, by omega, ?_⟩
          · obtain ⟨fuel, rfl⟩ : ∃ f, fuel = f + 1 := ⟨fuel - 1, by omega⟩
            simp [insert_rebalance_loop, hroot, hzroot, hzpar, hacol, hapar, hgl, hgr, hured,
              e1, e2, hroot2, e' fuel (by simp [Path.depth] at hf ⊢; omega)]
          · rw [insFix_LL]; simpa [Path.isTop] using hr'
          · refine AgreeOff.trans (ha'.mono ?_) (AgreeOff.trans (ha2.mono ?_) (ha1.mono ?_))
            all_goals (intro c hc; simp at hc ⊢; tauto)
        | left _ _ _ _ _ => simp [Path.isTop] at hup
        | right _ _ _ _ _ => simp [Path.isTop] at hup
      | false =>
        have hgroot := hg2.root_ne hup
        obtain ⟨m3, e3, hz3, hn3, ha3⟩ := setColor_spec hg2 .RED
        obtain ⟨m', e', hr', hn', ha'⟩ := ih m3 _ _ g .RED gkv hz3
        refine ⟨m', fun fuel hf => ?_, ?_, by omega, ?_⟩
        · obtain ⟨fuel, rfl⟩ : ∃ f, fuel = f + 1 := ⟨fuel - 1, by omega⟩
          simp [insert_rebalance_loop, hroot, hzroot, hzpar, hacol, hapar, hgl, hgr, hured,
            e1, e2, hroot2, hgroot, e3, e' fuel (by simp [Path.depth] at hf ⊢; omega)]
        · rw [insFix_LL]; simpa [hup] using hr'
        · refine AgreeOff.trans (ha'.mono ?_) (AgreeOff.trans (ha3.mono ?_)
            (AgreeOff.trans (ha2.mono ?_) (ha1.mono ?_)))
          all_goals (intro c hc; simp at hc ⊢; tauto)
  · -- uncle BLACK or absent, `z` is the outer grandchild: recolour and rotate
    obtain ⟨m1, e1, hz1, hn1, ha1⟩ := setColor_spec hp' .BLACK
    have hg1 := ZRep.up_left.1 hz1
    obtain ⟨m2, e2, hz2, hn2, ha2⟩ := setColor_spec hg1 .RED
    obtain ⟨m3, e3, hz3, hn3, ha3⟩ := rotate_right_spec hz2
    simp only [hu, decide_False] at hured
    refine ⟨m3, fun fuel hf => ?_, ?_, by omega, ?_⟩
    · obtain ⟨fuel, rfl⟩ : ∃ f, fuel = f + 1 := ⟨fuel - 1, by omega⟩
      simp [insert_rebalance_loop, hroot, hzroot, hzpar, hacol, hapar, hgl, hgr, hured,
        har, hzs, e1, e2, e3]
    · rw [insFix_LL]; simpa [hu] using hz3.toHolds
    · refine AgreeOff.trans (ha3.mono ?_) (AgreeOff.trans (ha2.mono ?_) (ha1.mono ?_))
      all_goals (intro c hc; simp at hc ⊢; tauto)

set_option maxHeartbeats 1000000 in
theorem loopOK_RR [LinearOrder K] (hdr : Nat) (up : Path K V) (g : Nat) (gc : Color)
    (gkv : K × V) (u : Tree K V) (a : Nat) (pkv : K × V) (s : Tree K V)
    (ih : LoopOK hdr up) : LoopOK hdr (.right s a .RED pkv (.right u g gc gkv up)) := by
  intro m zl zr z zc zkv hz
  have hroot := hz.read_root
  have hzroot := hz.root_ne rfl
  obtain ⟨hzpar, -⟩ := hz.reads
  have hp' := ZRep.up_right.1 hz
  obtain ⟨hapar, hacol, hal, har, -⟩ := hp'.reads
  have hg := ZRep.up_right.1 hp'
  obtain ⟨hgpar, hgcol, hgl, hgr, -⟩ := hg.reads
  have hured := (hg.2.1.2.1 : Shape m (some g) u).isRed
  have hzs := hz.ne_sibling_right
  have has := hp'.ne_sibling_right
  simp only [Tree.ptr_node, Path.par_right] at hgr hapar hzpar har
  simp only [Path.plug_right] at hroot hzroot
  by_cases hu : u.color = .RED
  · cases u with
    | nil => simp at hu
    | node ul ua uc ukv ur =>
      simp only [Tree.color_node] at hu
      subst hu
      obtain ⟨m1, e1, hz1, hn1, ha1⟩ := setColor_spec hp' .BLACK
      have hg1 := ZRep.up_right.1 hz1
      have hu1 := ZRep.up_left.2 hg1
      obtain ⟨m2, e2, hz2, hn2, ha2⟩ := setColor_spec hu1 .BLACK
      have hg2 := ZRep.up_left.1 hz2
      have hroot2 := hg2.read_root
      simp only [Tree.ptr_node, Tree.color_node, decide_True, ne_eq, Option.some.injEq]
        at hured hgl has
      cases hup : up.isTop with
      | true =>
        cases up with
        | top =>
          obtain ⟨m', e', hr', hn', ha'⟩ := ih m2 _ _ g gc gkv hg2
          simp only [Path.plug_top, Tree.ptr_node, ne_eq, Option.some.injEq] at hroot hzroot hroot2
          refine ⟨m', fun fuel hf => ?_, ?_, by omega, ?_⟩
          · obtain ⟨fuel, rfl⟩ : ∃ f, fuel = f + 1 := ⟨fuel - 1, by omega⟩
            simp [insert_rebalance_loop, hroot, hzroot, hzpar, hacol, hapar, hgl, hgr, hured,
              e1, e2, hroot2, e' fuel (by simp [Path.depth] at hf ⊢; omega), has]
          · rw [insFix_RR]; simpa [Path.isTop] using hr'
          · refine AgreeOff.trans (ha'.mono ?_) (AgreeOff.trans (ha2.mono ?_) (ha1.mono ?_))
            all_goals (intro c hc; simp at hc ⊢; tauto)
        | left _ _ _ _ _ => simp [Path.isTop] at hup
        | right _ _ _ _ _ => simp [Path.isTop] at hup
      | false =>
        have hgroot := hg2.root_ne hup
        obtain ⟨m3, e3, hz3, hn3, ha3⟩ := setColor_spec hg2 .RED
        obtain ⟨m', e', hr', hn', ha'⟩ := ih m3 _ _ g .RED gkv hz3
        refine ⟨m', fun fuel hf => ?_, ?_, by omega, ?_⟩
        · obtain ⟨fuel, rfl⟩ : ∃ f, fuel = f + 1 := ⟨fuel - 1, by omega⟩
          simp [insert_rebalance_loop, hroot, hzroot, hzpar, hacol, hapar, hgl, hgr, hured,
            e1, e2, hroot2, hgroot, e3, e' fuel (by simp [Path.depth] at hf ⊢; omega), has]
        · rw [insFix_RR]; simpa [hup] using hr'
        · refine AgreeOff.trans (ha'.mono ?_) (AgreeOff.trans (ha3.mono ?_)
            (AgreeOff.trans (ha2.mono ?_) (ha1.mono ?_)))
          all_goals (intro c hc; simp at hc ⊢; tauto)
  · obtain ⟨m1, e1, hz1, hn1, ha1⟩ := setColor_spec hp' .BLACK
    have hg1 := ZRep.up_right.1 hz1
    obtain ⟨m2, e2, hz2, hn2, ha2⟩ := setColor_spec hg1 .RED
    obtain ⟨m3, e3, hz3, hn3, ha3⟩ := rotate_left_spec hz2
    simp only [hu, decide_False] at hured
    refine ⟨m3, fun fuel hf => ?_, ?_, by omega, ?_⟩
    · obtain ⟨fuel, rfl⟩ : ∃ f, fuel = f + 1 := ⟨fuel - 1, by omega⟩
      simp [insert_rebalance_loop, hroot, hzroot, hzpar, hacol, hapar, hgl, hgr, hured,
        hal, hzs, has, e1, e2, e3]
    · rw [insFix_RR]; simpa [hu] using hz3.toHolds
    · refine AgreeOff.trans (ha3.mono ?_) (AgreeOff.trans (ha2.mono ?_) (ha1.mono ?_))
      all_goals (intro c hc; simp at hc ⊢; tauto)

set_option maxHeartbeats 1000000 in
theorem loopOK_RL [LinearOrder K] (hdr : Nat) (up : Path K V) (g : Nat) (gc : Color)
    (gkv : K × V) (u : Tree K V) (a : Nat) (pkv : K × V) (s : Tree K V)
    (ih : LoopOK hdr up) : LoopOK hdr (.right s a .RED pkv (.left up g gc gkv u)) := by
  intro m zl zr z zc zkv hz
  have hroot := hz.read_root
  have hzroot := hz.root_ne rfl
  obtain ⟨hzpar, -⟩ := hz.reads
  have hp' := ZRep.up_right.1 hz
  obtain ⟨hapar, hacol, hal, har, -⟩ := hp'.reads
  have hg := ZRep.up_left.1 hp'
  obtain ⟨hgpar, hgcol, hgl, hgr, -⟩ := hg.reads
  have hured := (hg.2.1.2.2 : Shape m (some g) u).isRed
  simp only [Tree.ptr_node, Path.par_right, Path.par_left] at hgl hapar hzpar har
  simp only [Path.plug_right, Path.plug_left] at hroot hzroot
  by_cases hu : u.color = .RED
  · cases u with
    | nil => simp at hu
    | node ul ua uc ukv ur =>
      simp only [Tree.color_node] at hu
      subst hu
      obtain ⟨m1, e1, hz1, hn1, ha1⟩ := setColor_spec hp' .BLACK
      have hg1 := ZRep.up_left.1 hz1
      have hu1 := ZRep.up_right.2 hg1
      obtain ⟨m2, e2, hz2, hn2, ha2⟩ := setColor_spec hu1 .BLACK
      have hg2 := ZRep.up_right.1 hz2
      have hroot2 := hg2.read_root
      simp only [Tree.ptr_node, Tree.color_node, decide_True] at hured hgr
      cases hup : up.isTop with
      | true =>
        cases up with
        | top =>
          obtain ⟨m', e', hr', hn', ha'⟩ := ih m2 _ _ g gc gkv hg2
          simp only [Path.plug_top, Tree.ptr_node, ne_eq, Option.some.injEq] at hroot hzroot hroot2
          refine ⟨m', fun fuel hf => ?_, ?_, by omega, ?_⟩
          · obtain ⟨fuel, rfl⟩ : ∃ f, fuel = f + 1 := ⟨fuel - 1, by omega⟩
            simp [insert_rebalance_loop, hroot, hzroot, hzpar, hacol, hapar, hgl, hgr, hured,
              e1, e2, hroot2, e' fuel (by simp [Path.depth] at hf ⊢; omega)]
          · rw [insFix_RL]; simpa [Path.isTop] using hr'
          · refine AgreeOff.trans (ha'.mono ?_) (AgreeOff.trans (ha2.mono ?_) (ha1.mono ?_))
            all_goals (intro c hc; simp at hc ⊢; tauto)
        | left _ _ _ _ _ => simp [Path.isTop] at hup
        | right _ _ _ _ _ => simp [Path.isTop] at hup
      | false =>
        have hgroot := hg2.root_ne hup
        obtain ⟨m3, e3, hz3, hn3, ha3⟩ := setColor_spec hg2 .RED
        obtain ⟨m', e', hr', hn', ha'⟩ := ih m3 _ _ g .RED gkv hz3
        refine ⟨m', fun fuel hf => ?_, ?_, by omega, ?_⟩
        · obtain ⟨fuel, rfl⟩ : ∃ f, fuel = f + 1 := ⟨fuel - 1, by omega⟩
          simp [insert_rebalance_loop, hroot, hzroot, hzpar, hacol, hapar, hgl, hgr, hured,
            e1, e2, hroot2, hgroot, e3, e' fuel (by simp [Path.depth] at hf ⊢; omega)]
        · rw [insFix_RL]; simpa [hup] using hr'
        · refine AgreeOff.trans (ha'.mono ?_) (AgreeOff.trans (ha3.mono ?_)
            (AgreeOff.trans (ha2.mono ?_) (ha1.mono ?_)))
          all_goals (intro c hc; simp at hc ⊢; tauto)
  · -- inner grandchild: rotate at the parent first
    obtain ⟨m1, e1, hz1, hn1, ha1⟩ := rotate_left_spec hp'
    obtain ⟨-, -, hzl1, -⟩ := hz1.reads
    obtain ⟨hapar1, -⟩ := (ZRep.up_left.2 hz1).reads
    obtain ⟨m2, e2, hz2, hn2, ha2⟩ := setColor_spec hz1 .BLACK
    have hg2 := ZRep.up_left.1 hz2
    obtain ⟨m3, e3, hz3, hn3, ha3⟩ := setColor_spec hg2 .RED
    obtain ⟨m4, e4, hz4, hn4, ha4⟩ := rotate_right_spec hz3
    simp only [hu, decide_False] at hured
    simp only [Tree.ptr_node, Path.par_left] at hzl1 hapar1
    refine ⟨m4, fun fuel hf => ?_, ?_, by omega, ?_⟩
    · obtain ⟨fuel, rfl⟩ : ∃ f, fuel = f + 1 := ⟨fuel - 1, by omega⟩
      simp [insert_rebalance_loop, hroot, hzroot, hzpar, hacol, hapar, hgl, hgr, hured,
        har, e1, hzl1, hapar1, e2, e3, e4]
    · rw [insFix_RL]; simpa [hu] using hz4.toHolds
    · refine AgreeOff.trans (ha4.mono ?_) (AgreeOff.trans (ha3.mono ?_)
        (AgreeOff.trans (ha2.mono ?_) (ha1.mono ?_)))
      all_goals (intro c hc; simp at hc ⊢; tauto)

set_option maxHeartbeats 1000000 in
theorem loopOK_LR [LinearOrder K] (hdr : Nat) (up : Path K V) (g : Nat) (gc : Color)
    (gkv : K × V) (u : Tree K V) (a : Nat) (pkv : K × V) (s : Tree K V)
    (ih : LoopOK hdr up) : LoopOK hdr (.left (.right u g gc gkv up) a .RED pkv s) := by
  intro m zl zr z zc zkv hz
  have hroot := hz.read_root
  have hzroot := hz.root_ne rfl
  obtain ⟨hzpar, -⟩ := hz.reads
  have hp' := ZRep.up_left.1 hz
  obtain ⟨hapar, hacol, hal, har, -⟩ := hp'.reads
  have hg := ZRep.up_right.1 hp'
  obtain ⟨hgpar, hgcol, hgl, hgr, -⟩ := hg.reads
  have hured := (hg.2.1.2.1 : Shape m (some g) u).isRed
  have has := hp'.ne_sibling_right
  simp only [Tree.ptr_node, Path.par_right, Path.par_left] at hgr hapar hzpar hal
  simp only [Path.plug_right, Path.plug_left] at hroot hzroot
  by_cases hu : u.color = .RED
  · cases u with
    | nil => simp at hu
    | node ul ua uc ukv ur =>
      simp only [Tree.color_node] at hu
      subst hu
      obtain ⟨m1, e1, hz1, hn1, ha1⟩ := setColor_spec hp' .BLACK
      have hg1 := ZRep.up_right.1 hz1
      have hu1 := ZRep.up_left.2 hg1
      obtain ⟨m2, e2, hz2, hn2, ha2⟩ := setColor_spec hu1 .BLACK
      have hg2 := ZRep.up_left.1 hz2
      have hroot2 := hg2.read_root
      simp only [Tree.ptr_node, Tree.color_node, decide_True, ne_eq, Option.some.injEq]
        at hured hgl has
      cases hup : up.isTop with
      | true =>
        cases up with
        | top =>
          obtain ⟨m', e', hr', hn', ha'⟩ := ih m2 _ _ g gc gkv hg2
          simp only [Path.plug_top, Tree.ptr_node, ne_eq, Option.some.injEq] at hroot hzroot hroot2
          refine ⟨m', fun fuel hf => ?_, ?_, by omega, ?_⟩
          · obtain ⟨fuel, rfl⟩ : ∃ f, fuel = f + 1 := ⟨fuel - 1, by omega⟩
            simp [insert_rebalance_loop, hroot, hzroot, hzpar, hacol, hapar, hgl, hgr, hured,
              e1, e2, hroot2, e' fuel (by simp [Path.depth] at hf ⊢; omega), has]
          · rw [insFix_LR]; simpa [Path.isTop] using hr'
          · refine AgreeOff.trans (ha'.mono ?_) (AgreeOff.trans (ha2.mono ?_) (ha1.mono ?_))
            all_goals (intro c hc; simp at hc ⊢; tauto)
        | left _ _ _ _ _ => simp [Path.isTop] at hup
        | right _ _ _ _ _ => simp [Path.isTop] at hup
      | false =>
        have hgroot := hg2.root_ne hup
        obtain ⟨m3, e3, hz3, hn3, ha3⟩ := setColor_spec hg2 .RED
        obtain ⟨m', e', hr', hn', ha'⟩ := ih m3 _ _ g .RED gkv hz3
        refine ⟨m', fun fuel hf => ?_, ?_, by omega, ?_⟩
        · obtain ⟨fuel, rfl⟩ : ∃ f, fuel = f + 1 := ⟨fuel - 1, by omega⟩
          simp [insert_rebalance_loop, hroot, hzroot, hzpar, hacol, hapar, hgl, hgr, hured,
            e1, e2, hroot2, hgroot, e3, e' fuel (by simp [Path.depth] at hf ⊢; omega), has]
        · rw [insFix_LR]; simpa [hup] using hr'
        · refine AgreeOff.trans (ha'.mono ?_) (AgreeOff.trans (ha3.mono ?_)
            (AgreeOff.trans (ha2.mono ?_) (ha1.mono ?_)))
          all_goals (intro c hc; simp at hc ⊢; tauto)
  · obtain ⟨m1, e1, hz1, hn1, ha1⟩ := rotate_right_spec hp'
    obtain ⟨-, -, -, hzr1, -⟩ := hz1.reads
    obtain ⟨hapar1, -⟩ := (ZRep.up_right.2 hz1).reads
    obtain ⟨m2, e2, hz2, hn2, ha2⟩ := setColor_spec hz1 .BLACK
    have hg2 := ZRep.up_right.1 hz2
    obtain ⟨m3, e3, hz3, hn3, ha3⟩ := setColor_spec hg2 .RED
    obtain ⟨m4, e4, hz4, hn4, ha4⟩ := rotate_left_spec hz3
    simp only [hu, decide_False] at hured
    simp only [Tree.ptr_node, Path.par_right] at hzr1 hapar1
    refine ⟨m4, fun fuel hf => ?_, ?_, by omega, ?_⟩
    · obtain ⟨fuel, rfl⟩ : ∃ f, fuel = f + 1 := ⟨fuel - 1, by omega⟩
      simp [insert_rebalance_loop, hroot, hzroot, hzpar, hacol, hapar, hgl, hgr, hured,
        hal, e1, hzr1, hapar1, e2, e3, e4, has]
    · rw [insFix_LR]; simpa [hu] using hz4.toHolds
    · refine AgreeOff.trans (ha4.mono ?_) (AgreeOff.trans (ha3.mono ?_)
        (AgreeOff.trans (ha2.mono ?_) (ha1.mono ?_)))
      all_goals (intro c hc; simp at hc ⊢; tauto)

theorem loopOK [LinearOrder K] (hdr : Nat) :
    ∀ (n : Nat) (p : Path K V), p.depth ≤ n → p.rootBlack → LoopOK hdr p := by
  intro n
  induction n using Nat.strong_induction_on with
  | _ n ih =>
    intro p hd hrb
    cases p with
    | top => exact loopOK_top hdr
    | left up a pc pkv s =>
      by_cases hpc : pc = .RED
      swap
      · exact loopOK_black_left hdr up a pc pkv s hpc
      · subst hpc
        cases up with
        | top => simp [Path.rootBlack] at hrb
        | left up g gc gkv u =>
          exact loopOK_LL hdr up g gc gkv u a pkv s
            (ih up.depth (by simp [Path.depth] at hd; omega) up le_rfl
              (Path.rootBlack_up_left (Path.rootBlack_up_left hrb)))
        | right u g gc gkv up =>
          exact loopOK_LR hdr up g gc gkv u a pkv s
            (ih up.depth (by simp [Path.depth] at hd; omega) up le_rfl
              (Path.rootBlack_up_right (Path.rootBlack_up_left hrb)))
    | right s a pc pkv up =>
      by_cases hpc : pc = .RED
      swap
      · exact loopOK_black_right hdr up a pc pkv s hpc
      · subst hpc
        cases up with
        | top => simp [Path.rootBlack] at hrb
        | left up g gc gkv u =>
          exact loopOK_RL hdr up g gc gkv u a pkv s
            (ih up.depth (by simp [Path.depth] at hd; omega) up le_rfl
              (Path.rootBlack_up_left (Path.rootBlack_up_right hrb)))
        | right u g gc gkv up =>
          exact loopOK_RR hdr up g gc gkv u a pkv s
            (ih up.depth (by simp [Path.depth] at hd; omega) up le_rfl
              (Path.rootBlack_up_right (Path.rootBlack_up_right hrb)))

theorem descendU_plug [LinearOrder K] (k : K) (t : Tree K V) (p : Path K V) :
    (descendU k t p).1.plug (descendU k t p).2 = p.plug t := by
  induction t generalizing p with
  | nil => rfl
  | node l a c kv r ihl ihr =>
    simp only [descendU]
    split_ifs
    · rw [ihl]; rfl
    · rw [ihr]; rfl
    · rfl

theorem descendE_plug [LinearOrder K] (k : K) (t : Tree K V) (p : Path K V) :
    (descendE k t p).plug .nil = p.plug t := by
  induction t generalizing p with
  | nil => rfl
  | node l a c kv r ihl ihr =>
    simp only [descendE]
    split_ifs
    · rw [ihl]; rfl
    · rw [ihr]; rfl

theorem descendU_slotOK [LinearOrder K] (k : K) (t : Tree K V) (p : Path K V)
    (hp : p.slotOK k) : (descendU k t p).1.slotOK k := by
  induction t generalizing p with
  | nil => exact hp
  | node l a c kv r ihl ihr =>
    simp only [descendU]
    split_ifs with h1 h2
    · exact ihl _ h1
    · exact ihr _ h1
    · exact hp

theorem descendE_slotOK [LinearOrder K] (k : K) (t : Tree K V) (p : Path K V)
    (hp : p.slotOK k) : (descendE k t p).slotOK k := by
  induction t generalizing p with
  | nil => exact hp
  | node l a c kv r ihl ihr =>
    simp only [descendE]
    split_ifs with h1
    · exact ihl _ h1
    · exact ihr _ h1

theorem descendU_depth [LinearOrder K] (k : K) (t : Tree K V) (p : Path K V) :
    (descendU k t p).1.depth ≤ p.depth + t.height := by
  induction t generalizing p with
  | nil => simp [descendU]
  | node l a c kv r ihl ihr =>
    simp only [descendU, Tree.height]
    split_ifs
    · have := ihl (.left p a c kv r); simp [Path.depth] at this; omega
    · have := ihr (.right l a c kv p); simp [Path.depth] at this; omega
    · simp

theorem descendE_depth [LinearOrder K] (k : K) (t : Tree K V) (p : Path K V) :
    (descendE k t p).depth ≤ p.depth + t.height := by
  induction t generalizing p with
  | nil => simp [descendE]
  | node l a c kv r ihl ihr =>
    simp only [descendE, Tree.height]
    split_ifs
    · have := ihl (.left p a c kv r); simp [Path.depth] at this; omega
    · have := ihr (.right l a c kv p); simp [Path.depth] at this; omega

theorem insert_unique_descend_spec [LinearOrder K] (hdr : Nat) (k : K) (m : Mem K V) :
    ∀ (t : Tree K V) (p : Path K V) (fuel : Nat), t.height < fuel → Shape m (p.par hdr) t →
      insert_unique_descend k fuel m t.ptr (p.par hdr) = .ok (descendResult hdr (descendU k t p)) := by
  intro t
  induction t with
  | nil =>
    intro p fuel hf _
    obtain ⟨fuel, rfl⟩ : ∃ f, fuel = f + 1 := ⟨fuel - 1, by omega⟩
    simp [insert_unique_descend, descendU, descendResult]
  | node l a c kv r ihl ihr =>
    intro p fuel hf hs
    obtain ⟨fuel, rfl⟩ : ∃ f, fuel = f + 1 := ⟨fuel - 1, by omega⟩
    obtain ⟨ha, hl, hr⟩ := hs
    simp only [Tree.height] at hf
    have hkey : m.key (some a) = .ok kv.1 := by simp [Mem.key, Mem.read, ha, Except.map]
    have hleft : m.left (some a) = .ok l.ptr := by simp [Mem.left, Mem.read, ha, Except.map]
    have hright : m.right (some a) = .ok r.ptr := by simp [Mem.right, Mem.read, ha, Except.map]
    simp only [insert_unique_descend, Tree.ptr_node, hkey, ok_bind, descendU]
    split_ifs with h1 h2
    · simp only [hleft, ok_bind]
      exact ihl (.left p a c kv r) fuel (by omega) hl
    · simp only [hright, ok_bind]
      exact ihr (.right l a c kv p) fuel (by omega) hr
    · simp [descendResult]

theorem find_insertion_point_equal_spec [LinearOrder K] (hdr : Nat) (k : K) (m : Mem K V) :
    ∀ (t : Tree K V) (p : Path K V) (fuel : Nat), t.height < fuel → Shape m (p.par hdr) t →
      find_insertion_point_equal k fuel m t.ptr (p.par hdr) = .ok ((descendE k t p).par hdr) := by
  intro t
  induction t with
  | nil =>
    intro p fuel hf _
    obtain ⟨fuel, rfl⟩ : ∃ f, fuel = f + 1 := ⟨fuel - 1, by omega⟩
    simp [find_insertion_point_equal, descendE]
  | node l a c kv r ihl ihr =>
    intro p fuel hf hs
    obtain ⟨fuel, rfl⟩ : ∃ f, fuel = f + 1 := ⟨fuel - 1, by omega⟩
    obtain ⟨ha, hl, hr⟩ := hs
    simp only [Tree.height] at hf
    have hkey : m.key (some a) = .ok kv.1 := by simp [Mem.key, Mem.read, ha, Except.map]
    have hleft : m.left (some a) = .ok l.ptr := by simp [Mem.left, Mem.read, ha, Except.map]
    have hright : m.right (some a) = .ok r.ptr := by simp [Mem.right, Mem.read, ha, Except.map]
    simp only [find_insertion_point_equal, Tree.ptr_node, hkey, ok_bind, descendE]
    split_ifs with h1
    · simp only [hleft, ok_bind]
      exact ihl (.left p a c kv r) fuel (by omega) hl
    · simp only [hright, ok_bind]
      exact ihr (.right l a c kv p) fuel (by omega) hr

theorem Shape.shape_allocated {m : Mem K V} {par : Ptr} {t : Tree K V} (h : Shape m par t) :
    ∀ b ∈ t.addrs, m.cells b ≠ none := by
  induction t generalizing par with
  | nil => simp
  | node l a c kv r ihl ihr =>
    obtain ⟨h1, h2, h3⟩ := h
    intro b hb
    simp only [Tree.addrs_node, List.mem_append, List.mem_cons] at hb
    rcases hb with hb | rfl | hb
    · exact ihl h2 b hb
    · simp [h1]
    · exact ihr h3 b hb

theorem PShape.pshape_allocated {m : Mem K V} {hdr : Nat} {p : Path K V} {hole : Ptr}
    (h : PShape m hdr p hole) : ∀ b ∈ hdr :: p.addrs, m.cells b ≠ none := by
  induction p generalizing hole with
  | top =>
    obtain ⟨hn, h1, -⟩ := h
    intro b hb
    simp only [Path.addrs_top, List.mem_singleton] at hb
    subst hb
    simp [h1]
  | left up a c kv r ih =>
    obtain ⟨h1, h2, h3⟩ := h
    intro b hb
    simp only [Path.addrs_left, List.mem_cons, List.mem_append, List.cons_append] at hb
    rcases hb with rfl | rfl | hb | hb
    · exact ih h3 _ (by simp)
    · simp [h1]
    · exact h2.shape_allocated b hb
    · exact ih h3 b (by simp [hb])
  | right l a c kv up ih =>
    obtain ⟨h1, h2, h3⟩ := h
    intro b hb
    simp only [Path.addrs_right, List.mem_cons, List.mem_append, List.cons_append] at hb
    rcases hb with rfl | rfl | hb | hb
    · exact ih h3 _ (by simp)
    · simp [h1]
    · exact h2.shape_allocated b hb
    · exact ih h3 b (by simp [hb])

@[simp] theorem Mem.alloc_fst (m : Mem K V) (val : K × V) : (m.alloc val).1 = m.next := rfl
@[simp] theorem Mem.alloc_next (m : Mem K V) (val : K × V) : (m.alloc val).2.next = m.next + 1 := rfl
@[simp] theorem Mem.alloc_cells (m : Mem K V) (val : K × V) (b : Nat) :
    (m.alloc val).2.cells b =
      if b = m.next then some ⟨val, .RED, none, none, none⟩ else m.cells b := rfl

theorem Shape.shape_alloc_iff {m : Mem K V} {par : Ptr} {t : Tree K V} {val : K × V}
    (h : m.next ∉ t.addrs) : Shape (m.alloc val).2 par t ↔ Shape m par t := by
  constructor
  · intro hs
    exact hs.shape_frame (fun b hb => by
      have : b ≠ m.next := by rintro rfl; exact h hb
      simp [this])
  · intro hs
    exact hs.shape_frame (fun b hb => by
      have : b ≠ m.next := by rintro rfl; exact h hb
      simp [this])

theorem PShape.pshape_alloc_iff {m : Mem K V} {hdr : Nat} {p : Path K V} {hole : Ptr} {val : K × V}
    (h : m.next ∉ p.addrs) (h' : m.next ≠ hdr) :
    PShape (m.alloc val).2 hdr p hole ↔ PShape m hdr p hole := by
  have hne : ∀ b ∈ hdr :: p.addrs, b ≠ m.next := by
    intro b hb
    rintro rfl
    simp only [List.mem_cons] at hb
    rcases hb with hb | hb
    · exact h' hb
    · exact h hb
  constructor
  · intro hs
    exact hs.pshape_frame (fun b hb => by simp [hne b hb])
  · intro hs
    exact hs.pshape_frame (fun b hb => by simp [hne b hb])

theorem AgreeOff.alloc {m : Mem K V} {S : List Nat} {val : K × V} (h : m.next ∈ S) :
    AgreeOff (m.alloc val).2 m S := by
  intro c hc
  have : c ≠ m.next := by rintro rfl; exact hc h
  simp [this]

theorem attach_spec [LinearOrder K] {m : Mem K V} {hdr : Nat} {p : Path K V} {k : K} {v : V}
    (hz : ZRep m hdr p .nil) (hv : m.Valid) (hs : p.slotOK k) :
    ∃ m', attach_node hdr (m.alloc (k, v)).2 (some m.next) (p.par hdr) = .ok (m', some m.next) ∧
      ZRep m' hdr p (.node .nil m.next .RED (k, v) .nil) ∧ m'.next = m.next + 1 ∧
      AgreeOff m' m (m.next :: hdr :: p.addrs) ∧ m.next ∉ hdr :: p.addrs := by
  have hfresh : m.cells m.next = none := hv _ le_rfl
  obtain ⟨hp, -, hn⟩ := hz
  have hnot : m.next ∉ hdr :: p.addrs := fun hmem => hp.pshape_allocated _ hmem hfresh
  simp only [Tree.addrs_nil, List.append_nil] at hn
  have hn' := hn
  simp only [List.mem_cons, not_or] at hnot
  obtain ⟨hnh, hnp⟩ := hnot
  cases p with
  | top =>
    obtain ⟨hh, hhc, hhp⟩ := hp
    simp [attach_node, Mem.key, Mem.read, Mem.setParent, Mem.modify, Except.map, hnh, Ne.symm hnh,
      hhc, ZRep, AgreeOff.agree_put_iff, AgreeOff.alloc]
  | left up a c kv r =>
    obtain ⟨ha, hr, hup⟩ := hp
    simp [List.nodup_append, List.nodup_cons] at hn hnp
    have hha : hdr ≠ a := by rintro rfl; simp at hn
    have hna : m.next ≠ a := by rintro rfl; simp at hnp
    have hs' : _ := hs
    simp only [Path.slotOK] at hs'
    simp [attach_node, Mem.key, Mem.read, Mem.setParent, Mem.setLeft, Mem.setRight, Mem.modify,
      Except.map, hnh, Ne.symm hnh, ZRep, AgreeOff.agree_put_iff, AgreeOff.alloc, hha, hha.symm, hna,
      hna.symm, ha, hs', Shape.shape_put_iff, PShape.pshape_put_iff, Shape.shape_alloc_iff, PShape.pshape_alloc_iff, hn, hnp,
      hr, hup, List.nodup_append, List.nodup_cons]
  | right l a c kv up =>
    obtain ⟨ha, hl, hup⟩ := hp
    simp [List.nodup_append, List.nodup_cons] at hn hnp
    have hha : hdr ≠ a := by rintro rfl; simp at hn
    have hna : m.next ≠ a := by rintro rfl; simp at hnp
    have hs' : _ := hs
    simp only [Path.slotOK] at hs'
    simp [attach_node, Mem.key, Mem.read, Mem.setParent, Mem.setLeft, Mem.setRight, Mem.modify,
      Except.map, hnh, Ne.symm hnh, ZRep, AgreeOff.agree_put_iff, AgreeOff.alloc, hha, hha.symm, hna,
      hna.symm, ha, hs', Shape.shape_put_iff, PShape.pshape_put_iff, Shape.shape_alloc_iff, PShape.pshape_alloc_iff, hn, hnp,
      hl, hup, List.nodup_append, List.nodup_cons]

theorem Holds.put_header {m : Mem K V} {hdr : Nat} {tr : Tree K V} {hn hn' : Node K V}
    (h : Holds m hdr tr) (hc : m.cells hdr = some hn) (hp : hn'.parent = hn.parent) :
    Holds (m.put hdr hn') hdr tr := by
  obtain ⟨⟨hn0, h0, h0p⟩, hs, hnd⟩ := h
  rw [hc] at h0
  injection h0 with h0
  subst h0
  have hnot : hdr ∉ tr.addrs := by
    simp only [Path.addrs_top, List.nil_append, List.nodup_cons] at hnd
    exact hnd.1
  refine ⟨⟨hn', by simp, by rw [hp]; exact h0p⟩, (Shape.shape_put_iff hnot).2 hs, hnd⟩

theorem Holds.holds_allocated {m : Mem K V} {hdr : Nat} {tr : Tree K V} (h : Holds m hdr tr) {a : Nat}
    (ha : a = hdr ∨ a ∈ tr.addrs) : ∃ nd, m.cells a = some nd := by
  rcases ha with rfl | ha
  · obtain ⟨hn, h1, -⟩ := h.1
    exact ⟨hn, h1⟩
  · exact Option.ne_none_iff_exists'.1 (h.2.1.shape_allocated a ha)

theorem Mem.key_of_cell {m : Mem K V} {a : Nat} {nd : Node K V} (h : m.cells a = some nd) :
    m.key (some a) = .ok nd.data.1 := by
  simp [Mem.key, Mem.read, h, Except.map]

theorem Mem.setLeft_of_cell {m : Mem K V} {a : Nat} {nd : Node K V} (h : m.cells a = some nd)
    (v : Ptr) : m.setLeft (some a) v = .ok (m.put a { nd with left := v }) := by
  simp [Mem.setLeft, Mem.modify, h]

theorem Mem.setRight_of_cell {m : Mem K V} {a : Nat} {nd : Node K V} (h : m.cells a = some nd)
    (v : Ptr) : m.setRight (some a) v = .ok (m.put a { nd with right := v }) := by
  simp [Mem.setRight, Mem.modify, h]

theorem bind_eq_ok {ε α β : Type} {x : Except ε α} {f : α → Except ε β} {b : β} :
    (x >>= f) = .ok b ↔ ∃ a, x = .ok a ∧ f a = .ok b := by
  cases x with
  | error e => simp [bind, Except.bind]
  | ok a => simp

theorem update_min_max_nodes_spec [LinearOrder K] {m : Mem K V} {t : RedBlackTree}
    {tr : Tree K V} {n : Nat} (h : Holds m t.header_ tr) (hn : n ∈ tr.addrs) (hc : CacheOK t tr) :
    ∃ m' t', update_min_max_nodes m t (some n) = .ok (m', t') ∧ Holds m' t.header_ tr ∧
      t'.header_ = t.header_ ∧ t'.size_ = t.size_ ∧ CacheOK t' tr ∧ m'.next = m.next ∧
      AgreeOff m' m [t.header_] := by
  -- first half: the minimum cache
  have h1 : ∃ m1 t1, (do
      let lower ← (match t.min_node_ with
        | none => pure true
        | some _ => do
          let nk ← m.key (some n)
          let mk ← m.key t.min_node_
          pure (decide (nk < mk)))
      (if lower then do
          let m ← m.setLeft (some t.header_) (some n)
          pure (m, { t with min_node_ := some n })
        else pure (m, t)) : Except Fault (Mem K V × RedBlackTree)) = .ok (m1, t1) ∧
      Holds m1 t.header_ tr ∧ t1.header_ = t.header_ ∧ t1.size_ = t.size_ ∧
      t1.max_node_ = t.max_node_ ∧ CacheOK t1 tr ∧ m1.next = m.next ∧
      AgreeOff m1 m [t.header_] := by
    obtain ⟨hh, hhc⟩ := h.holds_allocated (Or.inl rfl)
    obtain ⟨nd, hnd⟩ := h.holds_allocated (Or.inr hn)
    have hyes : ∃ m1 t1, (do
          let m ← m.setLeft (some t.header_) (some n)
          pure (m, { t with min_node_ := some n }) :
            Except Fault (Mem K V × RedBlackTree)) = .ok (m1, t1) ∧
        Holds m1 t.header_ tr ∧ t1.header_ = t.header_ ∧ t1.size_ = t.size_ ∧
        t1.max_node_ = t.max_node_ ∧ CacheOK t1 tr ∧ m1.next = m.next ∧
        AgreeOff m1 m [t.header_] := by
      refine ⟨m.put t.header_ { hh with left := some n }, { t with min_node_ := some n },
        by rw [Mem.setLeft_of_cell hhc]; rfl, h.put_header hhc rfl, rfl, rfl, rfl,
        ⟨?_, hc.2⟩, rfl, (AgreeOff.agree_put_iff (by simp)).2 (AgreeOff.refl _ _)⟩
      intro a ha
      simp only [Option.some.injEq] at ha
      subst ha
      exact Or.inr hn
    have hno : ∃ m1 t1, (pure (m, t) : Except Fault (Mem K V × RedBlackTree)) = .ok (m1, t1) ∧
        Holds m1 t.header_ tr ∧ t1.header_ = t.header_ ∧ t1.size_ = t.size_ ∧
        t1.max_node_ = t.max_node_ ∧ CacheOK t1 tr ∧ m1.next = m.next ∧
        AgreeOff m1 m [t.header_] :=
      ⟨m, t, rfl, h, rfl, rfl, rfl, hc, rfl, AgreeOff.refl _ _⟩
    cases hmin : t.min_node_ with
    | none => simpa using hyes
    | some a =>
      obtain ⟨na, hna⟩ := h.holds_allocated (hc.1 a hmin)
      simp only [Mem.key_of_cell hnd, Mem.key_of_cell hna, ok_bind, pure_eq_ok]
      by_cases hlt : nd.data.1 < na.data.1
      · simpa [hlt] using hyes
      · simpa [hlt] using hno
  obtain ⟨m1, t1, e1, hr1, hh1, hs1, hx1, hc1, hn1, ha1⟩ := h1
  -- second half: the maximum cache
  have h2 : ∃ m2 t2, (do
      let higher ← (match t1.max_node_ with
        | none => pure true
        | some _ => do
          let xk ← m1.key t1.max_node_
          let nk ← m1.key (some n)
          pure (decide (xk < nk)))
      (if higher then do
          let m ← m1.setRight (some t1.header_) (some n)
          pure (m, { t1 with max_node_ := some n })
        else pure (m1, t1)) : Except Fault (Mem K V × RedBlackTree)) = .ok (m2, t2) ∧
      Holds m2 t.header_ tr ∧ t2.header_ = t.header_ ∧ t2.size_ = t.size_ ∧
      CacheOK t2 tr ∧ m2.next = m1.next ∧ AgreeOff m2 m1 [t.header_] := by
    rw [← hh1] at hr1 ⊢
    obtain ⟨hh, hhc⟩ := hr1.holds_allocated (Or.inl rfl)
    obtain ⟨nd, hnd⟩ := hr1.holds_allocated (Or.inr hn)
    have hyes : ∃ m2 t2, (do
          let m ← m1.setRight (some t1.header_) (some n)
          pure (m, { t1 with max_node_ := some n }) :
            Except Fault (Mem K V × RedBlackTree)) = .ok (m2, t2) ∧
        Holds m2 t1.header_ tr ∧ t2.header_ = t1.header_ ∧ t2.size_ = t.size_ ∧
        CacheOK t2 tr ∧ m2.next = m1.next ∧ AgreeOff m2 m1 [t1.header_] := by
      refine ⟨m1.put t1.header_ { hh with right := some n }, { t1 with max_node_ := some n },
        by rw [Mem.setRight_of_cell hhc]; rfl, hr1.put_header hhc rfl, rfl, hs1,
        ⟨hc1.1, ?_⟩, rfl, (AgreeOff.agree_put_iff (by simp)).2 (AgreeOff.refl _ _)⟩
      intro a ha
      simp only [Option.some.injEq] at ha
      subst ha
      exact Or.inr hn
    have hno : ∃ m2 t2, (pure (m1, t1) : Except Fault (Mem K V × RedBlackTree)) = .ok (m2, t2) ∧
        Holds m2 t1.header_ tr ∧ t2.header_ = t1.header_ ∧ t2.size_ = t.size_ ∧
        CacheOK t2 tr ∧ m2.next = m1.next ∧ AgreeOff m2 m1 [t1.header_] :=
      ⟨m1, t1, rfl, hr1, rfl, hs1, hc1, rfl, AgreeOff.refl _ _⟩
    cases hmax : t1.max_node_ with
    | none => simpa using hyes
    | some a =>
      obtain ⟨na, hna⟩ := hr1.holds_allocated (hc1.2 a hmax)
      simp only [Mem.key_of_cell hnd, Mem.key_of_cell hna, ok_bind, pure_eq_ok]
      by_cases hlt : na.data.1 < nd.data.1
      · simpa [hlt] using hyes
      · simpa [hlt] using hno
  obtain ⟨m2, t2, e2, hr2, hh2, hs2, hc2, hn2, ha2⟩ := h2
  refine ⟨m2, t2, ?_, hr2, hh2, hs2, hc2, by omega, ha2.trans ha1⟩
  obtain ⟨lower, eA, eB⟩ := bind_eq_ok.1 e1
  obtain ⟨higher, eC, eD⟩ := bind_eq_ok.1 e2
  exact bind_eq_ok.2 ⟨lower, eA, bind_eq_ok.2 ⟨(m1, t1), eB, bind_eq_ok.2 ⟨higher, eC, eD⟩⟩⟩

theorem Path.plug_addrs_congr (p : Path K V) {t t' : Tree K V} (h : t.addrs = t'.addrs) :
    (p.plug t).addrs = (p.plug t').addrs := by
  induction p generalizing t t' with
  | top => exact h
  | left up a c kv r ih => exact ih (by simp [h])
  | right l a c kv up ih => exact ih (by simp [h])

theorem Path.plug_toList_congr (p : Path K V) {t t' : Tree K V} (h : t.toList = t'.toList) :
    (p.plug t).toList = (p.plug t').toList := by
  induction p generalizing t t' with
  | top => exact h
  | left up a c kv r ih => exact ih (by simp [h])
  | right l a c kv up ih => exact ih (by simp [h])

@[simp] theorem Tree.addrs_setColor (c : Color) (t : Tree K V) : (t.setColor c).addrs = t.addrs := by
  cases t <;> rfl

@[simp] theorem Tree.toList_setColor (c : Color) (t : Tree K V) :
    (t.setColor c).toList = t.toList := by
  cases t <;> rfl

theorem insFix_addrs : ∀ (n : Nat) (p : Path K V) (t : Tree K V), p.depth ≤ n →
    (insFix p t).addrs = (p.plug t).addrs := by
  intro n
  induction n using Nat.strong_induction_on with
  | _ n ih =>
    intro p t hd
    cases p with
    | top => rw [insFix_top]; rfl
    | left up a pc pkv s =>
      cases up with
      | top => rw [insFix]
      | left up g gc gkv u =>
        rw [insFix_LL]
        by_cases hpc : pc = .RED
        · by_cases hu : u.color = .RED
          · simp only [hpc, hu, if_true]
            rw [ih up.depth (by simp [Path.depth] at hd; omega) up _ le_rfl]
            simp only [Path.plug_left, Path.plug_right]
            exact up.plug_addrs_congr (by simp)
          · simp only [hpc, hu, if_true, if_false]
            simp only [Path.plug_left, Path.plug_right]
            exact up.plug_addrs_congr (by simp)
        · simp only [hpc, if_false]
      | right u g gc gkv up =>
        rw [insFix_LR]
        by_cases hpc : pc = .RED
        · by_cases hu : u.color = .RED
          · simp only [hpc, hu, if_true]
            rw [ih up.depth (by simp [Path.depth] at hd; omega) up _ le_rfl]
            simp only [Path.plug_left, Path.plug_right]
            exact up.plug_addrs_congr (by simp)
          · simp only [hpc, hu, if_true, if_false]
            cases t with
            | nil => rfl
            | node tl z zc zkv tr =>
              simp only [Path.plug_left, Path.plug_right]
              exact up.plug_addrs_congr (by simp)
        · simp only [hpc, if_false]
    | right s a pc pkv up =>
      cases up with
      | top => rw [insFix]
      | left up g gc gkv u =>
        rw [insFix_RL]
        by_cases hpc : pc = .RED
        · by_cases hu : u.color = .RED
          · simp only [hpc, hu, if_true]
            rw [ih up.depth (by simp [Path.depth] at hd; omega) up _ le_rfl]
            simp only [Path.plug_left, Path.plug_right]
            exact up.plug_addrs_congr (by simp)
          · simp only [hpc, hu, if_true, if_false]
            cases t with
            | nil => rfl
            | node tl z zc zkv tr =>
              simp only [Path.plug_left, Path.plug_right]
              exact up.plug_addrs_congr (by simp)
        · simp only [hpc, if_false]
      | right u g gc gkv up =>
        rw [insFix_RR]
        by_cases hpc : pc = .RED
        · by_cases hu : u.color = .RED
          · simp only [hpc, hu, if_true]
            rw [ih up.depth (by simp [Path.depth] at hd; omega) up _ le_rfl]
            simp only [Path.plug_left, Path.plug_right]
            exact up.plug_addrs_congr (by simp)
          · simp only [hpc, hu, if_true, if_false]
            simp only [Path.plug_left, Path.plug_right]
            exact up.plug_addrs_congr (by simp)
        · simp only [hpc, if_false]

theorem insFix_toList : ∀ (n : Nat) (p : Path K V) (t : Tree K V), p.depth ≤ n →
    (insFix p t).toList = (p.plug t).toList := by
  intro n
  induction n using Nat.strong_induction_on with
  | _ n ih =>
    intro p t hd
    cases p with
    | top => rw [insFix_top]; rfl
    | left up a pc pkv s =>
      cases up with
      | top => rw [insFix]
      | left up g gc gkv u =>
        rw [insFix_LL]
        by_cases hpc : pc = .RED
        · by_cases hu : u.color = .RED
          · simp only [hpc, hu, if_true]
            rw [ih up.depth (by simp [Path.depth] at hd; omega) up _ le_rfl]
            simp only [Path.plug_left, Path.plug_right]
            exact up.plug_toList_congr (by simp)
          · simp only [hpc, hu, if_true, if_false]
            simp only [Path.plug_left, Path.plug_right]
            exact up.plug_toList_congr (by simp)
        · simp only [hpc, if_false]
      | right u g gc gkv up =>
        rw [insFix_LR]
        by_cases hpc : pc = .RED
        · by_cases hu : u.color = .RED
          · simp only [hpc, hu, if_true]
            rw [ih up.depth (by simp [Path.depth] at hd; omega) up _ le_rfl]
            simp only [Path.plug_left, Path.plug_right]
            exact up.plug_toList_congr (by simp)
          · simp only [hpc, hu, if_true, if_false]
            cases t with
            | nil => rfl
            | node tl z zc zkv tr =>
              simp only [Path.plug_left, Path.plug_right]
              exact up.plug_toList_congr (by simp)
        · simp only [hpc, if_false]
    | right s a pc pkv up =>
      cases up with
      | top => rw [insFix]
      | left up g gc gkv u =>
        rw [insFix_RL]
        by_cases hpc : pc = .RED
        · by_cases hu : u.color = .RED
          · simp only [hpc, hu, if_true]
            rw [ih up.depth (by simp [Path.depth] at hd; omega) up _ le_rfl]
            simp only [Path.plug_left, Path.plug_right]
            exact up.plug_toList_congr (by simp)
          · simp only [hpc, hu, if_true, if_false]
            cases t with
            | nil => rfl
            | node tl z zc zkv tr =>
              simp only [Path.plug_left, Path.plug_right]
              exact up.plug_toList_congr (by simp)
        · simp only [hpc, if_false]
      | right u g gc gkv up =>
        rw [insFix_RR]
        by_cases hpc : pc = .RED
        · by_cases hu : u.color = .RED
          · simp only [hpc, hu, if_true]
            rw [ih up.depth (by simp [Path.depth] at hd; omega) up _ le_rfl]
            simp only [Path.plug_left, Path.plug_right]
            exact up.plug_toList_congr (by simp)
          · simp only [hpc, hu, if_true, if_false]
            simp only [Path.plug_left, Path.plug_right]
            exact up.plug_toList_congr (by simp)
        · simp only [hpc, if_false]

theorem insTree_addrs (p : Path K V) (a : Nat) (kv : K × V) :
    (insTree p a kv).addrs = (p.plug (.node .nil a .RED kv .nil)).addrs := by
  rw [insTree, Tree.addrs_setColor, insFix_addrs _ p _ le_rfl]

theorem insTree_toList (p : Path K V) (a : Nat) (kv : K × V) :
    (insTree p a kv).toList = p.before ++ kv :: p.after := by
  rw [insTree, Tree.toList_setColor, insFix_toList _ p _ le_rfl, Path.plug_toList]
  simp

@[simp] theorem Path.color_top : (Path.top : Path K V).color = .BLACK := rfl
@[simp] theorem Path.color_left (up : Path K V) (a c kv r) :
    (Path.left up a c kv r).color = c := rfl
@[simp] theorem Path.color_right (up : Path K V) (a c kv l) :
    (Path.right l a c kv up).color = c := rfl

theorem Tree.bh_mem_blackCounts (t : Tree K V) : t.bh ∈ t.blackCounts := by
  induction t with
  | nil => simp [Tree.bh, Tree.blackCounts]
  | node l a c kv r ihl _ =>
    simp only [Tree.bh, Tree.blackCounts, List.mem_map, List.mem_append]
    exact ⟨l.bh, Or.inl ihl, rfl⟩

theorem Tree.balanced_counts {t : Tree K V} (h : t.balanced) : ∀ x ∈ t.blackCounts, x = t.bh := by
  induction t with
  | nil => simp [Tree.bh, Tree.blackCounts]
  | node l a c kv r ihl ihr =>
    obtain ⟨h1, h2, h3⟩ := h
    intro x hx
    simp only [Tree.blackCounts, List.mem_map, List.mem_append] at hx
    obtain ⟨y, hy | hy, rfl⟩ := hx
    · rw [ihl h2 y hy]; rfl
    · rw [ihr h3 y hy, ← h1]; rfl

theorem Tree.uniformBlack_iff (t : Tree K V) : t.uniformBlack ↔ t.balanced := by
  constructor
  · intro h
    induction t with
    | nil => trivial
    | node l a c kv r ihl ihr =>
      have hsub : ∀ x ∈ l.blackCounts ++ r.blackCounts, ∀ y ∈ l.blackCounts ++ r.blackCounts,
          x = y := by
        intro x hx y hy
        have := h (x + if c = .BLACK then 1 else 0)
          (by simp only [Tree.blackCounts, List.mem_map]; exact ⟨x, hx, rfl⟩)
          (y + if c = .BLACK then 1 else 0)
          (by simp only [Tree.blackCounts, List.mem_map]; exact ⟨y, hy, rfl⟩)
        omega
      refine ⟨?_, ihl ?_, ihr ?_⟩
      · exact hsub _ (List.mem_append_left _ l.bh_mem_blackCounts) _
          (List.mem_append_right _ r.bh_mem_blackCounts)
      · intro x hx y hy
        exact hsub x (List.mem_append_left _ hx) y (List.mem_append_left _ hy)
      · intro x hx y hy
        exact hsub x (List.mem_append_right _ hx) y (List.mem_append_right _ hy)
  · intro h x hx y hy
    rw [Tree.balanced_counts h x hx, Tree.balanced_counts h y hy]

theorem Path.plug_balanced (p : Path K V) (t : Tree K V) :
    (p.plug t).balanced ↔ t.balanced ∧ p.okBH t.bh := by
  induction p generalizing t with
  | top => simp [Path.okBH]
  | left up a c kv r ih =>
    rw [Path.plug_left, ih]
    simp only [Tree.balanced, Tree.bh, Path.okBH]
    constructor
    · rintro ⟨⟨h1, h2, h3⟩, h4⟩; exact ⟨h2, h1.symm, h3, h4⟩
    · rintro ⟨h2, h1, h3, h4⟩; exact ⟨⟨h1.symm, h2, h3⟩, h4⟩
  | right l a c kv up ih =>
    rw [Path.plug_right, ih]
    simp only [Tree.balanced, Tree.bh, Path.okBH]
    constructor
    · rintro ⟨⟨h1, h2, h3⟩, h4⟩; exact ⟨h3, h1, h2, by rw [← h1]; exact h4⟩
    · rintro ⟨h2, h1, h3, h4⟩; exact ⟨⟨h1, h3, h2⟩, by rw [h1]; exact h4⟩

theorem Path.plug_noRedRed (p : Path K V) (t : Tree K V) :
    (p.plug t).noRedRed ↔ t.noRedRed ∧ p.noRR ∧ (p.color = .RED → t.color = .BLACK) := by
  induction p generalizing t with
  | top => simp [Path.noRR]
  | left up a c kv r ih =>
    rw [Path.plug_left, ih]
    simp only [Tree.noRedRed, Path.noRR, Path.color_left, Path.color_right, Tree.color_node]
    constructor
    · rintro ⟨⟨h1, h2, h3⟩, h4, h5⟩
      exact ⟨h2, ⟨h3, fun hc => ⟨(h1 hc).2, by
        cases hup : up.color with
        | BLACK => rfl
        | RED => rw [h5 hup] at hc; cases hc⟩, h4⟩, fun hc => (h1 hc).1⟩
    · rintro ⟨h2, ⟨h3, h6, h4⟩, h7⟩
      exact ⟨⟨fun hc => ⟨h7 hc, (h6 hc).1⟩, h2, h3⟩, h4, fun hup => by
        cases hc : c with
        | BLACK => rfl
        | RED => rw [(h6 hc).2] at hup; cases hup⟩
  | right l a c kv up ih =>
    rw [Path.plug_right, ih]
    simp only [Tree.noRedRed, Path.noRR, Path.color_left, Path.color_right, Tree.color_node]
    constructor
    · rintro ⟨⟨h1, h2, h3⟩, h4, h5⟩
      exact ⟨h3, ⟨h2, fun hc => ⟨(h1 hc).1, by
        cases hup : up.color with
        | BLACK => rfl
        | RED => rw [h5 hup] at hc; cases hc⟩, h4⟩, fun hc => (h1 hc).2⟩
    · rintro ⟨h2, ⟨h3, h6, h4⟩, h7⟩
      exact ⟨⟨fun hc => ⟨(h6 hc).1, h7 hc⟩, h3, h2⟩, h4, fun hup => by
        cases hc : c with
        | BLACK => rfl
        | RED => rw [(h6 hc).2] at hup; cases hup⟩

theorem Path.rootBlack_of_plug {p : Path K V} {t : Tree K V} (h : (p.plug t).color = .BLACK) :
    p.rootBlack := by
  induction p generalizing t with
  | top => trivial
  | left up a c kv r ih =>
    cases up with
    | top => simpa [Path.rootBlack] using h
    | left _ _ _ _ _ => exact ih h
    | right _ _ _ _ _ => exact ih h
  | right l a c kv up ih =>
    cases up with
    | top => simpa [Path.rootBlack] using h
    | left _ _ _ _ _ => exact ih h
    | right _ _ _ _ _ => exact ih h

theorem setColorIf_root_spec {m : Mem K V} {hdr : Nat} {t : Tree K V} (h : Holds m hdr t)
    (c : Color) :
    ∃ m', m.setColorIf t.ptr c = .ok m' ∧ Holds m' hdr (t.setColor c) ∧ m'.next = m.next ∧
      AgreeOff m' m t.addrs := by
  cases t with
  | nil => exact ⟨m, rfl, h, rfl, AgreeOff.refl _ _⟩
  | node l a c0 kv r =>
    obtain ⟨m', e, hz, hn, ha⟩ := setColor_spec (p := .top) h c
    exact ⟨m', e, hz, hn, ha.mono (by intro x hx; simp at hx ⊢; tauto)⟩

theorem Holds.lt_next {m : Mem K V} {hdr : Nat} {t : Tree K V} (h : Holds m hdr t)
    (hv : m.Valid) : ∀ a ∈ hdr :: t.addrs, a < m.next := by
  intro a ha
  by_contra hlt
  have hnone := hv a (by omega)
  simp only [List.mem_cons] at ha
  obtain ⟨nd, hnd⟩ := h.holds_allocated ha
  rw [hnone] at hnd
  exact absurd hnd (by simp)

theorem Holds.height_lt {m : Mem K V} {hdr : Nat} {t : Tree K V} (_h : Holds m hdr t) :
    t.height ≤ t.size := by
  clear _h
  induction t with
  | nil => simp [Tree.height, Tree.size]
  | node l a c kv r ihl ihr => simp only [Tree.height, Tree.size]; omega

@[simp] theorem Tree.noRedRed_setColor_black {t : Tree K V} (h : t.noRedRed) :
    (t.setColor .BLACK).noRedRed := by
  cases t with
  | nil => trivial
  | node l a c kv r => exact ⟨by simp, h.2.1, h.2.2⟩

@[simp] theorem Tree.balanced_setColor {t : Tree K V} (c : Color) (h : t.balanced) :
    (t.setColor c).balanced := by
  cases t with
  | nil => trivial
  | node l a c0 kv r => exact h

theorem Color.eq_black_of_ne_red {c : Color} (h : c ≠ .RED) : c = .BLACK := by
  cases c
  · exact absurd rfl h
  · rfl

set_option maxHeartbeats 1000000 in
theorem insFix_inv : ∀ (n : Nat) (p : Path K V) (t : Tree K V), p.depth ≤ n →
    (t.color = .RED ∨ p.isTop = true) → t.noRedRed → t.balanced → p.okBH t.bh → p.noRR →
    p.rootBlack → (insFix p t).noRedRed ∧ (insFix p t).balanced := by
  intro n
  induction n using Nat.strong_induction_on with
  | _ n ih =>
    intro p t hd hc hnr hb hbh hrr hrb
    cases p with
    | top => rw [insFix_top]; exact ⟨hnr, hb⟩
    | left up a pc pkv s =>
      replace hc : t.color = .RED := by simpa [Path.isTop] using hc
      by_cases hpc : pc = .RED
      swap
      · rw [insFix_black_left _ _ _ _ _ _ hpc, Path.plug_noRedRed, Path.plug_balanced]
        exact ⟨⟨hnr, hrr, fun h => absurd h hpc⟩, hb, hbh⟩
      · subst hpc
        cases up with
        | top => simp [Path.rootBlack] at hrb
        | left up g gc gkv u =>
          rw [insFix_LL]
          simp only [Path.okBH, Path.noRR, Path.color_left, Path.color_right, true_implies] at hbh hrr
          obtain ⟨hs1, hs2, hu1, hu2, hup⟩ := hbh
          obtain ⟨hs3, ⟨hs4, hgc⟩, hu3, hu4, hup2⟩ := hrr
          subst hgc
          simp only [if_true] at hup ⊢
          by_cases hu : u.color = .RED
          · simp only [hu, if_true]
            cases u with
            | nil => simp at hu
            | node ul ua uc ukv ur =>
              simp only [Tree.color_node] at hu
              subst hu
              apply ih up.depth (by simp [Path.depth] at hd; omega) up _ le_rfl
              · cases up <;> simp [Path.isTop]
              · simp_all [Tree.noRedRed]
              · simp_all [Tree.balanced, Tree.bh]
              · cases up
                · trivial
                · simp_all [Tree.balanced, Tree.bh, Path.isTop]
                · simp_all [Tree.balanced, Tree.bh, Path.isTop]
              · exact hup2
              · exact Path.rootBlack_up_left (Path.rootBlack_up_left hrb)
          · simp only [hu, if_false]
            have hub := Color.eq_black_of_ne_red hu
            rw [Path.plug_noRedRed, Path.plug_balanced]
            simp_all [Tree.noRedRed, Tree.balanced, Tree.bh]
        | right u g gc gkv up =>
          rw [insFix_LR]
          simp only [Path.okBH, Path.noRR, Path.color_left, Path.color_right, true_implies] at hbh hrr
          obtain ⟨hs1, hs2, hu1, hu2, hup⟩ := hbh
          obtain ⟨hs3, ⟨hs4, hgc⟩, hu3, hu4, hup2⟩ := hrr
          subst hgc
          simp only [if_true] at hup ⊢
          by_cases hu : u.color = .RED
          · simp only [hu, if_true]
            cases u with
            | nil => simp at hu
            | node ul ua uc ukv ur =>
              simp only [Tree.color_node] at hu
              subst hu
              apply ih up.depth (by simp [Path.depth] at hd; omega) up _ le_rfl
              · cases up <;> simp [Path.isTop]
              · simp_all [Tree.noRedRed]
              · simp_all [Tree.balanced, Tree.bh]
              · cases up
                · trivial
                · simp_all [Tree.balanced, Tree.bh, Path.isTop]
                · simp_all [Tree.balanced, Tree.bh, Path.isTop]
              · exact hup2
              · exact Path.rootBlack_up_right (Path.rootBlack_up_left hrb)
          · simp only [hu, if_false]
            have hub := Color.eq_black_of_ne_red hu
            cases t with
            | nil => simp at hc
            | node tl z zc zkv tr =>
              simp only [Tree.color_node] at hc
              subst hc
              simp only []
              rw [Path.plug_noRedRed, Path.plug_balanced]
              simp_all [Tree.noRedRed, Tree.balanced, Tree.bh]
    | right s a pc pkv up =>
      replace hc : t.color = .RED := by simpa [Path.isTop] using hc
      by_cases hpc : pc = .RED
      swap
      · rw [insFix_black_right _ _ _ _ _ _ hpc, Path.plug_noRedRed, Path.plug_balanced]
        exact ⟨⟨hnr, hrr, fun h => absurd h hpc⟩, hb, hbh⟩
      · subst hpc
        cases up with
        | top => simp [Path.rootBlack] at hrb
        | left up g gc gkv u =>
          rw [insFix_RL]
          simp only [Path.okBH, Path.noRR, Path.color_left, Path.color_right, true_implies] at hbh hrr
          obtain ⟨hs1, hs2, hu1, hu2, hup⟩ := hbh
          obtain ⟨hs3, ⟨hs4, hgc⟩, hu3, hu4, hup2⟩ := hrr
          subst hgc
          simp only [if_true] at hup ⊢
          by_cases hu : u.color = .RED
          · simp only [hu, if_true]
            cases u with
            | nil => simp at hu
            | node ul ua uc ukv ur =>
              simp only [Tree.color_node] at hu
              subst hu
              apply ih up.depth (by simp [Path.depth] at hd; omega) up _ le_rfl
              · cases up <;> simp [Path.isTop]
              · simp_all [Tree.noRedRed]
              · simp_all [Tree.balanced, Tree.bh]
              · cases up
                · trivial
                · simp_all [Tree.balanced, Tree.bh, Path.isTop]
                · simp_all [Tree.balanced, Tree.bh, Path.isTop]
              · exact hup2
              · exact Path.rootBlack_up_left (Path.rootBlack_up_right hrb)
          · simp only [hu, if_false]
            have hub := Color.eq_black_of_ne_red hu
            cases t with
            | nil => simp at hc
            | node tl z zc zkv tr =>
              simp only [Tree.color_node] at hc
              subst hc
              simp only []
              rw [Path.plug_noRedRed, Path.plug_balanced]
              simp_all [Tree.noRedRed, Tree.balanced, Tree.bh]
        | right u g gc gkv up =>
          rw [insFix_RR]
          simp only [Path.okBH, Path.noRR, Path.color_left, Path.color_right, true_implies] at hbh hrr
          obtain ⟨hs1, hs2, hu1, hu2, hup⟩ := hbh
          obtain ⟨hs3, ⟨hs4, hgc⟩, hu3, hu4, hup2⟩ := hrr
          subst hgc
          simp only [if_true] at hup ⊢
          by_cases hu : u.color = .RED
          · simp only [hu, if_true]
            cases u with
            | nil => simp at hu
            | node ul ua uc ukv ur =>
              simp only [Tree.color_node] at hu
              subst hu
              apply ih up.depth (by simp [Path.depth] at hd; omega) up _ le_rfl
              · cases up <;> simp [Path.isTop]
              · simp_all [Tree.noRedRed]
              · simp_all [Tree.balanced, Tree.bh]
              · cases up
                · trivial
                · simp_all [Tree.balanced, Tree.bh, Path.isTop]
                · simp_all [Tree.balanced, Tree.bh, Path.isTop]
              · exact hup2
              · exact Path.rootBlack_up_right (Path.rootBlack_up_right hrb)
          · simp only [hu, if_false]
            have hub := Color.eq_black_of_ne_red hu
            rw [Path.plug_noRedRed, Path.plug_balanced]
            simp_all [Tree.noRedRed, Tree.balanced, Tree.bh]

theorem Valid_of_agree {m m' : Mem K V} {S : List Nat} (hv : m.Valid) (ha : AgreeOff m' m S)
    (hS : ∀ a ∈ S, a < m'.next) (hn : m.next ≤ m'.next) : m'.Valid := by
  intro a hle
  have hnot : a ∉ S := fun h => by have := hS a h; omega
  rw [ha a hnot]
  exact hv a (by omega)

theorem insert_rebalance_spec [LinearOrder K] {m : Mem K V} {hdr : Nat} {p : Path K V}
    {a : Nat} {kv : K × V}
    (hz : ZRep m hdr p (.node .nil a .RED kv .nil)) (hrb : p.rootBlack) :
    ∃ m', (∀ fuel, p.depth < fuel → insert_rebalance fuel hdr m (some a) = .ok m') ∧
      Holds m' hdr (insTree p a kv) ∧
      m'.next = m.next ∧ AgreeOff m' m (hdr :: (p.addrs ++ [a])) := by
  obtain ⟨m1, e1, hr1, hn1, ha1⟩ := loopOK hdr p.depth p le_rfl hrb m _ _ a .RED kv hz
  obtain ⟨m2, e2, hr2, hn2, ha2⟩ := setColorIf_root_spec hr1 .BLACK
  have hroot := (Holds.toZRep (p := .top) hr1).read_root
  refine ⟨m2, fun fuel hf => ?_, hr2, by omega, ?_⟩
  · simp only [insert_rebalance, e1 fuel hf, ok_bind]
    simp only [Path.plug_top] at hroot
    simp only [hroot, ok_bind, e2]
  · refine AgreeOff.trans (ha2.mono ?_) (ha1.mono ?_)
    · intro c hc
      rw [insFix_addrs _ p _ le_rfl, Path.mem_plug_addrs] at hc
      simp at hc ⊢
      tauto
    · intro c hc; simpa using hc

/-- Attaching a RED leaf in the context `p` of a missing child, rebalancing and updating
the caches: the common tail of `insert_unique` and `insert_equal`. -/
theorem insert_tail_spec [LinearOrder K] {m : Mem K V} {t : RedBlackTree}
    {tr : Tree K V} {k : K} {v : V} {p : Path K V} (hw : WellFormed m t tr)
    (hc : tr.color = .BLACK) (hplug : p.plug .nil = tr) (hslot : p.slotOK k) (sz : Nat) :
    ∃ m1 m2 m' t',
      attach_node t.header_ (m.alloc (k, v)).2 (some m.next) (p.par t.header_) =
        .ok (m1, some m.next) ∧
      (∀ fuel, p.depth < fuel → insert_rebalance fuel t.header_ m1 (some m.next) = .ok m2) ∧
      update_min_max_nodes m2 { t with size_ := sz } (some m.next) = .ok (m', t') ∧
      WellFormed m' t' (insTree p m.next (k, v)) ∧
      t'.header_ = t.header_ ∧ t'.size_ = sz ∧ m'.next = m.next + 1 ∧
      AgreeOff m' m (m.next :: t.header_ :: tr.addrs) := by
  obtain ⟨hr, hv, hco⟩ := hw
  have hz0 : ZRep m t.header_ p .nil := Holds.toZRep (by rw [hplug]; exact hr)
  obtain ⟨m1, e1, hz1, hn1, ha1, hfresh⟩ := attach_spec (v := v) hz0 hv hslot
  have hrb : p.rootBlack := Path.rootBlack_of_plug (t := .nil) (by rw [hplug]; exact hc)
  obtain ⟨m2, e2, hr2, hn2, ha2⟩ := insert_rebalance_spec hz1 hrb
  have hmem : m.next ∈ (insTree p m.next (k, v)).addrs := by
    rw [insTree_addrs, Path.mem_plug_addrs]; simp
  have haddrs : ∀ x, x ∈ (insTree p m.next (k, v)).addrs ↔ x = m.next ∨ x ∈ tr.addrs := by
    intro x
    rw [insTree_addrs, Path.mem_plug_addrs, ← hplug, Path.mem_plug_addrs]
    simp
    tauto
  have hco2 : CacheOK { t with size_ := sz } (insTree p m.next (k, v)) := by
    refine ⟨fun x hx => ?_, fun x hx => ?_⟩
    · rcases hco.1 x hx with h | h
      · exact Or.inl h
      · exact Or.inr ((haddrs x).2 (Or.inr h))
    · rcases hco.2 x hx with h | h
      · exact Or.inl h
      · exact Or.inr ((haddrs x).2 (Or.inr h))
  obtain ⟨m3, t3, e3, hr3, hh3, hs3, hc3, hn3, ha3⟩ :=
    update_min_max_nodes_spec (t := { t with size_ := sz }) hr2 hmem hco2
  have hagree : AgreeOff m3 m (m.next :: t.header_ :: tr.addrs) := by
    refine AgreeOff.trans (ha3.mono ?_) (AgreeOff.trans (ha2.mono ?_) (ha1.mono ?_))
    · intro x hx; simp at hx ⊢; tauto
    · intro x hx
      have := (Path.mem_plug_addrs (p := p) (t := .nil) (a := x))
      rw [hplug] at this
      simp at hx this ⊢
      tauto
    · intro x hx
      have := (Path.mem_plug_addrs (p := p) (t := .nil) (a := x))
      rw [hplug] at this
      simp at hx this ⊢
      tauto
  refine ⟨m1, m2, m3, t3, e1, e2, e3, ⟨by rw [hh3]; exact hr3, ?_, hc3⟩, hh3, hs3, by omega,
    hagree⟩
  refine Valid_of_agree hv hagree ?_ (by omega)
  intro x hx
  have := hr.lt_next hv
  simp only [List.mem_cons] at hx this
  rcases hx with rfl | hx
  · omega
  · have := this x hx
    omega

theorem insert_unique_present_spec [LinearOrder K] {m : Mem K V} {t : RedBlackTree}
    {tr : Tree K V} {k : K} {v : V} {fuel : Nat} (hw : WellFormed m t tr)
    (hf : tr.height < fuel) {l r : Tree K V} {a : Nat} {c : Color} {kv : K × V}
    (hd : (descendU k tr .top).2 = .node l a c kv r) :
    insert_unique fuel m t (k, v) = .ok ((some a, false), m, t) := by
  obtain ⟨hr, -, -⟩ := hw
  have hroot := (Holds.toZRep (p := .top) hr).read_root
  simp only [Path.plug_top] at hroot
  have hdesc := insert_unique_descend_spec t.header_ k m tr .top fuel hf hr.2.1
  simp only [Path.par_top] at hdesc
  simp only [insert_unique, hroot, ok_bind, hdesc, descendResult, hd]
  rfl

theorem insert_unique_absent_spec [LinearOrder K] {m : Mem K V} {t : RedBlackTree}
    {tr : Tree K V} {k : K} {v : V} (hw : WellFormed m t tr)
    (hc : tr.color = .BLACK) (hd : (descendU k tr .top).2 = .nil) :
    ∃ m' t', (∀ fuel, tr.height < fuel →
        insert_unique fuel m t (k, v) = .ok ((some m.next, true), m', t')) ∧
      WellFormed m' t' (insTree (descendU k tr .top).1 m.next (k, v)) ∧
      t'.header_ = t.header_ ∧ t'.size_ = t.size_ + 1 ∧ m'.next = m.next + 1 ∧
      AgreeOff m' m (m.next :: t.header_ :: tr.addrs) := by
  have hroot := (Holds.toZRep (p := .top) hw.1).read_root
  simp only [Path.plug_top] at hroot
  have hplug := descendU_plug k tr .top
  rw [hd, Path.plug_top] at hplug
  have hdep := descendU_depth k tr .top
  simp only [Path.depth, zero_add] at hdep
  obtain ⟨m1, m2, m', t', e1, e2, e3, hw', hh, hs, hn, ha⟩ :=
    insert_tail_spec (v := v) hw hc hplug (descendU_slotOK k tr .top trivial) (t.size_ + 1)
  refine ⟨m', t', fun fuel hf => ?_, hw', hh, hs, hn, ha⟩
  have hdesc := insert_unique_descend_spec t.header_ k m tr .top fuel hf hw.1.2.1
  simp only [Path.par_top] at hdesc
  simp only [insert_unique, hroot, ok_bind, hdesc, descendResult, hd, Mem.alloc_fst, e1,
    e2 fuel (by omega), e3, pure_eq_ok]

theorem insert_equal_spec [LinearOrder K] {m : Mem K V} {t : RedBlackTree}
    {tr : Tree K V} {k : K} {v : V} (hw : WellFormed m t tr) (hc : tr.color = .BLACK) :
    ∃ m' t', (∀ fuel, tr.height < fuel →
        insert_equal fuel m t (k, v) = .ok (some m.next, m', t')) ∧
      WellFormed m' t' (insTree (descendE k tr .top) m.next (k, v)) ∧
      t'.header_ = t.header_ ∧ t'.size_ = t.size_ + 1 ∧ m'.next = m.next + 1 ∧
      AgreeOff m' m (m.next :: t.header_ :: tr.addrs) := by
  have hroot := (Holds.toZRep (p := .top) hw.1).read_root
  simp only [Path.plug_top] at hroot
  have hplug := descendE_plug k tr .top
  rw [Path.plug_top] at hplug
  have hdep := descendE_depth k tr .top
  simp only [Path.depth, zero_add] at hdep
  obtain ⟨m1, m2, m', t', e1, e2, e3, hw', hh, hs, hn, ha⟩ :=
    insert_tail_spec (v := v) hw hc hplug (descendE_slotOK k tr .top trivial) t.size_
  obtain ⟨hw1, hw2, hw3⟩ := hw'
  refine ⟨m', { t' with size_ := t'.size_ + 1 }, fun fuel hf => ?_, ⟨hw1, hw2, hw3⟩, hh,
    by simp [hs], hn, ha⟩
  have hdesc := find_insertion_point_equal_spec t.header_ k m tr .top fuel hf hw.1.2.1
  simp only [Path.par_top] at hdesc
  have ht : ({ t with size_ := t.size_ } : RedBlackTree) = t := rfl
  rw [ht] at e3
  simp only [insert_equal, hroot, ok_bind, hdesc, Mem.alloc_fst, e1, e2 fuel (by omega), e3,
    pure_eq_ok]

theorem Shape.toLinkShape {m : Mem K V} {par : Ptr} {t : Tree K V} (h : Shape m par t) :
    LinkShape m t := by
  induction t generalizing par with
  | nil => trivial
  | node l a c kv r ihl ihr => exact ⟨⟨par, h.1⟩, ihl h.2.1, ihr h.2.2⟩

theorem Holds.toLinkHolds {m : Mem K V} {hdr : Nat} {t : Tree K V} (h : Holds m hdr t) :
    LinkHolds m hdr t := ⟨h.1, h.2.1.toLinkShape⟩

theorem Tree.keys_node (l r : Tree K V) (a : Nat) (c : Color) (kv : K × V) :
    (Tree.node l a c kv r).keys = l.keys ++ kv.1 :: r.keys := by
  simp [Tree.keys]

theorem Tree.keys_nil : (Tree.nil : Tree K V).keys = [] := rfl

theorem insert_unique_descend_found [LinearOrder K] (k : K) (m : Mem K V) :
    ∀ (t : Tree K V), LinkShape m t → t.keys.Sorted (· ≤ ·) → k ∈ t.keys →
      ∃ a nd, a ∈ t.addrs ∧ m.cells a = some nd ∧ nd.data.1 = k ∧
        ∀ fuel par, t.height < fuel →
          insert_unique_descend k fuel m t.ptr par = .ok (.inl (some a)) := by
  intro t
  induction t with
  | nil => intro _ _ hk; simp [Tree.keys] at hk
  | node l a c kv r ihl ihr =>
    intro hs hsort hk
    obtain ⟨⟨par0, ha⟩, hl, hr⟩ := hs
    rw [Tree.keys_node] at hsort hk
    have hsl : l.keys.Sorted (· ≤ ·) := List.Pairwise.sublist (List.sublist_append_left _ _) hsort
    have hsr : r.keys.Sorted (· ≤ ·) :=
      List.Pairwise.sublist ((List.sublist_cons_self _ _).trans (List.sublist_append_right _ _)) hsort
    have hlk : ∀ x ∈ l.keys, x ≤ kv.1 := by
      intro x hx
      have := List.pairwise_append.1 hsort
      exact this.2.2 x hx kv.1 (by simp)
    have hrk : ∀ x ∈ r.keys, kv.1 ≤ x := by
      intro x hx
      have := (List.pairwise_append.1 hsort).2.1
      exact (List.pairwise_cons.1 this).1 x hx
    have hkey : m.key (some a) = .ok kv.1 := by simp [Mem.key, Mem.read, ha, Except.map]
    have hleft : m.left (some a) = .ok l.ptr := by simp [Mem.left, Mem.read, ha, Except.map]
    have hright : m.right (some a) = .ok r.ptr := by simp [Mem.right, Mem.read, ha, Except.map]
    simp only [List.mem_append, List.mem_cons] at hk
    by_cases h1 : k < kv.1
    · have hkl : k ∈ l.keys := by
        rcases hk with hk | rfl | hk
        · exact hk
        · exact absurd h1 (lt_irrefl _)
        · exact absurd (hrk k hk) (not_le.2 h1)
      obtain ⟨b, nd, hb, hnd, hndk, hres⟩ := ihl hl hsl hkl
      refine ⟨b, nd, by simp [hb], hnd, hndk, fun fuel par hf => ?_⟩
      obtain ⟨fuel, rfl⟩ : ∃ f, fuel = f + 1 := ⟨fuel - 1, by omega⟩
      simp only [Tree.height] at hf
      simp only [insert_unique_descend, Tree.ptr_node, hkey, ok_bind, h1, if_true, hleft]
      exact hres _ _ (by omega)
    · by_cases h2 : kv.1 < k
      · have hkr : k ∈ r.keys := by
          rcases hk with hk | rfl | hk
          · exact absurd (hlk k hk) (not_le.2 h2)
          · exact absurd h2 (lt_irrefl _)
          · exact hk
        obtain ⟨b, nd, hb, hnd, hndk, hres⟩ := ihr hr hsr hkr
        refine ⟨b, nd, by simp [hb], hnd, hndk, fun fuel par hf => ?_⟩
        obtain ⟨fuel, rfl⟩ : ∃ f, fuel = f + 1 := ⟨fuel - 1, by omega⟩
        simp only [Tree.height] at hf
        simp only [insert_unique_descend, Tree.ptr_node, hkey, ok_bind, h1, h2, if_true, if_false,
          hright]
        exact hres _ _ (by omega)
      · refine ⟨a, _, by simp, ha, le_antisymm (not_lt.1 h1) (not_lt.1 h2), fun fuel par hf => ?_⟩
        obtain ⟨fuel, rfl⟩ : ∃ f, fuel = f + 1 := ⟨fuel - 1, by omega⟩
        simp [insert_unique_descend, hkey, h1, h2]

theorem Path.plug_keys (p : Path K V) (t : Tree K V) :
    (p.plug t).keys = p.before.map (·.1) ++ t.keys ++ p.after.map (·.1) := by
  simp [Tree.keys, Path.plug_toList]

theorem orderedInsert_middle [LinearOrder K] (k : K) (l1 l2 : List K)
    (h1 : ∀ x ∈ l1, x < k) (h2 : ∀ x ∈ l2, k ≤ x) :
    List.orderedInsert (· ≤ ·) k (l1 ++ l2) = l1 ++ k :: l2 := by
  induction l1 with
  | nil =>
    cases l2 with
    | nil => rfl
    | cons c l2 =>
      simp only [List.nil_append, List.orderedInsert]
      rw [if_pos (h2 c (by simp))]
  | cons b l1 ih =>
    simp only [List.cons_append, List.orderedInsert]
    rw [if_neg (not_le.2 (h1 b (by simp)))]
    exact congrArg _ (ih (fun x hx => h1 x (by simp [hx])))

theorem descendU_bounds [LinearOrder K] (k : K) :
    ∀ (t : Tree K V) (p : Path K V), (p.plug t).keys.Sorted (· ≤ ·) →
      (∀ x ∈ p.before, x.1 < k) → (∀ x ∈ p.after, k < x.1) →
      (descendU k t p).2 = .nil →
      (∀ x ∈ (descendU k t p).1.before, x.1 < k) ∧ (∀ x ∈ (descendU k t p).1.after, k < x.1) := by
  intro t
  induction t with
  | nil => intro p _ hb ha _; exact ⟨hb, ha⟩
  | node l a c kv r ihl ihr =>
    intro p hs hb ha hd
    have hs' := hs
    rw [Path.plug_keys, Tree.keys_node] at hs'
    have hmid : (l.keys ++ kv.1 :: r.keys).Sorted (· ≤ ·) :=
      List.Pairwise.sublist ((List.sublist_append_right _ _).trans (List.sublist_append_left _ _)) hs'
    have hlk : ∀ x ∈ l.toList, x.1 ≤ kv.1 := by
      intro x hx
      exact (List.pairwise_append.1 hmid).2.2 x.1 (List.mem_map_of_mem _ hx) kv.1 (by simp)
    have hrk : ∀ x ∈ r.toList, kv.1 ≤ x.1 := by
      intro x hx
      exact (List.pairwise_cons.1 (List.pairwise_append.1 hmid).2.1).1 x.1
        (List.mem_map_of_mem _ hx)
    simp only [descendU] at hd ⊢
    by_cases h1 : k < kv.1
    · simp only [h1, if_true] at hd ⊢
      refine ihl (.left p a c kv r) hs hb ?_ hd
      intro x hx
      simp only [Path.after, List.cons_append, List.mem_cons, List.mem_append] at hx
      rcases hx with rfl | hx | hx
      · exact h1
      · exact lt_of_lt_of_le h1 (hrk x hx)
      · exact ha x hx
    · by_cases h2 : kv.1 < k
      · simp only [h1, h2, if_true, if_false] at hd ⊢
        refine ihr (.right l a c kv p) hs ?_ ha hd
        intro x hx
        simp only [Path.before, List.mem_append, List.mem_singleton] at hx
        rcases hx with (hx | hx) | rfl
        · exact hb x hx
        · exact lt_of_le_of_lt (hlk x hx) h2
        · exact h2
      · simp [h1, h2] at hd

theorem descendE_bounds [LinearOrder K] (k : K) :
    ∀ (t : Tree K V) (p : Path K V), (p.plug t).keys.Sorted (· ≤ ·) →
      (∀ x ∈ p.before, x.1 ≤ k) → (∀ x ∈ p.after, k < x.1) →
      (∀ x ∈ (descendE k t p).before, x.1 ≤ k) ∧ (∀ x ∈ (descendE k t p).after, k < x.1) := by
  intro t
  induction t with
  | nil => intro p _ hb ha; exact ⟨hb, ha⟩
  | node l a c kv r ihl ihr =>
    intro p hs hb ha
    have hs' := hs
    rw [Path.plug_keys, Tree.keys_node] at hs'
    have hmid : (l.keys ++ kv.1 :: r.keys).Sorted (· ≤ ·) :=
      List.Pairwise.sublist ((List.sublist_append_right _ _).trans (List.sublist_append_left _ _)) hs'
    have hlk : ∀ x ∈ l.toList, x.1 ≤ kv.1 := by
      intro x hx
      exact (List.pairwise_append.1 hmid).2.2 x.1 (List.mem_map_of_mem _ hx) kv.1 (by simp)
    have hrk : ∀ x ∈ r.toList, kv.1 ≤ x.1 := by
      intro x hx
      exact (List.pairwise_cons.1 (List.pairwise_append.1 hmid).2.1).1 x.1
        (List.mem_map_of_mem _ hx)
    simp only [descendE]
    by_cases h1 : k < kv.1
    · simp only [h1, if_true]
      refine ihl (.left p a c kv r) hs hb ?_
      intro x hx
      simp only [Path.after, List.cons_append, List.mem_cons, List.mem_append] at hx
      rcases hx with rfl | hx | hx
      · exact h1
      · exact lt_of_lt_of_le h1 (hrk x hx)
      · exact ha x hx
    · simp only [h1, if_false]
      refine ihr (.right l a c kv p) hs ?_ ha
      intro x hx
      simp only [Path.before, List.mem_append, List.mem_singleton] at hx
      rcases hx with (hx | hx) | rfl
      · exact hb x hx
      · exact le_trans (hlk x hx) (not_lt.1 h1)
      · exact not_lt.1 h1

theorem descendU_absent [LinearOrder K] (k : K) :
    ∀ (t : Tree K V) (p : Path K V), k ∉ t.keys → (descendU k t p).2 = .nil := by
  intro t
  induction t with
  | nil => intro p _; rfl
  | node l a c kv r ihl ihr =>
    intro p hk
    rw [Tree.keys_node] at hk
    simp only [List.mem_append, List.mem_cons, not_or] at hk
    simp only [descendU]
    by_cases h1 : k < kv.1
    · simp only [h1, if_true]; exact ihl _ hk.1
    · by_cases h2 : kv.1 < k
      · simp only [h1, h2, if_true, if_false]; exact ihr _ hk.2.2
      · exact absurd (le_antisymm (not_lt.1 h2) (not_lt.1 h1)) hk.2.1

theorem LinkShape.linkShape_unique {m : Mem K V} {t t' : Tree K V} (h : LinkShape m t)
    (h' : LinkShape m t') (hp : t.ptr = t'.ptr) : t = t' := by
  induction t generalizing t' with
  | nil =>
    cases t' with
    | nil => rfl
    | node _ _ _ _ _ => simp at hp
  | node l a c kv r ihl ihr =>
    cases t' with
    | nil => simp at hp
    | node l' a' c' kv' r' =>
      simp only [Tree.ptr_node, Option.some.injEq] at hp
      subst hp
      obtain ⟨⟨par, h1⟩, h2, h3⟩ := h
      obtain ⟨⟨par', h1'⟩, h2', h3'⟩ := h'
      rw [h1] at h1'
      simp only [Option.some.injEq, Node.mk.injEq] at h1'
      obtain ⟨rfl, rfl, -, hl, hr⟩ := h1'
      rw [ihl h2 h2' hl, ihr h3 h3' hr]

theorem LinkHolds.linkHolds_unique {m : Mem K V} {hdr : Nat} {t t' : Tree K V} (h : LinkHolds m hdr t)
    (h' : LinkHolds m hdr t') : t = t' := by
  obtain ⟨⟨hn, h1, h2⟩, h3⟩ := h
  obtain ⟨⟨hn', h1', h2'⟩, h3'⟩ := h'
  rw [h1] at h1'
  injection h1' with h1'
  subst h1'
  exact h3.linkShape_unique h3' (h2.symm.trans h2')

theorem readTree_of_linkShape {m : Mem K V} : ∀ (t : Tree K V) (fuel : Nat), t.height < fuel →
    LinkShape m t → readTree fuel m t.ptr = .ok t := by
  intro t
  induction t with
  | nil =>
    intro fuel hf _
    obtain ⟨fuel, rfl⟩ : ∃ f, fuel = f + 1 := ⟨fuel - 1, by omega⟩
    rfl
  | node l a c kv r ihl ihr =>
    intro fuel hf hs
    obtain ⟨fuel, rfl⟩ : ∃ f, fuel = f + 1 := ⟨fuel - 1, by omega⟩
    obtain ⟨⟨par, h1⟩, h2, h3⟩ := hs
    simp only [Tree.height] at hf
    simp only [readTree, Tree.ptr_node, Mem.read, h1, ok_bind, ihl fuel (by omega) h2,
      ihr fuel (by omega) h3, pure_eq_ok]

theorem linkShape_of_readTree {m : Mem K V} : ∀ (fuel : Nat) (p : Ptr) (t : Tree K V),
    readTree fuel m p = .ok t → LinkShape m t ∧ t.ptr = p := by
  intro fuel
  induction fuel with
  | zero => intro p t h; simp [readTree] at h
  | succ fuel ih =>
    intro p t h
    cases p with
    | none =>
      simp only [readTree] at h
      injection h with h
      subst h
      exact ⟨trivial, rfl⟩
    | some a =>
      simp only [readTree] at h
      obtain ⟨n, hn, h⟩ := bind_eq_ok.1 h
      obtain ⟨l, hl, h⟩ := bind_eq_ok.1 h
      obtain ⟨r, hr, h⟩ := bind_eq_ok.1 h
      simp only [pure_eq_ok, Except.ok.injEq] at h
      subst h
      obtain ⟨hl1, hl2⟩ := ih _ _ hl
      obtain ⟨hr1, hr2⟩ := ih _ _ hr
      have hcell : m.cells a = some n := by
        simp only [Mem.read] at hn
        cases hc : m.cells a with
        | none => simp [hc] at hn
        | some n' => simp [hc] at hn; rw [hn]
      refine ⟨⟨⟨n.parent, ?_⟩, hl1, hr1⟩, rfl⟩
      rw [hcell, hl2, hr2]

theorem linkHolds_of_treeOf {m : Mem K V} {t : RedBlackTree} {fuel : Nat} {tr : Tree K V}
    (h : treeOf fuel m t = .ok tr) : LinkHolds m t.header_ tr := by
  simp only [treeOf] at h
  obtain ⟨root, hroot, h⟩ := bind_eq_ok.1 h
  obtain ⟨h1, h2⟩ := linkShape_of_readTree _ _ _ h
  refine ⟨?_, h1⟩
  simp only [Mem.parent, Mem.read] at hroot
  cases hc : m.cells t.header_ with
  | none => simp [hc, Except.map] at hroot
  | some hn =>
    simp [hc, Except.map] at hroot
    exact ⟨hn, rfl, by rw [hroot, h2]⟩

theorem treeOf_of_linkHolds {m : Mem K V} {t : RedBlackTree} {fuel : Nat} {tr : Tree K V}
    (h : LinkHolds m t.header_ tr) (hf : tr.height < fuel) : treeOf fuel m t = .ok tr := by
  obtain ⟨⟨hn, h1, h2⟩, h3⟩ := h
  simp only [treeOf, Mem.parent, Mem.read, h1, Except.map, ok_bind, h2]
  exact readTree_of_linkShape tr fuel hf h3

theorem Tree.size_eq_length (t : Tree K V) : t.size = t.toList.length := by
  induction t with
  | nil => rfl
  | node l a c kv r ihl ihr => simp [Tree.size, ihl, ihr]; omega

theorem insTree_color (p : Path K V) (a : Nat) (kv : K × V) : (insTree p a kv).color = .BLACK := by
  rw [insTree]
  cases insFix p (.node .nil a .RED kv .nil) <;> rfl

theorem insTree_keys (p : Path K V) (a : Nat) (kv : K × V) :
    (insTree p a kv).keys = p.before.map (·.1) ++ kv.1 :: p.after.map (·.1) := by
  simp [Tree.keys, insTree_toList]

theorem create_wellFormed [Inhabited K] [Inhabited V] (m0 : Mem K V) (h : m0.Valid) :
    WellFormed (RedBlackTree.create m0).1 (RedBlackTree.create m0).2 .nil := by
  refine ⟨⟨⟨⟨default, .BLACK, none, some m0.next, some m0.next⟩,
    by simp [RedBlackTree.create], rfl⟩, trivial, by simp⟩, ?_, ?_⟩
  · intro a ha
    simp only [RedBlackTree.create, Mem.put_next, Mem.alloc_next, Mem.put_cells, Mem.alloc_fst,
      Mem.alloc_cells] at ha ⊢
    have : a ≠ m0.next := by omega
    simp only [this, if_false]
    exact h a (by omega)
  · exact ⟨fun a ha => by simp [RedBlackTree.create] at ha,
      fun a ha => by simp [RedBlackTree.create] at ha⟩

@[simp] theorem Tree.entries_nil : (Tree.nil : Tree K V).entries = [] := rfl
@[simp] theorem Tree.entries_node (l : Tree K V) (a c kv r) :
    (Tree.node l a c kv r).entries = l.entries ++ (a, kv) :: r.entries := rfl

@[simp] theorem Tree.entries_setColor (c : Color) (t : Tree K V) :
    (t.setColor c).entries = t.entries := by
  cases t <;> rfl

theorem Tree.toList_eq_entries (t : Tree K V) : t.toList = t.entries.map (·.2) := by
  induction t with
  | nil => rfl
  | node l a c kv r ihl ihr => simp [ihl, ihr]

theorem Tree.addrs_eq_entries (t : Tree K V) : t.addrs = t.entries.map (·.1) := by
  induction t with
  | nil => rfl
  | node l a c kv r ihl ihr => simp [ihl, ihr]

theorem Tree.keys_eq_entries (t : Tree K V) : t.keys = t.entries.map (·.2.1) := by
  simp [Tree.keys, Tree.toList_eq_entries]

theorem Path.before_eq_entries (p : Path K V) : p.before = p.entriesBefore.map (·.2) := by
  induction p with
  | top => rfl
  | left up a c kv r ih => simpa [Path.before, Path.entriesBefore] using ih
  | right l a c kv up ih => simp [Path.before, Path.entriesBefore, ih, Tree.toList_eq_entries]

theorem Path.after_eq_entries (p : Path K V) : p.after = p.entriesAfter.map (·.2) := by
  induction p with
  | top => rfl
  | left up a c kv r ih => simp [Path.after, Path.entriesAfter, ih, Tree.toList_eq_entries]
  | right l a c kv up ih => simpa [Path.after, Path.entriesAfter] using ih

theorem Path.plug_entries (p : Path K V) (t : Tree K V) :
    (p.plug t).entries = p.entriesBefore ++ t.entries ++ p.entriesAfter := by
  induction p generalizing t with
  | top => simp [Path.entriesBefore, Path.entriesAfter]
  | left up a c kv r ih => simp [ih, Path.entriesBefore, Path.entriesAfter]
  | right l a c kv up ih => simp [ih, Path.entriesBefore, Path.entriesAfter]

theorem Path.plug_entries_congr (p : Path K V) {t t' : Tree K V} (h : t.entries = t'.entries) :
    (p.plug t).entries = (p.plug t').entries := by
  rw [Path.plug_entries, Path.plug_entries, h]

theorem insFix_entries : ∀ (n : Nat) (p : Path K V) (t : Tree K V), p.depth ≤ n →
    (insFix p t).entries = (p.plug t).entries := by
  intro n
  induction n using Nat.strong_induction_on with
  | _ n ih =>
    intro p t hd
    cases p with
    | top => rw [insFix_top]; rfl
    | left up a pc pkv s =>
      cases up with
      | top => rw [insFix]
      | left up g gc gkv u =>
        rw [insFix_LL]
        by_cases hpc : pc = .RED
        · by_cases hu : u.color = .RED
          · simp only [hpc, hu, if_true]
            rw [ih up.depth (by simp [Path.depth] at hd; omega) up _ le_rfl]
            simp only [Path.plug_left, Path.plug_right]
            exact up.plug_entries_congr (by simp)
          · simp only [hpc, hu, if_true, if_false]
            simp only [Path.plug_left, Path.plug_right]
            exact up.plug_entries_congr (by simp)
        · simp only [hpc, if_false]
      | right u g gc gkv up =>
        rw [insFix_LR]
        by_cases hpc : pc = .RED
        · by_cases hu : u.color = .RED
          · simp only [hpc, hu, if_true]
            rw [ih up.depth (by simp [Path.depth] at hd; omega) up _ le_rfl]
            simp only [Path.plug_left, Path.plug_right]
            exact up.plug_entries_congr (by simp)
          · simp only [hpc, hu, if_true, if_false]
            cases t with
            | nil => rfl
            | node tl z zc zkv tr =>
              simp only [Path.plug_left, Path.plug_right]
              exact up.plug_entries_congr (by simp)
        · simp only [hpc, if_false]
    | right s a pc pkv up =>
      cases up with
      | top => rw [insFix]
      | left up g gc gkv u =>
        rw [insFix_RL]
        by_cases hpc : pc = .RED
        · by_cases hu : u.color = .RED
          · simp only [hpc, hu, if_true]
            rw [ih up.depth (by simp [Path.depth] at hd; omega) up _ le_rfl]
            simp only [Path.plug_left, Path.plug_right]
            exact up.plug_entries_congr (by simp)
          · simp only [hpc, hu, if_true, if_false]
            cases t with
            | nil => rfl
            | node tl z zc zkv tr =>
              simp only [Path.plug_left, Path.plug_right]
              exact up.plug_entries_congr (by simp)
        · simp only [hpc, if_false]
      | right u g gc gkv up =>
        rw [insFix_RR]
        by_cases hpc : pc = .RED
        · by_cases hu : u.color = .RED
          · simp only [hpc, hu, if_true]
            rw [ih up.depth (by simp [Path.depth] at hd; omega) up _ le_rfl]
            simp only [Path.plug_left, Path.plug_right]
            exact up.plug_entries_congr (by simp)
          · simp only [hpc, hu, if_true, if_false]
            simp only [Path.plug_left, Path.plug_right]
            exact up.plug_entries_congr (by simp)
        · simp only [hpc, if_false]

theorem insTree_entries (p : Path K V) (a : Nat) (kv : K × V) :
    (insTree p a kv).entries = p.entriesBefore ++ (a, kv) :: p.entriesAfter := by
  rw [insTree, Tree.entries_setColor, insFix_entries _ p _ le_rfl, Path.plug_entries]
  simp

theorem Shape.cell_of_entry {m : Mem K V} {par : Ptr} {t : Tree K V} (h : Shape m par t)
    {a : Nat} {d : K × V} (hm : (a, d) ∈ t.entries) : ∃ nd, m.cells a = some nd ∧ nd.data = d := by
  induction t generalizing par with
  | nil => simp at hm
  | node l b c kv r ihl ihr =>
    obtain ⟨h1, h2, h3⟩ := h
    simp only [Tree.entries_node, List.mem_append, List.mem_cons, Prod.mk.injEq] at hm
    rcases hm with hm | ⟨rfl, rfl⟩ | hm
    · exact ihl h2 hm
    · exact ⟨_, h1, rfl⟩
    · exact ihr h3 hm

theorem Returns.returns_unique {α : Type} {f : Nat → Except Fault α} {r r' : α} (h : Returns f r)
    (h' : Returns f r') : r = r' := by
  obtain ⟨N, hN⟩ := h
  obtain ⟨N', hN'⟩ := h'
  have h1 := hN (max N N') (le_max_left _ _)
  have h2 := hN' (max N N') (le_max_right _ _)
  rw [h1] at h2
  injection h2

theorem Returns.of_forall {α : Type} {f : Nat → Except Fault α} {r : α} (N : Nat)
    (h : ∀ fuel, N < fuel → f fuel = .ok r) : Returns f r :=
  ⟨N + 1, fun fuel hf => h fuel (by omega)⟩

theorem sorted_lt_insert [LinearOrder K] {l1 l2 : List K} {k : K}
    (h : (l1 ++ l2).Sorted (· < ·)) (h1 : ∀ x ∈ l1, x < k) (h2 : ∀ x ∈ l2, k < x) :
    (l1 ++ k :: l2).Sorted (· < ·) := by
  have := List.pairwise_append.1 h
  refine List.pairwise_append.2 ⟨this.1, List.pairwise_cons.2 ⟨h2, this.2.1⟩, ?_⟩
  intro a ha b hb
  simp only [List.mem_cons] at hb
  rcases hb with rfl | hb
  · exact h1 a ha
  · exact this.2.2 a ha b hb

theorem sorted_le_insert [LinearOrder K] {l1 l2 : List K} {k : K}
    (h : (l1 ++ l2).Sorted (· ≤ ·)) (h1 : ∀ x ∈ l1, x ≤ k) (h2 : ∀ x ∈ l2, k < x) :
    (l1 ++ k :: l2).Sorted (· ≤ ·) := by
  have := List.pairwise_append.1 h
  refine List.pairwise_append.2 ⟨this.1,
    List.pairwise_cons.2 ⟨fun x hx => le_of_lt (h2 x hx), this.2.1⟩, ?_⟩
  intro a ha b hb
  simp only [List.mem_cons] at hb
  rcases hb with rfl | hb
  · exact h1 a ha
  · exact this.2.2 a ha b hb

theorem Tree.redBlack_nil : (Tree.nil : Tree K V).RedBlack :=
  ⟨rfl, trivial, by simp [Tree.uniformBlack, Tree.blackCounts]⟩

theorem Mem.empty_valid : (Mem.empty : Mem K V).Valid := fun _ _ => rfl

/-- The colour invariants survive the attachment of a RED leaf followed by the fixup. -/
theorem insTree_redBlack {p : Path K V} {tr : Tree K V} (hplug : p.plug .nil = tr)
    (hrb : tr.RedBlack) (a : Nat) (kv : K × V) : (insTree p a kv).RedBlack := by
  obtain ⟨hc, hnr, hub⟩ := hrb
  rw [← hplug] at hc hnr hub
  have hbal := (Tree.uniformBlack_iff _).1 hub
  obtain ⟨-, hok⟩ := (Path.plug_balanced p .nil).1 hbal
  obtain ⟨-, hrr, -⟩ := (Path.plug_noRedRed p .nil).1 hnr
  have hroot := Path.rootBlack_of_plug hc
  have := insFix_inv p.depth p (.node .nil a .RED kv .nil) le_rfl (Or.inl rfl)
    (by simp [Tree.noRedRed, Tree.color]) (by simp [Tree.balanced, Tree.bh])
    (by simpa [Tree.bh] using hok) hrr hroot
  refine ⟨insTree_color p a kv, ?_, (Tree.uniformBlack_iff _).2 ?_⟩
  · exact Tree.noRedRed_setColor_black this.1
  · exact Tree.balanced_setColor _ this.2

/-- On a search-ordered tree `insert_unique` of a stored key finds a node with that key
and changes nothing; only the child links are relied on. -/
theorem insert_unique_found [LinearOrder K] {m : Mem K V} {t : RedBlackTree} {tr : Tree K V}
    (h : LinkHolds m t.header_ tr) (hs : tr.keys.Sorted (· ≤ ·)) {k : K} (hk : k ∈ tr.keys)
    (v : V) :
    ∃ a nd, a ∈ tr.addrs ∧ m.cells a = some nd ∧ nd.data.1 = k ∧
      ∀ fuel, tr.height < fuel → insert_unique fuel m t (k, v) = .ok ((some a, false), m, t) := by
  obtain ⟨⟨hn, h1, h2⟩, h3⟩ := h
  obtain ⟨a, nd, ha, hnd, hndk, hres⟩ := insert_unique_descend_found k m tr h3 hs hk
  refine ⟨a, nd, ha, hnd, hndk, fun fuel hf => ?_⟩
  have hroot : m.parent (some t.header_) = .ok tr.ptr := by
    simp [Mem.parent, Mem.read, h1, Except.map, h2]
  simp only [insert_unique, hroot, ok_bind, hres fuel _ hf]
  rfl

theorem mem_entriesBefore {p : Path K V} {x : Nat × (K × V)} (h : x ∈ p.entriesBefore) :
    x.2 ∈ p.before := by
  rw [Path.before_eq_entries]; exact List.mem_map_of_mem _ h

theorem mem_entriesAfter {p : Path K V} {x : Nat × (K × V)} (h : x ∈ p.entriesAfter) :
    x.2 ∈ p.after := by
  rw [Path.after_eq_entries]; exact List.mem_map_of_mem _ h

/-- What `insert_unique` of an absent key does to a well-formed search tree with a BLACK
root. -/
theorem insert_unique_absent_full [LinearOrder K] {m : Mem K V} {t : RedBlackTree}
    {tr : Tree K V} {k : K} {v : V} (hw : WellFormed m t tr) (hc : tr.color = .BLACK)
    (hs : tr.keys.Sorted (· ≤ ·)) (hk : k ∉ tr.keys) :
    ∃ m' t' tr' l1 l2, Returns (fun fuel => insert_unique fuel m t (k, v))
        ((some m.next, true), m', t') ∧
      WellFormed m' t' tr' ∧ t'.header_ = t.header_ ∧
      t'.size_ = t.size_ + 1 ∧ tr.entries = l1 ++ l2 ∧
      tr'.entries = l1 ++ (m.next, (k, v)) :: l2 ∧
      (∀ x ∈ l1, x.2.1 < k) ∧ (∀ x ∈ l2, k < x.2.1) ∧
      (tr.RedBlack → tr'.RedBlack) := by
  have hd := descendU_absent k tr .top hk
  have hplug := descendU_plug k tr .top
  rw [hd, Path.plug_top] at hplug
  obtain ⟨hb1, hb2⟩ := descendU_bounds k tr .top (by simpa using hs)
    (by simp [Path.before]) (by simp [Path.after]) hd
  obtain ⟨m', t', hret, hw', hh, hsz, -, -⟩ := insert_unique_absent_spec (v := v) hw hc hd
  refine ⟨m', t', insTree (descendU k tr .top).1 m.next (k, v),
    (descendU k tr .top).1.entriesBefore, (descendU k tr .top).1.entriesAfter,
    Returns.of_forall _ hret, hw', hh, hsz, ?_, insTree_entries _ _ _,
    fun x hx => hb1 _ (mem_entriesBefore hx), fun x hx => hb2 _ (mem_entriesAfter hx),
    fun hrb => insTree_redBlack hplug hrb _ _⟩
  have hpe := Path.plug_entries (descendU k tr .top).1 .nil
  rw [hplug] at hpe
  simpa using hpe

/-- What `insert_equal` does to a well-formed search tree with a BLACK root. -/
theorem insert_equal_full [LinearOrder K] {m : Mem K V} {t : RedBlackTree}
    {tr : Tree K V} {k : K} {v : V} (hw : WellFormed m t tr) (hc : tr.color = .BLACK)
    (hs : tr.keys.Sorted (· ≤ ·)) :
    ∃ m' t' tr' l1 l2, Returns (fun fuel => insert_equal fuel m t (k, v))
        (some m.next, m', t') ∧
      WellFormed m' t' tr' ∧ t'.header_ = t.header_ ∧
      t'.size_ = t.size_ + 1 ∧ tr.entries = l1 ++ l2 ∧
      tr'.entries = l1 ++ (m.next, (k, v)) :: l2 ∧
      (∀ x ∈ l1, x.2.1 ≤ k) ∧ (∀ x ∈ l2, k < x.2.1) ∧
      (tr.RedBlack → tr'.RedBlack) := by
  have hplug := descendE_plug k tr .top
  rw [Path.plug_top] at hplug
  obtain ⟨hb1, hb2⟩ := descendE_bounds k tr .top (by simpa using hs)
    (by simp [Path.before]) (by simp [Path.after])
  obtain ⟨m', t', hret, hw', hh, hsz, -, -⟩ := insert_equal_spec (k := k) (v := v) hw hc
  refine ⟨m', t', insTree (descendE k tr .top) m.next (k, v),
    (descendE k tr .top).entriesBefore, (descendE k tr .top).entriesAfter,
    Returns.of_forall _ hret, hw', hh, hsz, ?_, insTree_entries _ _ _,
    fun x hx => hb1 _ (mem_entriesBefore hx), fun x hx => hb2 _ (mem_entriesAfter hx),
    fun hrb => insTree_redBlack hplug hrb _ _⟩
  have hpe := Path.plug_entries (descendE k tr .top) .nil
  rw [hplug] at hpe
  simpa using hpe

theorem Tree.size_eq_entries (t : Tree K V) : t.size = t.entries.length := by
  rw [Tree.size_eq_length, Tree.toList_eq_entries, List.length_map]

/-- Every tree built by `insert_unique` calls is well formed, red-black, strictly
increasing in order, and counted by `size_`. -/
theorem BuiltUnique.unique_inv [LinearOrder K] [Inhabited K] [Inhabited V] {m : Mem K V}
    {t : RedBlackTree} (h : BuiltUnique m t) :
    ∃ tr, WellFormed m t tr ∧ tr.RedBlack ∧ tr.keys.Sorted (· < ·) ∧ t.size_ = tr.size := by
  induction h with
  | create m0 hv =>
    exact ⟨.nil, create_wellFormed m0 hv, Tree.redBlack_nil,
      by simp [Tree.keys, Tree.toList], rfl⟩
  | @insert m t kv r m' t' hb hr ih =>
    obtain ⟨tr, hw, hrb, hs, hsz⟩ := ih
    have hsle : tr.keys.Sorted (· ≤ ·) := List.Pairwise.imp le_of_lt hs
    by_cases hk : kv.1 ∈ tr.keys
    · obtain ⟨a, nd, -, -, -, hres⟩ := insert_unique_found hw.1.toLinkHolds hsle hk kv.2
      have := Returns.returns_unique hr (Returns.of_forall _ hres)
      simp only [Prod.mk.injEq] at this
      obtain ⟨-, rfl, rfl⟩ := this
      exact ⟨tr, hw, hrb, hs, hsz⟩
    · obtain ⟨m2, t2, tr2, l1, l2, hret, hw2, hh, hsz2, he, he2, hl1, hl2, hrb2⟩ :=
        insert_unique_absent_full (v := kv.2) hw hrb.1 hsle hk
      have := Returns.returns_unique hr hret
      simp only [Prod.mk.injEq] at this
      obtain ⟨-, rfl, rfl⟩ := this
      refine ⟨tr2, hw2, hrb2 hrb, ?_, ?_⟩
      · rw [Tree.keys_eq_entries, he] at hs
        rw [Tree.keys_eq_entries, he2]
        simp only [List.map_append, List.map_cons] at hs ⊢
        refine sorted_lt_insert hs ?_ ?_
        · intro x hx
          obtain ⟨y, hy, rfl⟩ := List.mem_map.1 hx
          exact hl1 y hy
        · intro x hx
          obtain ⟨y, hy, rfl⟩ := List.mem_map.1 hx
          exact hl2 y hy
      · rw [hsz2, hsz, Tree.size_eq_entries, Tree.size_eq_entries, he, he2]
        simp
        omega

/-- Every tree built by `insert_equal` calls is well formed, red-black, non-decreasing in
order, and counted by `size_`. -/
theorem BuiltEqual.equal_inv [LinearOrder K] [Inhabited K] [Inhabited V] {m : Mem K V}
    {t : RedBlackTree} (h : BuiltEqual m t) :
    ∃ tr, WellFormed m t tr ∧ tr.RedBlack ∧ tr.keys.Sorted (· ≤ ·) ∧ t.size_ = tr.size := by
  induction h with
  | create m0 hv =>
    exact ⟨.nil, create_wellFormed m0 hv, Tree.redBlack_nil,
      by simp [Tree.keys, Tree.toList], rfl⟩
  | @insert m t kv r m' t' hb hr ih =>
    obtain ⟨tr, hw, hrb, hs, hsz⟩ := ih
    obtain ⟨m2, t2, tr2, l1, l2, hret, hw2, hh, hsz2, he, he2, hl1, hl2, hrb2⟩ :=
      insert_equal_full (k := kv.1) (v := kv.2) hw hrb.1 hs
    have := Returns.returns_unique hr hret
    simp only [Prod.mk.injEq] at this
    obtain ⟨-, rfl, rfl⟩ := this
    refine ⟨tr2, hw2, hrb2 hrb, ?_, ?_⟩
    · rw [Tree.keys_eq_entries, he] at hs
      rw [Tree.keys_eq_entries, he2]
      simp only [List.map_append, List.map_cons] at hs ⊢
      refine sorted_le_insert hs ?_ ?_
      · intro x hx
        obtain ⟨y, hy, rfl⟩ := List.mem_map.1 hx
        exact hl1 y hy
      · intro x hx
        obtain ⟨y, hy, rfl⟩ := List.mem_map.1 hx
        exact hl2 y hy
    · rw [hsz2, hsz, Tree.size_eq_entries, Tree.size_eq_entries, he, he2]
      simp
      omega

theorem erase_noop_spec [LinearOrder K] (fuel : Nat) (m : Mem K V) (t : RedBlackTree) :
    erase fuel m t none = .ok (m, t) ∧
    erase fuel m t (some t.header_) = .ok (m, t) ∧
    erase fuel m t t.end.current_ = .ok (m, t) ∧
    erase_iterator fuel m t t.end = .ok (t.end, m, t) := by
  refine ⟨?_, ?_, ?_, ?_⟩
  · simp [erase]
  · simp [erase]
  · simp [erase, RedBlackTree.end]
  · simp [erase_iterator, MapIterator.eq]

theorem erase_sole_spec [LinearOrder K] {m : Mem K V} {t : RedBlackTree} {r : Nat}
    {c : Color} {kv : K × V} (h : Holds m t.header_ (.node .nil r c kv .nil))
    (hs : t.size_ = 1) :
    ∃ m' t', Returns (fun fuel => erase fuel m t (some r)) (m', t') ∧
      t'.size = 0 ∧ t'.empty = true ∧ t'.header_ = t.header_ ∧
      m'.parent (some t'.header_) = .ok none ∧
      m'.left (some t'.header_) = .ok (some t'.header_) ∧
      m'.right (some t'.header_) = .ok (some t'.header_) ∧
      t'.begin.eq t'.end = true ∧ m'.cells r = none ∧ Holds m' t'.header_ .nil := by
  obtain ⟨⟨hn, hh, hp⟩, ⟨hr, -, -⟩, hnd⟩ := h
  simp only [Tree.ptr_node] at hp
  simp only [Path.par_top, Tree.ptr_nil] at hr
  have hne : r ≠ t.header_ := by
    intro e
    simp [Path.addrs, Tree.addrs, e] at hnd
  obtain ⟨hd, hc, hpar, hl, hrt⟩ := hn
  simp only at hp
  subst hp
  have e1 : m.color (some r) = .ok c := by simp [Mem.color, Mem.read, hr, Except.map]
  have e2 : m.left (some r) = .ok none := by simp [Mem.left, Mem.read, hr, Except.map]
  have e3 : m.right (some r) = .ok none := by simp [Mem.right, Mem.read, hr, Except.map]
  have e4 : m.parent (some r) = .ok (some t.header_) := by
    simp [Mem.parent, Mem.read, hr, Except.map]
  have e5 : transplant t.header_ m (some r) none =
      .ok (m.put t.header_ ⟨hd, hc, none, hl, hrt⟩) := by
    simp [transplant, e4, Mem.setParent, Mem.modify, hh]
  have e6 : (m.put t.header_ ⟨hd, hc, none, hl, hrt⟩).free (some r) =
      .ok ⟨fun b => if b = r then none else
        (m.put t.header_ ⟨hd, hc, none, hl, hrt⟩).cells b, m.next⟩ := by
    simp [Mem.free, Mem.put, hne, hr]
  generalize hm2 : (⟨fun b => if b = r then none else
        (m.put t.header_ ⟨hd, hc, none, hl, hrt⟩).cells b, m.next⟩ : Mem K V) = m2 at e6
  have hc2 : m2.cells t.header_ = some ⟨hd, hc, none, hl, hrt⟩ := by
    subst hm2; simp [Mem.put, hne.symm]
  have e7 : m2.parent (some t.header_) = .ok none := by
    simp [Mem.parent, Mem.read, hc2, Except.map]
  have e8 : ∀ fuel, erase_rebalance (fuel + 1) t.header_ m2 none (some t.header_) = .ok m2 := by
    intro fuel
    simp [erase_rebalance, erase_rebalance_loop, e7, Mem.setColorIf]
  have e9 : ∀ fuel sz, update_min_max_nodes_after_erase fuel m2 { t with size_ := sz } =
      .ok ((m2.put t.header_ ⟨hd, hc, none, some t.header_, hrt⟩).put t.header_
        ⟨hd, hc, none, some t.header_, some t.header_⟩,
        { t with size_ := sz, min_node_ := none, max_node_ := none }) := by
    intro fuel sz
    simp [update_min_max_nodes_after_erase, e7, Mem.setLeft, Mem.setRight, Mem.modify, hc2,
      Mem.put]
  refine ⟨(m2.put t.header_ ⟨hd, hc, none, some t.header_, hrt⟩).put t.header_
        ⟨hd, hc, none, some t.header_, some t.header_⟩,
    { t with size_ := 0, min_node_ := none, max_node_ := none },
    Returns.of_forall 0 (fun fuel hf => ?_), rfl, rfl, rfl, ?_, ?_, ?_, ?_, ?_, ?_⟩
  · obtain ⟨fuel, rfl⟩ : ∃ f, fuel = f + 1 := ⟨fuel - 1, by omega⟩
    have hz : ¬ (some r = none ∨ some r = some t.header_) := by simp [hne]
    simp only [erase, hz, if_false, e1, e2, e3, e4, ok_bind, if_true, e5, ne_eq,
      not_true_eq_false, pure_eq_ok, e6, hs, one_ne_zero, Nat.sub_self]
    cases c
    · simp only [reduceCtorEq, if_false, pure_eq_ok, ok_bind, e9]
    · simp only [if_true, e8, ok_bind, e9]
  · simp [Mem.parent, Mem.read, Except.map, Mem.put]
  · simp [Mem.left, Mem.read, Except.map, Mem.put]
  · simp [Mem.right, Mem.read, Except.map, Mem.put]
  · simp [RedBlackTree.begin, RedBlackTree.end, MapIterator.eq]
  · subst hm2; simp [Mem.put, hne]
  · exact ⟨⟨⟨hd, hc, none, some t.header_, some t.header_⟩, by simp [Mem.put], rfl⟩, trivial,
      by simp [Path.addrs, Tree.addrs]⟩

theorem Tree.sorted_node [LinearOrder K] {l r : Tree K V} {a : Nat} {c : Color} {kv : K × V}
    (h : (Tree.node l a c kv r).keys.Sorted (· ≤ ·)) :
    l.keys.Sorted (· ≤ ·) ∧ r.keys.Sorted (· ≤ ·) ∧ (∀ x ∈ l.keys, x ≤ kv.1) ∧
      (∀ x ∈ r.keys, kv.1 ≤ x) := by
  rw [Tree.keys_node] at h
  have h1 := List.pairwise_append.1 h
  have h2 := List.pairwise_cons.1 h1.2.1
  exact ⟨h1.1, h2.2, fun x hx => h1.2.2 x hx kv.1 (by simp), h2.1⟩

theorem Tree.key_mem_of_entry {t : Tree K V} {x : Nat × (K × V)} (h : x ∈ t.entries) :
    x.2.1 ∈ t.keys := by
  rw [Tree.keys_eq_entries]
  exact List.mem_map_of_mem (fun e => e.2.1) h

theorem Tree.addr_mem_of_entry {t : Tree K V} {x : Nat × (K × V)} (h : x ∈ t.entries) :
    x.1 ∈ t.addrs := by
  rw [Tree.addrs_eq_entries]
  exact List.mem_map_of_mem (fun e => e.1) h

theorem LinkShape.link_cell_of_entry {m : Mem K V} {t : Tree K V} (h : LinkShape m t)
    {x : Nat × (K × V)} (hm : x ∈ t.entries) : ∃ nd, m.cells x.1 = some nd ∧ nd.data = x.2 := by
  induction t with
  | nil => simp at hm
  | node l b c kv r ihl ihr =>
    obtain ⟨⟨par, h1⟩, h2, h3⟩ := h
    simp only [Tree.entries_node, List.mem_append, List.mem_cons] at hm
    rcases hm with hm | rfl | hm
    · exact ihl h2 hm
    · exact ⟨_, h1, rfl⟩
    · exact ihr h3 hm

/-- The loop of `find_node` on a search-ordered tree: the node holding the key, when the
key is stored. -/
theorem find_node_found [LinearOrder K] (k : K) (m : Mem K V) :
    ∀ (t : Tree K V), LinkShape m t → t.keys.Sorted (· ≤ ·) → k ∈ t.keys →
      ∃ x, x ∈ t.entries ∧ x.2.1 = k ∧
        ∀ fuel, t.height < fuel → find_node k fuel m t.ptr = .ok (some x.1) := by
  intro t
  induction t with
  | nil => intro _ _ hk; simp [Tree.keys] at hk
  | node l a c kv r ihl ihr =>
    intro hs hsort hk
    obtain ⟨⟨par0, ha⟩, hl, hr⟩ := hs
    obtain ⟨hsl, hsr, hlk, hrk⟩ := Tree.sorted_node hsort
    rw [Tree.keys_node] at hk
    have hkey : m.key (some a) = .ok kv.1 := by simp [Mem.key, Mem.read, ha, Except.map]
    have hleft : m.left (some a) = .ok l.ptr := by simp [Mem.left, Mem.read, ha, Except.map]
    have hright : m.right (some a) = .ok r.ptr := by simp [Mem.right, Mem.read, ha, Except.map]
    simp only [List.mem_append, List.mem_cons] at hk
    by_cases h1 : k < kv.1
    · have hkl : k ∈ l.keys := by
        rcases hk with hk | rfl | hk
        · exact hk
        · exact absurd h1 (lt_irrefl _)
        · exact absurd (hrk k hk) (not_le.2 h1)
      obtain ⟨x, hx, hxk, hres⟩ := ihl hl hsl hkl
      refine ⟨x, by simp [hx], hxk, fun fuel hf => ?_⟩
      obtain ⟨fuel, rfl⟩ : ∃ f, fuel = f + 1 := ⟨fuel - 1, by omega⟩
      simp only [Tree.height] at hf
      simp only [find_node, Tree.ptr_node, hkey, ok_bind, h1, if_true, hleft]
      exact hres _ (by omega)
    · by_cases h2 : kv.1 < k
      · have hkr : k ∈ r.keys := by
          rcases hk with hk | rfl | hk
          · exact absurd (hlk k hk) (not_le.2 h2)
          · exact absurd h2 (lt_irrefl _)
          · exact hk
        obtain ⟨x, hx, hxk, hres⟩ := ihr hr hsr hkr
        refine ⟨x, by simp [hx], hxk, fun fuel hf => ?_⟩
        obtain ⟨fuel, rfl⟩ : ∃ f, fuel = f + 1 := ⟨fuel - 1, by omega⟩
        simp only [Tree.height] at hf
        simp only [find_node, Tree.ptr_node, hkey, ok_bind, h1, h2, if_true, if_false, hright]
        exact hres _ (by omega)
      · refine ⟨(a, kv), by simp, le_antisymm (not_lt.1 h1) (not_lt.1 h2), fun fuel hf => ?_⟩
        obtain ⟨fuel, rfl⟩ : ∃ f, fuel = f + 1 := ⟨fuel - 1, by omega⟩
        simp [find_node, hkey, h1, h2]

/-- The loop of `find_node` ends at a null pointer when the key is not stored. -/
theorem find_node_absent [LinearOrder K] (k : K) (m : Mem K V) :
    ∀ (t : Tree K V), LinkShape m t → k ∉ t.keys →
      ∀ fuel, t.height < fuel → find_node k fuel m t.ptr = .ok none := by
  intro t
  induction t with
  | nil =>
    intro _ _ fuel hf
    obtain ⟨fuel, rfl⟩ : ∃ f, fuel = f + 1 := ⟨fuel - 1, by omega⟩
    rfl
  | node l a c kv r ihl ihr =>
    intro hs hk fuel hf
    obtain ⟨fuel, rfl⟩ : ∃ f, fuel = f + 1 := ⟨fuel - 1, by omega⟩
    obtain ⟨⟨par0, ha⟩, hl, hr⟩ := hs
    rw [Tree.keys_node] at hk
    simp only [List.mem_append, List.mem_cons, not_or] at hk
    simp only [Tree.height] at hf
    have hkey : m.key (some a) = .ok kv.1 := by simp [Mem.key, Mem.read, ha, Except.map]
    have hleft : m.left (some a) = .ok l.ptr := by simp [Mem.left, Mem.read, ha, Except.map]
    have hright : m.right (some a) = .ok r.ptr := by simp [Mem.right, Mem.read, ha, Except.map]
    by_cases h1 : k < kv.1
    · simp only [find_node, Tree.ptr_node, hkey, ok_bind, h1, if_true, hleft]
      exact ihl hl hk.1 _ (by omega)
    · by_cases h2 : kv.1 < k
      · simp only [find_node, Tree.ptr_node, hkey, ok_bind, h1, h2, if_true, if_false, hright]
        exact ihr hr hk.2.2 _ (by omega)
      · exact absurd (le_antisymm (not_lt.1 h2) (not_lt.1 h1)) hk.2.1

theorem LinkHolds.link_read_root {m : Mem K V} {hdr : Nat} {t : Tree K V} (h : LinkHolds m hdr t) :
    m.parent (some hdr) = .ok t.ptr := by
  obtain ⟨⟨hn, h1, h2⟩, -⟩ := h
  simp [Mem.parent, Mem.read, h1, Except.map, h2]

/-- The loop of `lower_bound` on a search-ordered tree splits the in-order sequence into
the nodes with a key less than `k` and the rest, and ends at the first node of the
rest, or at the incoming `result` when there is none. -/
theorem lower_bound_loop_spec [LinearOrder K] (k : K) (m : Mem K V) :
    ∀ (t : Tree K V), LinkShape m t → t.keys.Sorted (· ≤ ·) →
      ∃ l1 l2, t.entries = l1 ++ l2 ∧ (∀ x ∈ l1, x.2.1 < k) ∧ (∀ y ∈ l2, ¬ y.2.1 < k) ∧
        ∀ fuel res, t.height < fuel →
          lower_bound_loop k fuel m t.ptr res = .ok (firstPtr l2 res) := by
  intro t
  induction t with
  | nil =>
    intro _ _
    refine ⟨[], [], rfl, by simp, by simp, fun fuel res hf => ?_⟩
    obtain ⟨fuel, rfl⟩ : ∃ f, fuel = f + 1 := ⟨fuel - 1, by omega⟩
    rfl
  | node l a c kv r ihl ihr =>
    intro hs hsort
    obtain ⟨⟨par0, ha⟩, hl, hr⟩ := hs
    obtain ⟨hsl, hsr, hlk, hrk⟩ := Tree.sorted_node hsort
    have hkey : m.key (some a) = .ok kv.1 := by simp [Mem.key, Mem.read, ha, Except.map]
    have hleft : m.left (some a) = .ok l.ptr := by simp [Mem.left, Mem.read, ha, Except.map]
    have hright : m.right (some a) = .ok r.ptr := by simp [Mem.right, Mem.read, ha, Except.map]
    by_cases h1 : kv.1 < k
    · obtain ⟨r1, r2, her, hr1, hr2, hres⟩ := ihr hr hsr
      refine ⟨l.entries ++ (a, kv) :: r1, r2, by simp [her], ?_, hr2, fun fuel res hf => ?_⟩
      · intro x hx
        simp only [List.mem_append, List.mem_cons] at hx
        rcases hx with hx | rfl | hx
        · exact lt_of_le_of_lt (hlk _ (Tree.key_mem_of_entry hx)) h1
        · exact h1
        · exact hr1 x hx
      · obtain ⟨fuel, rfl⟩ : ∃ f, fuel = f + 1 := ⟨fuel - 1, by omega⟩
        simp only [Tree.height] at hf
        simp only [lower_bound_loop, Tree.ptr_node, hkey, ok_bind, h1, not_true_eq_false,
          if_false, hright]
        exact hres _ _ (by omega)
    · obtain ⟨l1, l2, hel, hl1, hl2, hres⟩ := ihl hl hsl
      refine ⟨l1, l2 ++ (a, kv) :: r.entries, by simp [hel], hl1, ?_, fun fuel res hf => ?_⟩
      · intro y hy
        simp only [List.mem_append, List.mem_cons] at hy
        rcases hy with hy | rfl | hy
        · exact hl2 y hy
        · exact h1
        · exact fun hlt => h1 (lt_of_le_of_lt (hrk _ (Tree.key_mem_of_entry hy)) hlt)
      · obtain ⟨fuel, rfl⟩ : ∃ f, fuel = f + 1 := ⟨fuel - 1, by omega⟩
        simp only [Tree.height] at hf
        simp only [lower_bound_loop, Tree.ptr_node, hkey, ok_bind, h1, not_false_eq_true,
          if_true, hleft]
        rw [hres _ _ (by omega)]
        cases l2 <;> rfl

/-- The loop of `upper_bound` on a search-ordered tree splits the in-order sequence into
the nodes with a key not greater than `k` and the rest, and ends at the first node of
the rest, or at the incoming `result` when there is none. -/
theorem upper_bound_loop_spec [LinearOrder K] (k : K) (m : Mem K V) :
    ∀ (t : Tree K V), LinkShape m t → t.keys.Sorted (· ≤ ·) →
      ∃ l1 l2, t.entries = l1 ++ l2 ∧ (∀ x ∈ l1, ¬ k < x.2.1) ∧ (∀ y ∈ l2, k < y.2.1) ∧
        ∀ fuel res, t.height < fuel →
          upper_bound_loop k fuel m t.ptr res = .ok (firstPtr l2 res) := by
  intro t
  induction t with
  | nil =>
    intro _ _
    refine ⟨[], [], rfl, by simp, by simp, fun fuel res hf => ?_⟩
    obtain ⟨fuel, rfl⟩ : ∃ f, fuel = f + 1 := ⟨fuel - 1, by omega⟩
    rfl
  | node l a c kv r ihl ihr =>
    intro hs hsort
    obtain ⟨⟨par0, ha⟩, hl, hr⟩ := hs
    obtain ⟨hsl, hsr, hlk, hrk⟩ := Tree.sorted_node hsort
    have hkey : m.key (some a) = .ok kv.1 := by simp [Mem.key, Mem.read, ha, Except.map]
    have hleft : m.left (some a) = .ok l.ptr := by simp [Mem.left, Mem.read, ha, Except.map]
    have hright : m.right (some a) = .ok r.ptr := by simp [Mem.right, Mem.read, ha, Except.map]
    by_cases h1 : k < kv.1
    · obtain ⟨l1, l2, hel, hl1, hl2, hres⟩ := ihl hl hsl
      refine ⟨l1, l2 ++ (a, kv) :: r.entries, by simp [hel], hl1, ?_, fun fuel res hf => ?_⟩
      · intro y hy
        simp only [List.mem_append, List.mem_cons] at hy
        rcases hy with hy | rfl | hy
        · exact hl2 y hy
        · exact h1
        · exact lt_of_lt_of_le h1 (hrk _ (Tree.key_mem_of_entry hy))
      · obtain ⟨fuel, rfl⟩ : ∃ f, fuel = f + 1 := ⟨fuel - 1, by omega⟩
        simp only [Tree.height] at hf
        simp only [upper_bound_loop, Tree.ptr_node, hkey, ok_bind, h1, if_true, hleft]
        rw [hres _ _ (by omega)]
        cases l2 <;> rfl
    · obtain ⟨r1, r2, her, hr1, hr2, hres⟩ := ihr hr hsr
      refine ⟨l.entries ++ (a, kv) :: r1, r2, by simp [her], ?_, hr2, fun fuel res hf => ?_⟩
      · intro x hx
        simp only [List.mem_append, List.mem_cons] at hx
        rcases hx with hx | rfl | hx
        · exact fun hlt => h1 (lt_of_lt_of_le hlt (hlk _ (Tree.key_mem_of_entry hx)))
        · exact h1
        · exact hr1 x hx
      · obtain ⟨fuel, rfl⟩ : ∃ f, fuel = f + 1 := ⟨fuel - 1, by omega⟩
        simp only [Tree.height] at hf
        simp only [upper_bound_loop, Tree.ptr_node, hkey, ok_bind, h1, if_false, hright]
        exact hres _ _ (by omega)

theorem BuiltUnique.unique_toBuiltInsert [LinearOrder K] [Inhabited K] [Inhabited V] {m : Mem K V}
    {t : RedBlackTree} (h : BuiltUnique m t) : BuiltInsert m t := by
  induction h with
  | create m0 hv => exact .create m0 hv
  | insert kv _ hr ih => exact .unique kv ih hr

theorem BuiltEqual.equal_toBuiltInsert [LinearOrder K] [Inhabited K] [Inhabited V] {m : Mem K V}
    {t : RedBlackTree} (h : BuiltEqual m t) : BuiltInsert m t := by
  induction h with
  | create m0 hv => exact .create m0 hv
  | insert kv _ hr ih => exact .equal kv ih hr

/-- Every tree built by insertions is well formed, red-black, non-decreasing in order,
and counted by `size_`. -/
theorem BuiltInsert.insert_inv [LinearOrder K] [Inhabited K] [Inhabited V] {m : Mem K V}
    {t : RedBlackTree} (h : BuiltInsert m t) :
    ∃ tr, WellFormed m t tr ∧ tr.RedBlack ∧ tr.keys.Sorted (· ≤ ·) ∧ t.size_ = tr.size := by
  induction h with
  | create m0 hv =>
    exact ⟨.nil, create_wellFormed m0 hv, Tree.redBlack_nil,
      by simp [Tree.keys, Tree.toList], rfl⟩
  | @unique m t kv r m' t' hb hr ih =>
    obtain ⟨tr, hw, hrb, hs, hsz⟩ := ih
    by_cases hk : kv.1 ∈ tr.keys
    · obtain ⟨a, nd, -, -, -, hres⟩ := insert_unique_found hw.1.toLinkHolds hs hk kv.2
      have := Returns.returns_unique hr (Returns.of_forall _ hres)
      simp only [Prod.mk.injEq] at this
      obtain ⟨-, rfl, rfl⟩ := this
      exact ⟨tr, hw, hrb, hs, hsz⟩
    · obtain ⟨m2, t2, tr2, l1, l2, hret, hw2, hh, hsz2, he, he2, hl1, hl2, hrb2⟩ :=
        insert_unique_absent_full (v := kv.2) hw hrb.1 hs hk
      have := Returns.returns_unique hr hret
      simp only [Prod.mk.injEq] at this
      obtain ⟨-, rfl, rfl⟩ := this
      refine ⟨tr2, hw2, hrb2 hrb, ?_, ?_⟩
      · rw [Tree.keys_eq_entries, he] at hs
        rw [Tree.keys_eq_entries, he2]
        simp only [List.map_append, List.map_cons] at hs ⊢
        refine sorted_le_insert hs ?_ ?_
        · intro x hx
          obtain ⟨y, hy, rfl⟩ := List.mem_map.1 hx
          exact le_of_lt (hl1 y hy)
        · intro x hx
          obtain ⟨y, hy, rfl⟩ := List.mem_map.1 hx
          exact hl2 y hy
      · rw [hsz2, hsz, Tree.size_eq_entries, Tree.size_eq_entries, he, he2]
        simp
        omega
  | @equal m t kv r m' t' hb hr ih =>
    obtain ⟨tr, hw, hrb, hs, hsz⟩ := ih
    obtain ⟨m2, t2, tr2, l1, l2, hret, hw2, hh, hsz2, he, he2, hl1, hl2, hrb2⟩ :=
      insert_equal_full (k := kv.1) (v := kv.2) hw hrb.1 hs
    have := Returns.returns_unique hr hret
    simp only [Prod.mk.injEq] at this
    obtain ⟨-, rfl, rfl⟩ := this
    refine ⟨tr2, hw2, hrb2 hrb, ?_, ?_⟩
    · rw [Tree.keys_eq_entries, he] at hs
      rw [Tree.keys_eq_entries, he2]
      simp only [List.map_append, List.map_cons] at hs ⊢
      refine sorted_le_insert hs ?_ ?_
      · intro x hx
        obtain ⟨y, hy, rfl⟩ := List.mem_map.1 hx
        exact hl1 y hy
      · intro x hx
        obtain ⟨y, hy, rfl⟩ := List.mem_map.1 hx
        exact hl2 y hy
    · rw [hsz2, hsz, Tree.size_eq_entries, Tree.size_eq_entries, he, he2]
      simp
      omega

theorem Tree.height_le_size (t : Tree K V) : t.height ≤ t.size := by
  induction t with
  | nil => simp [Tree.height, Tree.size]
  | node l a c kv r ihl ihr => simp only [Tree.height, Tree.size]; omega

/-- Every position of the in-order sequence is the root of a subtree in a context. -/
theorem Tree.focus : ∀ (t : Tree K V) (p : Path K V) (l1 l2 : List (Nat × (K × V)))
    (x : Nat × (K × V)), t.entries = l1 ++ x :: l2 →
    ∃ (p' : Path K V) (l : Tree K V) (c : Color) (r : Tree K V),
      p.plug t = p'.plug (.node l x.1 c x.2 r) ∧
      p'.entriesBefore ++ l.entries = p.entriesBefore ++ l1 ∧
      r.entries ++ p'.entriesAfter = l2 ++ p.entriesAfter := by
  intro t
  induction t with
  | nil => intro p l1 l2 x h; simp at h
  | node tl a c kv tr ihl ihr =>
    intro p l1 l2 x h
    rw [Tree.entries_node] at h
    rcases List.append_eq_append_iff.1 h with ⟨l', h1, h2⟩ | ⟨l', h1, h2⟩
    · -- `l1 = tl.entries ++ l'`
      cases l' with
      | nil =>
        simp only [List.nil_append, List.cons.injEq] at h2
        obtain ⟨rfl, rfl⟩ := h2
        exact ⟨p, tl, c, tr, rfl, by simp [h1], rfl⟩
      | cons y l'' =>
        simp only [List.cons_append, List.cons.injEq] at h2
        obtain ⟨rfl, h2⟩ := h2
        obtain ⟨p', l, c', r, e1, e2, e3⟩ := ihr (.right tl a c kv p) l'' l2 x h2
        refine ⟨p', l, c', r, by simpa using e1, ?_, ?_⟩
        · rw [e2, h1]; simp [Path.entriesBefore]
        · rw [e3]; simp [Path.entriesAfter]
    · -- `tl.entries = l1 ++ l'`
      cases l' with
      | nil =>
        simp only [List.nil_append, List.cons.injEq, List.append_nil] at h1 h2
        obtain ⟨rfl, rfl⟩ := h2
        exact ⟨p, tl, c, tr, rfl, by simp [h1], rfl⟩
      | cons y l'' =>
        simp only [List.cons_append, List.cons.injEq] at h2
        obtain ⟨rfl, rfl⟩ := h2
        obtain ⟨p', l, c', r, e1, e2, e3⟩ := ihl (.left p a c kv tr) l1 l'' x h1
        refine ⟨p', l, c', r, by simpa using e1, ?_, ?_⟩
        · rw [e2]; simp [Path.entriesBefore]
        · rw [e3]; simp [Path.entriesAfter]

theorem firstPtr_append_cons (l1 l2 : List (Nat × (K × V))) (x : Nat × (K × V)) (d : Ptr) :
    ∃ y, firstPtr (l1 ++ x :: l2) d = some y.1 ∧ (l1 ++ x :: l2).head? = some y := by
  cases l1 with
  | nil => exact ⟨x, rfl, rfl⟩
  | cons y l1 => exact ⟨y, rfl, rfl⟩

/-- The loop `while (current_->left)` of `operator++` ends at the first node in in-order
of the subtree it starts at. -/
theorem increment_descend_spec [LinearOrder K] {m : Mem K V} :
    ∀ (l : Tree K V) (a : Nat) (c : Color) (kv : K × V) (r : Tree K V),
      LinkShape m (.node l a c kv r) → ∀ fuel d, (Tree.node l a c kv r).height < fuel →
        increment_descend fuel m (some a) = .ok (firstPtr (Tree.node l a c kv r).entries d) := by
  intro l
  induction l with
  | nil =>
    intro a c kv r hs fuel d hf
    obtain ⟨fuel, rfl⟩ : ∃ f, fuel = f + 1 := ⟨fuel - 1, by omega⟩
    obtain ⟨⟨par, ha⟩, -, -⟩ := hs
    simp [increment_descend, Mem.left, Mem.read, ha, Except.map, firstPtr]
  | node ll b cb kvb lr ihl _ =>
    intro a c kv r hs fuel d hf
    obtain ⟨fuel, rfl⟩ : ∃ f, fuel = f + 1 := ⟨fuel - 1, by omega⟩
    obtain ⟨⟨par, ha⟩, hl, -⟩ := hs
    simp only [Tree.height] at hf
    have := ihl b cb kvb lr hl fuel d (by simp only [Tree.height]; omega)
    simp only [increment_descend, Mem.left, Mem.read, ha, Except.map, Tree.ptr_node, ok_bind,
      ne_eq, reduceCtorEq, not_false_eq_true, if_true, this]
    simp only [Tree.entries_node, List.append_assoc]
    cases ll.entries <;> rfl

/-- The loop `while (p && current_ == p->right)` of `operator++` ends at the first node
after the hole, when there is one. -/
theorem increment_ascend_spec [LinearOrder K] {m : Mem K V} {hdr : Nat} :
    ∀ (p : Path K V) (x : Nat), PShape m hdr p (some x) → (x :: p.addrs).Nodup →
      ∀ y rest, p.entriesAfter = y :: rest → ∀ fuel, p.depth < fuel →
        increment_ascend fuel m (some x) (p.par hdr) = .ok (some y.1) := by
  intro p
  induction p with
  | top => intro x _ _ y rest h; simp [Path.entriesAfter] at h
  | left up a c kv r _ =>
    intro x hp hn y rest h fuel hf
    obtain ⟨fuel, rfl⟩ : ∃ f, fuel = f + 1 := ⟨fuel - 1, by omega⟩
    obtain ⟨ha, -, -⟩ := hp
    simp only [Path.entriesAfter, List.cons_append, List.cons.injEq] at h
    obtain ⟨rfl, -⟩ := h
    have hx : some x ≠ r.ptr := by
      apply Tree.ptr_ne_of_not_mem
      simp [List.nodup_cons] at hn
      tauto
    simp [increment_ascend, Mem.right, Mem.read, ha, Except.map, hx]
  | right l a c kv up ih =>
    intro x hp hn y rest h fuel hf
    obtain ⟨fuel, rfl⟩ : ∃ f, fuel = f + 1 := ⟨fuel - 1, by omega⟩
    obtain ⟨ha, -, hup⟩ := hp
    simp only [Path.entriesAfter] at h
    simp only [Path.depth] at hf
    have hn' : (a :: up.addrs).Nodup := by
      simp [List.nodup_cons, List.nodup_append] at hn ⊢
      tauto
    have := ih a hup hn' y rest h fuel (by omega)
    simp only [increment_ascend, Path.par_right, Mem.right, Mem.read, ha, Except.map, ok_bind,
      if_true, Mem.parent, this]

/-- On a well-formed tree `operator++` moves from a node to the node that follows it in
the in-order sequence. -/
theorem increment_spec [LinearOrder K] {m : Mem K V} {hdr : Nat} {tr : Tree K V}
    (h : Holds m hdr tr) {l1 l2 : List (Nat × (K × V))} {x y : Nat × (K × V)}
    (he : tr.entries = l1 ++ x :: y :: l2) (hp : Ptr) :
    ∀ fuel, tr.size < fuel →
      MapIterator.increment fuel m ⟨some x.1, hp⟩ = .ok ⟨some y.1, hp⟩ := by
  obtain ⟨p, l, c, r, e1, -, e3⟩ := Tree.focus tr .top l1 (y :: l2) x he
  simp only [Path.plug_top, Path.entriesAfter, List.append_nil] at e3 e1
  have hz : ZRep m hdr p (.node l x.1 c x.2 r) := Holds.toZRep (by rw [← e1]; exact h)
  have hcell := hz.2.1.1
  have hsize : tr.size = (p.addrs ++ (Tree.node l x.1 c x.2 r).addrs).length := by
    rw [e1, Tree.size_eq_length, Tree.toList_eq_entries, List.length_map,
      ← List.length_map (f := fun e => e.1), ← Tree.addrs_eq_entries]
    exact (Path.plug_addrs_perm p _).length_eq
  intro fuel hf
  cases r with
  | nil =>
    simp only [Tree.entries_nil, List.nil_append] at e3
    have hn : (x.1 :: p.addrs).Nodup := by
      have := hz.2.2
      simp [List.nodup_cons, List.nodup_append] at this ⊢
      tauto
    have hd : p.depth < fuel := by
      have : p.depth ≤ p.addrs.length := by
        clear * -
        induction p with
        | top => simp [Path.depth]
        | left up a c kv r ih => simp [Path.depth, Path.addrs]; omega
        | right l a c kv up ih => simp [Path.depth, Path.addrs]; omega
      simp at hsize
      omega
    have := increment_ascend_spec p x.1 hz.1 hn y l2 e3 fuel hd
    simp [MapIterator.increment, Mem.right, Mem.parent, Mem.read, hcell, Except.map, this]
  | node rl b cb kvb rr =>
    have hr : LinkShape m (.node rl b cb kvb rr) := hz.2.1.2.2.toLinkShape
    have hh : (Tree.node rl b cb kvb rr).height < fuel := by
      have h1 := Tree.height_le_size (Tree.node rl b cb kvb rr)
      have h2 : (Tree.node rl b cb kvb rr).size = (Tree.node rl b cb kvb rr).addrs.length := by
        rw [Tree.size_eq_length, Tree.toList_eq_entries, List.length_map,
          ← List.length_map (f := fun e => e.1), ← Tree.addrs_eq_entries]
      simp only [Tree.addrs_node, List.length_append, List.length_cons] at hsize h2
      omega
    have := increment_descend_spec rl b cb kvb rr hr fuel none hh
    have hfirst : firstPtr (Tree.node rl b cb kvb rr).entries none = some y.1 := by
      simp only [Tree.entries_node, List.append_assoc] at e3 ⊢
      cases hrl : rl.entries with
      | nil => rw [hrl] at e3; simp at e3; rw [← e3.1]; rfl
      | cons z zs => rw [hrl] at e3; simp at e3; rw [← e3.1]; rfl
    rw [hfirst] at this
    simp [MapIterator.increment, Mem.right, Mem.read, hcell, Except.map, this]

@[simp] theorem Tree.relabel_nil (b : Nat) : (Tree.nil : Tree K V).relabel b = .nil := rfl
@[simp] theorem Tree.relabel_node (b : Nat) (l r : Tree K V) (a c kv) :
    (Tree.node l a c kv r).relabel b =
      .node (l.relabel (b + 1)) b c kv (r.relabel (b + 1 + l.size)) := rfl

@[simp] theorem Tree.relabel_size (t : Tree K V) : ∀ b, (t.relabel b).size = t.size := by
  induction t with
  | nil => intro b; rfl
  | node l a c kv r ihl ihr => intro b; simp [Tree.size, ihl, ihr]

@[simp] theorem Tree.relabel_toList (t : Tree K V) : ∀ b, (t.relabel b).toList = t.toList := by
  induction t with
  | nil => intro b; rfl
  | node l a c kv r ihl ihr => intro b; simp [ihl, ihr]

@[simp] theorem Tree.relabel_color (t : Tree K V) (b : Nat) : (t.relabel b).color = t.color := by
  cases t <;> rfl

@[simp] theorem Tree.relabel_height (t : Tree K V) : ∀ b, (t.relabel b).height = t.height := by
  induction t with
  | nil => intro b; rfl
  | node l a c kv r ihl ihr => intro b; simp [Tree.height, ihl, ihr]

theorem Tree.relabel_keys (t : Tree K V) (b : Nat) : (t.relabel b).keys = t.keys := by
  simp [Tree.keys]

theorem Tree.relabel_addrs_range (t : Tree K V) :
    ∀ b, ∀ a ∈ (t.relabel b).addrs, b ≤ a ∧ a < b + t.size := by
  induction t with
  | nil => intro b a ha; simp at ha
  | node l x c kv r ihl ihr =>
    intro b a ha
    simp only [Tree.relabel_node, Tree.addrs_node, List.mem_append, List.mem_cons] at ha
    simp only [Tree.size]
    rcases ha with ha | rfl | ha
    · have := ihl _ a ha; omega
    · omega
    · have := ihr _ a ha; omega

theorem Tree.relabel_nodup (t : Tree K V) : ∀ b, (t.relabel b).addrs.Nodup := by
  induction t with
  | nil => intro b; simp
  | node l x c kv r ihl ihr =>
    intro b
    simp only [Tree.relabel_node, Tree.addrs_node]
    refine List.nodup_append.2 ⟨ihl _, List.nodup_cons.2 ⟨?_, ihr _⟩, ?_⟩
    · intro h
      have := Tree.relabel_addrs_range r _ b h
      omega
    · intro a ha1 ha2
      have h1 := Tree.relabel_addrs_range l _ a ha1
      simp only [List.mem_cons] at ha2
      rcases ha2 with rfl | ha2
      · omega
      · have h2 := Tree.relabel_addrs_range r _ a ha2
        omega

theorem LinkShape.link_frame {m m' : Mem K V} {t : Tree K V} (h : LinkShape m t)
    (hf : ∀ a ∈ t.addrs, m'.cells a = m.cells a) : LinkShape m' t := by
  induction t with
  | nil => trivial
  | node l a c kv r ihl ihr =>
    obtain ⟨⟨par, h1⟩, h2, h3⟩ := h
    refine ⟨⟨par, ?_⟩, ihl h2 ?_, ihr h3 ?_⟩
    · rw [hf a (by simp)]; exact h1
    · intro b hb; exact hf b (by simp [hb])
    · intro b hb; exact hf b (by simp [hb])

theorem LinkShape.link_lt_next {m : Mem K V} {t : Tree K V} (h : LinkShape m t) (hv : m.Valid) :
    ∀ a ∈ t.addrs, a < m.next := by
  induction t with
  | nil => intro a ha; simp at ha
  | node l x c kv r ihl ihr =>
    obtain ⟨⟨par, h1⟩, h2, h3⟩ := h
    intro a ha
    simp only [Tree.addrs_node, List.mem_append, List.mem_cons] at ha
    rcases ha with ha | rfl | ha
    · exact ihl h2 a ha
    · by_contra hlt
      rw [hv a (by omega)] at h1
      simp at h1
    · exact ihr h3 a ha

/-- What `copy_helper` does: it copies the tree read through the child links into fresh
cells, numbered in pre-order, with parent links of its own, and leaves every cell that
was allocated before untouched. -/
theorem copy_helper_spec [LinearOrder K] :
    ∀ (t : Tree K V) (m : Mem K V) (par : Ptr), LinkShape m t → m.Valid →
      ∃ m', (∀ fuel, t.height < fuel →
          copy_helper fuel m t.ptr par = .ok (m', (t.relabel m.next).ptr)) ∧
        Shape m' par (t.relabel m.next) ∧ m'.next = m.next + t.size ∧
        (∀ a, a < m.next → m'.cells a = m.cells a) ∧ m'.Valid := by
  intro t
  induction t with
  | nil =>
    intro m par _ hv
    refine ⟨m, fun fuel hf => ?_, trivial, rfl, fun _ _ => rfl, hv⟩
    obtain ⟨fuel, rfl⟩ : ∃ f, fuel = f + 1 := ⟨fuel - 1, by omega⟩
    rfl
  | node l a c kv r ihl ihr =>
    intro m par hs hv
    have hlt := hs.link_lt_next hv
    obtain ⟨⟨par0, ha⟩, hl, hr⟩ := hs
    have han : a < m.next := hlt a (by simp)
    have hane : a ≠ m.next := by omega
    -- the fresh node with colour and parent set
    let m3 : Mem K V := ((m.alloc kv).2.put m.next ⟨kv, c, none, none, none⟩).put m.next
      ⟨kv, c, par, none, none⟩
    have hm3n : m3.next = m.next + 1 := rfl
    have hm3c : ∀ b, m3.cells b = if b = m.next then some ⟨kv, c, par, none, none⟩
        else m.cells b := by
      intro b
      by_cases hb : b = m.next <;> simp [m3, hb]
    have hv3 : m3.Valid := by
      intro b hb
      rw [hm3c, if_neg (by rw [hm3n] at hb; omega)]
      exact hv b (by rw [hm3n] at hb; omega)
    have hl3 : LinkShape m3 l := hl.link_frame (fun b hb => by
      rw [hm3c, if_neg]
      have := hlt b (by simp [hb]); omega)
    obtain ⟨m4, e4, hs4, hn4, hf4, hv4⟩ := ihl m3 (some m.next) hl3 hv3
    rw [hm3n] at hs4 hn4 e4
    have hc4 : m4.cells m.next = some ⟨kv, c, par, none, none⟩ := by
      rw [hf4 _ (by rw [hm3n]; omega), hm3c, if_pos rfl]
    let m5 : Mem K V := m4.put m.next ⟨kv, c, par, (l.relabel (m.next + 1)).ptr, none⟩
    have hm5c : ∀ b, b ≠ m.next → m5.cells b = m4.cells b := by
      intro b hb; simp [m5, hb]
    have hv5 : m5.Valid := by
      intro b hb
      have hb' : m.next + 1 + l.size ≤ b := by simpa [m5, hn4] using hb
      rw [hm5c b (by omega)]
      exact hv4 b (by rw [hn4]; exact hb')
    have hr5 : LinkShape m5 r := hr.link_frame (fun b hb => by
      have := hlt b (by simp [hb])
      rw [hm5c b (by omega), hf4 b (by rw [hm3n]; omega), hm3c, if_neg (by omega)])
    obtain ⟨m6, e6, hs6, hn6, hf6, hv6⟩ := ihr m5 (some m.next) hr5 hv5
    have hm5n : m5.next = m.next + 1 + l.size := by simp [m5, hn4]
    rw [hm5n] at hs6 hn6 e6
    have hc6 : m6.cells m.next = some ⟨kv, c, par, (l.relabel (m.next + 1)).ptr, none⟩ := by
      rw [hf6 _ (by rw [hm5n]; omega)]; simp [m5]
    have hnl : m.next ∉ (l.relabel (m.next + 1)).addrs := fun h => by
      have := Tree.relabel_addrs_range l _ _ h; omega
    have hnr : m.next ∉ (r.relabel (m.next + 1 + l.size)).addrs := fun h => by
      have := Tree.relabel_addrs_range r _ _ h; omega
    refine ⟨m6.put m.next ⟨kv, c, par, (l.relabel (m.next + 1)).ptr,
        (r.relabel (m.next + 1 + l.size)).ptr⟩, fun fuel hf => ?_, ⟨by simp, ?_, ?_⟩, ?_, ?_, ?_⟩
    · obtain ⟨fuel, rfl⟩ : ∃ f, fuel = f + 1 := ⟨fuel - 1, by omega⟩
      simp only [Tree.height] at hf
      have r1 : (m.alloc kv).2.color (some a) = .ok c := by
        simp [Mem.color, Mem.read, hane, ha, Except.map]
      have r2 : (m.alloc kv).2.setColor (some m.next) c =
          .ok ((m.alloc kv).2.put m.next ⟨kv, c, none, none, none⟩) := by
        simp [Mem.setColor, Mem.modify]
      have r3 : ((m.alloc kv).2.put m.next ⟨kv, c, none, none, none⟩).setParent
          (some m.next) par = .ok m3 := by
        simp [Mem.setParent, Mem.modify, m3]
      have r4 : m3.left (some a) = .ok l.ptr := by
        simp [Mem.left, Mem.read, hm3c, hane, ha, Except.map]
      have r5 : m4.setLeft (some m.next) (l.relabel (m.next + 1)).ptr = .ok m5 := by
        simp [Mem.setLeft, Mem.modify, hc4, m5]
      have r6 : m5.right (some a) = .ok r.ptr := by
        simp only [Mem.right, Mem.read, hm5c a hane, hf4 a (by rw [hm3n]; omega), hm3c,
          if_neg hane, ha, Except.map]
      have r7 : m6.setRight (some m.next) (r.relabel (m.next + 1 + l.size)).ptr =
          .ok (m6.put m.next ⟨kv, c, par, (l.relabel (m.next + 1)).ptr,
            (r.relabel (m.next + 1 + l.size)).ptr⟩) := by
        simp [Mem.setRight, Mem.modify, hc6]
      have rd : m.read (some a) = .ok ⟨kv, c, par0, l.ptr, r.ptr⟩ := by simp [Mem.read, ha]
      simp only [copy_helper, Tree.ptr_node, rd, ok_bind, r1, r2, r3, r4, e4 fuel (by omega),
        r5, r6, e6 fuel (by omega), r7, pure_eq_ok, Tree.relabel_node, Mem.alloc_fst]
    · refine (Shape.shape_put_iff hnl).2 (hs4.shape_frame (fun b hb => ?_))
      have := Tree.relabel_addrs_range l _ b hb
      rw [hf6 b (by rw [hm5n]; omega), hm5c b (by omega)]
    · exact (Shape.shape_put_iff hnr).2 hs6
    · simp [hn6, Tree.size]; omega
    · intro b hb
      have hb' : b ≠ m.next := by omega
      simp only [Mem.put_cells, if_neg hb']
      rw [hf6 b (by rw [hm5n]; omega), hm5c b hb', hf4 b (by rw [hm3n]; omega), hm3c,
        if_neg hb']
    · intro b hb
      have hb2 : m.next + 1 + l.size + r.size ≤ b := by simpa [hn6] using hb
      simp only [Mem.put_cells, if_neg (show b ≠ m.next by omega)]
      exact hv6 b (by rw [hn6]; exact hb2)

theorem firstPtr_of_ne_nil {l : List (Nat × (K × V))} (h : l ≠ []) (d d' : Ptr) :
    firstPtr l d = firstPtr l d' := by
  cases l with
  | nil => exact absurd rfl h
  | cons y l => rfl

theorem lastPtr_of_ne_nil {l : List (Nat × (K × V))} (h : l ≠ []) (d d' : Ptr) :
    lastPtr l d = lastPtr l d' := by
  unfold lastPtr
  cases hl : l.getLast? with
  | none => exact absurd (List.getLast?_eq_none_iff.1 hl) h
  | some y => rfl

theorem firstPtr_mem {l : List (Nat × (K × V))} {a : Nat} (h : firstPtr l none = some a) :
    a ∈ l.map (fun e => e.1) := by
  cases l with
  | nil => simp [firstPtr] at h
  | cons y l => simp [firstPtr] at h; simp [h]

theorem lastPtr_mem {l : List (Nat × (K × V))} {a : Nat} (h : lastPtr l none = some a) :
    a ∈ l.map (fun e => e.1) := by
  unfold lastPtr at h
  cases hl : l.getLast? with
  | none => rw [hl] at h; simp at h
  | some y =>
    rw [hl] at h
    simp only [Option.some.injEq] at h
    exact List.mem_map.2 ⟨y, List.mem_of_getLast?_eq_some hl, h⟩

theorem lastOpt_append_ne_nil {α : Type} (l1 : List α) {l2 : List α} (h : l2 ≠ []) :
    (l1 ++ l2).getLast? = l2.getLast? := by
  induction l1 with
  | nil => rfl
  | cons x l1 ih =>
    cases h' : l1 ++ l2 with
    | nil => simp at h'; exact absurd h'.2 h
    | cons y ys => rw [List.cons_append, h', List.getLast?_cons_cons, ← h', ih]

theorem Tree.entries_ne_nil (l r : Tree K V) (a : Nat) (c : Color) (kv : K × V) :
    (Tree.node l a c kv r).entries ≠ [] := by
  simp

/-- The loop of `find_min` ends at the first node in in-order. -/
theorem find_min_spec [LinearOrder K] {m : Mem K V} :
    ∀ (t : Tree K V), LinkShape m t → ∀ fuel, t.height < fuel →
      find_min fuel m t.ptr = .ok (firstPtr t.entries none) := by
  intro t
  induction t with
  | nil =>
    intro _ fuel hf
    obtain ⟨fuel, rfl⟩ : ∃ f, fuel = f + 1 := ⟨fuel - 1, by omega⟩
    rfl
  | node l a c kv r ihl _ =>
    intro hs fuel hf
    obtain ⟨fuel, rfl⟩ : ∃ f, fuel = f + 1 := ⟨fuel - 1, by omega⟩
    obtain ⟨⟨par, ha⟩, hl, -⟩ := hs
    simp only [Tree.height] at hf
    have hleft : m.left (some a) = .ok l.ptr := by simp [Mem.left, Mem.read, ha, Except.map]
    cases l with
    | nil => simp [find_min, hleft, firstPtr]
    | node ll b cb kvb lr =>
      have := ihl hl fuel (by omega)
      simp only [find_min, Tree.ptr_node, hleft, ok_bind, ne_eq, reduceCtorEq,
        not_false_eq_true, if_true]
      simp only [Tree.ptr_node] at this
      rw [this]
      simp only [Tree.entries_node, List.append_assoc]
      cases ll.entries <;> rfl

/-- The loop of `find_max` ends at the last node in in-order. -/
theorem find_max_spec [LinearOrder K] {m : Mem K V} :
    ∀ (t : Tree K V), LinkShape m t → ∀ fuel, t.height < fuel →
      find_max fuel m t.ptr = .ok (lastPtr t.entries none) := by
  intro t
  induction t with
  | nil =>
    intro _ fuel hf
    obtain ⟨fuel, rfl⟩ : ∃ f, fuel = f + 1 := ⟨fuel - 1, by omega⟩
    rfl
  | node l a c kv r _ ihr =>
    intro hs fuel hf
    obtain ⟨fuel, rfl⟩ : ∃ f, fuel = f + 1 := ⟨fuel - 1, by omega⟩
    obtain ⟨⟨par, ha⟩, -, hr⟩ := hs
    simp only [Tree.height] at hf
    have hright : m.right (some a) = .ok r.ptr := by simp [Mem.right, Mem.read, ha, Except.map]
    cases r with
    | nil => simp [find_max, hright, lastPtr]
    | node rl b cb kvb rr =>
      have := ihr hr fuel (by omega)
      simp only [find_max, Tree.ptr_node, hright, ok_bind, ne_eq, reduceCtorEq,
        not_false_eq_true, if_true]
      simp only [Tree.ptr_node] at this
      rw [this]
      unfold lastPtr
      have : (l.entries ++ (a, kv) :: (Tree.node rl b cb kvb rr).entries).getLast? =
          (Tree.node rl b cb kvb rr).entries.getLast? := by
        rw [show l.entries ++ (a, kv) :: (Tree.node rl b cb kvb rr).entries =
          (l.entries ++ [(a, kv)]) ++ (Tree.node rl b cb kvb rr).entries by simp]
        exact lastOpt_append_ne_nil _ (Tree.entries_ne_nil _ _ _ _ _)
      simp only [Tree.entries_node] at this ⊢
      rw [this]

theorem LinkHolds.header_lt {m : Mem K V} {hdr : Nat} {t : Tree K V} (h : LinkHolds m hdr t)
    (hv : m.Valid) : hdr < m.next := by
  obtain ⟨⟨hn, h1, -⟩, -⟩ := h
  by_contra hlt
  rw [hv hdr (by omega)] at h1
  simp at h1

theorem LinkHolds.holds_frame {m m' : Mem K V} {hdr : Nat} {t : Tree K V}
    (h : LinkHolds m hdr t) (hv : m.Valid) (hf : ∀ a, a < m.next → m'.cells a = m.cells a) :
    LinkHolds m' hdr t := by
  have hh := h.header_lt hv
  obtain ⟨⟨hn, h1, h2⟩, h3⟩ := h
  refine ⟨⟨hn, by rw [hf _ hh]; exact h1, h2⟩, h3.link_frame (fun a ha => hf a ?_)⟩
  exact h3.link_lt_next hv a ha

theorem Tree.relabel_entries_ne_nil {t : Tree K V} (b : Nat) (h : t ≠ .nil) :
    (t.relabel b).entries ≠ [] := by
  cases t with
  | nil => exact absurd rfl h
  | node l a c kv r => simp

/-- What the copy constructor does to a tree whose `size_` is 0 exactly when it has no
node: the new header is the next fresh cell, the copy holds the source tree renumbered in pre-order
after it, the caches are the first and last node of the copy (null fields and the
header itself for an empty tree), and no cell allocated before is touched. -/
theorem copy_spec [LinearOrder K] [Inhabited K] [Inhabited V] {m : Mem K V}
    {t : RedBlackTree} {tr : Tree K V} (htr : LinkHolds m t.header_ tr) (hv : m.Valid)
    (hsz : t.size_ = 0 ↔ tr = .nil) :
    ∃ m', (∀ fuel, tr.height < fuel → RedBlackTree.copy fuel m t =
        .ok (m', ⟨m.next, t.size_, firstPtr (tr.relabel (m.next + 1)).entries none,
          lastPtr (tr.relabel (m.next + 1)).entries none⟩)) ∧
      Holds m' m.next (tr.relabel (m.next + 1)) ∧ m'.next = m.next + 1 + tr.size ∧
      (∀ a, a < m.next → m'.cells a = m.cells a) ∧ m'.Valid ∧
      m'.left (some m.next) = .ok (firstPtr (tr.relabel (m.next + 1)).entries (some m.next)) ∧
      m'.right (some m.next) = .ok (lastPtr (tr.relabel (m.next + 1)).entries (some m.next)) := by
  have hh := htr.header_lt hv
  have hhne : t.header_ ≠ m.next := by omega
  -- the state after `RedBlackTree()`
  let m1 : Mem K V := (RedBlackTree.create m).1
  have hm1n : m1.next = m.next + 1 := rfl
  have hm1c : ∀ b, m1.cells b = if b = m.next then
      some ⟨default, .BLACK, none, some m.next, some m.next⟩ else m.cells b := by
    intro b
    by_cases hb : b = m.next <;> simp [m1, RedBlackTree.create, hb]
  have hv1 : m1.Valid := by
    intro b hb
    rw [hm1c, if_neg (by rw [hm1n] at hb; omega)]
    exact hv b (by rw [hm1n] at hb; omega)
  have hf1 : ∀ a, a < m.next → m1.cells a = m.cells a := by
    intro a ha; rw [hm1c, if_neg (by omega)]
  have htr1 : LinkHolds m1 t.header_ tr := htr.holds_frame hv hf1
  have hroot1 := htr1.link_read_root
  have hcreate : RedBlackTree.create m = (m1, ⟨m.next, 0, none, none⟩) := rfl
  cases htree : tr with
  | nil =>
    subst htree
    have hz : t.size_ = 0 := hsz.2 rfl
    refine ⟨m1.put m.next ⟨default, .BLACK, none, some m.next, some m.next⟩,
      fun fuel _ => ?_, ⟨⟨⟨default, .BLACK, none, some m.next, some m.next⟩, by simp, rfl⟩,
        trivial, by simp⟩, by simp [hm1n, Tree.size],
      fun a ha => ?_, ?_, ?_, ?_⟩
    · simp [RedBlackTree.copy, hcreate, hz, Mem.setParent, Mem.modify, hm1c, firstPtr, lastPtr]
    · simp [show a ≠ m.next by omega, hf1 a ha]
    · intro b hb
      have : m.next + 1 ≤ b := by simpa [hm1n] using hb
      simp only [Mem.put_cells, if_neg (show b ≠ m.next by omega)]
      exact hv1 b (by rw [hm1n]; exact this)
    · simp [Mem.left, Mem.read, Except.map, firstPtr]
    · simp [Mem.right, Mem.read, Except.map, lastPtr]
  | node l a c kv r =>
    rw [htree] at htr1 hroot1 hsz
    have hpos : 0 < t.size_ := Nat.pos_of_ne_zero (fun h => Tree.noConfusion (hsz.1 h))
    obtain ⟨m2, e2, hs2, hn2, hf2, hv2⟩ := copy_helper_spec (Tree.node l a c kv r) m1
      (some m.next) htr1.2 hv1
    rw [hm1n] at e2 hs2 hn2
    generalize htr' : (Tree.node l a c kv r).relabel (m.next + 1) = tr' at e2 hs2 ⊢
    have hne' : tr'.entries ≠ [] := by
      rw [← htr']; exact Tree.relabel_entries_ne_nil _ (by simp)
    have hrange : ∀ b ∈ tr'.addrs, m.next + 1 ≤ b ∧ b < m.next + 1 + (Tree.node l a c kv r).size := by
      rw [← htr']; exact Tree.relabel_addrs_range _ _
    have hnot : m.next ∉ tr'.addrs := fun h => by have := hrange _ h; omega
    have hheight : tr'.height = (Tree.node l a c kv r).height := by
      rw [← htr']; exact Tree.relabel_height _ _
    have hc2 : m2.cells m.next = some ⟨default, .BLACK, none, some m.next, some m.next⟩ := by
      rw [hf2 _ (by rw [hm1n]; omega), hm1c, if_pos rfl]
    let m3 : Mem K V := m2.put m.next ⟨default, .BLACK, tr'.ptr, some m.next, some m.next⟩
    have hs3 : Shape m3 (some m.next) tr' := (Shape.shape_put_iff hnot).2 hs2
    let m4 : Mem K V := m3.put m.next ⟨default, .BLACK, tr'.ptr, firstPtr tr'.entries none,
      some m.next⟩
    let m5 : Mem K V := m4.put m.next ⟨default, .BLACK, tr'.ptr, firstPtr tr'.entries none,
      lastPtr tr'.entries none⟩
    have hs5 : Shape m5 (some m.next) tr' :=
      (Shape.shape_put_iff hnot).2 ((Shape.shape_put_iff hnot).2 hs3)
    refine ⟨m5, fun fuel hf => ?_, ⟨⟨⟨default, .BLACK, tr'.ptr, firstPtr tr'.entries none,
      lastPtr tr'.entries none⟩, by simp [m5], rfl⟩, hs5, ?_⟩, ?_, fun b hb => ?_, ?_, ?_, ?_⟩
    · have r1 : m2.setParent (some m.next) tr'.ptr = .ok m3 := by
        simp [Mem.setParent, Mem.modify, hc2, m3]
      have r2 := find_min_spec tr' hs3.toLinkShape fuel (by rw [hheight]; exact hf)
      have r3 := find_max_spec tr' hs3.toLinkShape fuel (by rw [hheight]; exact hf)
      have r4 : m3.setLeft (some m.next) (firstPtr tr'.entries none) = .ok m4 := by
        simp [Mem.setLeft, Mem.modify, m3, m4]
      have r5 : m4.setRight (some m.next) (lastPtr tr'.entries none) = .ok m5 := by
        simp [Mem.setRight, Mem.modify, m4, m5]
      simp only [RedBlackTree.copy, hcreate, hpos, if_true, hroot1, ok_bind, e2 fuel hf, r1,
        gt_iff_lt, r2, r3, r4, r5, pure_eq_ok]
    · simp only [Path.addrs_top, List.nil_append, List.nodup_cons]
      exact ⟨hnot, by rw [← htr']; exact Tree.relabel_nodup _ _⟩
    · simp [m5, m4, m3, hn2, Tree.size]
    · have hb' : b ≠ m.next := by omega
      simp only [m5, m4, m3, Mem.put_cells, if_neg hb']
      rw [hf2 b (by rw [hm1n]; omega), hf1 b hb]
    · intro b hb
      have hb2 : m.next + 1 + (Tree.node l a c kv r).size ≤ b := by
        simpa [m5, m4, m3, hn2] using hb
      simp only [m5, m4, m3, Mem.put_cells, if_neg (show b ≠ m.next by omega)]
      exact hv2 b (by rw [hn2]; exact hb2)
    · simp only [Mem.left, Mem.read, m5, Mem.put_cells, if_true, Except.map]
      rw [firstPtr_of_ne_nil hne' none (some m.next)]
    · simp only [Mem.right, Mem.read, m5, Mem.put_cells, if_true, Except.map]
      rw [lastPtr_of_ne_nil hne' none (some m.next)]

/-- On a search-ordered tree `find` returns an iterator at the node holding the key, and
`end()` when the key is not stored. -/
theorem find_spec [LinearOrder K] {m : Mem K V} {t : RedBlackTree} {tr : Tree K V}
    (htr : LinkHolds m t.header_ tr) (hs : tr.keys.Sorted (· ≤ ·)) (k : K) :
    (k ∈ tr.keys → ∃ x, x ∈ tr.entries ∧ x.2.1 = k ∧
      Returns (fun fuel => find fuel m t k) ⟨some x.1, some t.header_⟩) ∧
    (k ∉ tr.keys → Returns (fun fuel => find fuel m t k) t.end) := by
  have hroot := htr.link_read_root
  constructor
  · intro hk
    obtain ⟨x, hx, hxk, hres⟩ := find_node_found k m tr htr.2 hs hk
    refine ⟨x, hx, hxk, Returns.of_forall tr.height (fun fuel hf => ?_)⟩
    simp [find, hroot, hres fuel hf]
  · intro hk
    refine Returns.of_forall tr.height (fun fuel hf => ?_)
    simp [find, hroot, find_node_absent k m tr htr.2 hk fuel hf]

theorem copy_insert_frame [LinearOrder K] {m m' m'' : Mem K V} {t : RedBlackTree}
    {tr tr' : Tree K V} {hdr' : Nat} (htr : LinkHolds m t.header_ tr) (hv : m.Valid)
    (hf : ∀ a, a < m.next → m'.cells a = m.cells a) (hn : m.next < m'.next)
    (hh : m.next ≤ hdr') (hr : ∀ a ∈ tr'.addrs, m.next ≤ a)
    (ha : AgreeOff m'' m' (m'.next :: hdr' :: tr'.addrs)) : LinkHolds m'' t.header_ tr := by
  refine htr.holds_frame hv (fun a ha' => ?_)
  rw [ha a ?_, hf a ha']
  simp only [List.mem_cons, not_or]
  exact ⟨by omega, by omega, fun h => by have := hr a h; omega⟩

theorem Mem.setParent_of_cell {m : Mem K V} {a : Nat} {nd : Node K V} (h : m.cells a = some nd)
    (v : Ptr) : m.setParent (some a) v = .ok (m.put a { nd with parent := v }) := by
  simp [Mem.setParent, Mem.modify, h]

theorem Mem.parent_of_cell {m : Mem K V} {a : Nat} {nd : Node K V} (h : m.cells a = some nd) :
    m.parent (some a) = .ok nd.parent := by
  simp [Mem.parent, Mem.read, h, Except.map]

theorem Mem.left_of_cell {m : Mem K V} {a : Nat} {nd : Node K V} (h : m.cells a = some nd) :
    m.left (some a) = .ok nd.left := by
  simp [Mem.left, Mem.read, h, Except.map]

theorem Mem.right_of_cell {m : Mem K V} {a : Nat} {nd : Node K V} (h : m.cells a = some nd) :
    m.right (some a) = .ok nd.right := by
  simp [Mem.right, Mem.read, h, Except.map]

/-- Writing a parent link keeps every tree that is read through the child links. -/
theorem LinkShape.link_put_parent {m : Mem K V} {t : Tree K V} (h : LinkShape m t) {a : Nat}
    {nd : Node K V} (hc : m.cells a = some nd) (v : Ptr) :
    LinkShape (m.put a { nd with parent := v }) t := by
  induction t with
  | nil => trivial
  | node l b c kv r ihl ihr =>
    obtain ⟨⟨par, h1⟩, h2, h3⟩ := h
    refine ⟨?_, ihl h2, ihr h3⟩
    by_cases hb : b = a
    · subst hb
      rw [h1] at hc
      obtain rfl := Option.some.inj hc
      exact ⟨v, by simp⟩
    · exact ⟨par, by simp [hb, h1]⟩

/-- The effect of the statement `if (header_->parent) header_->parent->parent = header_`
on a tree read through the child links. -/
theorem reparent_root_spec {m : Mem K V} {hdr : Nat} {tr : Tree K V} (h : LinkHolds m hdr tr) :
    ∃ m', (if tr.ptr ≠ none then m.setParent tr.ptr (some hdr) else pure m) = .ok m' ∧
      LinkHolds m' hdr tr ∧ m'.next = m.next ∧
      (∀ r, tr.ptr = some r → ∃ nd, m'.cells r = some nd ∧ nd.parent = some hdr) ∧
      (∀ a, some a ≠ tr.ptr → m'.cells a = m.cells a) ∧
      (∀ a nd, m.cells a = some nd → ∃ nd', m'.cells a = some nd' ∧ nd'.data = nd.data ∧
        nd'.color = nd.color ∧ nd'.left = nd.left ∧ nd'.right = nd.right) := by
  obtain ⟨⟨hn, h1, h2⟩, h3⟩ := h
  cases tr with
  | nil =>
    refine ⟨m, by simp, ⟨⟨hn, h1, h2⟩, h3⟩, rfl, fun r hr => by simp at hr,
      fun a _ => rfl, fun a nd hnd => ⟨nd, hnd, rfl, rfl, rfl, rfl⟩⟩
  | node l a c kv r =>
    obtain ⟨⟨par, hc⟩, hl, hr⟩ := h3
    refine ⟨m.put a { (⟨kv, c, par, l.ptr, r.ptr⟩ : Node K V) with parent := some hdr },
      by simp [Mem.setParent_of_cell hc], ⟨?_, ?_⟩, rfl, ?_, ?_, ?_⟩
    · by_cases hah : hdr = a
      · subst hah
        rw [hc] at h1
        obtain rfl := Option.some.inj h1
        simp at h2
        exact ⟨⟨kv, c, some hdr, l.ptr, r.ptr⟩, by simp, rfl⟩
      · exact ⟨hn, by simp [hah, h1], h2⟩
    · exact LinkShape.link_put_parent (t := .node l a c kv r) ⟨⟨par, hc⟩, hl, hr⟩ hc _
    · intro x hx
      simp only [Tree.ptr_node, Option.some.injEq] at hx
      subst hx
      exact ⟨⟨kv, c, some hdr, l.ptr, r.ptr⟩, by simp, rfl⟩
    · intro x hx
      have : x ≠ a := fun e => hx (by simp [e])
      simp [this]
    · intro x nd hnd
      by_cases hxa : x = a
      · subst hxa
        rw [hc] at hnd
        obtain rfl := Option.some.inj hnd
        exact ⟨⟨kv, c, some hdr, l.ptr, r.ptr⟩, by simp, rfl, rfl, rfl, rfl⟩
      · exact ⟨nd, by simp [hxa, hnd], rfl, rfl, rfl, rfl⟩

/-- What the move constructor does to a tree read through the child links. -/
theorem move_spec [LinearOrder K] [Inhabited K] [Inhabited V] {m : Mem K V} {t : RedBlackTree}
    {tr : Tree K V} (h : LinkHolds m t.header_ tr) (hv : m.Valid) :
    ∃ m', RedBlackTree.move m t =
        .ok (m', ⟨t.header_, t.size_, t.min_node_, t.max_node_⟩,
          ⟨m.next, 0, some m.next, some m.next⟩) ∧
      LinkHolds m' t.header_ tr ∧ m'.Valid ∧ m'.next = m.next + 1 ∧
      (∀ r, tr.ptr = some r → ∃ nd, m'.cells r = some nd ∧ nd.parent = some t.header_) ∧
      m'.cells m.next = some ⟨default, .BLACK, none, some m.next, some m.next⟩ ∧
      (∀ a nd, m.cells a = some nd → ∃ nd', m'.cells a = some nd' ∧ nd'.data = nd.data ∧
        nd'.color = nd.color ∧ nd'.left = nd.left ∧ nd'.right = nd.right) := by
  have hlt := h.header_lt hv
  have hnodes := h.2.link_lt_next hv
  have e1 : (m.alloc (default : K × V)).2.setColor (some m.next) .BLACK =
      .ok ((m.alloc (default : K × V)).2.put m.next ⟨default, .BLACK, none, none, none⟩) := by
    simp [Mem.setColor, Mem.modify]
  have e2 : ((m.alloc (default : K × V)).2.put m.next
      ⟨default, .BLACK, none, none, none⟩).setParent (some m.next) none =
      .ok (((m.alloc (default : K × V)).2.put m.next ⟨default, .BLACK, none, none, none⟩).put
        m.next ⟨default, .BLACK, none, none, none⟩) := by
    simp [Mem.setParent, Mem.modify]
  have e3 : (((m.alloc (default : K × V)).2.put m.next ⟨default, .BLACK, none, none, none⟩).put
        m.next ⟨default, .BLACK, none, none, none⟩).setLeft (some m.next) (some m.next) =
      .ok ((((m.alloc (default : K × V)).2.put m.next ⟨default, .BLACK, none, none, none⟩).put
        m.next ⟨default, .BLACK, none, none, none⟩).put m.next
          ⟨default, .BLACK, none, some m.next, none⟩) := by
    simp [Mem.setLeft, Mem.modify]
  have e4 : ((((m.alloc (default : K × V)).2.put m.next ⟨default, .BLACK, none, none, none⟩).put
        m.next ⟨default, .BLACK, none, none, none⟩).put m.next
          ⟨default, .BLACK, none, some m.next, none⟩).setRight (some m.next) (some m.next) =
      .ok (((((m.alloc (default : K × V)).2.put m.next ⟨default, .BLACK, none, none, none⟩).put
        m.next ⟨default, .BLACK, none, none, none⟩).put m.next
          ⟨default, .BLACK, none, some m.next, none⟩).put m.next
            ⟨default, .BLACK, none, some m.next, some m.next⟩) := by
    simp [Mem.setRight, Mem.modify]
  generalize hM : ((((m.alloc (default : K × V)).2.put m.next
      ⟨default, .BLACK, none, none, none⟩).put m.next ⟨default, .BLACK, none, none, none⟩).put
        m.next ⟨default, .BLACK, none, some m.next, none⟩).put m.next
          ⟨default, .BLACK, none, some m.next, some m.next⟩ = M at e4
  have hMn : M.next = m.next + 1 := by rw [← hM]; rfl
  have hMc : ∀ a, a ≠ m.next → M.cells a = m.cells a := by
    intro a ha
    rw [← hM]
    simp [ha]
  have hMh : M.cells m.next = some ⟨default, .BLACK, none, some m.next, some m.next⟩ := by
    rw [← hM]
    simp
  have h1 : LinkHolds M t.header_ tr := h.holds_frame hv (fun a ha => hMc a (by omega))
  obtain ⟨m', e, hl, hn, hroot, hoff, hkeep⟩ := reparent_root_spec h1
  have hnew : m'.cells m.next = some ⟨default, .BLACK, none, some m.next, some m.next⟩ := by
    rw [hoff m.next]
    · exact hMh
    · intro hp
      have := hnodes m.next (Tree.ptr_mem hp.symm)
      omega
  refine ⟨m', ?_, hl, ?_, by rw [hn, hMn], hroot, hnew, ?_⟩
  · simp only [RedBlackTree.move, Mem.alloc_fst, e1, e2, e3, e4, ok_bind, h1.link_read_root]
    split
    · rename_i hp
      rw [if_pos hp] at e
      rw [e]
      rfl
    · rename_i hp
      rw [if_neg hp] at e
      simp only [pure_eq_ok, Except.ok.injEq] at e
      rw [e]
      rfl
  · intro a ha
    rw [hn, hMn] at ha
    by_cases hp : some a = tr.ptr
    · have := hnodes a (Tree.ptr_mem hp.symm)
      omega
    · rw [hoff a hp, hMc a (by omega)]
      exact hv a (by omega)
  · intro a nd hnd
    have : a ≠ m.next := by
      intro e
      rw [e, hv m.next le_rfl] at hnd
      simp at hnd
    exact hkeep a nd (by rw [hMc a this]; exact hnd)

theorem Mem.put_same {m : Mem K V} {a : Nat} {nd : Node K V} (h : m.cells a = some nd) :
    m.put a nd = m := by
  cases m with
  | mk cells next =>
    simp only [Mem.put, Mem.mk.injEq, and_true]
    funext b
    by_cases hb : b = a
    · subst hb; simp [← h]
    · simp [hb]

theorem Mem.setParent_same {m : Mem K V} {a : Nat} {nd : Node K V} (h : m.cells a = some nd)
    {v : Ptr} (hp : nd.parent = v) : m.setParent (some a) v = .ok m := by
  rw [Mem.setParent_of_cell h, ← hp]
  exact congrArg _ (Mem.put_same h)

/-- A memory that keeps data, colour and child links of every allocated cell holds the
same trees when read through the child links. -/
theorem LinkShape.link_keep {m m' : Mem K V} {t : Tree K V} (h : LinkShape m t)
    (hk : ∀ a nd, m.cells a = some nd → ∃ nd', m'.cells a = some nd' ∧ nd'.data = nd.data ∧
      nd'.color = nd.color ∧ nd'.left = nd.left ∧ nd'.right = nd.right) : LinkShape m' t := by
  induction t with
  | nil => trivial
  | node l b c kv r ihl ihr =>
    obtain ⟨⟨par, h1⟩, h2, h3⟩ := h
    obtain ⟨nd', e, hd, hc, hl, hr⟩ := hk b _ h1
    refine ⟨⟨nd'.parent, ?_⟩, ihl h2, ihr h3⟩
    rw [e]
    cases nd'
    simp only at hd hc hl hr
    simp [hd, hc, hl, hr]

/-- Re-parenting a root that already points at its header changes nothing. -/
theorem reparent_root_same {m : Mem K V} {hdr : Nat} {tr : Tree K V}
    (hroot : ∀ r, tr.ptr = some r → ∃ nd, m.cells r = some nd ∧ nd.parent = some hdr) :
    (if tr.ptr ≠ none then m.setParent tr.ptr (some hdr) else pure m) = .ok m := by
  cases hp : tr.ptr with
  | none => simp
  | some r =>
    obtain ⟨nd, hc, hpar⟩ := hroot r hp
    simp [Mem.setParent_same hc hpar]

theorem ite_bind_of_eq_ok {α β : Type} {c : Prop} [Decidable c] {x : Except Fault α} {a r : α}
    (e : (if c then x else pure a) = .ok r) (k : α → Except Fault β) :
    (if c then x >>= k else k a) = k r := by
  by_cases hc : c
  · rw [if_pos hc] at e ⊢
    rw [e]; rfl
  · rw [if_neg hc] at e ⊢
    simp only [pure_eq_ok, Except.ok.injEq] at e
    rw [e]

/-- What `swap` does to two trees read through the child links.  Two different tree
objects are assumed to share neither a header nor a root. -/
theorem swap_spec [LinearOrder K] {m : Mem K V} {a b : RedBlackTree} {tra trb : Tree K V}
    (ha : LinkHolds m a.header_ tra) (hb : LinkHolds m b.header_ trb)
    (hsep : a.header_ ≠ b.header_ → a.header_ ∉ trb.addrs ∧ b.header_ ∉ tra.addrs ∧
      (tra.ptr = trb.ptr → tra.ptr = none)) :
    ∃ m', swap m a b = .ok (m', ⟨b.header_, b.size_, b.min_node_, b.max_node_⟩,
          ⟨a.header_, a.size_, a.min_node_, a.max_node_⟩) ∧
      LinkHolds m' b.header_ trb ∧ LinkHolds m' a.header_ tra ∧
      (∀ r, trb.ptr = some r → ∃ nd, m'.cells r = some nd ∧ nd.parent = some b.header_) ∧
      (∀ r, tra.ptr = some r → ∃ nd, m'.cells r = some nd ∧ nd.parent = some a.header_) ∧
      (∀ x nd, m.cells x = some nd → ∃ nd', m'.cells x = some nd' ∧ nd'.data = nd.data ∧
        nd'.color = nd.color ∧ nd'.left = nd.left ∧ nd'.right = nd.right) ∧
      m'.next = m.next ∧
      swap m' ⟨b.header_, b.size_, b.min_node_, b.max_node_⟩
        ⟨a.header_, a.size_, a.min_node_, a.max_node_⟩ = .ok (m', a, b) := by
  obtain ⟨m1, e1, hb1, hn1, hrb1, hoff1, hk1⟩ := reparent_root_spec hb
  have ha1 : LinkHolds m1 a.header_ tra := by
    by_cases hab : a.header_ = b.header_
    · obtain rfl := LinkHolds.linkHolds_unique ha (hab ▸ hb)
      rw [hab]; exact hb1
    · obtain ⟨h1, -, -⟩ := hsep hab
      obtain ⟨⟨hn, c1, c2⟩, c3⟩ := ha
      refine ⟨⟨hn, ?_, c2⟩, c3.link_keep hk1⟩
      rw [hoff1 a.header_ (fun e => h1 (Tree.ptr_mem e.symm))]
      exact c1
  obtain ⟨m2, e2, ha2, hn2, hra2, hoff2, hk2⟩ := reparent_root_spec ha1
  have hb2 : LinkHolds m2 b.header_ trb := by
    by_cases hab : a.header_ = b.header_
    · rw [← hab]
      obtain rfl := LinkHolds.linkHolds_unique ha (hab ▸ hb)
      exact ha2
    · obtain ⟨-, h2, -⟩ := hsep hab
      obtain ⟨⟨hn, c1, c2⟩, c3⟩ := hb1
      refine ⟨⟨hn, ?_, c2⟩, c3.link_keep hk2⟩
      rw [hoff2 b.header_ (fun e => h2 (Tree.ptr_mem e.symm))]
      exact c1
  have hrb2 : ∀ r, trb.ptr = some r → ∃ nd, m2.cells r = some nd ∧ nd.parent = some b.header_ := by
    intro r hr
    by_cases hab : a.header_ = b.header_
    · obtain rfl := LinkHolds.linkHolds_unique ha (hab ▸ hb)
      rw [← hab]
      exact hra2 r hr
    · obtain ⟨-, -, h3⟩ := hsep hab
      obtain ⟨nd, c1, c2⟩ := hrb1 r hr
      refine ⟨nd, ?_, c2⟩
      rw [hoff2 r ?_]
      · exact c1
      · intro e
        have := h3 (by rw [← e, hr])
        rw [this] at e
        simp at e
  refine ⟨m2, ?_, hb2, ha2, hrb2, hra2, ?_, by rw [hn2, hn1], ?_⟩
  · simp only [swap, hb.link_read_root, ok_bind, pure_eq_ok]
    rw [ite_bind_of_eq_ok e1]
    simp only [ha1.link_read_root, ok_bind]
    rw [ite_bind_of_eq_ok e2]
  · intro x nd hx
    obtain ⟨nd1, c1, d1, d2, d3, d4⟩ := hk1 x nd hx
    obtain ⟨nd2, c2, f1, f2, f3, f4⟩ := hk2 x nd1 c1
    exact ⟨nd2, c2, by rw [f1, d1], by rw [f2, d2], by rw [f3, d3], by rw [f4, d4]⟩
  · simp only [swap, ha2.link_read_root, ok_bind, pure_eq_ok]
    rw [ite_bind_of_eq_ok (reparent_root_same hra2)]
    simp only [hb2.link_read_root, ok_bind]
    rw [ite_bind_of_eq_ok (reparent_root_same hrb2)]

@[simp] theorem Tree.assign_nil (a : Nat) (v : V) : (Tree.nil : Tree K V).assign a v = .nil := rfl
@[simp] theorem Tree.assign_node (a : Nat) (v : V) (l r : Tree K V) (b c kv) :
    (Tree.node l b c kv r).assign a v =
      .node (l.assign a v) b c (if b = a then (kv.1, v) else kv) (r.assign a v) := rfl

@[simp] theorem Tree.assign_ptr (a : Nat) (v : V) (t : Tree K V) : (t.assign a v).ptr = t.ptr := by
  cases t <;> rfl

@[simp] theorem Tree.assign_color (a : Nat) (v : V) (t : Tree K V) :
    (t.assign a v).color = t.color := by
  cases t <;> rfl

@[simp] theorem Tree.assign_addrs (a : Nat) (v : V) (t : Tree K V) :
    (t.assign a v).addrs = t.addrs := by
  induction t with
  | nil => rfl
  | node l b c kv r ihl ihr => simp [ihl, ihr]

@[simp] theorem Tree.assign_height (a : Nat) (v : V) (t : Tree K V) :
    (t.assign a v).height = t.height := by
  induction t with
  | nil => rfl
  | node l b c kv r ihl ihr => simp [Tree.height, ihl, ihr]

theorem Tree.assign_entries (a : Nat) (v : V) (t : Tree K V) :
    (t.assign a v).entries = t.entries.map (fun e => if e.1 = a then (e.1, (e.2.1, v)) else e) := by
  induction t with
  | nil => rfl
  | node l b c kv r ihl ihr =>
    simp only [Tree.assign_node, Tree.entries_node, ihl, ihr, List.map_append, List.map_cons]
    by_cases hb : b = a <;> simp [hb]

theorem Tree.assign_keys (a : Nat) (v : V) (t : Tree K V) : (t.assign a v).keys = t.keys := by
  rw [Tree.keys_eq_entries, Tree.keys_eq_entries, Tree.assign_entries, List.map_map]
  refine List.map_congr_left (fun e _ => ?_)
  by_cases h : e.1 = a <;> simp [h]

theorem Mem.payload_of_cell {m : Mem K V} {a : Nat} {nd : Node K V} (h : m.cells a = some nd) :
    m.payload (some a) = .ok nd.data.2 := by
  simp [Mem.payload, Mem.read, h, Except.map]

theorem Mem.setPayload_of_cell {m : Mem K V} {a : Nat} {nd : Node K V} (h : m.cells a = some nd)
    (v : V) : m.setPayload (some a) v = .ok (m.put a { nd with data := (nd.data.1, v) }) := by
  simp [Mem.setPayload, Mem.modify, h]

/-- Overwriting the payload of one cell turns the tree held below a pointer into the tree
with that payload replaced. -/
theorem Shape.shape_assign {m : Mem K V} {par : Ptr} {t : Tree K V} (h : Shape m par t)
    {a : Nat} {nd : Node K V} (hc : m.cells a = some nd) (v : V) :
    Shape (m.put a { nd with data := (nd.data.1, v) }) par (t.assign a v) := by
  induction t generalizing par with
  | nil => trivial
  | node l b c kv r ihl ihr =>
    obtain ⟨h1, h2, h3⟩ := h
    refine ⟨?_, ihl h2, ihr h3⟩
    by_cases hb : b = a
    · subst hb
      rw [h1] at hc
      obtain rfl := Option.some.inj hc
      simp
    · simp [hb, h1]

theorem LinkShape.link_assign {m : Mem K V} {t : Tree K V} (h : LinkShape m t)
    {a : Nat} {nd : Node K V} (hc : m.cells a = some nd) (v : V) :
    LinkShape (m.put a { nd with data := (nd.data.1, v) }) (t.assign a v) := by
  induction t with
  | nil => trivial
  | node l b c kv r ihl ihr =>
    obtain ⟨⟨par, h1⟩, h2, h3⟩ := h
    refine ⟨?_, ihl h2, ihr h3⟩
    by_cases hb : b = a
    · subst hb
      rw [h1] at hc
      obtain rfl := Option.some.inj hc
      exact ⟨par, by simp⟩
    · exact ⟨par, by simp [hb, h1]⟩

/-- The assignment `node->data.second = v` on a node of a well-formed tree. -/
theorem assign_wellFormed {m : Mem K V} {t : RedBlackTree} {tr : Tree K V}
    (hw : WellFormed m t tr) {a : Nat} (ha : a ∈ tr.addrs) (v : V) :
    ∃ nd, m.cells a = some nd ∧ m.setPayload (some a) v =
        .ok (m.put a { nd with data := (nd.data.1, v) }) ∧
      WellFormed (m.put a { nd with data := (nd.data.1, v) }) t (tr.assign a v) := by
  obtain ⟨hr, hv, hco⟩ := hw
  obtain ⟨nd, hc⟩ := hr.holds_allocated (Or.inr ha)
  refine ⟨nd, hc, Mem.setPayload_of_cell hc v, ⟨?_, ?_, ?_⟩, ?_, ?_⟩
  · obtain ⟨⟨hn, h1, h2⟩, -, hnd⟩ := hr
    have hne : t.header_ ≠ a := by
      intro e
      simp only [Path.addrs_top, List.nil_append, List.nodup_cons] at hnd
      exact hnd.1 (e ▸ ha)
    exact ⟨hn, by simp [hne, h1], by simpa using h2⟩
  · exact hr.2.1.shape_assign hc v
  · simpa using hr.2.2
  · intro b hb
    have : b ≠ a := by
      intro e
      subst e
      rw [hv b hb] at hc
      simp at hc
    simp only [Mem.put_cells, this, if_false]
    exact hv b hb
  · exact ⟨fun x hx => by simpa using hco.1 x hx, fun x hx => by simpa using hco.2 x hx⟩

/-- In a strictly increasing key sequence a key has one payload. -/
theorem payload_unique [LinearOrder K] {l : List (K × V)} (hs : (l.map (·.1)).Sorted (· < ·))
    {x y : K × V} (hx : x ∈ l) (hy : y ∈ l) (hk : x.1 = y.1) : x = y :=
  List.inj_on_of_nodup_map hs.nodup hx hy hk

theorem entry_unique [LinearOrder K] {tr : Tree K V} (hs : tr.keys.Sorted (· < ·))
    {x y : Nat × (K × V)} (hx : x ∈ tr.entries) (hy : y ∈ tr.entries) (hk : x.2.1 = y.2.1) :
    x = y := by
  rw [Tree.keys_eq_entries] at hs
  exact List.inj_on_of_nodup_map hs.nodup hx hy hk

/-- What `map::at` returns on a search-ordered tree whose header is not one of its nodes. -/
theorem map_at_spec [LinearOrder K] {m : Mem K V} {t : RedBlackTree} {tr : Tree K V}
    (htr : LinkHolds m t.header_ tr) (hs : tr.keys.Sorted (· ≤ ·)) (hh : t.header_ ∉ tr.addrs)
    (k : K) :
    (k ∈ tr.keys → ∃ x, x ∈ tr.entries ∧ x.2.1 = k ∧
      Returns (fun fuel => map_at fuel m t k) (.ok x.2.2)) ∧
    (k ∉ tr.keys → Returns (fun fuel => map_at fuel m t k) (.error .out_of_range)) := by
  obtain ⟨h1, h2⟩ := find_spec htr hs k
  constructor
  · intro hk
    obtain ⟨x, hx, hxk, N, hN⟩ := h1 hk
    obtain ⟨nd, hc, hd⟩ := htr.2.link_cell_of_entry hx
    refine ⟨x, hx, hxk, N, fun fuel hf => ?_⟩
    have hne : x.1 ≠ t.header_ := fun e => hh (e ▸ Tree.addr_mem_of_entry hx)
    simp [map_at, hN fuel hf, MapIterator.eq, RedBlackTree.end, hne, Mem.payload_of_cell hc, hd]
  · intro hk
    obtain ⟨N, hN⟩ := h2 hk
    refine ⟨N, fun fuel hf => ?_⟩
    simp [map_at, hN fuel hf, MapIterator.eq, RedBlackTree.end]

theorem Holds.header_not_mem {m : Mem K V} {hdr : Nat} {tr : Tree K V} (h : Holds m hdr tr) :
    hdr ∉ tr.addrs := by
  have := h.2.2
  simp only [Path.addrs_top, List.nil_append, List.nodup_cons] at this
  exact this.1

theorem Holds.addrs_nodup {m : Mem K V} {hdr : Nat} {tr : Tree K V} (h : Holds m hdr tr) :
    tr.addrs.Nodup := by
  have := h.2.2
  simp only [Path.addrs_top, List.nil_append, List.nodup_cons] at this
  exact this.2

theorem entry_addr_unique {tr : Tree K V} (hn : tr.addrs.Nodup)
    {x y : Nat × (K × V)} (hx : x ∈ tr.entries) (hy : y ∈ tr.entries) (hk : x.1 = y.1) :
    x = y := by
  rw [Tree.addrs_eq_entries] at hn
  exact List.inj_on_of_nodup_map hn hx hy hk

/-- Assigning a payload through a node of a well-formed map: the entry of that key, and
no other, changes, and `at` returns the assigned value. -/
theorem assign_at_spec [LinearOrder K] {m : Mem K V} {t : RedBlackTree} {tr : Tree K V}
    (hw : WellFormed m t tr) (hs : tr.keys.Sorted (· < ·)) {x : Nat × (K × V)}
    (hx : x ∈ tr.entries) (w : V) :
    ∃ m', m.setPayload (some x.1) w = .ok m' ∧ WellFormed m' t (tr.assign x.1 w) ∧
      (tr.assign x.1 w).entries =
        tr.entries.map (fun e => if e.2.1 = x.2.1 then (e.1, (x.2.1, w)) else e) ∧
      Returns (fun fuel => map_at fuel m' t x.2.1) (.ok w) := by
  obtain ⟨nd, hc, e, hw'⟩ := assign_wellFormed hw (Tree.addr_mem_of_entry hx) w
  have hent : (tr.assign x.1 w).entries =
      tr.entries.map (fun e => if e.2.1 = x.2.1 then (e.1, (x.2.1, w)) else e) := by
    rw [Tree.assign_entries]
    refine List.map_congr_left (fun y hy => ?_)
    by_cases hk : y.2.1 = x.2.1
    · obtain rfl := entry_unique hs hy hx hk
      simp
    · have : y.1 ≠ x.1 := fun h => hk (by rw [entry_addr_unique hw.1.addrs_nodup hy hx h])
      simp [hk, this]
  refine ⟨_, e, hw', hent, ?_⟩
  have hs' : (tr.assign x.1 w).keys.Sorted (· ≤ ·) := by
    rw [Tree.assign_keys]; exact List.Pairwise.imp le_of_lt hs
  have hs'' : (tr.assign x.1 w).keys.Sorted (· < ·) := by
    rw [Tree.assign_keys]; exact hs
  have hk' : x.2.1 ∈ (tr.assign x.1 w).keys := by
    rw [Tree.assign_keys]; exact Tree.key_mem_of_entry hx
  obtain ⟨y, hy, hyk, hret⟩ := (map_at_spec hw'.1.toLinkHolds hs' hw'.1.header_not_mem x.2.1).1 hk'
  have hmem : (x.1, (x.2.1, w)) ∈ (tr.assign x.1 w).entries := by
    rw [hent]
    exact List.mem_map.2 ⟨x, hx, by simp⟩
  obtain rfl := entry_unique hs'' hy hmem hyk
  exact hret

/-- The call `insert_or_assign(k, v)` for a stored key `k`. -/
theorem map_insert_or_assign_stored [LinearOrder K] {m : Mem K V} {t : RedBlackTree}
    {tr : Tree K V} (hw : WellFormed m t tr) (hs : tr.keys.Sorted (· < ·)) {k : K}
    (hk : k ∈ tr.keys) (v : V) :
    ∃ x m', x ∈ tr.entries ∧ x.2.1 = k ∧
      Returns (fun fuel => map_insert_or_assign fuel m t k v)
        ((⟨some x.1, some t.header_⟩, false), m', t) ∧
      WellFormed m' t (tr.assign x.1 v) ∧
      (tr.assign x.1 v).entries =
        tr.entries.map (fun e => if e.2.1 = k then (e.1, (k, v)) else e) ∧
      Returns (fun fuel => map_at fuel m' t k) (.ok v) := by
  obtain ⟨x, hx, hxk, N, hN⟩ :=
    (find_spec hw.1.toLinkHolds (List.Pairwise.imp le_of_lt hs) k).1 hk
  obtain ⟨m', e, hw', hent, hat⟩ := assign_at_spec hw hs hx v
  rw [hxk] at hent hat
  refine ⟨x, m', hx, hxk, ⟨N, fun fuel hf => ?_⟩, hw', hent, hat⟩
  have hne : x.1 ≠ t.header_ := fun h => hw.1.header_not_mem (h ▸ Tree.addr_mem_of_entry hx)
  simp [map_insert_or_assign, hN fuel hf, MapIterator.eq, RedBlackTree.end, hne, e]

/-- The call `insert(value)` of `map` for a key that is not stored. -/
theorem map_insert_absent [LinearOrder K] {m : Mem K V} {t : RedBlackTree}
    {tr : Tree K V} (hw : WellFormed m t tr) (hc : tr.color = .BLACK)
    (hs : tr.keys.Sorted (· < ·)) {k : K} (hk : k ∉ tr.keys) (v : V) :
    ∃ m' t' tr' l1 l2,
      Returns (fun fuel => map_insert fuel m t (k, v))
        ((⟨some m.next, some t.header_⟩, true), m', t') ∧
      WellFormed m' t' tr' ∧ t'.header_ = t.header_ ∧ t'.size_ = t.size_ + 1 ∧
      tr.entries = l1 ++ l2 ∧ tr'.entries = l1 ++ (m.next, (k, v)) :: l2 ∧
      tr'.keys.Sorted (· < ·) ∧ (tr.RedBlack → tr'.RedBlack) ∧
      Returns (fun fuel => map_at fuel m' t' k) (.ok v) := by
  obtain ⟨m', t', tr', l1, l2, ⟨N, hN⟩, hw', hh, hsz, he, he', hl1, hl2, hrb⟩ :=
    insert_unique_absent_full (v := v) hw hc (List.Pairwise.imp le_of_lt hs) hk
  have hs' : tr'.keys.Sorted (· < ·) := by
    rw [Tree.keys_eq_entries, he] at hs
    rw [Tree.keys_eq_entries, he']
    simp only [List.map_append, List.map_cons] at hs ⊢
    refine sorted_lt_insert hs ?_ ?_
    · intro y hy
      obtain ⟨z, hz, rfl⟩ := List.mem_map.1 hy
      exact hl1 z hz
    · intro y hy
      obtain ⟨z, hz, rfl⟩ := List.mem_map.1 hy
      exact hl2 z hz
  refine ⟨m', t', tr', l1, l2, ⟨N, fun fuel hf => ?_⟩, hw', hh, hsz, he, he', hs', hrb, ?_⟩
  · simp [map_insert, hN fuel hf, hh]
  · have hk' : k ∈ tr'.keys := by
      rw [Tree.keys_eq_entries, he']; simp
    obtain ⟨y, hy, hyk, hret⟩ :=
      (map_at_spec hw'.1.toLinkHolds (List.Pairwise.imp le_of_lt hs') hw'.1.header_not_mem k).1 hk'
    have hmem : (m.next, (k, v)) ∈ tr'.entries := by rw [he']; simp
    obtain rfl := entry_unique hs' hy hmem hyk
    exact hret

/-- The call `insert_or_assign(k, v)` for a key `k` that is not stored. -/
theorem map_insert_or_assign_absent [LinearOrder K] {m : Mem K V} {t : RedBlackTree}
    {tr : Tree K V} (hw : WellFormed m t tr) (hc : tr.color = .BLACK)
    (hs : tr.keys.Sorted (· < ·)) {k : K} (hk : k ∉ tr.keys) (v : V) :
    ∃ m' t' tr' l1 l2,
      Returns (fun fuel => map_insert_or_assign fuel m t k v)
        ((⟨some m.next, some t.header_⟩, true), m', t') ∧
      WellFormed m' t' tr' ∧ t'.header_ = t.header_ ∧ t'.size_ = t.size_ + 1 ∧
      tr.entries = l1 ++ l2 ∧ tr'.entries = l1 ++ (m.next, (k, v)) :: l2 ∧
      tr'.keys.Sorted (· < ·) ∧ (tr.RedBlack → tr'.RedBlack) ∧
      Returns (fun fuel => map_at fuel m' t' k) (.ok v) := by
  obtain ⟨m', t', tr', l1, l2, ⟨N, hN⟩, hrest⟩ := map_insert_absent hw hc hs hk v
  obtain ⟨N', hN'⟩ := (find_spec hw.1.toLinkHolds (List.Pairwise.imp le_of_lt hs) k).2 hk
  refine ⟨m', t', tr', l1, l2, ⟨max N N', fun fuel hf => ?_⟩, hrest⟩
  simp [map_insert_or_assign, hN' fuel (le_trans (le_max_right _ _) hf),
    hN fuel (le_trans (le_max_left _ _) hf), MapIterator.eq, RedBlackTree.end]

/-- The call `m[k]` for a stored key `k`. -/
theorem map_subscript_stored [LinearOrder K] [Inhabited V] {m : Mem K V} {t : RedBlackTree}
    {tr : Tree K V} (hw : WellFormed m t tr) (hs : tr.keys.Sorted (· < ·)) {k : K}
    (hk : k ∈ tr.keys) :
    ∃ x, x ∈ tr.entries ∧ x.2.1 = k ∧
      Returns (fun fuel => map_subscript fuel m t k) (some x.1, m, t) ∧
      m.payload (some x.1) = .ok x.2.2 := by
  obtain ⟨x, hx, hxk, N, hN⟩ :=
    (find_spec hw.1.toLinkHolds (List.Pairwise.imp le_of_lt hs) k).1 hk
  obtain ⟨nd, hc, hd⟩ := hw.1.toLinkHolds.2.link_cell_of_entry hx
  refine ⟨x, hx, hxk, ⟨N, fun fuel hf => ?_⟩, by rw [Mem.payload_of_cell hc, hd]⟩
  have hne : x.1 ≠ t.header_ := fun h => hw.1.header_not_mem (h ▸ Tree.addr_mem_of_entry hx)
  simp [map_subscript, hN fuel hf, MapIterator.eq, RedBlackTree.end, hne]

/-- The call `m[k]` for a key `k` that is not stored. -/
theorem map_subscript_absent [LinearOrder K] [Inhabited V] {m : Mem K V} {t : RedBlackTree}
    {tr : Tree K V} (hw : WellFormed m t tr) (hc : tr.color = .BLACK)
    (hs : tr.keys.Sorted (· < ·)) {k : K} (hk : k ∉ tr.keys) :
    ∃ m' t' tr' l1 l2,
      Returns (fun fuel => map_subscript fuel m t k) (some m.next, m', t') ∧
      WellFormed m' t' tr' ∧ t'.header_ = t.header_ ∧ t'.size_ = t.size_ + 1 ∧
      tr.entries = l1 ++ l2 ∧ tr'.entries = l1 ++ (m.next, (k, default)) :: l2 ∧
      tr'.keys.Sorted (· < ·) ∧ (tr.RedBlack → tr'.RedBlack) ∧
      Returns (fun fuel => map_at fuel m' t' k) (.ok default) := by
  obtain ⟨m', t', tr', l1, l2, ⟨N, hN⟩, hrest⟩ := map_insert_absent hw hc hs hk default
  obtain ⟨N', hN'⟩ := (find_spec hw.1.toLinkHolds (List.Pairwise.imp le_of_lt hs) k).2 hk
  refine ⟨m', t', tr', l1, l2, ⟨max N N', fun fuel hf => ?_⟩, hrest⟩
  simp [map_subscript, hN' fuel (le_trans (le_max_right _ _) hf),
    hN fuel (le_trans (le_max_left _ _) hf), MapIterator.eq, RedBlackTree.end]

/-- What `multiset::find` returns on a tree whose in-order keys are non-decreasing: the
first node in in-order holding the key, which is where `lower_bound` stops, or `end()`. -/
theorem multiset_find_spec [LinearOrder K] {m : Mem K K} {t : RedBlackTree} {tr : Tree K K}
    (htr : LinkHolds m t.header_ tr) (hs : tr.keys.Sorted (· ≤ ·)) (hh : t.header_ ∉ tr.addrs)
    (k : K) :
    (k ∈ tr.keys → ∃ l1 x l2, tr.entries = l1 ++ x :: l2 ∧ (∀ y ∈ l1, y.2.1 < k) ∧ x.2.1 = k ∧
      Returns (fun fuel => lower_bound fuel m t k) ⟨some x.1, some t.header_⟩ ∧
      Returns (fun fuel => multiset_find fuel m t k) ⟨some x.1, some t.header_⟩) ∧
    (k ∉ tr.keys → Returns (fun fuel => multiset_find fuel m t k) t.end) := by
  obtain ⟨l1, l2, he, h1, h2, hres⟩ := lower_bound_loop_spec k m tr htr.2 hs
  have hlb : ∀ fuel, tr.height < fuel →
      lower_bound fuel m t k = .ok ⟨firstPtr l2 (some t.header_), some t.header_⟩ := by
    intro fuel hf
    simp only [lower_bound, htr.link_read_root, ok_bind, hres fuel _ hf, pure_eq_ok]
  cases l2 with
  | nil =>
    constructor
    · intro hk
      rw [Tree.keys_eq_entries, he] at hk
      simp only [List.append_nil, List.mem_map] at hk
      obtain ⟨y, hy, rfl⟩ := hk
      exact absurd (h1 y hy) (lt_irrefl _)
    · intro _
      refine Returns.of_forall tr.height (fun fuel hf => ?_)
      simp [multiset_find, hlb fuel hf, firstPtr, MapIterator.eq, RedBlackTree.end]
  | cons x l2 =>
    obtain ⟨nd, hc, hd⟩ := htr.2.link_cell_of_entry (x := x) (by rw [he]; simp)
    have hne : x.1 ≠ t.header_ := fun h =>
      hh (h ▸ Tree.addr_mem_of_entry (x := x) (by rw [he]; simp))
    have hkey : m.key (some x.1) = .ok x.2.1 := by rw [Mem.key_of_cell hc, hd]
    have hx : ¬ x.2.1 < k := h2 x (by simp)
    constructor
    · intro hk
      have hxk : x.2.1 = k := by
        rw [Tree.keys_eq_entries, he] at hk hs
        simp only [List.map_append, List.map_cons, List.mem_append, List.mem_map,
          List.mem_cons] at hk
        rcases hk with ⟨y, hy, rfl⟩ | rfl | ⟨y, hy, rfl⟩
        · exact absurd (h1 y hy) (lt_irrefl _)
        · rfl
        · have hle : x.2.1 ≤ y.2.1 := by
            simp only [List.map_append, List.map_cons] at hs
            have := (List.pairwise_append.1 hs).2.1
            simp only [List.map_cons, List.pairwise_cons] at this
            exact this.1 _ (List.mem_map_of_mem _ hy)
          exact le_antisymm hle (not_lt.1 hx)
      refine ⟨l1, x, l2, he, h1, hxk, Returns.of_forall tr.height (fun fuel hf => ?_),
        Returns.of_forall tr.height (fun fuel hf => ?_)⟩
      · rw [hlb fuel hf]; rfl
      · simp [multiset_find, hlb fuel hf, firstPtr, MapIterator.eq, RedBlackTree.end, hne, hkey,
          hxk]
    · intro hk
      have hxk : x.2.1 ≠ k := by
        intro e
        apply hk
        rw [Tree.keys_eq_entries, he, ← e]
        simp
      have hlt : k < x.2.1 := lt_of_le_of_ne (not_lt.1 hx) (Ne.symm hxk)
      refine Returns.of_forall tr.height (fun fuel hf => ?_)
      simp [multiset_find, hlb fuel hf, firstPtr, MapIterator.eq, RedBlackTree.end, hne, hkey,
        hlt, not_lt.1 hx]

theorem Mem.free_of_cell {m : Mem K V} {a : Nat} {nd : Node K V} (h : m.cells a = some nd) :
    m.free (some a) = .ok ⟨fun b => if b = a then none else m.cells b, m.next⟩ := by
  simp [Mem.free, h]

/-- What `clear_helper` does to a tree read through the child links whose nodes are
distinct: every node is freed and nothing else changes. -/
theorem clear_helper_spec [LinearOrder K] :
    ∀ (tr : Tree K V) (m : Mem K V), LinkShape m tr → tr.addrs.Nodup →
      ∃ m', (∀ fuel, tr.height < fuel → clear_helper fuel m tr.ptr = .ok m') ∧
        (∀ a ∈ tr.addrs, m'.cells a = none) ∧ (∀ a, a ∉ tr.addrs → m'.cells a = m.cells a) ∧
        m'.next = m.next := by
  intro tr
  induction tr with
  | nil =>
    intro m _ _
    refine ⟨m, fun fuel hf => ?_, fun a ha => by simp at ha, fun a _ => rfl, rfl⟩
    obtain ⟨fuel, rfl⟩ : ∃ f, fuel = f + 1 := ⟨fuel - 1, by simp [Tree.height] at hf; omega⟩
    rfl
  | node l a c kv r ihl ihr =>
    intro m h hnd
    obtain ⟨⟨par, hc⟩, hl, hr⟩ := h
    simp only [Tree.addrs_node] at hnd
    have hnd' := List.nodup_append.1 hnd
    have hal : a ∉ l.addrs := fun h => hnd'.2.2 h (by simp)
    have har : a ∉ r.addrs := (List.nodup_cons.1 hnd'.2.1).1
    have hlr : ∀ x ∈ r.addrs, x ∉ l.addrs := fun x hx h => hnd'.2.2 h (by simp [hx])
    obtain ⟨m1, e1, f1, o1, n1⟩ := ihl m hl hnd'.1
    have hr1 : LinkShape m1 r := hr.link_frame (fun x hx => o1 x (hlr x hx))
    obtain ⟨m2, e2, f2, o2, n2⟩ := ihr m1 hr1 (List.nodup_cons.1 hnd'.2.1).2
    have hc1 : m1.cells a = some ⟨kv, c, par, l.ptr, r.ptr⟩ := by rw [o1 a hal]; exact hc
    have hc2 : m2.cells a = some ⟨kv, c, par, l.ptr, r.ptr⟩ := by rw [o2 a har]; exact hc1
    refine ⟨⟨fun b => if b = a then none else m2.cells b, m2.next⟩, fun fuel hf => ?_, ?_, ?_, ?_⟩
    · obtain ⟨fuel, rfl⟩ : ∃ f, fuel = f + 1 := ⟨fuel - 1, by omega⟩
      simp only [Tree.height] at hf
      simp only [clear_helper, Tree.ptr_node, Mem.left_of_cell hc, ok_bind, e1 fuel (by omega),
        Mem.right_of_cell hc1, e2 fuel (by omega), Mem.free_of_cell hc2]
    · intro x hx
      simp only [Tree.addrs_node, List.mem_append, List.mem_cons] at hx
      by_cases hxa : x = a
      · simp [hxa]
      · simp only [hxa, if_false]
        rcases hx with hx | hx | hx
        · rw [o2 x (fun h => hlr x h hx)]; exact f1 x hx
        · exact absurd hx hxa
        · exact f2 x hx
    · intro x hx
      simp only [Tree.addrs_node, List.mem_append, List.mem_cons, not_or] at hx
      simp only [hx.2.1, if_false]
      rw [o2 x hx.2.2, o1 x hx.1]
    · show m2.next = m.next
      rw [n2, n1]

/-- What `clear()` does to a tree whose child links reach every node once and never the
header: its nodes are freed and the tree object is that of an empty tree with null
caches. -/
theorem clear_spec [LinearOrder K] {m : Mem K V} {t : RedBlackTree} {tr : Tree K V}
    (hl : LinkHolds m t.header_ tr) (hnd : (t.header_ :: tr.addrs).Nodup) (hv : m.Valid) :
    ∃ m', Returns (fun fuel => clear fuel m t) (m', ⟨t.header_, 0, none, none⟩) ∧
      WellFormed m' ⟨t.header_, 0, none, none⟩ .nil ∧ m'.next = m.next ∧
      (∃ hn, m'.cells t.header_ = some hn ∧ hn.parent = none ∧ hn.left = some t.header_ ∧
        hn.right = some t.header_) ∧
      (∀ a ∈ tr.addrs, m'.cells a = none) ∧
      (∀ a, a ≠ t.header_ → a ∉ tr.addrs → m'.cells a = m.cells a) := by
  have hnm : t.header_ ∉ tr.addrs := (List.nodup_cons.1 hnd).1
  have hlt := hl.header_lt hv
  have hroot := hl.link_read_root
  obtain ⟨m1, e1, f1, o1, n1⟩ := clear_helper_spec tr m hl.2 (List.nodup_cons.1 hnd).2
  obtain ⟨⟨hn, hc, hp⟩, -⟩ := hl
  have hc1 : m1.cells t.header_ = some hn := by rw [o1 _ hnm]; exact hc
  refine ⟨((m1.put t.header_ { hn with parent := none }).put t.header_
      { hn with parent := none, left := some t.header_ }).put t.header_
        { hn with parent := none, left := some t.header_, right := some t.header_ },
    Returns.of_forall tr.height (fun fuel hf => ?_), ⟨⟨?_, trivial, by simp⟩, ?_, ?_⟩, by simp [n1],
    ⟨{ hn with parent := none, left := some t.header_, right := some t.header_ }, by simp, rfl,
      rfl, rfl⟩, ?_, ?_⟩
  · simp [clear, hroot, e1 fuel hf, Mem.setParent, Mem.setLeft,
      Mem.setRight, Mem.modify, hc1]
  · exact ⟨{ hn with parent := none, left := some t.header_, right := some t.header_ },
      by simp, rfl⟩
  · intro a ha
    simp only [Mem.put_next] at ha
    have : a ≠ t.header_ := by omega
    simp only [Mem.put_cells, this, if_false]
    by_cases hm : a ∈ tr.addrs
    · exact f1 a hm
    · rw [o1 a hm]; exact hv a (by omega)
  · exact ⟨fun a ha => by simp at ha, fun a ha => by simp at ha⟩
  · intro a ha
    have : a ≠ t.header_ := fun e => hnm (e ▸ ha)
    simp only [Mem.put_cells, this, if_false]
    exact f1 a ha
  · intro a h1 h2
    simp only [Mem.put_cells, h1, if_false]
    exact o1 a h2

theorem takeWhile_append_split {α : Type} (p : α → Bool) (l1 l2 : List α)
    (h1 : ∀ x ∈ l1, p x = true) (h2 : ∀ y ∈ l2, p y = false) :
    (l1 ++ l2).takeWhile p = l1 ∧ (l1 ++ l2).dropWhile p = l2 := by
  induction l1 with
  | nil =>
    cases l2 with
    | nil => simp
    | cons y l2 => simp [List.takeWhile, List.dropWhile, h2 y (by simp)]
  | cons x l1 ih =>
    have := ih (fun y hy => h1 y (by simp [hy]))
    simp [List.takeWhile, List.dropWhile, h1 x (by simp), this.1, this.2]

theorem Mem.key_modify_links {m m' : Mem K V} {p : Ptr} {f : Node K V → Node K V}
    (hf : ∀ n, (f n).data = n.data) (h : m.modify p f = .ok m') (q : Ptr) :
    m'.key q = m.key q := by
  cases p with
  | none => simp [Mem.modify] at h
  | some a =>
    cases hc : m.cells a with
    | none => simp [Mem.modify, hc] at h
    | some nd =>
      simp only [Mem.modify, hc, Except.ok.injEq] at h
      subst h
      cases q with
      | none => rfl
      | some b =>
        by_cases hb : b = a
        · subst hb
          simp [Mem.key, Mem.read, hc, Except.map, hf]
        · simp [Mem.key, Mem.read, hb]

/-- The minimum cache after `update_min_max_nodes(n)`: `n` when there was no cached node
or the key of `n` is less than the key of the cached node, else the cached node; no key
is changed. -/
theorem update_min_max_nodes_min [LinearOrder K] {m m' : Mem K V} {t t' : RedBlackTree}
    {n : Ptr} (h : update_min_max_nodes m t n = .ok (m', t')) :
    (∀ q, m'.key q = m.key q) ∧ (t.min_node_ = none → t'.min_node_ = n) ∧
    (∀ a nk mk, t.min_node_ = some a → m.key n = .ok nk → m.key (some a) = .ok mk →
      t'.min_node_ = if nk < mk then n else some a) := by
  unfold update_min_max_nodes at h
  obtain ⟨lower, hlow, h⟩ := bind_eq_ok.1 h
  obtain ⟨⟨m1, t1⟩, h1, h⟩ := bind_eq_ok.1 h
  obtain ⟨higher, hhigh, h⟩ := bind_eq_ok.1 h
  have hfin : (∀ q, m'.key q = m1.key q) ∧ t'.min_node_ = t1.min_node_ := by
    by_cases hh : higher = true
    · simp only [hh, if_true] at h
      obtain ⟨m2, e2, h⟩ := bind_eq_ok.1 h
      simp only [pure_eq_ok, Except.ok.injEq, Prod.mk.injEq] at h
      obtain ⟨rfl, rfl⟩ := h
      exact ⟨Mem.key_modify_links (f := fun n' => { n' with right := n }) (fun _ => rfl) e2, rfl⟩
    · simp only [hh, if_false, pure_eq_ok, Except.ok.injEq, Prod.mk.injEq] at h
      obtain ⟨rfl, rfl⟩ := h
      exact ⟨fun _ => rfl, rfl⟩
  have hmid : (∀ q, m1.key q = m.key q) ∧
      t1.min_node_ = if lower = true then n else t.min_node_ := by
    by_cases hl : lower = true
    · simp only [hl, if_true] at h1 ⊢
      obtain ⟨m2, e2, h1⟩ := bind_eq_ok.1 h1
      simp only [pure_eq_ok, Except.ok.injEq, Prod.mk.injEq] at h1
      obtain ⟨rfl, rfl⟩ := h1
      exact ⟨Mem.key_modify_links (f := fun n' => { n' with left := n }) (fun _ => rfl) e2, rfl⟩
    · simp only [hl, if_false, pure_eq_ok, Except.ok.injEq, Prod.mk.injEq] at h1 ⊢
      obtain ⟨rfl, rfl⟩ := h1
      exact ⟨fun _ => rfl, rfl⟩
  refine ⟨fun q => by rw [hfin.1, hmid.1], ?_, ?_⟩
  · intro hnone
    rw [hnone] at hlow
    simp only [pure_eq_ok, Except.ok.injEq] at hlow
    rw [hfin.2, hmid.2, ← hlow]
    rfl
  · intro a nk mk hsome hnk hmk
    rw [hsome] at hlow
    simp only [hnk, hmk, ok_bind, pure_eq_ok, Except.ok.injEq] at hlow
    rw [hfin.2, hmid.2, ← hlow, hsome]
    by_cases hlt : nk < mk <;> simp [hlt]

/-- The minimum cache stays exact across the cache update of an insertion behind the
pairs `l1`, whose keys are not greater, and before the pairs `l2`, whose keys are. -/
theorem insert_tail_min [LinearOrder K] {m m2 m' : Mem K V} {t t' : RedBlackTree}
    {tr tr' : Tree K V} {k : K} {v : V} {sz : Nat} {l1 l2 : List (Nat × (K × V))}
    (hmin : t.min_node_ = firstPtr tr.entries none) (he : tr.entries = l1 ++ l2)
    (h1 : ∀ x ∈ l1, x.2.1 ≤ k) (h2 : ∀ x ∈ l2, k < x.2.1)
    (e3 : update_min_max_nodes m2 { t with size_ := sz } (some m.next) = .ok (m', t'))
    (hw' : WellFormed m' t' tr') (he' : tr'.entries = l1 ++ (m.next, (k, v)) :: l2) :
    t'.min_node_ = firstPtr tr'.entries none := by
  obtain ⟨hkeys, hnone, hsome⟩ := update_min_max_nodes_min e3
  have hkey : ∀ x, x ∈ tr'.entries → m2.key (some x.1) = .ok x.2.1 := by
    intro x hx
    obtain ⟨nd, hc, hd⟩ := hw'.1.toLinkHolds.2.link_cell_of_entry hx
    rw [← hkeys, Mem.key_of_cell hc, hd]
  have hnew := hkey (m.next, (k, v)) (by rw [he']; simp)
  rw [he] at hmin
  rw [he']
  cases l1 with
  | nil =>
    cases l2 with
    | nil => exact hnone hmin
    | cons y l2 =>
      have hy := hkey y (by rw [he']; simp)
      rw [hsome y.1 k y.2.1 hmin hnew hy]
      simp [h2 y (by simp), firstPtr]
  | cons y l1 =>
    have hy := hkey y (by rw [he']; simp)
    rw [hsome y.1 k y.2.1 hmin hnew hy]
    simp [not_lt.2 (h1 y (by simp)), firstPtr]

theorem toList_insert_eq [LinearOrder K] {tr tr' : Tree K V} {k : K} {v : V} {a : Nat}
    {l1 l2 : List (Nat × (K × V))} (he : tr.entries = l1 ++ l2)
    (he' : tr'.entries = l1 ++ (a, (k, v)) :: l2)
    (h1 : ∀ x ∈ l1, x.2.1 ≤ k) (h2 : ∀ x ∈ l2, k < x.2.1) :
    tr'.toList = tr.toList.takeWhile (fun e => decide (e.1 ≤ k)) ++
      (k, v) :: tr.toList.dropWhile (fun e => decide (e.1 ≤ k)) := by
  rw [Tree.toList_eq_entries, Tree.toList_eq_entries, he, he', List.map_append, List.map_append]
  obtain ⟨e1, e2⟩ := takeWhile_append_split (fun e : K × V => decide (e.1 ≤ k))
    (l1.map (·.2)) (l2.map (·.2))
    (fun x hx => by
      obtain ⟨y, hy, rfl⟩ := List.mem_map.1 hx
      simpa using h1 y hy)
    (fun x hx => by
      obtain ⟨y, hy, rfl⟩ := List.mem_map.1 hx
      simpa using h2 y hy)
  rw [e1, e2]
  rfl

/-- One `insert_equal` call keeps the insertion invariant and acts on the in-order
sequence as the sequence-level description says. -/
theorem insert_equal_step [LinearOrder K] {m : Mem K V} {t : RedBlackTree} {tr : Tree K V}
    (hi : InsertInv m t tr) (kv : K × V) :
    ∃ m' t' tr', Returns (fun fuel => insert_equal fuel m t kv) (some m.next, m', t') ∧
      InsertInv m' t' tr' ∧ tr'.toList = (InsertCall.equal kv).apply tr.toList ∧
      t'.header_ = t.header_ := by
  obtain ⟨hw, hrb, hs, hsz, hmin⟩ := hi
  obtain ⟨k, v⟩ := kv
  have hroot := (Holds.toZRep (p := .top) hw.1).read_root
  simp only [Path.plug_top] at hroot
  have hplug := descendE_plug k tr .top
  rw [Path.plug_top] at hplug
  have hdep := descendE_depth k tr .top
  simp only [Path.depth, zero_add] at hdep
  obtain ⟨hb1, hb2⟩ := descendE_bounds k tr .top (by simpa using hs)
    (by simp [Path.before]) (by simp [Path.after])
  obtain ⟨m1, m2, m', t', e1, e2, e3, hw', hh, hs', hn, ha⟩ :=
    insert_tail_spec (v := v) hw hrb.1 hplug (descendE_slotOK k tr .top trivial) t.size_
  have he : tr.entries = (descendE k tr .top).entriesBefore ++ (descendE k tr .top).entriesAfter := by
    have hpe := Path.plug_entries (descendE k tr .top) .nil
    rw [hplug] at hpe
    simpa using hpe
  have he' := insTree_entries (descendE k tr .top) m.next (k, v)
  have hl1 : ∀ x ∈ (descendE k tr .top).entriesBefore, x.2.1 ≤ k :=
    fun x hx => hb1 _ (mem_entriesBefore hx)
  have hl2 : ∀ x ∈ (descendE k tr .top).entriesAfter, k < x.2.1 :=
    fun x hx => hb2 _ (mem_entriesAfter hx)
  have hmin' := insert_tail_min hmin he hl1 hl2 e3 hw' he'
  obtain ⟨hw1, hw2, hw3⟩ := hw'
  refine ⟨m', { t' with size_ := t'.size_ + 1 }, insTree (descendE k tr .top) m.next (k, v),
    Returns.of_forall tr.height (fun fuel hf => ?_),
    ⟨⟨hw1, hw2, hw3⟩, insTree_redBlack hplug hrb _ _, ?_, ?_, hmin'⟩, ?_, hh⟩
  · have hdesc := find_insertion_point_equal_spec t.header_ k m tr .top fuel hf hw.1.2.1
    simp only [Path.par_top] at hdesc
    have ht : ({ t with size_ := t.size_ } : RedBlackTree) = t := rfl
    rw [ht] at e3
    simp only [insert_equal, hroot, ok_bind, hdesc, Mem.alloc_fst, e1, e2 fuel (by omega), e3,
      pure_eq_ok]
  · rw [Tree.keys_eq_entries, he] at hs
    rw [Tree.keys_eq_entries, he']
    simp only [List.map_append, List.map_cons] at hs ⊢
    refine sorted_le_insert hs ?_ ?_
    · intro x hx
      obtain ⟨y, hy, rfl⟩ := List.mem_map.1 hx
      exact hl1 y hy
    · intro x hx
      obtain ⟨y, hy, rfl⟩ := List.mem_map.1 hx
      exact hl2 y hy
  · show t'.size_ + 1 = _
    rw [hs', hsz, Tree.size_eq_entries, Tree.size_eq_entries, he, he']
    simp
    omega
  · exact toList_insert_eq he he' hl1 hl2

/-- One `insert_unique` call keeps the insertion invariant and acts on the in-order
sequence as the sequence-level description says. -/
theorem insert_unique_step [LinearOrder K] {m : Mem K V} {t : RedBlackTree} {tr : Tree K V}
    (hi : InsertInv m t tr) (kv : K × V) :
    ∃ r m' t' tr', Returns (fun fuel => insert_unique fuel m t kv) (r, m', t') ∧
      InsertInv m' t' tr' ∧ tr'.toList = (InsertCall.unique kv).apply tr.toList ∧
      t'.header_ = t.header_ := by
  obtain ⟨hw, hrb, hs, hsz, hmin⟩ := hi
  obtain ⟨k, v⟩ := kv
  by_cases hk : k ∈ tr.keys
  · obtain ⟨a, nd, -, -, -, hres⟩ := insert_unique_found hw.1.toLinkHolds hs hk v
    refine ⟨_, m, t, tr, Returns.of_forall _ hres, ⟨hw, hrb, hs, hsz, hmin⟩, ?_, rfl⟩
    have : k ∈ tr.toList.map (fun e => e.1) := hk
    simp [InsertCall.apply, this]
  · have hroot := (Holds.toZRep (p := .top) hw.1).read_root
    simp only [Path.plug_top] at hroot
    have hd := descendU_absent k tr .top hk
    have hplug := descendU_plug k tr .top
    rw [hd, Path.plug_top] at hplug
    have hdep := descendU_depth k tr .top
    simp only [Path.depth, zero_add] at hdep
    obtain ⟨hb1, hb2⟩ := descendU_bounds k tr .top (by simpa using hs)
      (by simp [Path.before]) (by simp [Path.after]) hd
    obtain ⟨m1, m2, m', t', e1, e2, e3, hw', hh, hs', hn, ha⟩ :=
      insert_tail_spec (v := v) hw hrb.1 hplug (descendU_slotOK k tr .top trivial) (t.size_ + 1)
    have he : tr.entries =
        (descendU k tr .top).1.entriesBefore ++ (descendU k tr .top).1.entriesAfter := by
      have hpe := Path.plug_entries (descendU k tr .top).1 .nil
      rw [hplug] at hpe
      simpa using hpe
    have he' := insTree_entries (descendU k tr .top).1 m.next (k, v)
    have hl1 : ∀ x ∈ (descendU k tr .top).1.entriesBefore, x.2.1 ≤ k :=
      fun x hx => le_of_lt (hb1 _ (mem_entriesBefore hx))
    have hl2 : ∀ x ∈ (descendU k tr .top).1.entriesAfter, k < x.2.1 :=
      fun x hx => hb2 _ (mem_entriesAfter hx)
    have hmin' := insert_tail_min hmin he hl1 hl2 e3 hw' he'
    refine ⟨(some m.next, true), m', t', insTree (descendU k tr .top).1 m.next (k, v),
      Returns.of_forall tr.height (fun fuel hf => ?_),
      ⟨hw', insTree_redBlack hplug hrb _ _, ?_, ?_, hmin'⟩, ?_, hh⟩
    · have hdesc := insert_unique_descend_spec t.header_ k m tr .top fuel hf hw.1.2.1
      simp only [Path.par_top] at hdesc
      simp only [insert_unique, hroot, ok_bind, hdesc, descendResult, hd, Mem.alloc_fst, e1,
        e2 fuel (by omega), e3, pure_eq_ok]
    · rw [Tree.keys_eq_entries, he] at hs
      rw [Tree.keys_eq_entries, he']
      simp only [List.map_append, List.map_cons] at hs ⊢
      refine sorted_le_insert hs ?_ ?_
      · intro x hx
        obtain ⟨y, hy, rfl⟩ := List.mem_map.1 hx
        exact hl1 y hy
      · intro x hx
        obtain ⟨y, hy, rfl⟩ := List.mem_map.1 hx
        exact hl2 y hy
    · rw [hs', hsz, Tree.size_eq_entries, Tree.size_eq_entries, he, he']
      simp
      omega
    · have : k ∉ tr.toList.map (fun e => e.1) := hk
      simp only [InsertCall.apply, this, if_false]
      exact toList_insert_eq he he' hl1 hl2

/-- A sequence of insertion calls on a tree in the insertion invariant returns, keeps the
invariant, and builds the in-order sequence the sequence-level description gives. -/
theorem insert_calls_spec [LinearOrder K] (calls : List (InsertCall K V)) :
    ∀ {m : Mem K V} {t : RedBlackTree} {tr : Tree K V}, InsertInv m t tr →
    ∃ m' t' tr', Returns (fun fuel => insert_calls fuel calls (m, t)) (m', t') ∧
      InsertInv m' t' tr' ∧
      tr'.toList = calls.foldl (fun l c => c.apply l) tr.toList ∧
      t'.header_ = t.header_ := by
  induction calls with
  | nil =>
    intro m t tr hi
    exact ⟨m, t, tr, ⟨0, fun _ _ => rfl⟩, hi, rfl, rfl⟩
  | cons c calls ih =>
    intro m t tr hi
    cases c with
    | unique value =>
      obtain ⟨r, m1, t1, tr1, ⟨N1, h1⟩, hi1, hl1, hh1⟩ := insert_unique_step hi value
      obtain ⟨m2, t2, tr2, ⟨N2, h2⟩, hi2, hl2, hh2⟩ := ih hi1
      refine ⟨m2, t2, tr2, ⟨max N1 N2, fun fuel hf => ?_⟩, hi2, ?_, by rw [hh2, hh1]⟩
      · simp only [insert_calls, h1 fuel (le_trans (le_max_left _ _) hf), ok_bind,
          h2 fuel (le_trans (le_max_right _ _) hf)]
      · rw [hl2, hl1]; rfl
    | equal value =>
      obtain ⟨m1, t1, tr1, ⟨N1, h1⟩, hi1, hl1, hh1⟩ := insert_equal_step hi value
      obtain ⟨m2, t2, tr2, ⟨N2, h2⟩, hi2, hl2, hh2⟩ := ih hi1
      refine ⟨m2, t2, tr2, ⟨max N1 N2, fun fuel hf => ?_⟩, hi2, ?_, by rw [hh2, hh1]⟩
      · simp only [insert_calls, h1 fuel (le_trans (le_max_left _ _) hf), ok_bind,
          h2 fuel (le_trans (le_max_right _ _) hf)]
      · rw [hl2, hl1]; rfl

/-- In the insertion invariant `begin()` is at the first node in in-order, or is `end()`
when there is none, and `*begin()` is the first pair of the in-order sequence. -/
theorem InsertInv.begin_spec [LinearOrder K] {m : Mem K V} {t : RedBlackTree} {tr : Tree K V}
    (hi : InsertInv m t tr) :
    t.begin = ⟨firstPtr tr.entries (some t.header_), some t.header_⟩ ∧
    (t.begin.eq t.end = tr.toList.isEmpty) ∧
    (∀ kv, tr.toList.head? = some kv → t.begin.deref m = .ok kv) := by
  obtain ⟨hw, -, -, hsz, hmin⟩ := hi
  cases he : tr.entries with
  | nil =>
    have h0 : t.size_ = 0 := by rw [hsz, Tree.size_eq_entries, he]; rfl
    have hl : tr.toList = [] := by rw [Tree.toList_eq_entries, he]; rfl
    refine ⟨by simp [RedBlackTree.begin, h0, firstPtr], ?_, ?_⟩
    · simp [RedBlackTree.begin, h0, RedBlackTree.end, MapIterator.eq, hl]
    · intro kv hkv
      simp [hl] at hkv
  | cons x l =>
    have h0 : t.size_ ≠ 0 := by rw [hsz, Tree.size_eq_entries, he]; simp
    have hl : tr.toList = x.2 :: l.map (·.2) := by rw [Tree.toList_eq_entries, he]; rfl
    rw [he] at hmin
    have hx : x ∈ tr.entries := by rw [he]; simp
    have hne : x.1 ≠ t.header_ := fun h => hw.1.header_not_mem (h ▸ Tree.addr_mem_of_entry hx)
    obtain ⟨nd, hc, hd⟩ := hw.1.toLinkHolds.2.link_cell_of_entry hx
    refine ⟨by simp [RedBlackTree.begin, h0, firstPtr, hmin], ?_, ?_⟩
    · simp [RedBlackTree.begin, h0, RedBlackTree.end, MapIterator.eq, hl, hmin, firstPtr, hne]
    · intro kv hkv
      simp only [hl, List.head?_cons, Option.some.injEq] at hkv
      subst hkv
      simp [RedBlackTree.begin, h0, hmin, firstPtr, MapIterator.deref, Mem.read, hc, Except.map, hd]

theorem create_insertInv [LinearOrder K] [Inhabited K] [Inhabited V] (m0 : Mem K V)
    (h : m0.Valid) :
    InsertInv (RedBlackTree.create m0).1 (RedBlackTree.create m0).2 (.nil : Tree K V) :=
  ⟨create_wellFormed m0 h, Tree.redBlack_nil, by simp [Tree.keys, Tree.toList], rfl, rfl⟩

end BasicLemmas

/-! ## Lemmas on lists -/

section ListLemmas

variable {T : Type}

@[simp] theorem LMem.cells_put (m : LMem T) (a b : Nat) (n : LNode T) :
    (m.put a n).cells b = if b = a then some n else m.cells b := rfl

@[simp] theorem LMem.put_fresh (m : LMem T) (a : Nat) (n : LNode T) :
    (m.put a n).fresh = m.fresh := rfl

theorem LMem.getNext_of {m : LMem T} {a : Nat} {p : Ptr} (h : m.nextOf a = some p) :
    m.getNext (some a) = .ok p := by
  unfold LMem.nextOf at h
  cases hc : m.cells a with
  | none => simp [hc] at h
  | some c =>
    simp only [hc, Option.map_some', Option.some.injEq] at h
    simp [LMem.getNext, LMem.read, hc, Except.map, h]

theorem LMem.getPrev_of {m : LMem T} {a : Nat} {p : Ptr} (h : m.prevOf a = some p) :
    m.getPrev (some a) = .ok p := by
  unfold LMem.prevOf at h
  cases hc : m.cells a with
  | none => simp [hc] at h
  | some c =>
    simp only [hc, Option.map_some', Option.some.injEq] at h
    simp [LMem.getPrev, LMem.read, hc, Except.map, h]

theorem LMem.getValue_of {m : LMem T} {a : Nat} {v : T} (h : m.valueOf a = some v) :
    m.getValue (some a) = .ok v := by
  unfold LMem.valueOf at h
  cases hc : m.cells a with
  | none => simp [hc] at h
  | some c =>
    simp only [hc, Option.map_some', Option.some.injEq] at h
    simp [LMem.getValue, LMem.read, hc, Except.map, h]

/-- The assignment `a->next = v` on an allocated cell: only that `next` field changes. -/
theorem LMem.setNext_spec {m : LMem T} {a : Nat} (h : m.cells a ≠ none) (v : Ptr) :
    ∃ m', m.setNext (some a) v = .ok m' ∧
      (∀ b, m'.nextOf b = if b = a then some v else m.nextOf b) ∧
      (∀ b, m'.prevOf b = m.prevOf b) ∧ (∀ b, m'.valueOf b = m.valueOf b) ∧
      m'.fresh = m.fresh ∧ (∀ b, m'.cells b = none ↔ m.cells b = none) := by
  cases hc : m.cells a with
  | none => exact absurd hc h
  | some c =>
    refine ⟨m.put a { c with next := v }, by simp [LMem.setNext, LMem.modify, hc], ?_, ?_, ?_,
      rfl, ?_⟩
    · intro b
      by_cases hb : b = a
      · subst hb; simp [LMem.nextOf]
      · simp [LMem.nextOf, hb]
    · intro b
      by_cases hb : b = a
      · subst hb; simp [LMem.prevOf, hc]
      · simp [LMem.prevOf, hb]
    · intro b
      by_cases hb : b = a
      · subst hb; simp [LMem.valueOf, hc]
      · simp [LMem.valueOf, hb]
    · intro b
      by_cases hb : b = a
      · subst hb; simp [hc]
      · simp [hb]

/-- The assignment `a->prev = v` on an allocated cell: only that `prev` field changes. -/
theorem LMem.setPrev_spec {m : LMem T} {a : Nat} (h : m.cells a ≠ none) (v : Ptr) :
    ∃ m', m.setPrev (some a) v = .ok m' ∧
      (∀ b, m'.prevOf b = if b = a then some v else m.prevOf b) ∧
      (∀ b, m'.nextOf b = m.nextOf b) ∧ (∀ b, m'.valueOf b = m.valueOf b) ∧
      m'.fresh = m.fresh ∧ (∀ b, m'.cells b = none ↔ m.cells b = none) := by
  cases hc : m.cells a with
  | none => exact absurd hc h
  | some c =>
    refine ⟨m.put a { c with prev := v }, by simp [LMem.setPrev, LMem.modify, hc], ?_, ?_, ?_,
      rfl, ?_⟩
    · intro b
      by_cases hb : b = a
      · subst hb; simp [LMem.prevOf]
      · simp [LMem.prevOf, hb]
    · intro b
      by_cases hb : b = a
      · subst hb; simp [LMem.nextOf, hc]
      · simp [LMem.nextOf, hb]
    · intro b
      by_cases hb : b = a
      · subst hb; simp [LMem.valueOf, hc]
      · simp [LMem.valueOf, hb]
    · intro b
      by_cases hb : b = a
      · subst hb; simp [hc]
      · simp [hb]

theorem LMem.alloc_of_nextOf {m : LMem T} {a : Nat} {p : Ptr} (h : m.nextOf a = some p) :
    m.cells a ≠ none := by
  intro hc
  simp [LMem.nextOf, hc] at h

theorem LMem.alloc_of_prevOf {m : LMem T} {a : Nat} {p : Ptr} (h : m.prevOf a = some p) :
    m.cells a ≠ none := by
  intro hc
  simp [LMem.prevOf, hc] at h

theorem LMem.alloc_of_valueOf {m : LMem T} {a : Nat} {v : T} (h : m.valueOf a = some v) :
    m.cells a ≠ none := by
  intro hc
  simp [LMem.valueOf, hc] at h

theorem LMem.nextOf_ne_none {m : LMem T} {a : Nat} (h : m.cells a ≠ none) :
    ∃ p, m.nextOf a = some p := by
  cases hc : m.cells a with
  | none => exact absurd hc h
  | some c => exact ⟨c.next, by simp [LMem.nextOf, hc]⟩

theorem LMem.prevOf_ne_none {m : LMem T} {a : Nat} (h : m.cells a ≠ none) :
    ∃ p, m.prevOf a = some p := by
  cases hc : m.cells a with
  | none => exact absurd hc h
  | some c => exact ⟨c.prev, by simp [LMem.prevOf, hc]⟩

@[simp] theorem Links_nil (m : LMem T) : Links m [] := List.chain'_nil

@[simp] theorem Links_singleton (m : LMem T) (a : Nat) : Links m [a] := List.chain'_singleton a

theorem Links_cons_cons {m : LMem T} {a b : Nat} {L : List Nat} :
    Links m (a :: b :: L) ↔ Link m a b ∧ Links m (b :: L) := List.chain'_cons

theorem Links_split {m : LMem T} {a : Nat} {L1 L2 : List Nat} :
    Links m (L1 ++ a :: L2) ↔ Links m (L1 ++ [a]) ∧ Links m (a :: L2) := List.chain'_split

/-- Links survive a change of memory that keeps the `next` field of every node but the
last and the `prev` field of every node but the first. -/
theorem Links_frame {m m' : LMem T} : ∀ {L : List Nat}, Links m L →
    (∀ a ∈ L.dropLast, m'.nextOf a = m.nextOf a) → (∀ b ∈ L.tail, m'.prevOf b = m.prevOf b) →
    Links m' L
  | [], _, _, _ => Links_nil m'
  | [_], _, _, _ => Links_singleton m' _
  | a :: b :: L, h, hn, hp => by
    obtain ⟨⟨h1, h2⟩, h3⟩ := Links_cons_cons.1 h
    refine Links_cons_cons.2 ⟨⟨?_, ?_⟩, Links_frame h3 ?_ ?_⟩
    · rw [hn a (by simp [List.dropLast]), h1]
    · rw [hp b (by simp), h2]
    · intro x hx
      exact hn x (by simp only [List.dropLast_cons₂, List.mem_cons]; exact Or.inr hx)
    · intro x hx
      exact hp x (by simp only [List.tail_cons, List.mem_cons]; exact Or.inr hx)

theorem Vals_frame {m m' : LMem T} {xs : List (Nat × T)} (h : Vals m xs)
    (hv : ∀ x ∈ xs, m'.valueOf x.1 = m.valueOf x.1) : Vals m' xs :=
  fun x hx => by rw [hv x hx]; exact h x hx

theorem Links_left {m : LMem T} {L1 L2 : List Nat} {u : Nat} (h : Links m (L1 ++ u :: L2)) :
    Links m (L1 ++ [u]) := (Links_split.1 h).1

theorem Links_right {m : LMem T} {L1 L2 : List Nat} {u : Nat} (h : Links m (L1 ++ u :: L2)) :
    Links m (u :: L2) := (Links_split.1 h).2

theorem mem_dropLast_append_singleton {α : Type} (L1 : List α) (u : α) :
    (L1 ++ [u]).dropLast = L1 := by simp

/-- Placing an allocated node `y` between two neighbours `u` and `v`, as
`link_between_(u, y, v)` does. -/
theorem Links_insert {m : LMem T} {L1 L2 : List Nat} {u v y : Nat}
    (h : Links m (L1 ++ u :: v :: L2)) (hu1 : u ∉ L1) (hu2 : u ∉ (v :: L2).dropLast)
    (hv1 : v ∉ (L1 ++ [u]).tail) (hv2 : v ∉ L2) (hy1 : y ∉ L1) (hyu : y ≠ u) (hyv : y ≠ v)
    (hy2 : y ∉ L2) (hya : m.cells y ≠ none) :
    ∃ m', link_between_ m (some u) (some y) (some v) = .ok m' ∧
      Links m' (L1 ++ u :: y :: v :: L2) ∧
      (∀ b, m'.nextOf b = if b = u then some (some y) else if b = y then some (some v)
        else m.nextOf b) ∧
      (∀ b, m'.prevOf b = if b = v then some (some y) else if b = y then some (some u)
        else m.prevOf b) ∧
      (∀ b, m'.valueOf b = m.valueOf b) ∧ m'.fresh = m.fresh ∧
      (∀ b, m'.cells b = none ↔ m.cells b = none) := by
  have hl := Links_left h
  have hr := (Links_cons_cons.1 (Links_right h)).2
  obtain ⟨huv1, huv2⟩ := (Links_cons_cons.1 (Links_right h)).1
  obtain ⟨m1, e1, p1, n1, v1, f1, a1⟩ := LMem.setPrev_spec hya (some u)
  obtain ⟨m2, e2, n2, p2, v2, f2, a2⟩ := LMem.setNext_spec (m := m1) (a := y)
    (by rw [Ne, a1]; exact hya) (some v)
  obtain ⟨m3, e3, n3, p3, v3, f3, a3⟩ := LMem.setNext_spec (m := m2) (a := u)
    (by rw [Ne, a2, a1]; exact LMem.alloc_of_nextOf huv1) (some y)
  obtain ⟨m4, e4, p4, n4, v4, f4, a4⟩ := LMem.setPrev_spec (m := m3) (a := v)
    (by rw [Ne, a3, a2, a1]; exact LMem.alloc_of_prevOf huv2) (some y)
  have hn : ∀ b, m4.nextOf b = if b = u then some (some y) else if b = y then some (some v)
      else m.nextOf b := by
    intro b
    rw [n4, n3, n2, n1]
  have hp : ∀ b, m4.prevOf b = if b = v then some (some y) else if b = y then some (some u)
      else m.prevOf b := by
    intro b
    rw [p4, p3, p2, p1]
  refine ⟨m4, by simp only [link_between_, e1, ok_bind, e2, e3, e4], ?_, hn, hp,
    fun b => by rw [v4, v3, v2, v1], by rw [f4, f3, f2, f1],
    fun b => by rw [a4, a3, a2, a1]⟩
  refine Links_split.2 ⟨Links_frame hl ?_ ?_, Links_cons_cons.2 ⟨⟨?_, ?_⟩,
    Links_cons_cons.2 ⟨⟨?_, ?_⟩, Links_frame hr ?_ ?_⟩⟩⟩
  · intro a ha
    rw [mem_dropLast_append_singleton] at ha
    have h1 : a ≠ u := fun e => hu1 (e ▸ ha)
    have h2 : a ≠ y := fun e => hy1 (e ▸ ha)
    rw [hn, if_neg h1, if_neg h2]
  · intro b hb
    have h1 : b ≠ v := fun e => hv1 (e ▸ hb)
    have h2 : b ≠ y := by
      intro e
      have := List.mem_of_mem_tail hb
      simp only [List.mem_append, List.mem_singleton] at this
      rcases this with h | h
      · exact hy1 (e ▸ h)
      · exact hyu (e ▸ h)
    rw [hp, if_neg h1, if_neg h2]
  · rw [hn, if_pos rfl]
  · rw [hp]
    by_cases hyv' : y = v
    · exact absurd hyv' hyv
    · rw [if_neg hyv', if_pos rfl]
  · rw [hn]
    by_cases hyu' : y = u
    · exact absurd hyu' hyu
    · rw [if_neg hyu', if_pos rfl]
  · rw [hp, if_pos rfl]
  · intro a ha
    have h1 : a ≠ u := fun e => hu2 (e ▸ ha)
    have h2 : a ≠ y := by
      intro e
      have := List.mem_of_mem_dropLast ha
      simp only [List.mem_cons] at this
      rcases this with h | h
      · exact hyv (e ▸ h)
      · exact hy2 (e ▸ h)
    rw [hn, if_neg h1, if_neg h2]
  · intro b hb
    simp only [List.tail_cons] at hb
    have h1 : b ≠ v := fun e => hv2 (e ▸ hb)
    have h2 : b ≠ y := fun e => hy2 (e ▸ hb)
    rw [hp, if_neg h1, if_neg h2]

/-- Taking the node `y` out from between its neighbours `u` and `v`, as `unlink_node_(y)`
does; the cell of `y` itself is left as it was. -/
theorem Links_remove {m : LMem T} {L1 L2 : List Nat} {u v y : Nat}
    (h : Links m (L1 ++ u :: y :: v :: L2)) (hu1 : u ∉ L1) (hu2 : u ∉ (v :: L2).dropLast)
    (hv1 : v ∉ (L1 ++ [u]).tail) (hv2 : v ∉ L2) (hyu : y ≠ u) (_ : y ≠ v) :
    ∃ m', unlink_node_ m (some y) = .ok m' ∧
      Links m' (L1 ++ u :: v :: L2) ∧
      (∀ b, m'.nextOf b = if b = u then some (some v) else m.nextOf b) ∧
      (∀ b, m'.prevOf b = if b = v then some (some u) else m.prevOf b) ∧
      (∀ b, m'.valueOf b = m.valueOf b) ∧ m'.fresh = m.fresh ∧
      (∀ b, m'.cells b = none ↔ m.cells b = none) := by
  have hl := Links_left h
  have hr := (Links_cons_cons.1 (Links_cons_cons.1 (Links_right h)).2).2
  obtain ⟨huy1, huy2⟩ := (Links_cons_cons.1 (Links_right h)).1
  obtain ⟨hyv1, hyv2⟩ := (Links_cons_cons.1 (Links_cons_cons.1 (Links_right h)).2).1
  obtain ⟨m1, e1, n1, p1, v1, f1, a1⟩ := LMem.setNext_spec (m := m) (a := u)
    (LMem.alloc_of_nextOf huy1) (some v)
  obtain ⟨m2, e2, p2, n2, v2, f2, a2⟩ := LMem.setPrev_spec (m := m1) (a := v)
    (by rw [Ne, a1]; exact LMem.alloc_of_prevOf hyv2) (some u)
  have hn : ∀ b, m2.nextOf b = if b = u then some (some v) else m.nextOf b := by
    intro b; rw [n2, n1]
  have hp : ∀ b, m2.prevOf b = if b = v then some (some u) else m.prevOf b := by
    intro b; rw [p2, p1]
  have g1 : m1.nextOf y = some (some v) := by rw [n1, if_neg hyu, hyv1]
  have g2 : m1.prevOf y = some (some u) := by rw [p1, huy2]
  refine ⟨m2, ?_, ?_, hn, hp, fun b => by rw [v2, v1], by rw [f2, f1],
    fun b => by rw [a2, a1]⟩
  · simp only [unlink_node_, LMem.getPrev_of huy2, LMem.getNext_of hyv1, ok_bind, e1,
      LMem.getNext_of g1, LMem.getPrev_of g2, e2]
  · refine Links_split.2 ⟨Links_frame hl ?_ ?_, Links_cons_cons.2 ⟨⟨?_, ?_⟩,
      Links_frame hr ?_ ?_⟩⟩
    · intro a ha
      rw [mem_dropLast_append_singleton] at ha
      have h1 : a ≠ u := fun e => hu1 (e ▸ ha)
      rw [hn, if_neg h1]
    · intro b hb
      have h1 : b ≠ v := fun e => hv1 (e ▸ hb)
      rw [hp, if_neg h1]
    · rw [hn, if_pos rfl]
    · rw [hp, if_pos rfl]
    · intro a ha
      have h1 : a ≠ u := fun e => hu2 (e ▸ ha)
      rw [hn, if_neg h1]
    · intro b hb
      simp only [List.tail_cons] at hb
      have h1 : b ≠ v := fun e => hv2 (e ▸ hb)
      rw [hp, if_neg h1]

theorem snoc_decomp (s : Nat) (A : List Nat) : ∃ L1 u, s :: A = L1 ++ [u] := by
  induction A generalizing s with
  | nil => exact ⟨[], s, rfl⟩
  | cons a A ih =>
    obtain ⟨L1, u, h⟩ := ih a
    exact ⟨s :: L1, u, by rw [h]; rfl⟩

theorem tailPtr_of_snoc : ∀ (pre : List (Nat × T)) (s : Nat) (L1 : List Nat) (u : Nat),
    s :: pre.map (fun x => x.1) = L1 ++ [u] → tailPtr pre (some s) = some u := by
  intro pre
  induction pre with
  | nil =>
    intro s L1 u h
    cases L1 with
    | nil => simp at h; simp [tailPtr, h]
    | cons a L1 =>
      simp only [List.map_nil, List.cons_append, List.cons.injEq] at h
      have := congrArg List.length h.2
      simp at this
  | cons x pre ih =>
    intro s L1 u h
    cases L1 with
    | nil =>
      have := congrArg List.length h
      simp at this
    | cons a L1 =>
      simp only [List.map_cons, List.cons_append, List.cons.injEq] at h
      exact ih x.1 L1 u (by simpa using h.2)

theorem headPtr_of_cons (post : List (Nat × T)) (s : Nat) (v : Nat) (L2 : List Nat)
    (h : post.map (fun x => x.1) ++ [s] = v :: L2) : headPtr post (some s) = some v := by
  cases post with
  | nil => simp at h; simp [headPtr, h.1]
  | cons x post => simp at h; simp [headPtr, h.1]

@[simp] theorem headPtr_nil (d : Ptr) : headPtr ([] : List (Nat × T)) d = d := rfl
@[simp] theorem headPtr_cons (x : Nat × T) (xs : List (Nat × T)) (d : Ptr) :
    headPtr (x :: xs) d = some x.1 := rfl
@[simp] theorem tailPtr_nil (d : Ptr) : tailPtr ([] : List (Nat × T)) d = d := rfl
@[simp] theorem tailPtr_cons (x : Nat × T) (xs : List (Nat × T)) (d : Ptr) :
    tailPtr (x :: xs) d = tailPtr xs (some x.1) := rfl

theorem tailPtr_append (xs ys : List (Nat × T)) (d : Ptr) :
    tailPtr (xs ++ ys) d = tailPtr ys (tailPtr xs d) := by
  induction xs generalizing d with
  | nil => rfl
  | cons x xs ih => simp [ih]

theorem headPtr_append (xs ys : List (Nat × T)) (d : Ptr) :
    headPtr (xs ++ ys) d = headPtr xs (headPtr ys d) := by
  cases xs <;> rfl

/-- The position between the nodes `pre` and the nodes `post` of a ring, as a place in
the sequence of addresses from sentinel to sentinel, with the distinctness facts the
surgery lemmas ask for. -/
theorem ring_position {s : Nat} (pre post : List (Nat × T))
    (hnd : (s :: (pre ++ post).map (fun x => x.1)).Nodup) :
    ∃ L1 u v L2, s :: ((pre ++ post).map (fun x => x.1) ++ [s]) = L1 ++ u :: v :: L2 ∧
      tailPtr pre (some s) = some u ∧ headPtr post (some s) = some v ∧
      s :: pre.map (fun x => x.1) = L1 ++ [u] ∧ post.map (fun x => x.1) ++ [s] = v :: L2 ∧
      u ∉ L1 ∧ u ∉ (v :: L2).dropLast ∧ v ∉ (L1 ++ [u]).tail ∧ v ∉ L2 := by
  obtain ⟨L1, u, h1⟩ := snoc_decomp s (pre.map (fun x => x.1))
  obtain ⟨v, L2, h2⟩ : ∃ v L2, post.map (fun x => x.1) ++ [s] = v :: L2 := by
    cases post with
    | nil => exact ⟨s, [], rfl⟩
    | cons x post => exact ⟨x.1, post.map (fun x => x.1) ++ [s], rfl⟩
  simp only [List.map_append] at hnd
  have hnd1 : (s :: (pre.map (fun x => x.1) ++ post.map (fun x => x.1))).Nodup := hnd
  rw [← List.cons_append, h1] at hnd1
  have hA : (L1 ++ [u]).Nodup := (List.nodup_append.1 hnd1).1
  have hB : (post.map (fun x => x.1)).Nodup := (List.nodup_append.1 hnd1).2.1
  have hdisj := (List.nodup_append.1 hnd1).2.2
  have hsB : s ∉ post.map (fun x => x.1) := by
    intro hs
    have : s ∈ L1 ++ [u] := by rw [← h1]; simp
    exact hdisj this hs
  have hdl : (v :: L2).dropLast = post.map (fun x => x.1) := by rw [← h2]; simp
  have htl : (L1 ++ [u]).tail = pre.map (fun x => x.1) := by rw [← h1]; rfl
  have hsA : s ∉ pre.map (fun x => x.1) := by
    have : (s :: pre.map (fun x => x.1)).Nodup := by rw [h1]; exact hA
    exact (List.nodup_cons.1 this).1
  have hvL : (v :: L2).Nodup := by
    rw [← h2]
    refine List.nodup_append.2 ⟨hB, by simp, ?_⟩
    intro a ha hb
    simp only [List.mem_singleton] at hb
    exact hsB (hb ▸ ha)
  refine ⟨L1, u, v, L2, ?_, tailPtr_of_snoc pre s L1 u h1, headPtr_of_cons post s v L2 h2, h1, h2,
    ?_, ?_, ?_, (List.nodup_cons.1 hvL).1⟩
  · simp only [List.map_append]
    rw [List.append_assoc, h2, ← List.cons_append, h1]
    simp
  · have := (List.nodup_append.1 hA).2.2
    intro hu
    exact this hu (by simp)
  · rw [hdl]
    intro hu
    exact hdisj (by simp) hu
  · rw [htl]
    intro hv
    have hv' : v ∈ post.map (fun x => x.1) ++ [s] := by rw [h2]; simp
    simp only [List.mem_append, List.mem_singleton] at hv'
    rcases hv' with h | h
    · exact hdisj (by rw [← h1]; simp [hv]) h
    · exact hsA (h ▸ hv)

theorem Ring.sentinel_next {m : LMem T} {s : Nat} {xs : List (Nat × T)} (h : Ring m s xs) :
    m.nextOf s = some (headPtr xs (some s)) := by
  obtain ⟨hl, -, -⟩ := h
  cases xs with
  | nil => exact (Links_cons_cons.1 hl).1.1
  | cons x xs => exact (Links_cons_cons.1 hl).1.1

theorem Ring.position {m : LMem T} {s : Nat} {pre post : List (Nat × T)}
    (h : Ring m s (pre ++ post)) :
    ∃ u v, tailPtr pre (some s) = some u ∧ headPtr post (some s) = some v ∧
      m.nextOf u = some (some v) ∧ m.prevOf v = some (some u) := by
  obtain ⟨L1, u, v, L2, hL, hu, hv, -⟩ := ring_position pre post h.2.2
  have hl := h.1
  rw [hL] at hl
  obtain ⟨h1, h2⟩ := (Links_cons_cons.1 (Links_right hl)).1
  exact ⟨u, v, hu, hv, h1, h2⟩

theorem Ring.sentinel_prev {m : LMem T} {s : Nat} {xs : List (Nat × T)} (h : Ring m s xs) :
    m.prevOf s = some (tailPtr xs (some s)) := by
  have h' : Ring m s (xs ++ []) := by simpa using h
  obtain ⟨u, v, hu, hv, -, h2⟩ := h'.position
  simp only [headPtr_nil, Option.some.injEq] at hv
  subst hv
  rw [h2, hu]

/-- The fields of the node at a position of a ring. -/
theorem Ring.node {m : LMem T} {s : Nat} {pre post : List (Nat × T)} {x : Nat × T}
    (h : Ring m s (pre ++ x :: post)) :
    m.nextOf x.1 = some (headPtr post (some s)) ∧ m.prevOf x.1 = some (tailPtr pre (some s)) ∧
    m.valueOf x.1 = some x.2 := by
  have h1 : Ring m s ((pre ++ [x]) ++ post) := by simpa using h
  obtain ⟨u, v, hu, hv, hn, -⟩ := h1.position
  obtain ⟨u', v', hu', hv', -, hp⟩ := h.position
  simp only [tailPtr_append, tailPtr_cons, tailPtr_nil, Option.some.injEq] at hu
  simp only [headPtr_cons, Option.some.injEq] at hv'
  subst hu hv'
  exact ⟨by rw [hn, hv], by rw [hp, hu'], h.2.1 x (by simp)⟩

/-- A ring survives a change of memory that keeps the fields of its sentinel and nodes. -/
theorem Ring.ring_frame {m m' : LMem T} {s : Nat} {xs : List (Nat × T)} (h : Ring m s xs)
    (hf : ∀ b ∈ s :: xs.map (fun x => x.1),
      m'.nextOf b = m.nextOf b ∧ m'.prevOf b = m.prevOf b ∧ m'.valueOf b = m.valueOf b) :
    Ring m' s xs := by
  obtain ⟨hl, hv, hnd⟩ := h
  refine ⟨Links_frame hl ?_ ?_, Vals_frame hv ?_, hnd⟩
  · intro a ha
    have := List.mem_of_mem_dropLast ha
    refine (hf a ?_).1
    simp only [List.mem_cons, List.mem_append, List.mem_singleton] at this ⊢
    tauto
  · intro b hb
    simp only [List.tail_cons] at hb
    refine (hf b ?_).2.1
    simp only [List.mem_cons, List.mem_append, List.mem_singleton] at hb ⊢
    tauto
  · intro x hx
    exact (hf x.1 (by simp only [List.mem_cons]; exact Or.inr (List.mem_map_of_mem _ hx))).2.2

/-- Linking an allocated node that is not in the ring between the nodes `pre` and the
nodes `post`. -/
theorem Ring.insert {m : LMem T} {s : Nat} {pre post : List (Nat × T)} {y : Nat × T}
    (h : Ring m s (pre ++ post)) (hy : y.1 ∉ s :: (pre ++ post).map (fun x => x.1))
    (hv : m.valueOf y.1 = some y.2) :
    ∃ m', link_between_ m (tailPtr pre (some s)) (some y.1) (headPtr post (some s)) = .ok m' ∧
      Ring m' s (pre ++ y :: post) ∧
      (∀ b, b ≠ y.1 → b ∉ s :: (pre ++ post).map (fun x => x.1) →
        m'.nextOf b = m.nextOf b ∧ m'.prevOf b = m.prevOf b) ∧
      (∀ b, m'.valueOf b = m.valueOf b) ∧ m'.fresh = m.fresh ∧
      (∀ b, m'.cells b = none ↔ m.cells b = none) := by
  obtain ⟨L1, u, v, L2, hL, hu, hvv, h1, h2, c1, c2, c3, c4⟩ := ring_position pre post h.2.2
  have hl := h.1
  rw [hL] at hl
  have hmem : ∀ b, b ∈ L1 ++ u :: v :: L2 ↔ b ∈ s :: (pre ++ post).map (fun x => x.1) := by
    intro b
    rw [← hL]
    simp only [List.mem_cons, List.mem_append, List.mem_singleton]
    tauto
  have hy' : y.1 ∉ L1 ++ u :: v :: L2 := fun hb => hy ((hmem _).1 hb)
  simp only [List.mem_append, List.mem_cons, not_or] at hy'
  obtain ⟨m', e, hl', hn, hp, hval, hfr, hal⟩ := Links_insert hl c1 c2 c3 c4 hy'.1 hy'.2.1
    hy'.2.2.1 hy'.2.2.2 (LMem.alloc_of_valueOf hv)
  refine ⟨m', by rw [hu, hvv]; exact e, ⟨?_, ?_, ?_⟩, ?_, hval, hfr, hal⟩
  · have : s :: ((pre ++ y :: post).map (fun x => x.1) ++ [s]) = L1 ++ u :: y.1 :: v :: L2 := by
      simp only [List.map_append, List.map_cons, List.append_assoc, List.cons_append]
      rw [h2, ← List.cons_append, h1]
      simp
    rw [Links, this]
    exact hl'
  · intro x hx
    rw [hval]
    simp only [List.mem_append, List.mem_cons] at hx
    rcases hx with hx | rfl | hx
    · exact h.2.1 x (by simp [hx])
    · exact hv
    · exact h.2.1 x (by simp [hx])
  · have hnd := h.2.2
    simp only [List.map_append, List.map_cons, List.nodup_cons, List.mem_append, List.mem_cons,
      not_or] at hnd hy ⊢
    have hp' := List.nodup_append.1 hnd.2
    refine ⟨⟨hnd.1.1, Ne.symm hy.1, hnd.1.2⟩, List.nodup_append.2 ⟨hp'.1,
      List.nodup_cons.2 ⟨hy.2.2, hp'.2.1⟩, ?_⟩⟩
    intro a ha hb
    simp only [List.mem_cons] at hb
    rcases hb with rfl | hb
    · exact hy.2.1 ha
    · exact hp'.2.2 ha hb
  · intro b hby hb
    have hb' : b ∉ L1 ++ u :: v :: L2 := fun h' => hb ((hmem _).1 h')
    simp only [List.mem_append, List.mem_cons, not_or] at hb'
    rw [hn, hp, if_neg hb'.2.1, if_neg hby, if_neg hb'.2.2.1, if_neg hby]
    exact ⟨rfl, rfl⟩

/-- Unlinking the node at a position of a ring; the cell of the node keeps its fields. -/
theorem Ring.remove {m : LMem T} {s : Nat} {pre post : List (Nat × T)} {y : Nat × T}
    (h : Ring m s (pre ++ y :: post)) :
    ∃ m', unlink_node_ m (some y.1) = .ok m' ∧ Ring m' s (pre ++ post) ∧
      (∀ b, b ∉ s :: (pre ++ post).map (fun x => x.1) →
        m'.nextOf b = m.nextOf b ∧ m'.prevOf b = m.prevOf b) ∧
      (∀ b, m'.valueOf b = m.valueOf b) ∧ m'.fresh = m.fresh ∧
      (∀ b, m'.cells b = none ↔ m.cells b = none) := by
  have hnd : (s :: (pre ++ post).map (fun x => x.1)).Nodup := by
    have := h.2.2
    simp only [List.map_append, List.map_cons, List.nodup_cons, List.mem_append, List.mem_cons,
      not_or] at this ⊢
    have hp' := List.nodup_append.1 this.2
    refine ⟨⟨this.1.1, this.1.2.2⟩, List.nodup_append.2 ⟨hp'.1, (List.nodup_cons.1 hp'.2.1).2,
      fun a ha hb => hp'.2.2 ha (List.mem_cons_of_mem _ hb)⟩⟩
  have hy : y.1 ∉ s :: (pre ++ post).map (fun x => x.1) := by
    have := h.2.2
    simp only [List.map_append, List.map_cons, List.nodup_cons, List.mem_append, List.mem_cons,
      not_or] at this ⊢
    have hp' := List.nodup_append.1 this.2
    refine ⟨Ne.symm this.1.2.1, fun hy => hp'.2.2 hy (by simp), (List.nodup_cons.1 hp'.2.1).1⟩
  obtain ⟨L1, u, v, L2, hL, hu, hvv, h1, h2, c1, c2, c3, c4⟩ := ring_position pre post hnd
  have hl := h.1
  have hL' : s :: ((pre ++ y :: post).map (fun x => x.1) ++ [s]) = L1 ++ u :: y.1 :: v :: L2 := by
    simp only [List.map_append, List.map_cons, List.append_assoc, List.cons_append]
    rw [h2, ← List.cons_append, h1]
    simp
  rw [Links, hL'] at hl
  have hmem : ∀ b, b ∈ L1 ++ u :: v :: L2 ↔ b ∈ s :: (pre ++ post).map (fun x => x.1) := by
    intro b
    rw [← hL]
    simp only [List.mem_cons, List.mem_append, List.mem_singleton]
    tauto
  have hy' : y.1 ∉ L1 ++ u :: v :: L2 := fun hb => hy ((hmem _).1 hb)
  simp only [List.mem_append, List.mem_cons, not_or] at hy'
  obtain ⟨m', e, hl', hn, hp, hval, hfr, hal⟩ := Links_remove hl c1 c2 c3 c4 hy'.2.1 hy'.2.2.1
  refine ⟨m', e, ⟨?_, ?_, hnd⟩, ?_, hval, hfr, hal⟩
  · rw [Links, hL]; exact hl'
  · intro x hx
    rw [hval]
    simp only [List.mem_append] at hx
    rcases hx with hx | hx
    · exact h.2.1 x (by simp [hx])
    · exact h.2.1 x (by simp [hx])
  · intro b hb
    have hb' : b ∉ L1 ++ u :: v :: L2 := fun h' => hb ((hmem _).1 h')
    simp only [List.mem_append, List.mem_cons, not_or] at hb'
    rw [hn, hp, if_neg hb'.2.1, if_neg hb'.2.2.1]
    exact ⟨rfl, rfl⟩

theorem size_inc_eq {n : Nat} (h : n + 1 < 2 ^ 64) : size_inc n = n + 1 := by
  unfold size_inc
  exact Nat.mod_eq_of_lt h

theorem size_dec_eq {n : Nat} (h : n + 1 < 2 ^ 64) : size_dec (n + 1) = n := by
  unfold size_dec
  have : n + 1 + (2 ^ 64 - 1) = n + 2 ^ 64 := by omega
  rw [this, Nat.add_mod_right]
  exact Nat.mod_eq_of_lt (by omega)

theorem size_add_eq {n c : Nat} (h : n + c < 2 ^ 64) : size_add n c = n + c := by
  unfold size_add
  exact Nat.mod_eq_of_lt h

theorem size_sub_self {n : Nat} (h : n < 2 ^ 64) : size_sub n n = 0 := by
  unfold size_sub
  rw [Nat.mod_eq_of_lt h]
  have : n + (2 ^ 64 - n) = 2 ^ 64 := by omega
  rw [this, Nat.mod_self]

theorem Ring.not_mem_sentinel {m : LMem T} {s : Nat} {xs : List (Nat × T)} (h : Ring m s xs)
    {x : Nat × T} (hx : x ∈ xs) : x.1 ≠ s := by
  intro e
  exact (List.nodup_cons.1 h.2.2).1 (e ▸ List.mem_map_of_mem (fun x => x.1) hx)

/-- The single-element `splice` that moves the first node of `other` before the position
between `pre` and `post` of `*this`; the two rings share no node. -/
theorem splice_one_spec {m : LMem T} {sa sb n1 n2 : Nat} {pre post bs : List (Nat × T)}
    {y : Nat × T} (ha : Ring m sa (pre ++ post)) (hb : Ring m sb (y :: bs))
    (hdis : ∀ b, b ∈ sa :: (pre ++ post).map (fun x => x.1) →
      b ∉ sb :: (y :: bs).map (fun x => x.1)) :
    ∃ m', list_splice_one m ⟨sa, n1⟩ ⟨sb, n2⟩ (headPtr post (some sa)) (some y.1) =
        .ok (m', ⟨sa, size_inc n1⟩, ⟨sb, size_dec n2⟩) ∧
      Ring m' sa (pre ++ y :: post) ∧ Ring m' sb bs ∧
      (∀ b, m'.valueOf b = m.valueOf b) ∧ m'.fresh = m.fresh ∧
      (∀ b, m'.cells b = none ↔ m.cells b = none) ∧
      (∀ b, b ∉ sa :: (pre ++ post).map (fun x => x.1) → b ∉ sb :: (y :: bs).map (fun x => x.1) →
        m'.nextOf b = m.nextOf b ∧ m'.prevOf b = m.prevOf b) := by
  have hb0 : Ring m sb ([] ++ y :: bs) := hb
  obtain ⟨m1, e1, hb1, hf1, hv1, hfr1, hal1⟩ := hb0.remove
  simp only [List.nil_append] at hb1 hf1
  have hysb : y.1 ≠ sb := hb.not_mem_sentinel (by simp)
  have hyb : y.1 ∉ sb :: bs.map (fun x => x.1) := by
    have := hb.2.2
    simp only [List.map_cons, List.nodup_cons, List.mem_cons, not_or] at this ⊢
    exact ⟨hysb, this.2.1⟩
  have hya : y.1 ∉ sa :: (pre ++ post).map (fun x => x.1) := by
    intro h
    exact hdis _ h (by simp)
  have ha1 : Ring m1 sa (pre ++ post) := by
    refine ha.ring_frame (fun b hb' => ?_)
    have hnb : b ∉ sb :: bs.map (fun x => x.1) := by
      intro h
      refine hdis b hb' ?_
      simp only [List.map_cons, List.mem_cons] at h ⊢
      tauto
    exact ⟨(hf1 b hnb).1, (hf1 b hnb).2, hv1 b⟩
  have hvy : m1.valueOf y.1 = some y.2 := by rw [hv1]; exact hb.2.1 y (by simp)
  obtain ⟨u, v, hu, hv, -, hp⟩ := ha1.position
  obtain ⟨m2, e2, ha2, hf2, hv2, hfr2, hal2⟩ := ha1.insert hya hvy
  refine ⟨m2, ?_, ha2, ?_, fun b => by rw [hv2, hv1], by rw [hfr2, hfr1],
    fun b => by rw [hal2, hal1], ?_⟩
  · have hne : (some y.1 : Ptr) ≠ some sb := by simpa using hysb
    rw [hu, hv] at e2
    simp only [list_splice_one, hne, if_false, e1, ok_bind, hv, LMem.getPrev_of hp, e2]
    rfl
  · refine hb1.ring_frame (fun b hb' => ?_)
    have hby : b ≠ y.1 := fun e => hyb (e ▸ hb')
    have hba : b ∉ sa :: (pre ++ post).map (fun x => x.1) := by
      intro h
      refine hdis b h ?_
      simp only [List.map_cons, List.mem_cons] at hb' ⊢
      tauto
    exact ⟨(hf2 b hby hba).1, (hf2 b hby hba).2, hv2 b⟩
  · intro b hba hbb
    have hby : b ≠ y.1 := by
      intro e
      exact hbb (by simp [e])
    have hbb' : b ∉ sb :: bs.map (fun x => x.1) := by
      intro h
      apply hbb
      simp only [List.map_cons, List.mem_cons] at h ⊢
      tauto
    rw [(hf2 b hby hba).1, (hf2 b hby hba).2, (hf1 b hbb').1, (hf1 b hbb').2]
    exact ⟨rfl, rfl⟩

/-- The counting loop of the range `splice`, run from a node of a ring to its sentinel. -/
theorem splice_count_spec {m : LMem T} {s : Nat} : ∀ (rest pre : List (Nat × T)) (c : Nat),
    Ring m s (pre ++ rest) → c + rest.length < 2 ^ 64 →
    ∀ fuel, rest.length < fuel →
      splice_count fuel m (headPtr rest (some s)) (some s) c = .ok (c + rest.length) := by
  intro rest
  induction rest with
  | nil =>
    intro pre c _ _ fuel hf
    obtain ⟨fuel, rfl⟩ : ∃ f, fuel = f + 1 := ⟨fuel - 1, by omega⟩
    simp [splice_count]
  | cons x rest ih =>
    intro pre c h hc fuel hf
    obtain ⟨fuel, rfl⟩ : ∃ f, fuel = f + 1 := ⟨fuel - 1, by omega⟩
    simp only [List.length_cons] at hc hf
    have hx : x.1 ≠ s := h.not_mem_sentinel (by simp)
    have hne : (some x.1 : Ptr) ≠ some s := by simpa using hx
    have h' : Ring m s ((pre ++ [x]) ++ rest) := by simpa using h
    simp only [splice_count, headPtr_cons, hne, ne_eq, not_false_eq_true, if_true,
      LMem.getNext_of h.node.1, ok_bind]
    rw [size_inc_eq (by omega), ih (pre ++ [x]) (c + 1) h' (by omega) fuel (by omega)]
    simp only [List.length_cons]
    congr 1
    omega

/-- The range `splice` as `merge` uses it: all nodes of `other` go to the end of `*this`;
the two rings share no node. -/
theorem splice_range_spec {m : LMem T} {sa sb n1 n2 : Nat} {pre bs : List (Nat × T)}
    {y : Nat × T} (ha : Ring m sa pre) (hb : Ring m sb (y :: bs))
    (hdis : ∀ b, b ∈ sa :: pre.map (fun x => x.1) → b ∉ sb :: (y :: bs).map (fun x => x.1))
    (hn2 : n2 = (y :: bs).length) (hsz : n1 + n2 < 2 ^ 64) :
    ∃ m', (∀ fuel, (y :: bs).length < fuel →
        list_splice_range fuel m ⟨sa, n1⟩ ⟨sb, n2⟩ (some sa) (some y.1) (some sb) =
          .ok (m', ⟨sa, n1 + n2⟩, ⟨sb, 0⟩)) ∧
      Ring m' sa (pre ++ y :: bs) ∧ Ring m' sb [] ∧
      (∀ b, m'.valueOf b = m.valueOf b) ∧ m'.fresh = m.fresh ∧
      (∀ b, m'.cells b = none ↔ m.cells b = none) ∧
      (∀ b, b ∉ sa :: pre.map (fun x => x.1) → b ∉ sb :: (y :: bs).map (fun x => x.1) →
        m'.nextOf b = m.nextOf b ∧ m'.prevOf b = m.prevOf b) := by
  -- the place at the end of ring a
  have ha0 : Ring m sa (pre ++ []) := by simpa using ha
  obtain ⟨LA, u, va0, LA2, hLA, hu, hva, hA1, hA2, ca1, -, ca3, -⟩ := ring_position pre [] ha0.2.2
  simp only [List.map_nil, List.nil_append, List.cons.injEq] at hA2
  obtain ⟨rfl, rfl⟩ := hA2
  -- the place at the end of ring b
  have hb0 : Ring m sb ((y :: bs) ++ []) := by simpa using hb
  obtain ⟨LB, t, vb0, LB2, hLB, ht, hvb, hB1, hB2, cb1, -, cb3, -⟩ :=
    ring_position (y :: bs) [] hb0.2.2
  simp only [List.map_nil, List.nil_append, List.cons.injEq] at hB2
  obtain ⟨rfl, rfl⟩ := hB2
  obtain ⟨B0, rfl⟩ : ∃ B0, LB = sb :: B0 := by
    cases LB with
    | nil =>
      have := congrArg List.length hB1
      simp at this
    | cons c LB =>
      simp only [List.cons_append, List.cons.injEq] at hB1
      exact ⟨LB, by rw [hB1.1]⟩
  have hB : (y :: bs).map (fun x => x.1) = B0 ++ [t] := by
    simp only [List.cons_append, List.cons.injEq, true_and] at hB1
    exact hB1
  simp only [List.append_nil] at hLA hLB
  have hlA := ha.1
  have hlB := hb.1
  -- membership facts
  have huA : u ∈ sa :: pre.map (fun x => x.1) := by rw [hA1]; simp
  have htB : t ∈ (y :: bs).map (fun x => x.1) := by rw [hB]; simp
  have hyB : y.1 ∈ (y :: bs).map (fun x => x.1) := by simp
  have hdis' : ∀ b, b ∈ sb :: (y :: bs).map (fun x => x.1) →
      b ∉ sa :: pre.map (fun x => x.1) := fun b h1 h2 => hdis b h2 h1
  have hsab : sa ≠ sb := fun e => hdis sa (by simp) (by simp [e])
  have hut : u ≠ t := fun e => hdis u huA (by rw [e]; exact List.mem_cons_of_mem _ htB)
  have husb : u ≠ sb := fun e => hdis u huA (by simp [e])
  have huy : u ≠ y.1 := fun e => hdis u huA (by rw [e]; exact List.mem_cons_of_mem _ hyB)
  have htsb : t ≠ sb := by
    intro e
    have := (List.nodup_cons.1 hb.2.2).1
    exact this (e ▸ htB)
  have htsa : t ≠ sa := fun e => hdis sa (by simp) (by rw [← e]; exact List.mem_cons_of_mem _ htB)
  have hysb : y.1 ≠ sb := hb.not_mem_sentinel (by simp)
  have hysa : y.1 ≠ sa :=
    fun e => hdis sa (by simp) (by rw [← e]; exact List.mem_cons_of_mem _ hyB)
  -- the reads
  have hprev_sb : m.prevOf sb = some (some t) := by rw [hb.sentinel_prev, ht]
  have hprev_y : m.prevOf y.1 = some (some sb) := by
    have hb0' : Ring m sb ([] ++ y :: bs) := hb
    have := (Ring.node hb0').2.1
    simpa using this
  have hprev_sa : m.prevOf sa = some (some u) := by rw [ha.sentinel_prev, hu]
  have hnext_u : m.nextOf u = some (some sa) := by
    obtain ⟨u', v', hu', hv', hn, -⟩ := ha0.position
    simp only [headPtr_nil, Option.some.injEq] at hv'
    rw [hu] at hu'
    simp only [Option.some.injEq] at hu'
    subst hu' hv'
    exact hn
  have hnext_t : m.nextOf t = some (some sb) := by
    obtain ⟨u', v', hu', hv', hn, -⟩ := hb0.position
    simp only [headPtr_nil, Option.some.injEq] at hv'
    rw [ht] at hu'
    simp only [Option.some.injEq] at hu'
    subst hu' hv'
    exact hn
  -- the writes
  obtain ⟨m1, e1, N1, P1, V1, F1, A1⟩ := LMem.setNext_spec (m := m) (a := sb)
    (LMem.alloc_of_prevOf hprev_sb) (some sb)
  obtain ⟨m2, e2, P2, N2, V2, F2, A2⟩ := LMem.setPrev_spec (m := m1) (a := sb)
    (by rw [Ne, A1]; exact LMem.alloc_of_prevOf hprev_sb) (some sb)
  obtain ⟨m3, e3, N3, P3, V3, F3, A3⟩ := LMem.setNext_spec (m := m2) (a := u)
    (by rw [Ne, A2, A1]; exact LMem.alloc_of_nextOf hnext_u) (some y.1)
  obtain ⟨m4, e4, P4, N4, V4, F4, A4⟩ := LMem.setPrev_spec (m := m3) (a := y.1)
    (by rw [Ne, A3, A2, A1]; exact LMem.alloc_of_prevOf hprev_y) (some u)
  obtain ⟨m5, e5, N5, P5, V5, F5, A5⟩ := LMem.setNext_spec (m := m4) (a := t)
    (by rw [Ne, A4, A3, A2, A1]; exact LMem.alloc_of_nextOf hnext_t) (some sa)
  obtain ⟨m6, e6, P6, N6, V6, F6, A6⟩ := LMem.setPrev_spec (m := m5) (a := sa)
    (by rw [Ne, A5, A4, A3, A2, A1]; exact LMem.alloc_of_prevOf hprev_sa) (some t)
  have hN : ∀ b, m6.nextOf b = if b = t then some (some sa) else if b = u then some (some y.1)
      else if b = sb then some (some sb) else m.nextOf b := by
    intro b; rw [N6, N5, N4, N3, N2, N1]
  have hP : ∀ b, m6.prevOf b = if b = sa then some (some t) else if b = y.1 then some (some u)
      else if b = sb then some (some sb) else m.prevOf b := by
    intro b; rw [P6, P5, P4, P3, P2, P1]
  have hV : ∀ b, m6.valueOf b = m.valueOf b := by
    intro b; rw [V6, V5, V4, V3, V2, V1]
  refine ⟨m6, fun fuel hf => ?_, ⟨?_, ?_, ?_⟩, ⟨?_, ?_, ?_⟩, hV, by rw [F6, F5, F4, F3, F2, F1],
    fun b => by rw [A6, A5, A4, A3, A2, A1], ?_⟩
  · -- the run
    have hne : (some y.1 : Ptr) ≠ some sb := by simpa using hysb
    have hcount := splice_count_spec (y :: bs) [] 0 (by simpa using hb) (by omega) fuel hf
    simp only [headPtr_cons, Nat.zero_add] at hcount
    have g1 : m1.prevOf y.1 = some (some sb) := by rw [P1, hprev_y]
    have g2 : m2.prevOf sa = some (some u) := by rw [P2, if_neg hsab, P1, hprev_sa]
    simp only [list_splice_range, hne, if_false, hcount, ok_bind, LMem.getPrev_of hprev_sb,
      LMem.getPrev_of hprev_y, e1, LMem.getPrev_of g1, e2, LMem.getPrev_of g2, e3, e4, e5, e6,
      pure_eq_ok]
    rw [← hn2, size_sub_self (by omega), size_add_eq hsz]
  · -- links of ring a
    have hlist : sa :: ((pre ++ y :: bs).map (fun x => x.1) ++ [sa]) =
        (LA ++ [u]) ++ ((B0 ++ [t]) ++ [sa]) := by
      simp only [List.map_append]
      rw [← hB, ← hA1]
      simp
    rw [Links, hlist]
    have hLA' : Links m (LA ++ [u]) := by
      rw [Links, hLA] at hlA
      exact Links_left hlA
    have hLB' : Links m (B0 ++ [t]) := by
      rw [Links, hLB] at hlB
      have := Links_left hlB
      simp only [List.cons_append] at this
      exact List.Chain'.tail this
    have hndA : (LA ++ [u]).Nodup := by rw [← hA1]; exact ha.2.2
    have hndB : (B0 ++ [t]).Nodup := by rw [← hB]; exact (List.nodup_cons.1 hb.2.2).2
    have hmemA : ∀ a, a ∈ LA → a ∈ sa :: pre.map (fun x => x.1) := by
      intro a h; rw [hA1]; simp [h]
    have hmemB : ∀ a, a ∈ B0 → a ∈ sb :: (y :: bs).map (fun x => x.1) := by
      intro a h; rw [hB]; simp [h]
    have hLA6 : Links m6 (LA ++ [u]) := by
      refine Links_frame hLA' ?_ ?_
      · intro a h
        rw [mem_dropLast_append_singleton] at h
        have h1 : a ≠ t := fun e => hdis a (hmemA a h) (by rw [e]; exact List.mem_cons_of_mem _ htB)
        have h2 : a ≠ u := fun e => (List.nodup_append.1 hndA).2.2 h (by simp [e])
        have h3 : a ≠ sb := fun e => hdis a (hmemA a h) (by simp [e])
        rw [hN, if_neg h1, if_neg h2, if_neg h3]
      · intro b h
        have hb' : b ∈ pre.map (fun x => x.1) := by
          have : (LA ++ [u]).tail = pre.map (fun x => x.1) := by rw [← hA1]; rfl
          rw [← this]; exact h
        have h1 : b ≠ sa := fun e => (List.nodup_cons.1 ha.2.2).1 (e ▸ hb')
        have h2 : b ≠ y.1 :=
          fun e => hdis b (List.mem_cons_of_mem _ hb') (by rw [e]; exact List.mem_cons_of_mem _ hyB)
        have h3 : b ≠ sb := fun e => hdis b (List.mem_cons_of_mem _ hb') (by simp [e])
        rw [hP, if_neg h1, if_neg h2, if_neg h3]
    have hLB6 : Links m6 (B0 ++ [t]) := by
      refine Links_frame hLB' ?_ ?_
      · intro a h
        rw [mem_dropLast_append_singleton] at h
        have h1 : a ≠ t := fun e => (List.nodup_append.1 hndB).2.2 h (by simp [e])
        have h2 : a ≠ u := fun e => hdis' a (hmemB a h) (e ▸ huA)
        have h3 : a ≠ sb := by
          intro e
          have := (List.nodup_cons.1 hb.2.2).1
          rw [hB] at this
          exact this (by simp [← e, h])
        rw [hN, if_neg h1, if_neg h2, if_neg h3]
      · intro b h
        have hb' : b ∈ bs.map (fun x => x.1) := by
          have : (B0 ++ [t]).tail = bs.map (fun x => x.1) := by rw [← hB]; rfl
          rw [← this]; exact h
        have hbB : b ∈ sb :: (y :: bs).map (fun x => x.1) := by
          simp only [List.map_cons, List.mem_cons]; exact Or.inr (Or.inr hb')
        have h1 : b ≠ sa := fun e => hdis' b hbB (by simp [e])
        have h2 : b ≠ y.1 := by
          intro e
          have := (List.nodup_cons.1 (List.nodup_cons.1 hb.2.2).2).1
          exact this (by show y.1 ∈ _; rw [← e]; exact hb')
        have h3 : b ≠ sb := by
          intro e
          exact (List.nodup_cons.1 hb.2.2).1 (by rw [← e]; exact List.mem_cons_of_mem _ hb')
        rw [hP, if_neg h1, if_neg h2, if_neg h3]
    have hhead : (B0 ++ [t] ++ [sa]).head? = some y.1 := by
      rw [← hB]; rfl
    refine List.chain'_append.2 ⟨hLA6, List.chain'_append.2 ⟨hLB6, List.chain'_singleton _, ?_⟩, ?_⟩
    · intro x hx z hz
      rw [List.getLast?_concat] at hx
      simp only [Option.mem_def, Option.some.injEq, List.head?_cons] at hx hz
      subst hx hz
      refine ⟨by rw [hN, if_pos rfl], by rw [hP, if_pos rfl]⟩
    · intro x hx z hz
      rw [hhead] at hz
      rw [List.getLast?_concat] at hx
      simp only [Option.mem_def, Option.some.injEq] at hx hz
      subst hx hz
      refine ⟨by rw [hN, if_neg hut, if_pos rfl], by rw [hP, if_neg hysa, if_pos rfl]⟩
  · -- values of ring a
    intro x hx
    rw [hV]
    simp only [List.mem_append] at hx
    rcases hx with hx | hx
    · exact ha.2.1 x hx
    · exact hb.2.1 x hx
  · -- distinctness of ring a
    have h1 := ha.2.2
    have h2 := (List.nodup_cons.1 hb.2.2).2
    simp only [List.map_append]
    rw [← List.cons_append]
    refine List.nodup_append.2 ⟨h1, h2, ?_⟩
    intro a ha1 ha2
    exact hdis a ha1 (List.mem_cons_of_mem _ ha2)
  · -- links of ring b
    simp only [List.map_nil, List.nil_append]
    refine Links_cons_cons.2 ⟨⟨?_, ?_⟩, Links_singleton _ _⟩
    · rw [hN, if_neg (Ne.symm htsb), if_neg (Ne.symm husb), if_pos rfl]
    · rw [hP, if_neg (Ne.symm hsab), if_neg (Ne.symm hysb), if_pos rfl]
  · intro x hx; simp at hx
  · simp
  · -- frame
    intro b hba hbb
    have h1 : b ≠ t := fun e => hbb (by rw [e]; exact List.mem_cons_of_mem _ htB)
    have h2 : b ≠ u := fun e => hba (e ▸ huA)
    have h3 : b ≠ sb := fun e => hbb (by simp [e])
    have h4 : b ≠ sa := fun e => hba (by simp [e])
    have h5 : b ≠ y.1 := fun e => hbb (by rw [e]; exact List.mem_cons_of_mem _ hyB)
    rw [hN, hP, if_neg h1, if_neg h2, if_neg h3, if_neg h4, if_neg h5, if_neg h3]
    exact ⟨rfl, rfl⟩

theorem merge_takeLeft_sorted [LinearOrder T] : ∀ (xs ys : List (Nat × T)),
    xs.Pairwise (fun a b => a.2 ≤ b.2) → ys.Pairwise (fun a b => a.2 ≤ b.2) →
    (List.merge xs ys takeLeft).Pairwise (fun a b => a.2 ≤ b.2) := by
  intro xs
  induction xs with
  | nil => intro ys _ h; simpa using h
  | cons x xs ih =>
    intro ys
    induction ys with
    | nil => intro h _; simpa using h
    | cons y ys ih2 =>
      intro h1 h2
      rw [List.cons_merge_cons]
      by_cases hxy : takeLeft x y = true
      · rw [if_pos hxy]
        have hle : x.2 ≤ y.2 := by simpa [takeLeft] using hxy
        refine List.Pairwise.cons ?_ (ih (y :: ys) h1.tail h2)
        intro z hz
        rw [List.mem_merge, List.mem_cons] at hz
        rcases hz with hz | rfl | hz
        · exact List.rel_of_pairwise_cons h1 hz
        · exact hle
        · exact le_trans hle (List.rel_of_pairwise_cons h2 hz)
      · rw [if_neg hxy]
        have hlt : y.2 < x.2 := by simpa [takeLeft] using hxy
        refine List.Pairwise.cons ?_ (ih2 h1 h2.tail)
        intro z hz
        rw [List.mem_merge, List.mem_cons] at hz
        rcases hz with (rfl | hz) | hz
        · exact le_of_lt hlt
        · exact le_trans (le_of_lt hlt) (List.rel_of_pairwise_cons h1 hz)
        · exact List.rel_of_pairwise_cons h2 hz

/-- Among the elements with one value, a merge keeps those of the left list, in their
order, before those of the right list, in their order. -/
theorem merge_takeLeft_filter [LinearOrder T] (v : T) : ∀ (xs ys : List (Nat × T)),
    xs.Pairwise (fun a b => a.2 ≤ b.2) →
    (List.merge xs ys takeLeft).filter (fun e => decide (e.2 = v)) =
      xs.filter (fun e => decide (e.2 = v)) ++ ys.filter (fun e => decide (e.2 = v)) := by
  intro xs
  induction xs with
  | nil => intro ys _; simp
  | cons x xs ih =>
    intro ys
    induction ys with
    | nil => intro _; simp
    | cons y ys ih2 =>
      intro h1
      rw [List.cons_merge_cons]
      by_cases hxy : takeLeft x y = true
      · rw [if_pos hxy]
        simp only [List.filter_cons]
        rw [ih (y :: ys) h1.tail]
        simp only [List.filter_cons]
        by_cases hv : x.2 = v <;> simp [hv]
      · rw [if_neg hxy, List.filter_cons, ih2 h1]
        have hlt : y.2 < x.2 := by simpa [takeLeft] using hxy
        by_cases hv : y.2 = v
        · have hnil : (x :: xs).filter (fun e => decide (e.2 = v)) = [] := by
            rw [List.filter_eq_nil_iff]
            intro z hz
            simp only [decide_eq_true_eq]
            rw [List.mem_cons] at hz
            rcases hz with rfl | hz
            · rw [← hv]; exact ne_of_gt hlt
            · rw [← hv]
              exact ne_of_gt (lt_of_lt_of_le hlt (List.rel_of_pairwise_cons h1 hz))
          rw [hnil]
          simp [hv]
        · simp [hv]

/-- The loop of `merge`: positioned after the nodes `pre` of `*this`, with the nodes `as`
of `*this` and all nodes `bs` of `other` still to go, it runs until one of the two is
used up and leaves `pre` followed by the merge of `as` and `bs`, split into the part in
`*this` and the part left in `other`. -/
theorem merge_loop_spec [LinearOrder T] {sa sb : Nat} :
    ∀ (n : Nat) (as bs pre : List (Nat × T)) (m : LMem T) (n1 : Nat),
      as.length + bs.length ≤ n → Ring m sa (pre ++ as) → Ring m sb bs →
      Apart sa (pre ++ as) sb bs → n1 + bs.length < 2 ^ 64 →
      ∃ m' pre' as' bs',
        (∀ fuel, n < fuel →
          merge_loop fuel m ⟨sa, n1⟩ ⟨sb, bs.length⟩ (headPtr as (some sa))
              (headPtr bs (some sb)) =
            .ok (m', ⟨sa, n1 + (bs.length - bs'.length)⟩, ⟨sb, bs'.length⟩,
              headPtr bs' (some sb))) ∧
        Ring m' sa (pre' ++ as') ∧ Ring m' sb bs' ∧ Apart sa (pre' ++ as') sb bs' ∧
        (bs' ≠ [] → as' = []) ∧ bs'.length ≤ bs.length ∧
        pre' ++ as' ++ bs' = pre ++ List.merge as bs takeLeft := by
  intro n
  induction n with
  | zero =>
    intro as bs pre m n1 hlen ha hb hd hsz
    have h1 : as = [] := List.length_eq_zero.1 (by omega)
    have h2 : bs = [] := List.length_eq_zero.1 (by omega)
    subst h1 h2
    refine ⟨m, pre, [], [], fun fuel hf => ?_, ha, hb, hd, fun h => absurd rfl h, le_rfl, by simp⟩
    obtain ⟨fuel, rfl⟩ : ∃ f, fuel = f + 1 := ⟨fuel - 1, by omega⟩
    simp [merge_loop, list.end]
  | succ n ih =>
    intro as bs pre m n1 hlen ha hb hd hsz
    cases as with
    | nil =>
      refine ⟨m, pre, [], bs, fun fuel hf => ?_, ha, hb, hd, fun _ => rfl, le_rfl, by simp⟩
      obtain ⟨fuel, rfl⟩ : ∃ f, fuel = f + 1 := ⟨fuel - 1, by omega⟩
      simp [merge_loop, list.end]
    | cons x as =>
      cases bs with
      | nil =>
        refine ⟨m, pre, x :: as, [], fun fuel hf => ?_, ha, hb, hd, fun h => absurd rfl h, le_rfl,
          by simp⟩
        obtain ⟨fuel, rfl⟩ : ∃ f, fuel = f + 1 := ⟨fuel - 1, by omega⟩
        simp [merge_loop, list.end]
      | cons y bs =>
        simp only [List.length_cons] at hlen hsz
        have hxs : x.1 ≠ sa := ha.not_mem_sentinel (by simp)
        have hys : y.1 ≠ sb := hb.not_mem_sentinel (by simp)
        have hnx := ha.node
        have hb0 : Ring m sb ([] ++ y :: bs) := hb
        have hny := Ring.node hb0
        by_cases hlt : y.2 < x.2
        · -- the first node of `other` goes before the current node of `*this`
          obtain ⟨m1, e1, ha1, hb1, -, -, -, -⟩ :=
            @splice_one_spec T m sa sb n1 (bs.length + 1) pre (x :: as) bs y ha hb hd
          have hd1 : Apart sa ((pre ++ [y]) ++ x :: as) sb bs := by
            intro b hb'
            simp only [List.append_assoc, List.singleton_append, List.map_append, List.map_cons,
              List.mem_cons, List.mem_append] at hb'
            have hnb := hb.2.2
            simp only [List.map_cons, List.nodup_cons, List.mem_cons, not_or] at hnb
            by_cases hby : b = y.1
            · subst hby
              simp only [List.mem_cons, not_or]
              exact ⟨hnb.1.1 ∘ Eq.symm, hnb.2.1⟩
            · have : b ∈ sa :: (pre ++ x :: as).map (fun x => x.1) := by
                simp only [List.map_append, List.map_cons, List.mem_cons, List.mem_append]
                tauto
              have := hd b this
              simp only [List.map_cons, List.mem_cons, not_or] at this ⊢
              exact ⟨this.1, this.2.2⟩
          have ha1' : Ring m1 sa ((pre ++ [y]) ++ x :: as) := by simpa using ha1
          obtain ⟨m', pre', as', bs', hrun, hra, hrb, hrd, hre, hrl, hrm⟩ :=
            ih (x :: as) bs (pre ++ [y]) m1 (n1 + 1) (by simp only [List.length_cons]; omega)
              ha1' hb1 hd1 (by omega)
          refine ⟨m', pre', as', bs', fun fuel hf => ?_, hra, hrb, hrd, hre, by
            simp only [List.length_cons]; omega, ?_⟩
          · obtain ⟨fuel, rfl⟩ : ∃ f, fuel = f + 1 := ⟨fuel - 1, by omega⟩
            have c1 : (some x.1 : Ptr) ≠ some sa := by simpa using hxs
            have c2 : (some y.1 : Ptr) ≠ some sb := by simpa using hys
            have hstep := hrun fuel (by omega)
            simp only [headPtr_cons] at hstep e1
            rw [size_inc_eq (by omega), size_dec_eq (by omega)] at e1
            simp only [merge_loop, list.end, headPtr_cons, ne_eq, c1, c2, not_false_eq_true,
              and_self, if_true, LMem.getValue_of hny.2.2, LMem.getValue_of hnx.2.2, ok_bind, hlt,
              LMem.getNext_of hny.1, List.length_cons, e1, hstep]
            have harith : n1 + 1 + (bs.length - bs'.length) = n1 + (bs.length + 1 - bs'.length) := by
              omega
            rw [harith]
          · rw [hrm, List.cons_merge_cons, if_neg (by simp [takeLeft, hlt])]
            simp
        · -- the current node of `*this` stays
          have ha' : Ring m sa ((pre ++ [x]) ++ as) := by simpa using ha
          have hd' : Apart sa ((pre ++ [x]) ++ as) sb (y :: bs) := by simpa using hd
          obtain ⟨m', pre', as', bs', hrun, hra, hrb, hrd, hre, hrl, hrm⟩ :=
            ih as (y :: bs) (pre ++ [x]) m n1 (by simp only [List.length_cons]; omega)
              ha' hb hd' (by simp only [List.length_cons]; omega)
          refine ⟨m', pre', as', bs', fun fuel hf => ?_, hra, hrb, hrd, hre, hrl, ?_⟩
          · obtain ⟨fuel, rfl⟩ : ∃ f, fuel = f + 1 := ⟨fuel - 1, by omega⟩
            have c1 : (some x.1 : Ptr) ≠ some sa := by simpa using hxs
            have c2 : (some y.1 : Ptr) ≠ some sb := by simpa using hys
            have hstep := hrun fuel (by omega)
            simp only [headPtr_cons] at hstep
            simp only [merge_loop, list.end, headPtr_cons, ne_eq, c1, c2, not_false_eq_true,
              and_self, if_true, LMem.getValue_of hny.2.2, LMem.getValue_of hnx.2.2, ok_bind, hlt,
              if_false, LMem.getNext_of hnx.1, hstep]
          · rw [hrm, List.cons_merge_cons, if_pos (by simp [takeLeft, hlt])]
            simp

/-- What `merge` does to two rings that share no node: `*this` becomes the merge of the
two sequences, `other` becomes empty. -/
theorem list_merge_spec [LinearOrder T] {m : LMem T} {sa sb n1 : Nat} {xs ys : List (Nat × T)}
    (ha : Ring m sa xs) (hb : Ring m sb ys) (hd : Apart sa xs sb ys)
    (hsz : n1 + ys.length < 2 ^ 64) :
    ∃ m', (∀ fuel, xs.length + ys.length < fuel →
        list_merge fuel m ⟨sa, n1⟩ ⟨sb, ys.length⟩ =
          .ok (m', ⟨sa, n1 + ys.length⟩, ⟨sb, 0⟩)) ∧
      Ring m' sa (List.merge xs ys takeLeft) ∧ Ring m' sb [] := by
  have hsab : sa ≠ sb := fun e => hd sa (by simp) (by simp [e])
  obtain ⟨m1, pre', as', bs', hrun, hra, hrb, hrd, hre, hrl, hrm⟩ :=
    merge_loop_spec (xs.length + ys.length) xs ys [] m n1 le_rfl (by simpa using ha) hb
      (by simpa using hd) hsz
  simp only [List.nil_append] at hrm
  cases bs' with
  | nil =>
    refine ⟨m1, fun fuel hf => ?_, ?_, hrb⟩
    · have hstep := hrun fuel hf
      simp only [List.length_nil, Nat.sub_zero, headPtr_nil] at hstep
      simp only [list_merge, hsab, if_false, list.begin, LMem.getNext_of ha.sentinel_next,
        LMem.getNext_of hb.sentinel_next, ok_bind, hstep, list.end, ne_eq, not_true_eq_false,
        pure_eq_ok]
    · rw [← hrm]
      simpa using hra
  | cons y bs' =>
    have has : as' = [] := hre (by simp)
    subst has
    simp only [List.append_nil] at hra hrd hrm
    obtain ⟨m2, hrun2, hra2, hrb2, -⟩ :=
      @splice_range_spec T m1 sa sb (n1 + (ys.length - (y :: bs').length)) _ pre' bs' y hra hrb hrd rfl
        (by omega)
    refine ⟨m2, fun fuel hf => ?_, ?_, hrb2⟩
    · have hstep := hrun fuel hf
      have hstep2 := hrun2 fuel (by omega)
      have hys : (some y.1 : Ptr) ≠ some sb := by
        simpa using hrb.not_mem_sentinel (x := y) (by simp)
      have harith : n1 + (ys.length - (y :: bs').length) + (y :: bs').length = n1 + ys.length := by
        omega
      rw [harith] at hstep2
      simp only [headPtr_cons] at hstep
      simp only [list_merge, hsab, if_false, list.begin, LMem.getNext_of ha.sentinel_next,
        LMem.getNext_of hb.sentinel_next, ok_bind, hstep, list.end, ne_eq, hys,
        not_false_eq_true, if_true, hstep2]
    · rw [← hrm]
      exact hra2

/-- The values of a ring read from its first node on. -/
theorem readValues_spec {m : LMem T} {s : Nat} : ∀ (xs pre : List (Nat × T)),
    Ring m s (pre ++ xs) → ∀ fuel, xs.length < fuel →
      readValues fuel m (headPtr xs (some s)) (some s) = .ok (xs.map (fun x => x.2)) := by
  intro xs
  induction xs with
  | nil =>
    intro pre _ fuel hf
    obtain ⟨fuel, rfl⟩ : ∃ f, fuel = f + 1 := ⟨fuel - 1, by omega⟩
    simp [readValues]
  | cons x xs ih =>
    intro pre h fuel hf
    obtain ⟨fuel, rfl⟩ : ∃ f, fuel = f + 1 := ⟨fuel - 1, by omega⟩
    have hx : (some x.1 : Ptr) ≠ some s := by simpa using h.not_mem_sentinel (x := x) (by simp)
    have hn := h.node
    have h' : Ring m s ((pre ++ [x]) ++ xs) := by simpa using h
    have := ih (pre ++ [x]) h' fuel (by simp only [List.length_cons] at hf; omega)
    simp [readValues, hx, LMem.getValue_of hn.2.2, LMem.getNext_of hn.1, this]

theorem Seg.seg_nil (m : LMem T) : Seg m [] :=
  ⟨Links_nil m, fun _ h => absurd h (List.not_mem_nil _), fun _ h => by simp at h⟩

theorem Seg.tail {m : LMem T} {x : Nat × T} {xs : List (Nat × T)} (h : Seg m (x :: xs)) :
    Seg m xs := by
  obtain ⟨hl, hv, hn⟩ := h
  refine ⟨?_, fun y hy => hv y (List.mem_cons_of_mem _ hy), fun y hy => ?_⟩
  · cases xs with
    | nil => exact Links_nil m
    | cons y ys => exact (Links_cons_cons.1 hl).2
  · cases xs with
    | nil => simp at hy
    | cons z zs => exact hn y (by rw [List.getLast?_cons_cons]; exact hy)

theorem Seg.next_head {m : LMem T} {x : Nat × T} {xs : List (Nat × T)} (h : Seg m (x :: xs)) :
    m.nextOf x.1 = some (headPtr xs none) := by
  cases xs with
  | nil => exact h.2.2 x rfl
  | cons y ys => exact (Links_cons_cons.1 h.1).1.1

theorem Seg.value_head {m : LMem T} {x : Nat × T} {xs : List (Nat × T)} (h : Seg m (x :: xs)) :
    m.valueOf x.1 = some x.2 := h.2.1 x (List.mem_cons_self _ _)

theorem Seg.allocated {m : LMem T} {xs : List (Nat × T)} (h : Seg m xs) {a : Nat}
    (ha : a ∈ xs.map (fun x => x.1)) : m.cells a ≠ none := by
  obtain ⟨x, hx, rfl⟩ := List.mem_map.1 ha
  exact LMem.alloc_of_valueOf (h.2.1 x hx)

/-- A run of nodes survives a change of memory that keeps the `next` and `value` fields
of its nodes and the `prev` field of every node but the first. -/
theorem Seg.seg_frame {m m' : LMem T} {xs : List (Nat × T)} (h : Seg m xs)
    (hn : ∀ a ∈ xs.map (fun x => x.1), m'.nextOf a = m.nextOf a)
    (hp : ∀ a ∈ (xs.map (fun x => x.1)).tail, m'.prevOf a = m.prevOf a)
    (hv : ∀ a ∈ xs.map (fun x => x.1), m'.valueOf a = m.valueOf a) : Seg m' xs := by
  obtain ⟨hl, hvs, hlast⟩ := h
  refine ⟨Links_frame hl (fun a ha => hn a (List.mem_of_mem_dropLast ha)) hp,
    Vals_frame hvs (fun x hx => hv x.1 (List.mem_map_of_mem _ hx)), fun x hx => ?_⟩
  rw [hn x.1 (List.mem_map_of_mem _ (List.mem_of_getLast?_eq_some hx))]
  exact hlast x hx

/-- The last address of a non-empty sequence that starts at `d`. -/
theorem tailPtr_last (d : Nat) (out : List (Nat × T)) :
    ∃ t L, tailPtr out (some d) = some t ∧ d :: out.map (fun x => x.1) = L ++ [t] := by
  obtain ⟨L, t, h⟩ := snoc_decomp d (out.map (fun x => x.1))
  exact ⟨t, L, tailPtr_of_snoc out d L t h, h⟩

/-- The two assignments `tail->next = x; x->prev = tail` that append the node `x` to the
sequence built behind the node `d`. -/
theorem append_step {m : LMem T} {d : Nat} {out : List (Nat × T)} {x : Nat × T}
    (hl : Links m (d :: out.map (fun x => x.1))) (hv : Vals m out) (hd : m.cells d ≠ none)
    (hnd : (d :: out.map (fun x => x.1)).Nodup) (hx : m.valueOf x.1 = some x.2)
    (hxo : x.1 ∉ d :: out.map (fun x => x.1)) :
    ∃ t m1 m2, tailPtr out (some d) = some t ∧ t ∈ d :: out.map (fun x => x.1) ∧
      m.setNext (some t) (some x.1) = .ok m1 ∧ m1.setPrev (some x.1) (some t) = .ok m2 ∧
      Links m2 (d :: (out ++ [x]).map (fun x => x.1)) ∧ Vals m2 (out ++ [x]) ∧
      (∀ b, m2.nextOf b = if b = t then some (some x.1) else m.nextOf b) ∧
      (∀ b, m2.prevOf b = if b = x.1 then some (some t) else m.prevOf b) ∧
      (∀ b, m2.valueOf b = m.valueOf b) ∧ m2.fresh = m.fresh ∧
      (∀ b, m2.cells b = none ↔ m.cells b = none) := by
  obtain ⟨t, L, ht, hL⟩ := tailPtr_last d out
  have htm : t ∈ d :: out.map (fun x => x.1) := by rw [hL]; simp
  have hta : m.cells t ≠ none := by
    rw [List.mem_cons] at htm
    rcases htm with rfl | htm
    · exact hd
    · obtain ⟨o, ho, rfl⟩ := List.mem_map.1 htm
      exact LMem.alloc_of_valueOf (hv o ho)
  obtain ⟨m1, e1, n1, p1, v1, f1, a1⟩ := LMem.setNext_spec hta (some x.1)
  obtain ⟨m2, e2, p2, n2, v2, f2, a2⟩ := LMem.setPrev_spec (m := m1) (a := x.1)
    (by rw [Ne, a1]; exact LMem.alloc_of_valueOf hx) (some t)
  have hn : ∀ b, m2.nextOf b = if b = t then some (some x.1) else m.nextOf b := by
    intro b; rw [n2, n1]
  have hp : ∀ b, m2.prevOf b = if b = x.1 then some (some t) else m.prevOf b := by
    intro b; rw [p2, p1]
  have hval : ∀ b, m2.valueOf b = m.valueOf b := by
    intro b; rw [v2, v1]
  have htL : t ∉ L := by
    rw [hL] at hnd
    have := List.nodup_append.1 hnd
    intro h
    exact this.2.2 h (List.mem_singleton_self t)
  refine ⟨t, m1, m2, ht, htm, e1, e2, ?_, ?_, hn, hp, hval, by rw [f2, f1], fun b => by
    rw [a2, a1]⟩
  · have : d :: (out ++ [x]).map (fun x => x.1) = L ++ t :: [x.1] := by
      rw [List.map_append, ← List.cons_append, hL]
      simp
    rw [this]
    refine Links_split.2 ⟨?_, Links_cons_cons.2 ⟨⟨?_, ?_⟩, Links_singleton _ _⟩⟩
    · rw [hL] at hl
      refine Links_frame hl (fun a ha => ?_) (fun b hb => ?_)
      · rw [mem_dropLast_append_singleton] at ha
        rw [hn, if_neg (fun e : a = t => htL (e ▸ ha))]
      · rw [hp, if_neg]
        intro e
        apply hxo
        rw [hL, ← e]
        exact List.mem_of_mem_tail hb
    · rw [hn, if_pos rfl]
    · rw [hp, if_pos rfl]
  · intro y hy
    rw [hval]
    rw [List.mem_append, List.mem_singleton] at hy
    rcases hy with hy | rfl
    · exact hv y hy
    · exact hx

/-- One round of the loop of `merge_two_sorted_`: the node `x` at the head of one input
goes behind the output built so far. -/
theorem take_step {m : LMem T} {d : Nat} {out P Q : List (Nat × T)} {x : Nat × T}
    (hl : Links m (d :: out.map (fun x => x.1))) (hv : Vals m out) (hd : m.cells d ≠ none)
    (hP : Seg m (x :: P)) (hQ : Seg m Q)
    (hnd : (d :: (out ++ (x :: P) ++ Q).map (fun x => x.1)).Nodup) :
    ∃ t m1 m2, tailPtr out (some d) = some t ∧
      m.setNext (some t) (some x.1) = .ok m1 ∧ m1.setPrev (some x.1) (some t) = .ok m2 ∧
      m2.getNext (some x.1) = .ok (headPtr P none) ∧ m2.getNext (some t) = .ok (some x.1) ∧
      Links m2 (d :: (out ++ [x]).map (fun x => x.1)) ∧ Vals m2 (out ++ [x]) ∧
      m2.cells d ≠ none ∧ Seg m2 P ∧ Seg m2 Q ∧
      (∀ b, b ∉ d :: (out ++ (x :: P) ++ Q).map (fun x => x.1) →
        m2.nextOf b = m.nextOf b ∧ m2.prevOf b = m.prevOf b) ∧
      (∀ b, m2.valueOf b = m.valueOf b) ∧ m2.fresh = m.fresh ∧
      (∀ b, m2.cells b = none ↔ m.cells b = none) := by
  have hnd' : ((d :: out.map (fun x => x.1)) ++ (x.1 :: P.map (fun x => x.1)) ++
      Q.map (fun x => x.1)).Nodup := by simpa using hnd
  have hN1 := (List.nodup_append.1 (List.nodup_append.1 hnd').1).1
  have hN2 := (List.nodup_append.1 (List.nodup_append.1 hnd').1).2.1
  have hD1 := (List.nodup_append.1 (List.nodup_append.1 hnd').1).2.2
  have hD2 := (List.nodup_append.1 hnd').2.2
  have hxo : x.1 ∉ d :: out.map (fun x => x.1) := fun h => hD1 h (List.mem_cons_self _ _)
  obtain ⟨t, m1, m2, ht, htm, e1, e2, hl2, hv2, hn, hp, hval, hf, ha⟩ :=
    append_step hl hv hd hN1 hP.value_head hxo
  have hxt : x.1 ≠ t := fun e => hxo (e ▸ htm)
  have hxP : x.1 ∉ P.map (fun x => x.1) := (List.nodup_cons.1 hN2).1
  have hPt : ∀ a ∈ P.map (fun x => x.1), a ≠ t := fun a h e =>
    hD1 htm (List.mem_cons_of_mem _ (e ▸ h))
  have hQt : ∀ a ∈ Q.map (fun x => x.1), a ≠ t := fun a h e =>
    hD2 (List.mem_append_left _ htm) (e ▸ h)
  have hQx : ∀ a ∈ Q.map (fun x => x.1), a ≠ x.1 := fun a h e =>
    hD2 (List.mem_append_right _ (List.mem_cons_self _ _)) (e ▸ h)
  refine ⟨t, m1, m2, ht, e1, e2, ?_, ?_, hl2, hv2, by rw [Ne, ha]; exact hd, ?_, ?_, ?_, hval,
    hf, ha⟩
  · exact LMem.getNext_of (by rw [hn, if_neg hxt]; exact hP.next_head)
  · exact LMem.getNext_of (by rw [hn, if_pos rfl])
  · refine hP.tail.seg_frame (fun a h => ?_) (fun a h => ?_) (fun a _ => hval a)
    · rw [hn, if_neg (hPt a h)]
    · rw [hp, if_neg (fun e : a = x.1 => hxP (e ▸ List.mem_of_mem_tail h))]
  · refine hQ.seg_frame (fun a h => ?_) (fun a h => ?_) (fun a _ => hval a)
    · rw [hn, if_neg (hQt a h)]
    · rw [hp, if_neg (hQx a (List.mem_of_mem_tail h))]
  · intro b hb
    have hb1 : b ≠ t := by
      intro e
      apply hb
      rw [e]
      rw [List.mem_cons] at htm ⊢
      rcases htm with h | h
      · exact Or.inl h
      · exact Or.inr (by simp only [List.map_append, List.mem_append]; exact Or.inl (Or.inl h))
    have hb2 : b ≠ x.1 := by
      intro e
      apply hb
      rw [e]
      simp
    rw [hn, hp, if_neg hb1, if_neg hb2]
    exact ⟨rfl, rfl⟩

/-- The loop of `merge_two_sorted_`: with the output `out` built behind the local node
`d` and the inputs `as` and `bs` still to go, it runs until one input is used up and
leaves `out` followed by the merge of `as` and `bs`, split into the output and what is
left of one input. -/
theorem merge_two_sorted_loop_spec [LinearOrder T] {d : Nat} :
    ∀ (n : Nat) (as bs out : List (Nat × T)) (m : LMem T),
      as.length + bs.length ≤ n →
      Links m (d :: out.map (fun x => x.1)) → Vals m out → m.cells d ≠ none →
      Seg m as → Seg m bs →
      (d :: (out ++ as ++ bs).map (fun x => x.1)).Nodup →
      ∃ m' out' as' bs',
        (∀ fuel, n < fuel →
          merge_two_sorted_loop fuel m (headPtr as none) (headPtr bs none)
              (tailPtr out (some d)) =
            .ok (m', headPtr as' none, headPtr bs' none, tailPtr out' (some d))) ∧
        Links m' (d :: out'.map (fun x => x.1)) ∧ Vals m' out' ∧ m'.cells d ≠ none ∧
        Seg m' as' ∧ Seg m' bs' ∧ (as' = [] ∨ bs' = []) ∧
        (as ≠ [] ∨ bs ≠ [] → as' ≠ [] ∨ bs' ≠ []) ∧
        out' ++ as' ++ bs' = out ++ List.merge as bs takeLeft ∧
        (∀ b, b ∉ d :: (out ++ as ++ bs).map (fun x => x.1) →
          m'.nextOf b = m.nextOf b ∧ m'.prevOf b = m.prevOf b) ∧
        (∀ b, m'.valueOf b = m.valueOf b) ∧ m'.fresh = m.fresh ∧
        (∀ b, m'.cells b = none ↔ m.cells b = none) := by
  intro n
  induction n with
  | zero =>
    intro as bs out m hlen hl hv hd ha hb hnd
    have h1 : as = [] := List.length_eq_zero.1 (by omega)
    have h2 : bs = [] := List.length_eq_zero.1 (by omega)
    subst h1 h2
    refine ⟨m, out, [], [], fun fuel hf => ?_, hl, hv, hd, ha, hb, Or.inl rfl, id, by simp,
      fun b _ => ⟨rfl, rfl⟩, fun _ => rfl, rfl, fun _ => Iff.rfl⟩
    obtain ⟨fuel, rfl⟩ : ∃ f, fuel = f + 1 := ⟨fuel - 1, by omega⟩
    simp [merge_two_sorted_loop]
  | succ n ih =>
    intro as bs out m hlen hl hv hd ha hb hnd
    cases as with
    | nil =>
      refine ⟨m, out, [], bs, fun fuel hf => ?_, hl, hv, hd, ha, hb, Or.inl rfl, id, by simp,
        fun b _ => ⟨rfl, rfl⟩, fun _ => rfl, rfl, fun _ => Iff.rfl⟩
      obtain ⟨fuel, rfl⟩ : ∃ f, fuel = f + 1 := ⟨fuel - 1, by omega⟩
      simp [merge_two_sorted_loop]
    | cons x as =>
      cases bs with
      | nil =>
        refine ⟨m, out, x :: as, [], fun fuel hf => ?_, hl, hv, hd, ha, hb, Or.inr rfl, id,
          by simp, fun b _ => ⟨rfl, rfl⟩, fun _ => rfl, rfl, fun _ => Iff.rfl⟩
        obtain ⟨fuel, rfl⟩ : ∃ f, fuel = f + 1 := ⟨fuel - 1, by omega⟩
        simp [merge_two_sorted_loop]
      | cons y bs =>
        simp only [List.length_cons] at hlen
        by_cases hlt : y.2 < x.2
        · -- the head of `b` is taken
          have p1 : (d :: (out ++ (x :: as) ++ (y :: bs)).map (fun x => x.1)).Perm
              (d :: (out ++ (y :: bs) ++ (x :: as)).map (fun x => x.1)) := by
            refine List.Perm.cons _ (List.Perm.map _ ?_)
            simp only [List.append_assoc]
            exact List.Perm.append_left _ List.perm_append_comm
          have p2 : (d :: (out ++ (x :: as) ++ (y :: bs)).map (fun x => x.1)).Perm
              (d :: ((out ++ [y]) ++ (x :: as) ++ bs).map (fun x => x.1)) := by
            refine List.Perm.cons _ (List.Perm.map _ ?_)
            simp only [List.append_assoc]
            refine List.Perm.append_left _ ?_
            simp only [List.singleton_append]
            exact List.perm_middle
          have hnd1 := (List.Perm.nodup_iff p1).1 hnd
          obtain ⟨t, m1, m2, ht, e1, e2, g1, g2, hl2, hv2, hd2, hb2, ha2, hfr, hval, hf2, hal⟩ :=
            take_step hl hv hd hb ha hnd1
          have hnd2 := (List.Perm.nodup_iff p2).1 hnd
          obtain ⟨m', out', as', bs', hrun, r1, r2, r3, r4, r5, r6, r7, r8, r9, r10, r11, r12⟩ :=
            ih (x :: as) bs (out ++ [y]) m2 (by simp only [List.length_cons]; omega)
              hl2 hv2 hd2 ha2 hb2 hnd2
          refine ⟨m', out', as', bs', fun fuel hf => ?_, r1, r2, r3, r4, r5, r6,
            fun _ => r7 (Or.inl (by simp)), ?_, fun b hb' => ?_, fun b => by rw [r10, hval],
            by rw [r11, hf2], fun b => by rw [r12, hal]⟩
          · obtain ⟨fuel, rfl⟩ : ∃ f, fuel = f + 1 := ⟨fuel - 1, by omega⟩
            have hstep := hrun fuel (by omega)
            simp only [tailPtr_append, tailPtr_cons, tailPtr_nil, headPtr_cons] at hstep
            simp only [merge_two_sorted_loop, headPtr_cons, ne_eq, not_false_eq_true,
              and_self, if_true, LMem.getValue_of hb.value_head, LMem.getValue_of ha.value_head,
              ok_bind, hlt, not_true_eq_false, if_false, ht, e1, e2, g1, g2, hstep,
              reduceCtorEq]
          · rw [r8, List.cons_merge_cons, if_neg (by simp [takeLeft, hlt])]
            simp
          · have hb1 : b ∉ d :: (out ++ (y :: bs) ++ (x :: as)).map (fun x => x.1) :=
              fun h => hb' ((List.Perm.mem_iff p1).2 h)
            have hb2 : b ∉ d :: ((out ++ [y]) ++ (x :: as) ++ bs).map (fun x => x.1) :=
              fun h => hb' ((List.Perm.mem_iff p2).2 h)
            rw [(r9 b hb2).1, (r9 b hb2).2]
            exact hfr b hb1
        · -- the head of `a` is taken
          obtain ⟨t, m1, m2, ht, e1, e2, g1, g2, hl2, hv2, hd2, ha2, hb2, hfr, hval, hf2, hal⟩ :=
            take_step hl hv hd ha hb hnd
          have hnd2 : (d :: ((out ++ [x]) ++ as ++ (y :: bs)).map (fun x => x.1)).Nodup := by
            simpa using hnd
          obtain ⟨m', out', as', bs', hrun, r1, r2, r3, r4, r5, r6, r7, r8, r9, r10, r11, r12⟩ :=
            ih as (y :: bs) (out ++ [x]) m2 (by simp only [List.length_cons]; omega)
              hl2 hv2 hd2 ha2 hb2 hnd2
          refine ⟨m', out', as', bs', fun fuel hf => ?_, r1, r2, r3, r4, r5, r6,
            fun _ => r7 (Or.inr (by simp)), ?_, fun b hb' => ?_, fun b => by rw [r10, hval],
            by rw [r11, hf2], fun b => by rw [r12, hal]⟩
          · obtain ⟨fuel, rfl⟩ : ∃ f, fuel = f + 1 := ⟨fuel - 1, by omega⟩
            have hstep := hrun fuel (by omega)
            simp only [tailPtr_append, tailPtr_cons, tailPtr_nil, headPtr_cons] at hstep
            simp only [merge_two_sorted_loop, headPtr_cons, ne_eq, not_false_eq_true,
              and_self, if_true, LMem.getValue_of hb.value_head, LMem.getValue_of ha.value_head,
              ok_bind, hlt, ht, e1, e2, g1, g2, hstep, reduceCtorEq]
          · rw [r8, List.cons_merge_cons, if_pos (by simp [takeLeft, hlt])]
            simp
          · have hb2 : b ∉ d :: ((out ++ [x]) ++ as ++ (y :: bs)).map (fun x => x.1) := by
              intro h
              apply hb'
              simpa using h
            rw [(r9 b hb2).1, (r9 b hb2).2]
            exact hfr b hb'

theorem LMem.views_of_cells {m m' : LMem T} {b : Nat} (h : m'.cells b = m.cells b) :
    m'.nextOf b = m.nextOf b ∧ m'.prevOf b = m.prevOf b ∧ m'.valueOf b = m.valueOf b := by
  simp only [LMem.nextOf, LMem.prevOf, LMem.valueOf, h, and_self]

/-- The release of an allocated node: its cell is gone, every other cell is untouched. -/
theorem LMem.free_spec {m : LMem T} {d : Nat} (h : m.cells d ≠ none) :
    ∃ m', m.free (some d) = .ok m' ∧ m'.cells d = none ∧
      (∀ b, b ≠ d → m'.cells b = m.cells b) ∧ m'.fresh = m.fresh := by
  cases hc : m.cells d with
  | none => exact absurd hc h
  | some c =>
    refine ⟨⟨fun b => if b = d then none else m.cells b, m.fresh⟩, by simp [LMem.free, hc],
      by simp, fun b hb => by simp [hb], rfl⟩

/-- What `merge_two_sorted_` does to two null-terminated runs that share no node, not both
empty: the result is one chain, the merge of the two. -/
theorem merge_two_sorted_spec [LinearOrder T] [Inhabited T] {m : LMem T}
    {as bs : List (Nat × T)} (ha : Seg m as) (hb : Seg m bs)
    (hnd : ((as ++ bs).map (fun x => x.1)).Nodup) (hval : m.Valid) (hne : as ≠ [] ∨ bs ≠ []) :
    ∃ m', (∀ fuel, as.length + bs.length < fuel →
        merge_two_sorted_ fuel m (headPtr as none) (headPtr bs none) =
          .ok (m', headPtr (List.merge as bs takeLeft) none)) ∧
      Chain m' (List.merge as bs takeLeft) ∧
      (∀ b, b ∉ (as ++ bs).map (fun x => x.1) →
        m'.nextOf b = m.nextOf b ∧ m'.prevOf b = m.prevOf b) ∧
      (∀ b, m'.valueOf b = m.valueOf b) ∧ m'.fresh = m.fresh + 1 ∧
      (∀ b, m'.cells b = none ↔ m.cells b = none) := by
  -- the local node
  have hdn : m.cells m.fresh = none := hval m.fresh le_rfl
  have hda : m.fresh ∉ (as ++ bs).map (fun x => x.1) := by
    intro h
    rw [List.map_append, List.mem_append] at h
    rcases h with h | h
    · exact ha.allocated h hdn
    · exact hb.allocated h hdn
  obtain ⟨d, hd⟩ : ∃ d, d = m.fresh := ⟨_, rfl⟩
  obtain ⟨ma, hma⟩ : ∃ ma, ma = (m.alloc).2 := ⟨_, rfl⟩
  have hca : ∀ b, b ≠ d → ma.cells b = m.cells b := by
    intro b hb'
    rw [hma, hd] at *
    simp [LMem.alloc, hb']
  have hcd : ma.cells d ≠ none := by
    rw [hma, hd]
    simp [LMem.alloc]
  have hfa : ma.fresh = m.fresh + 1 := by rw [hma]; rfl
  obtain ⟨mb, eb, nb, pb, vb, fb, ab⟩ := LMem.setNext_spec hcd none
  have hvb : ∀ b, b ≠ d → mb.nextOf b = m.nextOf b ∧ mb.prevOf b = m.prevOf b ∧
      mb.valueOf b = m.valueOf b := by
    intro b hb'
    rw [nb, pb, vb, if_neg hb']
    exact LMem.views_of_cells (hca b hb')
  have hmem : ∀ {xs : List (Nat × T)}, (∀ a ∈ xs.map (fun x => x.1), a ∈ (as ++ bs).map
      (fun x => x.1)) → ∀ a ∈ xs.map (fun x => x.1), a ≠ d := by
    intro xs h a hx e
    rw [e, hd] at hx
    exact hda (h _ hx)
  have hA : ∀ a ∈ as.map (fun x => x.1), a ≠ d :=
    hmem (fun a h => by rw [List.map_append]; exact List.mem_append_left _ h)
  have hB : ∀ a ∈ bs.map (fun x => x.1), a ≠ d :=
    hmem (fun a h => by rw [List.map_append]; exact List.mem_append_right _ h)
  have hsa : Seg mb as := ha.seg_frame (fun a h => (hvb a (hA a h)).1)
    (fun a h => (hvb a (hA a (List.mem_of_mem_tail h))).2.1) (fun a h => (hvb a (hA a h)).2.2)
  have hsb : Seg mb bs := hb.seg_frame (fun a h => (hvb a (hB a h)).1)
    (fun a h => (hvb a (hB a (List.mem_of_mem_tail h))).2.1) (fun a h => (hvb a (hB a h)).2.2)
  have hnd0 : (d :: (([] : List (Nat × T)) ++ as ++ bs).map (fun x => x.1)).Nodup := by
    rw [List.nil_append]
    exact List.nodup_cons.2 ⟨by rw [hd]; exact hda, hnd⟩
  obtain ⟨m1, out, as', bs', hrun, l1, v1, d1, sa1, sb1, hor, hne1, hmerge, fr1, val1, f1, al1⟩ :=
    merge_two_sorted_loop_spec (d := d) (as.length + bs.length) as bs [] mb le_rfl
      (by simp) (fun _ h => absurd h (List.not_mem_nil _)) (by rw [Ne, ab]; exact hcd)
      hsa hsb hnd0
  simp only [List.nil_append] at hmerge fr1
  -- what is left of one input
  obtain ⟨r, rs, hR, hrest, hsR⟩ : ∃ r rs, as' ++ bs' = r :: rs ∧
      (if headPtr as' none ≠ none then headPtr as' none else headPtr bs' none) = some r.1 ∧
      Seg m1 (r :: rs) := by
    rcases hor with h | h
    · subst h
      cases bs' with
      | nil => exact absurd rfl ((hne1 hne).resolve_left (fun h => h rfl))
      | cons r rs => exact ⟨r, rs, rfl, by simp, sb1⟩
    · subst h
      cases as' with
      | nil => exact absurd rfl ((hne1 hne).resolve_left (fun h => h rfl))
      | cons r rs => exact ⟨r, rs, by simp, by simp, sa1⟩
  have hall : out ++ r :: rs = List.merge as bs takeLeft := by
    rw [← hmerge, List.append_assoc, hR]
  have hperm : (d :: (out ++ r :: rs).map (fun x => x.1)).Perm
      (d :: (as ++ bs).map (fun x => x.1)) := by
    rw [hall]
    exact List.Perm.cons _ (List.Perm.map _ (List.merge_perm_append takeLeft))
  have hndall : (d :: (out ++ r :: rs).map (fun x => x.1)).Nodup :=
    (List.Perm.nodup_iff hperm).2 (List.nodup_cons.2 ⟨by rw [hd]; exact hda, hnd⟩)
  have hndall' : ((d :: out.map (fun x => x.1)) ++ (r.1 :: rs.map (fun x => x.1))).Nodup := by
    simpa using hndall
  have hN1 := (List.nodup_append.1 hndall').1
  have hN2 := (List.nodup_append.1 hndall').2.1
  have hD := (List.nodup_append.1 hndall').2.2
  obtain ⟨t, m2, m3, ht, htm, e2, e3, l3, v3, n3, p3, val3, f3, al3⟩ :=
    append_step l1 v1 d1 hN1 hsR.value_head (fun h => hD h (List.mem_cons_self _ _))
  have hsR3 : Seg m3 (r :: rs) := by
    refine hsR.seg_frame (fun a h => ?_) (fun a h => ?_) (fun a _ => val3 a)
    · rw [n3, if_neg (fun e : a = t => hD htm (e ▸ h))]
    · rw [p3, if_neg (fun e : a = r.1 => (List.nodup_cons.1 hN2).1 (e ▸ h))]
  have l3' : Links m3 (d :: (out ++ r :: rs).map (fun x => x.1)) := by
    have : d :: (out ++ r :: rs).map (fun x => x.1) =
        (d :: out.map (fun x => x.1)) ++ r.1 :: rs.map (fun x => x.1) := by simp
    rw [this]
    refine Links_split.2 ⟨?_, hsR3.1⟩
    simpa using l3
  -- the head of the result
  obtain ⟨h, al, hal⟩ : ∃ h al, out ++ r :: rs = h :: al := by
    cases out with
    | nil => exact ⟨r, rs, rfl⟩
    | cons o out => exact ⟨o, out ++ r :: rs, rfl⟩
  rw [hal] at l3' hndall hperm
  rw [hal] at hall
  have hdh : m3.nextOf d = some (some h.1) := (Links_cons_cons.1 l3').1.1
  have hvall : Vals m3 (h :: al) := by
    rw [← hal]
    intro x hx
    rw [List.mem_append] at hx
    rcases hx with hx | hx
    · exact v3 x (List.mem_append_left _ hx)
    · exact hsR3.2.1 x hx
  have hseg3 : Seg m3 (h :: al) := by
    refine ⟨(Links_cons_cons.1 l3').2, hvall, fun x hx => ?_⟩
    refine hsR3.2.2 x ?_
    rw [← hal] at hx
    rw [List.getLast?_append_of_ne_nil _ (by simp)] at hx
    exact hx
  obtain ⟨m4, e4, p4, n4, val4, f4, al4⟩ := LMem.setPrev_spec (m := m3) (a := h.1)
    (LMem.alloc_of_valueOf (hvall h (List.mem_cons_self _ _))) none
  have hnd4 : (h.1 :: al.map (fun x => x.1)).Nodup := (List.nodup_cons.1 hndall).2
  have hseg4 : Seg m4 (h :: al) := by
    refine hseg3.seg_frame (fun a _ => n4 a) (fun a ha' => ?_) (fun a _ => val4 a)
    rw [p4, if_neg (fun e : a = h.1 => (List.nodup_cons.1 hnd4).1 (e ▸ ha'))]
  have hd4 : m4.cells d ≠ none := by
    rw [Ne, al4, al3, al1, ab]
    exact hcd
  obtain ⟨m5, e5, c5, o5, f5⟩ := LMem.free_spec hd4
  have hdall : ∀ a ∈ (h :: al).map (fun x => x.1), a ≠ d := fun a h' e =>
    (List.nodup_cons.1 hndall).1 (e ▸ h')
  have hv5 : ∀ b, b ≠ d → m5.nextOf b = m4.nextOf b ∧ m5.prevOf b = m4.prevOf b ∧
      m5.valueOf b = m4.valueOf b := fun b hb' => LMem.views_of_cells (o5 b hb')
  have hseg5 : Seg m5 (h :: al) := hseg4.seg_frame (fun a h' => (hv5 a (hdall a h')).1)
    (fun a h' => (hv5 a (hdall a (List.mem_of_mem_tail h'))).2.1)
    (fun a h' => (hv5 a (hdall a h')).2.2)
  have hhd : h.1 ≠ d := hdall h.1 (by simp)
  refine ⟨m5, fun fuel hf => ?_, ?_, fun b hb' => ?_, fun b => ?_, ?_, fun b => ?_⟩
  · have hstep := hrun fuel hf
    simp only [tailPtr_nil] at hstep
    have hn4 : m4.getNext (some d) = .ok (some h.1) := by
      refine LMem.getNext_of ?_
      rw [n4]; exact hdh
    have hn3 : m3.getNext (some d) = .ok (some h.1) := LMem.getNext_of hdh
    have hd1 : (m.alloc).1 = d := hd.symm
    rw [← hall]
    simp only [merge_two_sorted_, ← hma, hd1, eb, ok_bind, hstep, hrest, ht, ne_eq,
      reduceCtorEq, not_false_eq_true, if_true, e2, e3, hn3, e4, e5, headPtr_cons, pure_eq_ok]
  · rw [← hall]
    refine ⟨hseg5, hnd4, fun x hx => ?_⟩
    simp only [List.head?_cons, Option.some.injEq] at hx
    rw [← hx, (hv5 h.1 hhd).2.1, p4, if_pos rfl]
  · by_cases hbd : b = d
    · rw [hbd]
      rw [hd] at c5 ⊢
      simp only [LMem.nextOf, LMem.prevOf, c5, hdn, and_self]
    · have hb1 : b ∉ d :: (as ++ bs).map (fun x => x.1) := by
        rw [List.mem_cons, not_or]
        exact ⟨hbd, hb'⟩
      have hb2 : b ∉ d :: (h :: al).map (fun x => x.1) :=
        fun h' => hb1 ((List.Perm.mem_iff hperm).1 h')
      have hbt : b ≠ t := by
        intro e
        apply hb2
        rw [← hal, e, List.map_append, ← List.cons_append]
        exact List.mem_append_left _ htm
      have hbh : b ≠ h.1 := fun e => hb2 (by rw [e]; simp)
      have hbr : b ≠ r.1 := by
        intro e
        apply hb2
        rw [← hal, e]
        simp
      rw [(hv5 b hbd).1, (hv5 b hbd).2.1, n4, p4, if_neg hbh, n3, p3, if_neg hbt, if_neg hbr,
        (fr1 b hb1).1, (fr1 b hb1).2]
      exact ⟨(hvb b hbd).1, (hvb b hbd).2.1⟩
  · by_cases hbd : b = d
    · rw [hbd]
      rw [hd] at c5 ⊢
      simp only [LMem.valueOf, c5, hdn]
    · rw [(hv5 b hbd).2.2, val4, val3, val1]
      exact (hvb b hbd).2.2
  · rw [f5, f4, f3, f1, fb, hfa]
  · by_cases hbd : b = d
    · rw [hbd]
      rw [hd] at c5 ⊢
      simp only [c5, hdn]
    · rw [o5 b hbd, al4, al3, al1, ab, hca b hbd]

theorem Seg.drop {m : LMem T} : ∀ (L1 : List (Nat × T)) {L2 : List (Nat × T)},
    Seg m (L1 ++ L2) → Seg m L2
  | [], _, h => h
  | _ :: L1, _, h => Seg.drop L1 h.tail

theorem Seg.next_at {m : LMem T} (L1 : List (Nat × T)) {L2 : List (Nat × T)} {x : Nat × T}
    (h : Seg m (L1 ++ x :: L2)) : m.nextOf x.1 = some (headPtr L2 none) :=
  (Seg.drop L1 h).next_head

/-- The loop of `merge_sort_nodes_` that looks for the middle: `slow` stops at a node
that has a successor. -/
theorem merge_sort_split_spec {m : LMem T} :
    ∀ (n : Nat) (pre mid rest : List (Nat × T)) (s : Nat × T),
      Seg m (pre ++ s :: (mid ++ rest)) → mid ++ rest ≠ [] → rest.length ≤ n →
      ∃ pre' s' post', pre ++ s :: (mid ++ rest) = pre' ++ s' :: post' ∧ post' ≠ [] ∧
        ∀ fuel, n < fuel →
          merge_sort_split fuel m (some s.1) (headPtr rest none) = .ok (some s'.1) := by
  intro n
  induction n with
  | zero =>
    intro pre mid rest s h hne hlen
    have h1 : rest = [] := List.length_eq_zero.1 (by omega)
    subst h1
    refine ⟨pre, s, mid ++ [], rfl, hne, fun fuel hf => ?_⟩
    obtain ⟨fuel, rfl⟩ : ∃ f, fuel = f + 1 := ⟨fuel - 1, by omega⟩
    simp [merge_sort_split]
  | succ n ih =>
    intro pre mid rest s h hne hlen
    cases rest with
    | nil =>
      refine ⟨pre, s, mid ++ [], rfl, hne, fun fuel hf => ?_⟩
      obtain ⟨fuel, rfl⟩ : ∃ f, fuel = f + 1 := ⟨fuel - 1, by omega⟩
      simp [merge_sort_split]
    | cons f rest =>
      have hf1 : m.nextOf f.1 = some (headPtr rest none) := by
        have h' : Seg m ((pre ++ s :: mid) ++ f :: rest) := by simpa using h
        exact Seg.next_at _ h'
      cases rest with
      | nil =>
        refine ⟨pre, s, mid ++ [f], rfl, hne, fun fuel hf => ?_⟩
        obtain ⟨fuel, rfl⟩ : ∃ f, fuel = f + 1 := ⟨fuel - 1, by omega⟩
        simp [merge_sort_split, LMem.getNext_of hf1]
      | cons f2 rest =>
        have hf2 : m.nextOf f2.1 = some (headPtr rest none) := by
          have h' : Seg m ((pre ++ s :: mid ++ [f]) ++ f2 :: rest) := by simpa using h
          exact Seg.next_at _ h'
        have hs : m.nextOf s.1 = some (headPtr (mid ++ f :: f2 :: rest) none) :=
          Seg.next_at _ h
        simp only [List.length_cons] at hlen
        cases mid with
        | nil =>
          obtain ⟨pre', s', post', e, hp, hrun⟩ := ih (pre ++ [s]) [f2] rest f
            (by simpa using h) (by simp) (by omega)
          refine ⟨pre', s', post', by rw [← e]; simp, hp, fun fuel hf => ?_⟩
          obtain ⟨fuel, rfl⟩ : ∃ f, fuel = f + 1 := ⟨fuel - 1, by omega⟩
          have := hrun fuel (by omega)
          simp only [List.nil_append, headPtr_cons] at hs hf1
          simp [merge_sort_split, LMem.getNext_of hf1, LMem.getNext_of hf2,
            LMem.getNext_of hs, this]
        | cons a mid =>
          obtain ⟨pre', s', post', e, hp, hrun⟩ := ih (pre ++ [s]) (mid ++ [f, f2]) rest a
            (by simpa using h) (by simp) (by omega)
          refine ⟨pre', s', post', by rw [← e]; simp, hp, fun fuel hf => ?_⟩
          obtain ⟨fuel, rfl⟩ : ∃ f, fuel = f + 1 := ⟨fuel - 1, by omega⟩
          have := hrun fuel (by omega)
          simp only [List.cons_append, headPtr_cons] at hs hf1
          simp [merge_sort_split, LMem.getNext_of hf1, LMem.getNext_of hf2,
            LMem.getNext_of hs, this]

theorem LMem.Valid.grow {m m' : LMem T} (h : m.Valid) (hf : m.fresh ≤ m'.fresh)
    (ha : ∀ b, m'.cells b = none ↔ m.cells b = none) : m'.Valid :=
  fun a h' => (ha a).2 (h a (le_trans hf h'))

/-- A chain survives a change of memory that keeps the fields of its nodes. -/
theorem Chain.chain_frame {m m' : LMem T} {xs : List (Nat × T)} (h : Chain m xs)
    (hn : ∀ a ∈ xs.map (fun x => x.1), m'.nextOf a = m.nextOf a ∧ m'.prevOf a = m.prevOf a)
    (hv : ∀ a, m'.valueOf a = m.valueOf a) : Chain m' xs := by
  refine ⟨h.1.seg_frame (fun a ha => (hn a ha).1) (fun a ha => (hn a (List.mem_of_mem_tail ha)).2)
    (fun a _ => hv a), h.2.1, fun x hx => ?_⟩
  rw [(hn x.1 (List.mem_map_of_mem _ (List.mem_of_mem_head? hx))).2]
  exact h.2.2 x hx

/-- Cutting a chain in two between the neighbours `s` and `a`, as `merge_sort_nodes_`
does with `slow->next = nullptr; mid->prev = nullptr`. -/
theorem Chain.cut {m : LMem T} {L R : List (Nat × T)} {s a : Nat × T}
    (h : Chain m (L ++ s :: a :: R)) :
    ∃ m1 m2, m.setNext (some s.1) none = .ok m1 ∧ m1.setPrev (some a.1) none = .ok m2 ∧
      Chain m2 (L ++ [s]) ∧ Chain m2 (a :: R) ∧
      (∀ b, b ∉ (L ++ s :: a :: R).map (fun x => x.1) →
        m2.nextOf b = m.nextOf b ∧ m2.prevOf b = m.prevOf b) ∧
      (∀ b, m2.valueOf b = m.valueOf b) ∧ m2.fresh = m.fresh ∧
      (∀ b, m2.cells b = none ↔ m.cells b = none) := by
  obtain ⟨⟨hl, hv, hlast⟩, hnd, hhead⟩ := h
  have hnd' : (L.map (fun x => x.1) ++ s.1 :: a.1 :: R.map (fun x => x.1)).Nodup := by
    simpa using hnd
  have hl' : Links m (L.map (fun x => x.1) ++ s.1 :: a.1 :: R.map (fun x => x.1)) := by
    simpa using hl
  have hN1 := (List.nodup_append.1 hnd').1
  have hN2 := (List.nodup_append.1 hnd').2.1
  have hD := (List.nodup_append.1 hnd').2.2
  have hsL : s.1 ∉ L.map (fun x => x.1) := fun h => hD h (List.mem_cons_self _ _)
  have haL : a.1 ∉ L.map (fun x => x.1) := fun h =>
    hD h (List.mem_cons_of_mem _ (List.mem_cons_self _ _))
  have hsa : s.1 ≠ a.1 := fun e => (List.nodup_cons.1 hN2).1 (by rw [e]; simp)
  have hsR : s.1 ∉ R.map (fun x => x.1) := fun h =>
    (List.nodup_cons.1 hN2).1 (List.mem_cons_of_mem _ h)
  have haR : a.1 ∉ R.map (fun x => x.1) := (List.nodup_cons.1 (List.nodup_cons.1 hN2).2).1
  obtain ⟨m1, e1, n1, p1, v1, f1, a1⟩ := LMem.setNext_spec (m := m) (a := s.1)
    (LMem.alloc_of_valueOf (hv s (by simp))) none
  obtain ⟨m2, e2, p2, n2, v2, f2, a2⟩ := LMem.setPrev_spec (m := m1) (a := a.1)
    (by rw [Ne, a1]; exact LMem.alloc_of_valueOf (hv a (by simp))) none
  have hn : ∀ b, m2.nextOf b = if b = s.1 then some none else m.nextOf b := by
    intro b; rw [n2, n1]
  have hp : ∀ b, m2.prevOf b = if b = a.1 then some none else m.prevOf b := by
    intro b; rw [p2, p1]
  have hval : ∀ b, m2.valueOf b = m.valueOf b := by
    intro b; rw [v2, v1]
  have eLs : (L ++ [s]).map (fun x => x.1) = L.map (fun x => x.1) ++ [s.1] := by simp
  refine ⟨m1, m2, e1, e2, ⟨⟨?_, ?_, ?_⟩, ?_, ?_⟩, ⟨⟨?_, ?_, ?_⟩, ?_, ?_⟩, ?_, hval,
    by rw [f2, f1], fun b => by rw [a2, a1]⟩
  · rw [eLs]
    refine Links_frame (Links_left hl') (fun b hb => ?_) (fun b hb => ?_)
    · rw [mem_dropLast_append_singleton] at hb
      rw [hn, if_neg (fun e : b = s.1 => hsL (e ▸ hb))]
    · have hb' := List.mem_of_mem_tail hb
      rw [hp, if_neg]
      intro e
      rw [e, List.mem_append, List.mem_singleton] at hb'
      rcases hb' with h | h
      · exact haL h
      · exact hsa h.symm
  · exact Vals_frame (fun x hx => hv x (by
      rw [List.mem_append] at hx ⊢
      rcases hx with h | h
      · exact Or.inl h
      · exact Or.inr (by rw [List.mem_singleton] at h; rw [h]; simp))) (fun x _ => hval x.1)
  · intro x hx
    rw [List.getLast?_concat, Option.some.injEq] at hx
    rw [← hx, hn, if_pos rfl]
  · rw [eLs]
    refine List.Nodup.append hN1 (List.nodup_singleton _) ?_
    intro b hb hb'
    rw [List.mem_singleton] at hb'
    exact hsL (hb' ▸ hb)
  · intro x hx
    have hx' : (L ++ s :: a :: R).head? = some x := by
      cases L with
      | nil => simpa using hx
      | cons l L => simpa using hx
    have hxm : x.1 ∈ (L ++ [s]).map (fun x => x.1) :=
      List.mem_map_of_mem _ (List.mem_of_mem_head? hx)
    rw [hp, if_neg]
    · exact hhead x hx'
    · intro e
      rw [e, eLs, List.mem_append, List.mem_singleton] at hxm
      rcases hxm with h | h
      · exact haL h
      · exact hsa h.symm
  · have hl'' : Links m ((L.map (fun x => x.1) ++ [s.1]) ++ a.1 :: R.map (fun x => x.1)) := by
      simpa using hl'
    refine Links_frame (Links_right hl'')
      (fun b hb => ?_) (fun b hb => ?_)
    · have hb' := List.mem_of_mem_dropLast hb
      rw [hn, if_neg]
      intro e
      rw [e] at hb'
      rw [List.map_cons, List.mem_cons] at hb'
      rcases hb' with h | h
      · exact hsa h
      · exact hsR h
    · rw [hp, if_neg]
      intro e
      rw [e] at hb
      exact haR hb
  · exact Vals_frame (fun x hx => hv x (by
      rw [List.mem_append]
      exact Or.inr (List.mem_cons_of_mem _ hx))) (fun x _ => hval x.1)
  · intro x hx
    have hx' : (L ++ s :: a :: R).getLast? = some x := by
      rw [List.getLast?_append_of_ne_nil _ (by simp), List.getLast?_cons_cons]
      exact hx
    have hxm : x.1 ∈ (a :: R).map (fun x => x.1) :=
      List.mem_map_of_mem _ (List.mem_of_getLast?_eq_some hx)
    rw [hn, if_neg]
    · exact hlast x hx'
    · intro e
      rw [e, List.map_cons, List.mem_cons] at hxm
      rcases hxm with h | h
      · exact hsa h
      · exact hsR h
  · exact (List.nodup_cons.1 hN2).2
  · intro x hx
    simp only [List.head?_cons, Option.some.injEq] at hx
    rw [← hx, hp, if_pos rfl]
  · intro b hb
    have hb1 : b ≠ s.1 := fun e => hb (by rw [e]; simp)
    have hb2 : b ≠ a.1 := fun e => hb (by rw [e]; simp)
    rw [hn, hp, if_neg hb1, if_neg hb2]
    exact ⟨rfl, rfl⟩

theorem Chain.chain_nil (m : LMem T) : Chain m [] :=
  ⟨Seg.seg_nil m, List.nodup_nil, fun _ h => by simp at h⟩

/-- What `merge_sort_nodes_` does to a null-terminated chain: the result is a chain of
the same nodes, sorted, with nodes of equal value in their former order. -/
theorem merge_sort_nodes_spec [LinearOrder T] [Inhabited T] :
    ∀ (n : Nat) (xs : List (Nat × T)) (m : LMem T), xs.length ≤ n → Chain m xs → m.Valid →
      ∃ m' ys,
        (∀ fuel, n + 1 < fuel →
          merge_sort_nodes_ fuel m (headPtr xs none) = .ok (m', headPtr ys none)) ∧
        Chain m' ys ∧ ys.Perm xs ∧ ys.Pairwise (fun a b => a.2 ≤ b.2) ∧
        (∀ v, ys.filter (fun e => decide (e.2 = v)) = xs.filter (fun e => decide (e.2 = v))) ∧
        (∀ b, b ∉ xs.map (fun x => x.1) →
          m'.nextOf b = m.nextOf b ∧ m'.prevOf b = m.prevOf b) ∧
        (∀ b, m'.valueOf b = m.valueOf b) ∧ m.fresh ≤ m'.fresh ∧
        (∀ b, m'.cells b = none ↔ m.cells b = none) := by
  intro n
  induction n with
  | zero =>
    intro xs m hlen hc _
    have h1 : xs = [] := List.length_eq_zero.1 (by omega)
    subst h1
    refine ⟨m, [], fun fuel hf => ?_, hc, List.Perm.refl _, List.Pairwise.nil, fun _ => rfl,
      fun _ _ => ⟨rfl, rfl⟩, fun _ => rfl, le_rfl, fun _ => Iff.rfl⟩
    obtain ⟨fuel, rfl⟩ : ∃ f, fuel = f + 1 := ⟨fuel - 1, by omega⟩
    simp [merge_sort_nodes_]
  | succ n ih =>
    intro xs m hlen hc hval
    cases xs with
    | nil =>
      refine ⟨m, [], fun fuel hf => ?_, hc, List.Perm.refl _, List.Pairwise.nil, fun _ => rfl,
        fun _ _ => ⟨rfl, rfl⟩, fun _ => rfl, le_rfl, fun _ => Iff.rfl⟩
      obtain ⟨fuel, rfl⟩ : ∃ f, fuel = f + 1 := ⟨fuel - 1, by omega⟩
      simp [merge_sort_nodes_]
    | cons x0 xs =>
      cases xs with
      | nil =>
        refine ⟨m, [x0], fun fuel hf => ?_, hc, List.Perm.refl _, List.pairwise_singleton _ _,
          fun _ => rfl, fun _ _ => ⟨rfl, rfl⟩, fun _ => rfl, le_rfl, fun _ => Iff.rfl⟩
        obtain ⟨fuel, rfl⟩ : ∃ f, fuel = f + 1 := ⟨fuel - 1, by omega⟩
        have := hc.1.next_head
        simp only [headPtr_nil] at this
        simp [merge_sort_nodes_, LMem.getNext_of this]
      | cons x1 xs =>
        simp only [List.length_cons] at hlen
        -- the middle
        obtain ⟨pre, s, post, e, hpost, hsplit⟩ :=
          merge_sort_split_spec (m := m) (xs.length + 1) [] [] (x1 :: xs) x0 hc.1 (by simp)
            (by simp)
        simp only [List.nil_append] at e hsplit
        obtain ⟨a, R, rfl⟩ : ∃ a R, post = a :: R := by
          cases post with
          | nil => exact absurd rfl hpost
          | cons a R => exact ⟨a, R, rfl⟩
        have hlen2 : (pre ++ [s]).length + (a :: R).length = xs.length + 2 := by
          have := congrArg List.length e
          simp only [List.length_cons, List.length_append, List.length_nil] at this ⊢
          omega
        have hhead : headPtr (pre ++ [s]) none = some x0.1 := by
          cases pre with
          | nil =>
            simp only [List.nil_append, List.cons.injEq] at e
            rw [e.1]; rfl
          | cons p pre =>
            simp only [List.cons_append, List.cons.injEq] at e
            rw [e.1]; rfl
        have hx0 : m.nextOf x0.1 = some (some x1.1) := hc.1.next_head
        rw [e] at hc
        have hmid : m.nextOf s.1 = some (some a.1) := Seg.next_at pre hc.1
        obtain ⟨m1, m2, e1, e2, hcl, hcr, fr2, val2, f2, al2⟩ := hc.cut
        have hnd : ((pre ++ [s]).map (fun x => x.1) ++ (a :: R).map (fun x => x.1)).Nodup := by
          have := hc.2.1
          simpa using this
        have hD := (List.nodup_append.1 hnd).2.2
        have hval2 : m2.Valid := hval.grow (le_of_eq f2.symm) al2
        -- the left half
        obtain ⟨m3, ys1, run3, c3, perm3, sorted3, filt3, fr3, val3, f3, al3⟩ :=
          ih (pre ++ [s]) m2 (by simp only [List.length_cons] at hlen2; omega) hcl hval2
        have hval3 : m3.Valid := hval2.grow f3 al3
        have hcr3 : Chain m3 (a :: R) :=
          hcr.chain_frame (fun b hb => fr3 b (fun h => hD h hb)) val3
        -- the right half
        obtain ⟨m4, ys2, run4, c4, perm4, sorted4, filt4, fr4, val4, f4, al4⟩ :=
          ih (a :: R) m3 (by simp only [List.length_append, List.length_cons,
            List.length_nil] at hlen2 ⊢; omega) hcr3 hval3
        have hval4 : m4.Valid := hval3.grow f4 al4
        have pm1 : (ys1.map (fun x => x.1)).Perm ((pre ++ [s]).map (fun x => x.1)) :=
          List.Perm.map _ perm3
        have pm2 : (ys2.map (fun x => x.1)).Perm ((a :: R).map (fun x => x.1)) :=
          List.Perm.map _ perm4
        have c3' : Chain m4 ys1 :=
          c3.chain_frame (fun b hb => fr4 b (fun h => hD ((List.Perm.mem_iff pm1).1 hb) h)) val4
        have hnd12 : ((ys1 ++ ys2).map (fun x => x.1)).Nodup := by
          rw [List.map_append]
          exact (List.Perm.nodup_iff (List.Perm.append pm1 pm2)).2 hnd
        have hys1 : ys1 ≠ [] := by
          intro h
          rw [h] at perm3
          have := List.Perm.length_eq perm3
          simp at this
        obtain ⟨m5, run5, c5, fr5, val5, f5, al5⟩ :=
          merge_two_sorted_spec c3'.1 c4.1 hnd12 hval4 (Or.inl hys1)
        have hlen12 : ys1.length + ys2.length = xs.length + 2 := by
          rw [List.Perm.length_eq perm3, List.Perm.length_eq perm4]
          exact hlen2
        have pall : (List.merge ys1 ys2 takeLeft).Perm (pre ++ s :: a :: R) := by
          refine (List.merge_perm_append takeLeft).trans ?_
          have := List.Perm.append perm3 perm4
          simpa using this
        refine ⟨m5, List.merge ys1 ys2 takeLeft, fun fuel hf => ?_, c5, ?_,
          merge_takeLeft_sorted ys1 ys2 sorted3 sorted4, fun v => ?_, fun b hb => ?_,
          fun b => by rw [val5, val4, val3, val2], by omega, fun b => by
            rw [al5, al4, al3, al2]⟩
        · obtain ⟨fuel, rfl⟩ : ∃ f, fuel = f + 1 := ⟨fuel - 1, by omega⟩
          have r3 := run3 fuel (by omega)
          have r4 := run4 fuel (by omega)
          have r5 := run5 fuel (by omega)
          have rs := hsplit fuel (by omega)
          rw [hhead] at r3
          simp only [headPtr_cons] at r4 rs
          simp only [merge_sort_nodes_, headPtr_cons, LMem.getNext_of hx0, ok_bind,
            reduceCtorEq, if_false, rs, LMem.getNext_of hmid, e1, ne_eq, not_false_eq_true,
            if_true, e2, r3, r4, r5]
        · rw [e]
          exact pall
        · rw [merge_takeLeft_filter v ys1 ys2 sorted3, filt3, filt4, e, ← List.filter_append]
          simp
        · rw [e] at hb
          have hb1 : b ∉ (pre ++ [s]).map (fun x => x.1) := by
            intro h
            apply hb
            simp only [List.map_append, List.map_cons, List.map_nil, List.mem_append,
              List.mem_cons, List.mem_singleton, List.not_mem_nil, or_false] at h ⊢
            tauto
          have hb2 : b ∉ (a :: R).map (fun x => x.1) := by
            intro h
            apply hb
            simp only [List.map_append, List.map_cons, List.mem_append, List.mem_cons] at h ⊢
            tauto
          have hb3 : b ∉ (ys1 ++ ys2).map (fun x => x.1) := by
            intro h
            rw [List.map_append, List.mem_append] at h
            rcases h with h | h
            · exact hb1 ((List.Perm.mem_iff pm1).1 h)
            · exact hb2 ((List.Perm.mem_iff pm2).1 h)
          rw [(fr5 b hb3).1, (fr5 b hb3).2, (fr4 b hb2).1, (fr4 b hb2).2, (fr3 b hb1).1,
            (fr3 b hb1).2]
          exact fr2 b hb

/-- The walk of `sort` to the last node of the sorted chain. -/
theorem sort_last_spec {m : LMem T} : ∀ (xs : List (Nat × T)) (x : Nat × T),
    Seg m (x :: xs) → ∀ fuel, xs.length < fuel →
      sort_last fuel m (some x.1) = .ok (tailPtr xs (some x.1)) := by
  intro xs
  induction xs with
  | nil =>
    intro x h fuel hf
    obtain ⟨fuel, rfl⟩ : ∃ f, fuel = f + 1 := ⟨fuel - 1, by omega⟩
    have := h.next_head
    simp only [headPtr_nil] at this
    simp [sort_last, LMem.getNext_of this]
  | cons y ys ih =>
    intro x h fuel hf
    obtain ⟨fuel, rfl⟩ : ∃ f, fuel = f + 1 := ⟨fuel - 1, by omega⟩
    have := h.next_head
    simp only [headPtr_cons] at this
    have hr := ih y h.tail fuel (by simp only [List.length_cons] at hf; omega)
    simp [sort_last, LMem.getNext_of this, hr]

theorem last_of_map {xs : List (Nat × T)} {L : List Nat} {t : Nat}
    (h : xs.map (fun x => x.1) = L ++ [t]) {x : Nat × T} (hx : xs.getLast? = some x) :
    x.1 = t := by
  have := List.getLast?_map (fun x : Nat × T => x.1) xs
  rw [h, hx, List.getLast?_concat] at this
  simpa using this.symm

/-- The step of `sort` that opens the ring: `tail->next = nullptr; head->prev = nullptr`
turns the nodes of a non-empty ring into a null-terminated chain. -/
theorem Ring.open_spec {m : LMem T} {s : Nat} {x0 : Nat × T} {xs : List (Nat × T)}
    (h : Ring m s (x0 :: xs)) :
    ∃ m1 m2, m.setNext (tailPtr (x0 :: xs) (some s)) none = .ok m1 ∧
      m1.setPrev (some x0.1) none = .ok m2 ∧ Chain m2 (x0 :: xs) ∧
      (∀ b, b ∉ (x0 :: xs).map (fun x => x.1) →
        m2.nextOf b = m.nextOf b ∧ m2.prevOf b = m.prevOf b) ∧
      (∀ b, m2.valueOf b = m.valueOf b) ∧ m2.fresh = m.fresh ∧
      (∀ b, m2.cells b = none ↔ m.cells b = none) := by
  obtain ⟨hl, hv, hnd⟩ := h
  obtain ⟨t, L, ht, hL⟩ := tailPtr_last x0.1 xs
  have hL' : (x0 :: xs).map (fun x => x.1) = L ++ [t] := hL
  have hnd1 : ((x0 :: xs).map (fun x => x.1)).Nodup := (List.nodup_cons.1 hnd).2
  have htm : t ∈ (x0 :: xs).map (fun x => x.1) := by rw [hL']; simp
  have hta : m.cells t ≠ none := by
    obtain ⟨o, ho, rfl⟩ := List.mem_map.1 htm
    exact LMem.alloc_of_valueOf (hv o ho)
  obtain ⟨m1, e1, n1, p1, v1, f1, a1⟩ := LMem.setNext_spec hta none
  obtain ⟨m2, e2, p2, n2, v2, f2, a2⟩ := LMem.setPrev_spec (m := m1) (a := x0.1)
    (by rw [Ne, a1]; exact LMem.alloc_of_valueOf (hv x0 (by simp))) none
  have hn : ∀ b, m2.nextOf b = if b = t then some none else m.nextOf b := by
    intro b; rw [n2, n1]
  have hp : ∀ b, m2.prevOf b = if b = x0.1 then some none else m.prevOf b := by
    intro b; rw [p2, p1]
  have hval : ∀ b, m2.valueOf b = m.valueOf b := by
    intro b; rw [v2, v1]
  have h1 : Links m ((x0 :: xs).map (fun x => x.1) ++ [s]) := List.Chain'.tail hl
  have h2 : Links m ((x0 :: xs).map (fun x => x.1)) := List.Chain'.left_of_append h1
  have htL : t ∉ L := by
    rw [hL'] at hnd1
    exact fun h => (List.nodup_append.1 hnd1).2.2 h (List.mem_singleton_self t)
  refine ⟨m1, m2, by rw [tailPtr_cons, ht]; exact e1, e2, ⟨⟨?_, ?_, ?_⟩, hnd1, ?_⟩, ?_, hval,
    by rw [f2, f1], fun b => by rw [a2, a1]⟩
  · refine Links_frame h2 (fun a ha => ?_) (fun b hb => ?_)
    · rw [hL', mem_dropLast_append_singleton] at ha
      rw [hn, if_neg (fun e : a = t => htL (e ▸ ha))]
    · rw [hp, if_neg]
      intro e
      rw [List.map_cons, List.tail_cons] at hb
      rw [List.map_cons] at hnd1
      exact (List.nodup_cons.1 hnd1).1 (e ▸ hb)
  · exact Vals_frame hv (fun x _ => hval x.1)
  · intro x hx
    rw [last_of_map hL' hx, hn, if_pos rfl]
  · intro x hx
    simp only [List.head?_cons, Option.some.injEq] at hx
    rw [← hx, hp, if_pos rfl]
  · intro b hb
    have hb1 : b ≠ t := fun e => hb (e ▸ htm)
    have hb2 : b ≠ x0.1 := fun e => hb (by rw [e]; simp)
    rw [hn, hp, if_neg hb1, if_neg hb2]
    exact ⟨rfl, rfl⟩

/-- The step of `sort` that closes the ring again: the sentinel is linked in front of
the first and behind the last node of a chain. -/
theorem Chain.close_spec {m : LMem T} {s : Nat} {y0 : Nat × T} {ys : List (Nat × T)}
    (h : Chain m (y0 :: ys)) (hs : s ∉ (y0 :: ys).map (fun x => x.1)) (hsa : m.cells s ≠ none) :
    ∃ m1 m2 m3 m4, m.setNext (some s) (some y0.1) = .ok m1 ∧
      m1.setPrev (some s) (tailPtr ys (some y0.1)) = .ok m2 ∧
      m2.setPrev (some y0.1) (some s) = .ok m3 ∧
      m3.setNext (tailPtr ys (some y0.1)) (some s) = .ok m4 ∧ Ring m4 s (y0 :: ys) ∧
      (∀ b, b ∉ s :: (y0 :: ys).map (fun x => x.1) →
        m4.nextOf b = m.nextOf b ∧ m4.prevOf b = m.prevOf b) ∧
      (∀ b, m4.valueOf b = m.valueOf b) ∧ m4.fresh = m.fresh ∧
      (∀ b, m4.cells b = none ↔ m.cells b = none) := by
  obtain ⟨⟨hl, hv, -⟩, hnd, -⟩ := h
  obtain ⟨t, L, ht, hL⟩ := tailPtr_last y0.1 ys
  have hL' : (y0 :: ys).map (fun x => x.1) = L ++ [t] := hL
  have htm : t ∈ (y0 :: ys).map (fun x => x.1) := by rw [hL']; simp
  have hta : m.cells t ≠ none := by
    obtain ⟨o, ho, rfl⟩ := List.mem_map.1 htm
    exact LMem.alloc_of_valueOf (hv o ho)
  have hy0 : m.cells y0.1 ≠ none := LMem.alloc_of_valueOf (hv y0 (by simp))
  have hts : t ≠ s := fun e => hs (e ▸ htm)
  have hys : y0.1 ≠ s := fun e => hs (by rw [← e]; simp)
  have htL : t ∉ L := by
    rw [hL'] at hnd
    exact fun h => (List.nodup_append.1 hnd).2.2 h (List.mem_singleton_self t)
  obtain ⟨m1, e1, n1, p1, v1, f1, a1⟩ := LMem.setNext_spec hsa (some y0.1)
  obtain ⟨m2, e2, p2, n2, v2, f2, a2⟩ := LMem.setPrev_spec (m := m1) (a := s)
    (by rw [Ne, a1]; exact hsa) (some t)
  obtain ⟨m3, e3, p3, n3, v3, f3, a3⟩ := LMem.setPrev_spec (m := m2) (a := y0.1)
    (by rw [Ne, a2, a1]; exact hy0) (some s)
  obtain ⟨m4, e4, n4, p4, v4, f4, a4⟩ := LMem.setNext_spec (m := m3) (a := t)
    (by rw [Ne, a3, a2, a1]; exact hta) (some s)
  have hn : ∀ b, m4.nextOf b = if b = t then some (some s) else if b = s then some (some y0.1)
      else m.nextOf b := by
    intro b; rw [n4, n3, n2, n1]
  have hp : ∀ b, m4.prevOf b = if b = y0.1 then some (some s) else if b = s then some (some t)
      else m.prevOf b := by
    intro b; rw [p4, p3, p2, p1]
  have hval : ∀ b, m4.valueOf b = m.valueOf b := by
    intro b; rw [v4, v3, v2, v1]
  have hl4 : Links m4 ((y0 :: ys).map (fun x => x.1)) := by
    refine Links_frame hl (fun a ha => ?_) (fun b hb => ?_)
    · have ham := List.mem_of_mem_dropLast ha
      rw [hL', mem_dropLast_append_singleton] at ha
      rw [hn, if_neg (fun e : a = t => htL (e ▸ ha)), if_neg (fun e : a = s => hs (e ▸ ham))]
    · have hbm := List.mem_of_mem_tail hb
      rw [List.map_cons, List.tail_cons] at hb
      rw [List.map_cons] at hnd
      rw [hp, if_neg (fun e : b = y0.1 => (List.nodup_cons.1 hnd).1 (e ▸ hb)),
        if_neg (fun e : b = s => hs (e ▸ hbm))]
  refine ⟨m1, m2, m3, m4, e1, by rw [ht]; exact e2, e3, by rw [ht]; exact e4, ⟨?_, ?_, ?_⟩, ?_,
    hval, by rw [f4, f3, f2, f1], fun b => by rw [a4, a3, a2, a1]⟩
  · have hl5 : Links m4 ((y0 :: ys).map (fun x => x.1) ++ [s]) := by
      rw [hL', List.append_assoc]
      refine Links_split.2 ⟨?_, Links_cons_cons.2 ⟨⟨?_, ?_⟩, Links_singleton _ _⟩⟩
      · rw [← hL']; exact hl4
      · rw [hn, if_pos rfl]
      · rw [hp, if_neg hys.symm, if_pos rfl]
    rw [List.map_cons, List.cons_append] at hl5 ⊢
    refine Links_cons_cons.2 ⟨⟨?_, ?_⟩, hl5⟩
    · rw [hn, if_neg hts.symm, if_pos rfl]
    · rw [hp, if_pos rfl]
  · exact Vals_frame hv (fun x _ => hval x.1)
  · exact List.nodup_cons.2 ⟨hs, hnd⟩
  · intro b hb
    have hb0 : b ≠ s := fun e => hb (by rw [e]; simp)
    have hb1 : b ≠ t := fun e => hb (List.mem_cons_of_mem _ (e ▸ htm))
    have hb2 : b ≠ y0.1 := fun e => hb (by rw [e]; simp)
    rw [hn, hp, if_neg hb1, if_neg hb2, if_neg hb0, if_neg hb0]
    exact ⟨rfl, rfl⟩

/-- What `sort` does to a list whose `size_` counts its nodes: the same nodes stand in a
ring again, sorted, with nodes of equal value in their former order. -/
theorem list_sort_spec [LinearOrder T] [Inhabited T] {m : LMem T} {s : Nat}
    {xs : List (Nat × T)} (h : Ring m s xs) (hval : m.Valid) :
    ∃ m' ys,
      (∀ fuel, xs.length + 1 < fuel →
        list_sort fuel m ⟨s, xs.length⟩ = .ok (m', ⟨s, xs.length⟩)) ∧
      Ring m' s ys ∧ ys.Perm xs ∧ ys.Pairwise (fun a b => a.2 ≤ b.2) ∧
      (∀ v, ys.filter (fun e => decide (e.2 = v)) = xs.filter (fun e => decide (e.2 = v))) := by
  cases xs with
  | nil =>
    exact ⟨m, [], fun fuel _ => by simp [list_sort], h, List.Perm.refl _, List.Pairwise.nil,
      fun _ => rfl⟩
  | cons x0 xs =>
    cases xs with
    | nil =>
      exact ⟨m, [x0], fun fuel _ => by simp [list_sort], h, List.Perm.refl _,
        List.pairwise_singleton _ _, fun _ => rfl⟩
    | cons x1 xs =>
      have hsx : s ∉ (x0 :: x1 :: xs).map (fun x => x.1) := (List.nodup_cons.1 h.2.2).1
      have hsa : m.cells s ≠ none := LMem.alloc_of_nextOf h.sentinel_next
      obtain ⟨m1, m2, e1, e2, hc, fr2, val2, f2, al2⟩ := h.open_spec
      obtain ⟨m3, ys, run3, c3, perm3, sorted3, filt3, fr3, val3, f3, al3⟩ :=
        merge_sort_nodes_spec (x0 :: x1 :: xs).length (x0 :: x1 :: xs) m2 le_rfl hc
          (hval.grow (le_of_eq f2.symm) al2)
      obtain ⟨y0, ys, rfl⟩ : ∃ y0 ys', ys = y0 :: ys' := by
        cases ys with
        | nil =>
          have := List.Perm.length_eq perm3
          simp at this
        | cons y0 ys => exact ⟨y0, ys, rfl⟩
      have pm : ((y0 :: ys).map (fun x => x.1)).Perm ((x0 :: x1 :: xs).map (fun x => x.1)) :=
        List.Perm.map _ perm3
      have hsy : s ∉ (y0 :: ys).map (fun x => x.1) := fun h' => hsx ((List.Perm.mem_iff pm).1 h')
      have hsa3 : m3.cells s ≠ none := by
        rw [Ne, al3, al2]; exact hsa
      obtain ⟨m4, m5, m6, m7, e4, e5, e6, e7, hring, -⟩ := c3.close_spec hsy hsa3
      refine ⟨m7, y0 :: ys, fun fuel hf => ?_, hring, perm3, sorted3, filt3⟩
      have r3 := run3 fuel hf
      have hlen : ys.length < fuel := by
        have := List.Perm.length_eq perm3
        simp only [List.length_cons] at this hf
        omega
      have r4 := sort_last_spec ys y0 c3.1 fuel hlen
      obtain ⟨t, L, ht, -⟩ := tailPtr_last y0.1 ys
      rw [ht] at r4 e5 e7
      simp only [headPtr_cons] at r3
      simp only [list_sort, List.length_cons, LMem.getNext_of h.sentinel_next,
        LMem.getPrev_of h.sentinel_prev, headPtr_cons, ok_bind, e1, e2, r3, r4, ne_eq,
        reduceCtorEq, not_false_eq_true, if_true, e4, e5, e6, e7, pure_eq_ok]
      simp

/-- The values of a ring read backwards from a node on. -/
theorem readValuesBack_spec {m : LMem T} {s : Nat} : ∀ (pre post : List (Nat × T)),
    Ring m s (pre ++ post) → ∀ fuel, pre.length < fuel →
      readValuesBack fuel m (tailPtr pre (some s)) (some s) =
        .ok (pre.reverse.map (fun x => x.2)) := by
  intro pre
  induction pre using List.reverseRecOn with
  | nil =>
    intro post _ fuel hf
    obtain ⟨fuel, rfl⟩ : ∃ f, fuel = f + 1 := ⟨fuel - 1, by omega⟩
    simp [readValuesBack]
  | append_singleton pre x ih =>
    intro post h fuel hf
    obtain ⟨fuel, rfl⟩ : ∃ f, fuel = f + 1 := ⟨fuel - 1, by omega⟩
    have h' : Ring m s (pre ++ x :: post) := by simpa using h
    have hx : (some x.1 : Ptr) ≠ some s := by simpa using h'.not_mem_sentinel (x := x) (by simp)
    have hn := h'.node
    have := ih (x :: post) h' fuel (by
      simp only [List.length_append, List.length_cons, List.length_nil] at hf; omega)
    simp [readValuesBack, tailPtr_append, hx, LMem.getValue_of hn.2.2, LMem.getPrev_of hn.2.1,
      this]

/-- The element sequence a walk from `begin()` to `end()` reads off a ring. -/
theorem toList_of_ring {m : LMem T} {l : list} {xs : List (Nat × T)}
    (h : Ring m l.sentinel_ xs) :
    Returns (fun fuel => l.toList fuel m) (xs.map (fun x => x.2)) :=
  Returns.of_forall xs.length (fun fuel hf => by
    have := readValues_spec xs [] (by simpa using h) fuel hf
    simp [list.toList, list.begin, list.end, LMem.getNext_of h.sentinel_next, this])

/-- The element sequence a walk backwards from `--end()` reads off a ring. -/
theorem toListBack_of_ring {m : LMem T} {l : list} {xs : List (Nat × T)}
    (h : Ring m l.sentinel_ xs) :
    Returns (fun fuel => l.toListBack fuel m) ((xs.map (fun x => x.2)).reverse) :=
  Returns.of_forall xs.length (fun fuel hf => by
    have := readValuesBack_spec xs [] (by simpa using h) fuel hf
    simp [list.toListBack, list.end, LMem.getPrev_of h.sentinel_prev, this, List.map_reverse])

theorem sortInput_ring : Ring sortInput.1 sortInput.2.sentinel_ [(1, 2), (2, 1), (3, 2)] := by
  refine ⟨?_, ?_, by decide⟩
  · exact Links_cons_cons.2 ⟨⟨rfl, rfl⟩, Links_cons_cons.2 ⟨⟨rfl, rfl⟩,
      Links_cons_cons.2 ⟨⟨rfl, rfl⟩, Links_cons_cons.2 ⟨⟨rfl, rfl⟩, Links_singleton _ _⟩⟩⟩⟩
  · intro x hx
    simp only [List.mem_cons, List.mem_singleton, List.not_mem_nil, or_false] at hx
    rcases hx with rfl | rfl | rfl <;> rfl

theorem sortInput_valid : sortInput.1.Valid := by
  intro a ha
  have h4 : sortInput.1.fresh = 4 := rfl
  rw [h4] at ha
  have h0 : a ≠ 0 := by omega
  have h1 : a ≠ 1 := by omega
  have h2 : a ≠ 2 := by omega
  have h3 : a ≠ 3 := by omega
  simp [sortInput, list.ofItems, list.create, list_push_back_all, list_push_back, create_node_,
    link_between_, LMem.alloc, LMem.setNext, LMem.setPrev, LMem.setValue, LMem.modify,
    LMem.getPrev, LMem.read, LMem.put, LMem.empty, Except.map, bind, Except.bind, h0, h1, h2, h3]

theorem mergeInput_ring_a :
    Ring mergeInput.1 mergeInput.2.1.sentinel_ [(1, 1), (2, 3)] := by
  refine ⟨?_, ?_, by decide⟩
  · exact Links_cons_cons.2 ⟨⟨rfl, rfl⟩, Links_cons_cons.2 ⟨⟨rfl, rfl⟩,
      Links_cons_cons.2 ⟨⟨rfl, rfl⟩, Links_singleton _ _⟩⟩⟩
  · intro x hx
    simp only [List.mem_cons, List.mem_singleton, List.not_mem_nil, or_false] at hx
    rcases hx with rfl | rfl <;> rfl

theorem mergeInput_ring_b :
    Ring mergeInput.1 mergeInput.2.2.sentinel_ [(4, 2), (5, 3)] := by
  refine ⟨?_, ?_, by decide⟩
  · exact Links_cons_cons.2 ⟨⟨rfl, rfl⟩, Links_cons_cons.2 ⟨⟨rfl, rfl⟩,
      Links_cons_cons.2 ⟨⟨rfl, rfl⟩, Links_singleton _ _⟩⟩⟩
  · intro x hx
    simp only [List.mem_cons, List.mem_singleton, List.not_mem_nil, or_false] at hx
    rcases hx with rfl | rfl <;> rfl

theorem mergeInput_apart :
    Apart mergeInput.2.1.sentinel_ [((1 : Nat), (1 : Int)), (2, 3)] mergeInput.2.2.sentinel_
      [(4, 2), (5, 3)] := by
  intro b hb
  have h0 : mergeInput.2.1.sentinel_ = 0 := rfl
  have h3 : mergeInput.2.2.sentinel_ = 3 := rfl
  rw [h0] at hb
  rw [h3]
  simp only [List.map_cons, List.map_nil, List.mem_cons, List.mem_singleton, List.not_mem_nil,
    or_false] at hb ⊢
  omega

end ListLemmas

/-! ## Lemmas on `unique` and on the vector -/

section UniqueLemmas

variable {T : Type}

/-- What `erase(pos)` does at a node of a ring: the node is unlinked and released. -/
theorem list_erase_spec {m : LMem T} {s n : Nat} {pre post : List (Nat × T)} {y : Nat × T}
    (h : Ring m s (pre ++ y :: post)) :
    ∃ m', list_erase m ⟨s, n⟩ (some y.1) = .ok (m', ⟨s, size_dec n⟩) ∧
      Ring m' s (pre ++ post) ∧ m'.cells y.1 = none ∧ m'.fresh = m.fresh ∧
      (∀ b, b ≠ y.1 → (m'.cells b = none ↔ m.cells b = none)) := by
  obtain ⟨m1, e1, hr1, -, -, f1, a1⟩ := h.remove
  have hy : y.1 ≠ s := h.not_mem_sentinel (by simp)
  have hya : m1.cells y.1 ≠ none := by
    rw [Ne, a1]
    exact LMem.alloc_of_valueOf (h.2.1 y (by simp))
  obtain ⟨m2, e2, c2, o2, f2⟩ := LMem.free_spec hya
  have hyr : y.1 ∉ s :: (pre ++ post).map (fun x => x.1) := by
    have := h.2.2
    simp only [List.map_append, List.map_cons, List.nodup_cons, List.mem_append, List.mem_cons,
      not_or] at this ⊢
    have hp' := List.nodup_append.1 this.2
    exact ⟨Ne.symm this.1.2.1, fun hy => hp'.2.2 hy (by simp), (List.nodup_cons.1 hp'.2.1).1⟩
  refine ⟨m2, ?_, hr1.ring_frame (fun b hb => ?_), c2, by rw [f2, f1], fun b hb => by
    rw [o2 b hb, a1]⟩
  · have hys : (some y.1 : Ptr) ≠ some s := by simpa using hy
    simp only [list_erase, hys, if_false, e1, ok_bind, e2, pure_eq_ok]
  · exact LMem.views_of_cells (o2 b (fun e => hyr (e ▸ hb)))

/-- The loop of `unique()`: with `it` at the node `x` after the nodes `pre` and `next` at
the node after it, the loop leaves `x` followed by the rest with every node dropped whose
value equals that of the last node kept. -/
theorem unique_loop_spec [DecidableEq T] {s : Nat} :
    ∀ (rest pre : List (Nat × T)) (x : Nat × T) (m : LMem T),
      Ring m s (pre ++ x :: rest) → (pre ++ x :: rest).length < 2 ^ 64 →
      ∃ m', (∀ fuel, rest.length < fuel →
          unique_loop fuel m ⟨s, (pre ++ x :: rest).length⟩ (some x.1) (headPtr rest (some s)) =
            .ok (m', ⟨s, (pre ++ List.destutter' (fun a b => a.2 ≠ b.2) x rest).length⟩)) ∧
        Ring m' s (pre ++ List.destutter' (fun a b => a.2 ≠ b.2) x rest) ∧
        m'.fresh = m.fresh ∧ (∀ b, m.cells b = none → m'.cells b = none) := by
  intro rest
  induction rest with
  | nil =>
    intro pre x m h _
    refine ⟨m, fun fuel hf => ?_, by simpa using h, rfl, fun _ hb => hb⟩
    obtain ⟨fuel, rfl⟩ : ∃ f, fuel = f + 1 := ⟨fuel - 1, by omega⟩
    simp [unique_loop, list.end]
  | cons y rest ih =>
    intro pre x m h hlen
    have hx := h.node
    have h' : Ring m s ((pre ++ [x]) ++ y :: rest) := by simpa using h
    have hy := h'.node
    have hys : (some y.1 : Ptr) ≠ some s := by
      simpa using h.not_mem_sentinel (x := y) (by simp)
    by_cases hxy : x.2 = y.2
    · -- equal values: the node at `next` is erased
      obtain ⟨m1, e1, hr1, c1, f1, a1⟩ := list_erase_spec (n := (pre ++ x :: y :: rest).length) h'
      have hr1' : Ring m1 s (pre ++ x :: rest) := by simpa using hr1
      have hlen1 : (pre ++ x :: rest).length < 2 ^ 64 := by
        simp only [List.length_append, List.length_cons] at hlen ⊢
        omega
      obtain ⟨m', hrun, hr', f', a'⟩ := ih pre x m1 hr1' hlen1
      have hsz : size_dec (pre ++ x :: y :: rest).length = (pre ++ x :: rest).length := by
        have : (pre ++ x :: y :: rest).length = (pre ++ x :: rest).length + 1 := by
          simp only [List.length_append, List.length_cons]
          omega
        rw [this]
        exact size_dec_eq (by omega)
      rw [hsz] at e1
      have hx1 := hr1'.node
      refine ⟨m', fun fuel hf => ?_, ?_, by rw [f', f1], fun b hb => ?_⟩
      · obtain ⟨fuel, rfl⟩ : ∃ f, fuel = f + 1 := ⟨fuel - 1, by omega⟩
        have hstep := hrun fuel (by simp only [List.length_cons] at hf; omega)
        rw [List.destutter'_cons_neg _ (by simpa using hxy)]
        simp only [unique_loop, list.end, headPtr_cons, ne_eq, hys, not_false_eq_true, if_true,
          LMem.getValue_of hx.2.2, LMem.getValue_of hy.2.2, ok_bind, hxy, e1,
          LMem.getNext_of hx1.1, hstep]
      · rw [List.destutter'_cons_neg _ (by simpa using hxy)]
        exact hr'
      · by_cases hby : b = y.1
        · exact a' b (hby ▸ c1)
        · exact a' b ((a1 b hby).2 hb)
    · -- different values: both iterators advance
      have hlen1 : ((pre ++ [x]) ++ y :: rest).length < 2 ^ 64 := by
        simp only [List.length_append, List.length_cons, List.length_nil] at hlen ⊢
        omega
      obtain ⟨m', hrun, hr', f', a'⟩ := ih (pre ++ [x]) y m h' hlen1
      have e0 : (pre ++ [x]) ++ y :: rest = pre ++ x :: y :: rest := by simp
      have e1 : (pre ++ [x]) ++ List.destutter' (fun a b => a.2 ≠ b.2) y rest =
          pre ++ List.destutter' (fun a b => a.2 ≠ b.2) x (y :: rest) := by
        rw [List.destutter'_cons_pos _ (by simpa using hxy)]
        simp
      rw [e0, e1] at hrun
      rw [e1] at hr'
      refine ⟨m', fun fuel hf => ?_, hr', f', a'⟩
      obtain ⟨fuel, rfl⟩ : ∃ f, fuel = f + 1 := ⟨fuel - 1, by omega⟩
      have hstep := hrun fuel (by simp only [List.length_cons] at hf; omega)
      simp only [headPtr_cons] at hx
      simp only [unique_loop, list.end, headPtr_cons, ne_eq, hys, not_false_eq_true, if_true,
        LMem.getValue_of hx.2.2, LMem.getValue_of hy.2.2, ok_bind, hxy, if_false,
        LMem.getNext_of hx.1, LMem.getNext_of hy.1, hstep]

/-- What `unique()` does to a list whose `size_` counts its nodes. -/
theorem list_unique_spec [DecidableEq T] {m : LMem T} {s : Nat} {xs : List (Nat × T)}
    (h : Ring m s xs) (hlen : xs.length < 2 ^ 64) :
    ∃ m', (∀ fuel, xs.length < fuel →
        list_unique fuel m ⟨s, xs.length⟩ =
          .ok (m', ⟨s, (xs.destutter (fun a b => a.2 ≠ b.2)).length⟩)) ∧
      Ring m' s (xs.destutter (fun a b => a.2 ≠ b.2)) ∧
      m'.fresh = m.fresh ∧ (∀ b, m.cells b = none → m'.cells b = none) := by
  cases xs with
  | nil => exact ⟨m, fun fuel _ => by simp [list_unique], h, rfl, fun _ hb => hb⟩
  | cons x xs =>
    cases xs with
    | nil => exact ⟨m, fun fuel _ => by simp [list_unique], h, rfl, fun _ hb => hb⟩
    | cons y xs =>
      have h0 : Ring m s ([] ++ x :: y :: xs) := h
      obtain ⟨m', hrun, hr', f', a'⟩ := unique_loop_spec (y :: xs) [] x m h0 hlen
      have hx := h0.node
      simp only [List.nil_append, headPtr_cons] at hrun hr' hx
      refine ⟨m', fun fuel hf => ?_, hr', f', a'⟩
      have hstep := hrun fuel (by simp only [List.length_cons] at hf ⊢; omega)
      rw [List.destutter_cons', ← hstep]
      simp [list_unique, list.begin, LMem.getNext_of h.sentinel_next, LMem.getNext_of hx.1]

end UniqueLemmas

section VectorLemmas

variable {T : Type}

theorem VMem.get_of {m : VMem T} {a : Nat} {b : VBlock T} (h : m.blocks a = some b) {i : Nat}
    (hi : i < b.cap) : m.get (some a) i = .ok (b.elem i) := by
  simp [VMem.get, h, hi]

/-- The assignment `a[i] = v` inside an allocated array: only that element changes. -/
theorem VMem.set_of {m : VMem T} {a : Nat} {b : VBlock T} (h : m.blocks a = some b) {i : Nat}
    (hi : i < b.cap) (v : T) :
    ∃ m' b', m.set (some a) i v = .ok m' ∧ m'.blocks a = some b' ∧ b'.cap = b.cap ∧
      (∀ j, b'.elem j = if j = i then v else b.elem j) ∧
      (∀ c, c ≠ a → m'.blocks c = m.blocks c) ∧ m'.fresh = m.fresh :=
  ⟨⟨fun c => if c = a then some ⟨b.cap, fun j => if j = i then v else b.elem j⟩
      else m.blocks c, m.fresh⟩, ⟨b.cap, fun j => if j = i then v else b.elem j⟩,
    by simp [VMem.set, h, hi], by simp, rfl, fun _ => rfl, fun c hc => by simp [hc], rfl⟩

/-- The shifting loop of `insert`: the elements at `idx .. i - 1` move one place up. -/
theorem insert_shift_spec {a : Nat} (idx : Nat) : ∀ (k : Nat) (m : VMem T) (b : VBlock T) (i : Nat),
    m.blocks a = some b → i < b.cap → i = idx + k →
    ∃ m' b', (∀ fuel, k < fuel → insert_shift fuel m (some a) idx i = .ok m') ∧
      m'.blocks a = some b' ∧ b'.cap = b.cap ∧
      (∀ j, b'.elem j = if idx < j ∧ j ≤ i then b.elem (j - 1) else b.elem j) ∧
      (∀ c, c ≠ a → m'.blocks c = m.blocks c) ∧ m'.fresh = m.fresh := by
  intro k
  induction k with
  | zero =>
    intro m b i hb _ hk
    refine ⟨m, b, fun fuel hf => ?_, hb, rfl, fun j => ?_, fun _ _ => rfl, rfl⟩
    · obtain ⟨fuel, rfl⟩ : ∃ f, fuel = f + 1 := ⟨fuel - 1, by omega⟩
      simp [insert_shift, hk]
    · rw [if_neg (by omega)]
  | succ k ih =>
    intro m b i hb hi hk
    obtain ⟨m1, b1, e1, hb1, c1, el1, o1, f1⟩ := VMem.set_of hb hi (b.elem (i - 1))
    obtain ⟨m', b', hrun, hb', c', el', o', f'⟩ := ih m1 b1 (i - 1) hb1 (by omega) (by omega)
    refine ⟨m', b', fun fuel hf => ?_, hb', by rw [c', c1], fun j => ?_, fun c hc => by
      rw [o' c hc, o1 c hc], by rw [f', f1]⟩
    · obtain ⟨fuel, rfl⟩ : ∃ f, fuel = f + 1 := ⟨fuel - 1, by omega⟩
      have hgt : i > idx := by omega
      simp only [insert_shift, hgt, if_true, VMem.get_of hb (show i - 1 < b.cap by omega),
        ok_bind, e1, hrun fuel (by omega)]
    · rw [el' j]
      by_cases h1 : idx < j ∧ j ≤ i - 1
      · rw [if_pos h1, if_pos (by omega), el1, if_neg (by omega)]
      · rw [if_neg h1, el1]
        by_cases h2 : j = i
        · rw [if_pos h2, if_pos (by omega), h2]
        · rw [if_neg h2, if_neg (by omega)]

theorem size_inc_of_lt {n : Nat} (h : n + 1 < 2 ^ 64) : size_inc n = n + 1 :=
  size_inc_eq h

/-- The shifting loop of `erase`: the elements at `i + 1 .. size - 1` move one place
down. -/
theorem erase_shift_spec (a size : Nat) (hsz : size < 2 ^ 64) :
    ∀ (k : Nat) (m : VMem T) (b : VBlock T) (i : Nat),
    m.blocks a = some b → size ≤ b.cap → size ≤ i + 1 + k → i < size →
    ∃ m' b', (∀ fuel, k < fuel → erase_shift fuel m (some a) size i = .ok m') ∧
      m'.blocks a = some b' ∧ b'.cap = b.cap ∧
      (∀ j, b'.elem j = if i ≤ j ∧ j + 1 < size then b.elem (j + 1) else b.elem j) ∧
      (∀ c, c ≠ a → m'.blocks c = m.blocks c) ∧ m'.fresh = m.fresh := by
  intro k
  induction k with
  | zero =>
    intro m b i hb _ hk _
    refine ⟨m, b, fun fuel hf => ?_, hb, rfl, fun j => ?_, fun _ _ => rfl, rfl⟩
    · obtain ⟨fuel, rfl⟩ : ∃ f, fuel = f + 1 := ⟨fuel - 1, by omega⟩
      have : ¬ size_inc i < size := by rw [size_inc_eq (by omega)]; omega
      simp [erase_shift, this]
    · rw [if_neg (by omega)]
  | succ k ih =>
    intro m b i hb hcap hk hi
    have hinc : size_inc i = i + 1 := size_inc_eq (by omega)
    by_cases hlt : i + 1 < size
    · obtain ⟨m1, b1, e1, hb1, c1, el1, o1, f1⟩ :=
        VMem.set_of hb (show i < b.cap by omega) (b.elem (i + 1))
      obtain ⟨m', b', hrun, hb', c', el', o', f'⟩ :=
        ih m1 b1 (i + 1) hb1 (by omega) (by omega) (by omega)
      refine ⟨m', b', fun fuel hf => ?_, hb', by rw [c', c1], fun j => ?_, fun c hc => by
        rw [o' c hc, o1 c hc], by rw [f', f1]⟩
      · obtain ⟨fuel, rfl⟩ : ∃ f, fuel = f + 1 := ⟨fuel - 1, by omega⟩
        simp only [erase_shift, hinc, hlt, if_true,
          VMem.get_of hb (show i + 1 < b.cap by omega), ok_bind, e1, hrun fuel (by omega)]
      · rw [el' j]
        by_cases h1 : i + 1 ≤ j ∧ j + 1 < size
        · rw [if_pos h1, if_pos (by omega), el1, if_neg (by omega)]
        · rw [if_neg h1, el1]
          by_cases h2 : j = i
          · rw [if_pos h2, if_pos (by omega), h2]
          · rw [if_neg h2, if_neg (by omega)]
    · refine ⟨m, b, fun fuel hf => ?_, hb, rfl, fun j => ?_, fun _ _ => rfl, rfl⟩
      · obtain ⟨fuel, rfl⟩ : ∃ f, fuel = f + 1 := ⟨fuel - 1, by omega⟩
        simp [erase_shift, hinc, hlt]
      · rw [if_neg (by omega)]

/-- The copying loop of `reallocate`: the elements at `i .. size - 1` of the old array
are copied to the new one. -/
theorem reallocate_copy_spec {a d size : Nat} (had : a ≠ d) (hsz : size < 2 ^ 64)
    {bs : VBlock T} (hs : size ≤ bs.cap) :
    ∀ (k : Nat) (m : VMem T) (bd : VBlock T) (i : Nat),
    m.blocks a = some bs → m.blocks d = some bd → size ≤ bd.cap → size ≤ i + k →
    ∃ m' bd', (∀ fuel, k < fuel →
        reallocate_copy fuel m (some a) (some d) size i = .ok m') ∧
      m'.blocks d = some bd' ∧ bd'.cap = bd.cap ∧
      (∀ j, bd'.elem j = if i ≤ j ∧ j < size then bs.elem j else bd.elem j) ∧
      (∀ c, c ≠ d → m'.blocks c = m.blocks c) ∧ m'.fresh = m.fresh := by
  intro k
  induction k with
  | zero =>
    intro m bd i _ hd _ hk
    refine ⟨m, bd, fun fuel hf => ?_, hd, rfl, fun j => ?_, fun _ _ => rfl, rfl⟩
    · obtain ⟨fuel, rfl⟩ : ∃ f, fuel = f + 1 := ⟨fuel - 1, by omega⟩
      simp [reallocate_copy, show ¬ i < size by omega]
    · rw [if_neg (by omega)]
  | succ k ih =>
    intro m bd i ha hd hcap hk
    by_cases hlt : i < size
    · have hinc : size_inc i = i + 1 := size_inc_eq (by omega)
      obtain ⟨m1, b1, e1, hb1, c1, el1, o1, f1⟩ :=
        VMem.set_of hd (show i < bd.cap by omega) (bs.elem i)
      obtain ⟨m', b', hrun, hb', c', el', o', f'⟩ :=
        ih m1 b1 (i + 1) (by rw [o1 a had]; exact ha) hb1 (by omega) (by omega)
      refine ⟨m', b', fun fuel hf => ?_, hb', by rw [c', c1], fun j => ?_, fun c hc => by
        rw [o' c hc, o1 c hc], by rw [f', f1]⟩
      · obtain ⟨fuel, rfl⟩ : ∃ f, fuel = f + 1 := ⟨fuel - 1, by omega⟩
        simp only [reallocate_copy, hlt, if_true, VMem.get_of ha (show i < bs.cap by omega),
          ok_bind, e1, hinc, hrun fuel (by omega)]
      · rw [el' j]
        by_cases h1 : i + 1 ≤ j ∧ j < size
        · rw [if_pos h1, if_pos (by omega)]
        · rw [if_neg h1, el1]
          by_cases h2 : j = i
          · rw [if_pos h2, if_pos (by omega), h2]
          · rw [if_neg h2, if_neg (by omega)]
    · refine ⟨m, bd, fun fuel hf => ?_, hd, rfl, fun j => ?_, fun _ _ => rfl, rfl⟩
      · obtain ⟨fuel, rfl⟩ : ∃ f, fuel = f + 1 := ⟨fuel - 1, by omega⟩
        simp [reallocate_copy, hlt]
      · rw [if_neg (by omega)]

theorem VRep.data_some {m : VMem T} {v : vector} {es : List T} (h : VRep m v es)
    (hc : v.cap_ ≠ 0) :
    ∃ a b, v.data_ = some a ∧ m.blocks a = some b ∧ b.cap = v.cap_ ∧
      ∀ i, i < v.size_ → es[i]? = some (b.elem i) := by
  obtain ⟨-, -, -, h4⟩ := h
  cases hd : v.data_ with
  | none => rw [hd] at h4; exact absurd h4 hc
  | some a =>
    rw [hd] at h4
    obtain ⟨b, hb, hcap, hel⟩ := h4
    exact ⟨a, b, rfl, hb, hcap, hel⟩

/-- What `reallocate(new_cap)` does when the new capacity holds the content: the content
moves to an array of the new capacity. -/
theorem reallocate_spec [Inhabited T] {m : VMem T} {v : vector} {es : List T}
    (h : VRep m v es) (hv : m.Valid) {new_cap : Nat} (hn : v.size_ ≤ new_cap)
    (hc : new_cap < 2 ^ 64) :
    ∃ m' d, (∀ fuel, v.size_ < fuel →
        reallocate fuel m v new_cap = .ok (m', ⟨d, v.size_, new_cap⟩)) ∧
      VRep m' ⟨d, v.size_, new_cap⟩ es ∧ m'.Valid := by
  obtain ⟨data, size, cap⟩ := v
  by_cases hsame : new_cap = cap
  · subst hsame
    exact ⟨m, data, fun fuel _ => by simp [reallocate], h, hv⟩
  obtain ⟨h1, h2, h3, h4⟩ := h
  simp only at h1 h2 h3 h4 hn
  by_cases h0 : new_cap = 0
  · -- the new array is `nullptr`; the vector is empty
    subst h0
    have hs0 : size = 0 := by omega
    subst hs0
    have hes : es = [] := List.length_eq_zero.1 h1
    subst hes
    cases data with
    | none =>
      refine ⟨m, none, fun fuel hf => ?_, ⟨rfl, le_rfl, by norm_num, rfl⟩, hv⟩
      obtain ⟨fuel, rfl⟩ : ∃ f, fuel = f + 1 := ⟨fuel - 1, by omega⟩
      simp [reallocate, hsame, reallocate_copy, VMem.deleteArray]
    | some a =>
      obtain ⟨b, hb, -, -⟩ := h4
      refine ⟨⟨fun c => if c = a then none else m.blocks c, m.fresh⟩, none, fun fuel hf => ?_,
        ⟨rfl, le_rfl, by norm_num, rfl⟩, fun c hc => ?_⟩
      · obtain ⟨fuel, rfl⟩ : ∃ f, fuel = f + 1 := ⟨fuel - 1, by omega⟩
        simp [reallocate, hsame, reallocate_copy, VMem.deleteArray, hb]
      · show (if c = a then none else m.blocks c) = none
        split
        · rfl
        · exact hv c hc
  · -- a new array at the fresh address
    have hfresh : m.blocks m.fresh = none := hv m.fresh le_rfl
    obtain ⟨m0, hm0⟩ : ∃ m0, m0 = (m.newArray new_cap).2 := ⟨_, rfl⟩
    have hd0 : m0.blocks m.fresh = some ⟨new_cap, fun _ => default⟩ := by
      rw [hm0]; simp [VMem.newArray]
    have ho0 : ∀ c, c ≠ m.fresh → m0.blocks c = m.blocks c := by
      intro c hc; rw [hm0]; simp [VMem.newArray, hc]
    have hf0 : m0.fresh = m.fresh + 1 := by rw [hm0]; rfl
    have hfst : (m.newArray new_cap).1 = m.fresh := rfl
    cases data with
    | none =>
      have hcap0 : cap = 0 := h4
      have hs0 : size = 0 := by omega
      subst hs0
      have hes : es = [] := List.length_eq_zero.1 h1
      subst hes
      refine ⟨m0, some m.fresh, fun fuel hf => ?_, ⟨rfl, Nat.zero_le _, hc,
        ⟨_, hd0, rfl, fun i hi => absurd hi (Nat.not_lt_zero i)⟩⟩, fun c hc' => ?_⟩
      · obtain ⟨fuel, rfl⟩ : ∃ f, fuel = f + 1 := ⟨fuel - 1, by omega⟩
        simp [reallocate, hsame, h0, hfst, ← hm0, reallocate_copy, VMem.deleteArray]
      · rw [hf0] at hc'
        rw [ho0 c (by omega)]
        exact hv c (by omega)
    | some a =>
      obtain ⟨b, hb, hbcap, hel⟩ := h4
      have had : a ≠ m.fresh := by
        intro e
        rw [e, hfresh] at hb
        exact absurd hb (by simp)
      obtain ⟨m1, bd, hrun, hbd, hbdc, hbde, ho1, hf1⟩ :=
        reallocate_copy_spec had (show size < 2 ^ 64 by omega) (show size ≤ b.cap by omega)
          size m0 ⟨new_cap, fun _ => default⟩ 0 (by rw [ho0 a had]; exact hb) hd0 hn (by omega)
      have hb1 : m1.blocks a = some b := by rw [ho1 a had, ho0 a had]; exact hb
      refine ⟨⟨fun c => if c = a then none else m1.blocks c, m1.fresh⟩, some m.fresh,
        fun fuel hf => ?_, ⟨h1, hn, hc, ⟨bd, ?_, hbdc, fun i hi => ?_⟩⟩, fun c hc' => ?_⟩
      · have hr := hrun fuel hf
        simp only at hr
        simp [reallocate, hsame, h0, hfst, ← hm0, hr, VMem.deleteArray, hb1]
      · show (if m.fresh = a then none else m1.blocks m.fresh) = some bd
        rw [if_neg (Ne.symm had)]
        exact hbd
      · rw [hel i hi, hbde i, if_pos ⟨Nat.zero_le _, hi⟩]
      · show (if c = a then none else m1.blocks c) = none
        rw [hf1, hf0] at hc'
        split
        · rfl
        · rename_i hca
          rw [ho1 c (by omega), ho0 c (by omega)]
          exact hv c (by omega)

theorem size_sub_zero {n : Nat} (h : n < 2 ^ 64) : size_sub n 0 = n := by
  unfold size_sub
  simp only [Nat.zero_mod, Nat.sub_zero, Nat.add_mod_right]
  exact Nat.mod_eq_of_lt h

/-- The content of a vector, read element by element. -/
theorem readElems_spec {m : VMem T} {a : Nat} {b : VBlock T} (hb : m.blocks a = some b)
    {es : List T} : ∀ (n i : Nat), i + n ≤ b.cap → i + n = es.length →
    (∀ j, j < es.length → es[j]? = some (b.elem j)) →
    readElems m (some a) n i = .ok (es.drop i) := by
  intro n
  induction n with
  | zero =>
    intro i _ hlen _
    rw [List.drop_of_length_le (by omega)]
    rfl
  | succ n ih =>
    intro i hcap hlen hel
    have h1 := ih (i + 1) (by omega) (by omega) hel
    have h2 := hel i (by omega)
    have h3 : es.drop i = b.elem i :: es.drop (i + 1) := by
      rw [List.drop_eq_getElem_cons (by omega)]
      congr 1
      have := List.getElem?_eq_getElem (l := es) (show i < es.length by omega)
      rw [this] at h2
      exact Option.some.inj h2
    rw [h3]
    simp [readElems, VMem.get_of hb (show i < b.cap by omega), h1]

theorem toList_of_vrep {m : VMem T} {v : vector} {es : List T} (h : VRep m v es) :
    v.toList m = .ok es := by
  obtain ⟨data, size, cap⟩ := v
  obtain ⟨h1, h2, h3, h4⟩ := h
  simp only at h1 h2 h3 h4
  cases data with
  | none =>
    have : cap = 0 := h4
    have hs : size = 0 := by omega
    subst hs
    rw [List.length_eq_zero.1 h1]
    rfl
  | some a =>
    obtain ⟨b, hb, hbc, hel⟩ := h4
    have := readElems_spec hb size 0 (by omega) (by omega) (fun j hj => hel j (by omega))
    simpa [vector.toList] using this

/-- Writing inside the capacity of a vector keeps the allocator discipline. -/
theorem VMem.Valid.of_same {m m' : VMem T} (hv : m.Valid) {a : Nat} {b : VBlock T}
    (hb : m.blocks a = some b) (ho : ∀ c, c ≠ a → m'.blocks c = m.blocks c)
    (hf : m'.fresh = m.fresh) : m'.Valid := by
  intro c hc
  rw [hf] at hc
  have hca : c ≠ a := by
    intro e
    rw [e] at hc
    rw [hv a hc] at hb
    exact absurd hb (by simp)
  rw [ho c hca]
  exact hv c hc

theorem take_insert_drop_getElem? (es : List T) (x : T) {i : Nat} (hi : i ≤ es.length)
    (j : Nat) :
    (es.take i ++ x :: es.drop i)[j]? =
      if j < i then es[j]? else if j = i then some x else es[j - 1]? := by
  have hl : (es.take i).length = i := by rw [List.length_take]; omega
  by_cases h1 : j < i
  · rw [if_pos h1, List.getElem?_append_left (by omega), List.getElem?_take_of_lt h1]
  · rw [if_neg h1, List.getElem?_append_right (by omega), hl]
    by_cases h2 : j = i
    · rw [if_pos h2, h2, Nat.sub_self]
      simp
    · rw [if_neg h2]
      obtain ⟨k, hk⟩ : ∃ k, j - i = k + 1 := ⟨j - i - 1, by omega⟩
      rw [hk, List.getElem?_cons_succ, List.getElem?_drop]
      congr 1
      omega

/-- What `insert(begin() + i, x)` does when `x` is an object outside the arrays: the
element lands at index `i`, the elements from index `i` on move one place up. -/
theorem vector_insert_spec [Inhabited T] {m : VMem T} {v : vector} {es : List T}
    (h : VRep m v es) (hv : m.Valid) {i : Nat} (hi : i ≤ es.length)
    (hbig : es.length < 2 ^ 63) (x : T) :
    ∃ m' v', (∀ fuel, es.length < fuel →
        vector_insert fuel m v (v.begin.add i) (.obj x) = .ok (v'.begin.add i, m', v')) ∧
      VRep m' v' (es.take i ++ x :: es.drop i) ∧ m'.Valid ∧ v'.size_ = es.length + 1 ∧
      v.size_ + 1 ≤ v'.cap_ := by
  have hsize : v.size_ = es.length := h.1.symm
  -- room for one more element
  obtain ⟨m1, d1, cap1, hrun1, h1, hv1, hcap1⟩ : ∃ m1 d1 cap1,
      (∀ fuel, es.length < fuel →
        (if v.size_ = v.cap_ then
          reallocate fuel m v (if v.cap_ = 0 then 1 else v.cap_ * 2 % 2 ^ 64)
        else Except.ok (m, v)) = .ok (m1, ⟨d1, v.size_, cap1⟩)) ∧
      VRep m1 ⟨d1, v.size_, cap1⟩ es ∧ m1.Valid ∧ v.size_ < cap1 := by
    by_cases hfull : v.size_ = v.cap_
    · have hnc : (if v.cap_ = 0 then 1 else v.cap_ * 2 % 2 ^ 64) =
          (if v.cap_ = 0 then 1 else v.cap_ * 2) := by
        split
        · rfl
        · exact Nat.mod_eq_of_lt (by omega)
      obtain ⟨m1, d1, hr, h1, hv1⟩ := reallocate_spec h hv
        (show v.size_ ≤ (if v.cap_ = 0 then 1 else v.cap_ * 2) by split <;> omega)
        (show (if v.cap_ = 0 then 1 else v.cap_ * 2) < 2 ^ 64 by split <;> omega)
      refine ⟨m1, d1, _, fun fuel hf => ?_, h1, hv1, by split <;> omega⟩
      rw [if_pos hfull, hnc]
      exact hr fuel (by omega)
    · refine ⟨m, v.data_, v.cap_, fun fuel _ => by rw [if_neg hfull], h, hv, ?_⟩
      have := h.2.1
      omega
  obtain ⟨a, b, hd, hb, hbc, hel⟩ := h1.data_some (by simp only; omega)
  simp only at hd hbc hel
  subst hd
  -- the shift and the assignment
  obtain ⟨m2, b2, hrun2, hb2, hc2, hel2, ho2, hf2⟩ :=
    insert_shift_spec i (es.length - i) m1 b es.length hb (by omega) (by omega)
  obtain ⟨m3, b3, e3, hb3, hc3, hel3, ho3, hf3⟩ := VMem.set_of hb2 (show i < b2.cap by omega) x
  have hidx : (v.begin.add i).diff v.begin = i := by
    simp only [VPtr.diff, VPtr.add, vector.begin, Nat.zero_add]
    exact size_sub_zero (by omega)
  refine ⟨m3, ⟨some a, es.length + 1, cap1⟩, fun fuel hf => ?_, ⟨?_, by simp only; omega,
    h1.2.2.1, ⟨b3, hb3, by rw [hc3, hc2, hbc], fun j hj => ?_⟩⟩, ?_, rfl, by simp only; omega⟩
  · have hr1 := hrun1 fuel hf
    have hr2 := hrun2 fuel (by omega)
    simp only [vector_insert, hidx, pure_eq_ok, hr1, ok_bind]
    simp only [hsize, hr2, VRef.read, e3, ok_bind,
      size_inc_eq (show es.length + 1 < 2 ^ 64 by omega)]
  · simp only [List.length_append, List.length_take, List.length_cons, List.length_drop]
    omega
  · rw [take_insert_drop_getElem? es x hi j, hel3, hel2]
    simp only at hj
    by_cases h1' : j < i
    · rw [if_pos h1', if_neg (by omega), if_neg (by omega)]
      exact hel j (by omega)
    · rw [if_neg h1']
      by_cases h2' : j = i
      · rw [if_pos h2', if_pos h2']
      · rw [if_neg h2', if_neg h2', if_pos (by omega)]
        exact hel (j - 1) (by omega)
  · exact (hv1.of_same hb ho2 hf2).of_same hb2 ho3 hf3

theorem take_drop_succ_getElem? (es : List T) {i : Nat} (j : Nat) :
    (es.take i ++ es.drop (i + 1))[j]? = if j < i then es[j]? else es[j + 1]? := by
  by_cases hi : i ≤ es.length
  · have hl : (es.take i).length = i := by rw [List.length_take]; omega
    by_cases h1 : j < i
    · rw [if_pos h1, List.getElem?_append_left (by omega), List.getElem?_take_of_lt h1]
    · rw [if_neg h1, List.getElem?_append_right (by omega), hl, List.getElem?_drop]
      congr 1
      omega
  · have h1 : es.take i = es := List.take_of_length_le (by omega)
    have h2 : es.drop (i + 1) = [] := List.drop_of_length_le (by omega)
    rw [h1, h2, List.append_nil]
    split
    · rfl
    · rw [List.getElem?_eq_none (by omega), List.getElem?_eq_none (by omega)]

/-- What `erase(begin() + i)` does at an index inside the content: the elements behind
index `i` move one place down. -/
theorem vector_erase_spec {m : VMem T} {v : vector} {es : List T}
    (h : VRep m v es) (hv : m.Valid) {i : Nat} (hi : i < es.length) :
    ∃ m', (∀ fuel, es.length < fuel →
        vector_erase fuel m v (v.begin.add i) = .ok (m', ⟨v.data_, v.size_ - 1, v.cap_⟩)) ∧
      VRep m' ⟨v.data_, v.size_ - 1, v.cap_⟩ (es.take i ++ es.drop (i + 1)) ∧ m'.Valid := by
  have hsize : v.size_ = es.length := h.1.symm
  obtain ⟨a, b, hd, hb, hbc, hel⟩ := h.data_some (by have := h.2.1; omega)
  have hcap := h.2.1
  have hc64 := h.2.2.1
  obtain ⟨m1, b1, hrun, hb1, hc1, hel1, ho1, hf1⟩ :=
    erase_shift_spec a v.size_ (by omega) (es.length - i) m b i hb (by omega)
      (by omega) (by omega)
  have hidx : (v.begin.add i).diff v.begin = i := by
    simp only [VPtr.diff, VPtr.add, vector.begin, Nat.zero_add]
    exact size_sub_zero (by omega)
  refine ⟨m1, fun fuel hf => ?_, ⟨?_, by simp only; omega, hc64, ?_⟩, hv.of_same hb ho1 hf1⟩
  · have hr := hrun fuel (by omega)
    have hpos : v.size_ > 0 := by omega
    simp only [vector_erase, hidx, hd, hr, ok_bind, hpos, if_true, pure_eq_ok]
  · simp only [List.length_append, List.length_take, List.length_drop]
    omega
  · rw [hd]
    refine ⟨b1, hb1, by rw [hc1, hbc], fun j hj => ?_⟩
    simp only at hj
    rw [take_drop_succ_getElem? es j, hel1]
    by_cases h1 : j < i
    · rw [if_pos h1, if_neg (by omega)]
      exact hel j (by omega)
    · rw [if_neg h1, if_pos (by omega)]
      exact hel (j + 1) (by omega)

/-- The doubling loop of `insert_many`: it stops at a capacity that holds the request. -/
theorem grow_cap_spec (need : Nat) (hneed : need ≤ 2 ^ 63) :
    ∀ (k c : Nat), 1 ≤ c → c < 2 ^ 64 → need ≤ c + k →
    ∃ c', (∀ fuel, k < fuel → grow_cap fuel c need = .ok c') ∧ need ≤ c' ∧ c ≤ c' ∧
      c' < 2 ^ 64 ∧ (c' = c ∨ c < need) := by
  intro k
  induction k with
  | zero =>
    intro c _ hc hk
    refine ⟨c, fun fuel hf => ?_, by omega, le_rfl, hc, Or.inl rfl⟩
    obtain ⟨fuel, rfl⟩ : ∃ f, fuel = f + 1 := ⟨fuel - 1, by omega⟩
    simp [grow_cap, show ¬ c < need by omega]
  | succ k ih =>
    intro c h1 hc hk
    by_cases hlt : c < need
    · have hmod : c * 2 % 2 ^ 64 = c * 2 := Nat.mod_eq_of_lt (by omega)
      obtain ⟨c', hrun, h2, h3, h4, -⟩ := ih (c * 2) (by omega) (by omega) (by omega)
      refine ⟨c', fun fuel hf => ?_, h2, by omega, h4, Or.inr hlt⟩
      obtain ⟨fuel, rfl⟩ : ∃ f, fuel = f + 1 := ⟨fuel - 1, by omega⟩
      simp only [grow_cap, hlt, if_true, hmod, hrun fuel (by omega)]
    · refine ⟨c, fun fuel hf => ?_, by omega, le_rfl, hc, Or.inl rfl⟩
      obtain ⟨fuel, rfl⟩ : ∃ f, fuel = f + 1 := ⟨fuel - 1, by omega⟩
      simp [grow_cap, hlt]

/-- The shifting loop of `insert_many`: the elements at `idx .. i - 1` move `count`
places up. -/
theorem insert_many_shift_spec {a : Nat} (idx : Nat) {count : Nat} (hcount : 1 ≤ count) :
    ∀ (k : Nat) (m : VMem T) (b : VBlock T) (i : Nat),
    m.blocks a = some b → i + count ≤ b.cap → b.cap < 2 ^ 64 → i = idx + k →
    ∃ m' b', (∀ fuel, k < fuel → insert_many_shift fuel m (some a) idx count i = .ok m') ∧
      m'.blocks a = some b' ∧ b'.cap = b.cap ∧
      (∀ j, b'.elem j = if idx + count ≤ j ∧ j < i + count then b.elem (j - count)
        else b.elem j) ∧
      (∀ c, c ≠ a → m'.blocks c = m.blocks c) ∧ m'.fresh = m.fresh := by
  intro k
  induction k with
  | zero =>
    intro m b i hb _ _ hk
    refine ⟨m, b, fun fuel hf => ?_, hb, rfl, fun j => ?_, fun _ _ => rfl, rfl⟩
    · obtain ⟨fuel, rfl⟩ : ∃ f, fuel = f + 1 := ⟨fuel - 1, by omega⟩
      simp [insert_many_shift, hk]
    · rw [if_neg (by omega)]
  | succ k ih =>
    intro m b i hb hi hc64 hk
    have harith : size_dec (size_add i count) = i + count - 1 := by
      rw [size_add_eq (by omega)]
      obtain ⟨n, hn⟩ : ∃ n, i + count = n + 1 := ⟨i + count - 1, by omega⟩
      rw [hn, size_dec_eq (by omega)]
      rfl
    obtain ⟨m1, b1, e1, hb1, c1, el1, o1, f1⟩ :=
      VMem.set_of hb (show i + count - 1 < b.cap by omega) (b.elem (i - 1))
    obtain ⟨m', b', hrun, hb', c', el', o', f'⟩ :=
      ih m1 b1 (i - 1) hb1 (by omega) (by omega) (by omega)
    refine ⟨m', b', fun fuel hf => ?_, hb', by rw [c', c1], fun j => ?_, fun c hc => by
      rw [o' c hc, o1 c hc], by rw [f', f1]⟩
    · obtain ⟨fuel, rfl⟩ : ∃ f, fuel = f + 1 := ⟨fuel - 1, by omega⟩
      have hgt : i > idx := by omega
      simp only [insert_many_shift, hgt, if_true,
        VMem.get_of hb (show i - 1 < b.cap by omega), ok_bind, harith, e1,
        hrun fuel (by omega)]
    · rw [el' j]
      by_cases h1 : idx + count ≤ j ∧ j < i - 1 + count
      · rw [if_pos h1, if_pos (by omega), el1, if_neg (by omega)]
      · rw [if_neg h1, el1]
        by_cases h2 : j = i + count - 1
        · rw [if_pos h2, if_pos (by omega), h2]
          have e : i + count - 1 - count = i - 1 := by omega
          rw [e]
        · rw [if_neg h2, if_neg (by omega)]

/-- The fold of `insert_many` that assigns the arguments to consecutive slots, for
arguments that are objects outside the arrays. -/
theorem assign_args_spec {a : Nat} (idx : Nat) : ∀ (args : List T) (m : VMem T) (b : VBlock T)
    (j0 : Nat), m.blocks a = some b → idx + j0 + args.length ≤ b.cap → b.cap < 2 ^ 64 →
    ∃ m' b', assign_args (args.map VRef.obj) m (some a) idx j0 = .ok m' ∧
      m'.blocks a = some b' ∧ b'.cap = b.cap ∧
      (∀ j, idx + j0 ≤ j → j < idx + j0 + args.length →
        args[j - (idx + j0)]? = some (b'.elem j)) ∧
      (∀ j, ¬ (idx + j0 ≤ j ∧ j < idx + j0 + args.length) → b'.elem j = b.elem j) ∧
      (∀ c, c ≠ a → m'.blocks c = m.blocks c) ∧ m'.fresh = m.fresh := by
  intro args
  induction args with
  | nil =>
    intro m b j0 hb _ _
    exact ⟨m, b, rfl, hb, rfl, fun j h1 h2 => by simp at h2; omega, fun _ _ => rfl,
      fun _ _ => rfl, rfl⟩
  | cons x args ih =>
    intro m b j0 hb hcap hc64
    simp only [List.length_cons] at hcap
    obtain ⟨m1, b1, e1, hb1, c1, el1, o1, f1⟩ :=
      VMem.set_of hb (show idx + j0 < b.cap by omega) x
    obtain ⟨m', b', hrun, hb', c', el', oth', o', f'⟩ :=
      ih m1 b1 (j0 + 1) hb1 (by omega) (by omega)
    refine ⟨m', b', ?_, hb', by rw [c', c1], fun j h1 h2 => ?_, fun j hj => ?_, fun c hc => by
      rw [o' c hc, o1 c hc], by rw [f', f1]⟩
    · simp only [List.map_cons, assign_args, VRef.read,
        size_add_eq (show idx + j0 < 2 ^ 64 by omega), e1, ok_bind,
        size_inc_eq (show j0 + 1 < 2 ^ 64 by omega), hrun]
    · simp only [List.length_cons] at h2
      by_cases hj : j = idx + j0
      · rw [hj, Nat.sub_self, oth' (idx + j0) (by omega), el1, if_pos rfl]
        simp
      · obtain ⟨n, hn⟩ : ∃ n, j - (idx + j0) = n + 1 := ⟨j - (idx + j0) - 1, by omega⟩
        rw [hn, List.getElem?_cons_succ]
        have := el' j (by omega) (by omega)
        rw [← this]
        congr 1
        omega
    · simp only [List.length_cons] at hj
      rw [oth' j (by omega), el1, if_neg (by omega)]

theorem take_args_drop_getElem? (es args : List T) {i : Nat} (hi : i ≤ es.length) (j : Nat) :
    (es.take i ++ args ++ es.drop i)[j]? =
      if j < i then es[j]? else if j < i + args.length then args[j - i]?
      else es[j - args.length]? := by
  have hl : (es.take i).length = i := by rw [List.length_take]; omega
  rw [List.append_assoc]
  by_cases h1 : j < i
  · rw [if_pos h1, List.getElem?_append_left (by omega), List.getElem?_take_of_lt h1]
  · rw [if_neg h1, List.getElem?_append_right (by omega), hl]
    by_cases h2 : j < i + args.length
    · rw [if_pos h2, List.getElem?_append_left (by omega)]
    · rw [if_neg h2, List.getElem?_append_right (by omega), List.getElem?_drop]
      congr 1
      omega

/-- What `insert_many(begin() + i, args...)` does with at least one argument, all of
them objects outside the arrays: the arguments land at index `i` in order, the elements
from index `i` on move up. -/
theorem vector_insert_many_spec [Inhabited T] {m : VMem T} {v : vector} {es : List T}
    (h : VRep m v es) (hv : m.Valid) {i : Nat} (hi : i ≤ es.length) (args : List T)
    (hargs : args ≠ []) (hbig : es.length + args.length ≤ 2 ^ 63) :
    ∃ m' v', (∀ fuel, es.length + args.length < fuel →
        vector_insert_many fuel m v (v.begin.add i) (args.map VRef.obj) =
          .ok (v'.begin.add i, m', v')) ∧
      VRep m' v' (es.take i ++ args ++ es.drop i) ∧ m'.Valid ∧
      v'.size_ = es.length + args.length ∧ es.length + args.length ≤ v'.cap_ := by
  have hsize : v.size_ = es.length := h.1.symm
  have hk : 1 ≤ args.length := by
    cases args with
    | nil => exact absurd rfl hargs
    | cons _ _ => simp
  have hneed : size_add v.size_ args.length = es.length + args.length := by
    rw [hsize, size_add_eq (by omega)]
  -- the new capacity
  obtain ⟨c', hgrow, hc1, hc2, hc3, hc4⟩ :=
    grow_cap_spec (es.length + args.length) hbig (es.length + args.length)
      (if v.cap_ = 0 then 1 else v.cap_) (by split <;> omega)
      (by have := h.2.2.1; split <;> omega) (by omega)
  obtain ⟨m1, d1, hrun1, h1, hv1⟩ : ∃ m1 d1,
      (∀ fuel, es.length < fuel →
        (if c' ≠ v.cap_ then reallocate fuel m v c' else Except.ok (m, v)) =
          .ok (m1, ⟨d1, v.size_, c'⟩)) ∧
      VRep m1 ⟨d1, v.size_, c'⟩ es ∧ m1.Valid := by
    by_cases hsame : c' = v.cap_
    · refine ⟨m, v.data_, fun fuel _ => ?_, ?_, hv⟩
      · rw [if_neg (by simpa using hsame), hsame]
      · rw [hsame]
        exact h
    · obtain ⟨m1, d1, hr, h1, hv1⟩ := reallocate_spec h hv (show v.size_ ≤ c' by omega) hc3
      exact ⟨m1, d1, fun fuel hf => by rw [if_pos hsame]; exact hr fuel (by omega), h1, hv1⟩
  obtain ⟨a, b, hd, hb, hbc, hel⟩ := h1.data_some (by simp only; omega)
  simp only at hd hbc hel
  subst hd
  -- the shift and the assignments
  obtain ⟨m2, b2, hrun2, hb2, hcap2, hel2, ho2, hf2⟩ :=
    insert_many_shift_spec i hk (es.length - i) m1 b es.length hb (by omega)
      (by omega) (by omega)
  obtain ⟨m3, b3, e3, hb3, hcap3, hel3, hoth3, ho3, hf3⟩ :=
    assign_args_spec i args m2 b2 0 hb2 (by omega) (by omega)
  have hidx : (v.begin.add i).diff ⟨v.data_, 0⟩ = i := by
    simp only [VPtr.diff, VPtr.add, vector.begin, Nat.zero_add]
    exact size_sub_zero (by omega)
  refine ⟨m3, ⟨some a, es.length + args.length, c'⟩, fun fuel hf => ?_, ⟨?_, by simp only; omega,
    hc3, ⟨b3, hb3, by rw [hcap3, hcap2, hbc], fun j hj => ?_⟩⟩, ?_, rfl, hc1⟩
  · have hg := hgrow fuel hf
    have hr1 := hrun1 fuel (by omega)
    have hr2 := hrun2 fuel (by omega)
    have hne : ¬ args.length = 0 := by omega
    simp only [vector_insert_many, List.length_map, hidx, hne, if_false, hneed, hg, ok_bind,
      pure_eq_ok, hr1]
    simp only [hsize, hr2, e3, ok_bind, size_add_eq (show es.length + args.length < 2 ^ 64 by
      omega)]
  · simp only [List.length_append, List.length_take, List.length_drop]
    omega
  · simp only at hj
    rw [take_args_drop_getElem? es args hi j]
    by_cases h1' : j < i
    · rw [if_pos h1', hoth3 j (by omega), hel2, if_neg (by omega)]
      exact hel j (by omega)
    · rw [if_neg h1']
      by_cases h2' : j < i + args.length
      · rw [if_pos h2']
        have := hel3 j (by omega) (by omega)
        simpa using this
      · rw [if_neg h2', hoth3 j (by omega), hel2, if_pos (by omega)]
        exact hel (j - args.length) (by omega)
  · exact (hv1.of_same hb ho2 hf2).of_same hb2 ho3 hf3

end VectorLemmas

/-! ## Lemmas on `erase` -/

section EraseLemmas

variable {K V : Type}

theorem Shape.isBlack {m : Mem K V} {par : Ptr} {t : Tree K V} (h : Shape m par t) :
    m.isBlack t.ptr = .ok (decide (t.color = .BLACK)) := by
  cases t with
  | nil => simp [Mem.isBlack]
  | node l a c kv r => simp [Mem.isBlack, Mem.color, Mem.read, h.1, Except.map]

/-- Below the top the focus is not the root, whether or not it is a node. -/
theorem ZRep.ptr_ne_root {m : Mem K V} {hdr : Nat} {p : Path K V} {t : Tree K V}
    (h : ZRep m hdr p t) (hp : p.isTop = false) : t.ptr ≠ (p.plug t).ptr := by
  cases t with
  | nil =>
    obtain ⟨a, -, ha⟩ := Path.plug_ptr_mem (Tree.nil : Tree K V) hp
    rw [ha]; simp
  | node l z c kv r => exact h.root_ne hp

/-- The loop of `erase_rebalance` stops at once at a RED node. -/
theorem erase_loop_exit_red [LinearOrder K] {m : Mem K V} {hdr : Nat} {p : Path K V}
    {t : Tree K V} (chk : Bool) (h : ZRep m hdr p t) (hc : t.color = .RED) (par : Ptr) (fuel : Nat) :
    erase_rebalance_loop_checked chk hdr (fuel + 1) m t.ptr par = .ok (m, t.ptr) := by
  have hroot := h.read_root
  have hb := h.2.1.isBlack
  simp only [hc, reduceCtorEq, decide_False] at hb
  by_cases hx : t.ptr = (p.plug t).ptr
  · simp only [erase_rebalance_loop_checked, hroot, ok_bind, hx, if_true, pure_eq_ok]
  · simp only [erase_rebalance_loop_checked, hroot, ok_bind, hx, if_false, hb, Bool.not_false, if_true,
      pure_eq_ok]

/-- The loop of `erase_rebalance` stops at once at the root. -/
theorem erase_loop_exit_root [LinearOrder K] {m : Mem K V} {hdr : Nat} {t : Tree K V}
    (chk : Bool) (h : ZRep m hdr .top t) (par : Ptr) (fuel : Nat) :
    erase_rebalance_loop_checked chk hdr (fuel + 1) m t.ptr par = .ok (m, t.ptr) := by
  have hroot := h.read_root
  simp only [Path.plug_top] at hroot
  simp only [erase_rebalance_loop_checked, hroot, ok_bind, if_true, pure_eq_ok]

@[simp] theorem Mem.setColorIf_some (m : Mem K V) (a : Nat) (c : Color) :
    m.setColorIf (some a) c = m.setColor (some a) c := rfl

@[simp] theorem Mem.setColorIf_none (m : Mem K V) (c : Color) :
    m.setColorIf none c = .ok m := rfl

/-- The parent link the loop of `erase_rebalance` reads from a present `x`. -/
theorem ZRep.parent_of_ptr {m : Mem K V} {hdr : Nat} {p : Path K V} {t : Tree K V}
    (h : ZRep m hdr p t) (hx : t.ptr ≠ none) : m.parent t.ptr = .ok (p.par hdr) := by
  cases t with
  | nil => exact absurd rfl hx
  | node l z c kv r => exact h.reads.1

/-- A right child differs from its sibling when the sibling is a node. -/
theorem ZRep.ptr_ne_sibling {m : Mem K V} {hdr : Nat} {up : Path K V} {a : Nat} {c : Color}
    {kv : K × V} {ll lr : Tree K V} {w : Nat} {wc : Color} {wkv : K × V} {t : Tree K V}
    (h : ZRep m hdr (.right (.node ll w wc wkv lr) a c kv up) t) : t.ptr ≠ some w := by
  cases t with
  | nil => simp
  | node l z zc zkv r => exact h.ne_sibling_right

/-- Without its assertion `rotate_left_checked` is `rotate_left`. -/
theorem rotate_left_checked_false [LinearOrder K] (hdr : Nat) (m : Mem K V) (x : Ptr) :
    rotate_left_checked false hdr m x = rotate_left hdr m x := by
  cases h : m.right x with
  | error e => simp only [rotate_left_checked, rotate_left, h]; rfl
  | ok y => simp [rotate_left_checked, h]

/-- Without its assertion `rotate_right_checked` is `rotate_right`. -/
theorem rotate_right_checked_false [LinearOrder K] (hdr : Nat) (m : Mem K V) (y : Ptr) :
    rotate_right_checked false hdr m y = rotate_right hdr m y := by
  cases h : m.left y with
  | error e => simp only [rotate_right_checked, rotate_right, h]; rfl
  | ok y => simp [rotate_right_checked, h]

/-- Without its assertions the checked loop is the loop of `erase_rebalance`. -/
theorem erase_rebalance_loop_checked_false [LinearOrder K] (hdr : Nat) :
    ∀ (fuel : Nat) (m : Mem K V) (x parent : Ptr),
      erase_rebalance_loop_checked false hdr fuel m x parent =
        erase_rebalance_loop hdr fuel m x parent := by
  intro fuel
  induction fuel with
  | zero => intro m x parent; rfl
  | succ n ih =>
    intro m x parent
    simp only [erase_rebalance_loop_checked, erase_rebalance_loop, ih,
      rotate_left_checked_false, rotate_right_checked_false, Bool.false_eq_true, false_and,
      if_false]

/-- The node above a focus below the top is not the header. -/
theorem ZRep.par_ne_header {m : Mem K V} {hdr : Nat} {p : Path K V} {t : Tree K V}
    (h : ZRep m hdr p t) (hp : p.isTop = false) : ¬ (p.par hdr = some hdr) := by
  have hn := h.2.2
  cases p with
  | top => simp [Path.isTop] at hp
  | left up a c kv r =>
    simp only [Path.par_left, Option.some.injEq]
    rintro rfl
    simp [Path.addrs_left] at hn
  | right l a c kv up =>
    simp only [Path.par_right, Option.some.injEq]
    rintro rfl
    simp [Path.addrs_right] at hn

/-- The function `rotate_left_checked` at a node with a right child does what `rotate_left` does. -/
theorem rotate_left_checked_spec [LinearOrder K] {m : Mem K V} {hdr : Nat}
    {p : Path K V} {α β γ : Tree K V} {x y : Nat} {cx cy : Color} {kx ky : K × V}
    (h : ZRep m hdr p (.node α x cx kx (.node β y cy ky γ))) :
    ∃ m', (∀ chk, rotate_left_checked chk hdr m (some x) = .ok m') ∧
      ZRep m' hdr p (.node (.node α x cx kx β) y cy ky γ) ∧ m'.next = m.next ∧
      AgreeOff m' m (hdr :: (p.addrs ++ (Tree.node α x cx kx (.node β y cy ky γ)).addrs)) := by
  obtain ⟨m', e, h1, h2, h3⟩ := rotate_left_spec h
  obtain ⟨-, -, -, hr, -⟩ := h.reads
  refine ⟨m', fun chk => ?_, h1, h2, h3⟩
  simp only [rotate_left_checked, hr, ok_bind, Tree.ptr_node, reduceCtorEq, and_false, if_false, e]

/-- The function `rotate_right_checked` at a node with a left child does what `rotate_right` does. -/
theorem rotate_right_checked_spec [LinearOrder K] {m : Mem K V} {hdr : Nat}
    {p : Path K V} {α β γ : Tree K V} {x y : Nat} {cx cy : Color} {kx ky : K × V}
    (h : ZRep m hdr p (.node (.node α x cx kx β) y cy ky γ)) :
    ∃ m', (∀ chk, rotate_right_checked chk hdr m (some y) = .ok m') ∧
      ZRep m' hdr p (.node α x cx kx (.node β y cy ky γ)) ∧ m'.next = m.next ∧
      AgreeOff m' m (hdr :: (p.addrs ++ (Tree.node (.node α x cx kx β) y cy ky γ).addrs)) := by
  obtain ⟨m', e, h1, h2, h3⟩ := rotate_right_spec h
  obtain ⟨-, -, hl, -, -⟩ := h.reads
  refine ⟨m', fun chk => ?_, h1, h2, h3⟩
  simp only [rotate_right_checked, hl, ok_bind, Tree.ptr_node, reduceCtorEq, and_false, if_false, e]

theorem mem_of_count_le {S T : List Nat} (h : ∀ b, S.count b ≤ T.count b) : ∀ b ∈ S, b ∈ T := by
  intro b hb
  have h1 := List.count_pos_iff.2 hb
  exact List.count_pos_iff.1 (Nat.lt_of_lt_of_le h1 (h b))

end EraseLemmas

section EraseLoop

variable {K V : Type}

/-- Case 2 of `erase_rebalance` on the left: the sibling is BLACK with two BLACK children;
it is painted RED and the loop continues from the parent. -/
theorem erase_loop_case2_left [LinearOrder K] {m : Mem K V} {hdr : Nat} {up : Path K V}
    {a : Nat} {c : Color} {kv : K × V} {rl rr : Tree K V} {w : Nat} {wkv : K × V}
    {t : Tree K V}
    (hz : ZRep m hdr (.left up a c kv (.node rl w .BLACK wkv rr)) t)
    (htc : t.color = .BLACK) (hrl : rl.color = .BLACK) (hrr : rr.color = .BLACK) :
    ∃ m1, ZRep m1 hdr up (.node t a c kv (.node rl w .RED wkv rr)) ∧
      (∀ chk fuel, erase_rebalance_loop_checked chk hdr (fuel + 1) m t.ptr (some a) =
        erase_rebalance_loop_checked chk hdr fuel m1 (some a) (up.par hdr)) ∧
      m1.next = m.next ∧ AgreeOff m1 m [w] := by
  have hroot := hz.read_root
  have hph : ¬ ((some a : Ptr) = some hdr) := hz.par_ne_header rfl
  have hx := hz.ptr_ne_root rfl
  have hxb := hz.2.1.isBlack
  have hxp := hz.parent_of_ptr
  have hp := ZRep.up_left.1 hz
  obtain ⟨-, -, hal, har, -⟩ := hp.reads
  have hw := ZRep.up_right.2 hp
  obtain ⟨-, -, hwl, hwr, -⟩ := hw.reads
  have hwred := hw.2.1.isRed
  have hwlb := (hw.2.1.2.1 : Shape m (some w) rl).isBlack
  have hwrb := (hw.2.1.2.2 : Shape m (some w) rr).isBlack
  obtain ⟨m1, e1, hz1, hn1, ha1⟩ := setColor_spec hw .RED
  have hp1 := ZRep.up_right.1 hz1
  obtain ⟨hap1, -⟩ := hp1.reads
  refine ⟨m1, hp1, fun chk fuel => ?_, hn1, ha1⟩
  simp only [htc, hrl, hrr, decide_True, Tree.color_node, reduceCtorEq, decide_False,
    Path.plug_left, Path.par_left, Tree.ptr_node] at hroot hx hxb hxp hal har hwl hwr
  simp only [hrl, hrr, decide_True, Tree.color_node, reduceCtorEq, decide_False,
    Tree.ptr_node] at hwred hwlb hwrb
  generalize t.ptr = x at hroot hx hxb hxp hal ⊢
  cases x <;>
    simp only [erase_rebalance_loop_checked, hph, and_false, hroot, hx, hxb, hxp, hal, har, hwl, hwr, hwred, hwlb, hwrb,
      e1, hap1, ok_bind, pure_eq_ok, if_true, if_false, Bool.not_true, Bool.false_eq_true,
      decide_True, ne_eq, reduceCtorEq, not_false_eq_true, Bool.and_self,
      Mem.setColorIf_some, ite_self, not_true_eq_false, eq_self_iff_true]

/-- Cases 3 and 4 of `erase_rebalance` on the left: the sibling is BLACK with a RED child;
after the recolourings and rotations the loop stops at the root. -/
theorem erase_loop_case34_left [LinearOrder K] {m : Mem K V} {hdr : Nat} {up : Path K V}
    {a : Nat} {c : Color} {kv : K × V} {rl rr : Tree K V} {w : Nat} {wkv : K × V}
    {t : Tree K V}
    (hz : ZRep m hdr (.left up a c kv (.node rl w .BLACK wkv rr)) t)
    (htc : t.color = .BLACK) (hne : ¬ (rl.color = .BLACK ∧ rr.color = .BLACK)) :
    ∃ m' T', Holds m' hdr T' ∧
      (∀ chk fuel, erase_rebalance_loop_checked chk hdr (fuel + 2) m t.ptr (some a) = .ok (m', T'.ptr)) ∧
      T'.addrs = (up.plug (.node t a c kv (.node rl w .BLACK wkv rr))).addrs ∧
      m'.next = m.next ∧
      AgreeOff m' m (hdr :: ((Path.left up a c kv (.node rl w .BLACK wkv rr)).addrs ++ t.addrs)) := by
  have hroot := hz.read_root
  have hph : ¬ ((some a : Ptr) = some hdr) := hz.par_ne_header rfl
  have hx := hz.ptr_ne_root rfl
  have hxb := hz.2.1.isBlack
  have hxp := hz.parent_of_ptr
  have hp := ZRep.up_left.1 hz
  obtain ⟨-, hac, hal, har, -⟩ := hp.reads
  have hw := ZRep.up_right.2 hp
  obtain ⟨-, -, hwl, hwr, -⟩ := hw.reads
  have hwred := hw.2.1.isRed
  have hwlb := (hw.2.1.2.1 : Shape m (some w) rl).isBlack
  have hwrb := (hw.2.1.2.2 : Shape m (some w) rr).isBlack
  simp only [htc, decide_True, Path.plug_left, Path.par_left, Tree.ptr_node] at hroot hx hxb hxp
  simp only [Path.par_left, Tree.ptr_node] at hal har hwl hwr
  simp only [Tree.color_node, reduceCtorEq, decide_False, Tree.ptr_node] at hwred
  by_cases hrr : rr.color = .BLACK
  · -- case 3: the near nephew is RED, the far one BLACK
    have hrl : rl.color = .RED := by
      cases h : rl.color with
      | RED => rfl
      | BLACK => exact absurd ⟨h, hrr⟩ hne
    cases rl with
    | nil => simp at hrl
    | node rll wl wlc wlkv rlr =>
      simp only [Tree.color_node] at hrl
      subst hrl
      have hwl0 := ZRep.up_left.2 hw
      obtain ⟨m1, e1, hz1, hn1, ha1⟩ := setColor_spec hwl0 .BLACK
      have hw1 := ZRep.up_left.1 hz1
      obtain ⟨m2, e2, hz2, hn2, ha2⟩ := setColor_spec hw1 .RED
      obtain ⟨m3, e3, hz3, hn3, ha3⟩ := rotate_right_checked_spec hz2
      have hp3 := ZRep.up_right.1 hz3
      obtain ⟨-, hac3, -, har3, -⟩ := hp3.reads
      obtain ⟨-, -, -, hwlr3, -⟩ := hz3.reads
      obtain ⟨m4, e4, hz4, hn4, ha4⟩ := setColor_spec hz3 c
      have hp4 := ZRep.up_right.1 hz4
      obtain ⟨m5, e5, hz5, hn5, ha5⟩ := setColor_spec hp4 .BLACK
      have hw5 := ZRep.up_right.2 (ZRep.up_right.2 hz5)
      obtain ⟨m6, e6, hz6, hn6, ha6⟩ := setColor_spec hw5 .BLACK
      have hp6 := ZRep.up_right.1 (ZRep.up_right.1 hz6)
      obtain ⟨m7, e7, hz7, hn7, ha7⟩ := rotate_left_checked_spec hp6
      have hroot7 := hz7.read_root
      have hexit := fun chk fuel => erase_loop_exit_root chk (Holds.toZRep (p := .top) hz7.toHolds)
        (some a) fuel
      simp only [hrr, decide_True, Tree.color_node, reduceCtorEq, decide_False,
        Tree.ptr_node] at hwlb hwrb hwl hwlr3 har3
      simp only [Path.plug_top] at hexit
      refine ⟨m7, _, hz7.toHolds, fun chk fuel => ?_, ?_, by omega, ?_⟩
      · generalize t.ptr = x at hroot hx hxb hxp hal ⊢
        cases x <;> rw [erase_rebalance_loop_checked] <;>
          simp only [hph, and_false, hroot, hx, hxb, hxp, hal, har, hwl, hwr, hwred, hwlb, hwrb, hac,
            e1, e2, e3, hac3, har3, hwlr3, e4, e5, e6, e7, hroot7, hexit,
            ok_bind, pure_eq_ok, if_true, if_false, Bool.not_true, Bool.false_eq_true,
            decide_True, ne_eq, reduceCtorEq, not_false_eq_true, Bool.and_self, Bool.and_true,
            Bool.and_false, Mem.setColorIf_some, ite_self, not_true_eq_false, eq_self_iff_true]
      · exact Path.plug_addrs_congr up (by simp)
      · refine AgreeOff.trans (ha7.mono ?_) (AgreeOff.trans (ha6.mono ?_)
          (AgreeOff.trans (ha5.mono ?_) (AgreeOff.trans (ha4.mono ?_)
          (AgreeOff.trans (ha3.mono ?_) (AgreeOff.trans (ha2.mono ?_) (ha1.mono ?_))))))
        all_goals
          refine mem_of_count_le (fun b => ?_)
          simp only [List.count_cons, List.count_append, List.count_nil, Tree.addrs_node,
            Path.addrs_left, Path.addrs_right]
          omega
  · -- case 4: the far nephew is RED
    have hrr' : rr.color = .RED := by
      cases h : rr.color with
      | RED => rfl
      | BLACK => exact absurd h hrr
    cases rr with
    | nil => simp at hrr'
    | node rrl wr wrc wrkv rrr =>
      simp only [Tree.color_node] at hrr'
      subst hrr'
      obtain ⟨m1, e1, hz1, hn1, ha1⟩ := setColor_spec hw c
      have hp1 := ZRep.up_right.1 hz1
      obtain ⟨m2, e2, hz2, hn2, ha2⟩ := setColor_spec hp1 .BLACK
      have hw2 := ZRep.up_right.2 (ZRep.up_right.2 hz2)
      obtain ⟨m3, e3, hz3, hn3, ha3⟩ := setColor_spec hw2 .BLACK
      have hp3 := ZRep.up_right.1 (ZRep.up_right.1 hz3)
      obtain ⟨m4, e4, hz4, hn4, ha4⟩ := rotate_left_checked_spec hp3
      have hroot4 := hz4.read_root
      have hexit := fun chk fuel => erase_loop_exit_root chk (Holds.toZRep (p := .top) hz4.toHolds)
        (some a) fuel
      simp only [Tree.color_node, reduceCtorEq, decide_False, Tree.ptr_node] at hwrb hwr
      simp only [Path.plug_top] at hexit
      refine ⟨m4, _, hz4.toHolds, fun chk fuel => ?_, ?_, by omega, ?_⟩
      · generalize t.ptr = x at hroot hx hxb hxp hal ⊢
        cases x <;> rw [erase_rebalance_loop_checked] <;>
          simp only [hph, and_false, hroot, hx, hxb, hxp, hal, har, hwl, hwr, hwred, hwlb, hwrb, hac,
            e1, e2, e3, e4, hroot4, hexit,
            ok_bind, pure_eq_ok, if_true, if_false, Bool.not_true, Bool.false_eq_true,
            decide_True, ne_eq, reduceCtorEq, not_false_eq_true, Bool.and_self, Bool.and_true,
            Bool.and_false, Mem.setColorIf_some, ite_self, not_true_eq_false, eq_self_iff_true]
      · exact Path.plug_addrs_congr up (by simp)
      · refine AgreeOff.trans (ha4.mono ?_) (AgreeOff.trans (ha3.mono ?_)
          (AgreeOff.trans (ha2.mono ?_) (ha1.mono ?_)))
        all_goals
          refine mem_of_count_le (fun b => ?_)
          simp only [List.count_cons, List.count_append, List.count_nil, Tree.addrs_node,
            Path.addrs_left, Path.addrs_right]
          omega

/-- Case 1 of `erase_rebalance` on the left: the sibling is RED; after the recolouring and
the rotation the rest of the iteration is that of an iteration started at the rotated tree,
where the sibling is BLACK. -/
theorem erase_loop_case1_left [LinearOrder K] {m : Mem K V} {hdr : Nat} {up : Path K V}
    {a : Nat} {c : Color} {kv : K × V} {rl rr : Tree K V} {w : Nat} {wkv : K × V}
    {t : Tree K V}
    (hz : ZRep m hdr (.left up a c kv (.node rl w .RED wkv rr)) t)
    (htc : t.color = .BLACK) (hrl : rl.color = .BLACK) (hrln : ¬ (rl.ptr = none)) :
    ∃ m3, ZRep m3 hdr (.left (.left up w .BLACK wkv rr) a .RED kv rl) t ∧
      (∀ chk fuel, erase_rebalance_loop_checked chk hdr (fuel + 1) m t.ptr (some a) =
        erase_rebalance_loop_checked chk hdr (fuel + 1) m3 t.ptr (some a)) ∧
      m3.next = m.next ∧
      AgreeOff m3 m (hdr :: ((Path.left up a c kv (.node rl w .RED wkv rr)).addrs ++ t.addrs)) := by
  have hroot := hz.read_root
  have hph : ¬ ((some a : Ptr) = some hdr) := hz.par_ne_header rfl
  have hx := hz.ptr_ne_root rfl
  have hxb := hz.2.1.isBlack
  have hxp := hz.parent_of_ptr
  have hp := ZRep.up_left.1 hz
  obtain ⟨-, -, hal, har, -⟩ := hp.reads
  have hw := ZRep.up_right.2 hp
  have hwred := hw.2.1.isRed
  obtain ⟨m1, e1, hz1, hn1, ha1⟩ := setColor_spec hw .BLACK
  have hp1 := ZRep.up_right.1 hz1
  obtain ⟨m2, e2, hz2, hn2, ha2⟩ := setColor_spec hp1 .RED
  obtain ⟨m3, e3, hz3, hn3, ha3⟩ := rotate_left_checked_spec hz2
  have hz3' := ZRep.up_left.2 (ZRep.up_left.2 hz3)
  have hroot3 := hz3'.read_root
  have hx3 := hz3'.ptr_ne_root rfl
  have hxb3 := hz3'.2.1.isBlack
  have hxp3 := hz3'.parent_of_ptr
  have hp3 := ZRep.up_left.1 hz3'
  obtain ⟨-, -, hal3, har3, -⟩ := hp3.reads
  have hwred3 := (hp3.2.1.2.2 : Shape m3 (some a) rl).isRed
  simp only [htc, hrl, decide_True, Tree.color_node, reduceCtorEq, decide_False,
    Path.plug_left, Path.par_left, Tree.ptr_node] at hroot hx hxb hxp hal har hwred
  simp only [htc, hrl, decide_True, Tree.color_node, reduceCtorEq, decide_False,
    Path.plug_left, Path.par_left, Tree.ptr_node] at hroot3 hx3 hxb3 hxp3 hal3 har3 hwred3
  refine ⟨m3, hz3', fun chk fuel => ?_, by omega, ?_⟩
  · generalize t.ptr = x at hroot hx hxb hxp hal hroot3 hx3 hxb3 hxp3 hal3 ⊢
    cases x <;>
      simp only [erase_rebalance_loop_checked, hph, and_false, hroot, hx, hxb, hxp, hal, har, hwred,
        e1, e2, e3, hroot3, hx3, hxb3, hxp3, hal3, har3, hwred3, hrln,
        ok_bind, pure_eq_ok, if_true, if_false, Bool.not_true, Bool.false_eq_true,
        decide_True, ne_eq, reduceCtorEq, not_false_eq_true, Bool.and_self,
        Mem.setColorIf_some, ite_self, not_true_eq_false, eq_self_iff_true]
  · refine AgreeOff.trans (ha3.mono ?_) (AgreeOff.trans (ha2.mono ?_) (ha1.mono ?_))
    all_goals
          refine mem_of_count_le (fun b => ?_)
          simp only [List.count_cons, List.count_append, List.count_nil, Tree.addrs_node,
            Path.addrs_left, Path.addrs_right]
          omega

/-- Case 2 of `erase_rebalance` on the right. -/
theorem erase_loop_case2_right [LinearOrder K] {m : Mem K V} {hdr : Nat} {up : Path K V}
    {a : Nat} {c : Color} {kv : K × V} {ll lr : Tree K V} {w : Nat} {wkv : K × V}
    {t : Tree K V}
    (hz : ZRep m hdr (.right (.node ll w .BLACK wkv lr) a c kv up) t)
    (htc : t.color = .BLACK) (hll : ll.color = .BLACK) (hlr : lr.color = .BLACK) :
    ∃ m1, ZRep m1 hdr up (.node (.node ll w .RED wkv lr) a c kv t) ∧
      (∀ chk fuel, erase_rebalance_loop_checked chk hdr (fuel + 1) m t.ptr (some a) =
        erase_rebalance_loop_checked chk hdr fuel m1 (some a) (up.par hdr)) ∧
      m1.next = m.next ∧ AgreeOff m1 m [w] := by
  have hroot := hz.read_root
  have hph : ¬ ((some a : Ptr) = some hdr) := hz.par_ne_header rfl
  have hx := hz.ptr_ne_root rfl
  have hxb := hz.2.1.isBlack
  have hxp := hz.parent_of_ptr
  have hxs := hz.ptr_ne_sibling
  have hp := ZRep.up_right.1 hz
  obtain ⟨-, -, hal, har, -⟩ := hp.reads
  have hw := ZRep.up_left.2 hp
  obtain ⟨-, -, hwl, hwr, -⟩ := hw.reads
  have hwred := hw.2.1.isRed
  have hwlb := (hw.2.1.2.1 : Shape m (some w) ll).isBlack
  have hwrb := (hw.2.1.2.2 : Shape m (some w) lr).isBlack
  obtain ⟨m1, e1, hz1, hn1, ha1⟩ := setColor_spec hw .RED
  have hp1 := ZRep.up_left.1 hz1
  obtain ⟨hap1, -⟩ := hp1.reads
  refine ⟨m1, hp1, fun chk fuel => ?_, hn1, ha1⟩
  simp only [htc, decide_True, Path.plug_right, Path.par_right, Tree.ptr_node] at hroot hx hxb hxp
  simp only [Path.par_right, Tree.ptr_node] at hal har hwl hwr
  simp only [hll, hlr, decide_True, Tree.color_node, reduceCtorEq, decide_False,
    Tree.ptr_node] at hwred hwlb hwrb
  generalize t.ptr = x at hroot hx hxb hxp hxs har ⊢
  cases x <;>
    simp only [erase_rebalance_loop_checked, hph, and_false, hroot, hx, hxb, hxp, hxs, hal, har, hwl, hwr, hwred, hwlb,
      hwrb, e1, hap1, ok_bind, pure_eq_ok, if_true, if_false, Bool.not_true, Bool.false_eq_true,
            decide_True, decide_False, ne_eq, reduceCtorEq, not_false_eq_true, Bool.and_self,
            Bool.and_true, Bool.and_false, Bool.false_and, Bool.true_and, Mem.setColorIf_some, ite_self, not_true_eq_false,
            eq_self_iff_true]

/-- Cases 3 and 4 of `erase_rebalance` on the right. -/
theorem erase_loop_case34_right [LinearOrder K] {m : Mem K V} {hdr : Nat} {up : Path K V}
    {a : Nat} {c : Color} {kv : K × V} {ll lr : Tree K V} {w : Nat} {wkv : K × V}
    {t : Tree K V}
    (hz : ZRep m hdr (.right (.node ll w .BLACK wkv lr) a c kv up) t)
    (htc : t.color = .BLACK) (hne : ¬ (ll.color = .BLACK ∧ lr.color = .BLACK)) :
    ∃ m' T', Holds m' hdr T' ∧
      (∀ chk fuel, erase_rebalance_loop_checked chk hdr (fuel + 2) m t.ptr (some a) = .ok (m', T'.ptr)) ∧
      T'.addrs = (up.plug (.node (.node ll w .BLACK wkv lr) a c kv t)).addrs ∧
      m'.next = m.next ∧
      AgreeOff m' m (hdr :: ((Path.right (.node ll w .BLACK wkv lr) a c kv up).addrs ++ t.addrs)) := by
  have hroot := hz.read_root
  have hph : ¬ ((some a : Ptr) = some hdr) := hz.par_ne_header rfl
  have hx := hz.ptr_ne_root rfl
  have hxb := hz.2.1.isBlack
  have hxp := hz.parent_of_ptr
  have hxs := hz.ptr_ne_sibling
  have hp := ZRep.up_right.1 hz
  obtain ⟨-, hac, hal, har, -⟩ := hp.reads
  have hw := ZRep.up_left.2 hp
  obtain ⟨-, -, hwl, hwr, -⟩ := hw.reads
  have hwred := hw.2.1.isRed
  have hwlb := (hw.2.1.2.1 : Shape m (some w) ll).isBlack
  have hwrb := (hw.2.1.2.2 : Shape m (some w) lr).isBlack
  simp only [htc, decide_True, Path.plug_right, Path.par_right, Tree.ptr_node] at hroot hx hxb hxp
  simp only [Path.par_right, Tree.ptr_node] at hal har hwl hwr
  simp only [Tree.color_node, reduceCtorEq, decide_False, Tree.ptr_node] at hwred
  by_cases hll : ll.color = .BLACK
  · -- case 3: the near nephew is RED, the far one BLACK
    have hlr : lr.color = .RED := by
      cases h : lr.color with
      | RED => rfl
      | BLACK => exact absurd ⟨hll, h⟩ hne
    cases lr with
    | nil => simp at hlr
    | node lrl wr wrc wrkv lrr =>
      simp only [Tree.color_node] at hlr
      subst hlr
      have hwr0 := ZRep.up_right.2 hw
      obtain ⟨m1, e1, hz1, hn1, ha1⟩ := setColor_spec hwr0 .BLACK
      have hw1 := ZRep.up_right.1 hz1
      obtain ⟨m2, e2, hz2, hn2, ha2⟩ := setColor_spec hw1 .RED
      obtain ⟨m3, e3, hz3, hn3, ha3⟩ := rotate_left_checked_spec hz2
      have hp3 := ZRep.up_left.1 hz3
      obtain ⟨-, hac3, hal3, -, -⟩ := hp3.reads
      obtain ⟨-, -, hwrl3, -, -⟩ := hz3.reads
      obtain ⟨m4, e4, hz4, hn4, ha4⟩ := setColor_spec hz3 c
      have hp4 := ZRep.up_left.1 hz4
      obtain ⟨m5, e5, hz5, hn5, ha5⟩ := setColor_spec hp4 .BLACK
      have hw5 := ZRep.up_left.2 (ZRep.up_left.2 hz5)
      obtain ⟨m6, e6, hz6, hn6, ha6⟩ := setColor_spec hw5 .BLACK
      have hp6 := ZRep.up_left.1 (ZRep.up_left.1 hz6)
      obtain ⟨m7, e7, hz7, hn7, ha7⟩ := rotate_right_checked_spec hp6
      have hroot7 := hz7.read_root
      have hexit := fun chk fuel => erase_loop_exit_root chk (Holds.toZRep (p := .top) hz7.toHolds)
        (some a) fuel
      simp only [hll, decide_True, Tree.color_node, reduceCtorEq, decide_False,
        Tree.ptr_node] at hwlb hwrb hwr hwrl3 hal3
      simp only [Path.plug_top] at hexit
      refine ⟨m7, _, hz7.toHolds, fun chk fuel => ?_, ?_, by omega, ?_⟩
      · generalize t.ptr = x at hroot hx hxb hxp hxs har ⊢
        cases x <;> rw [erase_rebalance_loop_checked] <;>
          simp only [hph, and_false, hroot, hx, hxb, hxp, hxs, hal, har, hwl, hwr, hwred, hwlb, hwrb, hac,
            e1, e2, e3, hac3, hal3, hwrl3, e4, e5, e6, e7, hroot7, hexit,
            ok_bind, pure_eq_ok, if_true, if_false, Bool.not_true, Bool.false_eq_true,
            decide_True, decide_False, ne_eq, reduceCtorEq, not_false_eq_true, Bool.and_self,
            Bool.and_true, Bool.and_false, Bool.false_and, Bool.true_and, Mem.setColorIf_some, ite_self, not_true_eq_false,
            eq_self_iff_true]
      · exact Path.plug_addrs_congr up (by simp)
      · refine AgreeOff.trans (ha7.mono ?_) (AgreeOff.trans (ha6.mono ?_)
          (AgreeOff.trans (ha5.mono ?_) (AgreeOff.trans (ha4.mono ?_)
          (AgreeOff.trans (ha3.mono ?_) (AgreeOff.trans (ha2.mono ?_) (ha1.mono ?_))))))
        all_goals
          refine mem_of_count_le (fun b => ?_)
          simp only [List.count_cons, List.count_append, List.count_nil, Tree.addrs_node,
            Path.addrs_left, Path.addrs_right]
          omega
  · -- case 4: the far nephew is RED
    have hll' : ll.color = .RED := by
      cases h : ll.color with
      | RED => rfl
      | BLACK => exact absurd h hll
    cases ll with
    | nil => simp at hll'
    | node lll wl wlc wlkv llr =>
      simp only [Tree.color_node] at hll'
      subst hll'
      obtain ⟨m1, e1, hz1, hn1, ha1⟩ := setColor_spec hw c
      have hp1 := ZRep.up_left.1 hz1
      obtain ⟨m2, e2, hz2, hn2, ha2⟩ := setColor_spec hp1 .BLACK
      have hw2 := ZRep.up_left.2 (ZRep.up_left.2 hz2)
      obtain ⟨m3, e3, hz3, hn3, ha3⟩ := setColor_spec hw2 .BLACK
      have hp3 := ZRep.up_left.1 (ZRep.up_left.1 hz3)
      obtain ⟨m4, e4, hz4, hn4, ha4⟩ := rotate_right_checked_spec hp3
      have hroot4 := hz4.read_root
      have hexit := fun chk fuel => erase_loop_exit_root chk (Holds.toZRep (p := .top) hz4.toHolds)
        (some a) fuel
      simp only [Tree.color_node, reduceCtorEq, decide_False, Tree.ptr_node] at hwlb hwl
      simp only [Path.plug_top] at hexit
      refine ⟨m4, _, hz4.toHolds, fun chk fuel => ?_, ?_, by omega, ?_⟩
      · generalize t.ptr = x at hroot hx hxb hxp hxs har ⊢
        cases x <;> rw [erase_rebalance_loop_checked] <;>
          simp only [hph, and_false, hroot, hx, hxb, hxp, hxs, hal, har, hwl, hwr, hwred, hwlb, hwrb, hac,
            e1, e2, e3, e4, hroot4, hexit,
            ok_bind, pure_eq_ok, if_true, if_false, Bool.not_true, Bool.false_eq_true,
            decide_True, decide_False, ne_eq, reduceCtorEq, not_false_eq_true, Bool.and_self,
            Bool.and_true, Bool.and_false, Bool.false_and, Bool.true_and, Mem.setColorIf_some, ite_self, not_true_eq_false,
            eq_self_iff_true]
      · exact Path.plug_addrs_congr up (by simp)
      · refine AgreeOff.trans (ha4.mono ?_) (AgreeOff.trans (ha3.mono ?_)
          (AgreeOff.trans (ha2.mono ?_) (ha1.mono ?_)))
        all_goals
          refine mem_of_count_le (fun b => ?_)
          simp only [List.count_cons, List.count_append, List.count_nil, Tree.addrs_node,
            Path.addrs_left, Path.addrs_right]
          omega

/-- Case 1 of `erase_rebalance` on the right: the sibling is RED and its inner child, the
new sibling, is a BLACK node. -/
theorem erase_loop_case1_right [LinearOrder K] {m : Mem K V} {hdr : Nat} {up : Path K V}
    {a : Nat} {c : Color} {kv : K × V} {ll lrl lrr : Tree K V} {w : Nat} {wkv : K × V}
    {w2 : Nat} {w2kv : K × V} {t : Tree K V}
    (hz : ZRep m hdr (.right (.node ll w .RED wkv (.node lrl w2 .BLACK w2kv lrr)) a c kv up) t)
    (htc : t.color = .BLACK) :
    ∃ m3, ZRep m3 hdr (.right (.node lrl w2 .BLACK w2kv lrr) a .RED kv
        (.right ll w .BLACK wkv up)) t ∧
      (∀ chk fuel, erase_rebalance_loop_checked chk hdr (fuel + 1) m t.ptr (some a) =
        erase_rebalance_loop_checked chk hdr (fuel + 1) m3 t.ptr (some a)) ∧
      m3.next = m.next ∧
      AgreeOff m3 m (hdr :: ((Path.right (.node ll w .RED wkv (.node lrl w2 .BLACK w2kv lrr))
        a c kv up).addrs ++ t.addrs)) := by
  have hroot := hz.read_root
  have hph : ¬ ((some a : Ptr) = some hdr) := hz.par_ne_header rfl
  have hx := hz.ptr_ne_root rfl
  have hxb := hz.2.1.isBlack
  have hxp := hz.parent_of_ptr
  have hxs := hz.ptr_ne_sibling
  have hp := ZRep.up_right.1 hz
  obtain ⟨-, -, hal, har, -⟩ := hp.reads
  have hw := ZRep.up_left.2 hp
  have hwred := hw.2.1.isRed
  obtain ⟨m1, e1, hz1, hn1, ha1⟩ := setColor_spec hw .BLACK
  have hp1 := ZRep.up_left.1 hz1
  obtain ⟨m2, e2, hz2, hn2, ha2⟩ := setColor_spec hp1 .RED
  obtain ⟨m3, e3, hz3, hn3, ha3⟩ := rotate_right_checked_spec hz2
  have hz3' := ZRep.up_right.2 (ZRep.up_right.2 hz3)
  have hroot3 := hz3'.read_root
  have hx3 := hz3'.ptr_ne_root rfl
  have hxb3 := hz3'.2.1.isBlack
  have hxp3 := hz3'.parent_of_ptr
  have hxs3 := hz3'.ptr_ne_sibling
  have hp3 := ZRep.up_right.1 hz3'
  obtain ⟨-, -, hal3, har3, -⟩ := hp3.reads
  have hwred3 := (hp3.2.1.2.1 : Shape m3 (some a) (.node lrl w2 .BLACK w2kv lrr)).isRed
  simp only [htc, decide_True, Tree.color_node, reduceCtorEq, decide_False,
    Path.plug_right, Path.par_right, Tree.ptr_node] at hroot hx hxb hxp hal har hwred
  simp only [htc, decide_True, Tree.color_node, reduceCtorEq, decide_False,
    Path.plug_right, Path.par_right, Tree.ptr_node] at hroot3 hx3 hxb3 hxp3 hal3 har3 hwred3
  refine ⟨m3, hz3', fun chk fuel => ?_, by omega, ?_⟩
  · generalize t.ptr = x at hroot hx hxb hxp hxs har hroot3 hx3 hxb3 hxp3 hxs3 har3 ⊢
    cases x <;>
      simp only [erase_rebalance_loop_checked, hph, and_false, hroot, hx, hxb, hxp, hxs, hal, har, hwred,
        e1, e2, e3, hroot3, hx3, hxb3, hxp3, hxs3, hal3, har3, hwred3,
        ok_bind, pure_eq_ok, if_true, if_false, Bool.not_true, Bool.false_eq_true,
            decide_True, decide_False, ne_eq, reduceCtorEq, not_false_eq_true, Bool.and_self,
            Bool.and_true, Bool.and_false, Bool.false_and, Bool.true_and, Mem.setColorIf_some, ite_self, not_true_eq_false,
            eq_self_iff_true]
  · refine AgreeOff.trans (ha3.mono ?_) (AgreeOff.trans (ha2.mono ?_) (ha1.mono ?_))
    all_goals
          refine mem_of_count_le (fun b => ?_)
          simp only [List.count_cons, List.count_append, List.count_nil, Tree.addrs_node,
            Path.addrs_left, Path.addrs_right]
          omega

end EraseLoop

section EraseLoopSpec

variable {K V : Type}

theorem Tree.node_of_bh_pos {t : Tree K V} (h : 0 < t.bh) :
    ∃ l a c kv r, t = .node l a c kv r := by
  cases t with
  | nil => simp [Tree.bh] at h
  | node l a c kv r => exact ⟨l, a, c, kv, r, rfl⟩

theorem Color.black_or_red (c : Color) : c = .BLACK ∨ c = .RED := by
  cases c
  · exact Or.inr rfl
  · exact Or.inl rfl

theorem agree_loop_step {m1 m2 m3 : Mem K V} {S1 S2 T : List Nat}
    (h2 : AgreeOff m3 m2 S2) (h1 : AgreeOff m2 m1 S1)
    (c1 : ∀ b, S1.count b ≤ T.count b) (c2 : ∀ b, S2.count b ≤ T.count b) :
    AgreeOff m3 m1 T :=
  AgreeOff.trans (h2.mono (mem_of_count_le c2)) (h1.mono (mem_of_count_le c1))

/-- The loop of `erase_rebalance`, started at the root `x` of a subtree `t` whose black
height is one less than its context expects, in a tree that is otherwise balanced and has
no RED node with a RED child: with a budget above the depth of `x` the loop returns, the
memory then holds a tree on the same nodes, and the returned pointer is the root of a
subtree of it. -/
theorem erase_loop_spec [LinearOrder K] (hdr : Nat) :
    ∀ (p : Path K V) (m : Mem K V) (t : Tree K V),
      ZRep m hdr p t → t.balanced → p.okBH (t.bh + 1) → p.noRR →
      ∃ (m' : Mem K V) (p' : Path K V) (t' : Tree K V), ZRep m' hdr p' t' ∧
        (∀ chk fuel, p.depth < fuel →
          erase_rebalance_loop_checked chk hdr fuel m t.ptr (p.par hdr) = .ok (m', t'.ptr)) ∧
        (p'.plug t').addrs = (p.plug t).addrs ∧ m'.next = m.next ∧
        AgreeOff m' m (hdr :: (p.addrs ++ t.addrs)) := by
  intro p
  induction p with
  | top =>
    intro m t hz _ _ _
    refine ⟨m, .top, t, hz, fun chk fuel hf => ?_, rfl, rfl, AgreeOff.refl _ _⟩
    obtain ⟨fuel, rfl⟩ : ∃ f, fuel = f + 1 := ⟨fuel - 1, by omega⟩
    exact erase_loop_exit_root chk hz _ fuel
  | left up a c kv r ih =>
    intro m t hz htb hbh hrr
    rcases Color.black_or_red t.color with htc | htc
    swap
    · refine ⟨m, _, t, hz, fun chk fuel hf => ?_, rfl, rfl, AgreeOff.refl _ _⟩
      obtain ⟨fuel, rfl⟩ : ∃ f, fuel = f + 1 := ⟨fuel - 1, by omega⟩
      exact erase_loop_exit_red chk hz htc _ fuel
    obtain ⟨hrbh, hrbal, hupbh⟩ := hbh
    obtain ⟨hrnrr, -, hupnrr⟩ := hrr
    obtain ⟨rl, w, wc, wkv, rr, rfl⟩ := Tree.node_of_bh_pos (t := r) (by omega)
    obtain ⟨hbheq, hrlbal, hrrbal⟩ := hrbal
    obtain ⟨hwc, hrlnrr, hrrnrr⟩ := hrnrr
    simp only [Tree.bh] at hrbh
    rcases Color.black_or_red wc with rfl | rfl
    · -- BLACK sibling
      simp only [if_true] at hrbh
      by_cases hboth : rl.color = .BLACK ∧ rr.color = .BLACK
      · obtain ⟨m1, hz1, e1, hn1, ha1⟩ := erase_loop_case2_left hz htc hboth.1 hboth.2
        have hbal1 : (Tree.node t a c kv (.node rl w .RED wkv rr)).balanced := by
          refine ⟨?_, htb, hbheq, hrlbal, hrrbal⟩
          simp only [Tree.bh, reduceCtorEq, if_false]
          omega
        have hbh1 : up.okBH ((Tree.node t a c kv (.node rl w .RED wkv rr)).bh + 1) := by
          simp only [Tree.bh]
          rw [Nat.add_right_comm]
          exact hupbh
        obtain ⟨m', p', t', hz', e', had', hn', ha'⟩ := ih m1 _ hz1 hbal1 hbh1 hupnrr
        refine ⟨m', p', t', hz', fun chk fuel hf => ?_, ?_, by omega, ?_⟩
        · obtain ⟨fuel, rfl⟩ : ∃ f, fuel = f + 1 := ⟨fuel - 1, by omega⟩
          rw [Path.par_left, e1]
          exact e' chk fuel (by simp only [Path.depth] at hf; omega)
        · rw [had', Path.plug_left]
          exact Path.plug_addrs_congr up (by simp)
        · refine agree_loop_step ha' ha1 (fun b => ?_) (fun b => ?_)
          all_goals
            simp only [List.count_cons, List.count_append, List.count_nil, Tree.addrs_node,
              Path.addrs_left, Path.addrs_right]
            omega
      · obtain ⟨m', T', hT, e', had', hn', ha'⟩ := erase_loop_case34_left hz htc hboth
        refine ⟨m', .top, T', hT, fun chk fuel hf => ?_, ?_, hn', ha'⟩
        · obtain ⟨fuel, rfl⟩ : ∃ f, fuel = f + 2 := ⟨fuel - 2, by
            simp only [Path.depth] at hf; omega⟩
          exact e' chk fuel
        · rw [Path.plug_top, had', Path.plug_left]
    · -- RED sibling
      simp only [reduceCtorEq, if_false, Nat.add_zero] at hrbh
      obtain ⟨hrlc, hrrc⟩ := hwc rfl
      have hrln : ¬ (rl.ptr = none) := by
        obtain ⟨rll, w2, w2c, w2kv, rlr, rfl⟩ := Tree.node_of_bh_pos (t := rl) (by omega)
        simp
      obtain ⟨m3, hz3, e3, hn3, ha3⟩ := erase_loop_case1_left hz htc hrlc hrln
      obtain ⟨rll, w2, w2c, w2kv, rlr, rfl⟩ := Tree.node_of_bh_pos (t := rl) (by omega)
      simp only [Tree.color_node] at hrlc
      subst hrlc
      by_cases hboth : rll.color = .BLACK ∧ rlr.color = .BLACK
      · obtain ⟨m4, hz4, e4, hn4, ha4⟩ := erase_loop_case2_left hz3 htc hboth.1 hboth.2
        refine ⟨m4, _, _, hz4, fun chk fuel hf => ?_, ?_, by omega, ?_⟩
        · obtain ⟨fuel, rfl⟩ : ∃ f, fuel = f + 2 := ⟨fuel - 2, by
            simp only [Path.depth] at hf; omega⟩
          rw [Path.par_left, e3, e4]
          exact erase_loop_exit_red chk hz4 rfl _ fuel
        · rw [Path.plug_left, Path.plug_left]
          exact Path.plug_addrs_congr up (by simp)
        · refine agree_loop_step ha4 ha3 (fun b => ?_) (fun b => ?_)
          all_goals
            simp only [List.count_cons, List.count_append, List.count_nil, Tree.addrs_node,
              Path.addrs_left, Path.addrs_right]
            omega
      · obtain ⟨m', T', hT, e', had', hn', ha'⟩ := erase_loop_case34_left hz3 htc hboth
        refine ⟨m', .top, T', hT, fun chk fuel hf => ?_, ?_, by omega, ?_⟩
        · obtain ⟨fuel, rfl⟩ : ∃ f, fuel = f + 2 := ⟨fuel - 2, by
            simp only [Path.depth] at hf; omega⟩
          rw [Path.par_left, e3 chk (fuel + 1)]
          exact e' chk fuel
        · rw [Path.plug_top, had', Path.plug_left]
          exact Path.plug_addrs_congr up (by simp)
        · refine agree_loop_step ha' ha3 (fun b => ?_) (fun b => ?_)
          all_goals
            simp only [List.count_cons, List.count_append, List.count_nil, Tree.addrs_node,
              Path.addrs_left, Path.addrs_right]
            omega
  | right l a c kv up ih =>
    intro m t hz htb hbh hrr
    rcases Color.black_or_red t.color with htc | htc
    swap
    · refine ⟨m, _, t, hz, fun chk fuel hf => ?_, rfl, rfl, AgreeOff.refl _ _⟩
      obtain ⟨fuel, rfl⟩ : ∃ f, fuel = f + 1 := ⟨fuel - 1, by omega⟩
      exact erase_loop_exit_red chk hz htc _ fuel
    obtain ⟨hlbh, hlbal, hupbh⟩ := hbh
    obtain ⟨hlnrr, -, hupnrr⟩ := hrr
    obtain ⟨ll, w, wc, wkv, lr, rfl⟩ := Tree.node_of_bh_pos (t := l) (by omega)
    obtain ⟨hbheq, hllbal, hlrbal⟩ := hlbal
    obtain ⟨hwc, hllnrr, hlrnrr⟩ := hlnrr
    simp only [Tree.bh] at hlbh
    rcases Color.black_or_red wc with rfl | rfl
    · -- BLACK sibling
      simp only [if_true] at hlbh
      by_cases hboth : ll.color = .BLACK ∧ lr.color = .BLACK
      · obtain ⟨m1, hz1, e1, hn1, ha1⟩ := erase_loop_case2_right hz htc hboth.1 hboth.2
        have hbal1 : (Tree.node (.node ll w .RED wkv lr) a c kv t).balanced := by
          refine ⟨?_, ⟨hbheq, hllbal, hlrbal⟩, htb⟩
          simp only [Tree.bh, reduceCtorEq, if_false]
          omega
        have hbh1 : up.okBH ((Tree.node (.node ll w .RED wkv lr) a c kv t).bh + 1) := by
          simp only [Tree.bh, reduceCtorEq, if_false, Nat.add_zero]
          have e : ll.bh + (if c = Color.BLACK then 1 else 0) + 1 =
              t.bh + 1 + (if c = Color.BLACK then 1 else 0) := by omega
          rw [e]
          exact hupbh
        obtain ⟨m', p', t', hz', e', had', hn', ha'⟩ := ih m1 _ hz1 hbal1 hbh1 hupnrr
        refine ⟨m', p', t', hz', fun chk fuel hf => ?_, ?_, by omega, ?_⟩
        · obtain ⟨fuel, rfl⟩ : ∃ f, fuel = f + 1 := ⟨fuel - 1, by omega⟩
          rw [Path.par_right, e1]
          exact e' chk fuel (by simp only [Path.depth] at hf; omega)
        · rw [had', Path.plug_right]
          exact Path.plug_addrs_congr up (by simp)
        · refine agree_loop_step ha' ha1 (fun b => ?_) (fun b => ?_)
          all_goals
            simp only [List.count_cons, List.count_append, List.count_nil, Tree.addrs_node,
              Path.addrs_left, Path.addrs_right]
            omega
      · obtain ⟨m', T', hT, e', had', hn', ha'⟩ := erase_loop_case34_right hz htc hboth
        refine ⟨m', .top, T', hT, fun chk fuel hf => ?_, ?_, hn', ha'⟩
        · obtain ⟨fuel, rfl⟩ : ∃ f, fuel = f + 2 := ⟨fuel - 2, by
            simp only [Path.depth] at hf; omega⟩
          exact e' chk fuel
        · rw [Path.plug_top, had', Path.plug_right]
    · -- RED sibling
      simp only [reduceCtorEq, if_false, Nat.add_zero] at hlbh
      obtain ⟨hllc, hlrc⟩ := hwc rfl
      obtain ⟨lrl, w2, w2c, w2kv, lrr, rfl⟩ := Tree.node_of_bh_pos (t := lr) (by omega)
      simp only [Tree.color_node] at hlrc
      subst hlrc
      obtain ⟨m3, hz3, e3, hn3, ha3⟩ := erase_loop_case1_right hz htc
      by_cases hboth : lrl.color = .BLACK ∧ lrr.color = .BLACK
      · obtain ⟨m4, hz4, e4, hn4, ha4⟩ := erase_loop_case2_right hz3 htc hboth.1 hboth.2
        refine ⟨m4, _, _, hz4, fun chk fuel hf => ?_, ?_, by omega, ?_⟩
        · obtain ⟨fuel, rfl⟩ : ∃ f, fuel = f + 2 := ⟨fuel - 2, by
            simp only [Path.depth] at hf; omega⟩
          rw [Path.par_right, e3, e4]
          exact erase_loop_exit_red chk hz4 rfl _ fuel
        · rw [Path.plug_right, Path.plug_right]
          exact Path.plug_addrs_congr up (by simp)
        · refine agree_loop_step ha4 ha3 (fun b => ?_) (fun b => ?_)
          all_goals
            simp only [List.count_cons, List.count_append, List.count_nil, Tree.addrs_node,
              Path.addrs_left, Path.addrs_right]
            omega
      · obtain ⟨m', T', hT, e', had', hn', ha'⟩ := erase_loop_case34_right hz3 htc hboth
        refine ⟨m', .top, T', hT, fun chk fuel hf => ?_, ?_, by omega, ?_⟩
        · obtain ⟨fuel, rfl⟩ : ∃ f, fuel = f + 2 := ⟨fuel - 2, by
            simp only [Path.depth] at hf; omega⟩
          rw [Path.par_right, e3 chk (fuel + 1)]
          exact e' chk fuel
        · rw [Path.plug_top, had', Path.plug_right]
          exact Path.plug_addrs_congr up (by simp)
        · refine agree_loop_step ha' ha3 (fun b => ?_) (fun b => ?_)
          all_goals
            simp only [List.count_cons, List.count_append, List.count_nil, Tree.addrs_node,
              Path.addrs_left, Path.addrs_right]
            omega

end EraseLoopSpec

section Detach

variable {K V : Type}

theorem erase_eq_detach [LinearOrder K] (fuel : Nat) (m : Mem K V) (t : RedBlackTree) (z : Ptr) :
    erase fuel m t z =
      (if z = none ∨ z = some t.header_ then pure (m, t) else do
        let (m, x, x_parent, y_color) ← erase_detach fuel t.header_ m z
        let m ← m.free z
        let t := { t with size_ := if t.size_ = 0 then 2 ^ 64 - 1 else t.size_ - 1 }
        let m ← (if y_color = Color.BLACK then erase_rebalance fuel t.header_ m x x_parent
          else pure m)
        update_min_max_nodes_after_erase fuel m t) := by
  simp only [erase, erase_detach, bind_assoc]

theorem ZRep.frame {m m' : Mem K V} {hdr : Nat} {p : Path K V} {t : Tree K V}
    (h : ZRep m hdr p t) (hf : ∀ a ∈ hdr :: (p.addrs ++ t.addrs), m'.cells a = m.cells a) :
    ZRep m' hdr p t :=
  ⟨h.1.pshape_frame (fun a ha => hf a (by
      simp only [List.mem_cons, List.mem_append] at ha ⊢; tauto)),
   h.2.1.shape_frame (fun a ha => hf a (by simp [ha])), h.2.2⟩

/-- The cell of the node above the hole of a context. -/
theorem PShape.par_cell {m : Mem K V} {hdr : Nat} {p : Path K V} {hole : Ptr}
    (h : PShape m hdr p hole) :
    ∃ g ng, p.par hdr = some g ∧ m.cells g = some ng ∧ g ∈ hdr :: p.addrs := by
  cases p with
  | top =>
    obtain ⟨hn, h1, -⟩ := h
    exact ⟨hdr, hn, rfl, h1, by simp⟩
  | left up a c kv r => exact ⟨a, _, rfl, h.1, by simp⟩
  | right l a c kv up => exact ⟨a, _, rfl, h.1, by simp⟩

/-- What `transplant(u, v)` does to the cells: the link that held `u` in the node above now
holds `v`, and `v`, when present, has that node as its parent. -/
theorem transplant_cells [LinearOrder K] {m : Mem K V} (hdr : Nat) {u g : Nat} {nu ng : Node K V}
    {v : Ptr} (hu : m.cells u = some nu) (hup : nu.parent = some g) (hg : m.cells g = some ng)
    (hgu : g ≠ u) (hv : ∀ b, v = some b → b ≠ g ∧ ∃ nb, m.cells b = some nb) :
    ∃ m', transplant hdr m (some u) v = .ok m' ∧ m'.next = m.next ∧
      m'.cells g = some (if g = hdr then { ng with parent := v }
        else if some u = ng.left then { ng with left := v } else { ng with right := v }) ∧
      (∀ b nb, v = some b → m.cells b = some nb →
        m'.cells b = some { nb with parent := some g }) ∧
      (∀ b, b ≠ g → some b ≠ v → m'.cells b = m.cells b) := by
  have e1 : m.parent (some u) = .ok (some g) := by rw [Mem.parent_of_cell hu, hup]
  have hgh' : ∀ h : Nat, (some g = some h) = (g = h) := fun h => by simp
  cases v with
  | none =>
    refine ⟨m.put g (if g = hdr then { ng with parent := none }
        else if some u = ng.left then { ng with left := none } else { ng with right := none }), ?_, rfl, by simp, ?_, ?_⟩
    · by_cases hgh : g = hdr
      · subst hgh
        simp [transplant, e1, Mem.setParent_of_cell hg]
      · by_cases hl : some u = ng.left
        · simp [transplant, e1, hgh, Mem.left_of_cell hg, hl.symm, Mem.setLeft_of_cell hg]
        · simp [transplant, e1, hgh, Mem.left_of_cell hg, hl, Mem.setRight_of_cell hg]
    · intro b nb hb; cases hb
    · intro b hb _; simp [hb]
  | some b =>
    obtain ⟨hbg, nb, hnb⟩ := hv b rfl
    have hu1 : ∀ n, (m.put g n).cells u = some nu := fun n => by simp [Ne.symm hgu, hu]
    have hb1 : ∀ n, (m.put g n).cells b = some nb := fun n => by simp [hbg, hnb]
    refine ⟨(m.put g (if g = hdr then { ng with parent := (some b) }
        else if some u = ng.left then { ng with left := (some b) } else { ng with right := (some b) })).put b
      { nb with parent := some g }, ?_, rfl, ?_, ?_, ?_⟩
    · by_cases hgh : g = hdr
      · subst hgh
        simp [transplant, e1, Mem.setParent_of_cell hg, Mem.parent_of_cell (hu1 _), hup,
          Mem.setParent_of_cell (hb1 _)]
      · by_cases hl : some u = ng.left
        · simp [transplant, e1, hgh, Mem.left_of_cell hg, hl.symm, Mem.setLeft_of_cell hg,
            Mem.parent_of_cell (hu1 _), hup, Mem.setParent_of_cell (hb1 _)]
        · simp [transplant, e1, hgh, Mem.left_of_cell hg, hl, Mem.setRight_of_cell hg,
            Mem.parent_of_cell (hu1 _), hup, Mem.setParent_of_cell (hb1 _)]
    · simp [Ne.symm hbg]
    · intro b' nb' hb' hnb'
      injection hb' with hb'
      subst hb'
      rw [hnb] at hnb'
      injection hnb' with hnb'
      subst hnb'
      simp
    · intro b' hb' hb''
      have : b' ≠ b := fun e => hb'' (by rw [e])
      simp [this, hb']

/-- Redirecting the link that holds the hole of a context. -/
theorem PShape.relink {m m' : Mem K V} {hdr : Nat} {p : Path K V} {z : Nat} {v : Ptr}
    (h : PShape m hdr p (some z)) (hnd : (hdr :: p.addrs).Nodup) (hz : z ∉ p.addrs)
    (hg : ∀ g ng, p.par hdr = some g → m.cells g = some ng →
      m'.cells g = some (if g = hdr then { ng with parent := v }
        else if some z = ng.left then { ng with left := v } else { ng with right := v }))
    (hf : ∀ b ∈ hdr :: p.addrs, some b ≠ p.par hdr → m'.cells b = m.cells b) :
    PShape m' hdr p v := by
  cases p with
  | top =>
    obtain ⟨hn, h1, h2⟩ := h
    have := hg hdr hn rfl h1
    simp only [if_true] at this
    exact ⟨_, this, rfl⟩
  | left up a c kv r =>
    obtain ⟨h1, h2, h3⟩ := h
    simp only [Path.addrs_left, List.nodup_cons, List.mem_cons, List.mem_append, not_or,
      List.nodup_append, List.cons_append] at hnd
    obtain ⟨⟨hha, -, -⟩, ⟨har, hau⟩, hrn, hun, hdisj⟩ := hnd
    have := hg a _ rfl h1
    simp only [Ne.symm hha, if_false, if_true] at this
    refine ⟨this, h2.shape_frame (fun b hb => hf b (by simp [hb]) ?_),
      h3.pshape_frame (fun b hb => hf b ?_ ?_)⟩
    · simp only [Path.par_left, ne_eq, Option.some.injEq]
      rintro rfl; exact har hb
    · simp only [List.mem_cons] at hb ⊢
      rcases hb with hb | hb
      · exact Or.inl hb
      · exact Or.inr (by simp [hb])
    · simp only [Path.par_left, ne_eq, Option.some.injEq]
      rintro rfl
      simp only [List.mem_cons] at hb
      rcases hb with hb | hb
      · exact hha hb.symm
      · exact hau hb
  | right l a c kv up =>
    obtain ⟨h1, h2, h3⟩ := h
    have hzl : some z ≠ l.ptr := Tree.ptr_ne_of_not_mem (by
      intro hm; exact hz (by simp [hm]))
    simp only [Path.addrs_right, List.nodup_cons, List.mem_cons, List.mem_append, not_or,
      List.nodup_append, List.cons_append] at hnd
    obtain ⟨⟨hha, -, -⟩, ⟨hal, hau⟩, hln, hun, hdisj⟩ := hnd
    have := hg a _ rfl h1
    simp only [Ne.symm hha, if_false, hzl] at this
    refine ⟨this, h2.shape_frame (fun b hb => hf b (by simp [hb]) ?_),
      h3.pshape_frame (fun b hb => hf b ?_ ?_)⟩
    · simp only [Path.par_right, ne_eq, Option.some.injEq]
      rintro rfl; exact hal hb
    · simp only [List.mem_cons] at hb ⊢
      rcases hb with hb | hb
      · exact Or.inl hb
      · exact Or.inr (by simp [hb])
    · simp only [Path.par_right, ne_eq, Option.some.injEq]
      rintro rfl
      simp only [List.mem_cons] at hb
      rcases hb with hb | hb
      · exact hha hb.symm
      · exact hau hb

/-- Giving the root of a subtree a new parent link. -/
theorem Shape.reparent {m m' : Mem K V} {par par' : Ptr} {t : Tree K V} (h : Shape m par t)
    (hnd : t.addrs.Nodup)
    (hroot : ∀ a n, t.ptr = some a → m.cells a = some n →
      m'.cells a = some { n with parent := par' })
    (hf : ∀ b ∈ t.addrs, some b ≠ t.ptr → m'.cells b = m.cells b) : Shape m' par' t := by
  cases t with
  | nil => trivial
  | node l a c kv r =>
    obtain ⟨h1, h2, h3⟩ := h
    simp only [Tree.addrs_node, List.nodup_append, List.nodup_cons] at hnd
    obtain ⟨hln, ⟨har, hrn⟩, hdisj⟩ := hnd
    refine ⟨hroot a _ rfl h1, h2.shape_frame (fun b hb => hf b (by simp [hb]) ?_),
      h3.shape_frame (fun b hb => hf b (by simp [hb]) ?_)⟩
    · simp only [Tree.ptr_node, ne_eq, Option.some.injEq]
      rintro rfl
      exact hdisj hb (by simp)
    · simp only [Tree.ptr_node, ne_eq, Option.some.injEq]
      rintro rfl
      exact har hb

end Detach

section Detach2

variable {K V : Type}

/-- The distinctness facts in a zipper focused at a node. -/
theorem zipper_nodup_facts {hdr : Nat} {p : Path K V} {l r : Tree K V} {u : Nat}
    {c : Color} {kv : K × V} (hn : (hdr :: (p.addrs ++ (Tree.node l u c kv r).addrs)).Nodup) :
    (hdr :: p.addrs).Nodup ∧ u ∉ hdr :: p.addrs ∧ l.addrs.Nodup ∧ r.addrs.Nodup ∧
      u ∉ l.addrs ∧ u ∉ r.addrs ∧ (∀ b ∈ l.addrs, b ∉ hdr :: p.addrs ∧ b ∉ r.addrs) ∧
      (∀ b ∈ r.addrs, b ∉ hdr :: p.addrs) := by
  simp only [Tree.addrs_node, List.nodup_cons, List.nodup_append, List.mem_cons,
    List.mem_append, not_or, List.disjoint_left] at hn
  obtain ⟨⟨h1, h2, h3, h4⟩, h5, ⟨h6, ⟨h7, h8⟩, h9⟩, h10⟩ := hn
  refine ⟨?_, ?_, h6, h8, ?_, h7, ?_, ?_⟩
  · simp only [List.nodup_cons]; exact ⟨h1, h5⟩
  · simp only [List.mem_cons, not_or]
    exact ⟨fun e => h3 e.symm, fun hm => (h10 hm).2.1 rfl⟩
  · exact fun hm => (h9 hm).1 rfl
  · intro b hb
    refine ⟨?_, (h9 hb).2⟩
    simp only [List.mem_cons, not_or]
    exact ⟨fun e => h2 (e ▸ hb), fun hm => (h10 hm).1 hb⟩
  · intro b hb
    simp only [List.mem_cons, not_or]
    exact ⟨fun e => h4 (e ▸ hb), fun hm => (h10 hm).2.2 hb⟩

theorem ZRep.nodup_facts {m : Mem K V} {hdr : Nat} {p : Path K V} {l r : Tree K V} {u : Nat}
    {c : Color} {kv : K × V} (h : ZRep m hdr p (.node l u c kv r)) :
    (hdr :: p.addrs).Nodup ∧ u ∉ hdr :: p.addrs ∧ l.addrs.Nodup ∧ r.addrs.Nodup ∧
      u ∉ l.addrs ∧ u ∉ r.addrs ∧ (∀ b ∈ l.addrs, b ∉ hdr :: p.addrs ∧ b ∉ r.addrs) ∧
      (∀ b ∈ r.addrs, b ∉ hdr :: p.addrs) :=
  zipper_nodup_facts h.2.2

theorem Shape.root_cell {m : Mem K V} {par : Ptr} {t : Tree K V} (h : Shape m par t) {b : Nat}
    (hb : t.ptr = some b) : ∃ nb, m.cells b = some nb ∧ nb.parent = par := by
  cases t with
  | nil => simp at hb
  | node l a c kv r =>
    simp only [Tree.ptr_node, Option.some.injEq] at hb
    subst hb
    exact ⟨_, h.1, rfl⟩

/-- The call `transplant(u, u->right)` at a node `u` of a tree: the right subtree takes the
place of `u`, the cell of `u` is left as it was. -/
theorem transplant_right_spec [LinearOrder K] {m : Mem K V} {hdr : Nat} {p : Path K V}
    {l r : Tree K V} {u : Nat} {c : Color} {kv : K × V} (h : ZRep m hdr p (.node l u c kv r)) :
    ∃ m', transplant hdr m (some u) r.ptr = .ok m' ∧ ZRep m' hdr p r ∧ m'.next = m.next ∧
      (∀ b, some b ≠ p.par hdr → some b ≠ r.ptr → m'.cells b = m.cells b) := by
  obtain ⟨hn1, hn2, hn3, hn4, hn5, hn6, hn7, hn8⟩ := h.nodup_facts
  obtain ⟨hp, ⟨hu, hl, hr⟩, hn⟩ := h
  obtain ⟨g, ng, hpar, hgc, hgm⟩ := hp.par_cell
  have hgu : g ≠ u := fun e => hn2 (e ▸ hgm)
  have hv : ∀ b, r.ptr = some b → b ≠ g ∧ ∃ nb, m.cells b = some nb := by
    intro b hb
    obtain ⟨nb, hnb, -⟩ := hr.root_cell hb
    exact ⟨fun e => hn8 b (Tree.ptr_mem hb) (e ▸ hgm), nb, hnb⟩
  obtain ⟨m', e, hn', hcg, hcv, hcf⟩ := transplant_cells hdr hu hpar hgc hgu hv
  have hne : ∀ b, some b ≠ p.par hdr → b ≠ g := fun b hb e => hb (by rw [hpar, e])
  refine ⟨m', e, ⟨?_, ?_, ?_⟩, hn', fun b hb hb' => hcf b (hne b hb) hb'⟩
  · refine PShape.relink hp hn1 (fun hm => hn2 (by simp [hm])) ?_ ?_
    · intro g' ng' hg' hc'
      rw [hpar] at hg'
      injection hg' with hg'
      subst hg'
      rw [hgc] at hc'
      injection hc' with hc'
      subst hc'
      exact hcg
    · intro b hb hb'
      exact hcf b (hne b hb') (fun e => hn8 b (Tree.ptr_mem e.symm) hb)
  · refine hr.reparent hn4 ?_ ?_
    · intro a n ha hc
      rw [hpar]
      exact hcv a n ha hc
    · intro b hb hb'
      exact hcf b (fun e => hn8 b hb (e ▸ hgm)) hb'
  · refine hn.sublist ?_
    exact List.Sublist.cons₂ _ (List.Sublist.append (List.Sublist.refl _)
      ((List.sublist_cons_self u _).trans (List.sublist_append_right _ _)))

/-- The call `transplant(u, u->left)` at a node `u` of a tree. -/
theorem transplant_left_spec [LinearOrder K] {m : Mem K V} {hdr : Nat} {p : Path K V}
    {l r : Tree K V} {u : Nat} {c : Color} {kv : K × V} (h : ZRep m hdr p (.node l u c kv r)) :
    ∃ m', transplant hdr m (some u) l.ptr = .ok m' ∧ ZRep m' hdr p l ∧ m'.next = m.next ∧
      (∀ b, some b ≠ p.par hdr → some b ≠ l.ptr → m'.cells b = m.cells b) := by
  obtain ⟨hn1, hn2, hn3, hn4, hn5, hn6, hn7, hn8⟩ := h.nodup_facts
  obtain ⟨hp, ⟨hu, hl, hr⟩, hn⟩ := h
  obtain ⟨g, ng, hpar, hgc, hgm⟩ := hp.par_cell
  have hgu : g ≠ u := fun e => hn2 (e ▸ hgm)
  have hv : ∀ b, l.ptr = some b → b ≠ g ∧ ∃ nb, m.cells b = some nb := by
    intro b hb
    obtain ⟨nb, hnb, -⟩ := hl.root_cell hb
    exact ⟨fun e => (hn7 b (Tree.ptr_mem hb)).1 (e ▸ hgm), nb, hnb⟩
  obtain ⟨m', e, hn', hcg, hcv, hcf⟩ := transplant_cells hdr hu hpar hgc hgu hv
  have hne : ∀ b, some b ≠ p.par hdr → b ≠ g := fun b hb e => hb (by rw [hpar, e])
  refine ⟨m', e, ⟨?_, ?_, ?_⟩, hn', fun b hb hb' => hcf b (hne b hb) hb'⟩
  · refine PShape.relink hp hn1 (fun hm => hn2 (by simp [hm])) ?_ ?_
    · intro g' ng' hg' hc'
      rw [hpar] at hg'
      injection hg' with hg'
      subst hg'
      rw [hgc] at hc'
      injection hc' with hc'
      subst hc'
      exact hcg
    · intro b hb hb'
      exact hcf b (hne b hb') (fun e => (hn7 b (Tree.ptr_mem e.symm)).1 hb)
  · refine hl.reparent hn3 ?_ ?_
    · intro a n ha hc
      rw [hpar]
      exact hcv a n ha hc
    · intro b hb hb'
      exact hcf b (fun e => (hn7 b hb).1 (e ▸ hgm)) hb'
  · refine hn.sublist ?_
    exact List.Sublist.cons₂ _ (List.Sublist.append (List.Sublist.refl _)
      (List.sublist_append_left _ _))

/-- A node `y` put in the place of the node `z` above the subtrees `l` and `r`. -/
theorem ZRep.rebuild {μ mf : Mem K V} {hdr : Nat} {p : Path K V} {l r : Tree K V} {z y : Nat}
    {c : Color} {ykv : K × V} {pl pr : Ptr}
    (hp : PShape μ hdr p (some z)) (hl : Shape μ pl l) (hr : Shape μ pr r)
    (hn : (hdr :: (p.addrs ++ (Tree.node l y c ykv r).addrs)).Nodup) (hz : z ∉ p.addrs)
    (hcy : mf.cells y = some ⟨ykv, c, p.par hdr, l.ptr, r.ptr⟩)
    (hcl : ∀ a n, l.ptr = some a → μ.cells a = some n →
      mf.cells a = some { n with parent := some y })
    (hcr : ∀ a n, r.ptr = some a → μ.cells a = some n →
      mf.cells a = some { n with parent := some y })
    (hcg : ∀ g ng, p.par hdr = some g → μ.cells g = some ng →
      mf.cells g = some (if g = hdr then { ng with parent := some y }
        else if some z = ng.left then { ng with left := some y }
        else { ng with right := some y }))
    (hf : ∀ b, b ≠ y → some b ≠ l.ptr → some b ≠ r.ptr → some b ≠ p.par hdr →
      mf.cells b = μ.cells b) :
    ZRep mf hdr p (.node l y c ykv r) := by
  obtain ⟨hn1, hn2, hn3, hn4, hn5, hn6, hn7, hn8⟩ := zipper_nodup_facts hn
  obtain ⟨g, ng, hpar, hgc, hgm⟩ := hp.par_cell
  refine ⟨?_, ⟨hcy, ?_, ?_⟩, hn⟩
  · refine PShape.relink hp hn1 hz hcg ?_
    intro b hb hb'
    refine hf b (fun e => hn2 (e ▸ hb)) (fun e => ?_) (fun e => ?_) hb'
    · exact (hn7 b (Tree.ptr_mem e.symm)).1 hb
    · exact hn8 b (Tree.ptr_mem e.symm) hb
  · refine hl.reparent hn3 hcl ?_
    intro b hb hb'
    refine hf b (fun e => hn5 (e ▸ hb)) hb' (fun e => ?_) (fun e => ?_)
    · exact (hn7 b hb).2 (Tree.ptr_mem e.symm)
    · rw [hpar] at e
      injection e with e
      exact (hn7 b hb).1 (e ▸ hgm)
  · refine hr.reparent hn4 hcr ?_
    intro b hb hb'
    refine hf b (fun e => hn6 (e ▸ hb)) (fun e => ?_) hb' (fun e => ?_)
    · exact (hn7 b (Tree.ptr_mem e.symm)).2 hb
    · rw [hpar] at e
      injection e with e
      exact hn8 b hb (e ▸ hgm)

/-- The last four statements of the two-child branch of `erase`, on the cells: `y` is put
in the place of `z` and takes over its left child and its colour. -/
theorem relink_tail_cells [LinearOrder K] {μ : Mem K V} (hdr : Nat) {z y la g : Nat}
    {nz ny nla ng : Node K V}
    (hz : μ.cells z = some nz) (hy : μ.cells y = some ny) (hla : μ.cells la = some nla)
    (hg : μ.cells g = some ng) (hzl : nz.left = some la) (hzp : nz.parent = some g)
    (h1 : g ≠ z) (h2 : g ≠ y) (h3 : g ≠ la) (h4 : z ≠ y) (h5 : z ≠ la) (h6 : y ≠ la) :
    ∃ mc md me mf, transplant hdr μ (some z) (some y) = .ok mc ∧
      mc.left (some z) = .ok (some la) ∧ mc.setLeft (some y) (some la) = .ok md ∧
      md.left (some y) = .ok (some la) ∧ md.setParent (some la) (some y) = .ok me ∧
      me.color (some z) = .ok nz.color ∧ me.setColor (some y) nz.color = .ok mf ∧
      mf.next = μ.next ∧
      mf.cells y = some ⟨ny.data, nz.color, some g, some la, ny.right⟩ ∧
      mf.cells la = some { nla with parent := some y } ∧
      mf.cells g = some (if g = hdr then { ng with parent := some y }
        else if some z = ng.left then { ng with left := some y }
        else { ng with right := some y }) ∧
      mf.cells z = some nz ∧
      (∀ b, b ≠ y → b ≠ la → b ≠ g → mf.cells b = μ.cells b) := by
  obtain ⟨mc, e1, hn1, hcg, hcv, hcf⟩ := transplant_cells hdr (v := some y) hz hzp hg h1
    (fun b hb => by
      injection hb with hb
      subst hb
      exact ⟨Ne.symm h2, ny, hy⟩)
  have hyc := hcv y ny rfl hy
  have hzc : mc.cells z = some nz := by
    rw [hcf z (Ne.symm h1) (by simpa using h4)]; exact hz
  have hlac : mc.cells la = some nla := by
    rw [hcf la (Ne.symm h3) (by simpa using Ne.symm h6)]; exact hla
  have e2 : mc.left (some z) = .ok (some la) := by rw [Mem.left_of_cell hzc, hzl]
  have e3 := Mem.setLeft_of_cell hyc (some la)
  generalize hmd : mc.put y _ = md at e3
  have hd : ∀ b, md.cells b =
      if b = y then some ⟨ny.data, ny.color, some g, some la, ny.right⟩ else mc.cells b := by
    intro b; rw [← hmd]; rfl
  have hyd : md.cells y = some ⟨ny.data, ny.color, some g, some la, ny.right⟩ := by
    rw [hd]; simp
  have hlad : md.cells la = some nla := by rw [hd]; simp [Ne.symm h6, hlac]
  have e4 : md.left (some y) = .ok (some la) := Mem.left_of_cell hyd
  have e5 := Mem.setParent_of_cell hlad (some y)
  generalize hme : md.put la _ = me at e5
  have he : ∀ b, me.cells b =
      if b = la then some ⟨nla.data, nla.color, some y, nla.left, nla.right⟩
      else md.cells b := by
    intro b; rw [← hme]; rfl
  have hze : me.cells z = some nz := by rw [he, hd]; simp [h5, h4, hzc]
  have hye : me.cells y = some ⟨ny.data, ny.color, some g, some la, ny.right⟩ := by
    rw [he]; simp [h6, hyd]
  have e6 : me.color (some z) = .ok nz.color := by
    simp [Mem.color, Mem.read, Except.map, hze]
  have e7 : me.setColor (some y) nz.color =
      .ok (me.put y ⟨ny.data, nz.color, some g, some la, ny.right⟩) := by
    simp [Mem.setColor, Mem.modify, hye]
  refine ⟨mc, md, me, _, e1, e2, e3, e4, e5, e6, e7, ?_, ?_, ?_, ?_, ?_, ?_⟩
  · rw [Mem.put_next, ← hme, Mem.put_next, ← hmd, Mem.put_next, hn1]
  · simp
  · rw [Mem.put_cells, if_neg (Ne.symm h6), he]; simp
  · rw [Mem.put_cells, if_neg h2, he, if_neg h3, hd, if_neg h2, hcg]
  · rw [Mem.put_cells, if_neg h4, hze]
  · intro b hb1 hb2 hb3
    rw [Mem.put_cells, if_neg hb1, he, if_neg hb2, hd, if_neg hb1,
      hcf b hb3 (by simpa using hb1)]

end Detach2

section MinLemmas

variable {K V : Type}

theorem Tree.minNode_eq {t : Tree K V} (h : t ≠ .nil) :
    ∃ y yc ykv yr, t.minNode = .node .nil y yc ykv yr := by
  induction t with
  | nil => exact absurd rfl h
  | node l a c kv r ihl _ =>
    cases l with
    | nil => exact ⟨a, c, kv, r, rfl⟩
    | node ll b cb kb lr => exact ihl (by simp)

theorem Tree.minCtx_plug (t : Tree K V) : ∀ (p : Path K V),
    (t.minCtx p).plug t.minNode = p.plug t := by
  induction t with
  | nil => intro p; rfl
  | node l a c kv r ihl _ =>
    intro p
    cases l with
    | nil => rfl
    | node ll b cb kb lr => exact ihl (.left p a c kv r)

theorem Tree.minCtx_plug_delMin (t : Tree K V) : ∀ (p : Path K V) {y : Nat} {yc : Color}
    {ykv : K × V} {yr : Tree K V}, t.minNode = .node .nil y yc ykv yr →
    (t.minCtx p).plug yr = p.plug t.delMin := by
  induction t with
  | nil => intro p y yc ykv yr h; simp [Tree.minNode] at h
  | node l a c kv r ihl _ =>
    intro p y yc ykv yr h
    cases l with
    | nil =>
      simp only [Tree.minNode, Tree.node.injEq, true_and] at h
      obtain ⟨-, -, -, rfl⟩ := h
      rfl
    | node ll b cb kb lr => exact ihl (.left p a c kv r) h

/-- The first node in in-order of a tree with a left subtree is a left child inside it. -/
theorem Tree.minCtx_left (ll lr r : Tree K V) (b a : Nat) (cb c : Color) (kb kv : K × V)
    (p : Path K V) :
    ∃ up g gc gkv gr, (Tree.node (.node ll b cb kb lr) a c kv r).minCtx p =
        .left up g gc gkv gr ∧ g ∈ (Tree.node (.node ll b cb kb lr) a c kv r).addrs := by
  induction ll generalizing b a cb c kb kv lr r p with
  | nil => exact ⟨p, a, c, kv, r, rfl, by simp⟩
  | node l3 b3 c3 k3 r3 ih _ =>
    obtain ⟨up, g, gc, gkv, gr, h1, h2⟩ := ih r3 lr b3 b c3 cb k3 kb (.left p a c kv r)
    refine ⟨up, g, gc, gkv, gr, h1, ?_⟩
    simp only [Tree.addrs_node, List.mem_append, List.mem_cons] at h2 ⊢
    tauto

theorem Path.depth_add_height_le (p : Path K V) : ∀ (t : Tree K V),
    p.depth + t.height ≤ (p.plug t).height := by
  induction p with
  | top => intro t; simp [Path.depth]
  | left up a c kv r ih =>
    intro t
    have := ih (.node t a c kv r)
    simp only [Path.depth, Tree.height, Path.plug_left] at this ⊢
    omega
  | right l a c kv up ih =>
    intro t
    have := ih (.node l a c kv t)
    simp only [Path.depth, Tree.height, Path.plug_right] at this ⊢
    omega

/-- The loop `while (y->left) y = y->left` of `erase` ends at the first node in in-order. -/
theorem erase_leftmost_spec [LinearOrder K] {m : Mem K V} : ∀ (t : Tree K V) (par : Ptr),
    Shape m par t → t ≠ .nil → ∀ fuel, t.height ≤ fuel →
      erase_leftmost fuel m t.ptr = .ok t.minNode.ptr := by
  intro t
  induction t with
  | nil => intro par _ h; exact absurd rfl h
  | node l a c kv r ihl _ =>
    intro par hs _ fuel hf
    simp only [Tree.height] at hf
    obtain ⟨fuel, rfl⟩ : ∃ f, fuel = f + 1 := ⟨fuel - 1, by omega⟩
    have hleft : m.left (some a) = .ok l.ptr := Mem.left_of_cell hs.1
    cases l with
    | nil => simp [erase_leftmost, hleft, Tree.minNode]
    | node ll b cb kb lr =>
      have := ihl (some a) hs.2.1 (by simp) fuel (by omega)
      simp only [Tree.ptr_node] at this hleft ⊢
      simp only [erase_leftmost, hleft, ok_bind, ne_eq, reduceCtorEq, not_false_eq_true,
        if_true, this, Tree.minNode]

theorem Tree.delMin_height_le (t : Tree K V) : t.delMin.height ≤ t.height := by
  induction t with
  | nil => simp [Tree.delMin]
  | node l a c kv r ihl _ =>
    cases l with
    | nil => simp only [Tree.delMin, Tree.height]; omega
    | node ll b cb kb lr =>
      simp only [Tree.delMin, Tree.height] at ihl ⊢
      omega

theorem Path.plug_height_mono (p : Path K V) : ∀ {t t' : Tree K V}, t.height ≤ t'.height →
    (p.plug t).height ≤ (p.plug t').height := by
  induction p with
  | top => intro t t' h; exact h
  | left up a c kv r ih =>
    intro t t' h
    exact ih (by simp only [Tree.height]; omega)
  | right l a c kv up ih =>
    intro t t' h
    exact ih (by simp only [Tree.height]; omega)

end MinLemmas

section Detach3

variable {K V : Type}

theorem Tree.minNode_addrs_sub (t : Tree K V) : ∀ b ∈ t.minNode.addrs, b ∈ t.addrs := by
  induction t with
  | nil => intro b hb; exact hb
  | node l a c kv r ihl _ =>
    intro b hb
    cases l with
    | nil => exact hb
    | node ll b' cb kb lr =>
      have := ihl b hb
      simp only [Tree.addrs_node, List.mem_append, List.mem_cons] at this ⊢
      tauto

/-- The node above the first node in in-order does not depend on the context of the tree,
when the tree has a left subtree. -/
theorem Tree.minCtx_par (hdr : Nat) (ll lr r : Tree K V) (b a : Nat) (cb c : Color)
    (kb kv : K × V) (p p' : Path K V) :
    ((Tree.node (.node ll b cb kb lr) a c kv r).minCtx p).par hdr =
      ((Tree.node (.node ll b cb kb lr) a c kv r).minCtx p').par hdr := by
  induction ll generalizing b a cb c kb kv lr r p p' with
  | nil => rfl
  | node l3 b3 c3 k3 r3 ih _ =>
    exact ih r3 lr b3 b c3 cb k3 kb (.left p a c kv r) (.left p' a c kv r)

/-- Every node of a tree is the root of a subtree in a context. -/
theorem Tree.focus_addr : ∀ (t : Tree K V) (p : Path K V) (z : Nat), z ∈ t.addrs →
    ∃ (p' : Path K V) (l : Tree K V) (c : Color) (kv : K × V) (r : Tree K V),
      p.plug t = p'.plug (.node l z c kv r) := by
  intro t
  induction t with
  | nil => intro p z hz; simp at hz
  | node l a c kv r ihl ihr =>
    intro p z hz
    simp only [Tree.addrs_node, List.mem_append, List.mem_cons] at hz
    rcases hz with hz | rfl | hz
    · obtain ⟨p', l', c', kv', r', e⟩ := ihl (.left p a c kv r) z hz
      exact ⟨p', l', c', kv', r', e⟩
    · exact ⟨p, l, c, kv, r, rfl⟩
    · obtain ⟨p', l', c', kv', r', e⟩ := ihr (.right l a c kv p) z hz
      exact ⟨p', l', c', kv', r', e⟩

/-- Writing the parent link a child already has changes nothing. -/
theorem Shape.setParent_root_same {m : Mem K V} {par : Ptr} {t : Tree K V} (h : Shape m par t) :
    (if t.ptr ≠ none then m.setParent t.ptr par else pure m) = .ok m := by
  cases t with
  | nil => simp
  | node l a c kv r =>
    simp only [Tree.ptr_node, ne_eq, reduceCtorEq, not_false_eq_true, if_true]
    exact Mem.setParent_same h.1 rfl

theorem Mem.color_of_cell {m : Mem K V} {a : Nat} {nd : Node K V} (h : m.cells a = some nd) :
    m.color (some a) = .ok nd.color := by
  simp [Mem.color, Mem.read, h, Except.map]

/-- The statements `y->right = z->right; y->right->parent = y; transplant(z, y);
y->left = z->left; y->left->parent = y; y->color = z->color` of `erase`, on the cells. -/
theorem relink_full_cells [LinearOrder K] {μ : Mem K V} (hdr : Nat) {z y la ra g : Nat}
    {nz ny nla nra ng : Node K V}
    (hz : μ.cells z = some nz) (hy : μ.cells y = some ny) (hla : μ.cells la = some nla)
    (hra : μ.cells ra = some nra) (hg : μ.cells g = some ng)
    (hzl : nz.left = some la) (hzr : nz.right = some ra) (hzp : nz.parent = some g)
    (h1 : g ≠ z) (h2 : g ≠ y) (h3 : g ≠ la) (h4 : z ≠ y) (h5 : z ≠ la) (h6 : y ≠ la)
    (h7 : ra ≠ z) (h8 : ra ≠ y) (h9 : ra ≠ la) (h10 : ra ≠ g) :
    ∃ ma mb mc md me mf, μ.right (some z) = .ok (some ra) ∧
      μ.setRight (some y) (some ra) = .ok ma ∧ ma.right (some y) = .ok (some ra) ∧
      ma.setParent (some ra) (some y) = .ok mb ∧
      transplant hdr mb (some z) (some y) = .ok mc ∧
      mc.left (some z) = .ok (some la) ∧ mc.setLeft (some y) (some la) = .ok md ∧
      md.left (some y) = .ok (some la) ∧ md.setParent (some la) (some y) = .ok me ∧
      me.color (some z) = .ok nz.color ∧ me.setColor (some y) nz.color = .ok mf ∧
      mf.next = μ.next ∧
      mf.cells y = some ⟨ny.data, nz.color, some g, some la, some ra⟩ ∧
      mf.cells la = some { nla with parent := some y } ∧
      mf.cells ra = some { nra with parent := some y } ∧
      mf.cells g = some (if g = hdr then { ng with parent := some y }
        else if some z = ng.left then { ng with left := some y }
        else { ng with right := some y }) ∧
      mf.cells z = some nz ∧
      (∀ b, b ≠ y → b ≠ la → b ≠ ra → b ≠ g → mf.cells b = μ.cells b) := by
  have e0 : μ.right (some z) = .ok (some ra) := by rw [Mem.right_of_cell hz, hzr]
  have e1 := Mem.setRight_of_cell hy (some ra)
  generalize hma : μ.put y _ = ma at e1
  have ha : ∀ b, ma.cells b =
      if b = y then some ⟨ny.data, ny.color, ny.parent, ny.left, some ra⟩ else μ.cells b := by
    intro b; rw [← hma]; rfl
  have hya : ma.cells y = some ⟨ny.data, ny.color, ny.parent, ny.left, some ra⟩ := by
    rw [ha]; simp
  have hraa : ma.cells ra = some nra := by rw [ha, if_neg h8, hra]
  have e2 : ma.right (some y) = .ok (some ra) := Mem.right_of_cell hya
  have e3 := Mem.setParent_of_cell hraa (some y)
  generalize hmb : ma.put ra _ = mb at e3
  have hb : ∀ b, mb.cells b =
      if b = ra then some ⟨nra.data, nra.color, some y, nra.left, nra.right⟩
      else ma.cells b := by
    intro b; rw [← hmb]; rfl
  have hzb : mb.cells z = some nz := by rw [hb, if_neg (Ne.symm h7), ha, if_neg h4, hz]
  have hyb : mb.cells y = some ⟨ny.data, ny.color, ny.parent, ny.left, some ra⟩ := by
    rw [hb, if_neg (Ne.symm h8), hya]
  have hlab : mb.cells la = some nla := by
    rw [hb, if_neg (Ne.symm h9), ha, if_neg (Ne.symm h6), hla]
  have hgb : mb.cells g = some ng := by
    rw [hb, if_neg (Ne.symm h10), ha, if_neg h2, hg]
  obtain ⟨mc, md, me, mf, e4, e5, e6, e7, e8, e9, e10, hn, hcy, hcla, hcg, hcz, hcf⟩ :=
    relink_tail_cells hdr hzb hyb hlab hgb hzl hzp h1 h2 h3 h4 h5 h6
  refine ⟨ma, mb, mc, md, me, mf, e0, e1, e2, e3, e4, e5, e6, e7, e8, e9, e10, ?_, hcy, hcla,
    ?_, hcg, hcz, ?_⟩
  · rw [hn, ← hmb, Mem.put_next, ← hma, Mem.put_next]
  · rw [hcf ra h8 h9 h10, hb, if_pos rfl]
  · intro b hb1 hb2 hb3 hb4
    rw [hcf b hb1 hb2 hb4, hb, if_neg hb3, ha, if_neg hb1]

/-- Distinctness is kept when a node not in the tree takes the place of a node. -/
theorem nodup_replace {hdr : Nat} {p : Path K V} {l r : Tree K V} {z y : Nat} {c c' : Color}
    {kv kv' : K × V} (hn : (hdr :: (p.addrs ++ (Tree.node l z c kv r).addrs)).Nodup)
    (hy : y ∉ hdr :: (p.addrs ++ (Tree.node l z c kv r).addrs)) :
    (hdr :: (p.addrs ++ (Tree.node l y c' kv' r).addrs)).Nodup := by
  simp only [Tree.addrs_node, List.nodup_cons, List.nodup_append, List.mem_cons,
    List.mem_append, not_or, List.disjoint_left] at hn hy ⊢
  obtain ⟨⟨h1, h2, h3, h4⟩, h5, ⟨h6, ⟨h7, h8⟩, h9⟩, h10⟩ := hn
  obtain ⟨hy1, hy2, hy3, hy4, hy5⟩ := hy
  refine ⟨⟨h1, h2, fun e => hy1 e.symm, h4⟩, h5, ⟨h6, ⟨hy5, h8⟩, fun a ha => ?_⟩,
    fun a ha => ?_⟩
  · exact ⟨fun e => hy3 (e ▸ ha), (h9 ha).2⟩
  · exact ⟨(h10 ha).1, fun e => hy2 (e ▸ ha), (h10 ha).2.2⟩

end Detach3

section DetachBranches

variable {K V : Type}

theorem Path.noRR_of_plug {p : Path K V} {t : Tree K V} (h : (p.plug t).noRedRed) :
    t.noRedRed ∧ p.noRR ∧ (t.color = .RED → p.color = .BLACK) := by
  obtain ⟨h1, h2, h3⟩ := (Path.plug_noRedRed p t).1 h
  refine ⟨h1, h2, fun ht => ?_⟩
  rcases Color.black_or_red p.color with hp | hp
  · exact hp
  · rw [h3 hp] at ht; cases ht

/-- The branch of `erase` for a node without left child. -/
theorem detach_no_left [LinearOrder K] {m : Mem K V} {hdr : Nat} {p : Path K V} {r : Tree K V}
    {z : Nat} {c : Color} {kv : K × V} (h : ZRep m hdr p (.node .nil z c kv r))
    (hbal : (p.plug (.node .nil z c kv r)).balanced)
    (hnrr : (p.plug (.node .nil z c kv r)).noRedRed) :
    ∃ m1, (∀ fuel, erase_detach fuel hdr m (some z) = .ok (m1, r.ptr, p.par hdr, c)) ∧
      Detached hdr m1 z p r c ∧ m1.next = m.next := by
  obtain ⟨hn1, hn2, hn3, hn4, hn5, hn6, hn7, hn8⟩ := h.nodup_facts
  obtain ⟨hzp, hzc, hzl, hzr, -⟩ := h.reads
  obtain ⟨m1, e1, hz1, hnx, hf⟩ := transplant_right_spec h
  obtain ⟨g, ng, hpar, hgc, hgm⟩ := h.1.par_cell
  have hxp := hz1.parent_of_ptr
  obtain ⟨⟨hb1, -, hb2⟩, hb3⟩ := (Path.plug_balanced _ _).1 hbal
  obtain ⟨-, hr2, -⟩ := Path.noRR_of_plug hnrr
  have hzc1 : m1.cells z = m.cells z := by
    refine hf z (fun e => ?_) (fun e => hn6 (Tree.ptr_mem e.symm))
    rw [hpar] at e
    injection e with e
    exact hn2 (e ▸ hgm)
  refine ⟨m1, fun fuel => ?_, ⟨m1, hz1, Or.inl rfl, ⟨_, hzc1.trans h.2.1.1⟩, ?_, hb2, ?_, hr2⟩,
    hnx⟩
  · simp only [Tree.ptr_nil] at hzl
    by_cases hx : r.ptr = none
    · rw [hx] at e1
      simp only [erase_detach, hzc, hzl, hzr, hzp, e1, ok_bind, if_true, hx, ne_eq,
        not_true_eq_false, if_false, pure_eq_ok]
    · simp only [erase_detach, hzc, hzl, hzr, hzp, e1, ok_bind, if_true, hx, ne_eq,
        not_false_eq_true, hxp hx, pure_eq_ok]
  · simp only [List.mem_cons, List.mem_append, not_or] at hn2 ⊢
    exact ⟨hn2.1, hn2.2, hn6⟩
  · intro hc
    subst hc
    simp only [Tree.bh, if_true] at hb3 hb1
    rw [← hb1]
    exact hb3

/-- The branch of `erase` for a node with a left child and no right child. -/
theorem detach_no_right [LinearOrder K] {m : Mem K V} {hdr : Nat} {p : Path K V}
    {ll lr : Tree K V} {la : Nat} {lc : Color} {lkv : K × V}
    {z : Nat} {c : Color} {kv : K × V}
    (h : ZRep m hdr p (.node (.node ll la lc lkv lr) z c kv .nil))
    (hbal : (p.plug (.node (.node ll la lc lkv lr) z c kv .nil)).balanced)
    (hnrr : (p.plug (.node (.node ll la lc lkv lr) z c kv .nil)).noRedRed) :
    ∃ m1, (∀ fuel, erase_detach fuel hdr m (some z) = .ok (m1, some la, p.par hdr, c)) ∧
      Detached hdr m1 z p (.node ll la lc lkv lr) c ∧ m1.next = m.next := by
  obtain ⟨hn1, hn2, hn3, hn4, hn5, hn6, hn7, hn8⟩ := h.nodup_facts
  obtain ⟨hzp, hzc, hzl, hzr, -⟩ := h.reads
  obtain ⟨m1, e1, hz1, hnx, hf⟩ := transplant_left_spec h
  obtain ⟨g, ng, hpar, hgc, hgm⟩ := h.1.par_cell
  have hxp := hz1.parent_of_ptr
  obtain ⟨⟨hb1, hb2, -⟩, hb3⟩ := (Path.plug_balanced _ _).1 hbal
  obtain ⟨-, hr2, -⟩ := Path.noRR_of_plug hnrr
  have hzc1 : m1.cells z = m.cells z := by
    refine hf z (fun e => ?_) (fun e => hn5 (Tree.ptr_mem e.symm))
    rw [hpar] at e
    injection e with e
    exact hn2 (e ▸ hgm)
  refine ⟨m1, fun fuel => ?_, ⟨m1, hz1, Or.inl rfl, ⟨_, hzc1.trans h.2.1.1⟩, ?_, hb2, ?_, hr2⟩,
    hnx⟩
  · simp only [Tree.ptr_nil, Tree.ptr_node] at hzl hzr hxp e1
    simp only [erase_detach, hzc, hzl, hzr, hzp, e1, ok_bind, if_true, ne_eq, reduceCtorEq,
      not_false_eq_true, if_false, hxp, pure_eq_ok]
  · simp only [List.mem_cons, List.mem_append, not_or] at hn2 ⊢
    exact ⟨hn2.1, hn2.2, hn5⟩
  · intro hc
    subst hc
    simp only [Tree.bh, if_true] at hb3 hb1 ⊢
    exact hb3

theorem Node.parent_same {n : Node K V} {v : Ptr} (h : n.parent = v) :
    ({ n with parent := v } : Node K V) = n := by
  cases n
  simp only at h
  simp [h]

/-- The two-child branch of `erase` when the successor `y` is the right child of `z`. -/
theorem detach_succ_child [LinearOrder K] {m : Mem K V} {hdr : Nat} {p : Path K V}
    {ll lr yr : Tree K V} {la y z : Nat} {lc yc c : Color} {lkv ykv kv : K × V}
    (h : ZRep m hdr p (.node (.node ll la lc lkv lr) z c kv (.node .nil y yc ykv yr)))
    (hbal : (p.plug (.node (.node ll la lc lkv lr) z c kv (.node .nil y yc ykv yr))).balanced)
    (hnrr : (p.plug (.node (.node ll la lc lkv lr) z c kv (.node .nil y yc ykv yr))).noRedRed) :
    ∃ m1, (∀ fuel, 1 ≤ fuel → erase_detach fuel hdr m (some z) = .ok (m1, yr.ptr, some y, yc)) ∧
      Detached hdr m1 z (.right (.node ll la lc lkv lr) y c ykv p) yr yc ∧ m1.next = m.next := by
  obtain ⟨hn1, hn2, hn3, hn4, hn5, hn6, hn7, hn8⟩ := h.nodup_facts
  obtain ⟨hzp, hzc, hzl, hzr, -⟩ := h.reads
  obtain ⟨hp, ⟨hzcell, hl, hr⟩, hn⟩ := h
  obtain ⟨g, ng, hpar, hgc, hgm⟩ := hp.par_cell
  have hlacell := hl.1
  have hycell := hr.1
  have hyr : Shape m (some y) yr := hr.2.2
  have hyin : y ∈ (Tree.node .nil y yc ykv yr).addrs := by simp
  have hlain : la ∈ (Tree.node ll la lc lkv lr).addrs := by simp
  have d1 : g ≠ z := fun e => hn2 (e ▸ hgm)
  have d2 : g ≠ y := fun e => hn8 y hyin (e ▸ hgm)
  have d3 : g ≠ la := fun e => (hn7 la hlain).1 (e ▸ hgm)
  have d4 : z ≠ y := fun e => hn6 (e ▸ hyin)
  have d5 : z ≠ la := fun e => hn5 (e ▸ hlain)
  have d6 : y ≠ la := fun e => (hn7 la hlain).2 (e ▸ hyin)
  obtain ⟨mc, md, me, mf, e4, e5, e6, e7, e8, e9, e10, hnx, hcy, hcla, hcg, hcz, hcf⟩ :=
    relink_tail_cells hdr hzcell hycell hlacell hgc rfl hpar d1 d2 d3 d4 d5 d6
  have hsame := hyr.setParent_root_same
  simp only [ne_eq, pure_eq_ok] at hsame
  have hyc : m.color (some y) = .ok yc := Mem.color_of_cell hycell
  have hyright : m.right (some y) = .ok yr.ptr := Mem.right_of_cell hycell
  have hypar : m.parent (some y) = .ok (some z) := Mem.parent_of_cell hycell
  have hyleft : m.left (some y) = .ok none := Mem.left_of_cell hycell
  have hrebuilt : ZRep mf hdr p (.node (.node ll la lc lkv lr) y c ykv yr) := by
    refine ZRep.rebuild hp hl hyr ?_ (fun hm => hn2 (by simp [hm])) ?_ ?_ ?_ ?_ ?_
    · refine hn.sublist ?_
      simp only [Tree.addrs_node, Tree.addrs_nil, List.nil_append]
      exact List.Sublist.cons₂ _ (List.Sublist.append (List.Sublist.refl _)
        (List.Sublist.append (List.Sublist.refl _) (List.sublist_cons_self z _)))
    · rw [hcy, hpar]; rfl
    · intro a n ha hc
      simp only [Tree.ptr_node, Option.some.injEq] at ha
      subst ha
      rw [hlacell] at hc
      injection hc with hc
      subst hc
      exact hcla
    · intro a n ha hc
      have hain : a ∈ (Tree.node .nil y yc ykv yr).addrs := by
        simp [Tree.ptr_mem ha]
      obtain ⟨nb, hnb, hnp⟩ := hyr.root_cell ha
      rw [hnb] at hc
      injection hc with hc
      subst hc
      have hay : a ≠ y := by
        rintro rfl
        simp only [Tree.addrs_node, Tree.addrs_nil, List.nil_append, List.nodup_cons] at hn4
        exact hn4.1 (Tree.ptr_mem ha)
      rw [hcf a hay (fun e => (hn7 la hlain).2 (e ▸ hain)) (fun e => hn8 a hain (e ▸ hgm)),
        hnb, Node.parent_same hnp]
    · intro g' ng' hg' hc'
      rw [hpar] at hg'
      injection hg' with hg'
      subst hg'
      rw [hgc] at hc'
      injection hc' with hc'
      subst hc'
      exact hcg
    · intro b hb1 hb2 _ hb4
      refine hcf b hb1 (fun e => hb2 (by rw [e]; rfl)) (fun e => hb4 (by rw [hpar, e]))
  obtain ⟨⟨hb1, hb2, hb4, -, hb5⟩, hb3⟩ := (Path.plug_balanced _ _).1 hbal
  obtain ⟨⟨hr1, hr3, -⟩, hr2, hr4⟩ := Path.noRR_of_plug hnrr
  refine ⟨mf, fun fuel hfu => ?_, ⟨mf, ZRep.up_right.2 hrebuilt, Or.inl rfl, ⟨_, hcz⟩, ?_, hb5,
    ?_, ?_⟩, hnx⟩
  · obtain ⟨fuel, rfl⟩ : ∃ f, fuel = f + 1 := ⟨fuel - 1, by omega⟩
    simp only [Tree.ptr_node] at hzl hzr
    simp only [erase_detach, hzc, hzl, hzr, ok_bind, reduceCtorEq, if_false, erase_leftmost,
      hyleft, ne_eq, not_true_eq_false, pure_eq_ok, hyc, hyright, hypar, hsame, e4, e5, e6, e7,
      e8, e9, e10]
  · simp only [List.mem_cons, List.mem_append, not_or, Path.addrs_right, Tree.addrs_node,
      Tree.addrs_nil, List.nil_append, List.cons_append] at hn2 hn5 hn6 ⊢
    exact ⟨hn2.1, hn6.1, ⟨hn5, hn2.2⟩, hn6.2⟩
  · intro hc
    subst hc
    simp only [Tree.bh, if_true, Nat.zero_add] at hb1 hb3 hb4
    simp only [Path.okBH, Tree.bh]
    refine ⟨by omega, hb2, ?_⟩
    have e : ll.bh + (if lc = Color.BLACK then 1 else 0) + (if c = Color.BLACK then 1 else 0) =
        yr.bh + 1 + (if c = Color.BLACK then 1 else 0) := by omega
    rw [← e]
    exact hb3
  · exact ⟨hr3, fun hc => ⟨(hr1 hc).1, hr4 hc⟩, hr2⟩

end DetachBranches

section DetachDeep

variable {K V : Type}

theorem Mem.ext_cells {m m' : Mem K V} (hn : m'.next = m.next)
    (hc : ∀ b, m'.cells b = m.cells b) : m' = m := by
  cases m
  cases m'
  simp only [Mem.mk.injEq] at hn ⊢
  exact ⟨funext hc, hn⟩

/-- The statement `if (y->right) y->right->parent = y` of `erase`, executed after
`transplant(y, y->right)`: only the parent link of the root of the subtree changes. -/
theorem stale_write_spec {m : Mem K V} {par : Ptr} {t : Tree K V} (h : Shape m par t)
    (y : Nat) :
    ∃ m', (if ¬ t.ptr = none then m.setParent t.ptr (some y) else Except.ok m) = .ok m' ∧
      m'.next = m.next ∧ (∀ b, some b ≠ t.ptr → m'.cells b = m.cells b) ∧
      (∀ x0 n, t.ptr = some x0 → m.cells x0 = some n →
        m'.cells x0 = some { n with parent := some y }) := by
  cases t with
  | nil =>
    refine ⟨m, by simp, rfl, fun _ _ => rfl, fun x0 n hx => ?_⟩
    simp at hx
  | node l a c kv r =>
    refine ⟨m.put a ⟨kv, c, some y, l.ptr, r.ptr⟩, ?_, rfl, ?_, ?_⟩
    · simp only [Tree.ptr_node, reduceCtorEq, not_false_eq_true, if_true]
      exact Mem.setParent_of_cell h.1 (some y)
    · intro b hb
      have : b ≠ a := fun e => hb (by rw [e]; rfl)
      simp [this]
    · intro x0 n hx hn
      simp only [Tree.ptr_node, Option.some.injEq] at hx
      subst hx
      rw [h.1] at hn
      injection hn with hn
      subst hn
      simp

theorem Tree.red_of_bh_zero {l r : Tree K V} {a : Nat} {c : Color} {kv : K × V}
    (h : (Tree.node l a c kv r).bh = 0) : c = .RED := by
  rcases Color.black_or_red c with hc | hc
  · subst hc; simp [Tree.bh] at h
  · exact hc

set_option maxHeartbeats 1000000 in
/-- The two-child branch of `erase` when the successor `y` lies deeper in the right
subtree of `z`. -/
theorem detach_succ_deep [LinearOrder K] {m : Mem K V} {hdr : Nat} {p : Path K V}
    {l r ll lr rll rlr rr : Tree K V} {la z rb ra : Nat} {lc c rcb rc : Color}
    {lkv kv rkb rkv : K × V}
    (hl : l = .node ll la lc lkv lr) (hr : r = .node (.node rll rb rcb rkb rlr) ra rc rkv rr)
    (h : ZRep m hdr p (.node l z c kv r))
    (hbal : (p.plug (.node l z c kv r)).balanced)
    (hnrr : (p.plug (.node l z c kv r)).noRedRed) :
    ∃ m1 y yc ykv yr, r.minNode = .node .nil y yc ykv yr ∧
      (∀ fuel, r.height ≤ fuel → erase_detach fuel hdr m (some z) =
        .ok (m1, yr.ptr, (r.minCtx (.right l y c ykv p)).par hdr, yc)) ∧
      Detached hdr m1 z (r.minCtx (.right l y c ykv p)) yr yc ∧ m1.next = m.next := by
  obtain ⟨hn1, hn2, hn3, hn4, hn5, hn6, hn7, hn8⟩ := h.nodup_facts
  obtain ⟨hzp, hzc, hzl, hzr, -⟩ := h.reads
  have hrne : r ≠ .nil := by rw [hr]; simp
  obtain ⟨y, yc, ykv, yr, hY⟩ := Tree.minNode_eq hrne
  have hYsub := Tree.minNode_addrs_sub r
  rw [hY] at hYsub
  have hyin : y ∈ r.addrs := hYsub y (by simp)
  have hyrin : ∀ b ∈ yr.addrs, b ∈ r.addrs := fun b hb => hYsub b (by simp [hb])
  have hrain : ra ∈ r.addrs := by rw [hr]; simp
  have hlain : la ∈ l.addrs := by rw [hl]; simp
  have hYrl : ∀ b ∈ (Tree.node .nil y yc ykv yr).addrs,
      b ∈ (Tree.node rll rb rcb rkb rlr).addrs := by
    have := Tree.minNode_addrs_sub (Tree.node rll rb rcb rkb rlr)
    have e : (Tree.node rll rb rcb rkb rlr).minNode = .node .nil y yc ykv yr := by
      rw [← hY, hr]; rfl
    rw [e] at this
    exact this
  have hra_notin : ra ∉ (Tree.node rll rb rcb rkb rlr).addrs := by
    have hh := hn4
    rw [hr, Tree.addrs_node, List.nodup_append] at hh
    exact fun hm => hh.2.2 hm (by simp)
  -- the zipper at `y`
  have hplugQ : (r.minCtx (.right l z c kv p)).plug (.node .nil y yc ykv yr) =
      p.plug (.node l z c kv r) := by
    rw [← hY, Tree.minCtx_plug]; rfl
  have hQ : ZRep m hdr (r.minCtx (.right l z c kv p)) (.node .nil y yc ykv yr) :=
    Holds.toZRep (by rw [hplugQ]; exact h.toHolds)
  obtain ⟨Qup, b, bc, bkv, br, hQeq, hbin⟩ :=
    Tree.minCtx_left rll rlr rr rb ra rcb rc rkb rkv (.right l z c kv p)
  rw [← hr] at hQeq hbin
  rw [hQeq] at hQ
  obtain ⟨hyp, hyc, hyl, hyright, -⟩ := hQ.reads
  obtain ⟨qn1, qn2, -, qn4, -, qn6, -, qn8⟩ := hQ.nodup_facts
  have hby : y ≠ b := fun e => qn2 (by simp [e])
  obtain ⟨m1, e1, hQ1, hnx1, hf1⟩ := transplant_right_spec hQ
  have hycell1 : m1.cells y = some ⟨ykv, yc, some b, none, yr.ptr⟩ := by
    rw [hf1 y (by simpa using hby) (Tree.ptr_ne_of_not_mem qn6)]
    exact hQ.2.1.1
  have hdel : r.delMin = .node (Tree.node rll rb rcb rkb rlr).delMin ra rc rkv rr := by
    rw [hr]; rfl
  have hz1 : ZRep m1 hdr p (.node l z c kv
      (.node (Tree.node rll rb rcb rkb rlr).delMin ra rc rkv rr)) :=
    Holds.toZRep (by
      have := hQ1.toHolds
      rw [← hQeq, Tree.minCtx_plug_delMin r _ hY, hdel] at this
      exact this)
  obtain ⟨zn1, zn2, zn3, zn4, zn5, zn6, zn7, zn8⟩ := hz1.nodup_facts
  have hzcell1 := hz1.2.1.1
  have hlacell1 : m1.cells la = some ⟨lkv, lc, some z, ll.ptr, lr.ptr⟩ := by
    have := hz1.2.1.2.1
    rw [hl] at this
    exact this.1
  have hracell1 := hz1.2.1.2.2.1
  obtain ⟨g, ng, hpar, hgc1, hgm⟩ := hz1.1.par_cell
  -- the write `y->right->parent = y`
  obtain ⟨m1', e2, hnx2, hs1, hs2⟩ := stale_write_spec (hQ1.2.1 : Shape m1 (some b) yr) y
  have hnotyr : ∀ b', b' ∉ yr.addrs → m1'.cells b' = m1.cells b' :=
    fun b' hb' => hs1 b' (Tree.ptr_ne_of_not_mem hb')
  have nz : z ∉ yr.addrs := fun hm => hn6 (hyrin z hm)
  have nla : la ∉ yr.addrs := fun hm => (hn7 la hlain).2 (hyrin la hm)
  have nra : ra ∉ yr.addrs := fun hm => hra_notin (hYrl ra (by simp [hm]))
  have ng' : g ∉ yr.addrs := fun hm => hn8 g (hyrin g hm) hgm
  have d1 : g ≠ z := fun e => hn2 (e ▸ hgm)
  have d2 : g ≠ y := fun e => hn8 y hyin (e ▸ hgm)
  have d3 : g ≠ la := fun e => (hn7 la hlain).1 (e ▸ hgm)
  have d4 : z ≠ y := fun e => hn6 (e ▸ hyin)
  have d5 : z ≠ la := fun e => hn5 (e ▸ hlain)
  have d6 : y ≠ la := fun e => (hn7 la hlain).2 (e ▸ hyin)
  have d7 : ra ≠ z := fun e => hn6 (e ▸ hrain)
  have d8 : ra ≠ y := fun e => hra_notin (hYrl ra (by simp [e]))
  have d9 : ra ≠ la := fun e => (hn7 la hlain).2 (e ▸ hrain)
  have d10 : ra ≠ g := fun e => hn8 ra hrain (e ▸ hgm)
  have hlptr : l.ptr = some la := by rw [hl]; rfl
  -- the run on the actual memory and on the memory without that write
  obtain ⟨ma, mb, mc, md, me, mf, c0, c1, c2, c3, c4, c5, c6, c7, c8, c9, c10, hnxf, fy, fla,
      fra, fg, fz, ff⟩ :=
    relink_full_cells hdr ((hnotyr z nz).trans hzcell1) ((hnotyr y qn6).trans hycell1)
      ((hnotyr la nla).trans hlacell1) ((hnotyr ra nra).trans hracell1)
      ((hnotyr g ng').trans hgc1) hlptr rfl hpar d1 d2 d3 d4 d5 d6 d7 d8 d9 d10
  obtain ⟨-, -, -, -, -, mf0, -, -, -, -, -, -, -, -, -, -, -, hnxf0, gy, gla, gra, gg, gz,
      gf⟩ :=
    relink_full_cells hdr hzcell1 hycell1 hlacell1 hracell1 hgc1 hlptr rfl hpar
      d1 d2 d3 d4 d5 d6 d7 d8 d9 d10
  have hynot : y ∉ hdr :: (p.addrs ++ (Tree.node l z c kv
      (.node (Tree.node rll rb rcb rkb rlr).delMin ra rc rkv rr)).addrs) := by
    intro hm
    simp only [List.mem_cons] at hm
    rcases hm with hm | hm
    · exact qn2 (List.mem_cons.2 (Or.inl hm))
    · have h2 : y ∈ (p.plug (Tree.node l z c kv
          (.node (Tree.node rll rb rcb rkb rlr).delMin ra rc rkv rr))).addrs :=
        Path.mem_plug_addrs.2 (List.mem_append.1 hm)
      have h3 : (Path.left Qup b bc bkv br).plug yr = p.plug (Tree.node l z c kv
          (.node (Tree.node rll rb rcb rkb rlr).delMin ra rc rkv rr)) := by
        rw [← hQeq, Tree.minCtx_plug_delMin r _ hY, hdel]; rfl
      rw [← h3] at h2
      rcases Path.mem_plug_addrs.1 h2 with h4 | h4
      · exact qn2 (List.mem_cons.2 (Or.inr h4))
      · exact qn6 h4
  have hrb : ZRep mf0 hdr p (.node l y c ykv
      (.node (Tree.node rll rb rcb rkb rlr).delMin ra rc rkv rr)) := by
    refine ZRep.rebuild hz1.1 hz1.2.1.2.1 hz1.2.1.2.2 (nodup_replace hz1.2.2 hynot)
      (fun hm => zn2 (by simp [hm])) ?_ ?_ ?_ ?_ ?_
    · rw [gy, hpar, hlptr]; rfl
    · intro a n ha hc
      rw [hlptr] at ha
      injection ha with ha
      subst ha
      rw [hlacell1] at hc
      injection hc with hc
      subst hc
      exact gla
    · intro a n ha hc
      simp only [Tree.ptr_node, Option.some.injEq] at ha
      subst ha
      rw [hracell1] at hc
      injection hc with hc
      subst hc
      exact gra
    · intro g' ng2 hg' hc'
      rw [hpar] at hg'
      injection hg' with hg'
      subst hg'
      rw [hgc1] at hc'
      injection hc' with hc'
      subst hc'
      exact gg
    · intro b' hb1 hb2 hb3 hb4
      exact gf b' hb1 (fun e => hb2 (by rw [e, hlptr])) (fun e => hb3 (by rw [e]; rfl))
        (fun e => hb4 (by rw [hpar, e]))
  have hx : ZRep mf0 hdr (r.minCtx (.right l y c ykv p)) yr :=
    Holds.toZRep (by
      rw [Tree.minCtx_plug_delMin r _ hY, hdel]
      exact hrb.toHolds)
  have hparx : (r.minCtx (.right l y c ykv p)).par hdr = some b := by
    have := Tree.minCtx_par hdr rll rlr rr rb ra rcb rc rkb rkv (.right l y c ykv p)
      (.right l z c kv p)
    rw [← hr] at this
    rw [this, hQeq]
    rfl
  -- the two memories differ at most in the parent link of `x`
  have hrel : ∀ b', some b' ≠ yr.ptr → mf.cells b' = mf0.cells b' := by
    intro b' hb'
    by_cases e1 : b' = y
    · subst e1; rw [fy, gy]
    by_cases e2 : b' = la
    · subst e2; rw [fla, gla]
    by_cases e3 : b' = ra
    · subst e3; rw [fra, gra]
    by_cases e4 : b' = g
    · subst e4; rw [fg, gg]
    rw [ff b' e1 e2 e3 e4, gf b' e1 e2 e3 e4, hs1 b' hb']
  obtain ⟨⟨hb1, hb2, hb6⟩, hb3⟩ := (Path.plug_balanced _ _).1 hbal
  obtain ⟨hr1, hr2, hr4⟩ := (Path.plug_noRedRed _ _).1 hnrr
  have hTy : (r.minCtx (.right l y c ykv p)).plug (.node .nil y yc ykv yr) =
      p.plug (.node l y c ykv r) := by
    rw [← hY, Tree.minCtx_plug]; rfl
  have hbalY : (p.plug (.node l y c ykv r)).balanced :=
    (Path.plug_balanced _ _).2 ⟨⟨hb1, hb2, hb6⟩, hb3⟩
  have hnrrY : (p.plug (.node l y c ykv r)).noRedRed :=
    (Path.plug_noRedRed _ _).2 ⟨hr1, hr2, hr4⟩
  rw [← hTy] at hbalY hnrrY
  obtain ⟨⟨hy1, -, hy2⟩, hy3⟩ := (Path.plug_balanced _ _).1 hbalY
  obtain ⟨-, hy4, -⟩ := (Path.plug_noRedRed _ _).1 hnrrY
  have hstale : StaleAt mf mf0 yr.ptr := by
    cases yr with
    | nil =>
      exact Or.inl (Mem.ext_cells (by rw [hnxf, hnxf0, hnx2])
        (fun b' => hrel b' (by simp)))
    | node yrl x0 xc xkv yrr =>
      have hxin : x0 ∈ (Tree.node yrl x0 xc xkv yrr).addrs := by simp
      have hx0cell : m1.cells x0 = some ⟨xkv, xc, some b, yrl.ptr, yrr.ptr⟩ := hQ1.2.1.1
      have x1 : x0 ≠ y := fun e => qn6 (e ▸ hxin)
      have x2 : x0 ≠ la := fun e => nla (e ▸ hxin)
      have x3 : x0 ≠ ra := fun e => nra (e ▸ hxin)
      have x4 : x0 ≠ g := fun e => ng' (e ▸ hxin)
      have hxc : xc = .RED := Tree.red_of_bh_zero hy1.symm
      refine Or.inr ⟨x0, ⟨xkv, xc, some b, yrl.ptr, yrr.ptr⟩, some y, rfl, ?_, hxc, ?_, ?_⟩
      · rw [gf x0 x1 x2 x3 x4]; exact hx0cell
      · rw [hnxf, hnxf0, hnx2]
      · intro b'
        by_cases e : b' = x0
        · subst e
          rw [if_pos rfl, ff b' x1 x2 x3 x4]
          exact hs2 b' _ rfl hx0cell
        · rw [if_neg e]
          exact hrel b' (fun e' => e (by simpa using e'))
  have hzout : z ∉ hdr :: ((r.minCtx (.right l y c ykv p)).addrs ++ yr.addrs) := by
    intro hm
    simp only [List.mem_cons] at hm
    rcases hm with hm | hm
    · exact hn2 (List.mem_cons.2 (Or.inl hm))
    · have h2 : z ∈ ((r.minCtx (.right l y c ykv p)).plug yr).addrs :=
        Path.mem_plug_addrs.2 (List.mem_append.1 hm)
      rw [Tree.minCtx_plug_delMin r _ hY, hdel] at h2
      have h3 := Path.mem_plug_addrs.1 h2
      simp only [Path.addrs_right, Path.plug_right] at h3
      rcases Path.mem_plug_addrs.1 h2 with h4 | h4
      · simp only [Path.addrs_right, List.cons_append, List.mem_cons, List.mem_append] at h4
        rcases h4 with h4 | h4 | h4
        · exact d4 h4
        · exact hn5 h4
        · exact zn2 (by simp [h4])
      · exact zn6 h4
  refine ⟨mf, y, yc, ykv, yr, hY, fun fuel hfu => ?_, ⟨mf0, hx, hstale, ⟨_, fz⟩, hzout, hy2, ?_,
    hy4⟩, by rw [hnxf, hnx2, hnx1]⟩
  · have hlm := erase_leftmost_spec r (some z) h.2.1.2.2 hrne fuel hfu
    rw [hY] at hlm
    have hrptr : r.ptr = some ra := by rw [hr]; rfl
    have hbz : ¬ ((some b : Ptr) = some z) := by
      intro e
      injection e with e
      exact hn6 (e ▸ hbin)
    have hyr1 : m1.right (some y) = .ok yr.ptr := Mem.right_of_cell hycell1
    simp only [hlptr, hrptr, Tree.ptr_node, Tree.ptr_nil, Path.par_left] at hzl hzr hlm hyp
    simp only [Tree.ptr_node, Tree.ptr_nil] at hyl hyright e1
    simp only [erase_detach, hzc, hzl, hzr, ok_bind, reduceCtorEq, if_false, hlm, hyc, hyright,
      hyp, ne_eq, hbz, not_false_eq_true, if_true, e1, hyr1, e2, c0, c1, c2, c3, c4, c5, c6, c7,
      c8, c9, c10, pure_eq_ok, hparx]
  · intro hc
    subst hc
    simp only [Tree.bh, if_true, Nat.zero_add] at hy3
    have e : yr.bh + 1 = 1 := by
      simp only [Tree.bh] at hy1
      omega
    rw [e]
    exact hy3

end DetachDeep

section EraseSpec

variable {K V : Type}

theorem Tree.addrs_length (t : Tree K V) : t.addrs.length = t.size := by
  induction t with
  | nil => rfl
  | node l a c kv r ihl ihr =>
    simp only [Tree.addrs_node, List.length_append, List.length_cons, Tree.size, ihl, ihr]
    omega

theorem Path.plug_size_mono (p : Path K V) : ∀ {t t' : Tree K V}, t.size ≤ t'.size →
    (p.plug t).size ≤ (p.plug t').size := by
  induction p with
  | top => intro t t' h; exact h
  | left up a c kv r ih =>
    intro t t' h
    exact ih (by simp only [Tree.size]; omega)
  | right l a c kv up ih =>
    intro t t' h
    exact ih (by simp only [Tree.size]; omega)

theorem Tree.delMin_size_le (t : Tree K V) : t.delMin.size ≤ t.size := by
  induction t with
  | nil => simp [Tree.delMin]
  | node l a c kv r ihl _ =>
    cases l with
    | nil => simp only [Tree.delMin, Tree.size]; omega
    | node ll b cb kb lr =>
      simp only [Tree.delMin, Tree.size] at ihl ⊢
      omega

/-- The first part of `erase` on a balanced tree without RED nodes with RED children: for
every node `z` it returns, and the memory is then in the state `Detached`, with `x` at a
depth below the height of the tree. -/
theorem erase_detach_spec [LinearOrder K] {m : Mem K V} {hdr : Nat} {tr : Tree K V} {z : Nat}
    (h : Holds m hdr tr) (hbal : tr.balanced) (hnrr : tr.noRedRed) (hz : z ∈ tr.addrs) :
    ∃ (m1 : Mem K V) (p' : Path K V) (t' : Tree K V) (yc : Color),
      (∀ fuel, tr.height ≤ fuel →
        erase_detach fuel hdr m (some z) = .ok (m1, t'.ptr, p'.par hdr, yc)) ∧
      Detached hdr m1 z p' t' yc ∧ m1.next = m.next ∧ p'.depth < tr.height ∧
      (p'.plug t').size ≤ tr.size := by
  obtain ⟨p, l, c, kv, r, e⟩ := Tree.focus_addr tr .top z hz
  simp only [Path.plug_top] at e
  subst e
  have hzr : ZRep m hdr p (.node l z c kv r) := Holds.toZRep h
  have hd := Path.depth_add_height_le p (.node l z c kv r)
  cases l with
  | nil =>
    obtain ⟨m1, e1, hdet, hnx⟩ := detach_no_left hzr hbal hnrr
    refine ⟨m1, p, r, c, fun fuel _ => e1 fuel, hdet, hnx, ?_, ?_⟩
    · simp only [Tree.height] at hd; omega
    · exact Path.plug_size_mono p (by simp only [Tree.size]; omega)
  | node ll la lc lkv lr =>
    cases r with
    | nil =>
      obtain ⟨m1, e1, hdet, hnx⟩ := detach_no_right hzr hbal hnrr
      refine ⟨m1, p, .node ll la lc lkv lr, c, fun fuel _ => e1 fuel, hdet, hnx, ?_, ?_⟩
      · simp only [Tree.height] at hd; omega
      · exact Path.plug_size_mono p (by simp only [Tree.size]; omega)
    | node rl ra rc rkv rr =>
      cases rl with
      | nil =>
        obtain ⟨m1, e1, hdet, hnx⟩ := detach_succ_child hzr hbal hnrr
        refine ⟨m1, _, rr, rc, fun fuel hf => ?_, hdet, hnx, ?_, ?_⟩
        · exact e1 fuel (by simp only [Tree.height] at hd; omega)
        · simp only [Tree.height, Path.depth] at hd ⊢; omega
        · rw [Path.plug_right]
          exact Path.plug_size_mono p (by simp only [Tree.size]; omega)
      | node rll rb rcb rkb rlr =>
        obtain ⟨m1, y, yc, ykv, yr, hY, e1, hdet, hnx⟩ :=
          detach_succ_deep rfl rfl hzr hbal hnrr
        refine ⟨m1, _, yr, yc, fun fuel hf => ?_, hdet, hnx, ?_, ?_⟩
        · exact e1 fuel (by
            have e : (Tree.node (.node ll la lc lkv lr) z c kv
              (.node (.node rll rb rcb rkb rlr) ra rc rkv rr)).height =
              max (Tree.node ll la lc lkv lr).height
                (Tree.node (.node rll rb rcb rkb rlr) ra rc rkv rr).height + 1 := rfl
            omega)
        · have h1 := Path.depth_add_height_le
            ((Tree.node (.node rll rb rcb rkb rlr) ra rc rkv rr).minCtx
              (.right (.node ll la lc lkv lr) y c ykv p)) (.node .nil y yc ykv yr)
          rw [← hY, Tree.minCtx_plug, Path.plug_right] at h1
          have h2 : (p.plug (Tree.node (.node ll la lc lkv lr) y c ykv
              (.node (.node rll rb rcb rkb rlr) ra rc rkv rr))).height ≤
              (p.plug (Tree.node (.node ll la lc lkv lr) z c kv
              (.node (.node rll rb rcb rkb rlr) ra rc rkv rr))).height :=
            Path.plug_height_mono p (le_of_eq rfl)
          have h3 : 1 ≤ (Tree.node (.node rll rb rcb rkb rlr) ra rc rkv rr).minNode.height := by
            rw [hY]; simp [Tree.height]
          omega
        · rw [Tree.minCtx_plug_delMin _ _ hY, Path.plug_right]
          refine Path.plug_size_mono p ?_
          have := Tree.delMin_size_le (Tree.node (.node rll rb rcb rkb rlr) ra rc rkv rr)
          have e : ∀ (a b : Tree K V) (x x' : Nat) (k k' : K × V),
              (Tree.node a x c k b).size = (Tree.node a x' c k' b).size := fun _ _ _ _ _ _ => rfl
          simp only [Tree.size] at this ⊢
          omega

end EraseSpec

section EraseTail

variable {K V : Type}

/-- Without its assertions `erase_rebalance_checked` is `erase_rebalance`. -/
theorem erase_rebalance_checked_false [LinearOrder K] (fuel hdr : Nat) (m : Mem K V)
    (x parent : Ptr) :
    erase_rebalance_checked false fuel hdr m x parent = erase_rebalance fuel hdr m x parent := by
  simp only [erase_rebalance_checked, erase_rebalance, erase_rebalance_loop_checked_false]

/-- Without its assertions `erase_checked` is `erase`. -/
theorem erase_checked_false [LinearOrder K] (fuel : Nat) (m : Mem K V) (t : RedBlackTree)
    (z : Ptr) : erase_checked false fuel m t z = erase fuel m t z := by
  rw [erase_eq_detach]
  simp only [erase_checked, erase_rebalance_checked_false]

/-- The function `erase_rebalance`, started at the root `x` of a subtree whose black height
is one less than its context expects: with a budget above the depth of `x` it returns, and
the memory then holds a tree on the same nodes. -/
theorem erase_rebalance_spec [LinearOrder K] {m : Mem K V} {hdr : Nat} {p : Path K V}
    {t : Tree K V} (hz : ZRep m hdr p t) (htb : t.balanced) (hbh : p.okBH (t.bh + 1))
    (hrr : p.noRR) :
    ∃ m' T, (∀ chk fuel, p.depth < fuel →
        erase_rebalance_checked chk fuel hdr m t.ptr (p.par hdr) = .ok m') ∧
      Holds m' hdr T ∧ T.addrs = (p.plug t).addrs ∧ m'.next = m.next := by
  obtain ⟨m1, p', t', hz', e1, had, hn1, -⟩ := erase_loop_spec hdr p m t hz htb hbh hrr
  cases t' with
  | nil =>
    refine ⟨m1, _, fun chk fuel hf => ?_, hz'.toHolds, had, hn1⟩
    simp only [erase_rebalance_checked, e1 chk fuel hf, ok_bind, Tree.ptr_nil, Mem.setColorIf_none]
  | node tl x xc xkv tr =>
    obtain ⟨m2, e2, hz2, hn2, -⟩ := setColor_spec hz' .BLACK
    refine ⟨m2, _, fun chk fuel hf => ?_, hz2.toHolds, ?_, by omega⟩
    · simp only [erase_rebalance_checked, e1 chk fuel hf, ok_bind, Tree.ptr_node, Mem.setColorIf_some, e2]
    · rw [← had]
      exact Path.plug_addrs_congr p' (by simp)

/-- The function `update_min_max_nodes_after_erase` returns on every tree that can be read
through the child links. -/
theorem update_after_erase_spec [LinearOrder K] {m : Mem K V} {t : RedBlackTree}
    {T : Tree K V} (h : LinkHolds m t.header_ T) :
    ∃ m' t', ∀ fuel, T.height < fuel →
      update_min_max_nodes_after_erase fuel m t = .ok (m', t') := by
  have hroot := h.link_read_root
  obtain ⟨⟨hn, hhc, hhp⟩, hls⟩ := h
  cases T with
  | nil =>
    refine ⟨(m.put t.header_ { hn with left := some t.header_ }).put t.header_
        { ({ hn with left := some t.header_ } : Node K V) with right := some t.header_ },
      { t with min_node_ := none, max_node_ := none }, fun fuel _ => ?_⟩
    simp only [Tree.ptr_nil] at hroot
    have hc2 : (m.put t.header_ { hn with left := some t.header_ }).cells t.header_ =
        some { hn with left := some t.header_ } := by simp
    simp only [update_min_max_nodes_after_erase, hroot, ok_bind, if_true,
      Mem.setLeft_of_cell hhc, Mem.setRight_of_cell hc2, pure_eq_ok]
  | node l a c kv r =>
    refine ⟨(m.put t.header_ { hn with left := firstPtr (Tree.node l a c kv r).entries none }).put
        t.header_ { ({ hn with left := firstPtr (Tree.node l a c kv r).entries none } : Node K V)
          with right := lastPtr (Tree.node l a c kv r).entries none },
      { t with min_node_ := firstPtr (Tree.node l a c kv r).entries none,
               max_node_ := lastPtr (Tree.node l a c kv r).entries none }, fun fuel hf => ?_⟩
    have e1 := find_min_spec (Tree.node l a c kv r) hls fuel hf
    have e2 := find_max_spec (Tree.node l a c kv r) hls fuel hf
    have hc2 : ∀ v, (m.put t.header_ { hn with left := v }).cells t.header_ =
        some { hn with left := v } := fun v => by simp
    simp only [Tree.ptr_node] at hroot e1 e2
    simp only [update_min_max_nodes_after_erase, hroot, ok_bind, reduceCtorEq, if_false, e1, e2,
      Mem.setLeft_of_cell hhc, Mem.setRight_of_cell (hc2 _), pure_eq_ok]

theorem Path.plug_ptr_congr (p : Path K V) {t t' : Tree K V} (h : t.ptr = t'.ptr) :
    (p.plug t).ptr = (p.plug t').ptr := by
  induction p generalizing t t' with
  | top => exact h
  | left up a c kv r ih => exact ih rfl
  | right l a c kv up ih => exact ih rfl

/-- The fixup step of `erase` from a `Detached` state: after `delete z` the call of
`erase_rebalance` (made when the removed colour is BLACK) returns with every budget above
the depth of `x`, and the memory then holds, through the child links, a tree on the nodes
that were left. -/
theorem erase_fixup_spec [LinearOrder K] {hdr : Nat} {m1 m2 : Mem K V} {z : Nat}
    {p' : Path K V} {t' : Tree K V} {yc : Color} (hd : Detached hdr m1 z p' t' yc)
    (hfree : m1.free (some z) = .ok m2) :
    ∃ m3 T3, (∀ chk fuel, p'.depth < fuel →
        (if yc = Color.BLACK then erase_rebalance_checked chk fuel hdr m2 t'.ptr (p'.par hdr)
          else pure m2) = .ok m3) ∧
      LinkHolds m3 hdr T3 ∧ T3.addrs = (p'.plug t').addrs ∧ m3.next = m1.next := by
  obtain ⟨m0, hz0, hst, ⟨nz, hzc⟩, hzout, htb, hbh, hrr⟩ := hd
  rw [Mem.free_of_cell hzc] at hfree
  injection hfree with hfree
  have hc2 : ∀ b, m2.cells b = if b = z then none else m1.cells b := by
    intro b; rw [← hfree]
  have hn2 : m2.next = m1.next := by rw [← hfree]
  have hzne : ∀ a ∈ hdr :: (p'.addrs ++ t'.addrs), a ≠ z := fun a ha e => hzout (e ▸ ha)
  rcases hst with rfl | ⟨x0, n, v, hx, hcell0, hcol, hnx, hcells⟩
  · -- the memory holds the tree, parent links included
    have hz2 : ZRep m2 hdr p' t' := hz0.frame (fun a ha => by rw [hc2, if_neg (hzne a ha)])
    rcases Color.black_or_red yc with rfl | rfl
    · obtain ⟨m3, T3, e3, hT3, had, hn3⟩ := erase_rebalance_spec hz2 htb (hbh rfl) hrr
      refine ⟨m3, T3, fun chk fuel hf => ?_, hT3.toLinkHolds, had, by omega⟩
      simp only [if_true, e3 chk fuel hf]
    · refine ⟨m2, _, fun chk fuel _ => ?_, hz2.toHolds.toLinkHolds, rfl, hn2⟩
      simp only [reduceCtorEq, if_false, pure_eq_ok]
  · -- the parent link of the RED node `x` is stale
    cases t' with
    | nil => simp at hx
    | node tl x xc xkv tr =>
      simp only [Tree.ptr_node, Option.some.injEq] at hx
      subst hx
      have hxcell := hz0.2.1.1
      rw [hcell0] at hxcell
      injection hxcell with hxcell
      subst hxcell
      simp only at hcol
      subst hcol
      have hxin : x ∈ hdr :: (p'.addrs ++ (Tree.node tl x .RED xkv tr).addrs) := by simp
      have hxz : x ≠ z := hzne x hxin
      have hhx : hdr ≠ x := by
        intro e
        have := hz0.2.2
        rw [e] at this
        simp at this
      have hx2 : m2.cells x = some ⟨xkv, .RED, v, tl.ptr, tr.ptr⟩ := by
        rw [hc2, if_neg hxz, hcells, if_pos rfl]
      have hother : ∀ b, b ≠ x → b ≠ z → m2.cells b = m0.cells b := by
        intro b hb1 hb2
        rw [hc2, if_neg hb2, hcells, if_neg hb1]
      -- the same memory with the parent link of `x` as the tree has it
      obtain ⟨m0z, hm0z⟩ : ∃ m0z : Mem K V,
          m0z = ⟨fun b => if b = z then none else m0.cells b, m0.next⟩ := ⟨_, rfl⟩
      have hc0 : ∀ b, m0z.cells b = if b = z then none else m0.cells b := by
        intro b; rw [hm0z]
      have hz0z : ZRep m0z hdr p' (.node tl x .RED xkv tr) :=
        hz0.frame (fun a ha => by rw [hc0, if_neg (hzne a ha)])
      have hother' : ∀ b, b ≠ x → m2.cells b = m0z.cells b := by
        intro b hb
        rw [hc2, hc0, hcells, if_neg hb]
      obtain ⟨hn0, hh0, hp0⟩ := hz0z.header
      have hh2 : m2.cells hdr = some hn0 := by
        rw [hother' hdr hhx]; exact hh0
      rcases Color.black_or_red yc with rfl | rfl
      · -- the loop stops at once at the RED `x`, which is then painted BLACK
        obtain ⟨m0c, -, hz0c, -, ha0c⟩ := setColor_spec hz0z .BLACK
        have hroot2 : m2.parent (some hdr) = .ok hn0.parent := Mem.parent_of_cell hh2
        have hxb : m2.isBlack (some x) = .ok false := by
          simp [Mem.isBlack, Mem.color, Mem.read, hx2, Except.map]
        have e3 : m2.setColor (some x) .BLACK =
            .ok (m2.put x ⟨xkv, .BLACK, v, tl.ptr, tr.ptr⟩) := by
          simp [Mem.setColor, Mem.modify, hx2]
        refine ⟨m2.put x ⟨xkv, .BLACK, v, tl.ptr, tr.ptr⟩, p'.plug (.node tl x .BLACK xkv tr),
          fun chk fuel hf => ?_, ⟨⟨hn0, ?_, ?_⟩, ?_⟩, ?_, hn2⟩
        · obtain ⟨fuel, rfl⟩ : ∃ f, fuel = f + 1 := ⟨fuel - 1, by omega⟩
          by_cases hxr : some x = hn0.parent
          · simp only [if_true, erase_rebalance_checked, erase_rebalance_loop_checked, hroot2, ok_bind, hxr,
              pure_eq_ok, Tree.ptr_node]
            rw [← hxr]
            simp only [Mem.setColorIf_some, e3]
          · simp only [if_true, erase_rebalance_checked, erase_rebalance_loop_checked, hroot2, ok_bind, hxr,
              if_false, hxb, Bool.not_false, pure_eq_ok, Tree.ptr_node, Mem.setColorIf_some,
              e3]
        · rw [Mem.put_cells, if_neg hhx, hh2]
        · rw [hp0]
          exact (Path.plug_ptr_congr p' rfl)
        · refine hz0c.toHolds.2.1.toLinkShape.link_keep ?_
          intro a nd hnd
          by_cases hax : a = x
          · subst hax
            exact ⟨⟨xkv, .BLACK, v, tl.ptr, tr.ptr⟩, by rw [Mem.put_cells, if_pos rfl],
              by rw [hz0c.2.1.1] at hnd; injection hnd with hnd; rw [← hnd],
              by rw [hz0c.2.1.1] at hnd; injection hnd with hnd; rw [← hnd],
              by rw [hz0c.2.1.1] at hnd; injection hnd with hnd; rw [← hnd],
              by rw [hz0c.2.1.1] at hnd; injection hnd with hnd; rw [← hnd]⟩
          · rw [ha0c a (by simpa using hax)] at hnd
            exact ⟨nd, by rw [Mem.put_cells, if_neg hax, hother' a hax, hnd], rfl, rfl, rfl,
              rfl⟩
        · exact Path.plug_addrs_congr p' (by simp)
      · refine ⟨m2, p'.plug (.node tl x .RED xkv tr), fun chk fuel _ => ?_, ⟨⟨hn0, hh2, hp0⟩, ?_⟩,
          rfl, hn2⟩
        · simp only [reduceCtorEq, if_false, pure_eq_ok]
        · refine hz0z.toHolds.2.1.toLinkShape.link_keep ?_
          intro a nd hnd
          by_cases hax : a = x
          · subst hax
            exact ⟨⟨xkv, .RED, v, tl.ptr, tr.ptr⟩, hx2,
              by rw [hz0z.2.1.1] at hnd; injection hnd with hnd; rw [← hnd],
              by rw [hz0z.2.1.1] at hnd; injection hnd with hnd; rw [← hnd],
              by rw [hz0z.2.1.1] at hnd; injection hnd with hnd; rw [← hnd],
              by rw [hz0z.2.1.1] at hnd; injection hnd with hnd; rw [← hnd]⟩
          · exact ⟨nd, by rw [hother' a hax, hnd], rfl, rfl, rfl, rfl⟩

end EraseTail

section EraseReturns

variable {K V : Type}

/-- The whole of `erase(z)` on a balanced tree without RED nodes with RED children returns,
for every node `z` and every budget above the number of nodes. -/
theorem erase_checked_returns [LinearOrder K] {m : Mem K V} {t : RedBlackTree} {tr : Tree K V}
    {z : Nat} (h : Holds m t.header_ tr) (hbal : tr.balanced) (hnrr : tr.noRedRed)
    (hz : z ∈ tr.addrs) :
    ∃ m' t', ∀ chk fuel, tr.size < fuel →
      erase_checked chk fuel m t (some z) = .ok (m', t') := by
  have hzh : z ≠ t.header_ := fun e => h.header_not_mem (e ▸ hz)
  obtain ⟨m1, p', t', yc, e1, hdet, hnx, hdepth, hsize⟩ := erase_detach_spec h hbal hnrr hz
  obtain ⟨nz, hzc⟩ := hdet.choose_spec.2.2.1
  have e2 := Mem.free_of_cell hzc
  obtain ⟨m3, T3, e3, hT3, had, hn3⟩ := erase_fixup_spec hdet e2
  obtain ⟨m', tf, e4⟩ := update_after_erase_spec
    (t := { t with size_ := if t.size_ = 0 then 2 ^ 64 - 1 else t.size_ - 1 }) hT3
  refine ⟨m', tf, fun chk fuel hf => ?_⟩
  have hh := tr.height_le_size
  have hT3h : T3.height < fuel := by
    have h1 := T3.height_le_size
    have h2 := T3.addrs_length
    have h3 := (p'.plug t').addrs_length
    rw [had] at h2
    omega
  have hguard : ¬ ((some z : Ptr) = none ∨ (some z : Ptr) = some t.header_) := by
    simp [hzh]
  simp only [erase_checked, hguard, if_false, e1 fuel (by omega), ok_bind, e2,
    e3 chk fuel (by omega), e4 fuel hT3h]

end EraseReturns

/-! ## The specified properties -/

section Properties

variable {K V : Type}

theorem oneElementSet_holds :
    Holds oneElementSet.1 oneElementSet.2.header_ (.node .nil 1 .BLACK (10, 10) .nil) :=
  ⟨⟨⟨default, .BLACK, some 1, some 1, some 1⟩, rfl, rfl⟩, ⟨rfl, trivial, trivial⟩,
    by simp [Path.addrs, Tree.addrs]; decide⟩

theorem oneElementSet_builtUnique : BuiltUnique oneElementSet.1 oneElementSet.2 :=
  BuiltUnique.insert (10, 10) (BuiltUnique.create Mem.empty Mem.empty_valid)
    (r := (some 1, true))
    ⟨2, fun fuel hf => by
      obtain ⟨n, rfl⟩ : ∃ n, fuel = n + 2 := ⟨fuel - 2, by omega⟩
      rfl⟩

theorem oneElementSet_builtEqual : BuiltEqual oneElementSet.1 oneElementSet.2 :=
  BuiltEqual.insert (10, 10) (BuiltEqual.create Mem.empty Mem.empty_valid)
    (r := some 1)
    ⟨2, fun fuel hf => by
      obtain ⟨n, rfl⟩ : ∃ n, fuel = n + 2 := ⟨fuel - 2, by omega⟩
      rfl⟩

theorem oneElementSet_wellFormed :
    WellFormed oneElementSet.1 oneElementSet.2 (.node .nil 1 .BLACK (10, 10) .nil) := by
  obtain ⟨tr, hw, -⟩ := oneElementSet_builtUnique.unique_inv
  obtain rfl := LinkHolds.linkHolds_unique hw.1.toLinkHolds oneElementSet_holds.toLinkHolds
  exact hw

theorem oneElementSet_redBlack :
    (Tree.node .nil 1 .BLACK ((10, 10) : Nat × Nat) .nil).RedBlack :=
  ⟨rfl, by simp [Tree.noRedRed], by simp [Tree.uniformBlack, Tree.blackCounts]⟩

/-- C2, a run on which `erase` breaks the black-height invariant: in the set built by inserting 2, 0, 7, 8, 3, 5 and erasing 2
and 8 every path carries two BLACK nodes; after `erase(find(5))` the tree holds the keys
0 and 3 only and its three paths carry 2, 2 and 1 BLACK nodes. -/
theorem erase_breaks_black_height :
    Returns eraseColourRun (([0, 3, 5, 7], [2, 2, 2, 2, 2]), ([0, 3], [2, 2, 1])) :=
  ⟨20, fun fuel hf => by
    obtain ⟨n, rfl⟩ : ∃ n, fuel = n + 20 := ⟨fuel - 20, by omega⟩
    rfl⟩

/-- C3, a run that leaves the search order: after inserting 10, 5, 30, 20, 40, 25 with `insert_unique`,
erasing 10 and inserting 22 and 23 with `insert_unique`, the in-order key sequence read
through the child links is 22, 23, 25, 20, 25, 30, 40: neither strictly increasing nor
non-decreasing. -/
theorem erase_then_insert_breaks_search_order :
    Returns searchOrderRun [22, 23, 25, 20, 25, 30, 40] :=
  ⟨20, fun fuel hf => by
    obtain ⟨n, rfl⟩ : ∃ n, fuel = n + 20 := ⟨fuel - 20, by omega⟩
    rfl⟩

/-- C4: on a tree built by `insert_unique` calls, `insert_unique((k, v))` of a key that
is not stored returns `(n, true)` for a newly allocated node `n` that holds `(k, v)`,
`size()` grows by one, the nodes already stored keep their order, and the in-order key
sequence is the previous one with `k` inserted at its sorted position. -/
theorem insert_unique_absent_adds_entry [LinearOrder K] [Inhabited K] [Inhabited V]
    {m : Mem K V} {t : RedBlackTree} (hb : BuiltUnique m t) {tr : Tree K V}
    (htr : LinkHolds m t.header_ tr) (k : K) (v : V) (hk : k ∉ tr.keys) :
    ∃ n m' t' tr' l1 l2,
      Returns (fun fuel => insert_unique fuel m t (k, v)) ((some n, true), m', t') ∧
      m.cells n = none ∧ (∃ nd, m'.cells n = some nd ∧ nd.data = (k, v)) ∧
      t'.size = t.size + 1 ∧ LinkHolds m' t'.header_ tr' ∧
      tr.entries = l1 ++ l2 ∧ tr'.entries = l1 ++ (n, (k, v)) :: l2 ∧
      tr'.keys = List.orderedInsert (· ≤ ·) k tr.keys := by
  obtain ⟨tr0, hw, hrb, hs, -⟩ := hb.unique_inv
  obtain rfl := LinkHolds.linkHolds_unique htr hw.1.toLinkHolds
  obtain ⟨m', t', tr', l1, l2, hret, hw', -, hsz, he, he', hl1, hl2, -⟩ :=
    insert_unique_absent_full (v := v) hw hrb.1 (List.Pairwise.imp le_of_lt hs) hk
  refine ⟨m.next, m', t', tr', l1, l2, hret, hw.2.1 _ le_rfl,
    Shape.cell_of_entry hw'.1.2.1 (by rw [he']; simp), hsz, hw'.1.toLinkHolds, he, he', ?_⟩
  rw [Tree.keys_eq_entries, Tree.keys_eq_entries, he, he']
  simp only [List.map_append, List.map_cons]
  refine (orderedInsert_middle k _ _ ?_ ?_).symm
  · intro x hx
    obtain ⟨y, hy, rfl⟩ := List.mem_map.1 hx
    exact hl1 y hy
  · intro x hx
    obtain ⟨y, hy, rfl⟩ := List.mem_map.1 hx
    exact le_of_lt (hl2 y hy)

theorem insert_unique_absent_adds_entry_witness :
    BuiltUnique oneElementSet.1 oneElementSet.2 ∧
    LinkHolds oneElementSet.1 oneElementSet.2.header_ (.node .nil 1 .BLACK (10, 10) .nil) ∧
    20 ∉ (Tree.node .nil 1 .BLACK ((10, 10) : Nat × Nat) .nil).keys ∧
    ∃ n m' t' tr' l1 l2,
      Returns (fun fuel => insert_unique fuel oneElementSet.1 oneElementSet.2 (20, 20))
        ((some n, true), m', t') ∧
      oneElementSet.1.cells n = none ∧ (∃ nd, m'.cells n = some nd ∧ nd.data = (20, 20)) ∧
      t'.size = oneElementSet.2.size + 1 ∧ LinkHolds m' t'.header_ tr' ∧
      (Tree.node .nil 1 .BLACK ((10, 10) : Nat × Nat) .nil).entries = l1 ++ l2 ∧
      tr'.entries = l1 ++ (n, (20, 20)) :: l2 ∧
      tr'.keys = List.orderedInsert (· ≤ ·) 20
        (Tree.node .nil 1 .BLACK ((10, 10) : Nat × Nat) .nil).keys :=
  ⟨oneElementSet_builtUnique, oneElementSet_holds.toLinkHolds, by simp [Tree.keys, Tree.toList],
    insert_unique_absent_adds_entry oneElementSet_builtUnique oneElementSet_holds.toLinkHolds
      20 20 (by simp [Tree.keys, Tree.toList])⟩

/-- Scenario A of the specification: inserting 20, 10, 30, 35, 5 into a fresh set gives the
in-order keys 5, 10, 20, 30, 35, `size()` 5 and a BLACK root. -/
theorem scenarioA_result : Returns scenarioA ([5, 10, 20, 30, 35], 5, true) :=
  ⟨20, fun fuel hf => by
    obtain ⟨n, rfl⟩ : ∃ n, fuel = n + 20 := ⟨fuel - 20, by omega⟩
    rfl⟩

/-- C5, counterexample to the statement over every tree: the set built by inserting 10, 5, 30, 20, 40, 25, erasing 10
and inserting 22 and 23 stores the key 22 (in-order keys 22, 23, 25, 20, 25, 30, 40,
`size()` 7), yet `insert_unique((22, 22))` reports an insertion and `size()` becomes 8. -/
theorem insert_unique_stored_key_inserts_again :
    Returns insertStoredRun (([22, 23, 25, 20, 25, 30, 40], 7), (true, 8)) :=
  ⟨20, fun fuel hf => by
    obtain ⟨n, rfl⟩ : ∃ n, fuel = n + 20 := ⟨fuel - 20, by omega⟩
    rfl⟩

/-- C5, restricted to search-ordered trees: on a tree whose in-order key sequence is
non-decreasing,
`insert_unique((k, v))` of a stored key returns `(n, false)` for a node `n` of the tree
that holds the key `k`, and leaves the memory (every link, colour and payload) and the
tree object (`size()` and the cached pointers) as they were. -/
theorem insert_unique_stored_is_noop [LinearOrder K] {m : Mem K V} {t : RedBlackTree}
    {tr : Tree K V} (htr : LinkHolds m t.header_ tr) (hs : tr.keys.Sorted (· ≤ ·))
    (k : K) (v : V) (hk : k ∈ tr.keys) :
    ∃ n nd, n ∈ tr.addrs ∧ m.cells n = some nd ∧ nd.data.1 = k ∧
      Returns (fun fuel => insert_unique fuel m t (k, v)) ((some n, false), m, t) := by
  obtain ⟨a, nd, ha, hnd, hndk, hres⟩ := insert_unique_found htr hs hk v
  exact ⟨a, nd, ha, hnd, hndk, Returns.of_forall _ hres⟩

theorem insert_unique_stored_is_noop_witness :
    LinkHolds oneElementSet.1 oneElementSet.2.header_ (.node .nil 1 .BLACK (10, 10) .nil) ∧
    (Tree.node .nil 1 .BLACK ((10, 10) : Nat × Nat) .nil).keys.Sorted (· ≤ ·) ∧
    10 ∈ (Tree.node .nil 1 .BLACK ((10, 10) : Nat × Nat) .nil).keys ∧
    ∃ n nd, n ∈ (Tree.node .nil 1 .BLACK ((10, 10) : Nat × Nat) .nil).addrs ∧
      oneElementSet.1.cells n = some nd ∧ nd.data.1 = 10 ∧
      Returns (fun fuel => insert_unique fuel oneElementSet.1 oneElementSet.2 (10, 99))
        ((some n, false), oneElementSet.1, oneElementSet.2) :=
  ⟨oneElementSet_holds.toLinkHolds, by simp [Tree.keys, Tree.toList],
    by simp [Tree.keys, Tree.toList],
    insert_unique_stored_is_noop oneElementSet_holds.toLinkHolds
      (by simp [Tree.keys, Tree.toList]) 10 99 (by simp [Tree.keys, Tree.toList])⟩

/-- C6: on a tree built by `insert_equal` calls, `insert_equal((k, v))` returns a newly
allocated node `n` that holds `(k, v)`, `size()` grows by one, the nodes already stored
keep their order, and in the in-order sequence the new node comes after every stored
node whose key is at most `k` (those with an equivalent key included) and before every
node with a greater key. -/
theorem insert_equal_after_equal_keys [LinearOrder K] [Inhabited K] [Inhabited V]
    {m : Mem K V} {t : RedBlackTree} (hb : BuiltEqual m t) {tr : Tree K V}
    (htr : LinkHolds m t.header_ tr) (k : K) (v : V) :
    ∃ n m' t' tr' l1 l2,
      Returns (fun fuel => insert_equal fuel m t (k, v)) (some n, m', t') ∧
      m.cells n = none ∧ (∃ nd, m'.cells n = some nd ∧ nd.data = (k, v)) ∧
      t'.size = t.size + 1 ∧ LinkHolds m' t'.header_ tr' ∧
      tr.entries = l1 ++ l2 ∧ tr'.entries = l1 ++ (n, (k, v)) :: l2 ∧
      (∀ x ∈ l1, x.2.1 ≤ k) ∧ (∀ x ∈ l2, k < x.2.1) := by
  obtain ⟨tr0, hw, hrb, hs, -⟩ := hb.equal_inv
  obtain rfl := LinkHolds.linkHolds_unique htr hw.1.toLinkHolds
  obtain ⟨m', t', tr', l1, l2, hret, hw', -, hsz, he, he', hl1, hl2, -⟩ :=
    insert_equal_full (k := k) (v := v) hw hrb.1 hs
  exact ⟨m.next, m', t', tr', l1, l2, hret, hw.2.1 _ le_rfl,
    Shape.cell_of_entry hw'.1.2.1 (by rw [he']; simp), hsz, hw'.1.toLinkHolds, he, he', hl1,
    hl2⟩

theorem insert_equal_after_equal_keys_witness :
    BuiltEqual oneElementSet.1 oneElementSet.2 ∧
    LinkHolds oneElementSet.1 oneElementSet.2.header_ (.node .nil 1 .BLACK (10, 10) .nil) ∧
    ∃ n m' t' tr' l1 l2,
      Returns (fun fuel => insert_equal fuel oneElementSet.1 oneElementSet.2 (10, 11))
        (some n, m', t') ∧
      oneElementSet.1.cells n = none ∧ (∃ nd, m'.cells n = some nd ∧ nd.data = (10, 11)) ∧
      t'.size = oneElementSet.2.size + 1 ∧ LinkHolds m' t'.header_ tr' ∧
      (Tree.node .nil 1 .BLACK ((10, 10) : Nat × Nat) .nil).entries = l1 ++ l2 ∧
      tr'.entries = l1 ++ (n, (10, 11)) :: l2 ∧
      (∀ x ∈ l1, x.2.1 ≤ 10) ∧ (∀ x ∈ l2, 10 < x.2.1) :=
  ⟨oneElementSet_builtEqual, oneElementSet_holds.toLinkHolds,
    insert_equal_after_equal_keys oneElementSet_builtEqual oneElementSet_holds.toLinkHolds
      10 11⟩

/-- Scenario B of the specification: inserting 10, 20, 10, 30, 10 into a fresh multiset
gives the in-order keys 10, 10, 10, 20, 30 and `size()` 5, the three nodes with key 10
standing in insertion order (addresses 1, 3, 5 are the first, third and fifth node
allocated after the header). -/
theorem scenarioB_result :
    Returns scenarioB ([(1, 10), (3, 10), (5, 10), (2, 20), (4, 30)], 5) :=
  ⟨20, fun fuel hf => by
    obtain ⟨n, rfl⟩ : ∃ n, fuel = n + 20 := ⟨fuel - 20, by omega⟩
    rfl⟩

/-- C7, a run on which `erase` loses other keys: the set built by inserting 10, 5, 30, 20, 40, 25 and erasing
10 has `size()` 5 and contains 30 and 40; after `erase(find(25))` the size is 4 and
`contains(25)` is false, but `contains(30)` and `contains(40)` are false as well. -/
theorem erase_find_loses_other_keys :
    Returns eraseFindRun ((true, true, 5), (false, false, false, 4)) :=
  ⟨20, fun fuel hf => by
    obtain ⟨n, rfl⟩ : ∃ n, fuel = n + 20 := ⟨fuel - 20, by omega⟩
    rfl⟩

/-- C8, a run on which the round trip changes the content: on the set built by inserting 10, 5, 30, 20, 40, 25, erasing 10
and inserting 22, whose content is 5, 20, 22, 25, 30, 40, `insert_unique((23, 23))`
reports an insertion and `erase` of the returned node leaves the in-order content
22, 25, 20, 22, 25, 30, 40 (with `size()` 6 as before). -/
theorem insert_erase_round_trip_fails :
    Returns roundTripRun
      (([(5, 5), (20, 20), (22, 22), (25, 25), (30, 30), (40, 40)], 6), true,
        ([(22, 22), (25, 25), (20, 20), (22, 22), (25, 25), (30, 30), (40, 40)], 6)) :=
  ⟨20, fun fuel hf => by
    obtain ⟨n, rfl⟩ : ∃ n, fuel = n + 20 := ⟨fuel - 20, by omega⟩
    rfl⟩

/-- C9: on a tree that holds exactly one node (its parent link is the header) and whose
`size_` is 1, erasing that node returns and leaves `size() == 0`,
`empty()` true, a null root, the header's `left` and `right` links pointing at the
header, `begin() == end()`, the node deallocated and the empty tree in memory. -/
theorem erase_sole_element_empties [LinearOrder K] {m : Mem K V} {t : RedBlackTree} {r : Nat}
    {c : Color} {kv : K × V} (h : Holds m t.header_ (.node .nil r c kv .nil))
    (hs : t.size_ = 1) :
    ∃ m' t', Returns (fun fuel => erase fuel m t (some r)) (m', t') ∧
      t'.size = 0 ∧ t'.empty = true ∧ t'.header_ = t.header_ ∧
      m'.parent (some t'.header_) = .ok none ∧
      m'.left (some t'.header_) = .ok (some t'.header_) ∧
      m'.right (some t'.header_) = .ok (some t'.header_) ∧
      t'.begin.eq t'.end = true ∧ m'.cells r = none ∧ Holds m' t'.header_ .nil :=
  erase_sole_spec h hs

theorem erase_sole_element_empties_witness :
    Holds oneElementSet.1 oneElementSet.2.header_ (.node .nil 1 .BLACK (10, 10) .nil) ∧
    oneElementSet.2.size_ = 1 ∧
    ∃ m' t', Returns (fun fuel => erase fuel oneElementSet.1 oneElementSet.2 (some 1))
        (m', t') ∧
      t'.size = 0 ∧ t'.empty = true ∧ t'.header_ = oneElementSet.2.header_ ∧
      m'.parent (some t'.header_) = .ok none ∧
      m'.left (some t'.header_) = .ok (some t'.header_) ∧
      m'.right (some t'.header_) = .ok (some t'.header_) ∧
      t'.begin.eq t'.end = true ∧ m'.cells 1 = none ∧ Holds m' t'.header_ .nil :=
  ⟨oneElementSet_holds, rfl, erase_sole_element_empties oneElementSet_holds rfl⟩

/-- C10: `erase` of a null node, of the header node and of `end().current_` returns with
the memory and the tree object unchanged (so `size()`, content, links and colours are
unchanged), and `erase(end())` on the iterator overload does the same and returns
`end()`; no iteration budget is needed. -/
theorem erase_end_is_noop [LinearOrder K] (fuel : Nat) (m : Mem K V) (t : RedBlackTree) :
    erase fuel m t none = .ok (m, t) ∧
    erase fuel m t (some t.header_) = .ok (m, t) ∧
    erase fuel m t t.end.current_ = .ok (m, t) ∧
    erase_iterator fuel m t t.end = .ok (t.end, m, t) :=
  erase_noop_spec fuel m t

theorem twoElementSet_linkHolds :
    LinkHolds twoElementSet.1 twoElementSet.2.header_
      (.node .nil 1 .BLACK (10, 10) (.node .nil 2 .RED (20, 20) .nil)) :=
  linkHolds_of_treeOf (show treeOf 5 twoElementSet.1 twoElementSet.2 = .ok _ from rfl)

theorem oneElementSet_built : BuiltInsert oneElementSet.1 oneElementSet.2 :=
  BuiltInsert.unique (10, 10) (r := (some 1, true))
    (BuiltInsert.create Mem.empty Mem.empty_valid)
    ⟨2, fun fuel hf => by
      obtain ⟨n, rfl⟩ : ∃ n, fuel = n + 2 := ⟨fuel - 2, by omega⟩
      rfl⟩

theorem twoElementSet_built : BuiltInsert twoElementSet.1 twoElementSet.2 :=
  BuiltInsert.unique (20, 20) (r := (some 2, true)) oneElementSet_built
    ⟨3, fun fuel hf => by
      obtain ⟨n, rfl⟩ : ∃ n, fuel = n + 3 := ⟨fuel - 3, by omega⟩
      rfl⟩

theorem twoElementSet_sorted :
    (Tree.node .nil 1 .BLACK ((10, 10) : Nat × Nat) (.node .nil 2 .RED (20, 20) .nil)).keys.Sorted
      (· < ·) := by
  simp [Tree.keys, Tree.toList]

theorem twoElementSet_sorted_le :
    (Tree.node .nil 1 .BLACK ((10, 10) : Nat × Nat) (.node .nil 2 .RED (20, 20) .nil)).keys.Sorted
      (· ≤ ·) := by
  simp [Tree.keys, Tree.toList]

/-- C11: on a tree whose in-order key sequence is strictly increasing, `find(k)` returns
an iterator at a node of the tree that holds the key `k` when `k` is stored, and `end()`
when it is not; in both cases it returns, and it only reads memory. -/
theorem find_is_exact [LinearOrder K] {m : Mem K V} {t : RedBlackTree} {tr : Tree K V}
    (htr : LinkHolds m t.header_ tr) (hs : tr.keys.Sorted (· < ·)) (k : K) :
    (k ∈ tr.keys → ∃ x, x ∈ tr.entries ∧ x.2.1 = k ∧
      (∃ nd, m.cells x.1 = some nd ∧ nd.data = x.2) ∧
      Returns (fun fuel => find fuel m t k) ⟨some x.1, some t.header_⟩) ∧
    (k ∉ tr.keys → Returns (fun fuel => find fuel m t k) t.end) := by
  obtain ⟨h1, h2⟩ := find_spec htr (List.Pairwise.imp le_of_lt hs) k
  refine ⟨fun hk => ?_, h2⟩
  obtain ⟨x, hx, hxk, hret⟩ := h1 hk
  exact ⟨x, hx, hxk, htr.2.link_cell_of_entry hx, hret⟩

theorem find_is_exact_witness :
    LinkHolds twoElementSet.1 twoElementSet.2.header_
      (.node .nil 1 .BLACK (10, 10) (.node .nil 2 .RED (20, 20) .nil)) ∧
    (Tree.node .nil 1 .BLACK ((10, 10) : Nat × Nat) (.node .nil 2 .RED (20, 20) .nil)).keys.Sorted
      (· < ·) ∧
    ((20 ∈ (Tree.node .nil 1 .BLACK ((10, 10) : Nat × Nat)
        (.node .nil 2 .RED (20, 20) .nil)).keys →
      ∃ x, x ∈ (Tree.node .nil 1 .BLACK ((10, 10) : Nat × Nat)
          (.node .nil 2 .RED (20, 20) .nil)).entries ∧ x.2.1 = 20 ∧
        (∃ nd, twoElementSet.1.cells x.1 = some nd ∧ nd.data = x.2) ∧
        Returns (fun fuel => find fuel twoElementSet.1 twoElementSet.2 20)
          ⟨some x.1, some twoElementSet.2.header_⟩) ∧
     (20 ∉ (Tree.node .nil 1 .BLACK ((10, 10) : Nat × Nat)
        (.node .nil 2 .RED (20, 20) .nil)).keys →
      Returns (fun fuel => find fuel twoElementSet.1 twoElementSet.2 20)
        twoElementSet.2.end)) :=
  ⟨twoElementSet_linkHolds, twoElementSet_sorted,
    find_is_exact twoElementSet_linkHolds twoElementSet_sorted 20⟩

/-- C12: on a tree whose in-order key sequence is non-decreasing, `lower_bound(k)`
returns an iterator at the first node in in-order whose key is not less than `k`: every
node before it has a key less than `k`, no node from it on has; it is the header when
every stored key is less than `k`. -/
theorem lower_bound_is_first_not_less [LinearOrder K] {m : Mem K V} {t : RedBlackTree}
    {tr : Tree K V} (htr : LinkHolds m t.header_ tr) (hs : tr.keys.Sorted (· ≤ ·)) (k : K) :
    ∃ l1 l2, tr.entries = l1 ++ l2 ∧ (∀ x ∈ l1, x.2.1 < k) ∧ (∀ y ∈ l2, ¬ y.2.1 < k) ∧
      Returns (fun fuel => lower_bound fuel m t k)
        ⟨firstPtr l2 (some t.header_), some t.header_⟩ := by
  obtain ⟨l1, l2, he, h1, h2, hres⟩ := lower_bound_loop_spec k m tr htr.2 hs
  refine ⟨l1, l2, he, h1, h2, Returns.of_forall tr.height (fun fuel hf => ?_)⟩
  simp only [lower_bound, htr.link_read_root, ok_bind, hres fuel _ hf, pure_eq_ok]

theorem lower_bound_is_first_not_less_witness :
    LinkHolds twoElementSet.1 twoElementSet.2.header_
      (.node .nil 1 .BLACK (10, 10) (.node .nil 2 .RED (20, 20) .nil)) ∧
    (Tree.node .nil 1 .BLACK ((10, 10) : Nat × Nat) (.node .nil 2 .RED (20, 20) .nil)).keys.Sorted
      (· ≤ ·) ∧
    ∃ l1 l2, (Tree.node .nil 1 .BLACK ((10, 10) : Nat × Nat)
        (.node .nil 2 .RED (20, 20) .nil)).entries = l1 ++ l2 ∧
      (∀ x ∈ l1, x.2.1 < 15) ∧ (∀ y ∈ l2, ¬ y.2.1 < 15) ∧
      Returns (fun fuel => lower_bound fuel twoElementSet.1 twoElementSet.2 15)
        ⟨firstPtr l2 (some twoElementSet.2.header_), some twoElementSet.2.header_⟩ :=
  ⟨twoElementSet_linkHolds, twoElementSet_sorted_le,
    lower_bound_is_first_not_less twoElementSet_linkHolds twoElementSet_sorted_le 15⟩

/-- C13: on a tree whose in-order key sequence is non-decreasing, `upper_bound(k)`
returns an iterator at the first node in in-order whose key is greater than `k`: no node
before it has a key greater than `k`, every node from it on has; it is the header when
no stored key is greater than `k`. -/
theorem upper_bound_is_first_greater [LinearOrder K] {m : Mem K V} {t : RedBlackTree}
    {tr : Tree K V} (htr : LinkHolds m t.header_ tr) (hs : tr.keys.Sorted (· ≤ ·)) (k : K) :
    ∃ l1 l2, tr.entries = l1 ++ l2 ∧ (∀ x ∈ l1, ¬ k < x.2.1) ∧ (∀ y ∈ l2, k < y.2.1) ∧
      Returns (fun fuel => upper_bound fuel m t k)
        ⟨firstPtr l2 (some t.header_), some t.header_⟩ := by
  obtain ⟨l1, l2, he, h1, h2, hres⟩ := upper_bound_loop_spec k m tr htr.2 hs
  refine ⟨l1, l2, he, h1, h2, Returns.of_forall tr.height (fun fuel hf => ?_)⟩
  simp only [upper_bound, htr.link_read_root, ok_bind, hres fuel _ hf, pure_eq_ok]

theorem upper_bound_is_first_greater_witness :
    LinkHolds twoElementSet.1 twoElementSet.2.header_
      (.node .nil 1 .BLACK (10, 10) (.node .nil 2 .RED (20, 20) .nil)) ∧
    (Tree.node .nil 1 .BLACK ((10, 10) : Nat × Nat) (.node .nil 2 .RED (20, 20) .nil)).keys.Sorted
      (· ≤ ·) ∧
    ∃ l1 l2, (Tree.node .nil 1 .BLACK ((10, 10) : Nat × Nat)
        (.node .nil 2 .RED (20, 20) .nil)).entries = l1 ++ l2 ∧
      (∀ x ∈ l1, ¬ 10 < x.2.1) ∧ (∀ y ∈ l2, 10 < y.2.1) ∧
      Returns (fun fuel => upper_bound fuel twoElementSet.1 twoElementSet.2 10)
        ⟨firstPtr l2 (some twoElementSet.2.header_), some twoElementSet.2.header_⟩ :=
  ⟨twoElementSet_linkHolds, twoElementSet_sorted_le,
    upper_bound_is_first_greater twoElementSet_linkHolds twoElementSet_sorted_le 10⟩

/-- C14, a run on which `count` does not return: on the multiset built by `insert(10)`,
`count(10)` ends out of budget for every iteration budget, because `++` applied to the
only node yields that node again and never `upper_bound(10)`, which is `end()`. -/
theorem count_never_returns : ∀ fuel, countRun fuel = .error .outOfFuel := by
  have hloop : ∀ inner f, distance inner f oneElementSet.1 (⟨some 1, some 0⟩ : MapIterator)
      ⟨some 0, some 0⟩ = .error .outOfFuel := by
    intro inner f
    induction f with
    | zero => rfl
    | succ f ih =>
      have hinc : MapIterator.increment inner oneElementSet.1 (⟨some 1, some 0⟩ : MapIterator) =
          .ok ⟨some 1, some 0⟩ ∨
          MapIterator.increment inner oneElementSet.1 (⟨some 1, some 0⟩ : MapIterator) =
          .error .outOfFuel := by
        rcases inner with _ | _ | n
        · exact Or.inr rfl
        · exact Or.inr rfl
        · exact Or.inl rfl
      rcases hinc with h | h
      · simp only [distance, MapIterator.eq]
        rw [h]
        simp only [decide_False, Bool.false_eq_true, if_false, ok_bind, ih,
          show ((some 1 : Ptr) = some 0) = False by simp]
        rfl
      · simp only [distance, MapIterator.eq]
        rw [h]
        rfl
  intro fuel
  rcases fuel with _ | _ | n
  · rfl
  · rfl
  · have h1 : multiset_insert_all (n + 2) [10] freshSet = .ok oneElementSet := rfl
    have h2 : lower_bound (n + 2) oneElementSet.1 oneElementSet.2 10 = .ok ⟨some 1, some 0⟩ := rfl
    have h3 : upper_bound (n + 2) oneElementSet.1 oneElementSet.2 10 = .ok ⟨some 0, some 0⟩ := rfl
    simp only [countRun, h1, ok_bind, multiset_count, h2, h3, hloop]

/-- Scenario D of the specification: in the multiset built from 10, 20, 30, 20, 20 the
in-order nodes are 10, 20, 20, 20, 30 (addresses 1, 2, 4, 5, 3), `lower_bound(20)` is the
first 20, `upper_bound(20)` is the node 30, and `count(20)` returns 3. -/
theorem scenarioD_result :
    Returns scenarioD ([(1, 10), (2, 20), (4, 20), (5, 20), (3, 30)], some 2, some 3, 3) :=
  ⟨20, fun fuel hf => by
    obtain ⟨n, rfl⟩ : ∃ n, fuel = n + 20 := ⟨fuel - 20, by omega⟩
    rfl⟩

/-- C15: on a tree built by `insert_unique` and `insert_equal` calls, `++` applied to an
iterator at a node that is not the last one in in-order returns and positions it at the
node that immediately follows in the in-order sequence. -/
theorem increment_is_successor [LinearOrder K] [Inhabited K] [Inhabited V] {m : Mem K V}
    {t : RedBlackTree} (hb : BuiltInsert m t) {tr : Tree K V}
    (htr : LinkHolds m t.header_ tr) {l1 l2 : List (Nat × (K × V))} {x y : Nat × (K × V)}
    (he : tr.entries = l1 ++ x :: y :: l2) :
    Returns (fun fuel => MapIterator.increment fuel m ⟨some x.1, some t.header_⟩)
      ⟨some y.1, some t.header_⟩ := by
  obtain ⟨tr0, hw, -⟩ := hb.insert_inv
  obtain rfl := LinkHolds.linkHolds_unique htr hw.1.toLinkHolds
  exact Returns.of_forall tr.size (increment_spec hw.1 he _)

theorem increment_is_successor_witness :
    BuiltInsert twoElementSet.1 twoElementSet.2 ∧
    LinkHolds twoElementSet.1 twoElementSet.2.header_
      (.node .nil 1 .BLACK (10, 10) (.node .nil 2 .RED (20, 20) .nil)) ∧
    (Tree.node .nil 1 .BLACK ((10, 10) : Nat × Nat) (.node .nil 2 .RED (20, 20) .nil)).entries =
      [] ++ (1, (10, 10)) :: (2, (20, 20)) :: [] ∧
    Returns (fun fuel => MapIterator.increment fuel twoElementSet.1
        ⟨some 1, some twoElementSet.2.header_⟩) ⟨some 2, some twoElementSet.2.header_⟩ :=
  ⟨twoElementSet_built, twoElementSet_linkHolds, rfl,
    increment_is_successor twoElementSet_built twoElementSet_linkHolds
      (show (Tree.node .nil 1 .BLACK ((10, 10) : Nat × Nat)
        (.node .nil 2 .RED (20, 20) .nil)).entries =
        [] ++ (1, (10, 10)) :: (2, (20, 20)) :: [] from rfl)⟩

/-- C16, a run on which `++` at the last node does not yield `end()`: in the set built by
`insert(10)`, `begin()` is the node at address 1, `end()` is the header at address 0,
`size()` is 1, and `++begin()` is the node at address 1 again. -/
theorem increment_last_misses_end : Returns incrementLastRun (some 1, some 1, some 0, 1) :=
  ⟨20, fun fuel hf => by
    obtain ⟨n, rfl⟩ : ∃ n, fuel = n + 20 := ⟨fuel - 20, by omega⟩
    rfl⟩

/-- C17, a run on which `--end()` is not the last node: in the multiset built by
`insert(10)`, `insert(10)` the in-order nodes are those at addresses 1 and 2, `--end()`
is the node at address 1, which is also `begin()`, so the backward traversal visits one
element. -/
theorem decrement_end_misses_last :
    Returns decrementEndRun ([(1, 10), (2, 10)], some 1, some 1) :=
  ⟨20, fun fuel hf => by
    obtain ⟨n, rfl⟩ : ∃ n, fuel = n + 20 := ⟨fuel - 20, by omega⟩
    rfl⟩

/-- C18, a run that leaves the maximum cache stale: in the multiset built by
`insert(10)`, `insert(10)` the rightmost node reachable from the root is the node at
address 2, while `max_node_` and `header_->right` are the node at address 1. -/
theorem insert_equal_leaves_max_cache_stale :
    Returns maxCacheRun (some 2, some 1, some 1) :=
  ⟨20, fun fuel hf => by
    obtain ⟨n, rfl⟩ : ∃ n, fuel = n + 20 := ⟨fuel - 20, by omega⟩
    rfl⟩

/-- C19, a run on which `erase` breaks another iterator: after inserting
10, 5, 30, 20, 40, 25 and erasing 10 the in-order keys are 5, 20, 25, 30, 40, and `++`
applied to the iterator at the node holding 25 lands on the node holding 20. -/
theorem increment_after_erase_goes_back :
    Returns incrementAfterEraseRun ([5, 20, 25, 30, 40], 25, 20) :=
  ⟨20, fun fuel hf => by
    obtain ⟨n, rfl⟩ : ∃ n, fuel = n + 20 := ⟨fuel - 20, by omega⟩
    rfl⟩

/-- Scenario E of the specification: a set built from 10, 20, 30 is copied and 40 is
inserted into the copy; the copy then has size 4 and content 10, 20, 30, 40, the original
still has size 3 and content 10, 20, 30. -/
theorem scenarioE_result :
    Returns scenarioE ((3, [10, 20, 30]), (4, [10, 20, 30, 40]), (3, [10, 20, 30])) :=
  ⟨20, fun fuel hf => by
    obtain ⟨n, rfl⟩ : ∃ n, fuel = n + 20 := ⟨fuel - 20, by omega⟩
    rfl⟩

theorem twoElementSet_wellFormed :
    WellFormed twoElementSet.1 twoElementSet.2
      (.node .nil 1 .BLACK (10, 10) (.node .nil 2 .RED (20, 20) .nil)) := by
  obtain ⟨tr, hw, -⟩ := twoElementSet_built.insert_inv
  obtain rfl := LinkHolds.linkHolds_unique hw.1.toLinkHolds twoElementSet_linkHolds
  exact hw

theorem twoElementSet_valid : twoElementSet.1.Valid := twoElementSet_wellFormed.2.1

/-- C21: move construction from a tree read through its child links, in a memory with a
sound allocator, gives the new tree `u` the header of `t` with `t`'s size and the very
nodes of `t` (so the same in-order sequence), the root's parent link pointing at that
header, and leaves `t` with a header of its own, size 0, a null root, `header.left` and
`header.right` equal to that header, and `begin() == end()`. -/
theorem move_transfers_content_and_empties_source [LinearOrder K] [Inhabited K] [Inhabited V]
    {m : Mem K V} {t : RedBlackTree} {tr : Tree K V} (htr : LinkHolds m t.header_ tr)
    (hv : m.Valid) :
    ∃ m' u t', RedBlackTree.move m t = .ok (m', u, t') ∧
      u.size = t.size ∧ u.header_ = t.header_ ∧ LinkHolds m' u.header_ tr ∧
      (∀ r, tr.ptr = some r → m'.parent (some r) = .ok (some u.header_)) ∧
      t'.header_ ≠ u.header_ ∧ t'.size = 0 ∧ t'.empty = true ∧
      m'.parent (some t'.header_) = .ok none ∧
      m'.left (some t'.header_) = .ok (some t'.header_) ∧
      m'.right (some t'.header_) = .ok (some t'.header_) ∧
      t'.begin.eq t'.end = true := by
  obtain ⟨m', e, hl, -, -, hroot, hnew, -⟩ := move_spec htr hv
  have hlt := htr.header_lt hv
  refine ⟨m', _, _, e, rfl, rfl, hl, ?_, ?_, rfl, rfl, ?_, ?_, ?_,
    by simp [RedBlackTree.begin, RedBlackTree.end, MapIterator.eq]⟩
  · intro r hr
    obtain ⟨nd, hc, hp⟩ := hroot r hr
    rw [Mem.parent_of_cell hc, hp]
  · show m.next ≠ t.header_
    omega
  · exact Mem.parent_of_cell hnew
  · exact Mem.left_of_cell hnew
  · exact Mem.right_of_cell hnew

theorem move_transfers_content_and_empties_source_witness :
    LinkHolds twoElementSet.1 twoElementSet.2.header_
      (.node .nil 1 .BLACK (10, 10) (.node .nil 2 .RED (20, 20) .nil)) ∧
    twoElementSet.1.Valid ∧
    ∃ m' u t', RedBlackTree.move twoElementSet.1 twoElementSet.2 = .ok (m', u, t') ∧
      u.size = twoElementSet.2.size ∧ u.header_ = twoElementSet.2.header_ ∧
      LinkHolds m' u.header_ (.node .nil 1 .BLACK (10, 10) (.node .nil 2 .RED (20, 20) .nil)) ∧
      (∀ r, (Tree.node .nil 1 .BLACK ((10, 10) : Nat × Nat)
          (.node .nil 2 .RED (20, 20) .nil)).ptr = some r →
        m'.parent (some r) = .ok (some u.header_)) ∧
      t'.header_ ≠ u.header_ ∧ t'.size = 0 ∧ t'.empty = true ∧
      m'.parent (some t'.header_) = .ok none ∧
      m'.left (some t'.header_) = .ok (some t'.header_) ∧
      m'.right (some t'.header_) = .ok (some t'.header_) ∧
      t'.begin.eq t'.end = true :=
  ⟨twoElementSet_linkHolds, twoElementSet_valid,
    move_transfers_content_and_empties_source twoElementSet_linkHolds twoElementSet_valid⟩

theorem twoTrees_linkHolds_set :
    LinkHolds twoTrees.1 twoTrees.2.1.header_ (.node .nil 1 .BLACK (10, 10) .nil) :=
  linkHolds_of_treeOf (show treeOf 5 twoTrees.1 twoTrees.2.1 = .ok _ from rfl)

theorem twoTrees_linkHolds_empty : LinkHolds twoTrees.1 twoTrees.2.2.header_ .nil :=
  linkHolds_of_treeOf (show treeOf 5 twoTrees.1 twoTrees.2.2 = .ok _ from rfl)

theorem twoTrees_separate :
    twoTrees.2.1.header_ ≠ twoTrees.2.2.header_ →
      twoTrees.2.1.header_ ∉ (Tree.nil : Tree Nat Nat).addrs ∧
      twoTrees.2.2.header_ ∉ (Tree.node .nil 1 .BLACK ((10, 10) : Nat × Nat) .nil).addrs ∧
      ((Tree.node .nil 1 .BLACK ((10, 10) : Nat × Nat) .nil).ptr = (Tree.nil : Tree Nat Nat).ptr →
        (Tree.node .nil 1 .BLACK ((10, 10) : Nat × Nat) .nil).ptr = none) := by
  intro _
  refine ⟨by simp, ?_, by simp⟩
  simp only [Tree.addrs_node, Tree.addrs_nil, List.nil_append, List.mem_singleton]
  decide

/-- C22: for two trees read through their child links, where two different tree objects
share neither a header nor a root, `a.swap(b)` gives `a` the header, size, nodes (so the
in-order sequence) and min/max caches of `b` and gives `b` those of `a`; afterwards the
parent link of each root points at the header of the tree it now belongs to; and a second
`swap` gives back the two tree objects and changes no memory. -/
theorem swap_exchanges_trees [LinearOrder K] {m : Mem K V} {a b : RedBlackTree}
    {tra trb : Tree K V} (ha : LinkHolds m a.header_ tra) (hb : LinkHolds m b.header_ trb)
    (hsep : a.header_ ≠ b.header_ → a.header_ ∉ trb.addrs ∧ b.header_ ∉ tra.addrs ∧
      (tra.ptr = trb.ptr → tra.ptr = none)) :
    ∃ m' a' b', swap m a b = .ok (m', a', b') ∧
      a'.size = b.size ∧ LinkHolds m' a'.header_ trb ∧
      a'.min_node_ = b.min_node_ ∧ a'.max_node_ = b.max_node_ ∧
      m'.left (some a'.header_) = m.left (some b.header_) ∧
      m'.right (some a'.header_) = m.right (some b.header_) ∧
      b'.size = a.size ∧ LinkHolds m' b'.header_ tra ∧
      b'.min_node_ = a.min_node_ ∧ b'.max_node_ = a.max_node_ ∧
      m'.left (some b'.header_) = m.left (some a.header_) ∧
      m'.right (some b'.header_) = m.right (some a.header_) ∧
      (∀ r, trb.ptr = some r → m'.parent (some r) = .ok (some a'.header_)) ∧
      (∀ r, tra.ptr = some r → m'.parent (some r) = .ok (some b'.header_)) ∧
      swap m' a' b' = .ok (m', a, b) := by
  obtain ⟨m', e, hb', ha', hrb, hra, hkeep, -, e2⟩ := swap_spec ha hb hsep
  have hcache : ∀ h hn, m.cells h = some hn →
      m'.left (some h) = m.left (some h) ∧ m'.right (some h) = m.right (some h) := by
    intro h hn hc
    obtain ⟨nd', hc', -, -, hl, hr⟩ := hkeep h hn hc
    rw [Mem.left_of_cell hc', Mem.left_of_cell hc, Mem.right_of_cell hc', Mem.right_of_cell hc,
      hl, hr]
    exact ⟨rfl, rfl⟩
  obtain ⟨⟨hna, hca, -⟩, -⟩ := ha
  obtain ⟨⟨hnb, hcb, -⟩, -⟩ := hb
  refine ⟨m', _, _, e, rfl, hb', rfl, rfl, (hcache _ _ hcb).1, (hcache _ _ hcb).2, rfl, ha',
    rfl, rfl, (hcache _ _ hca).1, (hcache _ _ hca).2, ?_, ?_, e2⟩
  · intro r hr
    obtain ⟨nd, hc, hp⟩ := hrb r hr
    rw [Mem.parent_of_cell hc, hp]
  · intro r hr
    obtain ⟨nd, hc, hp⟩ := hra r hr
    rw [Mem.parent_of_cell hc, hp]

theorem swap_exchanges_trees_witness :
    LinkHolds twoTrees.1 twoTrees.2.1.header_ (.node .nil 1 .BLACK (10, 10) .nil) ∧
    LinkHolds twoTrees.1 twoTrees.2.2.header_ .nil ∧
    ∃ m' a' b', swap twoTrees.1 twoTrees.2.1 twoTrees.2.2 = .ok (m', a', b') ∧
      a'.size = twoTrees.2.2.size ∧ LinkHolds m' a'.header_ .nil ∧
      a'.min_node_ = twoTrees.2.2.min_node_ ∧ a'.max_node_ = twoTrees.2.2.max_node_ ∧
      m'.left (some a'.header_) = twoTrees.1.left (some twoTrees.2.2.header_) ∧
      m'.right (some a'.header_) = twoTrees.1.right (some twoTrees.2.2.header_) ∧
      b'.size = twoTrees.2.1.size ∧
      LinkHolds m' b'.header_ (.node .nil 1 .BLACK (10, 10) .nil) ∧
      b'.min_node_ = twoTrees.2.1.min_node_ ∧ b'.max_node_ = twoTrees.2.1.max_node_ ∧
      m'.left (some b'.header_) = twoTrees.1.left (some twoTrees.2.1.header_) ∧
      m'.right (some b'.header_) = twoTrees.1.right (some twoTrees.2.1.header_) ∧
      (∀ r, (Tree.nil : Tree Nat Nat).ptr = some r → m'.parent (some r) = .ok (some a'.header_)) ∧
      (∀ r, (Tree.node .nil 1 .BLACK ((10, 10) : Nat × Nat) .nil).ptr = some r →
        m'.parent (some r) = .ok (some b'.header_)) ∧
      swap m' a' b' = .ok (m', twoTrees.2.1, twoTrees.2.2) :=
  ⟨twoTrees_linkHolds_set, twoTrees_linkHolds_empty,
    swap_exchanges_trees twoTrees_linkHolds_set twoTrees_linkHolds_empty twoTrees_separate⟩

/-- C23, on trees whose child links reach every node once and never the header (in a
memory with a sound allocator): `clear()` returns and leaves size 0, `empty()` true, a
null root and `begin() == end()`; and every sequence of `insert_unique` and `insert_equal`
calls run on the cleared tree returns and gives the same `size()`, the same in-order
sequence, the same answer to `begin() == end()` and the same `*begin()` as the same calls
run on a freshly constructed tree (in any memory with a sound allocator). -/
theorem clear_empties_and_leaves_reusable [LinearOrder K] [Inhabited K] [Inhabited V]
    {m : Mem K V} {t : RedBlackTree} {tr : Tree K V} (hl : LinkHolds m t.header_ tr)
    (hnd : (t.header_ :: tr.addrs).Nodup) (hv : m.Valid) :
    ∃ m' t', Returns (fun fuel => clear fuel m t) (m', t') ∧
      t'.size = 0 ∧ t'.empty = true ∧ m'.parent (some t'.header_) = .ok none ∧
      t'.begin.eq t'.end = true ∧
      ∀ (calls : List (InsertCall K V)) (m0 : Mem K V), m0.Valid →
        ∃ mc tc trc mf tf trf,
          Returns (fun fuel => insert_calls fuel calls (m', t')) (mc, tc) ∧
          Returns (fun fuel => insert_calls fuel calls (RedBlackTree.create m0)) (mf, tf) ∧
          LinkHolds mc tc.header_ trc ∧ LinkHolds mf tf.header_ trf ∧
          tc.size = tf.size ∧ trc.toList = trf.toList ∧
          tc.begin.eq tc.end = tf.begin.eq tf.end ∧
          (∀ kv, trf.toList.head? = some kv →
            tc.begin.deref mc = .ok kv ∧ tf.begin.deref mf = .ok kv) := by
  obtain ⟨m', hret, hw', -, ⟨hn, hc, hp, -, -⟩, -, -⟩ := clear_spec hl hnd hv
  refine ⟨m', _, hret, rfl, rfl, by rw [Mem.parent_of_cell hc, hp],
    by simp [RedBlackTree.begin, RedBlackTree.end, MapIterator.eq], ?_⟩
  intro calls m0 hv0
  have hic : InsertInv m' ⟨t.header_, 0, none, none⟩ (.nil : Tree K V) :=
    ⟨hw', Tree.redBlack_nil, by simp [Tree.keys, Tree.toList], rfl, rfl⟩
  obtain ⟨mc, tc, trc, hrc, hinvc, hlc, -⟩ := insert_calls_spec calls hic
  obtain ⟨mf, tf, trf, hrf, hinvf, hlf, -⟩ := insert_calls_spec calls (create_insertInv m0 hv0)
  have hlist : trc.toList = trf.toList := by rw [hlc, hlf]
  obtain ⟨-, hbc, hdc⟩ := hinvc.begin_spec
  obtain ⟨-, hbf, hdf⟩ := hinvf.begin_spec
  refine ⟨mc, tc, trc, mf, tf, trf, hrc, hrf, hinvc.1.1.toLinkHolds, hinvf.1.1.toLinkHolds, ?_,
    hlist, by rw [hbc, hbf, hlist], fun kv hkv => ⟨hdc kv (by rw [hlist]; exact hkv), hdf kv hkv⟩⟩
  show tc.size_ = tf.size_
  rw [hinvc.2.2.2.1, hinvf.2.2.2.1, Tree.size_eq_length, Tree.size_eq_length, hlist]

theorem clear_empties_and_leaves_reusable_witness :
    LinkHolds twoElementSet.1 twoElementSet.2.header_
      (.node .nil 1 .BLACK (10, 10) (.node .nil 2 .RED (20, 20) .nil)) ∧
    (twoElementSet.2.header_ :: (Tree.node .nil 1 .BLACK ((10, 10) : Nat × Nat)
      (.node .nil 2 .RED (20, 20) .nil)).addrs).Nodup ∧
    twoElementSet.1.Valid ∧
    ∃ m' t', Returns (fun fuel => clear fuel twoElementSet.1 twoElementSet.2) (m', t') ∧
      t'.size = 0 ∧ t'.empty = true ∧ m'.parent (some t'.header_) = .ok none ∧
      t'.begin.eq t'.end = true ∧
      ∀ (calls : List (InsertCall Nat Nat)) (m0 : Mem Nat Nat), m0.Valid →
        ∃ mc tc trc mf tf trf,
          Returns (fun fuel => insert_calls fuel calls (m', t')) (mc, tc) ∧
          Returns (fun fuel => insert_calls fuel calls (RedBlackTree.create m0)) (mf, tf) ∧
          LinkHolds mc tc.header_ trc ∧ LinkHolds mf tf.header_ trf ∧
          tc.size = tf.size ∧ trc.toList = trf.toList ∧
          tc.begin.eq tc.end = tf.begin.eq tf.end ∧
          (∀ kv, trf.toList.head? = some kv →
            tc.begin.deref mc = .ok kv ∧ tf.begin.deref mf = .ok kv) :=
  ⟨twoElementSet_linkHolds, by decide, twoElementSet_valid,
    clear_empties_and_leaves_reusable twoElementSet_linkHolds (by decide) twoElementSet_valid⟩

/-- C24, a map on which `at` fails for a stored key: in the map built by inserting the
keys 10, 5, 30, 20, 40, 25, erasing 10 and inserting 22 and 23, the entry (22, 220) is
stored, yet `at(22)` raises `out_of_range`. -/
theorem at_misses_stored_key_after_erase :
    Returns atAfterEraseRun
      ([(22, 220), (23, 230), (25, 250), (20, 200), (25, 250), (30, 300), (40, 400)],
        .error .out_of_range) :=
  ⟨30, fun fuel hf => by
    obtain ⟨n, rfl⟩ : ∃ n, fuel = n + 30 := ⟨fuel - 30, by omega⟩
    rfl⟩

/-- C24, on search-ordered maps: when the tree read through the child links has strictly
increasing keys and its header is not one of its nodes, `at(k)` raises `out_of_range`
exactly when no entry with key `k` is stored, and returns `v` exactly when the entry
`(k, v)` is stored; `at` only reads, so the map is as before. -/
theorem at_fails_exactly_on_missing_key [LinearOrder K] {m : Mem K V} {t : RedBlackTree}
    {tr : Tree K V} (htr : LinkHolds m t.header_ tr) (hs : tr.keys.Sorted (· < ·))
    (hh : t.header_ ∉ tr.addrs) (k : K) :
    (Returns (fun fuel => map_at fuel m t k) (.error .out_of_range) ↔ k ∉ tr.keys) ∧
    (∀ v, Returns (fun fuel => map_at fuel m t k) (.ok v) ↔ (k, v) ∈ tr.toList) := by
  obtain ⟨h1, h2⟩ := map_at_spec htr (List.Pairwise.imp le_of_lt hs) hh k
  have hsl : (tr.toList.map (·.1)).Sorted (· < ·) := hs
  constructor
  · refine ⟨fun hret hk => ?_, h2⟩
    obtain ⟨x, -, -, hx⟩ := h1 hk
    have := Returns.returns_unique hret hx
    simp at this
  · intro v
    constructor
    · intro hret
      by_cases hk : k ∈ tr.keys
      · obtain ⟨x, hx, hxk, hx'⟩ := h1 hk
        have := Returns.returns_unique hret hx'
        simp only [Except.ok.injEq] at this
        rw [Tree.toList_eq_entries]
        exact List.mem_map.2 ⟨x, hx, by rw [this, ← hxk]⟩
      · have := Returns.returns_unique hret (h2 hk)
        simp at this
    · intro hmem
      have hk : k ∈ tr.keys := List.mem_map.2 ⟨(k, v), hmem, rfl⟩
      obtain ⟨x, hx, hxk, hx'⟩ := h1 hk
      have hx2 : x.2 ∈ tr.toList := by
        rw [Tree.toList_eq_entries]; exact List.mem_map_of_mem _ hx
      have := payload_unique hsl hx2 hmem hxk
      rw [this] at hx'
      exact hx'

theorem twoElementSet_header_not_mem :
    twoElementSet.2.header_ ∉
      (Tree.node .nil 1 .BLACK ((10, 10) : Nat × Nat) (.node .nil 2 .RED (20, 20) .nil)).addrs :=
  twoElementSet_wellFormed.1.header_not_mem

theorem at_fails_exactly_on_missing_key_witness :
    LinkHolds twoElementSet.1 twoElementSet.2.header_
      (.node .nil 1 .BLACK (10, 10) (.node .nil 2 .RED (20, 20) .nil)) ∧
    (Tree.node .nil 1 .BLACK ((10, 10) : Nat × Nat) (.node .nil 2 .RED (20, 20) .nil)).keys.Sorted
      (· < ·) ∧
    twoElementSet.2.header_ ∉
      (Tree.node .nil 1 .BLACK ((10, 10) : Nat × Nat) (.node .nil 2 .RED (20, 20) .nil)).addrs ∧
    (Returns (fun fuel => map_at fuel twoElementSet.1 twoElementSet.2 20)
        (.error .out_of_range) ↔
      20 ∉ (Tree.node .nil 1 .BLACK ((10, 10) : Nat × Nat)
        (.node .nil 2 .RED (20, 20) .nil)).keys) ∧
    (∀ v, Returns (fun fuel => map_at fuel twoElementSet.1 twoElementSet.2 20) (.ok v) ↔
      (20, v) ∈ (Tree.node .nil 1 .BLACK ((10, 10) : Nat × Nat)
        (.node .nil 2 .RED (20, 20) .nil)).toList) :=
  ⟨twoElementSet_linkHolds, twoElementSet_sorted, twoElementSet_header_not_mem,
    at_fails_exactly_on_missing_key twoElementSet_linkHolds twoElementSet_sorted
      twoElementSet_header_not_mem 20⟩

/-- C27, a run on which `merge` does not return: for the multisets `a = {5}` and
`b = {10}`, `a.merge(b)` ends out of budget for every iteration budget, because the loop
that collects the keys of `b` steps from the only node of `b` to that node again and
never reaches `b.end()`. -/
theorem merge_one_element_never_returns : ∀ fuel, mergeOneRun fuel = .error .outOfFuel := by
  have hloop : ∀ inner f keys,
      collect_keys inner f mergeOneState.1 oneElementSet.2 (⟨some 1, some 0⟩ : MapIterator) keys =
        .error .outOfFuel := by
    intro inner f
    induction f with
    | zero => intro keys; rfl
    | succ f ih =>
      intro keys
      have hinc : MapIterator.increment inner mergeOneState.1 (⟨some 1, some 0⟩ : MapIterator) =
          .ok ⟨some 1, some 0⟩ ∨
          MapIterator.increment inner mergeOneState.1 (⟨some 1, some 0⟩ : MapIterator) =
          .error .outOfFuel := by
        rcases inner with _ | _ | k
        · exact Or.inr rfl
        · exact Or.inr rfl
        · exact Or.inl rfl
      have hkey : mergeOneState.1.key (some 1) = .ok 10 := rfl
      rcases hinc with h | h
      · simp only [collect_keys, MapIterator.eq, RedBlackTree.end]
        rw [h, hkey]
        simp only [ok_bind, ih]
        rfl
      · simp only [collect_keys, MapIterator.eq, RedBlackTree.end]
        rw [h, hkey]
        rfl
  intro fuel
  rcases fuel with _ | _ | n
  · rfl
  · rfl
  · have hb : multiset_insert_all (n + 2) [10] freshSet = .ok oneElementSet := rfl
    have ha : multiset_insert_all (n + 2) [5] (RedBlackTree.create oneElementSet.1) =
        .ok mergeOneState := rfl
    have hbegin : oneElementSet.2.begin = ⟨some 1, some 0⟩ := rfl
    have hne : (mergeOneState.2.header_ = oneElementSet.2.header_) = False := by
      simp only [eq_iff_iff, iff_false]
      decide
    simp only [mergeOneRun, hb, ok_bind, ha, multiset_merge, hne, if_false, hbegin, hloop]
    rfl

/-- C27, the same with an argument holding only duplicates of one key: for the multisets
`a = {5}` and `b = {10, 10}`, `a.merge(b)` ends out of budget for every iteration budget;
`++` at the last node of `b` goes back to the first. -/
theorem merge_duplicates_never_returns :
    ∀ fuel, mergeDuplicatesRun fuel = .error .outOfFuel := by
  have hloop : ∀ inner f keys,
      collect_keys inner f mergeDuplicatesState.1 mergeDuplicatesArg.2
          (⟨some 1, some 0⟩ : MapIterator) keys = .error .outOfFuel ∧
      collect_keys inner f mergeDuplicatesState.1 mergeDuplicatesArg.2
          (⟨some 2, some 0⟩ : MapIterator) keys = .error .outOfFuel := by
    intro inner f
    induction f with
    | zero => intro keys; exact ⟨rfl, rfl⟩
    | succ f ih =>
      intro keys
      have hinc1 : MapIterator.increment inner mergeDuplicatesState.1
          (⟨some 1, some 0⟩ : MapIterator) = .ok ⟨some 2, some 0⟩ ∨
          MapIterator.increment inner mergeDuplicatesState.1
          (⟨some 1, some 0⟩ : MapIterator) = .error .outOfFuel := by
        rcases inner with _ | _ | _ | k
        · exact Or.inr rfl
        · exact Or.inl rfl
        · exact Or.inl rfl
        · exact Or.inl rfl
      have hinc2 : MapIterator.increment inner mergeDuplicatesState.1
          (⟨some 2, some 0⟩ : MapIterator) = .ok ⟨some 1, some 0⟩ ∨
          MapIterator.increment inner mergeDuplicatesState.1
          (⟨some 2, some 0⟩ : MapIterator) = .error .outOfFuel := by
        rcases inner with _ | _ | _ | k
        · exact Or.inr rfl
        · exact Or.inr rfl
        · exact Or.inr rfl
        · exact Or.inl rfl
      have hkey1 : mergeDuplicatesState.1.key (some 1) = .ok 10 := rfl
      have hkey2 : mergeDuplicatesState.1.key (some 2) = .ok 10 := rfl
      constructor
      · rcases hinc1 with h | h
        · simp only [collect_keys, MapIterator.eq, RedBlackTree.end]
          rw [h, hkey1]
          simp only [ok_bind, (ih _).2]
          rfl
        · simp only [collect_keys, MapIterator.eq, RedBlackTree.end]
          rw [h, hkey1]
          rfl
      · rcases hinc2 with h | h
        · simp only [collect_keys, MapIterator.eq, RedBlackTree.end]
          rw [h, hkey2]
          simp only [ok_bind, (ih _).1]
          rfl
        · simp only [collect_keys, MapIterator.eq, RedBlackTree.end]
          rw [h, hkey2]
          rfl
  intro fuel
  rcases fuel with _ | _ | _ | n
  · rfl
  · rfl
  · rfl
  · have hb : multiset_insert_all (n + 3) [10, 10] freshSet = .ok mergeDuplicatesArg := rfl
    have ha : multiset_insert_all (n + 3) [5] (RedBlackTree.create mergeDuplicatesArg.1) =
        .ok mergeDuplicatesState := rfl
    have hbegin : mergeDuplicatesArg.2.begin = ⟨some 1, some 0⟩ := rfl
    have hne : (mergeDuplicatesState.2.header_ = mergeDuplicatesArg.2.header_) = False := by
      simp only [eq_iff_iff, iff_false]
      decide
    simp only [mergeDuplicatesRun, hb, ok_bind, ha, multiset_merge, hne, if_false, hbegin,
      (hloop _ _ _).1]
    rfl

/-- Scenario F, the multiset test `ModifiersMerge`: merging `{5, 20, 30, 5}` into
`{10, 30, 10}` returns with the keys 5, 5, 10, 10, 20, 30, 30 in order, size 7, and the
argument empty. -/
theorem scenarioF_result : Returns scenarioF ([5, 5, 10, 10, 20, 30, 30], 7, 0) :=
  ⟨30, fun fuel hf => by
    obtain ⟨n, rfl⟩ : ∃ n, fuel = n + 30 := ⟨fuel - 30, by omega⟩
    rfl⟩

/-- C28, a multiset on which `find` misses a stored key: in the multiset built by
inserting 10, 5, 30, 20, 40, 25, erasing 10 and inserting 22 and 23, the key 22 is stored
(node 7), yet `find(22)` is `end()` (the header, node 0) while `lower_bound(22)` is the
node 6, which holds 25. -/
theorem multiset_find_misses_stored_key_after_erase :
    Returns multisetFindAfterEraseRun
      ([(7, 22), (8, 23), (6, 25), (4, 20), (6, 25), (3, 30), (5, 40)], some 0, some 6, some 0) :=
  ⟨30, fun fuel hf => by
    obtain ⟨n, rfl⟩ : ∃ n, fuel = n + 30 := ⟨fuel - 30, by omega⟩
    rfl⟩

/-- C28, on search-ordered multisets: when the tree read through the child links has
non-decreasing keys and its header is not one of its nodes, `find(k)` returns what
`lower_bound(k)` returns, the first node in in-order holding `k` (every node before it
has a smaller key), when `k` is stored, and `end()` when it is not. -/
theorem multiset_find_is_first_equal [LinearOrder K] {m : Mem K K} {t : RedBlackTree}
    {tr : Tree K K} (htr : LinkHolds m t.header_ tr) (hs : tr.keys.Sorted (· ≤ ·))
    (hh : t.header_ ∉ tr.addrs) (k : K) :
    (k ∈ tr.keys → ∃ l1 x l2, tr.entries = l1 ++ x :: l2 ∧ (∀ y ∈ l1, y.2.1 < k) ∧ x.2.1 = k ∧
      Returns (fun fuel => lower_bound fuel m t k) ⟨some x.1, some t.header_⟩ ∧
      Returns (fun fuel => multiset_find fuel m t k) ⟨some x.1, some t.header_⟩) ∧
    (k ∉ tr.keys → Returns (fun fuel => multiset_find fuel m t k) t.end) :=
  multiset_find_spec htr hs hh k

theorem multiset_find_is_first_equal_witness :
    LinkHolds twoElementSet.1 twoElementSet.2.header_
      (.node .nil 1 .BLACK (10, 10) (.node .nil 2 .RED (20, 20) .nil)) ∧
    (Tree.node .nil 1 .BLACK ((10, 10) : Nat × Nat) (.node .nil 2 .RED (20, 20) .nil)).keys.Sorted
      (· ≤ ·) ∧
    twoElementSet.2.header_ ∉
      (Tree.node .nil 1 .BLACK ((10, 10) : Nat × Nat) (.node .nil 2 .RED (20, 20) .nil)).addrs ∧
    (20 ∈ (Tree.node .nil 1 .BLACK ((10, 10) : Nat × Nat)
        (.node .nil 2 .RED (20, 20) .nil)).keys →
      ∃ l1 x l2, (Tree.node .nil 1 .BLACK ((10, 10) : Nat × Nat)
          (.node .nil 2 .RED (20, 20) .nil)).entries = l1 ++ x :: l2 ∧
        (∀ y ∈ l1, y.2.1 < 20) ∧ x.2.1 = 20 ∧
        Returns (fun fuel => lower_bound fuel twoElementSet.1 twoElementSet.2 20)
          ⟨some x.1, some twoElementSet.2.header_⟩ ∧
        Returns (fun fuel => multiset_find fuel twoElementSet.1 twoElementSet.2 20)
          ⟨some x.1, some twoElementSet.2.header_⟩) ∧
    (20 ∉ (Tree.node .nil 1 .BLACK ((10, 10) : Nat × Nat)
        (.node .nil 2 .RED (20, 20) .nil)).keys →
      Returns (fun fuel => multiset_find fuel twoElementSet.1 twoElementSet.2 20)
        twoElementSet.2.end) :=
  ⟨twoElementSet_linkHolds, twoElementSet_sorted_le, twoElementSet_header_not_mem,
    multiset_find_is_first_equal twoElementSet_linkHolds twoElementSet_sorted_le
      twoElementSet_header_not_mem 20⟩

variable {T : Type}

/-- C30: when two lists `a` and `b` are rings that share no node (two distinct list
objects), each `size_` counts its nodes, the sizes add up without overflow of `size_t` and
both element sequences are non-decreasing, `a.merge(b)` returns; afterwards `b` is an
empty ring with `empty()` true and `size()` 0, `a.size()` is the sum of the former sizes,
and `a` is a ring whose element sequence (as a walk from `begin()` to `end()` reads it)
is non-decreasing, consists of the former nodes of `a` and `b`, and keeps, among the
nodes of any one value, those of `a` in their order before those of `b` in their order. -/
theorem merge_merges_sorted_lists [LinearOrder T] {m : LMem T} {a b : list}
    {xs ys : List (Nat × T)} (ha : Ring m a.sentinel_ xs) (hb : Ring m b.sentinel_ ys)
    (hd : Apart a.sentinel_ xs b.sentinel_ ys) (hna : a.size_ = xs.length)
    (hnb : b.size_ = ys.length) (hsz : xs.length + ys.length < 2 ^ 64)
    (hsx : (xs.map (fun x => x.2)).Sorted (· ≤ ·))
    (hsy : (ys.map (fun x => x.2)).Sorted (· ≤ ·)) :
    ∃ m' a' b' zs, Returns (fun fuel => list_merge fuel m a b) (m', a', b') ∧
      b'.empty = true ∧ b'.size = 0 ∧ Ring m' b'.sentinel_ [] ∧
      a'.size = a.size + b.size ∧ Ring m' a'.sentinel_ zs ∧
      Returns (fun fuel => a'.toList fuel m') (zs.map (fun x => x.2)) ∧
      (zs.map (fun x => x.2)).Sorted (· ≤ ·) ∧ zs.Perm (xs ++ ys) ∧
      (∀ v, zs.filter (fun e => decide (e.2 = v)) =
        xs.filter (fun e => decide (e.2 = v)) ++ ys.filter (fun e => decide (e.2 = v))) ∧
      zs = List.merge xs ys takeLeft := by
  obtain ⟨sa, n1⟩ := a
  obtain ⟨sb, n2⟩ := b
  simp only at ha hb hd hna hnb
  subst hna hnb
  obtain ⟨m', hrun, hra, hrb⟩ := @list_merge_spec T _ m sa sb xs.length xs ys ha hb hd hsz
  have hsx' : xs.Pairwise (fun a b => a.2 ≤ b.2) := List.pairwise_map.1 hsx
  have hsy' : ys.Pairwise (fun a b => a.2 ≤ b.2) := List.pairwise_map.1 hsy
  exact ⟨m', ⟨sa, xs.length + ys.length⟩, ⟨sb, 0⟩, List.merge xs ys takeLeft,
    Returns.of_forall _ hrun, rfl, rfl, hrb, rfl, hra, toList_of_ring hra,
    List.pairwise_map.2 (merge_takeLeft_sorted xs ys hsx' hsy'),
    List.merge_perm_append takeLeft, fun v => merge_takeLeft_filter v xs ys hsx', rfl⟩

theorem merge_merges_sorted_lists_witness :
    Ring mergeInput.1 mergeInput.2.1.sentinel_ [(1, 1), (2, 3)] ∧
    Ring mergeInput.1 mergeInput.2.2.sentinel_ [(4, 2), (5, 3)] ∧
    ∃ m' a' b' zs,
      Returns (fun fuel => list_merge fuel mergeInput.1 mergeInput.2.1 mergeInput.2.2)
        (m', a', b') ∧
      b'.empty = true ∧ b'.size = 0 ∧ Ring m' b'.sentinel_ [] ∧
      a'.size = mergeInput.2.1.size + mergeInput.2.2.size ∧ Ring m' a'.sentinel_ zs ∧
      Returns (fun fuel => a'.toList fuel m') (zs.map (fun x => x.2)) ∧
      (zs.map (fun x => x.2)).Sorted (· ≤ ·) ∧
      zs.Perm ([((1 : Nat), (1 : Int)), (2, 3)] ++ [(4, 2), (5, 3)]) ∧
      (∀ v, zs.filter (fun e => decide (e.2 = v)) =
        [((1 : Nat), (1 : Int)), (2, 3)].filter (fun e => decide (e.2 = v)) ++
          [((4 : Nat), (2 : Int)), (5, 3)].filter (fun e => decide (e.2 = v))) ∧
      zs = List.merge [((1 : Nat), (1 : Int)), (2, 3)] [(4, 2), (5, 3)] takeLeft :=
  ⟨mergeInput_ring_a, mergeInput_ring_b,
    merge_merges_sorted_lists mergeInput_ring_a mergeInput_ring_b mergeInput_apart rfl rfl
      (by decide) (by decide) (by decide)⟩

/-- The run `list<int> a{1, 3}, b{2, 3}; a.merge(b);` returns with `a.size()` 4,
`b.size()` 0, `b.empty()` true, `a` reading 1, 2, 3, 3 and `b` reading nothing. -/
theorem mergeRun_result : Returns mergeRun (4, 0, true, [1, 2, 3, 3], []) :=
  ⟨30, fun fuel hf => by
    obtain ⟨n, rfl⟩ : ∃ n, fuel = n + 30 := ⟨fuel - 30, by omega⟩
    rfl⟩

/-- C29: when a list is a ring whose `size_` counts its nodes, in a memory with a sound
allocator, `sort()` returns; afterwards `size()` is unchanged and the list is again a
consistent doubly linked ring through the sentinel (a walk forwards from `begin()` reads
the element sequence, a walk backwards from `--end()` reads its reverse) whose element
sequence is non-decreasing, consists of the former nodes, and keeps the nodes of any one
value in their former relative order. -/
theorem sort_sorts_stably [LinearOrder T] [Inhabited T] {m : LMem T} {l : list}
    {xs : List (Nat × T)} (h : Ring m l.sentinel_ xs) (hn : l.size_ = xs.length)
    (hval : m.Valid) :
    ∃ m' l' ys, Returns (fun fuel => list_sort fuel m l) (m', l') ∧
      l'.size = l.size ∧ Ring m' l'.sentinel_ ys ∧
      Returns (fun fuel => l'.toList fuel m') (ys.map (fun x => x.2)) ∧
      Returns (fun fuel => l'.toListBack fuel m') ((ys.map (fun x => x.2)).reverse) ∧
      (ys.map (fun x => x.2)).Sorted (· ≤ ·) ∧ ys.Perm xs ∧
      (ys.map (fun x => x.2)).Perm (xs.map (fun x => x.2)) ∧
      (∀ v, ys.filter (fun e => decide (e.2 = v)) = xs.filter (fun e => decide (e.2 = v))) := by
  obtain ⟨s, n⟩ := l
  simp only at h hn
  subst hn
  obtain ⟨m', ys, hrun, hring, hperm, hsorted, hfilt⟩ := list_sort_spec h hval
  exact ⟨m', ⟨s, xs.length⟩, ys, Returns.of_forall _ hrun, rfl, hring, toList_of_ring hring,
    toListBack_of_ring hring, List.pairwise_map.2 hsorted, hperm, List.Perm.map _ hperm, hfilt⟩

theorem sort_sorts_stably_witness :
    Ring sortInput.1 sortInput.2.sentinel_ [(1, 2), (2, 1), (3, 2)] ∧
    ∃ m' l' ys, Returns (fun fuel => list_sort fuel sortInput.1 sortInput.2) (m', l') ∧
      l'.size = sortInput.2.size ∧ Ring m' l'.sentinel_ ys ∧
      Returns (fun fuel => l'.toList fuel m') (ys.map (fun x => x.2)) ∧
      Returns (fun fuel => l'.toListBack fuel m') ((ys.map (fun x => x.2)).reverse) ∧
      (ys.map (fun x => x.2)).Sorted (· ≤ ·) ∧
      ys.Perm [((1 : Nat), (2 : Int)), (2, 1), (3, 2)] ∧
      (ys.map (fun x => x.2)).Perm ([((1 : Nat), (2 : Int)), (2, 1), (3, 2)].map (fun x => x.2)) ∧
      (∀ v, ys.filter (fun e => decide (e.2 = v)) =
        [((1 : Nat), (2 : Int)), (2, 1), (3, 2)].filter (fun e => decide (e.2 = v))) :=
  ⟨sortInput_ring, sort_sorts_stably sortInput_ring rfl sortInput_valid⟩

/-- The run `list<int> l{2, 1, 2}; l.sort();` returns with `size()` 3, the list reading
1, 2, 2 forwards and 2, 2, 1 backwards. -/
theorem sortRun_result : Returns sortRun (3, [1, 2, 2], [2, 2, 1]) :=
  ⟨30, fun fuel hf => by
    obtain ⟨n, rfl⟩ : ∃ n, fuel = n + 30 := ⟨fuel - 30, by omega⟩
    rfl⟩

theorem map_destutter'_value [DecidableEq T] : ∀ (l : List (Nat × T)) (a : Nat × T),
    (List.destutter' (fun a b => a.2 ≠ b.2) a l).map (fun x => x.2) =
      List.destutter' (· ≠ ·) a.2 (l.map (fun x => x.2)) := by
  intro l
  induction l with
  | nil => intro a; rfl
  | cons b l ih =>
    intro a
    by_cases hab : a.2 = b.2
    · rw [List.destutter'_cons_neg _ (by simpa using hab), List.map_cons,
        List.destutter'_cons_neg _ (by simpa using hab), ih]
    · rw [List.destutter'_cons_pos _ (by simpa using hab), List.map_cons, List.map_cons,
        List.destutter'_cons_pos _ (by simpa using hab), ih]

theorem map_destutter_value [DecidableEq T] (l : List (Nat × T)) :
    (l.destutter (fun a b => a.2 ≠ b.2)).map (fun x => x.2) =
      (l.map (fun x => x.2)).destutter (· ≠ ·) := by
  cases l with
  | nil => rfl
  | cons a l => exact map_destutter'_value l a

theorem uniqueInput_ring : Ring uniqueInput.1 uniqueInput.2.sentinel_
    [(1, 1), (2, 1), (3, 2), (4, 2), (5, 2), (6, 3), (7, 1), (8, 1)] := by
  refine ⟨?_, ?_, by decide⟩
  · exact Links_cons_cons.2 ⟨⟨rfl, rfl⟩, Links_cons_cons.2 ⟨⟨rfl, rfl⟩,
      Links_cons_cons.2 ⟨⟨rfl, rfl⟩, Links_cons_cons.2 ⟨⟨rfl, rfl⟩,
      Links_cons_cons.2 ⟨⟨rfl, rfl⟩, Links_cons_cons.2 ⟨⟨rfl, rfl⟩,
      Links_cons_cons.2 ⟨⟨rfl, rfl⟩, Links_cons_cons.2 ⟨⟨rfl, rfl⟩,
      Links_cons_cons.2 ⟨⟨rfl, rfl⟩, Links_singleton _ _⟩⟩⟩⟩⟩⟩⟩⟩⟩
  · intro x hx
    simp only [List.mem_cons, List.mem_singleton, List.not_mem_nil, or_false] at hx
    rcases hx with rfl | rfl | rfl | rfl | rfl | rfl | rfl | rfl <;> rfl

/-- C31: when a list is a ring whose `size_` counts its nodes (a `size_t` value),
`unique()` returns; afterwards the list is a ring of the nodes left when, from the front,
every node is dropped whose value equals that of the last node kept (so every maximal run
of equal consecutive elements is replaced by its first node); the element sequence (as a
walk from `begin()` to `end()` reads it) is the same reduction of the former element
sequence, no two adjacent elements are equal, and `size()` is the new length. -/
theorem unique_collapses_runs [DecidableEq T] {m : LMem T} {l : list} {xs : List (Nat × T)}
    (h : Ring m l.sentinel_ xs) (hn : l.size_ = xs.length) (hsz : l.size_ < 2 ^ 64) :
    ∃ m' l' ys, Returns (fun fuel => list_unique fuel m l) (m', l') ∧
      Ring m' l'.sentinel_ ys ∧ ys = xs.destutter (fun a b => a.2 ≠ b.2) ∧ ys.Sublist xs ∧
      Returns (fun fuel => l'.toList fuel m') (ys.map (fun x => x.2)) ∧
      ys.map (fun x => x.2) = (xs.map (fun x => x.2)).destutter (· ≠ ·) ∧
      (ys.map (fun x => x.2)).Chain' (· ≠ ·) ∧ l'.size = ys.length := by
  obtain ⟨s, n⟩ := l
  simp only at h hn hsz
  subst hn
  obtain ⟨m', hrun, hring, -, -⟩ := list_unique_spec h hsz
  refine ⟨m', ⟨s, _⟩, _, Returns.of_forall _ hrun, hring, rfl, List.destutter_sublist _ _,
    toList_of_ring hring, map_destutter_value xs, ?_, rfl⟩
  rw [map_destutter_value]
  exact List.destutter_is_chain' _ _

theorem unique_collapses_runs_witness :
    Ring uniqueInput.1 uniqueInput.2.sentinel_
      [(1, 1), (2, 1), (3, 2), (4, 2), (5, 2), (6, 3), (7, 1), (8, 1)] ∧
    ∃ m' l' ys, Returns (fun fuel => list_unique fuel uniqueInput.1 uniqueInput.2) (m', l') ∧
      Ring m' l'.sentinel_ ys ∧
      ys = ([(1, 1), (2, 1), (3, 2), (4, 2), (5, 2), (6, 3), (7, 1), (8, 1)] :
        List (Nat × Int)).destutter (fun a b => a.2 ≠ b.2) ∧
      ys.Sublist [(1, 1), (2, 1), (3, 2), (4, 2), (5, 2), (6, 3), (7, 1), (8, 1)] ∧
      Returns (fun fuel => l'.toList fuel m') (ys.map (fun x => x.2)) ∧
      ys.map (fun x => x.2) =
        (([(1, 1), (2, 1), (3, 2), (4, 2), (5, 2), (6, 3), (7, 1), (8, 1)] :
          List (Nat × Int)).map (fun x => x.2)).destutter (· ≠ ·) ∧
      (ys.map (fun x => x.2)).Chain' (· ≠ ·) ∧ l'.size = ys.length :=
  ⟨uniqueInput_ring, unique_collapses_runs uniqueInput_ring rfl (by decide)⟩

/-- The run `list<int> a{1, 1, 2, 2, 2, 3, 1, 1}; a.unique();` returns with `size()` 4,
the list reading 1, 2, 3, 1 forwards and 1, 3, 2, 1 backwards. -/
theorem uniqueRun_result : Returns uniqueRun (4, [1, 2, 3, 1], [1, 3, 2, 1]) :=
  ⟨30, fun fuel hf => by
    obtain ⟨n, rfl⟩ : ∃ n, fuel = n + 30 := ⟨fuel - 30, by omega⟩
    rfl⟩

theorem deref_of_vrep {m : VMem T} {v : vector} {es : List T} (h : VRep m v es) {j : Nat}
    {y : T} (hy : es[j]? = some y) : (v.begin.add j).deref m = .ok y := by
  have hj : j < es.length := by
    by_contra hc
    rw [List.getElem?_eq_none (by omega)] at hy
    exact absurd hy (by simp)
  have hcap := h.2.1
  have hsize := h.1
  obtain ⟨a, b, hd, hb, hbc, hel⟩ := h.data_some (by omega)
  have := hel j (by omega)
  rw [hy, Option.some.injEq] at this
  simp only [VPtr.deref, VPtr.add, vector.begin, hd, Nat.zero_add]
  rw [VMem.get_of hb (by omega), this]

theorem insert_erase_list (es : List T) (x : T) {i : Nat} (hi : i ≤ es.length) :
    (es.take i ++ x :: es.drop i).take i ++ (es.take i ++ x :: es.drop i).drop (i + 1) = es := by
  apply List.ext_getElem?
  intro j
  rw [take_drop_succ_getElem?, take_insert_drop_getElem? es x hi, take_insert_drop_getElem? es x hi]
  by_cases h1 : j < i
  · rw [if_pos h1, if_pos h1]
  · rw [if_neg h1, if_neg (by omega), if_neg (by omega)]
    rfl

theorem vectorInput_vrep : VRep vectorInput.1 vectorInput.2 [1, 2, 5, 6] := by
  refine ⟨rfl, le_rfl, by decide, ⟨_, rfl, rfl, fun i hi => ?_⟩⟩
  have hi' : i < 4 := hi
  interval_cases i <;> rfl

theorem vectorInput_valid : vectorInput.1.Valid := by
  intro a ha
  have h1 : vectorInput.1.fresh = 1 := rfl
  rw [h1] at ha
  have h0 : a ≠ 0 := by omega
  simp [vectorInput, vector.ofItems, fill_items, VMem.newArray, VMem.set, VMem.empty, size_inc,
    bind, Except.bind, h0]

/-- For an argument that is an object outside the arrays, `insert` and `erase` are
positional inverses: when a vector holds the elements `e[0..n)` (its `size_` is `n`, not
above `cap_`, and `data_` is an array of `cap_` elements) in a memory with a sound
allocator, with `n < 2 ^ 63`, then for every index `i <= n` and every object of value `x`,
`insert(begin() + i, x)` returns; the vector then holds `e[0..i), x, e[i..n)`, has size
`n + 1`, and the returned iterator is `begin() + i` and points at `x`; a following
`erase(begin() + i)` returns and the vector holds `e[0..n)` again with size `n`. -/
theorem insert_then_erase_restores [Inhabited T] {m : VMem T} {v : vector} {es : List T}
    (h : VRep m v es) (hv : m.Valid) {i : Nat} (hi : i ≤ es.length)
    (hbig : es.length < 2 ^ 63) (x : T) :
    ∃ m1 v1 m2 v2,
      Returns (fun fuel => vector_insert fuel m v (v.begin.add i) (.obj x))
        (v1.begin.add i, m1, v1) ∧
      VRep m1 v1 (es.take i ++ x :: es.drop i) ∧
      v1.toList m1 = .ok (es.take i ++ x :: es.drop i) ∧ v1.size = es.length + 1 ∧
      (v1.begin.add i).deref m1 = .ok x ∧
      Returns (fun fuel => vector_erase fuel m1 v1 (v1.begin.add i)) (m2, v2) ∧
      VRep m2 v2 es ∧ v2.toList m2 = .ok es ∧ v2.size = es.length := by
  obtain ⟨m1, v1, hrun1, h1, hv1, hs1, -⟩ := vector_insert_spec h hv hi hbig x
  have hlen1 : (es.take i ++ x :: es.drop i).length = es.length + 1 := by
    rw [h1.1, hs1]
  obtain ⟨m2, hrun2, h2, -⟩ := vector_erase_spec h1 hv1 (show i < _ by rw [hlen1]; omega)
  rw [insert_erase_list es x hi] at h2
  refine ⟨m1, v1, m2, _, Returns.of_forall _ hrun1, h1, toList_of_vrep h1, hs1, ?_,
    Returns.of_forall _ hrun2, h2, toList_of_vrep h2, ?_⟩
  · refine deref_of_vrep h1 ?_
    rw [take_insert_drop_getElem? es x hi, if_neg (by omega), if_pos rfl]
  · show v1.size_ - 1 = es.length
    omega

theorem insert_then_erase_restores_witness :
    VRep vectorInput.1 vectorInput.2 [1, 2, 5, 6] ∧
    ∃ m1 v1 m2 v2,
      Returns (fun fuel => vector_insert fuel vectorInput.1 vectorInput.2
        (vectorInput.2.begin.add 2) (.obj 3)) (v1.begin.add 2, m1, v1) ∧
      VRep m1 v1 (([1, 2, 5, 6] : List Int).take 2 ++ 3 :: ([1, 2, 5, 6] : List Int).drop 2) ∧
      v1.toList m1 =
        .ok (([1, 2, 5, 6] : List Int).take 2 ++ 3 :: ([1, 2, 5, 6] : List Int).drop 2) ∧
      v1.size = ([1, 2, 5, 6] : List Int).length + 1 ∧
      (v1.begin.add 2).deref m1 = .ok 3 ∧
      Returns (fun fuel => vector_erase fuel m1 v1 (v1.begin.add 2)) (m2, v2) ∧
      VRep m2 v2 [1, 2, 5, 6] ∧ v2.toList m2 = .ok [1, 2, 5, 6] ∧
      v2.size = ([1, 2, 5, 6] : List Int).length :=
  ⟨vectorInput_vrep, insert_then_erase_restores vectorInput_vrep vectorInput_valid
    (by decide) (by decide) 3⟩

/-- C32: `vector<int> v{1, 2, 5, 6}; v.reserve(8); v.insert(v.begin(), v[1]);` inserts 1,
not the value 2 that `v[1]` has at the call: the capacity is 8, so nothing is
reallocated, and the vector holds 1, 1, 2, 5, 6 with size 5 afterwards. -/
theorem insert_reads_argument_after_shift :
    Returns insertAliasRun (2, 8, 5, [1, 1, 2, 5, 6]) :=
  ⟨30, fun fuel hf => by
    obtain ⟨n, rfl⟩ : ∃ n, fuel = n + 30 := ⟨fuel - 30, by omega⟩
    rfl⟩

/-- Without the `reserve`, `v.insert(v.begin(), v[1])` on `vector<int> v{1, 2, 5, 6}`
reallocates first and then reads its argument from the array it has released. -/
theorem insert_reads_argument_after_reallocate :
    Returns insertAliasReallocRun (some .nullDeref) :=
  ⟨30, fun fuel hf => by
    obtain ⟨n, rfl⟩ : ∃ n, fuel = n + 30 := ⟨fuel - 30, by omega⟩
    rfl⟩

/-- The test `InsertEraseMiddle`: after the two insertions the vector has size 6 and
reads 1, 2, 3, 4, 5, 6; after the two erasures it has size 4 and reads 1, 2, 5, 6. -/
theorem insertEraseRun_result :
    Returns insertEraseRun ((6, [1, 2, 3, 4, 5, 6]), (4, [1, 2, 5, 6])) :=
  ⟨30, fun fuel hf => by
    obtain ⟨n, rfl⟩ : ∃ n, fuel = n + 30 := ⟨fuel - 30, by omega⟩
    rfl⟩

/-- For arguments that are objects outside the arrays, `insert_many` inserts them in
order: when a vector holds the elements `e[0..n)` in a memory with a sound allocator and
`n + k <= 2 ^ 63`, then for every index `i <= n` and objects of values `a1 .. ak`,
`insert_many(begin() + i, a1, ..., ak)` returns; the vector then holds
`e[0..i), a1, ..., ak, e[i..n)`, has size `n + k` and capacity at least `n + k`, and the
returned iterator is `begin() + i`; with no argument memory and vector are unchanged. -/
theorem insert_many_inserts_in_order [Inhabited T] {m : VMem T} {v : vector} {es : List T}
    (h : VRep m v es) (hv : m.Valid) {i : Nat} (hi : i ≤ es.length) (args : List T)
    (hbig : es.length + args.length ≤ 2 ^ 63) :
    ∃ m' v',
      Returns (fun fuel => vector_insert_many fuel m v (v.begin.add i) (args.map VRef.obj))
        (v'.begin.add i, m', v') ∧
      VRep m' v' (es.take i ++ args ++ es.drop i) ∧
      v'.toList m' = .ok (es.take i ++ args ++ es.drop i) ∧
      v'.size = es.length + args.length ∧ es.length + args.length ≤ v'.capacity ∧
      (args = [] → m' = m ∧ v' = v) := by
  by_cases hargs : args = []
  · subst hargs
    have hidx : (v.begin.add i).diff ⟨v.data_, 0⟩ = i := by
      simp only [VPtr.diff, VPtr.add, vector.begin, Nat.zero_add]
      exact size_sub_zero (by omega)
    have hes : es.take i ++ [] ++ es.drop i = es := by simp
    rw [hes]
    refine ⟨m, v, Returns.of_forall 0 (fun fuel _ => ?_), h, toList_of_vrep h, ?_, ?_,
      fun _ => ⟨rfl, rfl⟩⟩
    · simp [vector_insert_many, hidx]
    · exact h.1.symm
    · have := h.1
      have := h.2.1
      simp only [List.length_nil, vector.capacity]
      omega
  · obtain ⟨m', v', hrun, h', -, hs, hc⟩ := vector_insert_many_spec h hv hi args hargs hbig
    exact ⟨m', v', Returns.of_forall _ hrun, h', toList_of_vrep h', hs, hc,
      fun e => absurd e hargs⟩

theorem insert_many_inserts_in_order_witness :
    VRep vectorInput.1 vectorInput.2 [1, 2, 5, 6] ∧
    ∃ m' v',
      Returns (fun fuel => vector_insert_many fuel vectorInput.1 vectorInput.2
        (vectorInput.2.begin.add 2) (([3, 4] : List Int).map VRef.obj)) (v'.begin.add 2, m', v') ∧
      VRep m' v' (([1, 2, 5, 6] : List Int).take 2 ++ [3, 4] ++ ([1, 2, 5, 6] : List Int).drop 2) ∧
      v'.toList m' =
        .ok (([1, 2, 5, 6] : List Int).take 2 ++ [3, 4] ++ ([1, 2, 5, 6] : List Int).drop 2) ∧
      v'.size = ([1, 2, 5, 6] : List Int).length + ([3, 4] : List Int).length ∧
      ([1, 2, 5, 6] : List Int).length + ([3, 4] : List Int).length ≤ v'.capacity ∧
      (([3, 4] : List Int) = [] → m' = vectorInput.1 ∧ v' = vectorInput.2) :=
  ⟨vectorInput_vrep, insert_many_inserts_in_order vectorInput_vrep vectorInput_valid
    (by decide) [3, 4] (by decide)⟩

/-- C33: `vector<int> v{1, 2, 5, 6}; v.reserve(8); v.insert_many(v.begin(), v[1], v[3]);`
inserts 2, 2, not the values 2, 6 that `v[1]` and `v[3]` have at the call: the capacity
is 8, so nothing is reallocated, and the vector holds 2, 2, 1, 2, 5, 6 with size 6
afterwards. -/
theorem insert_many_reads_arguments_after_shift :
    Returns insertManyAliasRun ((2, 6), 8, 6, [2, 2, 1, 2, 5, 6]) :=
  ⟨30, fun fuel hf => by
    obtain ⟨n, rfl⟩ : ∃ n, fuel = n + 30 := ⟨fuel - 30, by omega⟩
    rfl⟩

/-- The test `Middle_Normal`: `insert_many(v.begin() + 1, 20, 30, 40)` on `{10, 50, 60}`
gives size 6, capacity 6, the content 10, 20, 30, 40, 50, 60, and the returned iterator
points at 20. -/
theorem insertManyRun_result :
    Returns insertManyRun (6, 6, [10, 20, 30, 40, 50, 60], 20) :=
  ⟨30, fun fuel hf => by
    obtain ⟨n, rfl⟩ : ∃ n, fuel = n + 30 := ⟨fuel - 30, by omega⟩
    rfl⟩

/-- C34: in the set built by inserting 10, 5, 30, 20, 40, 25, erasing the node `z` that
holds 10 (two children; successor `y` holds 20, `x = y->right` holds 25, `y`'s parent
holds 30) puts `x` into `y`'s former slot, but the parent link of `x` is `y`, not `y`'s
former parent. -/
theorem two_child_erase_leaves_stale_parent :
    Returns twoChildEraseRun
      ((some 1, some 4, some 6, some 3), (some 6, some 4, some 0, some 2, some 3)) :=
  ⟨30, fun fuel hf => by
    obtain ⟨n, rfl⟩ : ∃ n, fuel = n + 30 := ⟨fuel - 30, by omega⟩
    rfl⟩

/-- Scenario C: after inserting 10, 20, 30, 40, 25, 35 and erasing 30 the in-order keys are
10, 20, 25, 35, 40, `size()` is 5, every path carries 2 BLACK nodes and the parent links
are consistent. -/
theorem scenarioC_result :
    Returns scenarioC ([10, 20, 25, 35, 40], 5, [2, 2, 2, 2, 2, 2], true) :=
  ⟨30, fun fuel hf => by
    obtain ⟨n, rfl⟩ : ∃ n, fuel = n + 30 := ⟨fuel - 30, by omega⟩
    rfl⟩

/-- C35: in the set built by inserting 10, 5, 30, 20, 40, 25 the parent links are
consistent; after `erase(find(10))` they are not. -/
theorem erase_breaks_parent_links : Returns parentLinksRun (true, false) :=
  ⟨30, fun fuel hf => by
    obtain ⟨n, rfl⟩ : ∃ n, fuel = n + 30 := ⟨fuel - 30, by omega⟩
    rfl⟩

/-- C36: in the set built by inserting 10, 5, 30, 20, 40, 25 and erasing 10, `size()` is 5
and 5 nodes are reachable; after `erase(find(25))`, `size()` is 4 while only the 2 nodes
holding 5 and 20 are reachable from the root. -/
theorem size_counter_overcounts_after_erase :
    Returns sizeCounterRun ((5, 5), (4, 2, [5, 20], false)) :=
  ⟨30, fun fuel hf => by
    obtain ⟨n, rfl⟩ : ∃ n, fuel = n + 30 := ⟨fuel - 30, by omega⟩
    rfl⟩

/-- C37: after a set has been moved from, inserting 5 into it (with `insert_unique` or
with `insert_equal`) gives `size()` 1 but `begin() == end()`: `begin()` is at the header
(address 1), not at the node holding 5 (address 2); on a fresh set the same insertion gives
`begin() != end()` with `begin()` at the new node. -/
theorem moved_from_insert_begin_is_end :
    Returns movedFromRun
      ((1, true, some 1, some 2), (1, true, some 1, some 2), (1, false, some 1, some 1)) :=
  ⟨30, fun fuel hf => by
    obtain ⟨n, rfl⟩ : ∃ n, fuel = n + 30 := ⟨fuel - 30, by omega⟩
    rfl⟩

/-- C38: on the set `{10}`, `erase(begin())` returns an iterator at the erased node
(address 1), not `end()` (the header, address 0). -/
theorem erase_iterator_sole_returns_erased_node :
    Returns eraseIteratorSoleRun (some 1, some 0, false, 0) :=
  ⟨30, fun fuel hf => by
    obtain ⟨n, rfl⟩ : ∃ n, fuel = n + 30 := ⟨fuel - 30, by omega⟩
    rfl⟩

/-- On the set built by inserting 20 and 10, `erase(find(20))` (the last element) returns
an iterator at the erased node (address 1), not `end()`. -/
theorem erase_iterator_last_returns_erased_node :
    Returns eraseIteratorLastRun (some 1, some 1, some 0, false, [10]) :=
  ⟨30, fun fuel hf => by
    obtain ⟨n, rfl⟩ : ∃ n, fuel = n + 30 := ⟨fuel - 30, by omega⟩
    rfl⟩

theorem ascendingSet_built : BuiltInsert (ascendingSet 11).1 (ascendingSet 11).2 := by
  have h0 : BuiltInsert (ascendingSet 0).1 (ascendingSet 0).2 :=
    BuiltInsert.create Mem.empty Mem.empty_valid
  have step : ∀ (n : Nat) (r : Ptr × Bool),
      (∀ j, insert_unique (j + 12) (ascendingSet n).1 (ascendingSet n).2 (n + 1, n + 1) =
        .ok (r, (ascendingSet (n + 1)).1, (ascendingSet (n + 1)).2)) →
      BuiltInsert (ascendingSet n).1 (ascendingSet n).2 →
      BuiltInsert (ascendingSet (n + 1)).1 (ascendingSet (n + 1)).2 :=
    fun n r e h => BuiltInsert.unique (n + 1, n + 1) h ⟨12, fun fuel hf => by
      obtain ⟨j, rfl⟩ : ∃ j, fuel = j + 12 := ⟨fuel - 12, by omega⟩
      exact e j⟩
  have h1 := step 0 (some 1, true) (fun _ => rfl) h0
  have h2 := step 1 (some 2, true) (fun _ => rfl) h1
  have h3 := step 2 (some 3, true) (fun _ => rfl) h2
  have h4 := step 3 (some 4, true) (fun _ => rfl) h3
  have h5 := step 4 (some 5, true) (fun _ => rfl) h4
  have h6 := step 5 (some 6, true) (fun _ => rfl) h5
  have h7 := step 6 (some 7, true) (fun _ => rfl) h6
  have h8 := step 7 (some 8, true) (fun _ => rfl) h7
  have h9 := step 8 (some 9, true) (fun _ => rfl) h8
  have h10 := step 9 (some 10, true) (fun _ => rfl) h9
  exact step 10 (some 11, true) (fun _ => rfl) h10

theorem ascendingSet_linkHolds :
    LinkHolds (ascendingSet 11).1 (ascendingSet 11).2.header_ ascendingTree :=
  linkHolds_of_treeOf (show treeOf 12 (ascendingSet 11).1 (ascendingSet 11).2 = .ok _ from rfl)

theorem ascendingSet_inv :
    WellFormed (ascendingSet 11).1 (ascendingSet 11).2 ascendingTree ∧ ascendingTree.RedBlack := by
  obtain ⟨tr, hw, hrb, -⟩ := ascendingSet_built.insert_inv
  obtain rfl := LinkHolds.linkHolds_unique hw.1.toLinkHolds ascendingSet_linkHolds
  exact ⟨hw, hrb⟩

/-- C39: in a memory that holds a tree with consistent parent links and the red-black
invariants, `erase(z)` of any data node `z` runs to its end, so no null link is
dereferenced, and it ends in the same state when `erase_rebalance` asserts on the way that
`p` is not the header, that the sibling `w` is present wherever it is assigned, and that
every rotation is called on a node with the child it needs. -/
theorem erase_fixup_never_touches_missing_node [LinearOrder K] {m : Mem K V}
    {t : RedBlackTree} {tr : Tree K V} {z : Nat} (h : Holds m t.header_ tr)
    (hrb : tr.RedBlack) (hz : z ∈ tr.addrs) :
    ∃ m' t', Returns (fun fuel => erase fuel m t (some z)) (m', t') ∧
      Returns (fun fuel => erase_checked true fuel m t (some z)) (m', t') := by
  obtain ⟨m', t', e⟩ := erase_checked_returns (t := t) h ((Tree.uniformBlack_iff tr).1 hrb.2.2)
    hrb.2.1 hz
  refine ⟨m', t', Returns.of_forall tr.size (fun fuel hf => ?_),
    Returns.of_forall tr.size (fun fuel hf => e true fuel hf)⟩
  rw [← erase_checked_false]
  exact e false fuel hf

/-- The theorem applied to the set built from 1, 2, ..., 11 and the node holding 1, a
BLACK leaf.  There the loop of `erase_rebalance` passes its assertions and does not end
within two iterations: in the first the sibling (the node holding 3) is painted RED and
the loop moves up, in the second the sibling's RED child leads to `rotate_left` at the
root. -/
theorem erase_fixup_never_touches_missing_node_witness :
    Holds (ascendingSet 11).1 (ascendingSet 11).2.header_ ascendingTree ∧
    ascendingTree.RedBlack ∧ 1 ∈ ascendingTree.addrs ∧
    ascendingEraseFixup 1 1 = .error .outOfFuel ∧ ascendingEraseFixup 2 1 = .error .outOfFuel ∧
    (∃ r, ascendingEraseFixup 3 1 = .ok r) ∧
    ∃ m' t', Returns (fun fuel => erase fuel (ascendingSet 11).1 (ascendingSet 11).2 (some 1))
        (m', t') ∧
      Returns (fun fuel => erase_checked true fuel (ascendingSet 11).1 (ascendingSet 11).2
        (some 1)) (m', t') :=
  ⟨ascendingSet_inv.1.1, ascendingSet_inv.2, by decide, rfl, rfl, ⟨_, rfl⟩,
    erase_fixup_never_touches_missing_node ascendingSet_inv.1.1 ascendingSet_inv.2 (by decide)⟩

/-- C40: in a well-formed memory whose tree satisfies the red-black invariants, both fixup
loops end within a number of iterations bounded by the height of the tree; a loop that
returns with budget `n` has tested its condition at most `n` times, so it has made at most
`n` iterations.  For every missing-child position of the tree (the root position of an
empty tree included) and every key that is in order there, after a fresh RED leaf is
attached `insert_rebalance` returns with every budget of at least the height of the tree
with that leaf; and for every data node `z`, once `erase` has unlinked and freed `z`, the
call of `erase_rebalance` it makes when the removed colour is BLACK returns with every
budget of at least the height of the tree before the erasure. -/
theorem fixup_loops_terminate_within_height [LinearOrder K] {m : Mem K V}
    {t : RedBlackTree} {tr : Tree K V} (hw : WellFormed m t tr) (hrb : tr.RedBlack) :
    (∀ (p : Path K V) (k : K) (v : V), p.plug .nil = tr → p.slotOK k →
      ∃ m1 m2,
        attach_node t.header_ (m.alloc (k, v)).2 (some m.next) (p.par t.header_) =
          .ok (m1, some m.next) ∧
        ∀ fuel, (p.plug (.node .nil m.next .RED (k, v) .nil)).height ≤ fuel →
          insert_rebalance fuel t.header_ m1 (some m.next) = .ok m2) ∧
    (∀ z, z ∈ tr.addrs →
      ∃ m1 x x_parent y_color m2,
        (∀ fuel, tr.height ≤ fuel →
          erase_detach fuel t.header_ m (some z) = .ok (m1, x, x_parent, y_color)) ∧
        m1.free (some z) = .ok m2 ∧
        (y_color = .BLACK → ∃ m3, ∀ fuel, tr.height ≤ fuel →
          erase_rebalance fuel t.header_ m2 x x_parent = .ok m3)) := by
  constructor
  · intro p k v hplug hslot
    obtain ⟨m1, m2, -, -, e1, e2, -⟩ := insert_tail_spec (v := v) hw hrb.1 hplug hslot 0
    refine ⟨m1, m2, e1, fun fuel hf => e2 fuel ?_⟩
    have := Path.depth_add_height_le p (.node .nil m.next .RED (k, v) .nil : Tree K V)
    simp only [Tree.height] at this
    omega
  · intro z hz
    obtain ⟨m1, p', t', yc, e1, hdet, -, hdepth, -⟩ :=
      erase_detach_spec hw.1 ((Tree.uniformBlack_iff tr).1 hrb.2.2) hrb.2.1 hz
    obtain ⟨nz, hzc⟩ := hdet.choose_spec.2.2.1
    have e2 := Mem.free_of_cell hzc
    obtain ⟨m3, T3, e3, -⟩ := erase_fixup_spec hdet e2
    refine ⟨m1, _, _, yc, _, e1, e2, fun hyc => ⟨m3, fun fuel hf => ?_⟩⟩
    have := e3 false fuel (by omega)
    rw [if_pos hyc, erase_rebalance_checked_false] at this
    exact this

/-- The theorem applied to the empty tree of a fresh set, where the key 5 is inserted at
the root position, and to the set built from 1, 2, ..., 11 (height 5), where the key 12 is
inserted below the node holding 11 and the node holding 1 is erased.  On the latter both
fixup loops make two iterations: `insert_rebalance` runs out of a budget of 1 and returns
with 2 (its second iteration ends with a rotation), the loop of `erase_rebalance` runs out
of a budget of 2 and returns with 3. -/
theorem fixup_loops_terminate_within_height_witness :
    WellFormed freshSet.1 freshSet.2 (Tree.nil : Tree Nat Nat) ∧
    (Tree.nil : Tree Nat Nat).RedBlack ∧
    (∃ m1 m2,
      attach_node freshSet.2.header_ (freshSet.1.alloc (5, 5)).2 (some freshSet.1.next)
        ((Path.top : Path Nat Nat).par freshSet.2.header_) = .ok (m1, some freshSet.1.next) ∧
      ∀ fuel, ((Path.top : Path Nat Nat).plug
          (.node .nil freshSet.1.next .RED (5, 5) .nil)).height ≤ fuel →
        insert_rebalance fuel freshSet.2.header_ m1 (some freshSet.1.next) = .ok m2) ∧
    WellFormed (ascendingSet 11).1 (ascendingSet 11).2 ascendingTree ∧
    ascendingTree.RedBlack ∧ ascendingTree.height = 5 ∧
    ascendingSlot.plug .nil = ascendingTree ∧ ascendingSlot.slotOK 12 ∧
    ascendingInsertFixup 1 12 (some 11) = .error .outOfFuel ∧
    (∃ r, ascendingInsertFixup 2 12 (some 11) = .ok r) ∧
    (∃ m1 m2,
      attach_node (ascendingSet 11).2.header_ ((ascendingSet 11).1.alloc (12, 12)).2
        (some (ascendingSet 11).1.next) (ascendingSlot.par (ascendingSet 11).2.header_) =
          .ok (m1, some (ascendingSet 11).1.next) ∧
      ∀ fuel, (ascendingSlot.plug
          (.node .nil (ascendingSet 11).1.next .RED (12, 12) .nil)).height ≤ fuel →
        insert_rebalance fuel (ascendingSet 11).2.header_ m1 (some (ascendingSet 11).1.next) =
          .ok m2) ∧
    1 ∈ ascendingTree.addrs ∧
    ascendingEraseFixup 2 1 = .error .outOfFuel ∧ (∃ r, ascendingEraseFixup 3 1 = .ok r) ∧
    (∃ m1 x x_parent y_color m2,
      (∀ fuel, ascendingTree.height ≤ fuel →
        erase_detach fuel (ascendingSet 11).2.header_ (ascendingSet 11).1 (some 1) =
          .ok (m1, x, x_parent, y_color)) ∧
      m1.free (some 1) = .ok m2 ∧
      (y_color = .BLACK → ∃ m3, ∀ fuel, ascendingTree.height ≤ fuel →
        erase_rebalance fuel (ascendingSet 11).2.header_ m2 x x_parent = .ok m3)) :=
  ⟨create_wellFormed Mem.empty Mem.empty_valid, Tree.redBlack_nil,
    (fixup_loops_terminate_within_height (create_wellFormed Mem.empty Mem.empty_valid)
      Tree.redBlack_nil).1 .top 5 5 rfl trivial,
    ascendingSet_inv.1, ascendingSet_inv.2, rfl, rfl, by simp [ascendingSlot, Path.slotOK],
    rfl, ⟨_, rfl⟩,
    (fixup_loops_terminate_within_height ascendingSet_inv.1 ascendingSet_inv.2).1
      ascendingSlot 12 12 rfl (by simp [ascendingSlot, Path.slotOK]),
    by decide, rfl, ⟨_, rfl⟩,
    (fixup_loops_terminate_within_height ascendingSet_inv.1 ascendingSet_inv.2).2 1
      (by decide)⟩

/-- The assertions of `erase_checked` do fail on a tree that is not balanced: in
`lopsidedSet`, erasing the BLACK leaf that holds 5 makes `erase_rebalance` look at the
sibling of the vacated position, which is missing; with the assertions the run stops there,
without them `erase` returns. -/
theorem erase_checked_detects_missing_sibling :
    treeOf 5 lopsidedSet.1 lopsidedSet.2 =
      .ok (.node (.node .nil 2 .BLACK (5, 5) .nil) 1 .BLACK (10, 10) .nil) ∧
    erase_checked true 5 lopsidedSet.1 lopsidedSet.2 (some 2) = .error .checkFailed ∧
    ∃ r, erase 5 lopsidedSet.1 lopsidedSet.2 (some 2) = .ok r := ⟨rfl, rfl, _, rfl⟩

/-- C23, a tree on which `clear()` does not run to its end: in the set built by inserting
10, 5, 30, 20, 40, 25, erasing 10 and inserting 22 and 23 the node holding 25 is reached
twice through the child links; `clear()` frees it on the first visit and reads it again on
the second. -/
theorem clear_reads_freed_node_after_erase :
    Returns clearAfterEraseRun ([22, 23, 25, 20, 25, 30, 40], some .nullDeref) :=
  ⟨40, fun fuel hf => by
    obtain ⟨n, rfl⟩ : ∃ n, fuel = n + 40 := ⟨fuel - 40, by omega⟩
    rfl⟩

end Properties

end s21
